import Mathlib

/-!
# darts-clone 0.32e5: a shallow embedding of `darts-clone.h`

The definitions follow `src/0.32e5/darts-clone.h` (the V1 dictionary,
`DoubleArray = DoubleArrayBase<int, 3>`).

Modelling conventions.
* `base_type` values (unit words, extra words, key lengths) are natural
  numbers; every store into a 32-bit word is reduced modulo `2^32`.
  Array indices and sizes are natural numbers.
* `std::vector<T>` is `List T`.  A pointer into a key buffer is the buffer
  together with a position.
* `THROW(msg)` is `Except.error` with the constructor of `DartsError` that
  stands for `msg`.  Loops whose trip count depends on the data carry a fuel
  argument; running out of fuel is the extra error `DartsError.outOfFuel`.
* The tail bytes live in the unit vector itself, after the units of the trie;
  the byte view of a unit word is little-endian.
* In the search routines a read outside the unit array, outside the image or
  past the end of the query buffer has no defined result; it is `none`.
-/

namespace Darts

/-- The messages of `THROW` in darts-clone.h, and `outOfFuel` for a model loop
that exceeded its iteration bound. -/
inductive DartsError where
  | nullPointer
  | nullCharacter
  | unsortedKeys
  | tooLargeOffset
  | tooLargeLink
  | invalidProgressFunction
  | outOfFuel
  deriving DecidableEq

/-! ## DoubleArrayKey -/

/-- Conversion `static_cast<int>` of a 32-bit pattern (two's complement). -/
def toInt32 (n : Nat) : Int :=
  if n % 2 ^ 32 < 2 ^ 31 then ((n % 2 ^ 32 : Nat) : Int) else ((n % 2 ^ 32 : Nat) : Int) - 2 ^ 32

/-- The 32-bit pattern of an `int`. -/
def ofInt32 (v : Int) : Nat := (v % 2 ^ 32).toNat

/-- Class `DoubleArrayKey<int>`: `key` and `pos` stand for the pointer `key_`
(the buffer and how far the pointer has been advanced), `length` is `length_`;
the value `-1` of `length` stands for the `base_type` value `2^32 - 1` that
`--length_` leaves in a key advanced past its end. -/
structure DoubleArrayKey where
  key : List Nat
  pos : Nat
  length : Int
  index : Nat
  value : Int
  deriving DecidableEq

instance : Inhabited DoubleArrayKey := ⟨⟨[], 0, 0, 0, 0⟩⟩

namespace DoubleArrayKey

/-- Reading `key_[i]`: a byte of the buffer; the byte after the buffer is the
terminating zero. -/
def at_ (k : DoubleArrayKey) (i : Nat) : Nat := k.key.getD (k.pos + i) 0

/-- Method `operator[]`. -/
def get (k : DoubleArrayKey) (index : Nat) : Nat :=
  if (index : Int) ≠ k.length then k.at_ index else 0

/-- Method `operator++`: `++key_, --length_`. -/
def inc (k : DoubleArrayKey) : DoubleArrayKey :=
  { k with pos := k.pos + 1, length := k.length - 1 }

/-- Method `operator--`: `--key_, ++length_`. -/
def dec (k : DoubleArrayKey) : DoubleArrayKey :=
  { k with pos := k.pos - 1, length := k.length + 1 }

/-- Method `rkey`. -/
def rkey (k : DoubleArrayKey) (index : Nat) : Nat :=
  if (index : Int) ≠ k.length then k.at_ (k.length - index - 1).toNat else 0

/-- The loop `while ((*this)[i] != 0 && (*this)[i] == rhs[i]) ++i;` of `compare`. -/
def compareLoop (lhs rhs : DoubleArrayKey) : Nat → Nat → Nat
  | 0, i => i
  | fuel + 1, i =>
    if lhs.get i ≠ 0 ∧ lhs.get i = rhs.get i then compareLoop lhs rhs fuel (i + 1) else i

/-- Method `compare`: like `std::strcmp`. -/
def compare (lhs rhs : DoubleArrayKey) : Int :=
  let i := compareLoop lhs rhs (lhs.length.toNat + 1) 0
  (lhs.get i : Int) - (rhs.get i : Int)

/-- The loop `while (rkey(i) != 0 && rkey(i) == rhs.rkey(i)) ++i;`. -/
def rcompareLoop (lhs rhs : DoubleArrayKey) : Nat → Nat → Nat
  | 0, i => i
  | fuel + 1, i =>
    if lhs.rkey i ≠ 0 ∧ lhs.rkey i = rhs.rkey i then rcompareLoop lhs rhs fuel (i + 1) else i

/-- Method `is_suffix_of`. -/
def is_suffix_of (lhs rhs : DoubleArrayKey) : Bool :=
  let i := rcompareLoop lhs rhs (lhs.length.toNat + 1) 0
  lhs.rkey i == 0

/-- Class `ReversedComparisonFunc`: `operator()`. -/
def reversedLess (lhs rhs : DoubleArrayKey) : Bool :=
  let i := rcompareLoop lhs rhs (lhs.length.toNat + 1) 0
  decide (lhs.rkey i > rhs.rkey i)

/-- Constructor `DoubleArrayKey(const char_type *key)`: the length is found by
scanning for the terminating zero. -/
def ofCString (key : List Nat) : DoubleArrayKey :=
  { key := key, pos := 0, length := (key.takeWhile (fun c => c != 0)).length, index := 0, value := 0 }

/-- Constructor `DoubleArrayKey(const char_type *key, size_type length)`, for a
stated length below `2^32`, which `static_cast<base_type>(length)` leaves as it
is. -/
def ofLength (key : List Nat) (length : Nat) : Except DartsError DoubleArrayKey :=
  let k : DoubleArrayKey := { key := key, pos := 0, length := length, index := 0, value := 0 }
  if (List.range length).any (fun i => k.at_ i == 0) then .error .nullCharacter
  else .ok k

end DoubleArrayKey

/-- Class `DoubleArrayKeyRange`: two iterators into `keys_` and a unit index. -/
structure DoubleArrayKeyRange where
  begin_ : Nat
  end_ : Nat
  index : Nat
  deriving DecidableEq

/-- Method `DoubleArrayKeyRange::size`. -/
def DoubleArrayKeyRange.size (r : DoubleArrayKeyRange) : Nat := r.end_ - r.begin_

/-! ## DoubleArrayUnit -/

/-- Class `DoubleArrayUnit<IdBits>`: the 32-bit word `values_`. -/
structure DoubleArrayUnit where
  values : Nat
  deriving DecidableEq

instance : Inhabited DoubleArrayUnit := ⟨⟨0⟩⟩

namespace DoubleArrayUnit

def OFFSET_MAX : Nat := 1 <<< 21

def LINK_BITS (idBits : Nat) : Nat := 32 - 1 - idBits

def VALUE_ID_MAX (idBits : Nat) : Nat := 1 <<< idBits

def UNIT_LINK_MAX (idBits : Nat) : Nat := 1 <<< LINK_BITS idBits

/-- Template `set<OffsetBits, NumOfBits>`. -/
def set (offsetBits numOfBits : Nat) (u : DoubleArrayUnit) (value : Nat) : DoubleArrayUnit :=
  let mask := ((1 <<< numOfBits) - 1) <<< offsetBits
  ⟨(u.values &&& (0xFFFFFFFF - mask)) ||| ((value <<< offsetBits) % 2 ^ 32)⟩

/-- Template `get<OffsetBits, NumOfBits>`. -/
def get (offsetBits numOfBits : Nat) (u : DoubleArrayUnit) : Nat :=
  let mask := ((1 <<< numOfBits) - 1) <<< offsetBits
  (u.values &&& mask) >>> offsetBits

def set_is_leaf (u : DoubleArrayUnit) : DoubleArrayUnit := ⟨u.values ||| 1⟩

def set_is_end (u : DoubleArrayUnit) : DoubleArrayUnit := ⟨u.values ||| 2⟩

def set_label (u : DoubleArrayUnit) (label : Nat) : DoubleArrayUnit := u.set 2 8 label

def set_offset (u : DoubleArrayUnit) (offset : Nat) : Except DartsError DoubleArrayUnit :=
  if offset ≥ OFFSET_MAX <<< 8 then .error .tooLargeOffset
  else .ok (u.set 10 22 (if offset < OFFSET_MAX then offset else (1 <<< 21) + (offset >>> 8)))

def set_value_id (idBits : Nat) (u : DoubleArrayUnit) (value_id : Nat) : DoubleArrayUnit :=
  u.set 1 idBits value_id

def set_link (idBits : Nat) (u : DoubleArrayUnit) (link : Nat) : Except DartsError DoubleArrayUnit :=
  if link ≥ UNIT_LINK_MAX idBits then .error .tooLargeLink
  else .ok (u.set (1 + idBits) (LINK_BITS idBits) link)

def is_leaf (u : DoubleArrayUnit) : Bool := u.values &&& 1 == 1

def is_end (u : DoubleArrayUnit) : Bool := u.values &&& 2 == 2

def label (u : DoubleArrayUnit) : Nat := u.get 2 8

def offset (u : DoubleArrayUnit) : Nat :=
  let offset := u.get 10 22
  if offset < OFFSET_MAX then offset else (offset - OFFSET_MAX) <<< 8

def value_id (idBits : Nat) (u : DoubleArrayUnit) : Nat := u.get 1 idBits

def link (idBits : Nat) (u : DoubleArrayUnit) : Nat := u.get (1 + idBits) (LINK_BITS idBits)

/-- Method `set_index` (used in matching). -/
def set_index (u : DoubleArrayUnit) (index : Nat) : DoubleArrayUnit := u.set 1 31 index

/-- Method `index` (used in matching). -/
def index (u : DoubleArrayUnit) : Nat := u.get 1 31

end DoubleArrayUnit

/-! ## DoubleArrayExtra -/

/-- Class `DoubleArrayExtra`. -/
structure DoubleArrayExtra where
  lo_values : Nat
  hi_values : Nat
  deriving DecidableEq

instance : Inhabited DoubleArrayExtra := ⟨⟨0, 0⟩⟩

namespace DoubleArrayExtra

def clear (_e : DoubleArrayExtra) : DoubleArrayExtra := ⟨0, 0⟩

def set_is_fixed (e : DoubleArrayExtra) : DoubleArrayExtra := { e with lo_values := e.lo_values ||| 1 }

def set_next (e : DoubleArrayExtra) (next : Nat) : DoubleArrayExtra :=
  { e with lo_values := (e.lo_values &&& 1) ||| ((next <<< 1) % 2 ^ 32) }

def set_is_used (e : DoubleArrayExtra) : DoubleArrayExtra := { e with hi_values := e.hi_values ||| 1 }

def set_prev (e : DoubleArrayExtra) (prev : Nat) : DoubleArrayExtra :=
  { e with hi_values := (e.hi_values &&& 1) ||| ((prev <<< 1) % 2 ^ 32) }

def is_fixed (e : DoubleArrayExtra) : Bool := e.lo_values &&& 1 == 1

def next (e : DoubleArrayExtra) : Nat := e.lo_values >>> 1

def is_used (e : DoubleArrayExtra) : Bool := e.hi_values &&& 1 == 1

def prev (e : DoubleArrayExtra) : Nat := e.hi_values >>> 1

end DoubleArrayExtra

/-! ## DoubleArrayBuilder -/

def BLOCK_SIZE : Nat := 256

def NUM_OF_UNFIXED_BLOCKS : Nat := 16

def UNFIXED_SIZE : Nat := BLOCK_SIZE * NUM_OF_UNFIXED_BLOCKS

/-- Class `DoubleArrayBuilder<int, IdBits, ProgressFunc>`.  An entry `none` of
`extras` is a null block pointer; `progress` records the calls of the progress
function. -/
structure DoubleArrayBuilder where
  keys : List DoubleArrayKey
  units : List DoubleArrayUnit
  extras : List (Option (List DoubleArrayExtra))
  unfixed_index : Nat
  num_of_unused_indices : Nat
  tail_index : Nat
  progress : List (Nat × Nat)

namespace DoubleArrayBuilder

/-- The state set up by the constructor. -/
def init (keys : List DoubleArrayKey) : DoubleArrayBuilder :=
  { keys := keys, units := [], extras := [], unfixed_index := 0,
    num_of_unused_indices := 0, tail_index := 0, progress := [] }

/-- Read access `units(index)`. -/
def unit (b : DoubleArrayBuilder) (index : Nat) : DoubleArrayUnit := b.units.getD index default

/-- Write access through `units(index)`. -/
def set_unit (b : DoubleArrayBuilder) (index : Nat) (u : DoubleArrayUnit) : DoubleArrayBuilder :=
  { b with units := b.units.set index u }

/-- Read access `extras(index)`: element `index % BLOCK_SIZE` of block
`index / BLOCK_SIZE`. -/
def extra (b : DoubleArrayBuilder) (index : Nat) : DoubleArrayExtra :=
  match b.extras.getD (index / BLOCK_SIZE) none with
  | some block => block.getD (index % BLOCK_SIZE) default
  | none => default

/-- Write access through `extras(index)`. -/
def set_extra (b : DoubleArrayBuilder) (index : Nat) (e : DoubleArrayExtra) : DoubleArrayBuilder :=
  match b.extras.getD (index / BLOCK_SIZE) none with
  | some block =>
    { b with extras := b.extras.set (index / BLOCK_SIZE) (some (block.set (index % BLOCK_SIZE) e)) }
  | none => b

def num_of_units (b : DoubleArrayBuilder) : Nat := b.units.length

def num_of_blocks (b : DoubleArrayBuilder) : Nat := b.extras.length

/-- The body of `reserve_index` after the test for expansion: removes an empty
unit from the circular linked list. -/
def reserve_index_core (b : DoubleArrayBuilder) (index : Nat) : DoubleArrayBuilder :=
  let b :=
    if index = b.unfixed_index then
      let next := (b.extra index).next
      { b with unfixed_index := if next = index then b.num_of_units else next }
    else b
  let b := b.set_extra (b.extra index).prev ((b.extra (b.extra index).prev).set_next (b.extra index).next)
  let b := b.set_extra (b.extra index).next ((b.extra (b.extra index).next).set_prev (b.extra index).prev)
  b.set_extra index (b.extra index).set_is_fixed

/-- The loop `while (unfixed_index_ < end)` of `fix_block`.  The nested call
`reserve_index(unfixed_index)` has `unfixed_index < end <= num_of_units()`, so
it never expands the trie. -/
def fix_block_loop (end_ unused_offset : Nat) : Nat → DoubleArrayBuilder → Except DartsError DoubleArrayBuilder
  | 0, b => if b.unfixed_index < end_ then .error .outOfFuel else .ok b
  | fuel + 1, b =>
    if b.unfixed_index < end_ then
      let unfixed_index := b.unfixed_index
      let b := b.reserve_index_core unfixed_index
      let b := b.set_unit unfixed_index
        ((b.unit unfixed_index).set_label ((unfixed_index ^^^ unused_offset) % 256))
      fix_block_loop end_ unused_offset fuel
        { b with num_of_unused_indices := b.num_of_unused_indices + 1 }
    else .ok b

/-- Method `fix_block`: adjusts labels of empty units in a given block. -/
def fix_block (b : DoubleArrayBuilder) (block_id : Nat) : Except DartsError DoubleArrayBuilder :=
  let begin_ := block_id * BLOCK_SIZE
  let end_ := begin_ + BLOCK_SIZE
  if b.unfixed_index ≥ end_ then .ok b
  else
    let unused_offset :=
      match (List.range' begin_ BLOCK_SIZE).find? (fun offset => !(b.extra offset).is_used) with
      | some offset => offset
      | none => 0
    fix_block_loop end_ unused_offset BLOCK_SIZE b

/-- The loop of `expand_trie` that links the new units into a circular list. -/
def link_new_units (dest_num_of_units : Nat) : Nat → Nat → DoubleArrayBuilder → DoubleArrayBuilder
  | 0, _, b => b
  | fuel + 1, i, b =>
    if i < dest_num_of_units then
      let b := b.set_extra (i - 1) ((b.extra (i - 1)).set_next i)
      let b := b.set_extra i ((b.extra i).set_prev (i - 1))
      link_new_units dest_num_of_units fuel (i + 1) b
    else b

/-- The part of `expand_trie` that resizes `units_` and `extras_` and then
"fixes old blocks or allocates memory": the extra storage of the new block is
the recycled storage of block `src_num_of_blocks - NUM_OF_UNFIXED_BLOCKS`,
cleared, or a fresh block. -/
def allocate_block (src_num_of_blocks : Nat) (b : DoubleArrayBuilder) : DoubleArrayBuilder :=
  let dest_num_of_blocks := src_num_of_blocks + 1
  let b := { b with units := b.units ++ List.replicate BLOCK_SIZE default,
                    extras := b.extras ++ [none] }
  if dest_num_of_blocks > NUM_OF_UNFIXED_BLOCKS then
    let block_id := src_num_of_blocks - NUM_OF_UNFIXED_BLOCKS
    let old := b.extras.getD block_id none
    let cleared := old.map (fun block => block.map DoubleArrayExtra.clear)
    { b with extras := (b.extras.set block_id none).set src_num_of_blocks cleared }
  else
    { b with extras := b.extras.set src_num_of_blocks (some (List.replicate BLOCK_SIZE default)) }

/-- The part of `expand_trie` that creates a circular linked list of the new
empty units and merges it with the list that starts at `unfixed_index_`. -/
def link_block (src_num_of_units : Nat) (b : DoubleArrayBuilder) : DoubleArrayBuilder :=
  let dest_num_of_units := src_num_of_units + BLOCK_SIZE
  -- Creates a circular linked list of empty units.
  let b := link_new_units dest_num_of_units BLOCK_SIZE (src_num_of_units + 1) b
  let b := b.set_extra src_num_of_units ((b.extra src_num_of_units).set_prev (dest_num_of_units - 1))
  let b := b.set_extra (dest_num_of_units - 1) ((b.extra (dest_num_of_units - 1)).set_next src_num_of_units)
  -- Merges 2 circular linked lists.
  let b := b.set_extra src_num_of_units
    ((b.extra src_num_of_units).set_prev (b.extra b.unfixed_index).prev)
  let b := b.set_extra (dest_num_of_units - 1)
    ((b.extra (dest_num_of_units - 1)).set_next b.unfixed_index)
  let b := b.set_extra (b.extra b.unfixed_index).prev
    ((b.extra (b.extra b.unfixed_index).prev).set_next src_num_of_units)
  b.set_extra b.unfixed_index ((b.extra b.unfixed_index).set_prev (dest_num_of_units - 1))

/-- Method `expand_trie`. -/
def expand_trie (b : DoubleArrayBuilder) : Except DartsError DoubleArrayBuilder := do
  let src_num_of_units := b.num_of_units
  let src_num_of_blocks := b.num_of_blocks
  let dest_num_of_blocks := src_num_of_blocks + 1
  -- Fixes an old block.
  let b ← (if dest_num_of_blocks > NUM_OF_UNFIXED_BLOCKS
    then b.fix_block (src_num_of_blocks - NUM_OF_UNFIXED_BLOCKS) else pure b)
  pure (link_block src_num_of_units (allocate_block src_num_of_blocks b))

/-- Method `reserve_index`: removes an empty unit from the circular linked
list, expanding the trie first when the index is beyond its end. -/
def reserve_index (b : DoubleArrayBuilder) (index : Nat) : Except DartsError DoubleArrayBuilder := do
  let b ← (if index ≥ b.num_of_units then b.expand_trie else pure b)
  pure (b.reserve_index_core index)

/-- Method `fix_all_blocks`: the loop over the block ids. -/
def fix_blocks_from (end_ : Nat) : Nat → Nat → DoubleArrayBuilder → Except DartsError DoubleArrayBuilder
  | 0, _, b => .ok b
  | fuel + 1, block_id, b =>
    if block_id ≠ end_ then do
      let b ← b.fix_block block_id
      fix_blocks_from end_ fuel (block_id + 1) b
    else .ok b

/-- Method `fix_all_blocks`. -/
def fix_all_blocks (b : DoubleArrayBuilder) : Except DartsError DoubleArrayBuilder :=
  let begin_ := if b.num_of_blocks > NUM_OF_UNFIXED_BLOCKS
    then b.num_of_blocks - NUM_OF_UNFIXED_BLOCKS else 0
  let end_ := b.num_of_blocks
  fix_blocks_from end_ (end_ - begin_) begin_ b

/-- The test for a collision in `find_offset_index`:
`for (i = 1; i < labels.size(); ++i) if (extras(offset_index ^ labels[i]).is_fixed())`. -/
def has_collision (b : DoubleArrayBuilder) (offset_index : Nat) (labels : List Nat) : Bool :=
  (labels.drop 1).any (fun label => (b.extra (offset_index ^^^ label)).is_fixed)

/-- The `do ... while (unfixed_index != unfixed_index_)` loop of
`find_offset_index`; `none` when the scan ends without a result. -/
def find_offset_loop (b : DoubleArrayBuilder) (index : Nat) (labels : List Nat) :
    Nat → Nat → Except DartsError (Option Nat)
  | 0, _ => .error .outOfFuel
  | fuel + 1, unfixed_index =>
    let LOWER_MASK := DoubleArrayUnit.OFFSET_MAX - 1
    let UPPER_MASK := 0xFFFFFFFF - LOWER_MASK
    let offset_index := unfixed_index ^^^ labels.getD 0 0
    let offset := index ^^^ offset_index
    if !(b.extra offset_index).is_used
        && (offset &&& LOWER_MASK == 0 || offset &&& UPPER_MASK == 0)
        && !b.has_collision offset_index labels then
      .ok (some offset_index)
    else
      let unfixed_index := (b.extra unfixed_index).next
      if unfixed_index ≠ b.unfixed_index then find_offset_loop b index labels fuel unfixed_index
      else .ok none

/-- Method `find_offset_index`: finds a good offset. -/
def find_offset_index (b : DoubleArrayBuilder) (index : Nat) (labels : List Nat) :
    Except DartsError Nat := do
  let found ← (if b.unfixed_index < b.num_of_units
    then find_offset_loop b index labels b.num_of_units b.unfixed_index else pure none)
  match found with
  | some offset_index => pure offset_index
  | none => pure (b.num_of_units ||| (index &&& 0xFF))

/-- The loop of `build_trie_subroutine` that lists labels and next ranges,
advancing each key of the range by one byte. -/
def list_labels (end_ : Nat) :
    Nat → Nat → List DoubleArrayKey → List Nat → List DoubleArrayKeyRange → Nat →
    List DoubleArrayKey × List Nat × List DoubleArrayKeyRange × Nat
  | 0, _, keys, labels, next_ranges, next_begin => (keys, labels, next_ranges, next_begin)
  | fuel + 1, it, keys, labels, next_ranges, next_begin =>
    if it ≠ end_ then
      let key := keys.getD it default
      let c := key.get 0
      let differs := c ≠ labels.getLastD 0
      let labels := if differs then labels ++ [c] else labels
      let next_ranges := if differs then next_ranges ++ [⟨next_begin, it, 0⟩] else next_ranges
      let next_begin := if differs then it else next_begin
      list_labels end_ fuel (it + 1) (keys.set it key.inc) labels next_ranges next_begin
    else (keys, labels, next_ranges, next_begin)

/-- The loop `for (i = next_ranges.size(); i > 0; )` of `build_trie_subroutine`:
reserves the child units, last label first, and pushes the ranges. -/
def reserve_children (offset_index : Nat) :
    List (Nat × DoubleArrayKeyRange) → DoubleArrayBuilder → List DoubleArrayKeyRange →
    Except DartsError (DoubleArrayBuilder × List DoubleArrayKeyRange)
  | [], b, stack => .ok (b, stack)
  | (label, range) :: rest, b, stack => do
    let child_index := offset_index ^^^ label
    let b ← b.reserve_index child_index
    let b := b.set_unit child_index ((b.unit child_index).set_label label)
    let next_range : DoubleArrayKeyRange := { range with index := child_index }
    reserve_children offset_index rest b (next_range :: stack)

end DoubleArrayBuilder

namespace DoubleArrayBuilder

/-- One iteration of the loop `while (!range_stack.empty())` of
`build_trie_subroutine`, for the range popped from the stack. -/
def build_trie_step (b : DoubleArrayBuilder) (range : DoubleArrayKeyRange)
    (stack : List DoubleArrayKeyRange) :
    Except DartsError (DoubleArrayBuilder × List DoubleArrayKeyRange) :=
  -- Marks a leaf unit.  Note: the root must not be a leaf.
  if range.index ≠ 0 ∧ range.size = 1 then
    let key := (b.keys.getD range.begin_ default).dec
    let b := { b with keys := b.keys.set range.begin_ { key with index := range.index } }
    let b := b.set_unit range.index (b.unit range.index).set_is_leaf
    .ok ({ b with progress := b.progress ++ [(b.progress.length + 1, b.keys.length)] }, stack)
  else do
    -- Lists labels and next ranges.
    let label0 := (b.keys.getD range.begin_ default).get 0
    let b := if label0 = 0 then b.set_unit range.index (b.unit range.index).set_is_end else b
    let listed :=
      list_labels range.end_ (range.end_ - range.begin_) range.begin_ b.keys [label0] [] range.begin_
    let b := { b with keys := listed.1 }
    let labels := listed.2.1
    let next_ranges := listed.2.2.1 ++ [⟨listed.2.2.2, range.end_, 0⟩]
    -- Finds a good offset.
    let offset_index ← b.find_offset_index range.index labels
    let offset := range.index ^^^ offset_index
    let u ← (b.unit range.index).set_offset offset
    let b := b.set_unit range.index u
    let reserved ← reserve_children offset_index (labels.zip next_ranges).reverse b stack
    pure (reserved.1.set_extra offset_index (reserved.1.extra offset_index).set_is_used, reserved.2)

/-- The loop `while (!range_stack.empty())` of `build_trie_subroutine`. -/
def build_trie_loop : Nat → DoubleArrayBuilder → List DoubleArrayKeyRange →
    Except DartsError DoubleArrayBuilder
  | _, b, [] => .ok b
  | 0, _, _ :: _ => .error .outOfFuel
  | fuel + 1, b, range :: stack => do
    let next ← b.build_trie_step range stack
    build_trie_loop fuel next.1 next.2

/-- The iteration bound of `build_trie_loop`: one more than the number of bytes
of all keys, terminators included. -/
def trie_fuel (keys : List DoubleArrayKey) : Nat :=
  (keys.map (fun k => k.length.toNat + 1)).sum + 1

/-- Method `build_trie_subroutine`. -/
def build_trie_subroutine (b : DoubleArrayBuilder) : Except DartsError DoubleArrayBuilder :=
  build_trie_loop (trie_fuel b.keys) b [⟨0, b.keys.length, 0⟩]

/-- Method `build_trie`: builds a minimal prefix trie. -/
def build_trie (b : DoubleArrayBuilder) : Except DartsError DoubleArrayBuilder := do
  -- 0 is reserved for the root, 1 for the number of units.
  let b ← b.reserve_index 0
  let b ← b.reserve_index 1
  -- To avoid invalid transitions.
  let b := b.set_extra 0 (b.extra 0).set_is_used
  let u ← (b.unit 0).set_offset 1
  let b := b.set_unit 0 u
  let b := b.set_unit 0 ((b.unit 0).set_label 0)
  let b := b.set_unit 1 ((b.unit 1).set_label 1)
  let b ← (if !b.keys.isEmpty then b.build_trie_subroutine else pure b)
  -- Fixes remaining blocks.
  let b ← b.fix_all_blocks
  -- Stores the number of units.
  let u ← (b.unit 1).set_offset b.num_of_units
  pure (b.set_unit 1 u)

/-- Byte `pos` of the byte image of a unit vector. -/
def get_byte (units : List DoubleArrayUnit) (pos : Nat) : Nat :=
  ((units.getD (pos / 4) default).values >>> (8 * (pos % 4))) &&& 0xFF

/-- Stores `byte` at position `pos` of the byte image of a unit vector. -/
def set_byte (units : List DoubleArrayUnit) (pos : Nat) (byte : Nat) : List DoubleArrayUnit :=
  let w := (units.getD (pos / 4) default).values
  units.set (pos / 4)
    ⟨(w &&& (0xFFFFFFFF - (0xFF <<< (8 * (pos % 4))))) ||| ((byte % 256) <<< (8 * (pos % 4)))⟩

/-- Method `append_byte`. -/
def append_byte (b : DoubleArrayBuilder) (byte : Nat) : DoubleArrayBuilder :=
  let b := if b.tail_index ≥ 4 * b.num_of_units
    then { b with units := b.units ++ [default] } else b
  { b with units := set_byte b.units b.tail_index byte, tail_index := b.tail_index + 1 }

/-- Method `append_suffix`: `do append_byte(key[i]); while (key[i++]);`. -/
def append_suffix_loop (key : DoubleArrayKey) : Nat → Nat → DoubleArrayBuilder → DoubleArrayBuilder
  | 0, _, b => b
  | fuel + 1, i, b =>
    let b := b.append_byte (key.get i)
    if key.get i ≠ 0 then append_suffix_loop key fuel (i + 1) b else b

/-- Method `append_suffix`. -/
def append_suffix (b : DoubleArrayBuilder) (key : DoubleArrayKey) : DoubleArrayBuilder :=
  append_suffix_loop key (key.length.toNat + 1) 0 b

/-- The bytes of an `int` in memory (little-endian). -/
def value_bytes (value : Int) : List Nat :=
  let n := ofInt32 value
  [n % 256, n / 256 % 256, n / 65536 % 256, n / 16777216 % 256]

/-- Method `append_value`. -/
def append_value (b : DoubleArrayBuilder) (value : Int) : DoubleArrayBuilder :=
  (value_bytes value).foldl append_byte b

/-- The search `while (value_id < values.size() && values[value_id] != value)`. -/
def find_value_id (values : List Int) (value : Int) : Nat :=
  (values.takeWhile (fun v => v != value)).length

/-- The loop `for (i = 0; i < keys_.size(); ++i)` of `arrange_suffixes`; `prev`
is `keys_[i - 1]` (`none` for `i = 0`). -/
def arrange_suffixes_loop (idBits : Nat) :
    List DoubleArrayKey → Option DoubleArrayKey → Nat → List Int → DoubleArrayBuilder →
    Except DartsError DoubleArrayBuilder
  | [], _, _, _, b => .ok b
  | key :: rest, prev, base_link, values, b => do
    let is_suffix := match prev with
      | some p => key.is_suffix_of p
      | none => false
    let value_id := if is_suffix then find_value_id values key.value else 0
    -- If the next suffix cannot be merged into the previous suffix.
    let fresh := !is_suffix || decide (value_id ≥ DoubleArrayUnit.VALUE_ID_MAX idBits)
    let base_link := if fresh then base_link + 4 * values.length + (key.length.toNat + 1) else base_link
    let values := if fresh then [] else values
    let value_id := if fresh then 0 else value_id
    let b := if fresh then b.append_suffix key else b
    -- Links a leaf unit to its suffix.
    let b := b.set_unit key.index ((b.unit key.index).set_value_id idBits value_id)
    let u ← (b.unit key.index).set_link idBits (base_link - key.length.toNat - 1)
    let b := b.set_unit key.index u
    -- Appends a new value.
    if value_id = values.length then
      arrange_suffixes_loop idBits rest (some key) base_link (values ++ [key.value])
        (b.append_value key.value)
    else
      arrange_suffixes_loop idBits rest (some key) base_link values b

/-- The call of `std::stable_sort` with `ReversedComparisonFunc`: a stable
sort, keys that compare greater first. -/
def sort_keys (keys : List DoubleArrayKey) : List DoubleArrayKey :=
  keys.insertionSort (fun a b => ¬ DoubleArrayKey.reversedLess b a = true)

/-- Method `arrange_suffixes`: arranges suffixes so as to reduce memory usage. -/
def arrange_suffixes (idBits : Nat) (b : DoubleArrayBuilder) : Except DartsError DoubleArrayBuilder :=
  let b := { b with tail_index := 4 * b.num_of_units }
  if b.keys.isEmpty then .ok b
  else
    -- Sorts keys in suffix order (`DoubleArraySwitcher<(VALUE_ID_BITS > 0)>`).
    let b := if idBits > 0 then { b with keys := sort_keys b.keys } else b
    arrange_suffixes_loop idBits b.keys none 0 [] b

/-- The static method `DoubleArrayBuilder::build`: the unit vector built from a
set of keys. -/
def build (idBits : Nat) (keys : List DoubleArrayKey) : Except DartsError (List DoubleArrayUnit) := do
  let b ← (init keys).build_trie
  let b ← arrange_suffixes idBits b
  pure b.units

end DoubleArrayBuilder

/-! ## DoubleArrayBase -/

/-- Struct `result_pair_type`. -/
structure result_pair_type where
  value : Int
  length : Nat
  deriving DecidableEq

/-- Class `DoubleArrayBase<int, IdBits>`: `units` is the array `units_` points
to, `tail` is the byte offset of `tail_` in it, `size` is `size_`. -/
structure DoubleArrayBase where
  units : List DoubleArrayUnit
  tail : Nat
  size : Nat
  deriving DecidableEq

namespace DoubleArrayBase

/-- Method `set_array`, for an array of at least 2 units, so that `units_[1]` is
a unit of the array. -/
def set_array (units : List DoubleArrayUnit) (size : Nat) : DoubleArrayBase :=
  { units := units, tail := 4 * (units.getD 1 default).offset, size := size }

/-- Method `set_vector`. -/
def set_vector (new_units : List DoubleArrayUnit) : DoubleArrayBase :=
  set_array new_units new_units.length

/-- The construction of the key object in `build_double_array`: "calculates
lengths of keys if not provided". -/
def make_key (lengths : Option (List Nat)) (key : List Nat) (i : Nat) :
    Except DartsError DoubleArrayKey :=
  match lengths with
  | some ls => DoubleArrayKey.ofLength key (ls.getD i 0)
  | none => .ok (DoubleArrayKey.ofCString key)

/-- The value given to key `i` in `build_double_array`: "uses indices as values
if not provided". -/
def make_value (values : Option (List Int)) (i : Nat) : Int :=
  match values with
  | some vs => vs.getD i 0
  | none => toInt32 i

/-- The loop of `build_double_array` over the input keys; `internal_keys` holds
the `key_count` keys kept so far. -/
def collect_keys (lengths : Option (List Nat)) (values : Option (List Int)) :
    List (List Nat) → Nat → List DoubleArrayKey → Except DartsError (List DoubleArrayKey)
  | [], _, internal_keys => .ok internal_keys
  | key :: rest, i, internal_keys =>
    match make_key lengths key i with
    | .error e => .error e
    | .ok k =>
      -- Keys must be sorted in dictionary order.  Also, repeated keys are ignored.
      let result : Int := match internal_keys.getLast? with
        | some last => last.compare k
        | none => -1
      if internal_keys ≠ [] ∧ result = 0 then collect_keys lengths values rest (i + 1) internal_keys
      else if internal_keys ≠ [] ∧ result > 0 then .error .unsortedKeys
      else
        collect_keys lengths values rest (i + 1)
          (internal_keys ++ [{ k with value := make_value values i }])

/-- The end of `build_double_array`: the outcome `built` of the builder is
stored by `set_vector`, unless the builder raised an error. -/
def store_built (self : DoubleArrayBase) (built : Except DartsError (List DoubleArrayUnit)) :
    DoubleArrayBase × Except DartsError Unit :=
  match built with
  | .error e => (self, .error e)
  | .ok new_units => (set_vector new_units, .ok ())

/-- The part of `build_double_array` after the loop over the input keys, for
the outcome `collected` of the loop. -/
def build_collected (self : DoubleArrayBase) (idBits : Nat)
    (collected : Except DartsError (List DoubleArrayKey)) :
    DoubleArrayBase × Except DartsError Unit :=
  match collected with
  | .error e => (self, .error e)
  | .ok internal_keys =>
    -- Builds a double-array and deletes the old one.
    store_built self (DoubleArrayBuilder.build idBits internal_keys)

/-- Method `build_double_array` as a transformer of the dictionary object
`self`: the object after the call and the outcome, `Except.error` for a
`THROW`.  The members are assigned by `set_vector` only, the last statement.
`keys` is `none` for a null pointer. -/
def build_double_array (self : DoubleArrayBase) (idBits : Nat) (num_of_keys : Nat)
    (keys : Option (List (List Nat))) (lengths : Option (List Nat)) (values : Option (List Int)) :
    DoubleArrayBase × Except DartsError Unit :=
  if num_of_keys > 0 ∧ keys.isNone then (self, .error .nullPointer)
  else build_collected self idBits
    (collect_keys lengths values ((keys.getD []).take num_of_keys) 0 [])

/-- The dictionary a call of `build` leaves when it returns 0, or the error it
raises. -/
def build_outcome (r : DoubleArrayBase × Except DartsError Unit) :
    Except DartsError DoubleArrayBase :=
  match r.2 with
  | .error e => .error e
  | .ok _ => .ok r.1

/-- Method `build` on a new dictionary object: the dictionary it leaves when it
returns 0, or the error raised. -/
def build (idBits : Nat) (num_of_keys : Nat) (keys : Option (List (List Nat)))
    (lengths : Option (List Nat)) (values : Option (List Int)) :
    Except DartsError DoubleArrayBase :=
  build_outcome (build_double_array ⟨[], 0, 0⟩ idBits num_of_keys keys lengths values)

/-- The units read by `file.read(&new_units[0], num_of_units)` from a sequence
of bytes (little-endian words). -/
def units_of_bytes : Nat → List Nat → List DoubleArrayUnit
  | 0, _ => []
  | n + 1, bytes =>
    ⟨bytes.getD 0 0 + 256 * bytes.getD 1 0 + 65536 * bytes.getD 2 0 + 16777216 * bytes.getD 3 0⟩ ::
      units_of_bytes n (bytes.drop 4)

/-- Method `open`, for a file given by its contents (`none` when it cannot be
opened); the result is `none` for `return -1`. -/
def open_ (file : Option (List Nat)) (offset size : Nat) : Option DoubleArrayBase :=
  match file with
  | none => none
  | some bytes =>
    let size? := if size = 0
      then (if bytes.length ≤ offset then none else some (bytes.length - offset))
      else some size
    match size? with
    | none => none
    | some size =>
      if size % 4 ≠ 0 then none
      else
        let num_of_units := size / 4
        if offset + 4 * num_of_units ≤ bytes.length then
          some (set_vector (units_of_bytes num_of_units (bytes.drop offset)))
        else none

/-- Reading `units_[index]`. -/
def unit? (da : DoubleArrayBase) (index : Nat) : Option DoubleArrayUnit := da.units[index]?

/-- Reading `tail_[i]`, a byte of the image. -/
def tail? (da : DoubleArrayBase) (i : Nat) : Option Nat :=
  if (da.tail + i) / 4 < da.units.length then
    some (DoubleArrayBuilder.get_byte da.units (da.tail + i)) else none

/-- The overload `set_result_value(value_type &, const uchar_type *tail)`: the
`int` whose bytes are `tail[0 .. 3]`. -/
def get_value (da : DoubleArrayBase) (t : Nat) : Option Int := do
  let b0 ← da.tail? t
  let b1 ← da.tail? (t + 1)
  let b2 ← da.tail? (t + 2)
  let b3 ← da.tail? (t + 3)
  pure (toInt32 (b0 + 256 * b1 + 65536 * b2 + 16777216 * b3))

/-- The bytes `*query` yields as the query is advanced: `DoubleArrayQuery` for
`length = 0` (the zero-terminated buffer), `DoubleArrayLengthQuery` otherwise
(a zero at position `length`). -/
def query_bytes (key : List Nat) (length : Nat) : List Nat :=
  if length = 0 then key ++ [0] else (key ++ [0]).set length 0

/-- The loop `for (index = agent.index(); ; ++query)` of `exact_match_search`.
The result is `none` for an undefined read, `some none` for `return false`,
and the leaf unit with the remaining query for `break`. -/
def exact_match_units (da : DoubleArrayBase) :
    List Nat → Nat → Nat → Option (Option (DoubleArrayUnit × List Nat × Nat))
  | [], _, _ => none
  | c :: rest, index, pos => do
    let u0 ← da.unit? index
    let u ← da.unit? (index ^^^ (u0.offset ^^^ c))
    if u.is_leaf then pure (some (u, c :: rest, pos))
    else if u.label ≠ c then pure none
    else exact_match_units da rest (index ^^^ (u0.offset ^^^ c)) (pos + 1)

/-- The loop `for (tail = &tail_[agent.link()]; *tail == *query; ++tail, ++query)`
of `exact_match_search`. -/
def exact_match_tail (idBits : Nat) (da : DoubleArrayBase) (agent : DoubleArrayUnit)
    (result : result_pair_type) :
    List Nat → Nat → Nat → Option (Bool × result_pair_type)
  | [], _, _ => none
  | c :: rest, t, pos => do
    let byte ← da.tail? t
    if byte = c then
      if byte = 0 then do
        let value ← da.get_value (t + (4 * agent.value_id idBits + 1))
        pure (true, { value := value, length := pos })
      else exact_match_tail idBits da agent result rest (t + 1) (pos + 1)
    else pure (false, result)

/-- Method `exact_match_search`. -/
def exact_match_search (idBits : Nat) (da : DoubleArrayBase) (query : List Nat) (pos : Nat)
    (result : result_pair_type) (agent : DoubleArrayUnit) : Option (Bool × result_pair_type) :=
  if !agent.is_leaf then
    match exact_match_units da query agent.index pos with
    | none => none
    | some none => some (false, { result with value := -1 })
    | some (some (agent, query, pos)) =>
      exact_match_tail idBits da agent { result with value := -1 } query (agent.link idBits) pos
  else
    exact_match_tail idBits da agent { result with value := -1 } query (agent.link idBits) pos

/-- Method `exactMatchSearch`. -/
def exactMatchSearch (idBits : Nat) (da : DoubleArrayBase) (key : List Nat)
    (result : result_pair_type) (length : Nat) (agent : Nat) :
    Option (Bool × result_pair_type) :=
  exact_match_search idBits da (query_bytes key length) 0 result ⟨agent % 2 ^ 32⟩

/-- The statement `if (num_of_results < max_num_of_results)
set_result(results[num_of_results], tail, length);` for the tail position `t`. -/
def put_result (da : DoubleArrayBase) (results : List result_pair_type)
    (max_num_of_results num_of_results t length : Nat) : Option (List result_pair_type) :=
  if num_of_results < max_num_of_results then do
    let value ← da.get_value t
    pure (results.set num_of_results { value := value, length := length })
  else pure results

/-- The block "extracts a prefix" of `common_prefix_search`: the results and
their number after it. -/
def extract_result (idBits : Nat) (da : DoubleArrayBase) (max_num_of_results : Nat)
    (c : Nat) (u0 : DoubleArrayUnit) (index pos : Nat) (results : List result_pair_type)
    (num_of_results : Nat) : Option (List result_pair_type × Nat) :=
  if c ≠ 0 ∧ u0.is_end then do
    let stray ← da.unit? (index ^^^ u0.offset)
    let results ← put_result da results max_num_of_results num_of_results
      (stray.link idBits + (4 * stray.value_id idBits + 1)) pos
    pure (results, num_of_results + 1)
  else pure (results, num_of_results)

/-- The loop `for (index = agent.index(); ; ++query)` of `common_prefix_search`.
The result is `none` for an undefined read; otherwise the results, their number
and, for `break`, the leaf unit with the remaining query. -/
def common_prefix_units (idBits : Nat) (da : DoubleArrayBase) (max_num_of_results : Nat) :
    List Nat → Nat → Nat → List result_pair_type → Nat →
    Option (List result_pair_type × Nat × Option (DoubleArrayUnit × List Nat × Nat))
  | [], _, _, _, _ => none
  | c :: rest, index, pos, results, num_of_results => do
    let u0 ← da.unit? index
    -- Extracts a prefix.
    let extracted ← extract_result idBits da max_num_of_results c u0 index pos results num_of_results
    let u ← da.unit? (index ^^^ (u0.offset ^^^ c))
    if u.is_leaf then pure (extracted.1, extracted.2, some (u, c :: rest, pos))
    else if u.label ≠ c then pure (extracted.1, extracted.2, none)
    else
      common_prefix_units idBits da max_num_of_results rest (index ^^^ (u0.offset ^^^ c))
        (pos + 1) extracted.1 extracted.2

/-- The loop `while (*tail != 0 && *tail == *query) ++tail, ++query;` of
`common_prefix_search`: the final tail position and query index, when the loop
stops at a zero tail byte (`true`) or at a mismatch (`false`). -/
def common_prefix_tail (da : DoubleArrayBase) : List Nat → Nat → Nat → Option (Bool × Nat × Nat)
  | [], t, pos => do
    let byte ← da.tail? t
    if byte = 0 then pure (true, t, pos) else none
  | c :: rest, t, pos => do
    let byte ← da.tail? t
    if byte = 0 then pure (true, t, pos)
    else if byte = c then common_prefix_tail da rest (t + 1) (pos + 1)
    else pure (false, t, pos)

/-- The part of `common_prefix_search` that compares suffixes. -/
def common_prefix_suffix (idBits : Nat) (da : DoubleArrayBase) (max_num_of_results : Nat)
    (agent : DoubleArrayUnit) (query : List Nat) (pos : Nat)
    (results : List result_pair_type) (num_of_results : Nat) :
    Option (Nat × List result_pair_type) := do
  let byte ← da.tail? (agent.link idBits)
  let c ← query.head?
  if byte ≠ c then pure (num_of_results, results)
  else
    let stop ← common_prefix_tail da query (agent.link idBits) pos
    if stop.1 then
      let results ← put_result da results max_num_of_results num_of_results
        (stop.2.1 + (4 * agent.value_id idBits + 1)) stop.2.2
      pure (num_of_results + 1, results)
    else pure (num_of_results, results)

/-- Method `common_prefix_search`: the number of results and the array
`results` after the call. -/
def common_prefix_search (idBits : Nat) (da : DoubleArrayBase) (query : List Nat) (pos : Nat)
    (results : List result_pair_type) (max_num_of_results : Nat) (agent : DoubleArrayUnit) :
    Option (Nat × List result_pair_type) :=
  if !agent.is_leaf then
    match common_prefix_units idBits da max_num_of_results query agent.index pos results 0 with
    | none => none
    | some (results, num_of_results, none) => some (num_of_results, results)
    | some (results, num_of_results, some (agent, query, pos)) =>
      common_prefix_suffix idBits da max_num_of_results agent query pos results num_of_results
  else
    common_prefix_suffix idBits da max_num_of_results agent query pos results 0

/-- Method `commonPrefixSearch`. -/
def commonPrefixSearch (idBits : Nat) (da : DoubleArrayBase) (key : List Nat)
    (results : List result_pair_type) (max_num_of_results : Nat)
    (length : Nat) (agent : Nat) : Option (Nat × List result_pair_type) :=
  common_prefix_search idBits da (query_bytes key length) 0 results max_num_of_results
    ⟨agent % 2 ^ 32⟩

/-- How the loop `for ( ; *query != 0; ++query)` of `traverse` ends. -/
inductive TraverseExit where
  | mismatch (agent : DoubleArrayUnit) (pos : Nat)
  | leaf (index : Nat) (agent : DoubleArrayUnit) (query : List Nat) (pos : Nat)
  | done (index : Nat) (agent : DoubleArrayUnit) (query : List Nat) (pos : Nat)

/-- The loop `for ( ; *query != 0; ++query)` of the private `traverse`. -/
def traverse_units (da : DoubleArrayBase) :
    List Nat → Nat → DoubleArrayUnit → Nat → Option TraverseExit
  | [], _, _, _ => none
  | c :: rest, index, agent, pos =>
    if c = 0 then some (.done index agent (c :: rest) pos)
    else do
      let u0 ← da.unit? index
      let u ← da.unit? (index ^^^ (u0.offset ^^^ c))
      if u.is_leaf then pure (.leaf (index ^^^ (u0.offset ^^^ c)) agent (c :: rest) pos)
      else if u.label ≠ c then pure (.mismatch agent pos)
      else
        traverse_units da rest (index ^^^ (u0.offset ^^^ c))
          (agent.set_index (index ^^^ (u0.offset ^^^ c))) (pos + 1)

/-- The statements `agent.set_link(tail - tail_); return value;` that end the
private `traverse`. -/
def traverse_return (idBits : Nat) (agent : DoubleArrayUnit) (t : Nat) (value : Int) (pos : Nat) :
    Except DartsError (Int × DoubleArrayUnit × Nat) :=
  match agent.set_link idBits t with
  | .error e => .error e
  | .ok agent => .ok (value, agent, pos)

/-- The loop `for ( ; *tail == *query; ++tail, ++query)` of the private
`traverse` with the statements after it: the value, the agent and the query
index. -/
def traverse_tail (idBits : Nat) (da : DoubleArrayBase) (agent : DoubleArrayUnit) :
    List Nat → Nat → Nat → Option (Except DartsError (Int × DoubleArrayUnit × Nat))
  | [], _, _ => none
  | c :: rest, t, pos => do
    let byte ← da.tail? t
    if byte = c then
      if byte = 0 then
        match agent.set_link idBits t with
        | .error e => pure (.error e)
        | .ok agent => do
          let value ← da.get_value (t + (4 * agent.value_id idBits + 1))
          pure (.ok (value, agent, pos))
      else traverse_tail idBits da agent rest (t + 1) (pos + 1)
    else pure (traverse_return idBits agent t (if c = 0 then -1 else -2) pos)

/-- The part "checks a transition with a null character" of the private
`traverse`. -/
def traverse_end (idBits : Nat) (da : DoubleArrayBase) (index : Nat) (agent : DoubleArrayUnit)
    (pos : Nat) : Option (Except DartsError (Int × DoubleArrayUnit × Nat)) := do
  let u ← da.unit? index
  if !u.is_end then pure (.ok (-1, agent, pos))
  else
    let stray ← da.unit? (index ^^^ u.offset)
    let value ← da.get_value (stray.link idBits + (4 * stray.value_id idBits + 1))
    pure (.ok (value, agent, pos))

/-- The private method `traverse`: the value, the agent and the query index
after the call. -/
def traverse_query (idBits : Nat) (da : DoubleArrayBase) (query : List Nat) (pos : Nat)
    (agent : DoubleArrayUnit) : Option (Except DartsError (Int × DoubleArrayUnit × Nat)) :=
  if !agent.is_leaf then
    match traverse_units da query agent.index agent pos with
    | none => none
    | some (.mismatch agent pos) => some (.ok (-2, agent, pos))
    | some (.done index agent _ pos) => traverse_end idBits da index agent pos
    | some (.leaf index _ query pos) =>
      match da.unit? index with
      | none => none
      | some agent => traverse_tail idBits da agent query (agent.link idBits) pos
  else
    traverse_tail idBits da agent query (agent.link idBits) pos

/-- The public method `traverse`: the value and the new values of `agent` and
`key_index`. -/
def traverse (idBits : Nat) (da : DoubleArrayBase) (key : List Nat) (agent : Nat)
    (key_index : Nat) (length : Nat) : Option (Except DartsError (Int × Nat × Nat)) :=
  match traverse_query idBits da ((query_bytes key length).drop key_index) key_index
      ⟨agent % 2 ^ 32⟩ with
  | none => none
  | some (.error e) => some (.error e)
  | some (.ok (value, unit, key_index)) => some (.ok (value, unit.values, key_index))

end DoubleArrayBase

end Darts

/-! ## Definitions used in the statements and proofs -/

namespace Darts

/-- A unit word that fits in 32 bits. -/
def DoubleArrayUnit.wf (u : DoubleArrayUnit) : Prop := u.values < 2 ^ 32

namespace DoubleArrayBuilder

/-- The first block whose extra storage has not been recycled. -/
def first_live (b : DoubleArrayBuilder) : Nat := b.num_of_blocks - NUM_OF_UNFIXED_BLOCKS

/-- The block of index `j` has extra storage. -/
def Live (b : DoubleArrayBuilder) (j : Nat) : Prop :=
  ∃ block, b.extras.getD (j / BLOCK_SIZE) none = some block ∧ block.length = BLOCK_SIZE

/-- Unit `j` is in the free list: its block has extra storage and it is not fixed. -/
def Free (b : DoubleArrayBuilder) (j : Nat) : Prop :=
  BLOCK_SIZE * b.first_live ≤ j ∧ j < b.num_of_units ∧ (b.extra j).is_fixed = false

/-- Unit `j` has been reserved. -/
def Fixed (b : DoubleArrayBuilder) (j : Nat) : Prop :=
  j < b.num_of_units ∧ (j < BLOCK_SIZE * b.first_live ∨ (b.extra j).is_fixed = true)

end DoubleArrayBuilder

/-- `y` follows `x` in the ascending circular order of `S`: it is the least
element above `x`, or the least element of all when `x` is the greatest. -/
def IsSucc (S : Nat → Prop) (x y : Nat) : Prop :=
  S y ∧ ∀ z, S z → (x < z → y ≤ z) ∧ (y ≤ x → y ≤ z ∧ z ≤ x)

/-- `y` precedes `x` in the ascending circular order of `S`. -/
def IsPred (S : Nat → Prop) (x y : Nat) : Prop :=
  S y ∧ ∀ z, S z → (z < x → z ≤ y) ∧ (x ≤ y → z ≤ y ∧ x ≤ z)

/-- `h` is the least element of `S`, or `n` when `S` is empty. -/
def IsHead (S : Nat → Prop) (n h : Nat) : Prop :=
  (S h ∧ ∀ z, S z → h ≤ z) ∨ (h = n ∧ ∀ z, ¬ S z)

/-- The state of the block allocator is consistent: the extra blocks of the
last `NUM_OF_UNFIXED_BLOCKS` blocks are allocated, and the units that are not
fixed form an ascending circular doubly-linked list that starts at
`unfixed_index`. -/
structure DoubleArrayBuilder.AllocInv (b : DoubleArrayBuilder) : Prop where
  size_eq : b.units.length = BLOCK_SIZE * b.extras.length
  live : ∀ j, BLOCK_SIZE * b.first_live ≤ j → j < b.num_of_units → b.Live j
  wf : ∀ j, (b.unit j).wf
  free_zero : ∀ j, b.Free j → b.unit j = default
  succ : ∀ x, b.Free x → IsSucc b.Free x (b.extra x).next
  pred : ∀ x, b.Free x → IsPred b.Free x (b.extra x).prev
  head : IsHead b.Free b.num_of_units b.unfixed_index

/-- What the loop of `fix_block` up to `end_` with the offset `unused_offset`
does to a builder. -/
structure DoubleArrayBuilder.FixBlockPost (end_ unused_offset : Nat)
    (b b' : DoubleArrayBuilder) : Prop where
  inv : b'.AllocInv
  free : ∀ j, b'.Free j ↔ (b.Free j ∧ end_ ≤ j)
  unit_new : ∀ j, b.Free j → j < end_ →
    b'.unit j = (b.unit j).set_label ((j ^^^ unused_offset) % 256)
  unit_old : ∀ j, ¬ (b.Free j ∧ j < end_) → b'.unit j = b.unit j
  fixed_new : ∀ j, b.Free j → j < end_ → (b'.extra j).is_fixed = true
  fixed_old : ∀ j, ¬ (b.Free j ∧ j < end_) → (b'.extra j).is_fixed = (b.extra j).is_fixed
  used : ∀ j, (b'.extra j).is_used = (b.extra j).is_used
  live : ∀ j, b'.Live j ↔ b.Live j
  keys : b'.keys = b.keys
  progress : b'.progress = b.progress
  tail_index : b'.tail_index = b.tail_index
  units_length : b'.units.length = b.units.length
  extras_length : b'.extras.length = b.extras.length

namespace DoubleArrayBuilder

/-- Every offset marked as used in a block with extra storage is the implied
base `j XOR label(j)` of some reserved unit `j`. -/
def UsedCovered (b : DoubleArrayBuilder) : Prop :=
  ∀ u, BLOCK_SIZE * b.first_live ≤ u → u < b.num_of_units → (b.extra u).is_used = true →
    ∃ j, b.Fixed j ∧ j ^^^ (b.unit j).label = u

/-- The offsets in `IsBase` lie in the array and are marked as used as long as
their block has extra storage. -/
def BasesUsed (IsBase : Nat → Prop) (b : DoubleArrayBuilder) : Prop :=
  ∀ u, IsBase u → u < b.num_of_units ∧
    (BLOCK_SIZE * b.first_live ≤ u → (b.extra u).is_used = true)

/-- Unit `j` was fixed by `fix_block`: its block has been recycled, it is not a
leaf and its label does not lead back to any base in `IsBase`. -/
def Dead (IsBase : Nat → Prop) (b : DoubleArrayBuilder) (j : Nat) : Prop :=
  j < BLOCK_SIZE * b.first_live ∧ ¬ IsBase (j ^^^ (b.unit j).label) ∧ (b.unit j).is_leaf = false

/-- Two builders that differ in the contents of the extras only. -/
structure SameButExtras (b b' : DoubleArrayBuilder) : Prop where
  units : b'.units = b.units
  keys : b'.keys = b.keys
  progress : b'.progress = b.progress
  tail_index : b'.tail_index = b.tail_index
  unfixed_index : b'.unfixed_index = b.unfixed_index
  extras_length : b'.extras.length = b.extras.length
  live : ∀ j, b'.Live j ↔ b.Live j

/-- What a run of allocator operations preserves; `R` holds the indices that
were reserved explicitly. -/
structure Evolves (IsBase R : Nat → Prop) (b b' : DoubleArrayBuilder) : Prop where
  keys : b'.keys = b.keys
  progress : b'.progress = b.progress
  num_le : b.num_of_units ≤ b'.num_of_units
  first_live_le : b.first_live ≤ b'.first_live
  fixed_mono : ∀ j, b.Fixed j → b'.Fixed j
  unit_fixed : ∀ j, b.Fixed j → b'.unit j = b.unit j
  used : ∀ j, BLOCK_SIZE * b'.first_live ≤ j → (b'.extra j).is_used = (b.extra j).is_used
  newly : ∀ j, b'.Fixed j → ¬ b.Fixed j → R j ∨ Dead IsBase b' j

end DoubleArrayBuilder

/-- What `expand_trie` does to a builder: a new block of free units is
appended, and the free units of the block that leaves the window of unfixed
blocks are fixed with labels that lead back to no base in `IsBase`. -/
structure DoubleArrayBuilder.Grown (IsBase : Nat → Prop) (b b' : DoubleArrayBuilder) : Prop where
  inv : b'.AllocInv
  num : b'.num_of_units = b.num_of_units + 256
  blocks : b'.extras.length = b.extras.length + 1
  keys : b'.keys = b.keys
  progress : b'.progress = b.progress
  free_iff : ∀ j, b'.Free j ↔
    ((b.Free j ∧ 256 * b'.first_live ≤ j) ∨ (b.num_of_units ≤ j ∧ j < b.num_of_units + 256))
  dead : ∀ j, b.Free j → j < 256 * b'.first_live →
    ¬ IsBase (j ^^^ (b'.unit j).label) ∧ (b'.unit j).is_leaf = false
  unit_eq : ∀ j, ¬ b.Free j → b'.unit j = b.unit j
  used : ∀ j, 256 * b'.first_live ≤ j → (b'.extra j).is_used = (b.extra j).is_used

/-- What `reserve_index(i)` does to a builder. -/
structure DoubleArrayBuilder.Reserved (IsBase : Nat → Prop) (i : Nat)
    (b b' : DoubleArrayBuilder) : Prop where
  inv : b'.AllocInv
  evolves : DoubleArrayBuilder.Evolves IsBase (fun j => j = i) b b'
  fixed : b'.Fixed i
  unit_eq : b'.unit i = default
  num_old : i < b.num_of_units → b'.num_of_units = b.num_of_units
  num_new : b.num_of_units ≤ i → b'.num_of_units = b.num_of_units + 256
  free_old : i < b.num_of_units → ∀ j, b'.Free j ↔ (b.Free j ∧ j ≠ i)
  free_new : b.num_of_units ≤ i →
    ∀ j, b.num_of_units ≤ j → j < b.num_of_units + 256 → j ≠ i → b'.Free j

/-- The bytes of a key that are still to be read: `length` bytes from `pos`. -/
def DoubleArrayKey.bytes (k : DoubleArrayKey) : List Nat :=
  (k.key.drop k.pos).take k.length.toNat

/-- A key is well formed: its bytes lie in the buffer and none of them is zero. -/
structure DoubleArrayKey.WF (k : DoubleArrayKey) : Prop where
  length_nonneg : 0 ≤ k.length
  in_buffer : k.pos + k.length.toNat ≤ k.key.length
  nonzero : ∀ c ∈ k.bytes, c ≠ 0

/-- The result of `strcmp` on two zero-free byte strings. -/
def strcmp : List Nat → List Nat → Int
  | [], [] => 0
  | [], b :: _ => - (b : Int)
  | a :: _, [] => (a : Int)
  | a :: as, b :: bs => if a = b then strcmp as bs else (a : Int) - (b : Int)

/-- A byte string that can be a key: every byte is a non-zero `unsigned char`. -/
def ValidKey (k : List Nat) : Prop := ∀ c ∈ k, 0 < c ∧ c < 256

instance (k : List Nat) : Decidable (ValidKey k) := by unfold ValidKey; infer_instance

/-- The state of the loop of `build_double_array` after `n` input keys: every
key kept is the first occurrence of its byte string and carries the value of
that position, the keys kept are strictly ascending, and every byte string among
the first `n` keys has been kept. -/
structure Collected (inp : List (List Nat)) (values : Option (List Int)) (n : Nat)
    (acc : List DoubleArrayKey) : Prop where
  entry : ∀ e ∈ acc, e.WF ∧ e.pos = 0 ∧ e.index = 0 ∧ e.length = e.key.length ∧
    ∃ i, i < n ∧ e.key = inp.getD i [] ∧ e.value = DoubleArrayBase.make_value values i ∧
      ∀ j, j < i → inp.getD j [] ≠ inp.getD i []
  sorted : acc.Chain' (fun a b => List.Lex (· < ·) a.bytes b.bytes)
  complete : ∀ i, i < n → ∃ e ∈ acc, e.key = inp.getD i []
  last : 0 < n → ∃ e, acc.getLast? = some e ∧ e.key = inp.getD (n - 1) []

/-- The part of `Collected` that does not depend on the order of the input. -/
structure CollectedBasic (inp : List (List Nat)) (n : Nat) (acc : List DoubleArrayKey) : Prop where
  wf : ∀ e ∈ acc, e.WF ∧ e.pos = 0 ∧ e.length = e.key.length
  empty : n = 0 → acc = []
  last : 0 < n → ∃ e, acc.getLast? = some e ∧ e.key = inp.getD (n - 1) []

/-- The errors the builder can raise: a too large offset or link, or (in the
model only) a loop that ran out of fuel. -/
def BuilderError (e : DartsError) : Prop :=
  e = .tooLargeOffset ∨ e = .tooLargeLink ∨ e = .outOfFuel

/-- Every error of the computation `x` satisfies `P`. -/
def OnlyErr {α : Type} (P : DartsError → Prop) (x : Except DartsError α) : Prop :=
  ∀ e, x = .error e → P e

/-- The result arrays `r1` and `r2` of two runs of a search with the capacities
`c1` and `c2` on the array `r0`: they agree below `c1`, and each run leaves the
slots from its capacity on as they were. -/
def SameResults (c1 c2 : Nat) (r0 r1 r2 : List result_pair_type) : Prop :=
  (∀ i, i < c1 → r1[i]? = r2[i]?) ∧ (∀ i, c1 ≤ i → r1[i]? = r0[i]?) ∧
    (∀ i, c2 ≤ i → r2[i]? = r0[i]?)

/-- The state of the loop of `build_trie_subroutine` that lists labels and
ranges, at the iterator `it`: `Z` holds the closed runs, `cur` is the label of
the open run, which starts at `nb`; `c i` is the first byte of key `i`. -/
structure RunsInv (c : Nat → Nat) (s it : Nat) (Z : List (Nat × DoubleArrayKeyRange))
    (cur nb : Nat) : Prop where
  run : ∀ x ∈ Z, s ≤ x.2.begin_ ∧ x.2.begin_ < x.2.end_ ∧ x.2.end_ ≤ nb ∧
    ∀ i, x.2.begin_ ≤ i → i < x.2.end_ → c i = x.1
  cover : ∀ i, s ≤ i → i < nb → ∃ x ∈ Z, x.2.begin_ ≤ i ∧ i < x.2.end_
  ordered : Z.Pairwise (fun x y => x.2.end_ ≤ y.2.begin_)
  labels : (Z.map Prod.fst).Pairwise (· < ·)
  below : ∀ x ∈ Z, x.1 < cur
  sizes : (Z.map (fun x => x.2.size)).sum = nb - s
  cur_eq : cur = c nb
  open_run : ∀ i, nb ≤ i → i < it → c i = cur
  le : s ≤ nb ∧ nb ≤ it
  lt : s < it → nb < it

/-- The labels and ranges listed for the range `[s, e)`: the runs of equal
first bytes, in ascending order. -/
structure Runs (c : Nat → Nat) (s e : Nat) (Z : List (Nat × DoubleArrayKeyRange)) : Prop where
  run : ∀ x ∈ Z, s ≤ x.2.begin_ ∧ x.2.begin_ < x.2.end_ ∧ x.2.end_ ≤ e ∧
    ∀ i, x.2.begin_ ≤ i → i < x.2.end_ → c i = x.1
  cover : ∀ i, s ≤ i → i < e → ∃ x ∈ Z, x.2.begin_ ≤ i ∧ i < x.2.end_
  ordered : Z.Pairwise (fun x y => x.2.end_ ≤ y.2.begin_)
  labels : (Z.map Prod.fst).Pairwise (· < ·)
  sizes : (Z.map (fun x => x.2.size)).sum = e - s
  head : (Z.map Prod.fst).head? = some (c s)

/-- The bytes of a key followed by the terminating zero. -/
def DoubleArrayKey.ext (k : DoubleArrayKey) : List Nat := k.bytes ++ [0]

/-- The keys given to the builder: well formed, not advanced, bytes below 256,
strictly ascending. -/
structure KeysOK (K : List DoubleArrayKey) : Prop where
  wf : ∀ k ∈ K, k.WF ∧ k.pos = 0
  byte : ∀ k ∈ K, ∀ c ∈ k.bytes, c < 256
  sorted : K.Pairwise (fun a b => List.Lex (· < ·) a.bytes b.bytes)

/-- The extended key number `i`. -/
def ext_at (K : List DoubleArrayKey) (i : Nat) : List Nat := (K.getD i default).ext

/-- Key `i` starts with `p`. -/
def Pre (K : List DoubleArrayKey) (p : List Nat) (i : Nat) : Prop :=
  i < K.length ∧ p <+: ext_at K i

/-- The prefix `p` belongs to an internal node of the trie: it is the empty
prefix or that of at least two keys. -/
def Internal (K : List DoubleArrayKey) (p : List Nat) : Prop :=
  p = [] ∨ ∃ i j, i < j ∧ Pre K p i ∧ Pre K p j

/-- The prefix `p` belongs to a node of the trie. -/
def IsNode (K : List DoubleArrayKey) (p : List Nat) : Prop :=
  (∃ i, Pre K p i) ∧ Internal K p.dropLast

/-- The unit index reached from the root by the bytes of `p`. -/
def walk (units : List DoubleArrayUnit) (p : List Nat) : Nat :=
  p.foldl (fun i c => i ^^^ ((units.getD i default).offset ^^^ c)) 0

/-- The base of the children of the node of `p`. -/
def base_of (units : List DoubleArrayUnit) (p : List Nat) : Nat :=
  walk units p ^^^ (units.getD (walk units p) default).offset

/-- The keys of the builder are the keys `K`, each advanced by some number of
bytes. -/
structure KeyState (K : List DoubleArrayKey) (b : DoubleArrayBuilder) : Prop where
  length : b.keys.length = K.length
  same : ∀ i, i < K.length →
    (b.keys.getD i default).key = (K.getD i default).key ∧
    (b.keys.getD i default).value = (K.getD i default).value ∧
    ((b.keys.getD i default).pos : Int) + (b.keys.getD i default).length
      = (K.getD i default).length

/-- The prefix that the keys of a range on the stack have in common: as many
bytes as the first key of the range has been advanced. -/
def range_path (K : List DoubleArrayKey) (b : DoubleArrayBuilder) (r : DoubleArrayKeyRange) :
    List Nat :=
  (ext_at K r.begin_).take (b.keys.getD r.begin_ default).pos

/-- The node of `p` has been processed: no range on the stack holds `p` or a
prefix of `p`. -/
def Done (K : List DoubleArrayKey) (b : DoubleArrayBuilder) (stack : List DoubleArrayKeyRange)
    (p : List Nat) : Prop :=
  IsNode K p ∧ ∀ r ∈ stack, ¬ range_path K b r <+: p

/-- The node of `p` waits on the stack. -/
def Pending (K : List DoubleArrayKey) (b : DoubleArrayBuilder) (stack : List DoubleArrayKeyRange)
    (p : List Nat) : Prop :=
  ∃ r ∈ stack, range_path K b r = p

/-- What holds of a range on the stack. -/
structure RangeOK (K : List DoubleArrayKey) (b : DoubleArrayBuilder) (r : DoubleArrayKeyRange) :
    Prop where
  lt : r.begin_ < r.end_
  le : r.end_ ≤ K.length
  depth : ∀ i, r.begin_ ≤ i → i < r.end_ →
    (b.keys.getD i default).pos = (b.keys.getD r.begin_ default).pos
  exact : ∀ i, (r.begin_ ≤ i ∧ i < r.end_) ↔ Pre K (range_path K b r) i
  len : (range_path K b r).length = (b.keys.getD r.begin_ default).pos
  node : IsNode K (range_path K b r)
  index : r.index = walk b.units (range_path K b r)
  fixed : b.Fixed r.index
  is_leaf : (b.unit r.index).is_leaf = false
  is_end : (b.unit r.index).is_end = false
  label : (b.unit r.index).label = (range_path K b r).getLastD 0

/-- What holds of a node that has been processed. -/
structure NodeOK (K : List DoubleArrayKey) (b : DoubleArrayBuilder) (p : List Nat) : Prop where
  fixed : b.Fixed (walk b.units p)
  label : (b.unit (walk b.units p)).label = p.getLastD 0
  internal : Internal K p →
    (b.unit (walk b.units p)).is_leaf = false ∧
    ((b.unit (walk b.units p)).is_end = true ↔ ∃ i, Pre K (p ++ [0]) i) ∧
    base_of b.units p < b.num_of_units ∧
    (256 * b.first_live ≤ base_of b.units p → (b.extra (base_of b.units p)).is_used = true)
  leaf : ¬ Internal K p →
    (b.unit (walk b.units p)).is_leaf = true ∧
    ∃ i, Pre K p i ∧ (b.keys.getD i default).index = walk b.units p ∧
      (b.keys.getD i default).pos + 1 = p.length

/-- The invariant of the loop of `build_trie_subroutine`. -/
structure TrieInv (K : List DoubleArrayKey) (b : DoubleArrayBuilder)
    (stack : List DoubleArrayKeyRange) : Prop where
  alloc : b.AllocInv
  covered : b.UsedCovered
  keys : KeyState K b
  sorted : stack.Pairwise (fun r r' => r.end_ ≤ r'.begin_)
  range : ∀ r ∈ stack, RangeOK K b r
  done : ∀ p, Done K b stack p → NodeOK K b p
  inj : ∀ p q, (Done K b stack p ∨ Pending K b stack p) →
    (Done K b stack q ∨ Pending K b stack q) → walk b.units p = walk b.units q → p = q
  base_inj : ∀ p q, Done K b stack p → Internal K p → Done K b stack q → Internal K q →
    base_of b.units p = base_of b.units q → p = q
  owner : ∀ p, Done K b stack p → Internal K p → ∀ j, b.Fixed j →
    j ^^^ (b.unit j).label = base_of b.units p →
    ∃ c, (Done K b stack (p ++ [c]) ∨ Pending K b stack (p ++ [c])) ∧
      walk b.units (p ++ [c]) = j
  live_labels : ∀ j, b.Fixed j →
    j < 256 * b.first_live ∨ (b.extra (j ^^^ (b.unit j).label)).is_used = true
  leaf_owner : ∀ j, b.Fixed j → (b.unit j).is_leaf = true →
    ∃ q, Done K b stack q ∧ ¬ Internal K q ∧ walk b.units q = j
  one : b.Fixed 1 ∧ b.unit 1 = (default : DoubleArrayUnit).set_label 1 ∧
    ∀ q, (Done K b stack q ∨ Pending K b stack q) → walk b.units q ≠ 1
  count : b.progress.length + (stack.map DoubleArrayKeyRange.size).sum = K.length
  progress : ∀ m, m < b.progress.length → b.progress.getD m (0, 0) = (m + 1, K.length)

/-- The builder after the branch "marks a leaf unit" of `build_trie_subroutine`
for the range `r`. -/
def leaf_state (b : DoubleArrayBuilder) (r : DoubleArrayKeyRange) : DoubleArrayBuilder :=
  { keys := b.keys.set r.begin_ { (b.keys.getD r.begin_ default).dec with index := r.index },
    units := b.units.set r.index (b.unit r.index).set_is_leaf,
    extras := b.extras,
    unfixed_index := b.unfixed_index,
    num_of_unused_indices := b.num_of_unused_indices,
    tail_index := b.tail_index,
    progress := b.progress ++ [(b.progress.length + 1, b.keys.length)] }

/-- The builder after the first statements of the branch of
`build_trie_subroutine` for a range that is not a leaf: the unit of the range
is marked with `is_end` when the first key of the range ends here. -/
def step_base (b : DoubleArrayBuilder) (r : DoubleArrayKeyRange) : DoubleArrayBuilder :=
  if (b.keys.getD r.begin_ default).get 0 = 0
  then b.set_unit r.index (b.unit r.index).set_is_end else b

/-- The builder of `step_base` with the keys replaced and the unit of the range
replaced by `u`. -/
def step_linked (b : DoubleArrayBuilder) (r : DoubleArrayKeyRange) (keys : List DoubleArrayKey)
    (u : DoubleArrayUnit) : DoubleArrayBuilder :=
  DoubleArrayBuilder.set_unit { step_base b r with keys := keys } r.index u

/-- The builder `b2` differs from `b` in the keys and in the unit `i`, whose
label is kept. -/
structure UnitChanged (i : Nat) (b b2 : DoubleArrayBuilder) : Prop where
  extras : b2.extras = b.extras
  unfixed_index : b2.unfixed_index = b.unfixed_index
  progress : b2.progress = b.progress
  length : b2.units.length = b.units.length
  unit_ne : ∀ j, j ≠ i → b2.unit j = b.unit j
  label : (b2.unit i).label = (b.unit i).label
  wf : (b2.unit i).wf

/-- What the branch of `build_trie_subroutine` for a range `r` that is not a
leaf does: `o` is the offset found, `Z`
holds the labels with their ranges, `b3` is the builder after it. -/
structure StepFacts (IsBase : Nat → Prop) (b : DoubleArrayBuilder) (r : DoubleArrayKeyRange)
    (o : Nat) (Z : List (Nat × DoubleArrayKeyRange)) (b3 : DoubleArrayBuilder) : Prop where
  runs : Runs (fun i => (b.keys.getD i default).get 0) r.begin_ r.end_ Z
  keys_length : b3.keys.length = b.keys.length
  keys : ∀ i, b3.keys.getD i default =
    if r.begin_ ≤ i ∧ i < r.end_ then (b.keys.getD i default).inc else b.keys.getD i default
  progress : b3.progress = b.progress
  alloc : b3.AllocInv
  covered : b3.UsedCovered
  num_le : b.num_of_units ≤ b3.num_of_units ∧ b3.num_of_units ≤ b.num_of_units + 256
  first_live_le : b.first_live ≤ b3.first_live
  fixed_mono : ∀ j, b.Fixed j → b3.Fixed j
  unit_old : ∀ j, b.Fixed j → j ≠ r.index → b3.unit j = b.unit j
  label : (b3.unit r.index).label = (b.unit r.index).label
  is_leaf : (b3.unit r.index).is_leaf = (b.unit r.index).is_leaf
  is_end : (b3.unit r.index).is_end =
    ((b.unit r.index).is_end || decide ((b.keys.getD r.begin_ default).get 0 = 0))
  offset : (b3.unit r.index).offset = r.index ^^^ o
  used_self : (b3.extra o).is_used = true
  used : ∀ j, j ≠ o → 256 * b3.first_live ≤ j → (b3.extra j).is_used = (b.extra j).is_used
  newly : ∀ j, b3.Fixed j → ¬ b.Fixed j →
    (∃ x ∈ Z, j = o ^^^ x.1) ∨ DoubleArrayBuilder.Dead IsBase b3 j
  child : ∀ x ∈ Z, b3.Fixed (o ^^^ x.1) ∧ ¬ b.Fixed (o ^^^ x.1) ∧
    b3.unit (o ^^^ x.1) = (default : DoubleArrayUnit).set_label x.1
  place : (256 * b.first_live ≤ o ∧ o < b.num_of_units ∧ (b.extra o).is_used = false) ∨
    b.num_of_units ≤ o
  live : 256 * b3.first_live ≤ o ∧ o < b3.num_of_units

/-- Marks the offset `o` as used. -/
def mark_used (b : DoubleArrayBuilder) (o : Nat) : DoubleArrayBuilder :=
  b.set_extra o (b.extra o).set_is_used

/-- The ranges pushed for the labels and ranges in `Z` under the offset `o`. -/
def child_ranges (o : Nat) (Z : List (Nat × DoubleArrayKeyRange)) : List DoubleArrayKeyRange :=
  Z.map (fun x => ({ x.2 with index := o ^^^ x.1 } : DoubleArrayKeyRange))

/-- The bases of the internal nodes that have been processed. -/
def IsBaseOf (K : List DoubleArrayKey) (b : DoubleArrayBuilder) (stack : List DoubleArrayKeyRange)
    (u : Nat) : Prop :=
  ∃ p, Done K b stack p ∧ Internal K p ∧ base_of b.units p = u

/-- How the nodes and their units after the step for the range `r` relate to
those before it. -/
structure StepView (K : List DoubleArrayKey) (b : DoubleArrayBuilder) (r : DoubleArrayKeyRange)
    (rest : List DoubleArrayKeyRange) (o : Nat) (Z : List (Nat × DoubleArrayKeyRange))
    (b3 : DoubleArrayBuilder) : Prop where
  internal : Internal K (range_path K b r)
  byte : ∀ i, r.begin_ ≤ i → i < r.end_ →
    (b.keys.getD i default).get 0 = (ext_at K i).getD (range_path K b r).length 0 ∧
      (range_path K b r).length < (ext_at K i).length
  path_child : ∀ x ∈ Z, range_path K b3 ({ x.2 with index := o ^^^ x.1 } : DoubleArrayKeyRange)
    = range_path K b r ++ [x.1]
  path_rest : ∀ r' ∈ rest, range_path K b3 r' = range_path K b r'
  pre_child : ∀ x ∈ Z, ∀ i, (x.2.begin_ ≤ i ∧ i < x.2.end_) ↔ Pre K (range_path K b r ++ [x.1]) i
  child_of_pre : ∀ c i, Pre K (range_path K b r ++ [c]) i → ∃ x ∈ Z, x.1 = c
  unit_done : ∀ q, Done K b (r :: rest) q → b3.unit (walk b.units q) = b.unit (walk b.units q)
  walk_old : ∀ q, (Done K b (r :: rest) q ∨ Pending K b (r :: rest) q) →
    walk b3.units q = walk b.units q
  base_old : ∀ q, Done K b (r :: rest) q → base_of b3.units q = base_of b.units q
  base_self : base_of b3.units (range_path K b r) = o
  done_iff : ∀ q, Done K b3 (child_ranges o Z ++ rest) q ↔
    (Done K b (r :: rest) q ∨ q = range_path K b r)
  pend_iff : ∀ q, Pending K b3 (child_ranges o Z ++ rest) q ↔
    ((∃ x ∈ Z, q = range_path K b r ++ [x.1]) ∨ ∃ r' ∈ rest, range_path K b r' = q)

/-- When the computation `x` returns, the size of its result is at least `n`. -/
def Grows {α : Type} (size : α → Nat) (n : Nat) (x : Except DartsError α) : Prop :=
  ∀ a, x = .ok a → n ≤ size a

/-- The prefixes of the extended keys: the empty prefix and, for every key,
its non-empty prefixes. -/
def all_prefixes (K : List DoubleArrayKey) : List (List Nat) :=
  [] :: (K.map (fun k => k.ext.inits.tail)).flatten

/-- The builder after the statements of `build_trie` that reserve the units 0
and 1 and set their labels, for the builder `b2` left by the two calls of
`reserve_index` and the unit `u` made by `set_offset(1)`. -/
def trie_start (b2 : DoubleArrayBuilder) (u : DoubleArrayUnit) : DoubleArrayBuilder :=
  DoubleArrayBuilder.set_unit
    (DoubleArrayBuilder.set_unit (DoubleArrayBuilder.set_unit (mark_used b2 0) 0 u) 0
      ((DoubleArrayBuilder.unit (DoubleArrayBuilder.set_unit (mark_used b2 0) 0 u) 0).set_label 0))
    1 ((DoubleArrayBuilder.unit (DoubleArrayBuilder.set_unit
      (DoubleArrayBuilder.set_unit (mark_used b2 0) 0 u) 0
      ((DoubleArrayBuilder.unit (DoubleArrayBuilder.set_unit (mark_used b2 0) 0 u) 0).set_label 0))
      1).set_label 1)

/-- The state of the builder before the call of `build_trie_subroutine`. -/
structure StartOK (K : List DoubleArrayKey) (b : DoubleArrayBuilder) : Prop where
  alloc : b.AllocInv
  keys : b.keys = K
  progress : b.progress = []
  num : b.num_of_units = 256
  blocks : b.extras.length = 1
  fixed : ∀ j, b.Fixed j ↔ j < 2
  used : ∀ j, (b.extra j).is_used = true ↔ j = 0
  zero : (b.unit 0).offset = 1 ∧ (b.unit 0).label = 0 ∧ (b.unit 0).is_leaf = false ∧
    (b.unit 0).is_end = false
  one : b.unit 1 = (default : DoubleArrayUnit).set_label 1

/-- The state of the loop of `fix_all_blocks` before the block `k`, for the
builder `b0` the loop started with. -/
structure FillInv (b0 : DoubleArrayBuilder) (k : Nat) (b : DoubleArrayBuilder) : Prop where
  inv : b.AllocInv
  covered : b.UsedCovered
  units_length : b.units.length = b0.units.length
  extras_length : b.extras.length = b0.extras.length
  keys : b.keys = b0.keys
  progress : b.progress = b0.progress
  used : ∀ j, (b.extra j).is_used = (b0.extra j).is_used
  free : ∀ j, b.Free j ↔ (b0.Free j ∧ 256 * k ≤ j)
  unit_old : ∀ j, ¬ b0.Free j → b.unit j = b0.unit j
  filler : ∀ j, b0.Free j → j < 256 * k → ∃ U, U / 256 = j / 256 ∧
    (b0.extra U).is_used = false ∧
    (∀ v, 256 * (j / 256) ≤ v → v < U → (b0.extra v).is_used = true) ∧
    b.unit j = (default : DoubleArrayUnit).set_label ((j ^^^ U) % 256)

/-- What `fix_all_blocks` does to a builder: the units that were reserved are
kept, and every other unit gets a label that leads back to an offset of its
block that is not marked as used. -/
structure Filled (b b' : DoubleArrayBuilder) : Prop where
  units_length : b'.units.length = b.units.length
  keys : b'.keys = b.keys
  progress : b'.progress = b.progress
  unit_old : ∀ j, b.Fixed j → b'.unit j = b.unit j
  filler : ∀ j, j < b.num_of_units → ¬ b.Fixed j → ∃ U, U / 256 = j / 256 ∧
    (b.extra U).is_used = false ∧
    (∀ v, 256 * (j / 256) ≤ v → v < U → (b.extra v).is_used = true) ∧
    b'.unit j = (default : DoubleArrayUnit).set_label ((j ^^^ U) % 256)

/-- The trie that `build_trie` leaves in the builder for the keys `K`: every
node of the trie of `K` has its unit, and a byte that leads to no node leads to
a unit that rejects it. -/
structure TrieOK (K : List DoubleArrayKey) (b : DoubleArrayBuilder) : Prop where
  wf : ∀ j, (b.unit j).wf
  num : b.num_of_units % 256 = 0 ∧ 256 ≤ b.num_of_units ∧ b.num_of_units < 2 ^ 29
  one : (b.unit 1).label = 1 ∧ (b.unit 1).is_leaf = false ∧
    (b.unit 1).offset = b.num_of_units
  root : (b.unit 0).label = 0 ∧ (b.unit 0).is_leaf = false
  keys : KeyState K b
  progress : b.progress.length = K.length ∧
    ∀ m, m < K.length → b.progress.getD m (0, 0) = (m + 1, K.length)
  node : ∀ q, IsNode K q → walk b.units q < b.num_of_units ∧ walk b.units q ≠ 1 ∧
    (b.unit (walk b.units q)).label = q.getLastD 0
  internal : ∀ q, IsNode K q → Internal K q →
    (b.unit (walk b.units q)).is_leaf = false ∧
    ((b.unit (walk b.units q)).is_end = true ↔ ∃ i, Pre K (q ++ [0]) i) ∧
    base_of b.units q < b.num_of_units
  leaf : ∀ q, IsNode K q → ¬ Internal K q →
    (b.unit (walk b.units q)).is_leaf = true ∧
    ∃ i, Pre K q i ∧ (b.keys.getD i default).index = walk b.units q ∧
      (b.keys.getD i default).pos + 1 = q.length
  inj : ∀ p q, IsNode K p → IsNode K q → walk b.units p = walk b.units q → p = q
  other : ∀ q, IsNode K q → Internal K q → ∀ c, c < 256 → ¬ IsNode K (q ++ [c]) →
    ((b.unit (base_of b.units q ^^^ c)).is_leaf = false ∧
      (b.unit (base_of b.units q ^^^ c)).label ≠ c) ∨
    (∃ p, IsNode K p ∧ ¬ Internal K p ∧ walk b.units p = base_of b.units q ^^^ c ∧
      p.getLastD 0 ≠ c)

/-- The trie that `build_trie` leaves in the builder for the empty key set. -/
structure EmptyTrie (b : DoubleArrayBuilder) : Prop where
  num : b.num_of_units = 256
  keys : b.keys = []
  zero : (b.unit 0).offset = 1 ∧ (b.unit 0).label = 0 ∧ (b.unit 0).is_leaf = false ∧
    (b.unit 0).is_end = false
  one : (b.unit 1).label = 1 ∧ (b.unit 1).is_leaf = false ∧ (b.unit 1).offset = 256
  rest : ∀ j, 2 ≤ j → j < 256 → b.unit j = (default : DoubleArrayUnit).set_label (j ^^^ 1)

/-- The shape of the unit vector while the tail is written: `n` units of the
trie, then the units that hold the bytes below `tail_index`. -/
structure TailShape (n : Nat) (b : DoubleArrayBuilder) : Prop where
  wf : ∀ j, (b.units.getD j default).wf
  len : n ≤ b.units.length
  lo : 4 * n ≤ b.tail_index
  hi : b.tail_index ≤ 4 * b.units.length

/-- Whether the loop of `arrange_suffixes` appends the suffix of `key`: it does
unless `key` is a suffix of the previous key and the values of the current
suffix leave room for its value. -/
def suffix_fresh (prev : Option DoubleArrayKey) (values : List Int) (key : DoubleArrayKey) : Bool :=
  !(match prev with
    | some p => key.is_suffix_of p
    | none => false) ||
  decide ((if (match prev with
      | some p => key.is_suffix_of p
      | none => false) then DoubleArrayBuilder.find_value_id values key.value else 0)
    ≥ DoubleArrayUnit.VALUE_ID_MAX 3)

/-- The value of `base_link` after the step for `key`. -/
def suffix_base (prev : Option DoubleArrayKey) (values : List Int) (key : DoubleArrayKey)
    (base_link : Nat) : Nat :=
  if suffix_fresh prev values key then base_link + 4 * values.length + (key.length.toNat + 1)
  else base_link

/-- The value id given to `key`. -/
def suffix_value_id (prev : Option DoubleArrayKey) (values : List Int) (key : DoubleArrayKey) :
    Nat :=
  if suffix_fresh prev values key then 0
  else (if (match prev with
      | some p => key.is_suffix_of p
      | none => false) then DoubleArrayBuilder.find_value_id values key.value else 0)

/-- The values of the current suffix before the value of `key` is appended. -/
def suffix_values (prev : Option DoubleArrayKey) (values : List Int) (key : DoubleArrayKey) :
    List Int :=
  if suffix_fresh prev values key then [] else values

/-- The builder before `set_link` in the step for `key`. -/
def suffix_pre (prev : Option DoubleArrayKey) (values : List Int) (key : DoubleArrayKey)
    (b : DoubleArrayBuilder) : DoubleArrayBuilder :=
  DoubleArrayBuilder.set_unit (if suffix_fresh prev values key then b.append_suffix key else b)
    key.index
    ((DoubleArrayBuilder.unit (if suffix_fresh prev values key then b.append_suffix key else b)
      key.index).set_value_id 3 (suffix_value_id prev values key))

/-- The values of the current suffix after the step for `key`. -/
def suffix_values_post (prev : Option DoubleArrayKey) (values : List Int) (key : DoubleArrayKey) :
    List Int :=
  if suffix_value_id prev values key = (suffix_values prev values key).length
  then suffix_values prev values key ++ [key.value] else suffix_values prev values key

/-- The builder after the step for `key`, for the unit `u` made by `set_link`. -/
def suffix_post (prev : Option DoubleArrayKey) (values : List Int) (key : DoubleArrayKey)
    (b : DoubleArrayBuilder) (u : DoubleArrayUnit) : DoubleArrayBuilder :=
  if suffix_value_id prev values key = (suffix_values prev values key).length
  then ((suffix_pre prev values key b).set_unit key.index u).append_value key.value
  else (suffix_pre prev values key b).set_unit key.index u

/-- The leaf unit of the key `k` is linked to the place of its suffix in the
tail, and its value id to the place of its value. -/
structure LeafOK (n : Nat) (b : DoubleArrayBuilder) (k : DoubleArrayKey) : Prop where
  index : k.index < n
  suffix : ∀ t, t ≤ k.length.toNat →
    DoubleArrayBuilder.get_byte b.units (4 * n + (b.units.getD k.index default).link 3 + t)
      = k.ext.getD t 0
  value : ∀ t, t < 4 →
    DoubleArrayBuilder.get_byte b.units (4 * n + (b.units.getD k.index default).link 3
      + k.length.toNat + 1 + 4 * (b.units.getD k.index default).value_id 3 + t)
      = (DoubleArrayBuilder.value_bytes k.value).getD t 0
  bound : 4 * n + (b.units.getD k.index default).link 3 + k.length.toNat + 1
    + 4 * (b.units.getD k.index default).value_id 3 + 4 ≤ b.tail_index

/-- The invariant of the loop of `arrange_suffixes`: `done` holds the keys that
have been linked, `b0` is the builder the loop started with. -/
structure TailInv (n : Nat) (b0 b : DoubleArrayBuilder) (done : List DoubleArrayKey)
    (prev : Option DoubleArrayKey) (base_link : Nat) (values : List Int) : Prop where
  shape : TailShape n b
  tail : b.tail_index = 4 * n + base_link + 4 * values.length
  prev_ok : ∀ pk, prev = some pk → pk.WF ∧ pk.length.toNat + 1 ≤ base_link ∧
    ∀ t, t ≤ pk.length.toNat →
      DoubleArrayBuilder.get_byte b.units (4 * n + base_link - (pk.length.toNat + 1) + t)
        = pk.ext.getD t 0
  values_ok : ∀ v t, v < values.length → t < 4 →
    DoubleArrayBuilder.get_byte b.units (4 * n + base_link + 4 * v + t)
      = (DoubleArrayBuilder.value_bytes (values.getD v 0)).getD t 0
  done_ok : ∀ k ∈ done, LeafOK n b k
  frame : ∀ j, j < n → (∀ k ∈ done, k.index ≠ j) →
    b.units.getD j default = b0.units.getD j default
  leaf : ∀ j, j < n → (b.units.getD j default).is_leaf = (b0.units.getD j default).is_leaf
/-- What `arrange_suffixes` leaves: every key is linked to its suffix and value
in the tail, the units of the trie keep their kind, and those that are not the
leaf of a key are unchanged. -/
structure Arranged (b bf : DoubleArrayBuilder) : Prop where
  shape : TailShape b.num_of_units bf
  leaf_ok : ∀ k ∈ b.keys, LeafOK b.num_of_units bf k
  frame : ∀ j, j < b.num_of_units → (∀ k ∈ b.keys, k.index ≠ j) →
    bf.units.getD j default = b.units.getD j default
  leaf : ∀ j, j < b.num_of_units →
    (bf.units.getD j default).is_leaf = (b.units.getD j default).is_leaf

/-- The suffix `s` and the value `v` are stored in the tail, which starts at
the unit `n`, at the place the leaf unit `u` links to. -/
structure TailOK (U : List DoubleArrayUnit) (n : Nat) (u : DoubleArrayUnit) (s : List Nat)
    (v : Int) : Prop where
  suffix : ∀ t, t < s.length →
    DoubleArrayBuilder.get_byte U (4 * n + u.link 3 + t) = s.getD t 0
  value : ∀ t, t < 4 →
    DoubleArrayBuilder.get_byte U (4 * n + u.link 3 + s.length + 4 * u.value_id 3 + t)
      = (DoubleArrayBuilder.value_bytes v).getD t 0
  bound : 4 * n + u.link 3 + s.length + 4 * u.value_id 3 + 4 ≤ 4 * U.length

/-- The array `U` that the builder returns for the keys `K`, with a trie of `n`
units: every node of the trie of `K` has its unit, a byte that leads to no node
leads to a unit that rejects it, and every leaf links to the rest of its key
and to its value in the tail. -/
structure DictOK (K : List DoubleArrayKey) (U : List DoubleArrayUnit) (n : Nat) : Prop where
  num : n % 256 = 0 ∧ 256 ≤ n ∧ n ≤ U.length ∧ n < 2 ^ 29
  one : (U.getD 1 default).label = 1 ∧ (U.getD 1 default).is_leaf = false ∧
    (U.getD 1 default).offset = n
  root : (U.getD 0 default).label = 0 ∧ (U.getD 0 default).is_leaf = false
  node : ∀ q, IsNode K q → walk U q < n ∧ walk U q ≠ 1
  internal : ∀ q, IsNode K q → Internal K q →
    (U.getD (walk U q) default).is_leaf = false ∧
    (U.getD (walk U q) default).label = q.getLastD 0 ∧
    ((U.getD (walk U q) default).is_end = true ↔ ∃ i, Pre K (q ++ [0]) i) ∧
    base_of U q < n
  leaf : ∀ q, IsNode K q → ¬ Internal K q →
    (U.getD (walk U q) default).is_leaf = true ∧
    ∃ i, Pre K q i ∧ TailOK U n (U.getD (walk U q) default)
      ((ext_at K i).drop (q.length - 1)) (K.getD i default).value
  inj : ∀ p q, IsNode K p → IsNode K q → walk U p = walk U q → p = q
  other : ∀ q, IsNode K q → Internal K q → ∀ c, c < 256 → ¬ IsNode K (q ++ [c]) →
    ((U.getD (base_of U q ^^^ c) default).is_leaf = false ∧
      (U.getD (base_of U q ^^^ c) default).label ≠ c) ∨
    (∃ p, IsNode K p ∧ ¬ Internal K p ∧ walk U p = base_of U q ^^^ c ∧ p.getLastD 0 ≠ c)

/-- The array that the builder returns for the empty key set: one block, in
which the units from 2 on carry the label that their index gives with the
offset 1. -/
structure EmptyDict (U : List DoubleArrayUnit) : Prop where
  length : U.length = 256
  zero : (U.getD 0 default).offset = 1 ∧ (U.getD 0 default).label = 0 ∧
    (U.getD 0 default).is_leaf = false ∧ (U.getD 0 default).is_end = false
  one : (U.getD 1 default).label = 1 ∧ (U.getD 1 default).is_leaf = false ∧
    (U.getD 1 default).offset = 256
  rest : ∀ j, 2 ≤ j → j < 256 →
    U.getD j default = (default : DoubleArrayUnit).set_label (j ^^^ 1)

/-- A hand-made image of four units: the root leads by the byte 97 to the leaf
unit 1, whose suffix `[97, 0]` and value 7 are the bytes from byte 8 on. -/
def example_image : DoubleArrayBase :=
  { units := [⟨98304⟩, ⟨1⟩, ⟨458849⟩, ⟨0⟩], tail := 8, size := 4 }

namespace V0

/-- The errors that `DoubleArrayUnit::set_offset` of 0.32f-beta2 raises: "too
large offset" and "invalid offset". -/
inductive UnitError where
  | tooLargeOffset
  | invalidOffset
  deriving DecidableEq

/-- Class `DoubleArrayUnit` of 0.32f-beta2: the 32-bit word `base_`. -/
structure DoubleArrayUnit where
  base : Nat
  deriving DecidableEq

namespace DoubleArrayUnit

def OFFSET_MAX : Nat := 1 <<< 22

/-- Method `set_value`: `base_ = (static_cast<base_type>(value) << 1) | 1`. -/
def set_value (_u : DoubleArrayUnit) (value : Int) : DoubleArrayUnit :=
  ⟨((ofInt32 value <<< 1) % 2 ^ 32) ||| 1⟩

/-- Method `set_label`. -/
def set_label (u : DoubleArrayUnit) (label : Nat) : DoubleArrayUnit :=
  ⟨(u.base &&& (0xFFFFFFFF - 0x1FE)) ||| ((label <<< 1) % 2 ^ 32)⟩

/-- Method `set_offset`. -/
def set_offset (u : DoubleArrayUnit) (offset : Nat) : Except UnitError DoubleArrayUnit :=
  if offset ≥ (OFFSET_MAX <<< 8) % 2 ^ 32 then .error .tooLargeOffset
  else if offset < OFFSET_MAX then .ok ⟨(u.base &&& 0x1FF) ||| ((offset <<< 10) % 2 ^ 32)⟩
  else if offset &&& 0xFF ≠ 0 then .error .invalidOffset
  else .ok ⟨(u.base &&& 0x1FF) ||| (((offset <<< 2) % 2 ^ 32) ||| 0x200)⟩

/-- Method `is_leaf`. -/
def is_leaf (u : DoubleArrayUnit) : Bool := u.base &&& 1 != 0

/-- Method `value`: `static_cast<value_type>(base_ >> 1)`. -/
def value (u : DoubleArrayUnit) : Int := toInt32 (u.base >>> 1)

/-- Method `label`. -/
def label (u : DoubleArrayUnit) : Nat := (u.base >>> 1) &&& 0xFF

/-- Method `offset`. -/
def offset (u : DoubleArrayUnit) : Nat :=
  if u.base &&& 0x200 ≠ 0 then ((u.base >>> 10) <<< 8) % 2 ^ 32 else u.base >>> 10

end DoubleArrayUnit

end V0

namespace DoubleArrayBuilder

/-- The units visited by following `next` from `x`, `n` of them. -/
def follow (b : DoubleArrayBuilder) : Nat → Nat → List Nat
  | 0, _ => []
  | n + 1, x => x :: follow b n (b.extra x).next

/-- Unit `j` is in the free list (`Free`, as a test). -/
def is_free (b : DoubleArrayBuilder) (j : Nat) : Bool :=
  decide (BLOCK_SIZE * b.first_live ≤ j) && decide (j < b.num_of_units) && !(b.extra j).is_fixed

/-- The units that are not fixed, in ascending order. -/
def free_slots (b : DoubleArrayBuilder) : List Nat :=
  (List.range b.num_of_units).filter b.is_free

/-- The units visited by following `next` from `x` until the list returns to
the first unfixed index. -/
def cycle (b : DoubleArrayBuilder) : Nat → Nat → List Nat
  | 0, _ => []
  | fuel + 1, x =>
    x :: (if (b.extra x).next = b.unfixed_index then [] else cycle b fuel (b.extra x).next)

/-- The free list in the order of its links: the units visited by following
`next` from the first unfixed index before returning to the start; it is empty
when the first unfixed index is `num_of_units`. -/
def free_order (b : DoubleArrayBuilder) : List Nat :=
  if b.unfixed_index < b.num_of_units then b.cycle b.num_of_units b.unfixed_index else []

end DoubleArrayBuilder

namespace DoubleArrayBuilder

/-- The test of the offset in `find_offset_index`:
`!(offset & LOWER_MASK) || !(offset & UPPER_MASK)`. -/
def mask_test (offset : Nat) : Bool :=
  offset &&& (DoubleArrayUnit.OFFSET_MAX - 1) == 0
    || offset &&& (0xFFFFFFFF - (DoubleArrayUnit.OFFSET_MAX - 1)) == 0

/-- The offset fits the encoding of a unit: in 22 bits directly, or in 22 bits
after dividing by 256. -/
def fits_encoding (offset : Nat) : Bool :=
  decide (offset < 2 ^ 21) || (decide (offset % 256 = 0) && decide (offset < 2 ^ 29))

/-- The candidate `u XOR labels[0]` for the free unit `u` is acceptable: it is
not `is_used`, the offset from the parent `index` passes the test `fits`, and
none of the other child slots is fixed. -/
def candidate_ok (b : DoubleArrayBuilder) (index : Nat) (labels : List Nat) (fits : Nat → Bool)
    (u : Nat) : Bool :=
  !(b.extra (u ^^^ labels.getD 0 0)).is_used && fits (index ^^^ (u ^^^ labels.getD 0 0))
    && !b.has_collision (u ^^^ labels.getD 0 0) labels

/-- The result of the offset finder as the claim describes it: the first
acceptable candidate in the order of the free list, or
`num_of_units | (index & 0xFF)` when there is none. -/
def first_candidate (b : DoubleArrayBuilder) (index : Nat) (labels : List Nat)
    (fits : Nat → Bool) : Nat :=
  match b.free_order.find? (b.candidate_ok index labels fits) with
  | some u => u ^^^ labels.getD 0 0
  | none => b.num_of_units ||| (index &&& 0xFF)

end DoubleArrayBuilder

/-- The free list of the allocator is in order: following `next` from the first
unfixed index visits the units that are not fixed, which lie in the last 16
blocks, each once and in ascending order, and returns to the start; `prev` is
the inverse of `next` on them, and the first unfixed index is the smallest of
them, or `num_of_units` when there is none. -/
structure FreeListOK (b : DoubleArrayBuilder) : Prop where
  visits : ∀ j, j ∈ b.free_order ↔
    (BLOCK_SIZE * (b.num_of_blocks - NUM_OF_UNFIXED_BLOCKS) ≤ j ∧ j < b.num_of_units ∧
      (b.extra j).is_fixed = false)
  ascending : b.free_order.Pairwise (· < ·)
  returns : ∀ x, b.free_order.getLast? = some x → (b.extra x).next = b.unfixed_index
  inverse : ∀ x ∈ b.free_order,
    (b.extra (b.extra x).next).prev = x ∧ (b.extra (b.extra x).prev).next = x
  linked : ∀ x ∈ b.free_order, (b.extra x).next ∈ b.free_order ∧ (b.extra x).prev ∈ b.free_order
  first : (b.free_order.head? = some b.unfixed_index ∧ ∀ j ∈ b.free_order, b.unfixed_index ≤ j) ∨
    (b.free_order = [] ∧ b.unfixed_index = b.num_of_units)

/-- A builder state with 8194 blocks, of which the last 16 have extra storage;
the only unit that is not fixed is unit 2097409, in the last block. -/
def big_state : DoubleArrayBuilder :=
  { keys := [], units := List.replicate 2097664 default,
    extras := List.replicate 8178 none ++ (List.replicate 15 (some (List.replicate 256 ⟨1, 0⟩))
      ++ [some ([⟨1, 0⟩, ⟨4194818, 4194818⟩] ++ List.replicate 254 ⟨1, 0⟩)]),
    unfixed_index := 2097409, num_of_unused_indices := 0, tail_index := 0, progress := [] }

namespace DoubleArrayBuilder

/-- The states through which the loop of `build_trie_subroutine` passes: the
builder and the stack of ranges at the head of every iteration and when the
loop ends. -/
def loop_states : Nat → DoubleArrayBuilder → List DoubleArrayKeyRange →
    List (DoubleArrayBuilder × List DoubleArrayKeyRange)
  | _, b, [] => [(b, [])]
  | 0, b, r :: s => [(b, r :: s)]
  | fuel + 1, b, r :: s =>
    (b, r :: s) :: (match b.build_trie_step r s with
      | .ok next => loop_states fuel next.1 next.2
      | .error _ => [])

end DoubleArrayBuilder

/-- The keys `"a"` and `"ab"` as `build` passes them to the builder. -/
def keys_a_ab : List DoubleArrayKey := [⟨[97], 0, 1, 0, 0⟩, ⟨[97, 98], 0, 2, 0, 1⟩]

/-- A byte string that ends in a zero byte and has no other zero byte. -/
def ZTerm (s : List Nat) : Prop := ∃ a, s = a ++ [0] ∧ ∀ c ∈ a, c ≠ 0

/-- The part of `exact_match_search` after the test of the agent: the loop over
the units and the comparison with the tail. -/
def exact_match_from (da : DoubleArrayBase) (result : result_pair_type) (query : List Nat)
    (index pos : Nat) : Option (Bool × result_pair_type) :=
  match DoubleArrayBase.exact_match_units da query index pos with
  | none => none
  | some none => some (false, result)
  | some (some (agent, query, pos)) =>
    DoubleArrayBase.exact_match_tail 3 da agent result query (agent.link 3) pos

/-- The values are values of the type `int`. -/
def Int32 (v : Int) : Prop := -2 ^ 31 ≤ v ∧ v < 2 ^ 31

/-- The results that `commonPrefixSearch` is to report for the rest `a` of a
query after the prefix `p`, at the query index `pos`: for every prefix of the
query from `p` on, in the order of their lengths, the value that `kv` gives for
it, when it gives one, with its length. -/
def expected_from (kv : List Nat → Option Int) :
    List Nat → List Nat → Nat → List result_pair_type
  | p, [], pos => (kv p).toList.map (fun v => ⟨v, pos⟩)
  | p, c :: a, pos =>
    (kv p).toList.map (fun v => (⟨v, pos⟩ : result_pair_type))
      ++ expected_from kv (p ++ [c]) a (pos + 1)

/-- The array `results` after the results `m` have been reported from the
count `num` on: a result is written when its number is below the capacity. -/
def write_results (cap : Nat) :
    List result_pair_type → Nat → List result_pair_type → List result_pair_type
  | results, _, [] => results
  | results, num, x :: m =>
    write_results cap (if num < cap then results.set num x else results) (num + 1) m

/-- The value of the key `k` in the input of `build`: that of its first
occurrence. -/
def key_value (keys : List (List Nat)) (values : Option (List Int)) (k : List Nat) :
    Option Int :=
  if k ∈ keys then some (DoubleArrayBase.make_value values (keys.findIdx (fun x => decide (x = k))))
  else none

/-- The results of `commonPrefixSearch` for the query `q`: for every length
`l` from 0 to the length of `q`, in this order, when the first `l` bytes of `q`
are a key, the pair of the value of this key and `l`. -/
def prefix_matches (keys : List (List Nat)) (values : Option (List Int)) (q : List Nat) :
    List result_pair_type :=
  (List.range (q.length + 1)).filterMap
    (fun l => (key_value keys values (q.take l)).map (fun v => ⟨v, l⟩))

/-- The part of `common_prefix_search` after the test of the agent, for the
count `num` of results. -/
def common_prefix_from (da : DoubleArrayBase) (cap : Nat) (query : List Nat) (index pos : Nat)
    (results : List result_pair_type) (num : Nat) : Option (Nat × List result_pair_type) :=
  match DoubleArrayBase.common_prefix_units 3 da cap query index pos results num with
  | none => none
  | some (results, n, none) => some (n, results)
  | some (results, n, some (agent, query, pos)) =>
    DoubleArrayBase.common_prefix_suffix 3 da cap agent query pos results n

/-- The string `s` and the value `v` are in the tail at the place the leaf unit
`agent` links to, and the string ends below the largest link. -/
structure TailAt (da : DoubleArrayBase) (agent : DoubleArrayUnit) (s : List Nat) (v : Int) :
    Prop where
  wf : agent.wf
  leaf : agent.is_leaf = true
  bytes : ∀ j, j < s.length → da.tail? (agent.link 3 + j) = some (s.getD j 0)
  value : da.get_value (agent.link 3 + s.length + 4 * agent.value_id 3) = some v
  bound : agent.link 3 + s.length ≤ 2 ^ 28

/-- The agent after `traverse` has consumed the prefix `p` of a key with the
value `v`, of which the bytes `b` remain: it is at the node of `p`, which has
children, or it is a leaf unit that links to `b` in the tail. -/
def Resumable (K : List DoubleArrayKey) (da : DoubleArrayBase) (agent : DoubleArrayUnit)
    (p b : List Nat) (v : Int) : Prop :=
  agent.wf ∧
    ((agent.is_leaf = false ∧ IsNode K p ∧ Internal K p ∧ agent.index = walk da.units p) ∨
      TailAt da agent (b ++ [0]) v)

/-- The search of `traverse` for a leaf unit, from the unit `index` with the
bytes of a query: the link of the first leaf unit that is met plus the number of
bytes of the query that are left, which is the position in the tail after the
string that the leaf unit links to when the query is the rest of a key with its
terminator; 0 when no leaf unit is met. -/
def tail_end_from (units : List DoubleArrayUnit) : Nat → List Nat → Nat
  | _, [] => 0
  | index, c :: rest =>
    if (units.getD (index ^^^ ((units.getD index default).offset ^^^ c)) default).is_leaf then
      (units.getD (index ^^^ ((units.getD index default).offset ^^^ c)) default).link 3
        + (rest.length + 1)
    else tail_end_from units (index ^^^ ((units.getD index default).offset ^^^ c)) rest

/-- The position in the tail after the terminator of the string that the leaf
unit of `key` links to: `traverse` passes the positions of this string to
`set_link`. -/
def DoubleArrayBase.tail_end (da : DoubleArrayBase) (key : List Nat) : Nat :=
  tail_end_from da.units 0 (key ++ [0])

/-- A small builder state for `arrange_suffixes`: a trie of two units, after
which the tail starts. -/
def pack_start : DoubleArrayBuilder :=
  { keys := [], units := [default, default], extras := [], unfixed_index := 0,
    num_of_unused_indices := 0, tail_index := 8, progress := [] }

/-- The suffix `"ab"` with the value 7, of the leaf unit 0. -/
def key_ab : DoubleArrayKey := ⟨[97, 98], 0, 2, 0, 7⟩

/-- The suffix `"b"` with the value 7, of the leaf unit 1. -/
def key_b : DoubleArrayKey := ⟨[98], 0, 1, 1, 7⟩

/-- The key set "ba", "ca", "da". -/
def keys_bcd : List (List Nat) := [[98, 97], [99, 97], [100, 97]]

/-- The keys that `build` hands to the builder for `keys_bcd` without values. -/
def collected_bcd : List DoubleArrayKey :=
  [⟨[98, 97], 0, 2, 0, 0⟩, ⟨[99, 97], 0, 2, 0, 1⟩, ⟨[100, 97], 0, 2, 0, 2⟩]

/-- Whether the loop of `arrange_suffixes` appends the suffix of `key`: it does
unless `key` is a suffix of the previous key and the values of the current
suffix leave room for its value. -/
def pack_fresh (idBits : Nat) (prev : Option DoubleArrayKey) (values : List Int) (key : DoubleArrayKey) : Bool :=
  !(match prev with
    | some p => key.is_suffix_of p
    | none => false) ||
  decide ((if (match prev with
      | some p => key.is_suffix_of p
      | none => false) then DoubleArrayBuilder.find_value_id values key.value else 0)
    ≥ DoubleArrayUnit.VALUE_ID_MAX idBits)

/-- The value of `base_link` after the step for `key`. -/
def pack_base (idBits : Nat) (prev : Option DoubleArrayKey) (values : List Int) (key : DoubleArrayKey)
    (base_link : Nat) : Nat :=
  if pack_fresh idBits prev values key then base_link + 4 * values.length + (key.length.toNat + 1)
  else base_link

/-- The value id given to `key`. -/
def pack_value_id (idBits : Nat) (prev : Option DoubleArrayKey) (values : List Int) (key : DoubleArrayKey) :
    Nat :=
  if pack_fresh idBits prev values key then 0
  else (if (match prev with
      | some p => key.is_suffix_of p
      | none => false) then DoubleArrayBuilder.find_value_id values key.value else 0)

/-- The values of the current suffix before the value of `key` is appended. -/
def pack_values (idBits : Nat) (prev : Option DoubleArrayKey) (values : List Int) (key : DoubleArrayKey) :
    List Int :=
  if pack_fresh idBits prev values key then [] else values

/-- The builder before `set_link` in the step for `key`. -/
def pack_pre (idBits : Nat) (prev : Option DoubleArrayKey) (values : List Int) (key : DoubleArrayKey)
    (b : DoubleArrayBuilder) : DoubleArrayBuilder :=
  DoubleArrayBuilder.set_unit (if pack_fresh idBits prev values key then b.append_suffix key else b)
    key.index
    ((DoubleArrayBuilder.unit (if pack_fresh idBits prev values key then b.append_suffix key else b)
      key.index).set_value_id idBits (pack_value_id idBits prev values key))

/-- The values of the current suffix after the step for `key`. -/
def pack_values_post (idBits : Nat) (prev : Option DoubleArrayKey) (values : List Int) (key : DoubleArrayKey) :
    List Int :=
  if pack_value_id idBits prev values key = (pack_values idBits prev values key).length
  then pack_values idBits prev values key ++ [key.value] else pack_values idBits prev values key

/-- The builder after the step for `key`, for the unit `u` made by `set_link`. -/
def pack_post (idBits : Nat) (prev : Option DoubleArrayKey) (values : List Int) (key : DoubleArrayKey)
    (b : DoubleArrayBuilder) (u : DoubleArrayUnit) : DoubleArrayBuilder :=
  if pack_value_id idBits prev values key = (pack_values idBits prev values key).length
  then ((pack_pre idBits prev values key b).set_unit key.index u).append_value key.value
  else (pack_pre idBits prev values key b).set_unit key.index u

/-- The leaf unit of the key `k` is linked to the place of its suffix in the
tail, and its value id to the place of its value. -/
structure LeafAt (idBits n : Nat) (b : DoubleArrayBuilder) (k : DoubleArrayKey) : Prop where
  index : k.index < n
  suffix : ∀ t, t ≤ k.length.toNat →
    DoubleArrayBuilder.get_byte b.units (4 * n + (b.units.getD k.index default).link idBits + t)
      = k.ext.getD t 0
  value : ∀ t, t < 4 →
    DoubleArrayBuilder.get_byte b.units (4 * n + (b.units.getD k.index default).link idBits
      + k.length.toNat + 1 + 4 * (b.units.getD k.index default).value_id idBits + t)
      = (DoubleArrayBuilder.value_bytes k.value).getD t 0
  bound : 4 * n + (b.units.getD k.index default).link idBits + k.length.toNat + 1
    + 4 * (b.units.getD k.index default).value_id idBits + 4 ≤ b.tail_index

/-- The invariant of the loop of `arrange_suffixes`: `done` holds the keys that
have been linked, `b0` is the builder the loop started with. -/
structure PackInv (idBits n : Nat) (b0 b : DoubleArrayBuilder) (done : List DoubleArrayKey)
    (prev : Option DoubleArrayKey) (base_link : Nat) (values : List Int) : Prop where
  shape : TailShape n b
  tail : b.tail_index = 4 * n + base_link + 4 * values.length
  prev_ok : ∀ pk, prev = some pk → pk.WF ∧ pk.length.toNat + 1 ≤ base_link ∧
    ∀ t, t ≤ pk.length.toNat →
      DoubleArrayBuilder.get_byte b.units (4 * n + base_link - (pk.length.toNat + 1) + t)
        = pk.ext.getD t 0
  values_ok : ∀ v t, v < values.length → t < 4 →
    DoubleArrayBuilder.get_byte b.units (4 * n + base_link + 4 * v + t)
      = (DoubleArrayBuilder.value_bytes (values.getD v 0)).getD t 0
  done_ok : ∀ k ∈ done, LeafAt idBits n b k
  frame : ∀ j, j < n → (∀ k ∈ done, k.index ≠ j) →
    b.units.getD j default = b0.units.getD j default
  leaf : ∀ j, j < n → (b.units.getD j default).is_leaf = (b0.units.getD j default).is_leaf

/-- The order in which `arrange_suffixes` packs the keys: sorted in suffix
order when there are value id bits, the order of the keys otherwise. -/
def pack_order (idBits : Nat) (keys : List DoubleArrayKey) : List DoubleArrayKey :=
  if idBits > 0 then DoubleArrayBuilder.sort_keys keys else keys

/-- The builder that the loop of `arrange_suffixes` starts with: the tail
begins after the units of the trie, and the keys are in the packing order. -/
def pack_init (idBits : Nat) (b : DoubleArrayBuilder) : DoubleArrayBuilder :=
  DoubleArrayBuilder.mk (pack_order idBits b.keys) b.units b.extras b.unfixed_index
    b.num_of_unused_indices (4 * b.num_of_units) b.progress

/-- A builder after `build_trie` with two units and the keys "ab" (leaf unit 0)
and "b" (leaf unit 1), both of value 7. -/
def pack_two : DoubleArrayBuilder :=
  { keys := [key_ab, key_b], units := [default, default], extras := [], unfixed_index := 0,
    num_of_unused_indices := 0, tail_index := 0, progress := [] }

/-- Reading `units_[index]` where only the units of the trie may be read: the
read of a unit from index `n` on is undefined. -/
def DoubleArrayBase.unit_below (da : DoubleArrayBase) (n index : Nat) :
    Option DoubleArrayUnit :=
  if index < n then da.unit? index else none

/-- The loop `for (index = agent.index(); ; ++query)` of `exact_match_search`,
with the unit reads checked against `n`. -/
def DoubleArrayBase.exact_match_units_below (da : DoubleArrayBase) (n : Nat) :
    List Nat → Nat → Nat → Option (Option (DoubleArrayUnit × List Nat × Nat))
  | [], _, _ => none
  | c :: rest, index, pos => do
    let u0 ← da.unit_below n index
    let u ← da.unit_below n (index ^^^ (u0.offset ^^^ c))
    if u.is_leaf then pure (some (u, c :: rest, pos))
    else if u.label ≠ c then pure none
    else DoubleArrayBase.exact_match_units_below da n rest (index ^^^ (u0.offset ^^^ c)) (pos + 1)

/-- Method `exact_match_search`, with the unit reads checked against `n`. -/
def DoubleArrayBase.exact_match_search_below (idBits : Nat) (da : DoubleArrayBase) (n : Nat)
    (query : List Nat) (pos : Nat) (result : result_pair_type) (agent : DoubleArrayUnit) :
    Option (Bool × result_pair_type) :=
  if !agent.is_leaf then
    match da.exact_match_units_below n query agent.index pos with
    | none => none
    | some none => some (false, { result with value := -1 })
    | some (some (agent, query, pos)) =>
      da.exact_match_tail idBits agent { result with value := -1 } query (agent.link idBits) pos
  else
    da.exact_match_tail idBits agent { result with value := -1 } query (agent.link idBits) pos

/-- The block "extracts a prefix" of `common_prefix_search`, with the unit read
checked against `n`. -/
def DoubleArrayBase.extract_result_below (idBits : Nat) (da : DoubleArrayBase) (n : Nat)
    (max_num_of_results : Nat) (c : Nat) (u0 : DoubleArrayUnit) (index pos : Nat)
    (results : List result_pair_type) (num_of_results : Nat) :
    Option (List result_pair_type × Nat) :=
  if c ≠ 0 ∧ u0.is_end then do
    let stray ← da.unit_below n (index ^^^ u0.offset)
    let results ← da.put_result results max_num_of_results num_of_results
      (stray.link idBits + (4 * stray.value_id idBits + 1)) pos
    pure (results, num_of_results + 1)
  else pure (results, num_of_results)

/-- The loop `for (index = agent.index(); ; ++query)` of `common_prefix_search`,
with the unit reads checked against `n`. -/
def DoubleArrayBase.common_prefix_units_below (idBits : Nat) (da : DoubleArrayBase) (n : Nat)
    (max_num_of_results : Nat) :
    List Nat → Nat → Nat → List result_pair_type → Nat →
    Option (List result_pair_type × Nat × Option (DoubleArrayUnit × List Nat × Nat))
  | [], _, _, _, _ => none
  | c :: rest, index, pos, results, num_of_results => do
    let u0 ← da.unit_below n index
    let extracted ← da.extract_result_below idBits n max_num_of_results c u0 index pos results
      num_of_results
    let u ← da.unit_below n (index ^^^ (u0.offset ^^^ c))
    if u.is_leaf then pure (extracted.1, extracted.2, some (u, c :: rest, pos))
    else if u.label ≠ c then pure (extracted.1, extracted.2, none)
    else
      DoubleArrayBase.common_prefix_units_below idBits da n max_num_of_results rest
        (index ^^^ (u0.offset ^^^ c)) (pos + 1) extracted.1 extracted.2

/-- Method `common_prefix_search`, with the unit reads checked against `n`. -/
def DoubleArrayBase.common_prefix_search_below (idBits : Nat) (da : DoubleArrayBase) (n : Nat)
    (query : List Nat) (pos : Nat) (results : List result_pair_type)
    (max_num_of_results : Nat) (agent : DoubleArrayUnit) :
    Option (Nat × List result_pair_type) :=
  if !agent.is_leaf then
    match da.common_prefix_units_below idBits n max_num_of_results query agent.index pos
        results 0 with
    | none => none
    | some (results, num_of_results, none) => some (num_of_results, results)
    | some (results, num_of_results, some (agent, query, pos)) =>
      da.common_prefix_suffix idBits max_num_of_results agent query pos results num_of_results
  else
    da.common_prefix_suffix idBits max_num_of_results agent query pos results 0

/-- The loop `for ( ; *query != 0; ++query)` of the private `traverse`, with the
unit reads checked against `n`. -/
def DoubleArrayBase.traverse_units_below (da : DoubleArrayBase) (n : Nat) :
    List Nat → Nat → DoubleArrayUnit → Nat → Option DoubleArrayBase.TraverseExit
  | [], _, _, _ => none
  | c :: rest, index, agent, pos =>
    if c = 0 then some (.done index agent (c :: rest) pos)
    else do
      let u0 ← da.unit_below n index
      let u ← da.unit_below n (index ^^^ (u0.offset ^^^ c))
      if u.is_leaf then pure (.leaf (index ^^^ (u0.offset ^^^ c)) agent (c :: rest) pos)
      else if u.label ≠ c then pure (.mismatch agent pos)
      else
        DoubleArrayBase.traverse_units_below da n rest (index ^^^ (u0.offset ^^^ c))
          (agent.set_index (index ^^^ (u0.offset ^^^ c))) (pos + 1)

/-- The part "checks a transition with a null character" of the private
`traverse`, with the unit reads checked against `n`. -/
def DoubleArrayBase.traverse_end_below (idBits : Nat) (da : DoubleArrayBase) (n : Nat)
    (index : Nat) (agent : DoubleArrayUnit) (pos : Nat) :
    Option (Except DartsError (Int × DoubleArrayUnit × Nat)) := do
  let u ← da.unit_below n index
  if !u.is_end then pure (.ok (-1, agent, pos))
  else
    let stray ← da.unit_below n (index ^^^ u.offset)
    let value ← da.get_value (stray.link idBits + (4 * stray.value_id idBits + 1))
    pure (.ok (value, agent, pos))

/-- The private method `traverse`, with the unit reads checked against `n`. -/
def DoubleArrayBase.traverse_query_below (idBits : Nat) (da : DoubleArrayBase) (n : Nat)
    (query : List Nat) (pos : Nat) (agent : DoubleArrayUnit) :
    Option (Except DartsError (Int × DoubleArrayUnit × Nat)) :=
  if !agent.is_leaf then
    match da.traverse_units_below n query agent.index agent pos with
    | none => none
    | some (.mismatch agent pos) => some (.ok (-2, agent, pos))
    | some (.done index agent _ pos) => da.traverse_end_below idBits n index agent pos
    | some (.leaf index _ query pos) =>
      match da.unit_below n index with
      | none => none
      | some agent => da.traverse_tail idBits agent query (agent.link idBits) pos
  else
    da.traverse_tail idBits agent query (agent.link idBits) pos

/-- The bytes of a query up to its end: the bytes that `*query` yields before
the first zero, and that zero. -/
def query_end (q : List Nat) : List Nat := q.takeWhile (fun c => c != 0) ++ [0]

/-- Method `exactMatchSearch`, with the unit reads checked against `n` and the
query cut at its end. -/
def DoubleArrayBase.exactMatchSearch_below (idBits : Nat) (da : DoubleArrayBase) (n : Nat)
    (key : List Nat) (result : result_pair_type) (length : Nat) (agent : Nat) :
    Option (Bool × result_pair_type) :=
  da.exact_match_search_below idBits n (query_end (DoubleArrayBase.query_bytes key length)) 0
    result ⟨agent % 2 ^ 32⟩

/-- Method `commonPrefixSearch`, with the unit reads checked against `n` and the
query cut at its end. -/
def DoubleArrayBase.commonPrefixSearch_below (idBits : Nat) (da : DoubleArrayBase) (n : Nat)
    (key : List Nat) (results : List result_pair_type) (max_num_of_results : Nat)
    (length : Nat) (agent : Nat) : Option (Nat × List result_pair_type) :=
  da.common_prefix_search_below idBits n (query_end (DoubleArrayBase.query_bytes key length)) 0
    results max_num_of_results ⟨agent % 2 ^ 32⟩

/-- The public method `traverse`, with the unit reads checked against `n` and
the query cut at its end. -/
def DoubleArrayBase.traverse_below (idBits : Nat) (da : DoubleArrayBase) (n : Nat)
    (key : List Nat) (agent : Nat) (key_index : Nat) (length : Nat) :
    Option (Except DartsError (Int × Nat × Nat)) :=
  match da.traverse_query_below idBits n
      ((query_end (DoubleArrayBase.query_bytes key length)).drop key_index) key_index
      ⟨agent % 2 ^ 32⟩ with
  | none => none
  | some (.error e) => some (.error e)
  | some (.ok (value, unit, key_index)) => some (.ok (value, unit.values, key_index))

/-- The unit `u` links to a string with its terminator in the tail of `da`, and
the value that its value id selects follows the string. -/
def LeafStored (da : DoubleArrayBase) (u : DoubleArrayUnit) : Prop :=
  ∃ (s : List Nat) (v : Int), ZTerm s ∧
    (∀ j, j < s.length → da.tail? (u.link 3 + j) = some (s.getD j 0)) ∧
    da.get_value (u.link 3 + s.length + 4 * u.value_id 3) = some v

end Darts

/-! ## Theorems -/

namespace Darts

/-! ## Bit fields of a 32-bit word -/

theorem testBit_field_mask (off n i : Nat) :
    Nat.testBit (((1 <<< n) - 1) <<< off) i = (decide (off ≤ i) && decide (i < off + n)) := by
  rw [Nat.testBit_shiftLeft, Nat.one_shiftLeft, Nat.testBit_two_pow_sub_one]
  by_cases h : off ≤ i
  · simp [h]; omega
  · simp [h]

theorem field_mask_lt (off n : Nat) (h : off + n ≤ 32) : ((1 <<< n) - 1) <<< off < 2 ^ 32 := by
  apply Nat.lt_pow_two_of_testBit
  intro i hi
  rw [testBit_field_mask]
  simp; omega

theorem DoubleArrayUnit.testBit_set (off n : Nat) (u : DoubleArrayUnit) (v i : Nat)
    (hu : u.values < 2 ^ 32) (hv : v < 2 ^ n) (hn : off + n ≤ 32) :
    Nat.testBit (DoubleArrayUnit.set off n u v).values i =
      if off ≤ i ∧ i < off + n then Nat.testBit v (i - off) else Nat.testBit u.values i := by
  have hmask := field_mask_lt off n hn
  have hvs : v <<< off < 2 ^ 32 := by
    apply Nat.lt_pow_two_of_testBit
    intro j hj
    rw [Nat.testBit_shiftLeft]
    by_cases h : off ≤ j
    · simp [h]
      apply Nat.testBit_lt_two_pow
      calc v < 2 ^ n := hv
        _ ≤ 2 ^ (j - off) := Nat.pow_le_pow_right (by decide) (by omega)
    · simp [h]
  unfold DoubleArrayUnit.set
  simp only [Nat.testBit_or, Nat.testBit_and, Nat.mod_eq_of_lt hvs]
  have hc : (0xFFFFFFFF : Nat) - ((1 <<< n) - 1) <<< off = 2 ^ 32 - ((((1 <<< n) - 1) <<< off) + 1) := by
    omega
  rw [hc, Nat.testBit_two_pow_sub_succ hmask, testBit_field_mask, Nat.testBit_shiftLeft]
  by_cases h1 : off ≤ i
  · by_cases h2 : i < off + n
    · simp [h1, h2]
    · have : Nat.testBit v (i - off) = false := by
        apply Nat.testBit_lt_two_pow
        calc v < 2 ^ n := hv
          _ ≤ 2 ^ (i - off) := Nat.pow_le_pow_right (by decide) (by omega)
      simp [h1, h2, this]
      intro hb
      by_contra hge
      have := Nat.testBit_lt_two_pow (x := u.values) (i := i)
        (lt_of_lt_of_le hu (Nat.pow_le_pow_right (by decide) (by omega)))
      simp [this] at hb
  · simp [h1]
    intro hb
    omega

theorem DoubleArrayUnit.testBit_get (off n : Nat) (u : DoubleArrayUnit) (i : Nat) :
    Nat.testBit (DoubleArrayUnit.get off n u) i = (decide (i < n) && Nat.testBit u.values (off + i)) := by
  unfold DoubleArrayUnit.get
  simp only [Nat.testBit_shiftRight, Nat.testBit_and, testBit_field_mask]
  by_cases h : i < n
  · simp [h]
  · simp [h]

theorem DoubleArrayUnit.set_lt (off n : Nat) (u : DoubleArrayUnit) (v : Nat)
    (hu : u.values < 2 ^ 32) (hv : v < 2 ^ n) (hn : off + n ≤ 32) :
    (DoubleArrayUnit.set off n u v).values < 2 ^ 32 := by
  apply Nat.lt_pow_two_of_testBit
  intro i hi
  rw [DoubleArrayUnit.testBit_set off n u v i hu hv hn]
  split
  · omega
  · exact Nat.testBit_lt_two_pow (lt_of_lt_of_le hu (Nat.pow_le_pow_right (by decide) hi))

theorem DoubleArrayUnit.get_set_same (off n : Nat) (u : DoubleArrayUnit) (v : Nat)
    (hu : u.values < 2 ^ 32) (hv : v < 2 ^ n) (hn : off + n ≤ 32) :
    DoubleArrayUnit.get off n (DoubleArrayUnit.set off n u v) = v := by
  apply Nat.eq_of_testBit_eq
  intro i
  rw [DoubleArrayUnit.testBit_get, DoubleArrayUnit.testBit_set off n u v _ hu hv hn]
  by_cases h : i < n
  · simp [h]
  · simp [h]
    apply Nat.testBit_lt_two_pow
    calc v < 2 ^ n := hv
      _ ≤ 2 ^ i := Nat.pow_le_pow_right (by decide) (by omega)

theorem DoubleArrayUnit.get_set_disjoint (off n off' n' : Nat) (u : DoubleArrayUnit) (v : Nat)
    (hu : u.values < 2 ^ 32) (hv : v < 2 ^ n) (hn : off + n ≤ 32)
    (hd : off' + n' ≤ off ∨ off + n ≤ off') :
    DoubleArrayUnit.get off' n' (DoubleArrayUnit.set off n u v) = DoubleArrayUnit.get off' n' u := by
  apply Nat.eq_of_testBit_eq
  intro i
  rw [DoubleArrayUnit.testBit_get, DoubleArrayUnit.testBit_get,
    DoubleArrayUnit.testBit_set off n u v _ hu hv hn]
  by_cases h : i < n'
  · have : ¬ (off ≤ off' + i ∧ off' + i < off + n) := by omega
    simp [h, this]
  · simp [h]

theorem DoubleArrayUnit.get_lt (off n : Nat) (u : DoubleArrayUnit) :
    DoubleArrayUnit.get off n u < 2 ^ n := by
  apply Nat.lt_pow_two_of_testBit
  intro i hi
  rw [DoubleArrayUnit.testBit_get]
  simp; omega

theorem DoubleArrayUnit.is_leaf_eq_testBit (u : DoubleArrayUnit) :
    u.is_leaf = Nat.testBit u.values 0 := by
  unfold DoubleArrayUnit.is_leaf
  rw [Nat.and_one_is_mod, Nat.testBit_zero]
  rcases Nat.mod_two_eq_zero_or_one u.values with h | h <;> simp [h]

theorem DoubleArrayUnit.is_end_eq_testBit (u : DoubleArrayUnit) :
    u.is_end = Nat.testBit u.values 1 := by
  unfold DoubleArrayUnit.is_end
  have h2 : (2 : Nat) = 2 ^ 1 := rfl
  by_cases h : Nat.testBit u.values 1
  · have : u.values &&& 2 = 2 := by
      apply Nat.eq_of_testBit_eq
      intro i
      rw [Nat.testBit_and]
      nth_rewrite 1 [h2]
      nth_rewrite 2 [h2]
      rw [Nat.testBit_two_pow]
      by_cases hi : 1 = i
      · subst hi; simp [h]
      · simp [hi]
    simp [this, h]
  · have : u.values &&& 2 = 0 := by
      apply Nat.eq_of_testBit_eq
      intro i
      rw [Nat.testBit_and]
      nth_rewrite 1 [h2]
      rw [Nat.testBit_two_pow]
      by_cases hi : 1 = i
      · subst hi; simp [h]
      · simp [hi]
    simp [this, h]

end Darts

namespace Darts

namespace DoubleArrayUnit

theorem OFFSET_MAX_eq : OFFSET_MAX = 2097152 := by decide

theorem wf_default : (default : DoubleArrayUnit).wf := by
  show (0 : Nat) < 2 ^ 32
  decide

theorem is_leaf_set (off n : Nat) (u : DoubleArrayUnit) (v : Nat)
    (hu : u.wf) (hv : v < 2 ^ n) (hn : off + n ≤ 32) (ho : 1 ≤ off) :
    (DoubleArrayUnit.set off n u v).is_leaf = u.is_leaf := by
  rw [is_leaf_eq_testBit, is_leaf_eq_testBit, testBit_set off n u v 0 hu hv hn]
  have : ¬ (off ≤ 0 ∧ 0 < off + n) := by omega
  rw [if_neg this]

theorem is_end_set (off n : Nat) (u : DoubleArrayUnit) (v : Nat)
    (hu : u.wf) (hv : v < 2 ^ n) (hn : off + n ≤ 32) (ho : 2 ≤ off) :
    (DoubleArrayUnit.set off n u v).is_end = u.is_end := by
  rw [is_end_eq_testBit, is_end_eq_testBit, testBit_set off n u v 1 hu hv hn]
  have : ¬ (off ≤ 1 ∧ 1 < off + n) := by omega
  rw [if_neg this]

theorem get_or_one (off n : Nat) (v : Nat) (ho : 1 ≤ off) :
    DoubleArrayUnit.get off n ⟨v ||| 1⟩ = DoubleArrayUnit.get off n ⟨v⟩ := by
  apply Nat.eq_of_testBit_eq
  intro i
  rw [testBit_get, testBit_get]
  simp only [Nat.testBit_or]
  have : Nat.testBit 1 (off + i) = false :=
    Nat.testBit_lt_two_pow (Nat.one_lt_two_pow (by omega))
  simp [this]

theorem get_or_two (off n : Nat) (v : Nat) (ho : 2 ≤ off) :
    DoubleArrayUnit.get off n ⟨v ||| 2⟩ = DoubleArrayUnit.get off n ⟨v⟩ := by
  apply Nat.eq_of_testBit_eq
  intro i
  rw [testBit_get, testBit_get]
  simp only [Nat.testBit_or]
  have : Nat.testBit 2 (off + i) = false := by
    apply Nat.testBit_lt_two_pow
    calc 2 = 2 ^ 1 := rfl
      _ < 2 ^ (off + i) := Nat.pow_lt_pow_right (by decide) (by omega)
  simp [this]

/-! ### set_is_leaf, set_is_end -/

theorem wf_set_is_leaf (u : DoubleArrayUnit) (hu : u.wf) : u.set_is_leaf.wf :=
  Nat.or_lt_two_pow hu (by decide)

theorem wf_set_is_end (u : DoubleArrayUnit) (hu : u.wf) : u.set_is_end.wf :=
  Nat.or_lt_two_pow hu (by decide)

theorem is_leaf_set_is_leaf (u : DoubleArrayUnit) : u.set_is_leaf.is_leaf = true := by
  rw [is_leaf_eq_testBit]
  simp [set_is_leaf]

theorem is_end_set_is_leaf (u : DoubleArrayUnit) : u.set_is_leaf.is_end = u.is_end := by
  rw [is_end_eq_testBit, is_end_eq_testBit]
  simp only [set_is_leaf, Nat.testBit_or]
  have : Nat.testBit 1 1 = false := by decide
  simp [this]

theorem label_set_is_leaf (u : DoubleArrayUnit) : u.set_is_leaf.label = u.label :=
  get_or_one 2 8 u.values (by decide)

theorem offset_set_is_leaf (u : DoubleArrayUnit) : u.set_is_leaf.offset = u.offset := by
  unfold offset
  have : DoubleArrayUnit.get 10 22 u.set_is_leaf = DoubleArrayUnit.get 10 22 u :=
    get_or_one 10 22 u.values (by decide)
  rw [this]

theorem is_end_set_is_end (u : DoubleArrayUnit) : u.set_is_end.is_end = true := by
  rw [is_end_eq_testBit]
  simp only [set_is_end, Nat.testBit_or]
  have : Nat.testBit 2 1 = true := by decide
  simp [this]

theorem is_leaf_set_is_end (u : DoubleArrayUnit) : u.set_is_end.is_leaf = u.is_leaf := by
  rw [is_leaf_eq_testBit, is_leaf_eq_testBit]
  simp only [set_is_end, Nat.testBit_or]
  have : Nat.testBit 2 0 = false := by decide
  simp [this]

theorem label_set_is_end (u : DoubleArrayUnit) : u.set_is_end.label = u.label :=
  get_or_two 2 8 u.values (by decide)

theorem offset_set_is_end (u : DoubleArrayUnit) : u.set_is_end.offset = u.offset := by
  unfold offset
  have : DoubleArrayUnit.get 10 22 u.set_is_end = DoubleArrayUnit.get 10 22 u :=
    get_or_two 10 22 u.values (by decide)
  rw [this]

/-! ### set_label -/

theorem wf_set_label (u : DoubleArrayUnit) (c : Nat) (hu : u.wf) (hc : c < 256) :
    (u.set_label c).wf := set_lt 2 8 u c hu hc (by decide)

theorem label_set_label (u : DoubleArrayUnit) (c : Nat) (hu : u.wf) (hc : c < 256) :
    (u.set_label c).label = c := get_set_same 2 8 u c hu hc (by decide)

theorem offset_set_label (u : DoubleArrayUnit) (c : Nat) (hu : u.wf) (hc : c < 256) :
    (u.set_label c).offset = u.offset := by
  unfold offset set_label
  rw [get_set_disjoint 2 8 10 22 u c hu hc (by decide) (by decide)]

theorem is_leaf_set_label (u : DoubleArrayUnit) (c : Nat) (hu : u.wf) (hc : c < 256) :
    (u.set_label c).is_leaf = u.is_leaf := is_leaf_set 2 8 u c hu hc (by decide) (by decide)

theorem is_end_set_label (u : DoubleArrayUnit) (c : Nat) (hu : u.wf) (hc : c < 256) :
    (u.set_label c).is_end = u.is_end := is_end_set 2 8 u c hu hc (by decide) (by decide)

theorem label_lt (u : DoubleArrayUnit) : u.label < 256 := get_lt 2 8 u

/-! ### set_offset -/

theorem set_offset_ok (u : DoubleArrayUnit) (o : Nat) (ho : o < 2 ^ 29) :
    u.set_offset o =
      .ok (DoubleArrayUnit.set 10 22 u (if o < OFFSET_MAX then o else (1 <<< 21) + (o >>> 8))) := by
  unfold set_offset
  have : ¬ (o ≥ OFFSET_MAX <<< 8) := by
    have : OFFSET_MAX <<< 8 = 2 ^ 29 := by decide
    omega
  simp [this]

theorem set_offset_error (u : DoubleArrayUnit) (o : Nat) (ho : 2 ^ 29 ≤ o) :
    u.set_offset o = .error .tooLargeOffset := by
  unfold set_offset
  have : o ≥ OFFSET_MAX <<< 8 := by
    have : OFFSET_MAX <<< 8 = 2 ^ 29 := by decide
    omega
  simp [this]

theorem set_offset_lt {u u' : DoubleArrayUnit} {o : Nat} (h : u.set_offset o = .ok u') :
    o < 2 ^ 29 := by
  by_contra hc
  rw [set_offset_error u o (by omega)] at h
  cases h

theorem offset_field_lt (o : Nat) (ho : o < 2 ^ 29) :
    (if o < OFFSET_MAX then o else (1 <<< 21) + (o >>> 8)) < 2 ^ 22 := by
  rw [OFFSET_MAX_eq, Nat.shiftRight_eq_div_pow]
  have : (1 <<< 21 : Nat) = 2097152 := by decide
  rw [this]
  split <;> omega

theorem set_offset_spec {u u' : DoubleArrayUnit} {o : Nat} (hu : u.wf)
    (h : u.set_offset o = .ok u') :
    u'.wf ∧ u'.label = u.label ∧ u'.is_leaf = u.is_leaf ∧ u'.is_end = u.is_end ∧
      ((o < 2 ^ 21 ∨ o % 256 = 0) → u'.offset = o) := by
  have ho := set_offset_lt h
  rw [set_offset_ok u o ho] at h
  injection h with h
  subst h
  have hw := offset_field_lt o ho
  refine ⟨set_lt 10 22 u _ hu hw (by decide), ?_, ?_, ?_, ?_⟩
  · exact get_set_disjoint 10 22 2 8 u _ hu hw (by decide) (by decide)
  · exact is_leaf_set 10 22 u _ hu hw (by decide) (by decide)
  · exact is_end_set 10 22 u _ hu hw (by decide) (by decide)
  · intro hcase
    unfold offset
    rw [get_set_same 10 22 u _ hu hw (by decide)]
    have e1 : (1 <<< 21 : Nat) = 2097152 := by decide
    simp only [OFFSET_MAX_eq, e1, Nat.shiftRight_eq_div_pow, Nat.shiftLeft_eq]
    by_cases h1 : o < 2097152
    · simp [h1]
    · simp only [h1, if_false]
      have h2 : ¬ (2097152 + o / 2 ^ 8 < 2097152) := by omega
      simp only [h2, if_false]
      omega

theorem offset_lt (u : DoubleArrayUnit) : u.offset < 2 ^ 29 := by
  have h := get_lt 10 22 u
  simp only [offset, OFFSET_MAX_eq, Nat.shiftLeft_eq]
  split <;> omega

/-! ### Leaf fields for `VALUE_ID_BITS = 3` -/

theorem wf_set_value_id (u : DoubleArrayUnit) (id : Nat) (hu : u.wf) (hid : id < 8) :
    (u.set_value_id 3 id).wf := set_lt 1 3 u id hu hid (by decide)

theorem is_leaf_set_value_id (u : DoubleArrayUnit) (id : Nat) (hu : u.wf) (hid : id < 8) :
    (u.set_value_id 3 id).is_leaf = u.is_leaf := is_leaf_set 1 3 u id hu hid (by decide) (by decide)

theorem value_id_set_value_id (u : DoubleArrayUnit) (id : Nat) (hu : u.wf) (hid : id < 8) :
    (u.set_value_id 3 id).value_id 3 = id := get_set_same 1 3 u id hu hid (by decide)

theorem set_link_lt {u u' : DoubleArrayUnit} {l : Nat} (h : u.set_link 3 l = .ok u') :
    l < 2 ^ 28 := by
  unfold set_link at h
  have hm : UNIT_LINK_MAX 3 = 2 ^ 28 := by decide
  rw [hm] at h
  by_contra hc
  have : l ≥ 2 ^ 28 := by omega
  rw [if_pos this] at h
  cases h

theorem set_link_spec {u u' : DoubleArrayUnit} {l : Nat} (hu : u.wf)
    (h : u.set_link 3 l = .ok u') :
    u'.wf ∧ u'.is_leaf = u.is_leaf ∧ u'.value_id 3 = u.value_id 3 ∧ u'.link 3 = l := by
  have hl := set_link_lt h
  unfold set_link at h
  have hm : UNIT_LINK_MAX 3 = 2 ^ 28 := by decide
  rw [hm] at h
  have : ¬ (l ≥ 2 ^ 28) := by omega
  rw [if_neg this] at h
  injection h with h
  subst h
  have hb : LINK_BITS 3 = 28 := by decide
  rw [hb]
  refine ⟨set_lt 4 28 u l hu hl (by decide), ?_, ?_, ?_⟩
  · exact is_leaf_set 4 28 u l hu hl (by decide) (by decide)
  · exact get_set_disjoint 4 28 1 3 u l hu hl (by decide) (by decide)
  · unfold link
    rw [hb]
    exact get_set_same 4 28 u l hu hl (by decide)

theorem set_link_ok (u : DoubleArrayUnit) (l : Nat) (hl : l < 2 ^ 28) :
    ∃ u', u.set_link 3 l = .ok u' := by
  unfold set_link
  have hm : UNIT_LINK_MAX 3 = 2 ^ 28 := by decide
  rw [hm]
  have : ¬ (l ≥ 2 ^ 28) := by omega
  rw [if_neg this]
  exact ⟨_, rfl⟩

theorem link_lt (u : DoubleArrayUnit) : u.link 3 < 2 ^ 28 := get_lt 4 28 u

theorem value_id_lt (u : DoubleArrayUnit) : u.value_id 3 < 8 := get_lt 1 3 u

/-! ### set_index -/

theorem index_set_index (u : DoubleArrayUnit) (i : Nat) (hu : u.wf) (hi : i < 2 ^ 31) :
    (u.set_index i).index = i := get_set_same 1 31 u i hu hi (by decide)

theorem is_leaf_set_index (u : DoubleArrayUnit) (i : Nat) (hu : u.wf) (hi : i < 2 ^ 31) :
    (u.set_index i).is_leaf = u.is_leaf := is_leaf_set 1 31 u i hu hi (by decide) (by decide)

theorem wf_set_index (u : DoubleArrayUnit) (i : Nat) (hu : u.wf) (hi : i < 2 ^ 31) :
    (u.set_index i).wf := set_lt 1 31 u i hu hi (by decide)

end DoubleArrayUnit

end Darts

namespace Darts

/-! ## Exclusive or with a byte -/

theorem testBit_byte_high (c i : Nat) (hc : c < 256) : Nat.testBit c (i + 8) = false := by
  apply Nat.testBit_lt_two_pow
  calc c < 2 ^ 8 := hc
    _ ≤ 2 ^ (i + 8) := Nat.pow_le_pow_right (by decide) (by omega)

theorem testBit_div_256 (a i : Nat) : Nat.testBit (a / 256) i = Nat.testBit a (i + 8) := by
  have : a / 256 = a >>> 8 := by rw [Nat.shiftRight_eq_div_pow]
  rw [this, Nat.testBit_shiftRight, Nat.add_comm]

theorem xor_byte_div (a c : Nat) (hc : c < 256) : (a ^^^ c) / 256 = a / 256 := by
  apply Nat.eq_of_testBit_eq
  intro i
  rw [testBit_div_256, testBit_div_256, Nat.testBit_xor, testBit_byte_high c i hc]
  simp

theorem xor_byte_lt (a c m : Nat) (hc : c < 256) (ha : a < 256 * m) : a ^^^ c < 256 * m := by
  have h := xor_byte_div a c hc
  have h1 : a / 256 < m := by omega
  have h2 : (a ^^^ c) / 256 < m := by omega
  omega

theorem xor_xor_cancel_right (a c : Nat) : (a ^^^ c) ^^^ c = a := by
  rw [Nat.xor_assoc, Nat.xor_self, Nat.xor_zero]

theorem xor_xor_cancel_left (a c : Nat) : a ^^^ (a ^^^ c) = c := by
  rw [← Nat.xor_assoc, Nat.xor_self, Nat.zero_xor]

theorem xor_left_inj {a c d : Nat} (h : a ^^^ c = a ^^^ d) : c = d := by
  have := congrArg (fun x => a ^^^ x) h
  simpa [xor_xor_cancel_left] using this

theorem xor_eq_iff (a b c : Nat) : a ^^^ b = c ↔ b = a ^^^ c := by
  constructor
  · intro h; rw [← h, xor_xor_cancel_left]
  · intro h; rw [h, xor_xor_cancel_left]

theorem xor_mod_256 (a b : Nat) : (a ^^^ b) % 256 = (a % 256) ^^^ (b % 256) := by
  apply Nat.eq_of_testBit_eq
  intro i
  have e : (256 : Nat) = 2 ^ 8 := rfl
  rw [e, Nat.testBit_mod_two_pow, Nat.testBit_xor, Nat.testBit_xor, Nat.testBit_mod_two_pow,
    Nat.testBit_mod_two_pow]
  by_cases h : i < 8 <;> simp [h]

theorem xor_lt_256 (a b : Nat) (ha : a < 256) (hb : b < 256) : a ^^^ b < 256 :=
  Nat.xor_lt_two_pow (n := 8) ha hb

/-- The base implied by a unit index and its label. -/
theorem xor_label_of_block (j u : Nat) (h : j / 256 = u / 256) :
    j ^^^ ((j ^^^ u) % 256) = u := by
  apply Nat.eq_of_testBit_eq
  intro i
  have e : (256 : Nat) = 2 ^ 8 := rfl
  rw [Nat.testBit_xor, e, Nat.testBit_mod_two_pow, Nat.testBit_xor]
  by_cases hi : i < 8
  · simp [hi]
  · have h1 := testBit_div_256 j (i - 8)
    have h2 := testBit_div_256 u (i - 8)
    rw [h] at h1
    have : i - 8 + 8 = i := by omega
    rw [this] at h1 h2
    simp [hi, ← h1, h2]

theorem or_and_255 (n i : Nat) (hn : n % 256 = 0) :
    n ||| (i &&& 0xFF) = n + i % 256 := by
  have e : (0xFF : Nat) = 2 ^ 8 - 1 := rfl
  have e2 : i % 256 = i % 2 ^ 8 := rfl
  rw [e, Nat.and_pow_two_sub_one_eq_mod, e2]
  have hn' : n = 2 ^ 8 * (n / 256) := by omega
  have hlt : i % 2 ^ 8 < 2 ^ 8 := Nat.mod_lt _ (by decide)
  have := Nat.mul_add_lt_is_or hlt (n / 256)
  rw [← hn'] at this
  rw [← this]

theorem xor_self_low (i n : Nat) (hn : n % 256 = 0) :
    (i ^^^ (n + i % 256)) % 256 = 0 := by
  rw [xor_mod_256]
  have : (n + i % 256) % 256 = i % 256 := by omega
  rw [this, Nat.xor_self]

/-- The test of `find_offset_index` on an offset: it is below `OFFSET_MAX` or a
multiple of `OFFSET_MAX`. -/
theorem offset_mask_test (o : Nat) (ho : o < 2 ^ 32)
    (h : (o &&& (DoubleArrayUnit.OFFSET_MAX - 1) == 0
      || o &&& (0xFFFFFFFF - (DoubleArrayUnit.OFFSET_MAX - 1)) == 0) = true) :
    o < 2 ^ 21 ∨ o % 256 = 0 := by
  rw [DoubleArrayUnit.OFFSET_MAX_eq] at h
  simp only [Bool.or_eq_true, beq_iff_eq] at h
  rcases h with h | h
  · right
    have e : (2097152 - 1 : Nat) = 2 ^ 21 - 1 := rfl
    rw [e, Nat.and_pow_two_sub_one_eq_mod] at h
    omega
  · left
    apply Nat.lt_pow_two_of_testBit
    intro i hi
    by_contra hb
    have hb' : Nat.testBit o i = true := by simpa using hb
    have h32 : i < 32 := by
      by_contra hge
      have := Nat.testBit_lt_two_pow (x := o) (i := i)
        (lt_of_lt_of_le ho (Nat.pow_le_pow_right (by decide) (by omega)))
      rw [this] at hb'
      cases hb'
    have hm : Nat.testBit (0xFFFFFFFF - (2097152 - 1)) i = true := by
      have e : (0xFFFFFFFF - (2097152 - 1) : Nat) = 2 ^ 32 - ((2 ^ 21 - 1) + 1) := rfl
      rw [e, Nat.testBit_two_pow_sub_succ (by decide), Nat.testBit_two_pow_sub_one]
      simp [h32]
      omega
    have := congrArg (fun x => Nat.testBit x i) h
    simp only [Nat.testBit_and, hb', hm, Nat.zero_testBit] at this
    cases this

/-! ## DoubleArrayExtra -/

namespace DoubleArrayExtra

theorem testBit_shl1_mod (x i : Nat) (hx : x < 2 ^ 31) :
    Nat.testBit ((x <<< 1) % 2 ^ 32) (i + 1) = Nat.testBit x i := by
  have : x <<< 1 < 2 ^ 32 := by rw [Nat.shiftLeft_eq]; omega
  rw [Nat.mod_eq_of_lt this, Nat.testBit_shiftLeft]
  simp

theorem testBit_shl1_mod_zero (x : Nat) : Nat.testBit ((x <<< 1) % 2 ^ 32) 0 = false := by
  rw [Nat.testBit_mod_two_pow, Nat.testBit_shiftLeft]
  simp

theorem flag_or_field (f x : Nat) (hx : x < 2 ^ 31) :
    ((f &&& 1) ||| ((x <<< 1) % 2 ^ 32)) >>> 1 = x := by
  apply Nat.eq_of_testBit_eq
  intro i
  rw [Nat.testBit_shiftRight, Nat.testBit_or, Nat.add_comm 1 i, testBit_shl1_mod x i hx,
    Nat.testBit_and]
  have : Nat.testBit 1 (i + 1) = false := Nat.testBit_lt_two_pow (Nat.one_lt_two_pow (by omega))
  simp [this]

theorem flag_or_field_flag (f x : Nat) :
    (((f &&& 1) ||| ((x <<< 1) % 2 ^ 32)) &&& 1 == 1) = (f &&& 1 == 1) := by
  have : ((f &&& 1) ||| ((x <<< 1) % 2 ^ 32)) &&& 1 = f &&& 1 := by
    apply Nat.eq_of_testBit_eq
    intro i
    simp only [Nat.testBit_and, Nat.testBit_or]
    cases i with
    | zero => rw [testBit_shl1_mod_zero]; simp
    | succ i =>
      have : Nat.testBit 1 (i + 1) = false :=
        Nat.testBit_lt_two_pow (Nat.one_lt_two_pow (by omega))
      simp [this]
  rw [this]

theorem or_one_shr (f : Nat) : (f ||| 1) >>> 1 = f >>> 1 := by
  apply Nat.eq_of_testBit_eq
  intro i
  rw [Nat.testBit_shiftRight, Nat.testBit_shiftRight, Nat.testBit_or]
  have : Nat.testBit 1 (1 + i) = false := Nat.testBit_lt_two_pow (Nat.one_lt_two_pow (by omega))
  simp [this]

theorem or_one_flag (f : Nat) : ((f ||| 1) &&& 1 == 1) = true := by
  rw [Nat.and_one_is_mod]
  have : (f ||| 1) % 2 = 1 := by
    rw [Nat.or_mod_two_eq_one]; right; rfl
  simp [this]

@[simp] theorem next_set_next (e : DoubleArrayExtra) (x : Nat) (hx : x < 2 ^ 31) :
    (e.set_next x).next = x := flag_or_field _ _ hx

@[simp] theorem prev_set_next (e : DoubleArrayExtra) (x : Nat) : (e.set_next x).prev = e.prev := rfl

@[simp] theorem is_fixed_set_next (e : DoubleArrayExtra) (x : Nat) :
    (e.set_next x).is_fixed = e.is_fixed := flag_or_field_flag _ _

@[simp] theorem is_used_set_next (e : DoubleArrayExtra) (x : Nat) :
    (e.set_next x).is_used = e.is_used := rfl

@[simp] theorem prev_set_prev (e : DoubleArrayExtra) (x : Nat) (hx : x < 2 ^ 31) :
    (e.set_prev x).prev = x := flag_or_field _ _ hx

@[simp] theorem next_set_prev (e : DoubleArrayExtra) (x : Nat) : (e.set_prev x).next = e.next := rfl

@[simp] theorem is_fixed_set_prev (e : DoubleArrayExtra) (x : Nat) :
    (e.set_prev x).is_fixed = e.is_fixed := rfl

@[simp] theorem is_used_set_prev (e : DoubleArrayExtra) (x : Nat) :
    (e.set_prev x).is_used = e.is_used := flag_or_field_flag _ _

@[simp] theorem is_fixed_set_is_fixed (e : DoubleArrayExtra) : e.set_is_fixed.is_fixed = true :=
  or_one_flag _

@[simp] theorem next_set_is_fixed (e : DoubleArrayExtra) : e.set_is_fixed.next = e.next :=
  or_one_shr _

@[simp] theorem prev_set_is_fixed (e : DoubleArrayExtra) : e.set_is_fixed.prev = e.prev := rfl

@[simp] theorem is_used_set_is_fixed (e : DoubleArrayExtra) :
    e.set_is_fixed.is_used = e.is_used := rfl

@[simp] theorem is_used_set_is_used (e : DoubleArrayExtra) : e.set_is_used.is_used = true :=
  or_one_flag _

@[simp] theorem prev_set_is_used (e : DoubleArrayExtra) : e.set_is_used.prev = e.prev :=
  or_one_shr _

@[simp] theorem next_set_is_used (e : DoubleArrayExtra) : e.set_is_used.next = e.next := rfl

@[simp] theorem is_fixed_set_is_used (e : DoubleArrayExtra) :
    e.set_is_used.is_fixed = e.is_fixed := rfl

@[simp] theorem is_fixed_default : (default : DoubleArrayExtra).is_fixed = false := rfl

@[simp] theorem is_used_default : (default : DoubleArrayExtra).is_used = false := rfl

@[simp] theorem clear_eq (e : DoubleArrayExtra) : e.clear = default := rfl

end DoubleArrayExtra

end Darts

namespace Darts

theorem list_getD_set {α : Type} (l : List α) (i j : Nat) (a d : α) :
    (l.set i a).getD j d = if i = j ∧ i < l.length then a else l.getD j d := by
  simp only [List.getD_eq_getElem?_getD, List.getElem?_set]
  by_cases h : i = j
  · subst h
    by_cases h2 : i < l.length
    · simp [h2]
    · have : l[i]? = none := List.getElem?_eq_none (by omega)
      simp [h2, this]
  · simp [h]

/-! ## The ascending circular order -/

theorem succ_remove (S : Nat → Prop) (x P N y z : Nat) (hs : IsSucc S x N)
    (hp : IsPred S x P) (hy : S y) (hyx : y ≠ x) (hz : IsSucc S y z) :
    IsSucc (fun j => S j ∧ j ≠ x) y (if y = P then N else z) := by
  obtain ⟨hN, hs⟩ := hs
  obtain ⟨hP, hp⟩ := hp
  obtain ⟨hzS, hz⟩ := hz
  by_cases h : y = P
  · rw [if_pos h]
    have a4 := hs y hy
    refine ⟨⟨hN, by omega⟩, fun w hw => ?_⟩
    have d1 := hs w hw.1
    have d2 := hp w hw.1
    have := hw.2
    omega
  · rw [if_neg h]
    have c3 := hz P hP
    have b4 := hp y hy
    refine ⟨⟨hzS, by omega⟩, fun w hw => ?_⟩
    exact hz w hw.1

theorem pred_remove (S : Nat → Prop) (x P N y z : Nat) (hs : IsSucc S x N)
    (hp : IsPred S x P) (hy : S y) (hyx : y ≠ x) (hz : IsPred S y z) :
    IsPred (fun j => S j ∧ j ≠ x) y (if y = N then P else z) := by
  obtain ⟨hN, hs⟩ := hs
  obtain ⟨hP, hp⟩ := hp
  obtain ⟨hzS, hz⟩ := hz
  by_cases h : y = N
  · rw [if_pos h]
    have a4 := hp y hy
    refine ⟨⟨hP, by omega⟩, fun w hw => ?_⟩
    have d1 := hs w hw.1
    have d2 := hp w hw.1
    have := hw.2
    omega
  · rw [if_neg h]
    have c3 := hz N hN
    have b4 := hs y hy
    refine ⟨⟨hzS, by omega⟩, fun w hw => ?_⟩
    exact hz w hw.1

theorem head_remove (S : Nat → Prop) (n h x N : Nat) (hh : IsHead S n h) (hx : S x)
    (hs : IsSucc S x N) :
    IsHead (fun j => S j ∧ j ≠ x) n (if x = h then (if N = x then n else N) else h) := by
  obtain ⟨hN, hs⟩ := hs
  rcases hh with ⟨hh1, hh2⟩ | ⟨_, hh2⟩
  · by_cases h1 : x = h
    · rw [if_pos h1]
      by_cases h2 : N = x
      · rw [if_pos h2]
        right
        refine ⟨rfl, fun z hz => ?_⟩
        have := hs z hz.1
        have := hz.2
        have := hh2 z hz.1
        omega
      · rw [if_neg h2]
        left
        refine ⟨⟨hN, h2⟩, fun z hz => ?_⟩
        have := hs z hz.1
        have := hz.2
        have := hh2 z hz.1
        have := hh2 N hN
        omega
    · rw [if_neg h1]
      left
      exact ⟨⟨hh1, fun hc => h1 hc.symm⟩, fun z hz => hh2 z hz.1⟩
  · exact absurd hx (hh2 x)

theorem succ_append_old (S : Nat → Prop) (n k h M y z : Nat) (hlt : ∀ w, S w → w < n)
    (hh : ∀ w, S w → h ≤ w) (hp : IsPred S h M) (hy : S y) (hyM : y ≠ M) (hz : IsSucc S y z) :
    IsSucc (fun j => S j ∨ (n ≤ j ∧ j < n + k)) y z := by
  obtain ⟨hM, hp⟩ := hp
  obtain ⟨hzS, hz⟩ := hz
  refine ⟨Or.inl hzS, fun w hw => ?_⟩
  rcases hw with hw | hw
  · exact hz w hw
  · have := hlt z hzS
    have := hlt y hy
    have := hz M hM
    have := hp y hy
    have := hh M hM
    omega

theorem succ_append_max (S : Nat → Prop) (n k h M : Nat) (hk : 0 < k) (hlt : ∀ w, S w → w < n)
    (hh : ∀ w, S w → h ≤ w) (hp : IsPred S h M) :
    IsSucc (fun j => S j ∨ (n ≤ j ∧ j < n + k)) M n := by
  obtain ⟨hM, hp⟩ := hp
  refine ⟨Or.inr ⟨by omega, by omega⟩, fun w hw => ?_⟩
  have := hlt M hM
  have := hh M hM
  rcases hw with hw | hw
  · have := hp w hw
    have := hlt w hw
    omega
  · omega

theorem succ_append_new (S : Nat → Prop) (n k y : Nat) (hlt : ∀ w, S w → w < n)
    (hy : n ≤ y) (hy2 : y + 1 < n + k) :
    IsSucc (fun j => S j ∨ (n ≤ j ∧ j < n + k)) y (y + 1) := by
  refine ⟨Or.inr ⟨by omega, by omega⟩, fun w hw => ?_⟩
  rcases hw with hw | hw
  · have := hlt w hw
    omega
  · omega

theorem succ_append_last (S : Nat → Prop) (n k h : Nat) (hk : 0 < k) (hlt : ∀ w, S w → w < n)
    (hh : IsHead S n h) :
    IsSucc (fun j => S j ∨ (n ≤ j ∧ j < n + k)) (n + k - 1) h := by
  rcases hh with ⟨hh1, hh2⟩ | ⟨hh1, hh2⟩
  · refine ⟨Or.inl hh1, fun w hw => ?_⟩
    have := hlt h hh1
    rcases hw with hw | hw
    · have := hlt w hw
      have := hh2 w hw
      omega
    · omega
  · refine ⟨Or.inr ⟨by omega, by omega⟩, fun w hw => ?_⟩
    rcases hw with hw | hw
    · exact absurd hw (hh2 w)
    · omega

theorem pred_append_old (S : Nat → Prop) (n k h y z : Nat) (hlt : ∀ w, S w → w < n)
    (hh1 : S h) (hh : ∀ w, S w → h ≤ w) (hy : S y) (hyh : y ≠ h) (hz : IsPred S y z) :
    IsPred (fun j => S j ∨ (n ≤ j ∧ j < n + k)) y z := by
  obtain ⟨hzS, hz⟩ := hz
  refine ⟨Or.inl hzS, fun w hw => ?_⟩
  rcases hw with hw | hw
  · exact hz w hw
  · have := hlt z hzS
    have := hlt y hy
    have := hh y hy
    have := hz h hh1
    omega

theorem pred_append_head (S : Nat → Prop) (n k h : Nat) (hk : 0 < k) (hlt : ∀ w, S w → w < n)
    (hh1 : S h) (hh : ∀ w, S w → h ≤ w) :
    IsPred (fun j => S j ∨ (n ≤ j ∧ j < n + k)) h (n + k - 1) := by
  refine ⟨Or.inr ⟨by omega, by omega⟩, fun w hw => ?_⟩
  have := hlt h hh1
  rcases hw with hw | hw
  · have := hlt w hw
    have := hh w hw
    omega
  · omega

theorem pred_append_first (S : Nat → Prop) (n k h M : Nat) (hlt : ∀ w, S w → w < n)
    (hh : ∀ w, S w → h ≤ w) (hp : IsPred S h M) :
    IsPred (fun j => S j ∨ (n ≤ j ∧ j < n + k)) n M := by
  obtain ⟨hM, hp⟩ := hp
  refine ⟨Or.inl hM, fun w hw => ?_⟩
  have := hlt M hM
  have := hh M hM
  rcases hw with hw | hw
  · have := hp w hw
    have := hlt w hw
    omega
  · omega

theorem pred_append_first_empty (S : Nat → Prop) (n k : Nat) (hk : 0 < k) (he : ∀ w, ¬ S w) :
    IsPred (fun j => S j ∨ (n ≤ j ∧ j < n + k)) n (n + k - 1) := by
  refine ⟨Or.inr ⟨by omega, by omega⟩, fun w hw => ?_⟩
  rcases hw with hw | hw
  · exact absurd hw (he w)
  · omega

theorem pred_append_new (S : Nat → Prop) (n k y : Nat) (hlt : ∀ w, S w → w < n)
    (hy : n < y) (hy2 : y < n + k) :
    IsPred (fun j => S j ∨ (n ≤ j ∧ j < n + k)) y (y - 1) := by
  refine ⟨Or.inr ⟨by omega, by omega⟩, fun w hw => ?_⟩
  rcases hw with hw | hw
  · have := hlt w hw
    omega
  · omega

theorem head_append (S : Nat → Prop) (n k h : Nat) (hk : 0 < k) (hlt : ∀ w, S w → w < n)
    (hh : IsHead S n h) :
    IsHead (fun j => S j ∨ (n ≤ j ∧ j < n + k)) (n + k) h := by
  rcases hh with ⟨hh1, hh2⟩ | ⟨hh1, hh2⟩
  · left
    refine ⟨Or.inl hh1, fun w hw => ?_⟩
    have := hlt h hh1
    rcases hw with hw | hw
    · exact hh2 w hw
    · omega
  · left
    refine ⟨Or.inr ⟨by omega, by omega⟩, fun w hw => ?_⟩
    rcases hw with hw | hw
    · exact absurd hw (hh2 w)
    · omega

theorem isSucc_congr {S T : Nat → Prop} (h : ∀ j, S j ↔ T j) {x y : Nat} (hs : IsSucc S x y) :
    IsSucc T x y :=
  ⟨(h y).1 hs.1, fun z hz => hs.2 z ((h z).2 hz)⟩

theorem isPred_congr {S T : Nat → Prop} (h : ∀ j, S j ↔ T j) {x y : Nat} (hs : IsPred S x y) :
    IsPred T x y :=
  ⟨(h y).1 hs.1, fun z hz => hs.2 z ((h z).2 hz)⟩

theorem isHead_congr {S T : Nat → Prop} (h : ∀ j, S j ↔ T j) {n x : Nat} (hs : IsHead S n x) :
    IsHead T n x := by
  rcases hs with ⟨h1, h2⟩ | ⟨h1, h2⟩
  · exact Or.inl ⟨(h x).1 h1, fun z hz => h2 z ((h z).2 hz)⟩
  · exact Or.inr ⟨h1, fun z hz => h2 z ((h z).2 hz)⟩

namespace DoubleArrayBuilder

@[simp] theorem units_set_extra (b : DoubleArrayBuilder) (i : Nat) (e : DoubleArrayExtra) :
    (b.set_extra i e).units = b.units := by
  unfold set_extra; split <;> rfl

@[simp] theorem keys_set_extra (b : DoubleArrayBuilder) (i : Nat) (e : DoubleArrayExtra) :
    (b.set_extra i e).keys = b.keys := by
  unfold set_extra; split <;> rfl

@[simp] theorem unfixed_index_set_extra (b : DoubleArrayBuilder) (i : Nat) (e : DoubleArrayExtra) :
    (b.set_extra i e).unfixed_index = b.unfixed_index := by
  unfold set_extra; split <;> rfl

@[simp] theorem progress_set_extra (b : DoubleArrayBuilder) (i : Nat) (e : DoubleArrayExtra) :
    (b.set_extra i e).progress = b.progress := by
  unfold set_extra; split <;> rfl

@[simp] theorem tail_index_set_extra (b : DoubleArrayBuilder) (i : Nat) (e : DoubleArrayExtra) :
    (b.set_extra i e).tail_index = b.tail_index := by
  unfold set_extra; split <;> rfl

@[simp] theorem num_of_units_set_extra (b : DoubleArrayBuilder) (i : Nat) (e : DoubleArrayExtra) :
    (b.set_extra i e).num_of_units = b.num_of_units := by
  simp [num_of_units]

@[simp] theorem unit_set_extra (b : DoubleArrayBuilder) (i : Nat) (e : DoubleArrayExtra) (j : Nat) :
    (b.set_extra i e).unit j = b.unit j := by
  simp [unit]

@[simp] theorem extras_length_set_extra (b : DoubleArrayBuilder) (i : Nat) (e : DoubleArrayExtra) :
    (b.set_extra i e).extras.length = b.extras.length := by
  unfold set_extra; split <;> simp

@[simp] theorem num_of_blocks_set_extra (b : DoubleArrayBuilder) (i : Nat) (e : DoubleArrayExtra) :
    (b.set_extra i e).num_of_blocks = b.num_of_blocks := by
  simp [num_of_blocks]

@[simp] theorem first_live_set_extra (b : DoubleArrayBuilder) (i : Nat) (e : DoubleArrayExtra) :
    (b.set_extra i e).first_live = b.first_live := by
  simp [first_live]

theorem extra_set_extra_ne (b : DoubleArrayBuilder) (i j : Nat) (e : DoubleArrayExtra)
    (h : i ≠ j) : (b.set_extra i e).extra j = b.extra j := by
  unfold set_extra
  split
  · rename_i block hb
    unfold extra
    dsimp only
    rw [list_getD_set]
    by_cases h1 : i / BLOCK_SIZE = j / BLOCK_SIZE
    · by_cases h2 : i / BLOCK_SIZE < b.extras.length
      · rw [if_pos ⟨h1, h2⟩, ← h1, hb]
        dsimp only
        rw [list_getD_set]
        have : ¬ (i % BLOCK_SIZE = j % BLOCK_SIZE ∧ i % BLOCK_SIZE < block.length) := by
          intro hc
          apply h
          have := Nat.div_add_mod i BLOCK_SIZE
          have := Nat.div_add_mod j BLOCK_SIZE
          rw [h1, hc.1] at *
          omega
        rw [if_neg this]
      · rw [if_neg (fun hc => h2 hc.2)]
    · rw [if_neg (fun hc => h1 hc.1)]
  · rfl

theorem extra_set_extra_same (b : DoubleArrayBuilder) (i : Nat) (e : DoubleArrayExtra)
    (h : b.Live i) : (b.set_extra i e).extra i = e := by
  obtain ⟨block, hb, hlen⟩ := h
  unfold set_extra
  rw [hb]
  unfold extra
  dsimp only
  have hlt : i / BLOCK_SIZE < b.extras.length := by
    by_contra hc
    rw [List.getD_eq_default _ _ (by omega)] at hb
    cases hb
  rw [list_getD_set, if_pos ⟨rfl, hlt⟩]
  dsimp only
  rw [list_getD_set, if_pos ⟨rfl, by rw [hlen]; exact Nat.mod_lt _ (by decide)⟩]

theorem extra_set_extra (b : DoubleArrayBuilder) (i j : Nat) (e : DoubleArrayExtra)
    (h : b.Live i) : (b.set_extra i e).extra j = if j = i then e else b.extra j := by
  by_cases hij : j = i
  · subst hij; rw [if_pos rfl]; exact extra_set_extra_same b j e h
  · rw [if_neg hij]; exact extra_set_extra_ne b i j e (fun hc => hij hc.symm)

theorem live_set_extra (b : DoubleArrayBuilder) (i : Nat) (e : DoubleArrayExtra) (j : Nat) :
    (b.set_extra i e).Live j ↔ b.Live j := by
  unfold set_extra
  split
  · rename_i block hb
    unfold Live
    dsimp only
    rw [list_getD_set]
    by_cases h1 : i / BLOCK_SIZE = j / BLOCK_SIZE ∧ i / BLOCK_SIZE < b.extras.length
    · rw [if_pos h1, ← h1.1, hb]
      simp
    · rw [if_neg h1]
  · rfl

end DoubleArrayBuilder

end Darts

namespace Darts

namespace DoubleArrayBuilder

theorem AllocInv.free_live {b : DoubleArrayBuilder} (h : b.AllocInv) {x : Nat} (hx : b.Free x) :
    b.Live x := h.live x hx.1 hx.2.1

theorem extra_congr {b b' : DoubleArrayBuilder} (h : b'.extras = b.extras) (j : Nat) :
    b'.extra j = b.extra j := by
  unfold extra; rw [h]

theorem live_congr {b b' : DoubleArrayBuilder} (h : b'.extras = b.extras) (j : Nat) :
    b'.Live j ↔ b.Live j := by
  unfold Live; rw [h]

/-- The three stores of `reserve_index` into the extras. -/
theorem reserve_index_core_extra (b : DoubleArrayBuilder) (h : b.AllocInv) (x : Nat)
    (hx : b.Free x) (hn : b.num_of_units < 2 ^ 31) (j : Nat) :
    ((b.reserve_index_core x).extra j).next
        = (if j = (b.extra x).prev then (b.extra x).next else (b.extra j).next) ∧
    ((b.reserve_index_core x).extra j).prev
        = (if j = (b.extra x).next then (b.extra x).prev else (b.extra j).prev) ∧
    ((b.reserve_index_core x).extra j).is_fixed
        = (if j = x then true else (b.extra j).is_fixed) ∧
    ((b.reserve_index_core x).extra j).is_used = (b.extra j).is_used := by
  have hP := (h.pred x hx).1
  have hN := (h.succ x hx).1
  have hPl := h.free_live hP
  have hNl := h.free_live hN
  have hxl := h.free_live hx
  have hPlt : (b.extra x).prev < 2 ^ 31 := lt_trans hP.2.1 hn
  have hNlt : (b.extra x).next < 2 ^ 31 := lt_trans hN.2.1 hn
  generalize hPd : (b.extra x).prev = P at *
  generalize hNd : (b.extra x).next = N at *
  unfold reserve_index_core
  lift_lets
  intro next b1 b2 b3
  have e1 : ∀ j, b1.extra j = b.extra j := fun j => extra_congr (by
    show (if x = b.unfixed_index then _ else b).extras = b.extras
    split <;> rfl) j
  have l1 : ∀ j, b1.Live j ↔ b.Live j := fun j => live_congr (by
    show (if x = b.unfixed_index then _ else b).extras = b.extras
    split <;> rfl) j
  have e2 : ∀ j, b2.extra j = if j = P then (b.extra P).set_next N else b.extra j := by
    intro j
    show (b1.set_extra (b1.extra x).prev ((b1.extra (b1.extra x).prev).set_next (b1.extra x).next)).extra j = _
    rw [e1 x, hPd, hNd, e1 P, extra_set_extra _ _ _ _ ((l1 P).2 hPl), e1 j]
  have l2 : ∀ j, b2.Live j ↔ b.Live j := fun j => by
    show (b1.set_extra _ _).Live j ↔ _
    rw [live_set_extra, l1]
  have n2 : (b2.extra x).next = N := by
    rw [e2 x]; split
    · exact DoubleArrayExtra.next_set_next _ _ hNlt
    · exact hNd
  have p2 : (b2.extra x).prev = P := by
    rw [e2 x]; split
    · rename_i hxp
      have hp := hPd
      rw [hxp] at hp
      rw [DoubleArrayExtra.prev_set_next, hp]
    · exact hPd
  have e3 : ∀ j, b3.extra j = if j = N then (b2.extra N).set_prev P else b2.extra j := by
    intro j
    show (b2.set_extra (b2.extra x).next ((b2.extra (b2.extra x).next).set_prev (b2.extra x).prev)).extra j = _
    rw [n2, p2, extra_set_extra _ _ _ _ ((l2 N).2 hNl)]
  have l3 : ∀ j, b3.Live j ↔ b.Live j := fun j => by
    show (b2.set_extra _ _).Live j ↔ _
    rw [live_set_extra, l2]
  have e4 : (b3.set_extra x (b3.extra x).set_is_fixed).extra j
      = if j = x then (b3.extra x).set_is_fixed else b3.extra j :=
    extra_set_extra _ _ _ _ ((l3 x).2 hxl)
  rw [e4]
  by_cases hjx : j = x
  · subst hjx
    simp only [if_true, DoubleArrayExtra.next_set_is_fixed, DoubleArrayExtra.prev_set_is_fixed,
      DoubleArrayExtra.is_fixed_set_is_fixed, DoubleArrayExtra.is_used_set_is_fixed]
    rw [e3 j, e2 j, e2 N]
    by_cases h1 : j = N <;> by_cases h2 : j = P <;> by_cases h3 : N = P <;>
      simp [h1, h2, h3, hPlt, hNlt, hPd, hNd] <;> simp_all
  · simp only [hjx, if_false]
    rw [e3 j, e2 j, e2 N]
    by_cases h1 : j = N <;> by_cases h2 : j = P <;> by_cases h3 : N = P <;>
      simp [h1, h2, h3, hPlt, hNlt] <;> simp_all

end DoubleArrayBuilder

end Darts

namespace Darts

namespace DoubleArrayBuilder

@[simp] theorem units_reserve_index_core (b : DoubleArrayBuilder) (x : Nat) :
    (b.reserve_index_core x).units = b.units := by
  unfold reserve_index_core
  simp only [units_set_extra]
  split <;> rfl

@[simp] theorem keys_reserve_index_core (b : DoubleArrayBuilder) (x : Nat) :
    (b.reserve_index_core x).keys = b.keys := by
  unfold reserve_index_core
  simp only [keys_set_extra]
  split <;> rfl

@[simp] theorem progress_reserve_index_core (b : DoubleArrayBuilder) (x : Nat) :
    (b.reserve_index_core x).progress = b.progress := by
  unfold reserve_index_core
  simp only [progress_set_extra]
  split <;> rfl

@[simp] theorem extras_length_reserve_index_core (b : DoubleArrayBuilder) (x : Nat) :
    (b.reserve_index_core x).extras.length = b.extras.length := by
  unfold reserve_index_core
  simp only [extras_length_set_extra]
  split <;> rfl

@[simp] theorem num_of_units_reserve_index_core (b : DoubleArrayBuilder) (x : Nat) :
    (b.reserve_index_core x).num_of_units = b.num_of_units := by
  simp [num_of_units]

@[simp] theorem unit_reserve_index_core (b : DoubleArrayBuilder) (x j : Nat) :
    (b.reserve_index_core x).unit j = b.unit j := by
  simp [unit]

@[simp] theorem first_live_reserve_index_core (b : DoubleArrayBuilder) (x : Nat) :
    (b.reserve_index_core x).first_live = b.first_live := by
  simp [first_live, num_of_blocks]

theorem unfixed_index_reserve_index_core (b : DoubleArrayBuilder) (x : Nat) :
    (b.reserve_index_core x).unfixed_index =
      if x = b.unfixed_index then
        (if (b.extra x).next = x then b.num_of_units else (b.extra x).next)
      else b.unfixed_index := by
  unfold reserve_index_core
  simp only [unfixed_index_set_extra]
  split <;> rfl

theorem live_reserve_index_core (b : DoubleArrayBuilder) (x j : Nat) :
    (b.reserve_index_core x).Live j ↔ b.Live j := by
  unfold reserve_index_core
  simp only [live_set_extra]
  apply live_congr
  split <;> rfl

theorem free_reserve_index_core (b : DoubleArrayBuilder) (h : b.AllocInv) (x : Nat)
    (hx : b.Free x) (hn : b.num_of_units < 2 ^ 31) (j : Nat) :
    (b.reserve_index_core x).Free j ↔ (b.Free j ∧ j ≠ x) := by
  unfold Free
  rw [first_live_reserve_index_core, num_of_units_reserve_index_core,
    (reserve_index_core_extra b h x hx hn j).2.2.1]
  by_cases hj : j = x
  · simp [hj]
  · simp [hj]

theorem fixed_reserve_index_core (b : DoubleArrayBuilder) (h : b.AllocInv) (x : Nat)
    (hx : b.Free x) (hn : b.num_of_units < 2 ^ 31) (j : Nat) :
    (b.reserve_index_core x).Fixed j ↔ (b.Fixed j ∨ j = x) := by
  unfold Fixed
  rw [first_live_reserve_index_core, num_of_units_reserve_index_core,
    (reserve_index_core_extra b h x hx hn j).2.2.1]
  by_cases hj : j = x
  · subst hj
    have := hx.2.1
    simp [this]
  · simp [hj]

theorem allocInv_reserve_index_core (b : DoubleArrayBuilder) (h : b.AllocInv) (x : Nat)
    (hx : b.Free x) (hn : b.num_of_units < 2 ^ 31) : (b.reserve_index_core x).AllocInv := by
  have hfree := free_reserve_index_core b h x hx hn
  refine ⟨?_, ?_, ?_, ?_, ?_, ?_, ?_⟩
  · rw [units_reserve_index_core, extras_length_reserve_index_core]; exact h.size_eq
  · intro j h1 h2
    rw [live_reserve_index_core]
    rw [first_live_reserve_index_core] at h1
    rw [num_of_units_reserve_index_core] at h2
    exact h.live j h1 h2
  · intro j
    rw [unit_reserve_index_core]; exact h.wf j
  · intro j hj
    rw [unit_reserve_index_core]
    exact h.free_zero j ((hfree j).1 hj).1
  · intro y hy
    rw [hfree] at hy
    rw [(reserve_index_core_extra b h x hx hn y).1]
    exact isSucc_congr (fun j => (hfree j).symm)
      (succ_remove b.Free x _ _ y _ (h.succ x hx) (h.pred x hx) hy.1 hy.2 (h.succ y hy.1))
  · intro y hy
    rw [hfree] at hy
    rw [(reserve_index_core_extra b h x hx hn y).2.1]
    exact isPred_congr (fun j => (hfree j).symm)
      (pred_remove b.Free x _ _ y _ (h.succ x hx) (h.pred x hx) hy.1 hy.2 (h.pred y hy.1))
  · rw [unfixed_index_reserve_index_core, num_of_units_reserve_index_core]
    exact isHead_congr (fun j => (hfree j).symm) (head_remove b.Free _ _ x _ h.head hx (h.succ x hx))

end DoubleArrayBuilder

end Darts

namespace Darts

namespace DoubleArrayBuilder

@[simp] theorem tail_index_reserve_index_core (b : DoubleArrayBuilder) (x : Nat) :
    (b.reserve_index_core x).tail_index = b.tail_index := by
  unfold reserve_index_core
  simp only [tail_index_set_extra]
  split <;> rfl

/-! ### set_unit -/

@[simp] theorem extras_set_unit (b : DoubleArrayBuilder) (j : Nat) (u : DoubleArrayUnit) :
    (b.set_unit j u).extras = b.extras := rfl

@[simp] theorem keys_set_unit (b : DoubleArrayBuilder) (j : Nat) (u : DoubleArrayUnit) :
    (b.set_unit j u).keys = b.keys := rfl

@[simp] theorem progress_set_unit (b : DoubleArrayBuilder) (j : Nat) (u : DoubleArrayUnit) :
    (b.set_unit j u).progress = b.progress := rfl

@[simp] theorem tail_index_set_unit (b : DoubleArrayBuilder) (j : Nat) (u : DoubleArrayUnit) :
    (b.set_unit j u).tail_index = b.tail_index := rfl

@[simp] theorem unfixed_index_set_unit (b : DoubleArrayBuilder) (j : Nat) (u : DoubleArrayUnit) :
    (b.set_unit j u).unfixed_index = b.unfixed_index := rfl

@[simp] theorem units_length_set_unit (b : DoubleArrayBuilder) (j : Nat) (u : DoubleArrayUnit) :
    (b.set_unit j u).units.length = b.units.length := by simp [set_unit]

@[simp] theorem num_of_units_set_unit (b : DoubleArrayBuilder) (j : Nat) (u : DoubleArrayUnit) :
    (b.set_unit j u).num_of_units = b.num_of_units := by simp [num_of_units]

@[simp] theorem extra_set_unit (b : DoubleArrayBuilder) (j : Nat) (u : DoubleArrayUnit) (k : Nat) :
    (b.set_unit j u).extra k = b.extra k := rfl

@[simp] theorem first_live_set_unit (b : DoubleArrayBuilder) (j : Nat) (u : DoubleArrayUnit) :
    (b.set_unit j u).first_live = b.first_live := rfl

@[simp] theorem live_set_unit (b : DoubleArrayBuilder) (j : Nat) (u : DoubleArrayUnit) (k : Nat) :
    (b.set_unit j u).Live k ↔ b.Live k := Iff.rfl

@[simp] theorem free_set_unit (b : DoubleArrayBuilder) (j : Nat) (u : DoubleArrayUnit) (k : Nat) :
    (b.set_unit j u).Free k ↔ b.Free k := by simp [Free]

@[simp] theorem fixed_set_unit (b : DoubleArrayBuilder) (j : Nat) (u : DoubleArrayUnit) (k : Nat) :
    (b.set_unit j u).Fixed k ↔ b.Fixed k := by simp [Fixed]

theorem unit_set_unit (b : DoubleArrayBuilder) (j : Nat) (u : DoubleArrayUnit) (k : Nat) :
    (b.set_unit j u).unit k = if j = k ∧ j < b.num_of_units then u else b.unit k := by
  unfold unit set_unit num_of_units
  exact list_getD_set _ _ _ _ _

theorem allocInv_of_eq {b b' : DoubleArrayBuilder} (h : b.AllocInv) (hu : b'.units = b.units)
    (he : b'.extras = b.extras) (hx : b'.unfixed_index = b.unfixed_index) : b'.AllocInv := by
  have e : ∀ j, b'.extra j = b.extra j := extra_congr he
  have f : ∀ j, b'.Free j ↔ b.Free j := fun j => by
    simp only [Free, first_live, num_of_blocks, num_of_units, hu, he, e]
  refine ⟨?_, ?_, ?_, ?_, ?_, ?_, ?_⟩
  · rw [hu, he]; exact h.size_eq
  · intro j h1 h2
    rw [live_congr he]
    apply h.live
    · simpa [first_live, num_of_blocks, he] using h1
    · simpa [num_of_units, hu] using h2
  · intro j; simp only [unit, hu]; exact h.wf j
  · intro j hj; simp only [unit, hu]; exact h.free_zero j ((f j).1 hj)
  · intro x hx'
    rw [e]; exact isSucc_congr (fun j => (f j).symm) (h.succ x ((f x).1 hx'))
  · intro x hx'
    rw [e]; exact isPred_congr (fun j => (f j).symm) (h.pred x ((f x).1 hx'))
  · rw [hx]
    simp only [num_of_units, hu]
    exact isHead_congr (fun j => (f j).symm) h.head

theorem allocInv_set_unit (b : DoubleArrayBuilder) (h : b.AllocInv) (j : Nat)
    (u : DoubleArrayUnit) (hu : u.wf) (hj : ¬ b.Free j) : (b.set_unit j u).AllocInv := by
  refine ⟨?_, ?_, ?_, ?_, ?_, ?_, ?_⟩
  · simp; exact h.size_eq
  · intro k h1 h2
    simp at h1 h2 ⊢
    exact h.live k h1 h2
  · intro k
    rw [unit_set_unit]
    split
    · exact hu
    · exact h.wf k
  · intro k hk
    simp at hk
    rw [unit_set_unit]
    split
    · rename_i hc
      exact absurd (hc.1 ▸ hk) hj
    · exact h.free_zero k hk
  · intro x hx
    simp at hx ⊢
    exact isSucc_congr (fun k => by simp) (h.succ x hx)
  · intro x hx
    simp at hx ⊢
    exact isPred_congr (fun k => by simp) (h.pred x hx)
  · simp
    exact isHead_congr (fun k => by simp) h.head

end DoubleArrayBuilder

end Darts

namespace Darts

namespace DoubleArrayBuilder

theorem AllocInv.head_free {b : DoubleArrayBuilder} (h : b.AllocInv) {end_ : Nat}
    (hlt : b.unfixed_index < end_) (hend : end_ ≤ b.num_of_units) :
    b.Free b.unfixed_index ∧ ∀ z, b.Free z → b.unfixed_index ≤ z := by
  rcases h.head with hh | ⟨hh, _⟩
  · exact hh
  · omega

theorem AllocInv.free_ge_of_head {b : DoubleArrayBuilder} (h : b.AllocInv) {end_ : Nat}
    (hge : ¬ b.unfixed_index < end_) : ∀ j, b.Free j → end_ ≤ j := by
  intro j hj
  rcases h.head with ⟨_, hh⟩ | ⟨_, hh⟩
  · have := hh j hj; omega
  · exact absurd hj (hh j)

theorem fixBlockPost_refl (end_ U : Nat) (b : DoubleArrayBuilder) (h : b.AllocInv)
    (hfree : ∀ j, b.Free j → end_ ≤ j) : FixBlockPost end_ U b b where
  inv := h
  free := fun j => ⟨fun hj => ⟨hj, hfree j hj⟩, fun hj => hj.1⟩
  unit_new := fun j hj hlt => by have := hfree j hj; omega
  unit_old := fun _ _ => rfl
  fixed_new := fun j hj hlt => by have := hfree j hj; omega
  fixed_old := fun _ _ => rfl
  used := fun _ => rfl
  live := fun _ => Iff.rfl
  keys := rfl
  progress := rfl
  tail_index := rfl
  units_length := rfl
  extras_length := rfl

theorem fix_block_loop_spec (end_ U : Nat) : ∀ (fuel : Nat) (b : DoubleArrayBuilder),
    b.AllocInv → b.num_of_units < 2 ^ 31 → end_ ≤ b.num_of_units →
    (∀ j, b.Free j → end_ ≤ j + fuel) →
    ∃ b', fix_block_loop end_ U fuel b = .ok b' ∧ FixBlockPost end_ U b b' := by
  intro fuel
  induction fuel with
  | zero =>
    intro b h hn hend hfuel
    have hfree : ∀ j, b.Free j → end_ ≤ j := fun j hj => by have := hfuel j hj; omega
    have hge : ¬ b.unfixed_index < end_ := by
      intro hlt
      have := hfree _ (h.head_free hlt hend).1
      omega
    refine ⟨b, ?_, fixBlockPost_refl end_ U b h hfree⟩
    unfold fix_block_loop
    rw [if_neg hge]
  | succ fuel ih =>
    intro b h hn hend hfuel
    unfold fix_block_loop
    by_cases hlt : b.unfixed_index < end_
    · rw [if_pos hlt]
      obtain ⟨hx, hmin⟩ := h.head_free hlt hend
      generalize hxd : b.unfixed_index = x at *
      have hfree1 := free_reserve_index_core b h x hx hn
      have hinv1 := allocInv_reserve_index_core b h x hx hn
      have hx1 : ¬ (b.reserve_index_core x).Free x := fun hc => ((hfree1 x).1 hc).2 rfl
      have hlab : (x ^^^ U) % 256 < 256 := Nat.mod_lt _ (by decide)
      have hinv2 := allocInv_set_unit _ hinv1 x
        (((b.reserve_index_core x).unit x).set_label ((x ^^^ U) % 256))
        (DoubleArrayUnit.wf_set_label _ _ (hinv1.wf x) hlab) hx1
      dsimp only
      generalize hb2 : (b.reserve_index_core x).set_unit x
        (((b.reserve_index_core x).unit x).set_label ((x ^^^ U) % 256)) = b2 at *
      have hfree2 : ∀ j, b2.Free j ↔ (b.Free j ∧ j ≠ x) := fun j => by
        rw [← hb2, free_set_unit, hfree1]
      have hunit2 : ∀ j, b2.unit j = if j = x then (b.unit x).set_label ((x ^^^ U) % 256)
          else b.unit j := fun j => by
        rw [← hb2, unit_set_unit, num_of_units_reserve_index_core, unit_reserve_index_core,
          unit_reserve_index_core]
        by_cases hj : x = j
        · subst hj; simp [hx.2.1]
        · have : ¬ j = x := fun hc => hj hc.symm
          simp [hj, this]
      have hext2 : ∀ j, b2.extra j = (b.reserve_index_core x).extra j := fun j => by
        rw [← hb2, extra_set_unit]
      have hlive2 : ∀ j, b2.Live j ↔ b.Live j := fun j => by
        rw [← hb2, live_set_unit, live_reserve_index_core]
      have hn2 : b2.num_of_units = b.num_of_units := by
        rw [← hb2, num_of_units_set_unit, num_of_units_reserve_index_core]
      have hinv3 : ({ b2 with num_of_unused_indices := b2.num_of_unused_indices + 1 } :
          DoubleArrayBuilder).AllocInv := allocInv_of_eq hinv2 rfl rfl rfl
      generalize hb3 : ({ b2 with num_of_unused_indices := b2.num_of_unused_indices + 1 } :
          DoubleArrayBuilder) = b3 at *
      have e3 : ∀ j, b3.extra j = b2.extra j := fun j => by rw [← hb3]; rfl
      have u3 : ∀ j, b3.unit j = b2.unit j := fun j => by rw [← hb3]; rfl
      have f3 : ∀ j, b3.Free j ↔ b2.Free j := fun j => by rw [← hb3]; rfl
      have l3 : ∀ j, b3.Live j ↔ b2.Live j := fun j => by rw [← hb3]; rfl
      have n3 : b3.num_of_units = b2.num_of_units := by rw [← hb3]; rfl
      obtain ⟨b', hb', post⟩ := ih b3 hinv3 (by rw [n3, hn2]; exact hn)
        (by rw [n3, hn2]; exact hend) (fun j hj => by
          rw [f3, hfree2] at hj
          have := hmin j hj.1
          have := hfuel x hx
          have := hj.2
          omega)
      refine ⟨b', hb', ?_⟩
      have hFx : ∀ j, b.Free j ∧ j < end_ → (j = x ∨ (b3.Free j ∧ j < end_)) := fun j hj => by
        by_cases hjx : j = x
        · exact Or.inl hjx
        · exact Or.inr ⟨(f3 j).2 ((hfree2 j).2 ⟨hj.1, hjx⟩), hj.2⟩
      have hnx : ¬ (b3.Free x ∧ x < end_) := fun hc => ((hfree2 x).1 ((f3 x).1 hc.1)).2 rfl
      have hnF : ∀ j, ¬ (b.Free j ∧ j < end_) → ¬ (b3.Free j ∧ j < end_) ∧ j ≠ x := fun j hj => by
        refine ⟨fun hc => hj ⟨((hfree2 j).1 ((f3 j).1 hc.1)).1, hc.2⟩, fun hc => ?_⟩
        subst hc
        exact hj ⟨hx, hlt⟩
      refine ⟨post.inv, ?_, ?_, ?_, ?_, ?_, ?_, ?_, ?_, ?_, ?_, ?_, ?_⟩
      · intro j
        rw [post.free, f3, hfree2]
        constructor
        · intro hj; exact ⟨hj.1.1, hj.2⟩
        · intro hj; exact ⟨⟨hj.1, by omega⟩, hj.2⟩
      · intro j hj hjlt
        rcases hFx j ⟨hj, hjlt⟩ with hjx | hj3
        · subst hjx
          rw [post.unit_old j hnx, u3, hunit2]
          simp
        · rw [post.unit_new j hj3.1 hj3.2, u3, hunit2]
          have : j ≠ x := fun hc => hnx (hc ▸ hj3)
          simp [this]
      · intro j hj
        obtain ⟨h1, h2⟩ := hnF j hj
        rw [post.unit_old j h1, u3, hunit2]
        simp [h2]
      · intro j hj hjlt
        rcases hFx j ⟨hj, hjlt⟩ with hjx | hj3
        · subst hjx
          rw [post.fixed_old j hnx, e3, hext2, (reserve_index_core_extra b h j hx hn j).2.2.1]
          simp
        · exact post.fixed_new j hj3.1 hj3.2
      · intro j hj
        obtain ⟨h1, h2⟩ := hnF j hj
        rw [post.fixed_old j h1, e3, hext2, (reserve_index_core_extra b h x hx hn j).2.2.1]
        simp [h2]
      · intro j
        rw [post.used, e3, hext2, (reserve_index_core_extra b h x hx hn j).2.2.2]
      · intro j
        rw [post.live, l3, hlive2]
      · rw [post.keys, ← hb3, ← hb2]; simp
      · rw [post.progress, ← hb3, ← hb2]; simp
      · rw [post.tail_index, ← hb3, ← hb2]; simp
      · rw [post.units_length, ← hb3, ← hb2]; simp
      · rw [post.extras_length, ← hb3, ← hb2]; simp
    · rw [if_neg hlt]
      exact ⟨b, rfl, fixBlockPost_refl end_ U b h (h.free_ge_of_head hlt)⟩

end DoubleArrayBuilder

end Darts

namespace Darts

namespace DoubleArrayBuilder

theorem num_of_units_eq {b : DoubleArrayBuilder} (h : b.AllocInv) :
    b.num_of_units = BLOCK_SIZE * b.num_of_blocks := h.size_eq

theorem extra_of_ge {b : DoubleArrayBuilder} (h : b.AllocInv) {j : Nat}
    (hj : b.num_of_units ≤ j) : b.extra j = default := by
  unfold extra
  have : b.extras.length ≤ j / BLOCK_SIZE := by
    have := num_of_units_eq h
    unfold num_of_blocks at this
    rw [this] at hj
    exact (Nat.le_div_iff_mul_le (by decide)).2 (by rw [Nat.mul_comm]; exact hj)
  rw [List.getD_eq_default _ _ this]

theorem fixed_or_free {b : DoubleArrayBuilder} {j : Nat} (hj : j < b.num_of_units) :
    b.Fixed j ∨ b.Free j := by
  unfold Fixed Free
  by_cases h1 : j < BLOCK_SIZE * b.first_live
  · exact Or.inl ⟨hj, Or.inl h1⟩
  · cases h2 : (b.extra j).is_fixed
    · exact Or.inr ⟨by omega, hj, rfl⟩
    · exact Or.inl ⟨hj, Or.inr rfl⟩

theorem not_fixed_of_free {b : DoubleArrayBuilder} {j : Nat} (hj : b.Free j) : ¬ b.Fixed j := by
  intro hf
  rcases hf.2 with h | h
  · have := hj.1; omega
  · rw [hj.2.2] at h; cases h

theorem free_of_not_fixed {b : DoubleArrayBuilder} {j : Nat} (hj : j < b.num_of_units)
    (hf : ¬ b.Fixed j) : b.Free j := by
  rcases fixed_or_free hj with h | h
  · exact absurd h hf
  · exact h

/-- A block with a free unit has an offset that is not marked as used. -/
theorem exists_unused_offset (b : DoubleArrayBuilder) (hinv : b.AllocInv)
    (hc : b.UsedCovered) (k x : Nat)
    (hk : b.first_live ≤ k) (hx : b.Free x) (hxk : x / BLOCK_SIZE = k) :
    ∃ u, u / BLOCK_SIZE = k ∧ (b.extra u).is_used = false := by
  by_contra hall
  have hall' : ∀ u, u / BLOCK_SIZE = k → (b.extra u).is_used = true := by
    intro u hu
    by_contra hcon
    apply hall
    refine ⟨u, hu, ?_⟩
    cases h : (b.extra u).is_used
    · rfl
    · exact absurd h hcon
  have hxn : x < b.num_of_units := hx.2.1
  have hx1 : 256 * b.first_live ≤ x := hx.1
  have hxk' : x / 256 = k := hxk
  have hall2 : ∀ u, u / 256 = k → (b.extra u).is_used = true := hall'
  have hcov : ∀ o : Fin 256, ∃ j, b.Fixed j ∧ j ^^^ (b.unit j).label = 256 * k + o.val := by
    intro o
    have h1 : 256 * b.first_live ≤ 256 * k + o.val := by omega
    have h2 : 256 * k + o.val < b.num_of_units := by
      have h3 : b.num_of_units = 256 * b.num_of_blocks := num_of_units_eq hinv
      have := o.isLt
      omega
    exact hc _ h1 h2 (hall2 _ (by have := o.isLt; omega))
  choose f hf using hcov
  have hblock : ∀ o : Fin 256, f o / 256 = k := by
    intro o
    have h1 := (hf o).2
    have h2 := xor_byte_div (f o) (b.unit (f o)).label (DoubleArrayUnit.label_lt _)
    rw [h1] at h2
    omega
  let g : Fin 256 → Fin 256 := fun o => ⟨f o % 256, Nat.mod_lt _ (by decide)⟩
  have ginj : Function.Injective g := by
    intro o o' hgo
    have hm : f o % 256 = f o' % 256 := congrArg Fin.val hgo
    have : f o = f o' := by
      have h1 := hblock o
      have h2 := hblock o'
      omega
    have h3 := (hf o).2
    have h4 := (hf o').2
    rw [this] at h3
    rw [h3] at h4
    apply Fin.ext
    omega
  have gsurj := Finite.injective_iff_surjective.1 ginj
  obtain ⟨o, ho⟩ := gsurj ⟨x % 256, Nat.mod_lt _ (by decide)⟩
  have hm : f o % 256 = x % 256 := congrArg Fin.val ho
  have : f o = x := by
    have h1 := hblock o
    omega
  exact not_fixed_of_free hx (this ▸ (hf o).1)

end DoubleArrayBuilder

end Darts

namespace Darts

namespace DoubleArrayBuilder

theorem find_range_min (p : Nat → Bool) : ∀ (n s U : Nat),
    (List.range' s n).find? p = some U → ∀ v, s ≤ v → v < U → p v = false := by
  intro n
  induction n with
  | zero => intro s U h; cases h
  | succ n ih =>
    intro s U h v h1 h2
    rw [List.range'_succ, List.find?_cons] at h
    cases hp : p s with
    | true =>
      rw [hp] at h
      injection h with h
      omega
    | false =>
      rw [hp] at h
      by_cases hv : v = s
      · rw [hv]; exact hp
      · exact ih (s + 1) U h v (by omega) h2

theorem fix_block_spec (b : DoubleArrayBuilder) (hinv : b.AllocInv) (hc : b.UsedCovered)
    (hn : b.num_of_units < 2 ^ 31) (k : Nat) (hk1 : b.first_live ≤ k)
    (hk2 : k < b.num_of_blocks) (hfree : ∀ j, b.Free j → 256 * k ≤ j) :
    ∃ b' U, b.fix_block k = .ok b' ∧ FixBlockPost (256 * k + 256) U b b' ∧
      ((∃ j, b.Free j ∧ j < 256 * k + 256) → U / 256 = k ∧ (b.extra U).is_used = false ∧
        ∀ v, 256 * k ≤ v → v < U → (b.extra v).is_used = true) := by
  have hnum : b.num_of_units = 256 * b.num_of_blocks := num_of_units_eq hinv
  have hend : 256 * k + 256 ≤ b.num_of_units := by omega
  unfold fix_block
  have e1 : k * BLOCK_SIZE + BLOCK_SIZE = 256 * k + 256 := by
    show k * 256 + 256 = 256 * k + 256
    omega
  have e2 : k * BLOCK_SIZE = 256 * k := by
    show k * 256 = 256 * k
    omega
  have e3 : 256 * k + BLOCK_SIZE = 256 * k + 256 := rfl
  simp only [e2, e3]
  by_cases hge : b.unfixed_index ≥ 256 * k + 256
  · rw [if_pos hge]
    have hall := @AllocInv.free_ge_of_head b hinv (256 * k + 256) (by omega)
    refine ⟨b, 0, rfl, fixBlockPost_refl _ _ b hinv hall, ?_⟩
    rintro ⟨j, hj, hlt⟩
    have := hall j hj
    omega
  · rw [if_neg hge]
    obtain ⟨hx, _⟩ := @AllocInv.head_free b hinv (256 * k + 256) (by omega) hend
    have hxk : b.unfixed_index / BLOCK_SIZE = k := by
      show b.unfixed_index / 256 = k
      have := hfree _ hx
      omega
    obtain ⟨u, hu1, hu2⟩ := exists_unused_offset b hinv hc k _ hk1 hx hxk
    have hu1' : u / 256 = k := hu1
    have hfind : ∃ U, (List.range' (256 * k) BLOCK_SIZE).find?
        (fun offset => !(b.extra offset).is_used) = some U ∧ U / 256 = k ∧
        (b.extra U).is_used = false ∧
        ∀ v, 256 * k ≤ v → v < U → (b.extra v).is_used = true := by
      cases hf : (List.range' (256 * k) BLOCK_SIZE).find? (fun offset => !(b.extra offset).is_used) with
      | none =>
        rw [List.find?_eq_none] at hf
        have hmem : u ∈ List.range' (256 * k) BLOCK_SIZE := by
          rw [List.mem_range'_1]
          show 256 * k ≤ u ∧ u < 256 * k + 256
          omega
        have := hf u hmem
        simp [hu2] at this
      | some U =>
        refine ⟨U, rfl, ?_, ?_, ?_⟩
        · have hmem := List.mem_of_find?_eq_some hf
          rw [List.mem_range'_1] at hmem
          have hmem' : 256 * k ≤ U ∧ U < 256 * k + 256 := hmem
          omega
        · have := List.find?_some hf
          simpa using this
        · intro v h1 h2
          have := find_range_min _ _ _ _ hf v h1 h2
          simpa using this
    obtain ⟨U, hU, hU1, hU2, hU3⟩ := hfind
    rw [hU]
    dsimp only
    obtain ⟨b', hb', post⟩ := fix_block_loop_spec (256 * k + 256) U BLOCK_SIZE b hinv hn hend
      (fun j hj => by
        have := hfree j hj
        show 256 * k + 256 ≤ j + 256
        omega)
    exact ⟨b', U, hb', post, fun _ => ⟨hU1, hU2, hU3⟩⟩

end DoubleArrayBuilder

end Darts

namespace Darts

namespace DoubleArrayBuilder

theorem SameButExtras.refl (b : DoubleArrayBuilder) : SameButExtras b b :=
  ⟨rfl, rfl, rfl, rfl, rfl, rfl, fun _ => Iff.rfl⟩

theorem SameButExtras.trans {b b' b'' : DoubleArrayBuilder} (h1 : SameButExtras b b')
    (h2 : SameButExtras b' b'') : SameButExtras b b'' :=
  ⟨h2.units.trans h1.units, h2.keys.trans h1.keys, h2.progress.trans h1.progress,
    h2.tail_index.trans h1.tail_index, h2.unfixed_index.trans h1.unfixed_index,
    h2.extras_length.trans h1.extras_length, fun j => (h2.live j).trans (h1.live j)⟩

theorem sameButExtras_set_extra (b : DoubleArrayBuilder) (i : Nat) (e : DoubleArrayExtra) :
    SameButExtras b (b.set_extra i e) :=
  ⟨by simp, by simp, by simp, by simp, by simp, by simp, fun j => live_set_extra b i e j⟩

theorem SameButExtras.set_extra {b b' : DoubleArrayBuilder} (h : SameButExtras b b') (i : Nat)
    (e : DoubleArrayExtra) : SameButExtras b (b'.set_extra i e) :=
  h.trans (sameButExtras_set_extra b' i e)

theorem link_new_units_spec (d : Nat) (hd : d < 2 ^ 31) : ∀ (fuel i : Nat) (b : DoubleArrayBuilder),
    (∀ j, i - 1 ≤ j → j < d → b.Live j) → 1 ≤ i → i ≤ d → d ≤ i + fuel →
    SameButExtras b (link_new_units d fuel i b) ∧
    ∀ j, ((link_new_units d fuel i b).extra j).next
          = (if i - 1 ≤ j ∧ j + 1 < d then j + 1 else (b.extra j).next) ∧
        ((link_new_units d fuel i b).extra j).prev
          = (if i ≤ j ∧ j < d then j - 1 else (b.extra j).prev) ∧
        ((link_new_units d fuel i b).extra j).is_fixed = (b.extra j).is_fixed ∧
        ((link_new_units d fuel i b).extra j).is_used = (b.extra j).is_used := by
  intro fuel
  induction fuel with
  | zero =>
    intro i b _ h1 h2 h3
    have : i = d := by omega
    subst this
    refine ⟨SameButExtras.refl b, fun j => ?_⟩
    unfold link_new_units
    have c1 : ¬ (i - 1 ≤ j ∧ j + 1 < i) := by omega
    have c2 : ¬ (i ≤ j ∧ j < i) := by omega
    rw [if_neg c1, if_neg c2]
    exact ⟨rfl, rfl, rfl, rfl⟩
  | succ fuel ih =>
    intro i b hl h1 h2 h3
    unfold link_new_units
    by_cases hlt : i < d
    · rw [if_pos hlt]
      dsimp only
      have l1 : b.Live (i - 1) := hl (i - 1) (by omega) (by omega)
      have l2 : b.Live i := hl i (by omega) hlt
      generalize hb1 : b.set_extra (i - 1) ((b.extra (i - 1)).set_next i) = b1
      have s1 : SameButExtras b b1 := hb1 ▸ sameButExtras_set_extra _ _ _
      have e1 : ∀ j, b1.extra j = if j = i - 1 then (b.extra (i - 1)).set_next i else b.extra j :=
        fun j => by rw [← hb1]; exact extra_set_extra _ _ _ _ l1
      generalize hb2 : b1.set_extra i ((b1.extra i).set_prev (i - 1)) = b2
      have s2 : SameButExtras b b2 := hb2 ▸ s1.set_extra _ _
      have e2 : ∀ j, b2.extra j = if j = i then (b.extra i).set_prev (i - 1) else b1.extra j :=
        fun j => by
          rw [← hb2, extra_set_extra _ _ _ _ ((s1.live i).2 l2), e1 i]
          have : ¬ i = i - 1 := by omega
          simp [this]
      obtain ⟨s3, e3⟩ := ih (i + 1) b2
        (fun j hj1 hj2 => (s2.live j).2 (hl j (by omega) hj2)) (by omega) (by omega) (by omega)
      refine ⟨s2.trans s3, fun j => ?_⟩
      obtain ⟨n3, p3, f3, u3⟩ := e3 j
      rw [n3, p3, f3, u3, e2 j, e1 j]
      have hi31 : i < 2 ^ 31 := by omega
      have hi32 : i - 1 < 2 ^ 31 := by omega
      have c7 : i - 1 + 1 = i := by omega
      refine ⟨?_, ?_, ?_, ?_⟩
      · split_ifs <;> first
          | rfl
          | omega
          | (subst_vars; simp only [DoubleArrayExtra.next_set_next _ _ hi31,
              DoubleArrayExtra.next_set_prev, c7])
      · split_ifs <;> first
          | rfl
          | omega
          | (subst_vars; simp only [DoubleArrayExtra.prev_set_prev _ _ hi32,
              DoubleArrayExtra.prev_set_next])
      · split_ifs <;> first
          | rfl
          | (simp only [DoubleArrayExtra.is_fixed_set_prev, DoubleArrayExtra.is_fixed_set_next]
             subst_vars; rfl)
      · split_ifs <;> first
          | rfl
          | (simp only [DoubleArrayExtra.is_used_set_prev, DoubleArrayExtra.is_used_set_next]
             subst_vars; rfl)
    · have : i = d := by omega
      subst this
      rw [if_neg hlt]
      refine ⟨SameButExtras.refl b, fun j => ?_⟩
      have c1 : ¬ (i - 1 ≤ j ∧ j + 1 < i) := by omega
      have c2 : ¬ (i ≤ j ∧ j < i) := by omega
      rw [if_neg c1, if_neg c2]
      exact ⟨rfl, rfl, rfl, rfl⟩

theorem first_live_eq (b : DoubleArrayBuilder) : b.first_live = b.extras.length - 16 := rfl

theorem live_iff (b : DoubleArrayBuilder) (j : Nat) :
    b.Live j ↔ ∃ block, b.extras.getD (j / 256) none = some block ∧ block.length = 256 :=
  Iff.rfl

theorem extra_eq_of_block {b b' : DoubleArrayBuilder} {j : Nat}
    (h : b'.extras.getD (j / 256) none = b.extras.getD (j / 256) none) :
    b'.extra j = b.extra j ∧ (b'.Live j ↔ b.Live j) := by
  constructor
  · unfold extra
    show (match b'.extras.getD (j / 256) none with
      | some block => block.getD (j % BLOCK_SIZE) default
      | none => default) = _
    rw [h]
    rfl
  · rw [live_iff, live_iff, h]

theorem extra_of_default_block {b : DoubleArrayBuilder} {j : Nat} {block : List DoubleArrayExtra}
    (h : b.extras.getD (j / 256) none = some block) (hlen : block.length = 256)
    (hall : ∀ e ∈ block, e = default) : b.extra j = default ∧ b.Live j := by
  constructor
  · unfold extra
    show (match b.extras.getD (j / 256) none with
      | some block => block.getD (j % BLOCK_SIZE) default
      | none => default) = _
    rw [h]
    show block.getD (j % 256) default = default
    have hlt : j % 256 < block.length := by rw [hlen]; exact Nat.mod_lt _ (by decide)
    rw [List.getD_eq_getElem _ _ hlt]
    exact hall _ (List.getElem_mem _)
  · exact ⟨block, h, hlen⟩

theorem allocate_block_spec (b : DoubleArrayBuilder)
    (hsize : b.units.length = 256 * b.extras.length)
    (hlive : ∀ j, 256 * b.first_live ≤ j → j < b.num_of_units → b.Live j) :
    (allocate_block b.num_of_blocks b).units = b.units ++ List.replicate 256 default ∧
    (allocate_block b.num_of_blocks b).extras.length = b.extras.length + 1 ∧
    (allocate_block b.num_of_blocks b).keys = b.keys ∧
    (allocate_block b.num_of_blocks b).progress = b.progress ∧
    (allocate_block b.num_of_blocks b).tail_index = b.tail_index ∧
    (allocate_block b.num_of_blocks b).unfixed_index = b.unfixed_index ∧
    (∀ j, 256 * (b.extras.length + 1 - 16) ≤ j → j < b.num_of_units →
      (allocate_block b.num_of_blocks b).extra j = b.extra j ∧
      (allocate_block b.num_of_blocks b).Live j) ∧
    (∀ j, b.num_of_units ≤ j → j < b.num_of_units + 256 →
      (allocate_block b.num_of_blocks b).extra j = default ∧
      (allocate_block b.num_of_blocks b).Live j) := by
  have hn : b.num_of_units = 256 * b.extras.length := hsize
  have hfl := first_live_eq b
  unfold allocate_block
  show (let dest := b.extras.length + 1; _) = _ ∧ _
  dsimp only [num_of_blocks]
  by_cases hrec : b.extras.length + 1 > NUM_OF_UNFIXED_BLOCKS
  · rw [if_pos hrec]
    have hrec' : b.extras.length + 1 > 16 := hrec
    have hN : NUM_OF_UNFIXED_BLOCKS = 16 := rfl
    rw [hN]
    have hold : (b.extras ++ [none]).getD (b.extras.length - 16) none
        = b.extras.getD (b.extras.length - 16) none := by
      rw [List.getD_append _ _ _ _ (by omega)]
    obtain ⟨blk, hblk, hblen⟩ : b.Live (256 * (b.extras.length - 16)) :=
      hlive _ (by rw [hfl]) (by omega)
    have hdiv : 256 * (b.extras.length - 16) / BLOCK_SIZE = b.extras.length - 16 := by
      show 256 * (b.extras.length - 16) / 256 = _
      omega
    rw [hdiv] at hblk
    refine ⟨rfl, by simp, rfl, rfl, rfl, rfl, ?_, ?_⟩
    · intro j h1 h2
      have hk1 : j / 256 < b.extras.length := by omega
      have hk2 : b.extras.length - 16 < j / 256 := by omega
      have key := @extra_eq_of_block b
        { b with units := b.units ++ List.replicate BLOCK_SIZE default,
                 extras := ((b.extras ++ [none]).set (b.extras.length - 16) none).set
                   b.extras.length (Option.map (fun block => List.map DoubleArrayExtra.clear block)
                     ((b.extras ++ [none]).getD (b.extras.length - 16) none)) } j (by
          dsimp only
          rw [list_getD_set, if_neg (by omega), list_getD_set, if_neg (by omega),
            List.getD_append _ _ _ _ hk1])
      exact ⟨key.1, key.2.2 (hlive j (by rw [hfl]; omega) h2)⟩
    · intro j h1 h2
      have hk : j / 256 = b.extras.length := by omega
      apply @extra_of_default_block _ _ (blk.map DoubleArrayExtra.clear)
      · dsimp only
        rw [hk, list_getD_set, if_pos ⟨rfl, by simp⟩, hold, hblk]
        rfl
      · rw [List.length_map, hblen]; rfl
      · intro e he
        rw [List.mem_map] at he
        obtain ⟨e', _, rfl⟩ := he
        rfl
  · rw [if_neg hrec]
    have hrec' : b.extras.length + 1 ≤ 16 := Nat.le_of_not_gt hrec
    refine ⟨rfl, by simp, rfl, rfl, rfl, rfl, ?_, ?_⟩
    · intro j h1 h2
      have hk1 : j / 256 < b.extras.length := by omega
      have key := @extra_eq_of_block b
        { b with units := b.units ++ List.replicate BLOCK_SIZE default,
                 extras := (b.extras ++ [none]).set b.extras.length
                   (some (List.replicate BLOCK_SIZE default)) } j (by
          dsimp only
          rw [list_getD_set, if_neg (by omega), List.getD_append _ _ _ _ hk1])
      exact ⟨key.1, key.2.2 (hlive j (by rw [hfl]; omega) h2)⟩
    · intro j h1 h2
      have hk : j / 256 = b.extras.length := by omega
      apply @extra_of_default_block _ _ (List.replicate 256 default)
      · dsimp only
        rw [hk, list_getD_set, if_pos ⟨rfl, by simp⟩]
        rfl
      · exact List.length_replicate _ _
      · intro e he
        exact List.eq_of_mem_replicate he

end DoubleArrayBuilder

end Darts

namespace Darts

namespace DoubleArrayBuilder

theorem extra_set_prev_step (b : DoubleArrayBuilder) (t v : Nat) (hl : b.Live t)
    (hv : v < 2 ^ 31) (j : Nat) :
    ((b.set_extra t ((b.extra t).set_prev v)).extra j).next = (b.extra j).next ∧
    ((b.set_extra t ((b.extra t).set_prev v)).extra j).prev
      = (if j = t then v else (b.extra j).prev) ∧
    ((b.set_extra t ((b.extra t).set_prev v)).extra j).is_fixed = (b.extra j).is_fixed ∧
    ((b.set_extra t ((b.extra t).set_prev v)).extra j).is_used = (b.extra j).is_used := by
  rw [extra_set_extra _ _ _ _ hl]
  by_cases c : j = t
  · subst c
    simp only [↓reduceIte, DoubleArrayExtra.next_set_prev, DoubleArrayExtra.prev_set_prev _ _ hv,
      DoubleArrayExtra.is_fixed_set_prev, DoubleArrayExtra.is_used_set_prev, and_self]
  · simp only [c, ↓reduceIte, and_self]

theorem extra_set_next_step (b : DoubleArrayBuilder) (t v : Nat) (hl : b.Live t)
    (hv : v < 2 ^ 31) (j : Nat) :
    ((b.set_extra t ((b.extra t).set_next v)).extra j).next
      = (if j = t then v else (b.extra j).next) ∧
    ((b.set_extra t ((b.extra t).set_next v)).extra j).prev = (b.extra j).prev ∧
    ((b.set_extra t ((b.extra t).set_next v)).extra j).is_fixed = (b.extra j).is_fixed ∧
    ((b.set_extra t ((b.extra t).set_next v)).extra j).is_used = (b.extra j).is_used := by
  rw [extra_set_extra _ _ _ _ hl]
  by_cases c : j = t
  · subst c
    simp only [↓reduceIte, DoubleArrayExtra.next_set_next _ _ hv, DoubleArrayExtra.prev_set_next,
      DoubleArrayExtra.is_fixed_set_next, DoubleArrayExtra.is_used_set_next, and_self]
  · simp only [c, ↓reduceIte, and_self]

theorem link_block_spec (n : Nat) (b : DoubleArrayBuilder) (hd : n + 256 < 2 ^ 31)
    (hnew : ∀ j, n ≤ j → j < n + 256 → b.Live j)
    (hhead : b.unfixed_index = n ∨
      (b.unfixed_index < n ∧ b.Live b.unfixed_index ∧ b.Live (b.extra b.unfixed_index).prev ∧
        (b.extra b.unfixed_index).prev < n)) :
    SameButExtras b (link_block n b) ∧
    ∀ j, ((link_block n b).extra j).next
          = (if b.unfixed_index ≠ n ∧ j = (b.extra b.unfixed_index).prev then n
             else if j = n + 255 then b.unfixed_index
             else if n ≤ j ∧ j + 1 < n + 256 then j + 1 else (b.extra j).next) ∧
        ((link_block n b).extra j).prev
          = (if j = b.unfixed_index then n + 255
             else if j = n then (b.extra b.unfixed_index).prev
             else if n < j ∧ j < n + 256 then j - 1 else (b.extra j).prev) ∧
        ((link_block n b).extra j).is_fixed = (b.extra j).is_fixed ∧
        ((link_block n b).extra j).is_used = (b.extra j).is_used := by
  generalize hh : b.unfixed_index = h at *
  generalize hM : (b.extra h).prev = M at *
  obtain ⟨sL, eL⟩ := link_new_units_spec (n + 256) hd BLOCK_SIZE (n + 1) b
    (fun j h1 h2 => hnew j (by omega) h2) (by omega) (by omega)
    (by show n + 256 ≤ n + 1 + 256; omega)
  unfold link_block
  have hB : n + BLOCK_SIZE = n + 256 := rfl
  simp only [hB]
  have hsub : n + 256 - 1 = n + 255 := by omega
  simp only [hsub]
  generalize link_new_units (n + 256) BLOCK_SIZE (n + 1) b = bL at *
  have lv : ∀ {b' : DoubleArrayBuilder}, SameButExtras b b' → ∀ j, n ≤ j → j < n + 256 → b'.Live j :=
    fun s j h1 h2 => (s.live j).2 (hnew j h1 h2)
  have hn31 : n < 2 ^ 31 := by omega
  have hn255 : n + 255 < 2 ^ 31 := by omega
  have c0 : n + 1 - 1 = n := by omega
  rw [c0] at eL
  -- Creates a circular linked list of empty units.
  have a4 := extra_set_prev_step bL n (n + 255) (lv sL n (by omega) (by omega)) hn255
  generalize hb4 : bL.set_extra n ((bL.extra n).set_prev (n + 255)) = b4 at *
  have s4 : SameButExtras b b4 := hb4 ▸ sL.set_extra _ _
  have a5 := extra_set_next_step b4 (n + 255) n (lv s4 (n + 255) (by omega) (by omega)) hn31
  generalize hb5 : b4.set_extra (n + 255) ((b4.extra (n + 255)).set_next n) = b5 at *
  have s5 : SameButExtras b b5 := hb5 ▸ s4.set_extra _ _
  -- Merges 2 circular linked lists.
  have u5 : b5.unfixed_index = h := by rw [s5.unfixed_index, hh]
  have p5 : (b5.extra h).prev = if h = n then n + 255 else M := by
    rw [(a5 h).2.1, (a4 h).2.1, (eL h).2.1]
    rcases hhead with h1 | h1
    · rw [if_pos h1, if_pos h1]
    · have c2 : ¬ h = n := by omega
      have c3 : ¬ (n + 1 ≤ h ∧ h < n + 256) := by omega
      rw [if_neg c2, if_neg c2, if_neg c3, hM]
  generalize hP : (if h = n then n + 255 else M) = P at *
  have hPlt : P < 2 ^ 31 := by
    rw [← hP]; split
    · omega
    · rcases hhead with h1 | h1
      · contradiction
      · omega
  have hPlive : b.Live P := by
    rw [← hP]; split
    · exact hnew _ (by omega) (by omega)
    · rcases hhead with h1 | h1
      · contradiction
      · exact h1.2.2.1
  have hhlive : b.Live h := by
    rcases hhead with h1 | h1
    · rw [h1]; exact hnew _ (by omega) (by omega)
    · exact h1.2.1
  have hhlt : h < 2 ^ 31 := by
    rcases hhead with h1 | h1 <;> omega
  rw [u5, p5]
  have a6 := extra_set_prev_step b5 n P (lv s5 n (by omega) (by omega)) hPlt
  generalize hb6 : b5.set_extra n ((b5.extra n).set_prev P) = b6 at *
  have s6 : SameButExtras b b6 := hb6 ▸ s5.set_extra _ _
  have u6 : b6.unfixed_index = h := by rw [s6.unfixed_index, hh]
  rw [u6]
  have a7 := extra_set_next_step b6 (n + 255) h (lv s6 (n + 255) (by omega) (by omega)) hhlt
  generalize hb7 : b6.set_extra (n + 255) ((b6.extra (n + 255)).set_next h) = b7 at *
  have s7 : SameButExtras b b7 := hb7 ▸ s6.set_extra _ _
  have u7 : b7.unfixed_index = h := by rw [s7.unfixed_index, hh]
  have p7 : (b7.extra h).prev = P := by
    rw [(a7 h).2.1, (a6 h).2.1, p5]
    split
    · rfl
    · rename_i c
      rw [← hP, if_neg c]
  rw [u7, p7]
  have a8 := extra_set_next_step b7 P n ((s7.live P).2 hPlive) hn31
  generalize hb8 : b7.set_extra P ((b7.extra P).set_next n) = b8 at *
  have s8 : SameButExtras b b8 := hb8 ▸ s7.set_extra _ _
  have u8 : b8.unfixed_index = h := by rw [s8.unfixed_index, hh]
  rw [u8]
  have a9 := extra_set_prev_step b8 h (n + 255) ((s8.live h).2 hhlive) hn255
  refine ⟨s8.set_extra _ _, fun j => ?_⟩
  obtain ⟨n9, p9, f9, x9⟩ := a9 j
  obtain ⟨n8, p8, f8, x8⟩ := a8 j
  obtain ⟨n7, p7', f7, x7⟩ := a7 j
  obtain ⟨n6, p6, f6, x6⟩ := a6 j
  obtain ⟨n5, p5', f5, x5⟩ := a5 j
  obtain ⟨n4, p4, f4, x4⟩ := a4 j
  obtain ⟨nL, pL, fL, xL⟩ := eL j
  refine ⟨?_, ?_, ?_, ?_⟩
  · rw [n9, n8, n7, n6, n5, n4, nL, ← hP]
    rcases hhead with h1 | h1
    · subst h1
      simp only [↓reduceIte, ne_eq, not_true_eq_false, false_and]
      by_cases c1 : j = h + 255
      · simp only [c1, ↓reduceIte]
      · simp only [c1, ↓reduceIte]
    · have c2 : ¬ h = n := by omega
      simp only [c2, ↓reduceIte, ne_eq, not_false_eq_true, true_and]
      by_cases c1 : j = M
      · simp only [c1, ↓reduceIte]
      · by_cases c3 : j = n + 255
        · simp only [c1, c3, ↓reduceIte]
        · simp only [c1, c3, ↓reduceIte]
  · rw [p9, p8, p7', p6, p5', p4, pL, ← hP]
    rcases hhead with h1 | h1
    · subst h1
      by_cases c1 : j = h
      · simp only [c1, ↓reduceIte]
      · have c3 : (h + 1 ≤ j ∧ j < h + 256) ↔ (h < j ∧ j < h + 256) := by omega
        simp only [c1, c3, ↓reduceIte]
    · have c2 : ¬ h = n := by omega
      by_cases c1 : j = h
      · simp only [c1, ↓reduceIte]
      · have c3 : (n + 1 ≤ j ∧ j < n + 256) ↔ (n < j ∧ j < n + 256) := by omega
        by_cases c4 : j = n
        · simp only [c1, c2, c4, ↓reduceIte]
        · simp only [c1, c2, c3, c4, ↓reduceIte]
  · rw [f9, f8, f7, f6, f5, f4, fL]
  · rw [x9, x8, x7, x6, x5, x4, xL]

end DoubleArrayBuilder

end Darts

namespace Darts

namespace DoubleArrayBuilder

theorem dead_label (j U : Nat) (h : j / 256 = U / 256) :
    j ^^^ ((default : DoubleArrayUnit).set_label ((j ^^^ U) % 256)).label = U ∧
    ((default : DoubleArrayUnit).set_label ((j ^^^ U) % 256)).is_leaf = false := by
  have hlt : (j ^^^ U) % 256 < 256 := Nat.mod_lt _ (by decide)
  rw [DoubleArrayUnit.label_set_label _ _ DoubleArrayUnit.wf_default hlt,
    DoubleArrayUnit.is_leaf_set_label _ _ DoubleArrayUnit.wf_default hlt]
  exact ⟨xor_label_of_block j U h, rfl⟩

/-- The first step of `expand_trie`: fixing the block that leaves the window. -/
theorem fix_old_block_spec (IsBase : Nat → Prop) (b : DoubleArrayBuilder) (hinv : b.AllocInv)
    (hc : b.UsedCovered) (hbu : BasesUsed IsBase b) (hn : b.num_of_units < 2 ^ 31) :
    ∃ bA, (if b.num_of_blocks + 1 > NUM_OF_UNFIXED_BLOCKS
          then b.fix_block (b.num_of_blocks - NUM_OF_UNFIXED_BLOCKS) else pure b) = Except.ok bA ∧
      bA.AllocInv ∧ bA.units.length = b.units.length ∧ bA.extras.length = b.extras.length ∧
      bA.keys = b.keys ∧ bA.progress = b.progress ∧
      (∀ j, bA.Free j → b.Free j ∧ 256 * (b.extras.length + 1 - 16) ≤ j) ∧
      (∀ j, b.Free j → bA.Free j ∨ (j < 256 * (b.extras.length + 1 - 16) ∧
        ¬ IsBase (j ^^^ (bA.unit j).label) ∧ (bA.unit j).is_leaf = false)) ∧
      (∀ j, ¬ b.Free j → bA.unit j = b.unit j) ∧
      (∀ j, (b.extra j).is_fixed = true → (bA.extra j).is_fixed = true) ∧
      (∀ j, (bA.extra j).is_used = (b.extra j).is_used) := by
  have hfl := first_live_eq b
  by_cases hrec : b.num_of_blocks + 1 > NUM_OF_UNFIXED_BLOCKS
  · rw [if_pos hrec]
    have hrec' : b.extras.length + 1 > 16 := hrec
    have hk : b.num_of_blocks - NUM_OF_UNFIXED_BLOCKS = b.extras.length - 16 := rfl
    rw [hk]
    obtain ⟨bA, U, hbA, post, hU⟩ := fix_block_spec b hinv hc hn (b.extras.length - 16)
      (by rw [hfl]) (by show b.extras.length - 16 < b.extras.length; omega)
      (fun j hj => by have h1 : 256 * b.first_live ≤ j := hj.1; rw [hfl] at h1; exact h1)
    have he : 256 * (b.extras.length - 16) + 256 = 256 * (b.extras.length + 1 - 16) := by omega
    rw [he] at post hU
    refine ⟨bA, hbA, post.inv, post.units_length, post.extras_length, post.keys, post.progress,
      ?_, ?_, ?_, ?_, post.used⟩
    · intro j hj
      exact (post.free j).1 hj
    · intro j hj
      by_cases hlt : j < 256 * (b.extras.length + 1 - 16)
      · right
        obtain ⟨hU1, hU2, _⟩ := hU ⟨j, hj, hlt⟩
        have hj1 : 256 * b.first_live ≤ j := hj.1
        rw [hfl] at hj1
        have hblock : j / 256 = U / 256 := by omega
        rw [post.unit_new j hj hlt, hinv.free_zero j hj]
        obtain ⟨d1, d2⟩ := dead_label j U hblock
        refine ⟨hlt, ?_, d2⟩
        rw [d1]
        intro hB
        have := (hbu U hB).2 (by show 256 * b.first_live ≤ U; rw [hfl]; omega)
        rw [hU2] at this
        cases this
      · left
        exact (post.free j).2 ⟨hj, by omega⟩
    · intro j hj
      exact post.unit_old j (fun hc => hj hc.1)
    · intro j hj
      by_cases hfr : b.Free j ∧ j < 256 * (b.extras.length + 1 - 16)
      · exact post.fixed_new j hfr.1 hfr.2
      · rw [post.fixed_old j hfr]; exact hj
  · rw [if_neg hrec]
    have hrec' : b.extras.length + 1 ≤ 16 := Nat.le_of_not_gt hrec
    have hz : 256 * (b.extras.length + 1 - 16) = 0 := by omega
    rw [hz]
    exact ⟨b, rfl, hinv, rfl, rfl, rfl, rfl, fun j hj => ⟨hj, Nat.zero_le _⟩,
      fun j hj => Or.inl hj, fun _ _ => rfl, fun _ h => h, fun _ => rfl⟩

end DoubleArrayBuilder

end Darts

namespace Darts

namespace DoubleArrayBuilder

theorem unit_append_default (b b' : DoubleArrayBuilder) (k : Nat)
    (h : b'.units = b.units ++ List.replicate k default) (j : Nat) : b'.unit j = b.unit j := by
  unfold unit
  rw [h]
  by_cases hj : j < b.units.length
  · rw [List.getD_append _ _ _ _ hj]
  · rw [List.getD_eq_default b.units _ (by omega)]
    simp only [List.getD_eq_getElem?_getD]
    rw [List.getElem?_append_right (by omega), List.getElem?_replicate]
    split <;> rfl

/-- The second part of `expand_trie`: a new block is allocated and its units
are appended to the free list. -/
theorem grow_spec (b : DoubleArrayBuilder) (hinv : b.AllocInv)
    (hfree : ∀ j, b.Free j → 256 * (b.extras.length + 1 - 16) ≤ j)
    (hn : b.num_of_units + 256 < 2 ^ 31) :
    (link_block b.num_of_units (allocate_block b.num_of_blocks b)).AllocInv ∧
    (link_block b.num_of_units (allocate_block b.num_of_blocks b)).units
      = b.units ++ List.replicate 256 default ∧
    (link_block b.num_of_units (allocate_block b.num_of_blocks b)).extras.length
      = b.extras.length + 1 ∧
    (link_block b.num_of_units (allocate_block b.num_of_blocks b)).keys = b.keys ∧
    (link_block b.num_of_units (allocate_block b.num_of_blocks b)).progress = b.progress ∧
    (∀ j, (link_block b.num_of_units (allocate_block b.num_of_blocks b)).Free j ↔
      (b.Free j ∨ (b.num_of_units ≤ j ∧ j < b.num_of_units + 256))) ∧
    (∀ j, 256 * (b.extras.length + 1 - 16) ≤ j →
      ((link_block b.num_of_units (allocate_block b.num_of_blocks b)).extra j).is_used
        = (b.extra j).is_used ∧
      ((link_block b.num_of_units (allocate_block b.num_of_blocks b)).extra j).is_fixed
        = (b.extra j).is_fixed) := by
  obtain ⟨aU, aL, aK, aP, aT, aH, aOld, aNew⟩ := allocate_block_spec b hinv.size_eq hinv.live
  generalize allocate_block b.num_of_blocks b = b2 at *
  have hnum : b.num_of_units = 256 * b.extras.length := hinv.size_eq
  generalize hnd : b.num_of_units = n at *
  have hfl := first_live_eq b
  -- the head of the old list
  have hhead : b2.unfixed_index = n ∨
      (b2.unfixed_index < n ∧ b2.Live b2.unfixed_index ∧
        b2.Live (b2.extra b2.unfixed_index).prev ∧ (b2.extra b2.unfixed_index).prev < n) := by
    rw [aH]
    rcases hinv.head with ⟨h1, _⟩ | ⟨h1, _⟩
    · right
      have hlt : b.unfixed_index < n := by have := h1.2.1; omega
      have hge := hfree _ h1
      obtain ⟨e1, l1⟩ := aOld _ hge hlt
      rw [e1]
      have hM := (hinv.pred _ h1).1
      have hMlt : (b.extra b.unfixed_index).prev < n := by have := hM.2.1; omega
      exact ⟨hlt, l1, (aOld _ (hfree _ hM) hMlt).2, hMlt⟩
    · left; rw [h1, hnd]
  obtain ⟨s3, e3⟩ := link_block_spec n b2 hn (fun j h1 h2 => (aNew j h1 h2).2) hhead
  generalize link_block n b2 = b3 at *
  have hu3 : b3.units = b.units ++ List.replicate 256 default := by rw [s3.units, aU]
  have hl3 : b3.extras.length = b.extras.length + 1 := by rw [s3.extras_length, aL]
  have hn3 : b3.num_of_units = n + 256 := by
    show b3.units.length = n + 256
    rw [hu3, List.length_append, List.length_replicate]
    have : b.units.length = n := hnd
    omega
  have hfl3 : b3.first_live = b.extras.length + 1 - 16 := by rw [first_live_eq, hl3]
  have hext : ∀ j, 256 * (b.extras.length + 1 - 16) ≤ j →
      b2.extra j = b.extra j := by
    intro j hj
    by_cases h1 : j < n
    · exact (aOld j hj h1).1
    · by_cases h2 : j < n + 256
      · rw [(aNew j (by omega) h2).1, extra_of_ge hinv (by omega)]
      · have hb2 : b2.extra j = default := by
          unfold extra
          have : b2.extras.length ≤ j / BLOCK_SIZE := by
            rw [aL]
            show b.extras.length + 1 ≤ j / 256
            omega
          rw [List.getD_eq_default _ _ this]
        rw [hb2, extra_of_ge hinv (by omega)]
  have hflags : ∀ j, 256 * (b.extras.length + 1 - 16) ≤ j →
      (b3.extra j).is_used = (b.extra j).is_used ∧ (b3.extra j).is_fixed = (b.extra j).is_fixed := by
    intro j hj
    rw [(e3 j).2.2.2, (e3 j).2.2.1, hext j hj]
    exact ⟨rfl, rfl⟩
  have hF : ∀ j, b3.Free j ↔ (b.Free j ∨ (n ≤ j ∧ j < n + 256)) := by
    intro j
    unfold Free
    rw [hfl3, hn3, hfl, hnd]
    show (256 * (b.extras.length + 1 - 16) ≤ j ∧ j < n + 256 ∧ _) ↔
      ((256 * (b.extras.length - 16) ≤ j ∧ j < n ∧ _) ∨ _)
    constructor
    · rintro ⟨h1, h2, h3⟩
      rw [(hflags j h1).2] at h3
      by_cases h4 : j < n
      · exact Or.inl ⟨by omega, h4, h3⟩
      · exact Or.inr ⟨by omega, h2⟩
    · rintro (⟨h1, h2, h3⟩ | ⟨h1, h2⟩)
      · have hge := hfree j ⟨by rw [hfl]; exact h1, by rw [hnd]; exact h2, h3⟩
        exact ⟨hge, by omega, by rw [(hflags j hge).2]; exact h3⟩
      · have hge : 256 * (b.extras.length + 1 - 16) ≤ j := by omega
        refine ⟨hge, h2, ?_⟩
        rw [(hflags j hge).2, extra_of_ge hinv (by omega)]
        rfl
  refine ⟨?_, hu3, hl3, by rw [s3.keys, aK], by rw [s3.progress, aP], hF, hflags⟩
  have hlt : ∀ w, b.Free w → w < n := fun w hw => by have := hw.2.1; omega
  have hhd : IsHead b.Free n b.unfixed_index := hnd ▸ hinv.head
  have hS : ∀ j, (b.Free j ∨ (n ≤ j ∧ j < n + 256)) ↔ b3.Free j := fun j => (hF j).symm
  have hu : b3.unfixed_index = b.unfixed_index := by rw [s3.unfixed_index, aH]
  rw [aH] at e3
  refine ⟨?_, ?_, ?_, ?_, ?_, ?_, ?_⟩
  · rw [hu3, hl3, List.length_append, List.length_replicate, hinv.size_eq]
    show 256 * b.extras.length + 256 = 256 * (b.extras.length + 1)
    omega
  · intro j h1 h2
    rw [hfl3] at h1
    rw [hn3] at h2
    rw [s3.live]
    by_cases h3 : j < n
    · exact (aOld j h1 h3).2
    · exact (aNew j (by omega) h2).2
  · intro j
    rw [unit_append_default b b3 256 hu3]
    exact hinv.wf j
  · intro j hj
    rw [unit_append_default b b3 256 hu3]
    rcases (hF j).1 hj with h1 | h1
    · exact hinv.free_zero j h1
    · unfold unit
      rw [List.getD_eq_default _ _ (by have : b.units.length = n := hnd; omega)]
  · -- succ
    intro y hy
    rw [(e3 y).1]
    apply isSucc_congr hS
    rcases hinv.head with ⟨hh1, hh2⟩ | ⟨hh1, hh2⟩
    · have hhlt := hlt _ hh1
      have hMe : (b2.extra b.unfixed_index).prev = (b.extra b.unfixed_index).prev := by
        rw [hext _ (hfree _ hh1)]
      rw [hMe]
      have hpM := hinv.pred _ hh1
      have hne : b.unfixed_index ≠ n := by omega
      rcases (hF y).1 hy with hy1 | hy1
      · by_cases c1 : y = (b.extra b.unfixed_index).prev
        · rw [if_pos ⟨hne, c1⟩, c1]
          exact succ_append_max b.Free n 256 _ _ (by omega) hlt hh2 hpM
        · have c2 : ¬ (b.unfixed_index ≠ n ∧ y = (b.extra b.unfixed_index).prev) :=
            fun hc => c1 hc.2
          have := hlt y hy1
          have c3 : ¬ y = n + 255 := by omega
          have c4 : ¬ (n ≤ y ∧ y + 1 < n + 256) := by omega
          rw [if_neg c2, if_neg c3, if_neg c4, hext y (hfree y hy1)]
          exact succ_append_old b.Free n 256 _ _ y _ hlt hh2 hpM hy1 c1 (hinv.succ y hy1)
      · have hMlt := hlt _ hpM.1
        have c2 : ¬ (b.unfixed_index ≠ n ∧ y = (b.extra b.unfixed_index).prev) := by
          intro hc; omega
        rw [if_neg c2]
        by_cases c3 : y = n + 255
        · rw [if_pos c3, c3]
          exact succ_append_last b.Free n 256 _ (by omega) hlt hhd
        · have c4 : (n ≤ y ∧ y + 1 < n + 256) := by omega
          rw [if_neg c3, if_pos c4]
          exact succ_append_new b.Free n 256 y hlt hy1.1 c4.2
    · rw [hnd] at hh1
      have c2 : ¬ (b.unfixed_index ≠ n ∧ y = (b2.extra b.unfixed_index).prev) :=
        fun hc => hc.1 hh1
      rw [if_neg c2]
      rcases (hF y).1 hy with hy1 | hy1
      · exact absurd hy1 (hh2 y)
      · by_cases c3 : y = n + 255
        · rw [if_pos c3, c3]
          exact succ_append_last b.Free n 256 _ (by omega) hlt hhd
        · have c4 : (n ≤ y ∧ y + 1 < n + 256) := by omega
          rw [if_neg c3, if_pos c4]
          exact succ_append_new b.Free n 256 y hlt hy1.1 c4.2
  · -- pred
    intro y hy
    rw [(e3 y).2.1]
    apply isPred_congr hS
    rcases hinv.head with ⟨hh1, hh2⟩ | ⟨hh1, hh2⟩
    · have hhlt := hlt _ hh1
      have hMe : (b2.extra b.unfixed_index).prev = (b.extra b.unfixed_index).prev := by
        rw [hext _ (hfree _ hh1)]
      rw [hMe]
      have hpM := hinv.pred _ hh1
      by_cases c1 : y = b.unfixed_index
      · rw [if_pos c1, c1]
        exact pred_append_head b.Free n 256 _ (by omega) hlt hh1 hh2
      · rw [if_neg c1]
        by_cases c2 : y = n
        · rw [if_pos c2, c2]
          exact pred_append_first b.Free n 256 _ _ hlt hh2 hpM
        · rw [if_neg c2]
          rcases (hF y).1 hy with hy1 | hy1
          · have := hlt y hy1
            have c4 : ¬ (n < y ∧ y < n + 256) := by omega
            rw [if_neg c4, hext y (hfree y hy1)]
            exact pred_append_old b.Free n 256 _ y _ hlt hh1 hh2 hy1 c1 (hinv.pred y hy1)
          · have c4 : (n < y ∧ y < n + 256) := by omega
            rw [if_pos c4]
            exact pred_append_new b.Free n 256 y hlt c4.1 c4.2
    · rw [hnd] at hh1
      rcases (hF y).1 hy with hy1 | hy1
      · exact absurd hy1 (hh2 y)
      · by_cases c1 : y = b.unfixed_index
        · rw [if_pos c1, c1, hh1]
          exact pred_append_first_empty b.Free n 256 (by omega) hh2
        · have c2 : ¬ y = n := by rw [hh1] at c1; exact c1
          have c4 : (n < y ∧ y < n + 256) := by omega
          rw [if_neg c1, if_neg c2, if_pos c4]
          exact pred_append_new b.Free n 256 y hlt c4.1 c4.2
  · rw [hu, hn3]
    have := head_append b.Free n 256 _ (by omega) hlt hhd
    exact isHead_congr hS this

end DoubleArrayBuilder

end Darts

namespace Darts

namespace DoubleArrayBuilder

theorem unit_of_ge (b : DoubleArrayBuilder) {j : Nat} (hj : b.num_of_units ≤ j) :
    b.unit j = default := by
  unfold unit
  exact List.getD_eq_default _ _ hj

theorem expand_trie_spec (IsBase : Nat → Prop) (b : DoubleArrayBuilder) (hinv : b.AllocInv)
    (hc : b.UsedCovered) (hbu : BasesUsed IsBase b) (hn : b.num_of_units + 256 < 2 ^ 31) :
    ∃ b', b.expand_trie = .ok b' ∧ Grown IsBase b b' := by
  obtain ⟨bA, hA, invA, lenA, blkA, keysA, progA, freeA, deadA, unitA, _, usedA⟩ :=
    fix_old_block_spec IsBase b hinv hc hbu (by omega)
  have hnA : bA.num_of_units = b.num_of_units := lenA
  have hbA : bA.num_of_blocks = b.num_of_blocks := blkA
  obtain ⟨ginv, gunits, gblocks, gkeys, gprog, gfree, gflags⟩ :=
    grow_spec bA invA (fun j hj => by rw [blkA]; exact (freeA j hj).2) (by rw [hnA]; exact hn)
  rw [hnA, hbA] at ginv gunits gblocks gkeys gprog gfree gflags
  refine ⟨link_block b.num_of_units (allocate_block b.num_of_blocks bA), ?_, ?_⟩
  · unfold expand_trie
    simp only [hA]
    rfl
  generalize link_block b.num_of_units (allocate_block b.num_of_blocks bA) = b' at *
  have hfl' : b'.first_live = b.extras.length + 1 - 16 := by
    rw [first_live_eq, gblocks, blkA]
  have hunit : ∀ j, b'.unit j = bA.unit j := unit_append_default bA b' 256 gunits
  refine ⟨ginv, ?_, by rw [gblocks, blkA], by rw [gkeys, keysA], by rw [gprog, progA], ?_, ?_,
    ?_, ?_⟩
  · show b'.units.length = b.units.length + 256
    rw [gunits, List.length_append, List.length_replicate, lenA]
  · intro j
    rw [gfree j, hfl']
    constructor
    · rintro (h | h)
      · exact Or.inl (freeA j h)
      · exact Or.inr h
    · rintro (⟨h1, h2⟩ | h)
      · rcases deadA j h1 with h3 | ⟨h3, _⟩
        · exact Or.inl h3
        · omega
      · exact Or.inr h
  · intro j hj hlt
    rw [hfl'] at hlt
    rw [hunit j]
    rcases deadA j hj with h3 | ⟨_, h4, h5⟩
    · have := (freeA j h3).2
      omega
    · exact ⟨h4, h5⟩
  · intro j hj
    rw [hunit j]
    exact unitA j hj
  · intro j hj
    rw [hfl', ← blkA] at hj
    rw [(gflags j hj).1, usedA j]

theorem Grown.fixed_iff {IsBase : Nat → Prop} {b b' : DoubleArrayBuilder} (h : Grown IsBase b b')
    (j : Nat) : b'.Fixed j ↔ (j < b.num_of_units ∧ ¬ (b.Free j ∧ 256 * b'.first_live ≤ j)) := by
  constructor
  · intro hf
    have hlt : j < b.num_of_units + 256 := by have := hf.1; rw [h.num] at this; exact this
    have hnf : ¬ b'.Free j := fun hfr => not_fixed_of_free hfr hf
    rw [h.free_iff] at hnf
    push_neg at hnf
    refine ⟨?_, fun hc => by have := hnf.1 hc.1; omega⟩
    by_contra hge
    have := hnf.2 (by omega)
    omega
  · rintro ⟨h1, h2⟩
    have hlt : j < b'.num_of_units := by rw [h.num]; omega
    rcases fixed_or_free hlt with hf | hf
    · exact hf
    · rw [h.free_iff] at hf
      rcases hf with hf | hf
      · exact absurd hf h2
      · omega

theorem Grown.evolves {IsBase : Nat → Prop} {b b' : DoubleArrayBuilder} (h : Grown IsBase b b')
    (R : Nat → Prop) : Evolves IsBase R b b' := by
  refine ⟨h.keys, h.progress, by rw [h.num]; omega, ?_, ?_, ?_, h.used, ?_⟩
  · rw [first_live_eq, first_live_eq, h.blocks]; omega
  · intro j hj
    rw [h.fixed_iff]
    exact ⟨hj.1, fun hc => not_fixed_of_free hc.1 hj⟩
  · intro j hj
    exact h.unit_eq j (fun hc => not_fixed_of_free hc hj)
  · intro j hj hnf
    rw [h.fixed_iff] at hj
    have hfree := free_of_not_fixed hj.1 hnf
    have hlt : j < 256 * b'.first_live := by
      by_contra hc
      exact hj.2 ⟨hfree, by omega⟩
    exact Or.inr ⟨hlt, h.dead j hfree hlt⟩

end DoubleArrayBuilder

end Darts

namespace Darts

namespace DoubleArrayBuilder

theorem Evolves.same (IsBase R : Nat → Prop) (b : DoubleArrayBuilder) : Evolves IsBase R b b :=
  ⟨rfl, rfl, Nat.le_refl _, Nat.le_refl _, fun _ h => h, fun _ _ => rfl, fun _ _ => rfl,
    fun _ h1 h2 => absurd h1 h2⟩

theorem Evolves.andThen {IsBase R : Nat → Prop} {b b' b'' : DoubleArrayBuilder}
    (h1 : Evolves IsBase R b b') (h2 : Evolves IsBase R b' b'') : Evolves IsBase R b b'' := by
  refine ⟨h2.keys.trans h1.keys, h2.progress.trans h1.progress, Nat.le_trans h1.num_le h2.num_le,
    Nat.le_trans h1.first_live_le h2.first_live_le, fun j hj => h2.fixed_mono j (h1.fixed_mono j hj),
    fun j hj => (h2.unit_fixed j (h1.fixed_mono j hj)).trans (h1.unit_fixed j hj), ?_, ?_⟩
  · intro j hj
    rw [h2.used j hj]
    apply h1.used
    have := h2.first_live_le
    have e : BLOCK_SIZE = 256 := rfl
    rw [e] at hj ⊢
    omega
  · intro j hj hnf
    by_cases hf' : b'.Fixed j
    · rcases h1.newly j hf' hnf with h | ⟨d1, d2, d3⟩
      · exact Or.inl h
      · right
        have hu := h2.unit_fixed j hf'
        refine ⟨?_, by rw [hu]; exact d2, by rw [hu]; exact d3⟩
        have := h2.first_live_le
        have e : BLOCK_SIZE = 256 := rfl
        rw [e] at d1 ⊢
        omega
    · exact h2.newly j hj hf'

theorem Evolves.mono {IsBase R R' : Nat → Prop} {b b' : DoubleArrayBuilder}
    (h : Evolves IsBase R b b') (hR : ∀ j, R j → R' j) : Evolves IsBase R' b b' :=
  ⟨h.keys, h.progress, h.num_le, h.first_live_le, h.fixed_mono, h.unit_fixed, h.used,
    fun j h1 h2 => (h.newly j h1 h2).imp (hR j) id⟩

theorem Evolves.set_unit {IsBase R : Nat → Prop} {b b' : DoubleArrayBuilder}
    (h : Evolves IsBase R b b') (i : Nat) (u : DoubleArrayUnit) (hR : R i) (hi : ¬ b.Fixed i) :
    Evolves IsBase R b (b'.set_unit i u) := by
  refine ⟨h.keys, h.progress, ?_, ?_, ?_, ?_, ?_, ?_⟩
  · simp only [num_of_units_set_unit]; exact h.num_le
  · simp only [first_live_set_unit]; exact h.first_live_le
  · intro j hj
    rw [fixed_set_unit]
    exact h.fixed_mono j hj
  · intro j hj
    rw [unit_set_unit]
    rw [if_neg (fun hc : i = j ∧ i < b'.num_of_units => hi (hc.1 ▸ hj))]
    exact h.unit_fixed j hj
  · intro j hj
    simp only [first_live_set_unit] at hj
    simp only [extra_set_unit]
    exact h.used j hj
  · intro j hj hnf
    rw [fixed_set_unit] at hj
    by_cases hij : j = i
    · exact Or.inl (hij ▸ hR)
    · rcases h.newly j hj hnf with h1 | ⟨d1, d2, d3⟩
      · exact Or.inl h1
      · right
        have hu : (b'.set_unit i u).unit j = b'.unit j := by
          rw [unit_set_unit]
          rw [if_neg (fun hc => hij hc.1.symm)]
        refine ⟨by simpa using d1, by rw [hu]; exact d2, by rw [hu]; exact d3⟩

theorem usedCovered_of_evolves {IsBase R : Nat → Prop} {b b' : DoubleArrayBuilder}
    (h : Evolves IsBase R b b') (hinv : b.AllocInv) (hc : b.UsedCovered) : b'.UsedCovered := by
  intro u h1 h2 h3
  rw [h.used u h1] at h3
  have hlt : u < b.num_of_units := by
    by_contra hge
    rw [extra_of_ge hinv (by omega)] at h3
    cases h3
  have hfl := h.first_live_le
  have e : BLOCK_SIZE = 256 := rfl
  obtain ⟨j, hj, hb⟩ := hc u (by rw [e] at h1 ⊢; omega) hlt h3
  exact ⟨j, h.fixed_mono j hj, by rw [h.unit_fixed j hj]; exact hb⟩

theorem basesUsed_of_evolves {IsBase R : Nat → Prop} {b b' : DoubleArrayBuilder}
    (h : Evolves IsBase R b b') (hb : BasesUsed IsBase b) : BasesUsed IsBase b' := by
  intro u hu
  obtain ⟨h1, h2⟩ := hb u hu
  refine ⟨Nat.lt_of_lt_of_le h1 h.num_le, fun hl => ?_⟩
  rw [h.used u hl]
  apply h2
  have hfl := h.first_live_le
  have e : BLOCK_SIZE = 256 := rfl
  rw [e] at hl ⊢
  omega

theorem evolves_reserve_index_core (IsBase : Nat → Prop) (b : DoubleArrayBuilder)
    (hinv : b.AllocInv) (i : Nat) (hi : b.Free i) (hn : b.num_of_units < 2 ^ 31) :
    Evolves IsBase (fun j => j = i) b (b.reserve_index_core i) := by
  refine ⟨keys_reserve_index_core b i, progress_reserve_index_core b i, ?_, ?_, ?_, ?_, ?_, ?_⟩
  · rw [num_of_units_reserve_index_core]
  · rw [first_live_reserve_index_core]
  · intro j hj
    rw [fixed_reserve_index_core b hinv i hi hn]
    exact Or.inl hj
  · intro j _
    exact unit_reserve_index_core b i j
  · intro j _
    exact (reserve_index_core_extra b hinv i hi hn j).2.2.2
  · intro j hj hnf
    rw [fixed_reserve_index_core b hinv i hi hn] at hj
    rcases hj with h | h
    · exact absurd h hnf
    · exact Or.inl h

theorem reserve_index_spec (IsBase : Nat → Prop) (b : DoubleArrayBuilder) (i : Nat)
    (hinv : b.AllocInv) (hc : b.UsedCovered) (hbu : BasesUsed IsBase b)
    (hn : b.num_of_units + 256 < 2 ^ 31)
    (hi : b.Free i ∨ (b.num_of_units ≤ i ∧ i < b.num_of_units + 256)) :
    ∃ b', b.reserve_index i = .ok b' ∧ Reserved IsBase i b b' := by
  unfold reserve_index
  by_cases hge : i ≥ b.num_of_units
  · rw [if_pos hge]
    have hi' : b.num_of_units ≤ i ∧ i < b.num_of_units + 256 := by
      rcases hi with h | h
      · have := h.2.1; omega
      · exact h
    obtain ⟨b1, h1, g⟩ := expand_trie_spec IsBase b hinv hc hbu hn
    rw [h1]
    refine ⟨b1.reserve_index_core i, rfl, ?_⟩
    have hfree : b1.Free i := (g.free_iff i).2 (Or.inr hi')
    have hn1 : b1.num_of_units < 2 ^ 31 := by rw [g.num]; omega
    have hfi := free_reserve_index_core b1 g.inv i hfree hn1
    refine ⟨allocInv_reserve_index_core b1 g.inv i hfree hn1,
      (g.evolves _).andThen (evolves_reserve_index_core IsBase b1 g.inv i hfree hn1),
      (fixed_reserve_index_core b1 g.inv i hfree hn1 i).2 (Or.inr rfl), ?_, ?_, ?_, ?_, ?_⟩
    · rw [unit_reserve_index_core]
      exact g.inv.free_zero i hfree
    · intro h; omega
    · intro _
      rw [num_of_units_reserve_index_core, g.num]
    · intro h; omega
    · intro _ j h1 h2 h3
      rw [hfi]
      exact ⟨(g.free_iff j).2 (Or.inr ⟨h1, h2⟩), h3⟩
  · rw [if_neg hge]
    have hfree : b.Free i := by
      rcases hi with h | h
      · exact h
      · omega
    have hn1 : b.num_of_units < 2 ^ 31 := by omega
    refine ⟨b.reserve_index_core i, rfl, ?_⟩
    refine ⟨allocInv_reserve_index_core b hinv i hfree hn1,
      evolves_reserve_index_core IsBase b hinv i hfree hn1,
      (fixed_reserve_index_core b hinv i hfree hn1 i).2 (Or.inr rfl), ?_, ?_, ?_, ?_, ?_⟩
    · rw [unit_reserve_index_core]
      exact hinv.free_zero i hfree
    · intro _
      rw [num_of_units_reserve_index_core]
    · intro h; omega
    · intro _ j
      exact free_reserve_index_core b hinv i hfree hn1 j
    · intro h; omega

end DoubleArrayBuilder

end Darts

namespace Darts

namespace DoubleArrayBuilder

theorem succ_gt_of_ne_head {b : DoubleArrayBuilder} (hinv : b.AllocInv) {u : Nat} (hu : b.Free u)
    (hne : (b.extra u).next ≠ b.unfixed_index) : u < (b.extra u).next := by
  have hs := hinv.succ u hu
  by_contra hle
  have hle' : (b.extra u).next ≤ u := by omega
  rcases hinv.head with ⟨hh1, hh2⟩ | ⟨_, hh2⟩
  · have h1 := ((hs.2 _ hh1).2 hle').1
    have h2 := hh2 _ hs.1
    omega
  · exact hh2 u hu

theorem find_offset_loop_spec (b : DoubleArrayBuilder) (hinv : b.AllocInv) (index : Nat)
    (labels : List Nat) : ∀ (fuel u : Nat), b.Free u → b.num_of_units ≤ fuel + u →
    ∃ r, find_offset_loop b index labels fuel u = .ok r ∧
      ∀ o, r = some o → ∃ u', b.Free u' ∧ o = u' ^^^ labels.getD 0 0 ∧
        (b.extra o).is_used = false ∧
        ((index ^^^ o) &&& (DoubleArrayUnit.OFFSET_MAX - 1) == 0
          || (index ^^^ o) &&& (0xFFFFFFFF - (DoubleArrayUnit.OFFSET_MAX - 1)) == 0) = true ∧
        b.has_collision o labels = false := by
  intro fuel
  induction fuel with
  | zero =>
    intro u hu hle
    have := hu.2.1
    omega
  | succ fuel ih =>
    intro u hu hle
    unfold find_offset_loop
    lift_lets
    intro LOWER UPPER o off u'
    by_cases hc : (!(b.extra o).is_used && (off &&& LOWER == 0 || off &&& UPPER == 0)
        && !b.has_collision o labels) = true
    · rw [if_pos hc]
      refine ⟨some o, rfl, ?_⟩
      intro o' ho'
      injection ho' with ho'
      subst ho'
      simp only [Bool.and_eq_true, Bool.not_eq_true'] at hc
      exact ⟨u, hu, rfl, hc.1.1, hc.1.2, hc.2⟩
    · rw [if_neg hc]
      by_cases hne : u' ≠ b.unfixed_index
      · rw [if_pos hne]
        have hgt := succ_gt_of_ne_head hinv hu hne
        exact ih u' (hinv.succ u hu).1 (by omega)
      · rw [if_neg hne]
        exact ⟨none, rfl, fun o' ho' => by cases ho'⟩

theorem find_offset_index_spec (b : DoubleArrayBuilder) (hinv : b.AllocInv) (index : Nat)
    (labels : List Nat) (hl : labels ≠ []) (hlab : ∀ l ∈ labels, l < 256)
    (hidx : index < b.num_of_units) (hn : b.num_of_units + 256 ≤ 2 ^ 29) :
    ∃ o, b.find_offset_index index labels = .ok o ∧
      index ^^^ o < 2 ^ 29 ∧ (index ^^^ o < 2 ^ 21 ∨ (index ^^^ o) % 256 = 0) ∧
      ((256 * b.first_live ≤ o ∧ o < b.num_of_units ∧ (b.extra o).is_used = false ∧
          ∀ l ∈ labels, b.Free (o ^^^ l)) ∨
        (b.num_of_units ≤ o ∧ o < b.num_of_units + 256)) := by
  have hnum : b.num_of_units = 256 * b.extras.length := hinv.size_eq
  have hx29 : ∀ o, o < b.num_of_units + 256 → index ^^^ o < 2 ^ 29 := fun o ho =>
    Nat.xor_lt_two_pow (by omega) (by omega)
  have hfallback : ∃ o, (pure (b.num_of_units ||| (index &&& 0xFF)) : Except DartsError Nat)
      = .ok o ∧
      index ^^^ o < 2 ^ 29 ∧ (index ^^^ o < 2 ^ 21 ∨ (index ^^^ o) % 256 = 0) ∧
      ((256 * b.first_live ≤ o ∧ o < b.num_of_units ∧ (b.extra o).is_used = false ∧
          ∀ l ∈ labels, b.Free (o ^^^ l)) ∨
        (b.num_of_units ≤ o ∧ o < b.num_of_units + 256)) := by
    have e := or_and_255 b.num_of_units index (by omega)
    have hm : index % 256 < 256 := Nat.mod_lt _ (by decide)
    refine ⟨_, rfl, hx29 _ (by rw [e]; omega), Or.inr ?_, Or.inr ⟨by rw [e]; omega, by rw [e]; omega⟩⟩
    rw [e]
    exact xor_self_low index b.num_of_units (by omega)
  unfold find_offset_index
  by_cases hlt : b.unfixed_index < b.num_of_units
  · rw [if_pos hlt]
    have hhead : b.Free b.unfixed_index := by
      rcases hinv.head with ⟨h, _⟩ | ⟨h, _⟩
      · exact h
      · omega
    obtain ⟨r, hr, hgood⟩ := find_offset_loop_spec b hinv index labels b.num_of_units
      b.unfixed_index hhead (by omega)
    rw [hr]
    cases r with
    | none => exact hfallback
    | some o =>
      obtain ⟨u', hu', ho, hused, hmask, hcol⟩ := hgood o rfl
      obtain ⟨l0, t, hlt0⟩ := List.exists_cons_of_ne_nil hl
      have hl0 : labels.getD 0 0 = l0 := by rw [hlt0]; rfl
      have hl0lt : l0 < 256 := hlab l0 (by rw [hlt0]; exact List.mem_cons_self _ _)
      rw [hl0] at ho
      have hblk : o / 256 = u' / 256 := by rw [ho]; exact xor_byte_div u' l0 hl0lt
      have hu1 : 256 * b.first_live ≤ u' := hu'.1
      have hu2 : u' < b.num_of_units := hu'.2.1
      have ho1 : 256 * b.first_live ≤ o := by omega
      have ho2 : o < b.num_of_units := by omega
      have hoff := hx29 o (by omega)
      refine ⟨o, rfl, hoff, offset_mask_test _ (by omega) hmask, Or.inl ⟨ho1, ho2, hused, ?_⟩⟩
      intro l hlmem
      rw [hlt0] at hlmem
      rcases List.mem_cons.1 hlmem with h | h
      · rw [h, ho, xor_xor_cancel_right]
        exact hu'
      · have hllt : l < 256 := hlab l (by rw [hlt0]; exact List.mem_cons_of_mem _ h)
        have hb2 : (o ^^^ l) / 256 = o / 256 := xor_byte_div o l hllt
        unfold has_collision at hcol
        rw [hlt0] at hcol
        simp only [List.drop_succ_cons, List.drop_zero, List.any_eq_false] at hcol
        have := hcol l h
        refine ⟨?_, ?_, ?_⟩
        · show 256 * b.first_live ≤ o ^^^ l
          omega
        · omega
        · simpa using this
  · rw [if_neg hlt]
    exact hfallback

end DoubleArrayBuilder

end Darts

namespace Darts

namespace DoubleArrayBuilder

theorem reserve_children_spec (IsBase : Nat → Prop) (o : Nat) :
    ∀ (L : List (Nat × DoubleArrayKeyRange)) (b : DoubleArrayBuilder)
      (stack : List DoubleArrayKeyRange),
    b.AllocInv → b.UsedCovered → BasesUsed IsBase b →
    (L.map Prod.fst).Nodup → (∀ x ∈ L, x.1 < 256) →
    (((∀ x ∈ L, b.Free (o ^^^ x.1)) ∧ b.num_of_units + 256 < 2 ^ 31) ∨
      (b.num_of_units ≤ o ∧ o < b.num_of_units + 256 ∧ b.num_of_units + 512 < 2 ^ 31)) →
    ∃ b', reserve_children o L b stack =
        .ok (b', (L.map (fun x => ({ x.2 with index := o ^^^ x.1 } : DoubleArrayKeyRange))).reverse
          ++ stack) ∧
      b'.AllocInv ∧ Evolves IsBase (fun j => ∃ x ∈ L, j = o ^^^ x.1) b b' ∧
      (∀ x ∈ L, b'.Fixed (o ^^^ x.1) ∧
        b'.unit (o ^^^ x.1) = (default : DoubleArrayUnit).set_label x.1) ∧
      b'.num_of_units ≤ b.num_of_units + 256 ∧
      ((∀ x ∈ L, b.Free (o ^^^ x.1)) → b'.num_of_units = b.num_of_units) := by
  intro L
  induction L with
  | nil =>
    intro b stack hinv _ _ _ _ _
    exact ⟨b, rfl, hinv, Evolves.same _ _ _, fun x hx => (by cases hx), (by omega), fun _ => rfl⟩
  | cons x rest ih =>
    intro b stack hinv hc hbu hnd hlt havail
    obtain ⟨l, r⟩ := x
    have hl : l < 256 := hlt (l, r) (List.mem_cons_self _ _)
    have hnum : b.num_of_units = 256 * b.extras.length := hinv.size_eq
    have hi : b.Free (o ^^^ l) ∨ (b.num_of_units ≤ o ^^^ l ∧ o ^^^ l < b.num_of_units + 256) := by
      rcases havail with ⟨h, _⟩ | ⟨h1, h2, _⟩
      · exact Or.inl (h (l, r) (List.mem_cons_self _ _))
      · right
        have := xor_byte_div o l hl
        omega
    have hn : b.num_of_units + 256 < 2 ^ 31 := by
      rcases havail with ⟨_, h⟩ | ⟨_, _, h⟩ <;> omega
    obtain ⟨b1, h1, res⟩ := reserve_index_spec IsBase b (o ^^^ l) hinv hc hbu hn hi
    have hnf : ¬ b.Fixed (o ^^^ l) := by
      rcases hi with h | h
      · exact not_fixed_of_free h
      · intro hf; have := hf.1; omega
    have hwf : ((b1.unit (o ^^^ l)).set_label l).wf :=
      DoubleArrayUnit.wf_set_label _ _ (res.inv.wf _) hl
    have inv2 : (b1.set_unit (o ^^^ l) ((b1.unit (o ^^^ l)).set_label l)).AllocInv :=
      allocInv_set_unit b1 res.inv _ _ hwf (fun hf => not_fixed_of_free hf res.fixed)
    have ev2 : Evolves IsBase (fun j => j = o ^^^ l) b
        (b1.set_unit (o ^^^ l) ((b1.unit (o ^^^ l)).set_label l)) :=
      res.evolves.set_unit _ _ rfl hnf
    generalize hb2 : b1.set_unit (o ^^^ l) ((b1.unit (o ^^^ l)).set_label l) = b2 at inv2 ev2
    have hu2 : b2.unit (o ^^^ l) = (default : DoubleArrayUnit).set_label l := by
      rw [← hb2, unit_set_unit, if_pos ⟨rfl, res.fixed.1⟩, res.unit_eq]
    have hf2 : b2.Fixed (o ^^^ l) := by
      rw [← hb2, fixed_set_unit]; exact res.fixed
    have hn2 : b2.num_of_units = b1.num_of_units := by
      rw [← hb2, num_of_units_set_unit]
    have hfree2 : ∀ j, b2.Free j ↔ b1.Free j := by
      intro j; rw [← hb2, free_set_unit]
    have hnd' : (rest.map Prod.fst).Nodup := (List.nodup_cons.1 hnd).2
    have hnotin : l ∉ rest.map Prod.fst := (List.nodup_cons.1 hnd).1
    have hne : ∀ y ∈ rest, o ^^^ y.1 ≠ o ^^^ l := by
      intro y hy heq
      have := xor_left_inj heq
      exact hnotin (this ▸ List.mem_map_of_mem Prod.fst hy)
    have havail2 : (∀ y ∈ rest, b2.Free (o ^^^ y.1)) ∧ b2.num_of_units + 256 < 2 ^ 31 := by
      by_cases hold : o ^^^ l < b.num_of_units
      · have hall : ∀ x ∈ (l, r) :: rest, b.Free (o ^^^ x.1) := by
          rcases havail with ⟨h, _⟩ | ⟨h1, h2, _⟩
          · exact h
          · have := xor_byte_div o l hl
            omega
        refine ⟨fun y hy => ?_, by rw [hn2, res.num_old hold]; exact hn⟩
        rw [hfree2, res.free_old hold]
        exact ⟨hall y (List.mem_cons_of_mem _ hy), hne y hy⟩
      · have hnew : b.num_of_units ≤ o ^^^ l := by omega
        have hb : b.num_of_units ≤ o ∧ o < b.num_of_units + 256 ∧
            b.num_of_units + 512 < 2 ^ 31 := by
          rcases havail with ⟨h, _⟩ | h
          · have hh : o ^^^ l < b.num_of_units := (h (l, r) (List.mem_cons_self _ _)).2.1
            omega
          · exact h
        refine ⟨fun y hy => ?_, by rw [hn2, res.num_new hnew]; omega⟩
        rw [hfree2]
        have hyl : y.1 < 256 := hlt y (List.mem_cons_of_mem _ hy)
        have := xor_byte_div o y.1 hyl
        exact res.free_new hnew _ (by omega) (by omega) (hne y hy)
    obtain ⟨b', h', inv', ev', hch, _, hnum'⟩ := ih b2 ({ r with index := o ^^^ l } :: stack) inv2
      (usedCovered_of_evolves ev2 hinv hc) (basesUsed_of_evolves ev2 hbu) hnd'
      (fun y hy => hlt y (List.mem_cons_of_mem _ hy)) (Or.inl havail2)
    have hnum2 := hnum' havail2.1
    refine ⟨b', ?_, inv', ?_, ?_, ?_, ?_⟩
    · rw [reserve_children, h1]
      simp only [bind, Except.bind]
      rw [hb2, h']
      simp only [List.map_cons, List.reverse_cons, List.append_assoc, List.singleton_append]
    · exact (ev2.mono (fun j hj => ⟨(l, r), List.mem_cons_self _ _, hj⟩)).andThen
        (ev'.mono (fun j ⟨y, hy, hj⟩ => ⟨y, List.mem_cons_of_mem _ hy, hj⟩))
    · intro y hy
      rcases List.mem_cons.1 hy with h | h
      · subst h
        exact ⟨ev'.fixed_mono _ hf2, by rw [ev'.unit_fixed _ hf2]; exact hu2⟩
      · exact hch y h
    · rw [hnum2, hn2]
      by_cases hold : o ^^^ l < b.num_of_units
      · rw [res.num_old hold]; omega
      · rw [res.num_new (by omega)]
    · intro hall
      have hold : o ^^^ l < b.num_of_units := (hall (l, r) (List.mem_cons_self _ _)).2.1
      rw [hnum2, hn2, res.num_old hold]

end DoubleArrayBuilder

end Darts

namespace Darts

namespace DoubleArrayKey

theorem bytes_length (k : DoubleArrayKey) (h : k.WF) : k.bytes.length = k.length.toNat := by
  unfold bytes
  rw [List.length_take, List.length_drop]
  have := h.in_buffer
  omega

theorem get_eq (k : DoubleArrayKey) (h : k.WF) (i : Nat) (hi : i ≤ k.length.toNat) :
    k.get i = k.bytes.getD i 0 := by
  have h0 := h.length_nonneg
  unfold get at_
  by_cases hi2 : (i : Int) = k.length
  · rw [if_neg (by simpa using hi2)]
    rw [List.getD_eq_default]
    rw [bytes_length k h]; omega
  · rw [if_pos hi2]
    have hlt : i < k.length.toNat := by omega
    unfold bytes
    simp only [List.getD_eq_getElem?_getD]
    rw [List.getElem?_take_of_lt hlt, List.getElem?_drop]

theorem getD_of_drop {A : List Nat} {i a : Nat} {t : List Nat} (h : A.drop i = a :: t) :
    A.getD i 0 = a ∧ A.drop (i + 1) = t ∧ i < A.length := by
  have h1 : (A.drop i)[0]? = some a := by rw [h]; exact List.getElem?_cons_zero
  rw [List.getElem?_drop] at h1
  have hlt : i < A.length := by
    by_contra hc
    rw [List.drop_eq_nil_of_le (by omega)] at h
    cases h
  refine ⟨?_, ?_, hlt⟩
  · simp only [List.getD_eq_getElem?_getD]
    simp only [Nat.add_zero] at h1
    rw [h1]; rfl
  · rw [← List.drop_drop, h]
    rfl

theorem getD_of_drop_nil {A : List Nat} {i : Nat} (h : A.drop i = []) : A.getD i 0 = 0 := by
  rw [List.getD_eq_default]
  exact List.drop_eq_nil_iff.mp h

theorem compareLoop_spec (lhs rhs : DoubleArrayKey) (A B : List Nat)
    (hl : ∀ i, i ≤ A.length → lhs.get i = A.getD i 0)
    (hr : ∀ i, i ≤ B.length → rhs.get i = B.getD i 0) :
    ∀ (fuel i : Nat) (A' B' : List Nat), A.drop i = A' → B.drop i = B' → i ≤ A.length →
      i ≤ B.length → A'.length < fuel → (∀ c ∈ A', c ≠ 0) →
      ((lhs.get (compareLoop lhs rhs fuel i) : Int) - (rhs.get (compareLoop lhs rhs fuel i) : Int))
        = strcmp A' B' := by
  intro fuel
  induction fuel with
  | zero => intro i A' B' _ _ _ _ h; omega
  | succ fuel ih =>
    intro i A' B' hA hB hiA hiB hf hz
    unfold compareLoop
    rw [hl i hiA, hr i hiB]
    cases A' with
    | nil =>
      have e1 := getD_of_drop_nil hA
      rw [e1]
      rw [if_neg (by simp)]
      rw [hl i hiA, hr i hiB, e1]
      cases B' with
      | nil => rw [getD_of_drop_nil hB]; simp [strcmp]
      | cons b t => rw [(getD_of_drop hB).1]; simp [strcmp]
    | cons a s =>
      obtain ⟨e1, e2, e3⟩ := getD_of_drop hA
      have ha : a ≠ 0 := hz a (List.mem_cons_self _ _)
      rw [e1]
      cases B' with
      | nil =>
        have e4 := getD_of_drop_nil hB
        rw [e4]
        rw [if_neg (fun h : a ≠ 0 ∧ a = 0 => h.1 h.2)]
        rw [hl i hiA, hr i hiB, e1, e4]
        simp [strcmp]
      | cons b t =>
        obtain ⟨e4, e5, e6⟩ := getD_of_drop hB
        rw [e4]
        by_cases hab : a = b
        · rw [if_pos ⟨ha, hab⟩]
          rw [ih (i + 1) s t e2 e5 (by omega) (by omega) (by simpa using hf)
            (fun c hc => hz c (List.mem_cons_of_mem _ hc))]
          simp [strcmp, hab]
        · rw [if_neg (fun h => hab h.2)]
          rw [hl i hiA, hr i hiB, e1, e4]
          simp [strcmp, hab]

theorem compare_eq_strcmp (lhs rhs : DoubleArrayKey) (hl : lhs.WF) (hr : rhs.WF) :
    lhs.compare rhs = strcmp lhs.bytes rhs.bytes := by
  unfold compare
  exact compareLoop_spec lhs rhs lhs.bytes rhs.bytes
    (fun i hi => get_eq lhs hl i (by rw [← bytes_length lhs hl]; exact hi))
    (fun i hi => get_eq rhs hr i (by rw [← bytes_length rhs hr]; exact hi))
    _ 0 _ _ rfl rfl (Nat.zero_le _) (Nat.zero_le _)
    (by rw [bytes_length lhs hl]; omega) hl.nonzero

end DoubleArrayKey

theorem strcmp_eq_zero (A B : List Nat) (hA : ∀ c ∈ A, c ≠ 0) (hB : ∀ c ∈ B, c ≠ 0) :
    strcmp A B = 0 ↔ A = B := by
  induction A generalizing B with
  | nil =>
    cases B with
    | nil => simp [strcmp]
    | cons b t =>
      have := hB b (List.mem_cons_self _ _)
      simp [strcmp]; omega
  | cons a s ih =>
    cases B with
    | nil =>
      have := hA a (List.mem_cons_self _ _)
      simp [strcmp]; omega
    | cons b t =>
      unfold strcmp
      by_cases hab : a = b
      · rw [if_pos hab, ih t (fun c hc => hA c (List.mem_cons_of_mem _ hc))
          (fun c hc => hB c (List.mem_cons_of_mem _ hc))]
        simp [hab]
      · rw [if_neg hab]
        constructor
        · intro h; omega
        · intro h; injection h with h1 h2; exact absurd h1 hab

theorem lex_cons_iff (a b : Nat) (s t : List Nat) :
    List.Lex (· < ·) (a :: s) (b :: t) ↔ a < b ∨ (a = b ∧ List.Lex (· < ·) s t) := by
  constructor
  · intro h
    cases h with
    | cons h => exact Or.inr ⟨rfl, h⟩
    | rel h => exact Or.inl h
  · rintro (h | ⟨h, h2⟩)
    · exact List.Lex.rel h
    · subst h; exact List.Lex.cons h2

theorem strcmp_pos (A B : List Nat) (hA : ∀ c ∈ A, c ≠ 0) (hB : ∀ c ∈ B, c ≠ 0) :
    0 < strcmp A B ↔ List.Lex (· < ·) B A := by
  induction A generalizing B with
  | nil =>
    cases B with
    | nil => simp [strcmp]
    | cons b t =>
      simp only [strcmp]
      constructor
      · intro h; omega
      · intro h; cases h
  | cons a s ih =>
    cases B with
    | nil =>
      have := hA a (List.mem_cons_self _ _)
      simp only [strcmp]
      constructor
      · intro _; exact List.Lex.nil
      · intro _; omega
    | cons b t =>
      unfold strcmp
      rw [lex_cons_iff]
      by_cases hab : a = b
      · rw [if_pos hab, ih t (fun c hc => hA c (List.mem_cons_of_mem _ hc))
          (fun c hc => hB c (List.mem_cons_of_mem _ hc))]
        subst hab
        simp
      · rw [if_neg hab]
        constructor
        · intro h; left; omega
        · rintro (h | ⟨h, _⟩)
          · omega
          · exact absurd h.symm hab

end Darts

namespace Darts

namespace DoubleArrayKey

theorem takeWhile_of_valid (k : List Nat) (h : ValidKey k) :
    k.takeWhile (fun c => c != 0) = k := by
  rw [List.takeWhile_eq_self_iff]
  intro c hc
  have := (h c hc).1
  simp only [bne_iff_ne, ne_eq]
  omega

theorem ofCString_eq (k : List Nat) (h : ValidKey k) :
    ofCString k = { key := k, pos := 0, length := k.length, index := 0, value := 0 } := by
  unfold ofCString
  rw [takeWhile_of_valid k h]

theorem bytes_of_full (e : DoubleArrayKey) (hp : e.pos = 0) (hl : e.length = e.key.length) :
    e.bytes = e.key := by
  unfold bytes
  rw [hp, hl]
  simp

theorem wf_of_valid (k : List Nat) (h : ValidKey k) (i : Nat) (v : Int) :
    WF { key := k, pos := 0, length := k.length, index := i, value := v } := by
  refine ⟨by simp, by simp, ?_⟩
  rw [bytes_of_full _ rfl rfl]
  intro c hc
  have := (h c hc).1
  omega

theorem ofLength_eq (k : List Nat) (h : ValidKey k) :
    ofLength k k.length = .ok (ofCString k) := by
  unfold ofLength
  rw [ofCString_eq k h]
  simp only
  rw [if_neg]
  simp only [List.any_eq_true, not_exists, not_and, List.mem_range]
  intro i hi
  unfold at_
  simp only [Nat.zero_add]
  rw [List.getD_eq_getElem _ _ hi]
  have := (h _ (List.getElem_mem hi)).1
  simp only [beq_iff_eq]
  omega

end DoubleArrayKey

theorem lex_irrefl (a : List Nat) : ¬ List.Lex (· < ·) a a := by
  induction a with
  | nil => intro h; cases h
  | cons x s ih =>
    rw [lex_cons_iff]
    rintro (h | ⟨_, h⟩)
    · omega
    · exact ih h

theorem lex_trans {a b c : List Nat} (h1 : List.Lex (· < ·) a b) (h2 : List.Lex (· < ·) b c) :
    List.Lex (· < ·) a c := by
  induction a generalizing b c with
  | nil =>
    cases b with
    | nil => cases h1
    | cons y t =>
      cases c with
      | nil => cases h2
      | cons z u => exact List.Lex.nil
  | cons x s ih =>
    cases b with
    | nil => cases h1
    | cons y t =>
      cases c with
      | nil => cases h2
      | cons z u =>
        rw [lex_cons_iff] at h1 h2 ⊢
        rcases h1 with h1 | ⟨h1, h1'⟩
        · rcases h2 with h2 | ⟨h2, _⟩
          · left; omega
          · left; omega
        · rcases h2 with h2 | ⟨h2, h2'⟩
          · left; omega
          · right; exact ⟨by omega, ih h1' h2'⟩

theorem lex_total (a b : List Nat) :
    List.Lex (· < ·) a b ∨ a = b ∨ List.Lex (· < ·) b a := by
  induction a generalizing b with
  | nil =>
    cases b with
    | nil => right; left; rfl
    | cons y t => left; exact List.Lex.nil
  | cons x s ih =>
    cases b with
    | nil => right; right; exact List.Lex.nil
    | cons y t =>
      rw [lex_cons_iff, lex_cons_iff]
      rcases Nat.lt_trichotomy x y with h | h | h
      · left; left; exact h
      · rcases ih t with h2 | h2 | h2
        · left; right; exact ⟨h, h2⟩
        · right; left; rw [h, h2]
        · right; right; right; exact ⟨h.symm, h2⟩
      · right; right; left; exact h

/-- One iteration of the loop of `build_double_array`, for valid keys without
lengths: the comparison of the last kept key with the next one decides. -/
theorem collect_keys_step (lengths : Option (List Nat)) (values : Option (List Int))
    (key : List Nat) (rest : List (List Nat)) (i : Nat) (acc : List DoubleArrayKey)
    (hk : ValidKey key)
    (hlen : ∀ ls, lengths = some ls → ls.getD i 0 = key.length)
    (hacc : ∀ e ∈ acc, e.WF ∧ e.pos = 0 ∧ e.length = e.key.length) :
    DoubleArrayBase.collect_keys lengths values (key :: rest) i acc =
      match acc.getLast? with
      | none => DoubleArrayBase.collect_keys lengths values rest (i + 1)
          (acc ++ [{ key := key, pos := 0, length := key.length, index := 0,
                     value := DoubleArrayBase.make_value values i }])
      | some last =>
        if last.key = key then DoubleArrayBase.collect_keys lengths values rest (i + 1) acc
        else if List.Lex (· < ·) key last.key then .error .unsortedKeys
        else DoubleArrayBase.collect_keys lengths values rest (i + 1)
          (acc ++ [{ key := key, pos := 0, length := key.length, index := 0,
                     value := DoubleArrayBase.make_value values i }]) := by
  have hk1 : DoubleArrayBase.make_key lengths key i = Except.ok (DoubleArrayKey.ofCString key) := by
    unfold DoubleArrayBase.make_key
    cases lengths with
    | none => rfl
    | some ls =>
      simp only
      rw [hlen ls rfl, DoubleArrayKey.ofLength_eq key hk]
  rw [DoubleArrayBase.collect_keys, hk1]
  simp only
  rw [DoubleArrayKey.ofCString_eq key hk]
  have hwk := DoubleArrayKey.wf_of_valid key hk 0 0
  have hbk : DoubleArrayKey.bytes
      { key := key, pos := 0, length := key.length, index := 0, value := 0 } = key :=
    DoubleArrayKey.bytes_of_full _ rfl rfl
  cases hl : acc.getLast? with
  | none =>
    have : acc = [] := by simpa using hl
    subst this
    simp only [ne_eq, not_true_eq_false, false_and, ↓reduceIte]
  | some last =>
    have hne : acc ≠ [] := by
      intro h; rw [h] at hl; cases hl
    have hmem : last ∈ acc := List.mem_of_mem_getLast? hl
    obtain ⟨hw, hp, hle⟩ := hacc last hmem
    have hb : last.bytes = last.key := DoubleArrayKey.bytes_of_full _ hp hle
    simp only [ne_eq, hne, not_false_eq_true, true_and]
    rw [DoubleArrayKey.compare_eq_strcmp _ _ hw hwk, hbk, hb]
    have hz1 : ∀ c ∈ last.key, c ≠ 0 := hb ▸ hw.nonzero
    have hz2 : ∀ c ∈ key, c ≠ 0 := fun c hc => by have := (hk c hc).1; omega
    by_cases h1 : last.key = key
    · rw [if_pos ((strcmp_eq_zero _ _ hz1 hz2).2 h1), if_pos h1]
    · rw [if_neg (fun h => h1 ((strcmp_eq_zero _ _ hz1 hz2).1 h)), if_neg h1]
      by_cases h2 : List.Lex (· < ·) key last.key
      · rw [if_pos ((strcmp_pos _ _ hz1 hz2).2 h2), if_pos h2]
      · rw [if_neg (fun h => h2 ((strcmp_pos _ _ hz1 hz2).1 h)), if_neg h2]

theorem drop_eq_cons_getD (inp : List (List Nat)) (n : Nat) (h : n < inp.length) :
    inp.drop n = inp.getD n [] :: inp.drop (n + 1) := by
  rw [List.getD_eq_getElem _ _ h]
  exact List.drop_eq_getElem_cons h

theorem Collected.basic {inp : List (List Nat)} {values : Option (List Int)} {n : Nat}
    {acc : List DoubleArrayKey} (h : Collected inp values n acc) : CollectedBasic inp n acc := by
  refine ⟨fun e he => ?_, ?_, h.last⟩
  · obtain ⟨h1, h2, _, h4, _⟩ := h.entry e he
    exact ⟨h1, h2, h4⟩
  · intro hn
    cases hacc : acc with
    | nil => rfl
    | cons e t =>
      obtain ⟨_, _, _, _, i, hi, _⟩ := h.entry e (by rw [hacc]; exact List.mem_cons_self _ _)
      omega

theorem collected_nil (inp : List (List Nat)) (values : Option (List Int)) :
    Collected inp values 0 [] := by
  refine ⟨?_, List.chain'_nil, ?_, ?_⟩
  · intro e he; cases he
  · intro i hi; omega
  · intro h; omega

theorem collect_keys_ok (lengths : Option (List Nat)) (values : Option (List Int))
    (inp : List (List Nat)) (hv : ∀ k ∈ inp, ValidKey k)
    (hL : ∀ ls, lengths = some ls → ∀ i, i < inp.length → ls.getD i 0 = (inp.getD i []).length)
    (hs : ∀ j, j + 1 < inp.length → ¬ List.Lex (· < ·) (inp.getD (j + 1) []) (inp.getD j [])) :
    ∀ (m n : Nat) (acc : List DoubleArrayKey), n + m = inp.length → Collected inp values n acc →
      ∃ ks, DoubleArrayBase.collect_keys lengths values (inp.drop n) n acc = .ok ks ∧
        Collected inp values inp.length ks := by
  intro m
  induction m with
  | zero =>
    intro n acc hn hc
    have : n = inp.length := by omega
    subst this
    rw [List.drop_length]
    exact ⟨acc, rfl, hc⟩
  | succ m ih =>
    intro n acc hn hc
    have hlt : n < inp.length := by omega
    have hkv : ValidKey (inp.getD n []) := by
      rw [List.getD_eq_getElem _ _ hlt]
      exact hv _ (List.getElem_mem hlt)
    rw [drop_eq_cons_getD inp n hlt,
      collect_keys_step lengths values _ _ n acc hkv (fun ls h => hL ls h n hlt) hc.basic.wf]
    cases hl : acc.getLast? with
    | none =>
      have hacc : acc = [] := by simpa using hl
      have hn0 : n = 0 := by
        by_contra h0
        obtain ⟨e, he, _⟩ := hc.last (by omega)
        rw [hl] at he
        cases he
      subst hacc
      simp only [List.nil_append]
      apply ih (n + 1) _ (by omega)
      refine ⟨?_, List.chain'_singleton _, ?_, ?_⟩
      · intro e he
        rw [List.mem_singleton] at he
        subst he
        refine ⟨DoubleArrayKey.wf_of_valid _ hkv _ _, rfl, rfl, rfl, n, by omega, rfl, rfl, ?_⟩
        intro j hj; omega
      · intro i hi
        have : i = n := by omega
        subst this
        exact ⟨_, List.mem_singleton_self _, rfl⟩
      · intro _
        exact ⟨_, rfl, rfl⟩
    | some last =>
      have hmem : last ∈ acc := List.mem_of_mem_getLast? hl
      obtain ⟨hw, hp, _, hle, i0, hi0, _⟩ := hc.entry last hmem
      have hn0 : 0 < n := by omega
      obtain ⟨e', he', hlk⟩ := hc.last hn0
      rw [hl] at he'
      injection he' with he'
      subst he'
      simp only
      by_cases h1 : last.key = inp.getD n []
      · rw [if_pos h1]
        apply ih (n + 1) _ (by omega)
        refine ⟨?_, hc.sorted, ?_, ?_⟩
        · intro e he
          obtain ⟨a1, a2, a3, a4, i, hi, a5⟩ := hc.entry e he
          exact ⟨a1, a2, a3, a4, i, by omega, a5⟩
        · intro i hi
          by_cases hin : i < n
          · exact hc.complete i hin
          · have : i = n := by omega
            subst this
            exact ⟨last, hmem, h1⟩
        · intro _
          exact ⟨last, hl, h1⟩
      · rw [if_neg h1]
        have h2 : ¬ List.Lex (· < ·) (inp.getD n []) last.key := by
          rw [hlk]
          have := hs (n - 1) (by omega)
          rw [show n - 1 + 1 = n by omega] at this
          exact this
        rw [if_neg h2]
        have h3 : List.Lex (· < ·) last.key (inp.getD n []) := by
          rcases lex_total last.key (inp.getD n []) with h | h | h
          · exact h
          · exact absurd h h1
          · exact absurd h h2
        have hbl : last.bytes = last.key := DoubleArrayKey.bytes_of_full _ hp hle
        -- every kept key is at most the last one
        have hle_last : ∀ e ∈ acc, e = last ∨ List.Lex (· < ·) e.bytes last.bytes := by
          obtain ⟨t, ht⟩ := List.getLast?_eq_some_iff.mp hl
          haveI : IsTrans DoubleArrayKey (fun a b => List.Lex (· < ·) a.bytes b.bytes) :=
            ⟨fun a b c => lex_trans⟩
          have hp := List.chain'_iff_pairwise.mp hc.sorted
          rw [ht, List.pairwise_append] at hp
          intro e he
          rw [ht, List.mem_append, List.mem_singleton] at he
          rcases he with he | he
          · exact Or.inr (hp.2.2 e he last (List.mem_singleton_self _))
          · exact Or.inl he
        apply ih (n + 1) _ (by omega)
        refine ⟨?_, ?_, ?_, ?_⟩
        · intro e he
          rw [List.mem_append] at he
          rcases he with he | he
          · obtain ⟨a1, a2, a3, a4, i, hi, a5⟩ := hc.entry e he
            exact ⟨a1, a2, a3, a4, i, by omega, a5⟩
          · rw [List.mem_singleton] at he
            subst he
            refine ⟨DoubleArrayKey.wf_of_valid _ hkv _ _, rfl, rfl, rfl, n, by omega, rfl, rfl, ?_⟩
            intro j hj heq
            obtain ⟨e, he, hek⟩ := hc.complete j hj
            obtain ⟨_, b2, _, b4, _⟩ := hc.entry e he
            have hbe : e.bytes = e.key := DoubleArrayKey.bytes_of_full _ b2 b4
            rcases hle_last e he with h | h
            · rw [h] at hek
              rw [hek, heq] at h3
              exact lex_irrefl _ h3
            · rw [hbe, hbl, hek, heq] at h
              exact lex_irrefl _ (lex_trans h h3)
        · apply List.Chain'.append hc.sorted (List.chain'_singleton _)
          intro x hx y hy
          rw [hl] at hx
          simp only [Option.mem_def, Option.some.injEq] at hx
          simp only [List.head?_cons, Option.mem_def, Option.some.injEq] at hy
          subst hx; subst hy
          rw [hbl, DoubleArrayKey.bytes_of_full _ rfl rfl]
          exact h3
        · intro i hi
          by_cases hin : i < n
          · obtain ⟨e, he, hek⟩ := hc.complete i hin
            exact ⟨e, List.mem_append_left _ he, hek⟩
          · have : i = n := by omega
            subst this
            exact ⟨_, List.mem_append_right _ (List.mem_singleton_self _), rfl⟩
        · intro _
          exact ⟨_, List.getLast?_concat _, rfl⟩

theorem collect_keys_unsorted (lengths : Option (List Nat)) (values : Option (List Int))
    (inp : List (List Nat)) (hv : ∀ k ∈ inp, ValidKey k)
    (hL : ∀ ls, lengths = some ls → ∀ i, i < inp.length → ls.getD i 0 = (inp.getD i []).length) :
    ∀ (m n : Nat) (acc : List DoubleArrayKey), n + m = inp.length → CollectedBasic inp n acc →
      (∃ j, n ≤ j ∧ 0 < j ∧ j < inp.length ∧
        List.Lex (· < ·) (inp.getD j []) (inp.getD (j - 1) [])) →
      DoubleArrayBase.collect_keys lengths values (inp.drop n) n acc = .error .unsortedKeys := by
  intro m
  induction m with
  | zero =>
    intro n acc hn _ ⟨j, h1, _, h3, _⟩
    omega
  | succ m ih =>
    intro n acc hn hc ⟨j, hj1, hj2, hj3, hj4⟩
    have hlt : n < inp.length := by omega
    have hkv : ValidKey (inp.getD n []) := by
      rw [List.getD_eq_getElem _ _ hlt]
      exact hv _ (List.getElem_mem hlt)
    rw [drop_eq_cons_getD inp n hlt,
      collect_keys_step lengths values _ _ n acc hkv (fun ls h => hL ls h n hlt) hc.wf]
    have hwf_new : ∀ e ∈ acc ++ [DoubleArrayKey.mk (inp.getD n []) 0 (inp.getD n []).length 0
        (DoubleArrayBase.make_value values n)], e.WF ∧ e.pos = 0 ∧ e.length = e.key.length := by
      intro e he
      rw [List.mem_append, List.mem_singleton] at he
      rcases he with he | he
      · exact hc.wf e he
      · subst he
        exact ⟨DoubleArrayKey.wf_of_valid _ hkv _ _, rfl, rfl⟩
    cases hl : acc.getLast? with
    | none =>
      have hn0 : n = 0 := by
        by_contra h0
        obtain ⟨e, he, _⟩ := hc.last (by omega)
        rw [hl] at he
        cases he
      simp only
      apply ih (n + 1) _ (by omega)
      · refine ⟨hwf_new, fun h => by omega, fun _ => ⟨_, List.getLast?_concat _, rfl⟩⟩
      · exact ⟨j, by omega, hj2, hj3, hj4⟩
    | some last =>
      have hn0 : 0 < n := by
        by_contra h0
        have := hc.empty (by omega)
        rw [this] at hl
        cases hl
      obtain ⟨e', he', hlk⟩ := hc.last hn0
      rw [hl] at he'
      injection he' with he'
      subst he'
      simp only
      by_cases h1 : last.key = inp.getD n []
      · rw [if_pos h1]
        apply ih (n + 1) _ (by omega)
        · exact ⟨hc.wf, fun h => by omega, fun _ => ⟨last, hl, h1⟩⟩
        · refine ⟨j, ?_, hj2, hj3, hj4⟩
          by_contra hc2
          have : j = n := by omega
          subst this
          rw [← hlk, h1] at hj4
          exact lex_irrefl _ hj4
      · rw [if_neg h1]
        by_cases h2 : List.Lex (· < ·) (inp.getD n []) last.key
        · rw [if_pos h2]
        · rw [if_neg h2]
          apply ih (n + 1) _ (by omega)
          · refine ⟨hwf_new, fun h => by omega, fun _ => ⟨_, List.getLast?_concat _, rfl⟩⟩
          · refine ⟨j, ?_, hj2, hj3, hj4⟩
            by_contra hc2
            have : j = n := by omega
            subst this
            rw [← hlk] at hj4
            exact h2 hj4

end Darts

namespace Darts

theorem onlyErr_ok {α : Type} (P : DartsError → Prop) (a : α) : OnlyErr P (Except.ok a) := by
  intro e h; cases h

theorem onlyErr_pure {α : Type} (P : DartsError → Prop) (a : α) :
    OnlyErr P (pure a : Except DartsError α) := by
  intro e h; cases h

theorem onlyErr_error {α : Type} (P : DartsError → Prop) (e : DartsError) (h : P e) :
    OnlyErr P (Except.error e : Except DartsError α) := by
  intro e' h'; cases h'; exact h

theorem onlyErr_bind {α β : Type} (P : DartsError → Prop) (x : Except DartsError α)
    (f : α → Except DartsError β) (hx : OnlyErr P x) (hf : ∀ a, OnlyErr P (f a)) :
    OnlyErr P (x >>= f) := by
  intro e h
  cases x with
  | error e' =>
    have : e' = e := by
      simp only [bind, Except.bind] at h
      injection h
    subst this
    exact hx e' rfl
  | ok a => exact hf a e h

theorem onlyErr_ite {α : Type} (P : DartsError → Prop) (c : Prop) [Decidable c]
    (x y : Except DartsError α) (hx : OnlyErr P x) (hy : OnlyErr P y) :
    OnlyErr P (if c then x else y) := by
  split
  · exact hx
  · exact hy

namespace DoubleArrayUnit

theorem onlyErr_set_offset (u : DoubleArrayUnit) (x : Nat) : OnlyErr BuilderError (u.set_offset x) := by
  unfold set_offset
  apply onlyErr_ite
  · exact onlyErr_error _ _ (Or.inl rfl)
  · exact onlyErr_ok _ _

theorem onlyErr_set_link (idBits : Nat) (u : DoubleArrayUnit) (x : Nat) :
    OnlyErr BuilderError (u.set_link idBits x) := by
  unfold set_link
  apply onlyErr_ite
  · exact onlyErr_error _ _ (Or.inr (Or.inl rfl))
  · exact onlyErr_ok _ _

end DoubleArrayUnit

namespace DoubleArrayBuilder

theorem onlyErr_fix_block_loop (end_ U : Nat) : ∀ (fuel : Nat) (b : DoubleArrayBuilder),
    OnlyErr BuilderError (fix_block_loop end_ U fuel b) := by
  intro fuel
  induction fuel with
  | zero =>
    intro b
    unfold fix_block_loop
    apply onlyErr_ite
    · exact onlyErr_error _ _ (Or.inr (Or.inr rfl))
    · exact onlyErr_ok _ _
  | succ fuel ih =>
    intro b
    unfold fix_block_loop
    apply onlyErr_ite
    · exact ih _
    · exact onlyErr_ok _ _

theorem onlyErr_fix_block (b : DoubleArrayBuilder) (k : Nat) :
    OnlyErr BuilderError (b.fix_block k) := by
  unfold fix_block
  apply onlyErr_ite
  · exact onlyErr_ok _ _
  · exact onlyErr_fix_block_loop _ _ _ _

theorem onlyErr_expand_trie (b : DoubleArrayBuilder) : OnlyErr BuilderError b.expand_trie := by
  unfold expand_trie
  apply onlyErr_bind
  · apply onlyErr_ite
    · exact onlyErr_fix_block _ _
    · exact onlyErr_pure _ _
  · intro a; exact onlyErr_pure _ _

theorem onlyErr_reserve_index (b : DoubleArrayBuilder) (i : Nat) :
    OnlyErr BuilderError (b.reserve_index i) := by
  unfold reserve_index
  apply onlyErr_bind
  · apply onlyErr_ite
    · exact onlyErr_expand_trie _
    · exact onlyErr_pure _ _
  · intro a; exact onlyErr_pure _ _

theorem onlyErr_fix_blocks_from (end_ : Nat) : ∀ (fuel k : Nat) (b : DoubleArrayBuilder),
    OnlyErr BuilderError (fix_blocks_from end_ fuel k b) := by
  intro fuel
  induction fuel with
  | zero => intro k b; exact onlyErr_ok _ _
  | succ fuel ih =>
    intro k b
    unfold fix_blocks_from
    apply onlyErr_ite
    · apply onlyErr_bind
      · exact onlyErr_fix_block _ _
      · intro a; exact ih _ _
    · exact onlyErr_ok _ _

theorem onlyErr_fix_all_blocks (b : DoubleArrayBuilder) : OnlyErr BuilderError b.fix_all_blocks := by
  unfold fix_all_blocks
  exact onlyErr_fix_blocks_from _ _ _ _

theorem onlyErr_find_offset_loop (b : DoubleArrayBuilder) (index : Nat) (labels : List Nat) :
    ∀ (fuel u : Nat), OnlyErr BuilderError (find_offset_loop b index labels fuel u) := by
  intro fuel
  induction fuel with
  | zero => intro u; exact onlyErr_error _ _ (Or.inr (Or.inr rfl))
  | succ fuel ih =>
    intro u
    unfold find_offset_loop
    lift_lets
    intro _ _ _ _
    apply onlyErr_ite
    · exact onlyErr_ok _ _
    · apply onlyErr_ite
      · exact ih _
      · exact onlyErr_ok _ _

theorem onlyErr_find_offset_index (b : DoubleArrayBuilder) (index : Nat) (labels : List Nat) :
    OnlyErr BuilderError (b.find_offset_index index labels) := by
  unfold find_offset_index
  apply onlyErr_bind
  · apply onlyErr_ite
    · exact onlyErr_find_offset_loop _ _ _ _ _
    · exact onlyErr_pure _ _
  · intro a
    cases a with
    | none => exact onlyErr_pure _ _
    | some x => exact onlyErr_pure _ _

theorem onlyErr_reserve_children (o : Nat) : ∀ (l : List (Nat × DoubleArrayKeyRange))
    (b : DoubleArrayBuilder) (stack : List DoubleArrayKeyRange),
    OnlyErr BuilderError (reserve_children o l b stack) := by
  intro l
  induction l with
  | nil => intro b stack; exact onlyErr_ok _ _
  | cons x rest ih =>
    intro b stack
    obtain ⟨label, range⟩ := x
    unfold reserve_children
    apply onlyErr_bind
    · exact onlyErr_reserve_index _ _
    · intro a; exact ih _ _

theorem onlyErr_build_trie_step (b : DoubleArrayBuilder) (r : DoubleArrayKeyRange)
    (stack : List DoubleArrayKeyRange) : OnlyErr BuilderError (b.build_trie_step r stack) := by
  unfold build_trie_step
  apply onlyErr_ite
  · exact onlyErr_ok _ _
  · lift_lets
    intros
    apply onlyErr_bind
    · exact onlyErr_find_offset_index _ _ _
    · intro a
      apply onlyErr_bind
      · exact DoubleArrayUnit.onlyErr_set_offset _ _
      · intro u
        apply onlyErr_bind
        · exact onlyErr_reserve_children _ _ _ _
        · intro x
          exact onlyErr_pure _ _

theorem onlyErr_build_trie_loop : ∀ (fuel : Nat) (b : DoubleArrayBuilder)
    (stack : List DoubleArrayKeyRange), OnlyErr BuilderError (build_trie_loop fuel b stack) := by
  intro fuel
  induction fuel with
  | zero =>
    intro b stack
    cases stack with
    | nil => exact onlyErr_ok _ _
    | cons r s => exact onlyErr_error _ _ (Or.inr (Or.inr rfl))
  | succ fuel ih =>
    intro b stack
    cases stack with
    | nil => exact onlyErr_ok _ _
    | cons r s =>
      unfold build_trie_loop
      apply onlyErr_bind
      · exact onlyErr_build_trie_step _ _ _
      · intro x; exact ih _ _

theorem onlyErr_build_trie (b : DoubleArrayBuilder) : OnlyErr BuilderError b.build_trie := by
  unfold build_trie
  apply onlyErr_bind
  · exact onlyErr_reserve_index _ _
  · intro b1
    apply onlyErr_bind
    · exact onlyErr_reserve_index _ _
    · intro b2
      apply onlyErr_bind
      · exact DoubleArrayUnit.onlyErr_set_offset _ _
      · intro u
        apply onlyErr_bind
        · apply onlyErr_ite
          · exact onlyErr_build_trie_loop _ _ _
          · exact onlyErr_pure _ _
        · intro b3
          apply onlyErr_bind
          · exact onlyErr_fix_all_blocks _
          · intro b4
            apply onlyErr_bind
            · exact DoubleArrayUnit.onlyErr_set_offset _ _
            · intro u2; exact onlyErr_pure _ _

theorem onlyErr_arrange_suffixes_loop (idBits : Nat) : ∀ (keys : List DoubleArrayKey)
    (prev : Option DoubleArrayKey) (base_link : Nat) (values : List Int) (b : DoubleArrayBuilder),
    OnlyErr BuilderError (arrange_suffixes_loop idBits keys prev base_link values b) := by
  intro keys
  induction keys with
  | nil => intro _ _ _ _; exact onlyErr_ok _ _
  | cons key rest ih =>
    intro prev base_link values b
    simp only [arrange_suffixes_loop]
    apply onlyErr_bind
    · exact DoubleArrayUnit.onlyErr_set_link _ _ _
    · intro u
      apply onlyErr_ite
      · exact ih _ _ _ _
      · exact ih _ _ _ _

theorem onlyErr_arrange_suffixes (idBits : Nat) (b : DoubleArrayBuilder) :
    OnlyErr BuilderError (arrange_suffixes idBits b) := by
  unfold arrange_suffixes
  lift_lets
  intro _
  apply onlyErr_ite
  · exact onlyErr_ok _ _
  · exact onlyErr_arrange_suffixes_loop _ _ _ _ _ _

theorem onlyErr_build (idBits : Nat) (keys : List DoubleArrayKey) :
    OnlyErr BuilderError (build idBits keys) := by
  unfold build
  apply onlyErr_bind
  · exact onlyErr_build_trie _
  · intro b
    apply onlyErr_bind
    · exact onlyErr_arrange_suffixes _ _
    · intro b2; exact onlyErr_pure _ _

end DoubleArrayBuilder

end Darts

namespace Darts

namespace DoubleArrayBase

theorem put_result_same (da : DoubleArrayBase) (c1 c2 : Nat) (h12 : c1 ≤ c2)
    (r0 r1 r2 r2' : List result_pair_type) (num t len : Nat) (hr : SameResults c1 c2 r0 r1 r2)
    (h : put_result da r2 c2 num t len = some r2') :
    ∃ r1', put_result da r1 c1 num t len = some r1' ∧ SameResults c1 c2 r0 r1' r2' := by
  unfold put_result at h ⊢
  obtain ⟨h1, h2, h3⟩ := hr
  by_cases hc2 : num < c2
  · rw [if_pos hc2] at h
    cases hv : da.get_value t with
    | none => rw [hv] at h; cases h
    | some v =>
      rw [hv] at h
      simp only [Option.bind_eq_bind, Option.some_bind, Option.pure_def, Option.some.injEq] at h
      subst h
      by_cases hc1 : num < c1
      · rw [if_pos hc1]
        refine ⟨_, rfl, ?_, ?_, ?_⟩
        · intro i hi
          rw [List.getElem?_set, List.getElem?_set]
          by_cases hin : num = i
          · subst hin
            have := h1 num hi
            by_cases hl : num < r1.length
            · have hl2 : num < r2.length := by
                by_contra hcon
                rw [List.getElem?_eq_getElem hl, List.getElem?_eq_none (by omega)] at this
                cases this
              simp [hl, hl2]
            · have hl2 : ¬ num < r2.length := by
                intro hcon
                rw [List.getElem?_eq_getElem hcon, List.getElem?_eq_none (by omega)] at this
                cases this
              simp [hl, hl2]
          · simp only [hin, ↓reduceIte]
            exact h1 i hi
        · intro i hi
          rw [List.getElem?_set]
          have : ¬ num = i := by omega
          simp only [this, ↓reduceIte]
          exact h2 i hi
        · intro i hi
          rw [List.getElem?_set]
          have : ¬ num = i := by omega
          simp only [this, ↓reduceIte]
          exact h3 i hi
      · rw [if_neg hc1]
        refine ⟨_, rfl, ?_, h2, ?_⟩
        · intro i hi
          rw [List.getElem?_set]
          have : ¬ num = i := by omega
          simp only [this, ↓reduceIte]
          exact h1 i hi
        · intro i hi
          rw [List.getElem?_set]
          have : ¬ num = i := by omega
          simp only [this, ↓reduceIte]
          exact h3 i hi
  · rw [if_neg hc2] at h
    simp only [Option.pure_def, Option.some.injEq] at h
    subst h
    rw [if_neg (by omega)]
    exact ⟨_, rfl, h1, h2, h3⟩

theorem extract_result_same (idBits : Nat) (da : DoubleArrayBase) (c1 c2 : Nat) (h12 : c1 ≤ c2)
    (r0 r1 r2 : List result_pair_type) (c : Nat) (u0 : DoubleArrayUnit) (index pos num : Nat)
    (x2 : List result_pair_type × Nat) (hr : SameResults c1 c2 r0 r1 r2)
    (h : extract_result idBits da c2 c u0 index pos r2 num = some x2) :
    ∃ r1', extract_result idBits da c1 c u0 index pos r1 num = some (r1', x2.2) ∧
      SameResults c1 c2 r0 r1' x2.1 := by
  unfold extract_result at h ⊢
  by_cases hc : c ≠ 0 ∧ u0.is_end = true
  · rw [if_pos hc] at h
    rw [if_pos hc]
    cases hs : da.unit? (index ^^^ u0.offset) with
    | none => rw [hs] at h; cases h
    | some stray =>
      rw [hs] at h
      simp only [Option.bind_eq_bind, Option.some_bind] at h ⊢
      cases hp : put_result da r2 c2 num (stray.link idBits + (4 * stray.value_id idBits + 1)) pos with
      | none => rw [hp] at h; cases h
      | some r2' =>
        rw [hp] at h
        simp only [Option.some_bind, Option.pure_def, Option.some.injEq] at h
        subst h
        obtain ⟨r1', e1, e2⟩ := put_result_same da c1 c2 h12 r0 r1 r2 r2' num _ pos hr hp
        rw [e1]
        exact ⟨r1', rfl, e2⟩
  · rw [if_neg hc] at h
    rw [if_neg hc]
    simp only [Option.pure_def, Option.some.injEq] at h
    subst h
    exact ⟨r1, rfl, hr⟩

theorem common_prefix_units_same (idBits : Nat) (da : DoubleArrayBase) (c1 c2 : Nat)
    (h12 : c1 ≤ c2) (r0 : List result_pair_type) :
    ∀ (query : List Nat) (index pos : Nat) (r1 r2 : List result_pair_type) (num : Nat)
      (r2' : List result_pair_type) (n : Nat) (x : Option (DoubleArrayUnit × List Nat × Nat)),
      SameResults c1 c2 r0 r1 r2 →
      common_prefix_units idBits da c2 query index pos r2 num = some (r2', n, x) →
      ∃ r1', common_prefix_units idBits da c1 query index pos r1 num = some (r1', n, x) ∧
        SameResults c1 c2 r0 r1' r2' := by
  intro query
  induction query with
  | nil => intro index pos r1 r2 num r2' n x _ h; cases h
  | cons c rest ih =>
    intro index pos r1 r2 num r2' n x hr h
    rw [common_prefix_units] at h ⊢
    cases hu0 : da.unit? index with
    | none => rw [hu0] at h; cases h
    | some u0 =>
      rw [hu0] at h
      simp only [Option.bind_eq_bind, Option.some_bind] at h ⊢
      cases he : extract_result idBits da c2 c u0 index pos r2 num with
      | none => rw [he] at h; cases h
      | some x2 =>
        rw [he] at h
        obtain ⟨r1', e1, e2⟩ := extract_result_same idBits da c1 c2 h12 r0 r1 r2 c u0 index pos num
          x2 hr he
        rw [e1]
        simp only [Option.some_bind] at h ⊢
        cases hu : da.unit? (index ^^^ (u0.offset ^^^ c)) with
        | none => rw [hu] at h; cases h
        | some u =>
          rw [hu] at h
          simp only [Option.some_bind] at h ⊢
          by_cases hl : u.is_leaf = true
          · rw [if_pos hl] at h ⊢
            simp only [Option.pure_def, Option.some.injEq, Prod.mk.injEq] at h ⊢
            obtain ⟨h1, h2, h3⟩ := h
            subst h1; subst h2; subst h3
            exact ⟨r1', ⟨rfl, rfl, rfl⟩, e2⟩
          · rw [if_neg hl] at h ⊢
            by_cases hlab : u.label ≠ c
            · rw [if_pos hlab] at h ⊢
              simp only [Option.pure_def, Option.some.injEq, Prod.mk.injEq] at h ⊢
              obtain ⟨h1, h2, h3⟩ := h
              subst h1; subst h2; subst h3
              exact ⟨r1', ⟨rfl, rfl, rfl⟩, e2⟩
            · rw [if_neg hlab] at h ⊢
              exact ih _ _ _ _ _ _ _ _ e2 h

theorem common_prefix_suffix_same (idBits : Nat) (da : DoubleArrayBase) (c1 c2 : Nat)
    (h12 : c1 ≤ c2) (r0 r1 r2 : List result_pair_type) (agent : DoubleArrayUnit)
    (query : List Nat) (pos num : Nat) (n : Nat) (r2' : List result_pair_type)
    (hr : SameResults c1 c2 r0 r1 r2)
    (h : common_prefix_suffix idBits da c2 agent query pos r2 num = some (n, r2')) :
    ∃ r1', common_prefix_suffix idBits da c1 agent query pos r1 num = some (n, r1') ∧
      SameResults c1 c2 r0 r1' r2' := by
  unfold common_prefix_suffix at h ⊢
  cases hb : da.tail? (agent.link idBits) with
  | none => rw [hb] at h; cases h
  | some byte =>
    rw [hb] at h
    simp only [Option.bind_eq_bind, Option.some_bind] at h ⊢
    cases hq : query.head? with
    | none => rw [hq] at h; cases h
    | some c =>
      rw [hq] at h
      simp only [Option.some_bind] at h ⊢
      by_cases hbc : byte ≠ c
      · rw [if_pos hbc] at h ⊢
        simp only [Option.pure_def, Option.some.injEq, Prod.mk.injEq] at h ⊢
        obtain ⟨h1, h2⟩ := h
        subst h1; subst h2
        exact ⟨r1, ⟨rfl, rfl⟩, hr⟩
      · rw [if_neg hbc] at h ⊢
        cases ht : common_prefix_tail da query (agent.link idBits) pos with
        | none => rw [ht] at h; cases h
        | some stop =>
          rw [ht] at h
          simp only [Option.some_bind] at h ⊢
          by_cases hs : stop.1 = true
          · rw [if_pos hs] at h ⊢
            cases hp : put_result da r2 c2 num (stop.2.1 + (4 * agent.value_id idBits + 1))
                stop.2.2 with
            | none => rw [hp] at h; cases h
            | some r2'' =>
              rw [hp] at h
              simp only [Option.some_bind, Option.pure_def, Option.some.injEq, Prod.mk.injEq] at h
              obtain ⟨h1, h2⟩ := h
              subst h1; subst h2
              obtain ⟨r1', e1, e2⟩ := put_result_same da c1 c2 h12 r0 r1 r2 r2'' num _ _ hr hp
              rw [e1]
              exact ⟨r1', rfl, e2⟩
          · rw [if_neg hs] at h ⊢
            simp only [Option.pure_def, Option.some.injEq, Prod.mk.injEq] at h ⊢
            obtain ⟨h1, h2⟩ := h
            subst h1; subst h2
            exact ⟨r1, ⟨rfl, rfl⟩, hr⟩

theorem common_prefix_search_same (idBits : Nat) (da : DoubleArrayBase) (c1 c2 : Nat)
    (h12 : c1 ≤ c2) (results : List result_pair_type) (agent : DoubleArrayUnit)
    (query : List Nat) (pos : Nat) (n : Nat) (r2 : List result_pair_type)
    (h : common_prefix_search idBits da query pos results c2 agent = some (n, r2)) :
    ∃ r1, common_prefix_search idBits da query pos results c1 agent = some (n, r1) ∧
      SameResults c1 c2 results r1 r2 := by
  have hr : SameResults c1 c2 results results results :=
    ⟨fun _ _ => rfl, fun _ _ => rfl, fun _ _ => rfl⟩
  unfold common_prefix_search at h ⊢
  by_cases hl : (!agent.is_leaf) = true
  · rw [if_pos hl] at h ⊢
    cases hu : common_prefix_units idBits da c2 query agent.index pos results 0 with
    | none => rw [hu] at h; cases h
    | some y =>
      obtain ⟨r2', n', x⟩ := y
      rw [hu] at h
      obtain ⟨r1', e1, e2⟩ := common_prefix_units_same idBits da c1 c2 h12 results query _ pos
        results results 0 r2' n' x hr hu
      rw [e1]
      cases x with
      | none =>
        simp only [Option.some.injEq, Prod.mk.injEq] at h ⊢
        obtain ⟨h1, h2⟩ := h
        subst h1; subst h2
        exact ⟨r1', ⟨rfl, rfl⟩, e2⟩
      | some z =>
        obtain ⟨a, q, p⟩ := z
        simp only at h ⊢
        exact common_prefix_suffix_same idBits da c1 c2 h12 results r1' r2' a q p n' n r2 e2 h
  · rw [if_neg hl] at h ⊢
    exact common_prefix_suffix_same idBits da c1 c2 h12 results results results agent query pos 0
      n r2 hr h

end DoubleArrayBase

end Darts

namespace Darts

namespace DoubleArrayBase

theorem collect_keys_append (lengths : Option (List Nat)) (values : Option (List Int)) :
    ∀ (l1 l2 : List (List Nat)) (i : Nat) (acc : List DoubleArrayKey),
    collect_keys lengths values (l1 ++ l2) i acc =
      match collect_keys lengths values l1 i acc with
      | .error e => .error e
      | .ok acc' => collect_keys lengths values l2 (i + l1.length) acc' := by
  intro l1
  induction l1 with
  | nil => intro l2 i acc; simp [collect_keys]
  | cons key rest ih =>
    intro l2 i acc
    rw [List.cons_append, collect_keys, collect_keys]
    cases make_key lengths key i with
    | error e => rfl
    | ok k =>
      simp only
      have e1 : i + (key :: rest).length = i + 1 + rest.length := by
        simp only [List.length_cons]; omega
      rw [e1]
      split_ifs
      · exact ih _ _ _
      · rfl
      · exact ih _ _ _

/-- A key with a zero byte within its stated length makes the loop of
`build_double_array` fail, whatever the keys before it are. -/
theorem collect_keys_fails (ls : List Nat) (values : Option (List Int)) :
    ∀ (inp : List (List Nat)) (i : Nat) (acc : List DoubleArrayKey) (j : Nat),
    j < inp.length →
    (∃ p, p < ls.getD (i + j) 0 ∧ p < (inp.getD j []).length ∧ (inp.getD j []).getD p 0 = 0) →
    ∃ e, collect_keys (some ls) values inp i acc = .error e := by
  intro inp
  induction inp with
  | nil => intro i acc j hj; simp at hj
  | cons key rest ih =>
    intro i acc j hj ⟨p, hp1, hp2, hp3⟩
    rw [collect_keys]
    cases j with
    | zero =>
      have : make_key (some ls) key i = .error .nullCharacter := by
        unfold make_key DoubleArrayKey.ofLength
        simp only
        rw [if_pos]
        simp only [List.any_eq_true, List.mem_range, beq_iff_eq]
        refine ⟨p, by simpa using hp1, ?_⟩
        simpa [DoubleArrayKey.at_] using hp3
      rw [this]
      exact ⟨_, rfl⟩
    | succ j =>
      cases make_key (some ls) key i with
      | error e => exact ⟨e, rfl⟩
      | ok k =>
        simp only
        have hj' : j < rest.length := by simpa using hj
        have hex : ∃ p, p < ls.getD (i + 1 + j) 0 ∧ p < (rest.getD j []).length ∧
            (rest.getD j []).getD p 0 = 0 := by
          refine ⟨p, ?_, ?_, ?_⟩
          · rw [show i + 1 + j = i + (j + 1) by omega]; exact hp1
          · simpa using hp2
          · simpa using hp3
        split_ifs
        · exact ih _ _ j hj' hex
        · exact ⟨_, rfl⟩
        · exact ih _ _ j hj' hex

theorem store_built_error (self : DoubleArrayBase) (e : DartsError) :
    store_built self (.error e) = (self, .error e) := rfl

theorem store_built_ok (self : DoubleArrayBase) (u : List DoubleArrayUnit) :
    store_built self (.ok u) = (set_vector u, .ok ()) := rfl

theorem build_collected_error (self : DoubleArrayBase) (idBits : Nat) (e : DartsError) :
    build_collected self idBits (.error e) = (self, .error e) := rfl

theorem build_collected_ok (self : DoubleArrayBase) (idBits : Nat) (ks : List DoubleArrayKey) :
    build_collected self idBits (.ok ks) =
      store_built self (DoubleArrayBuilder.build idBits ks) := rfl

theorem build_outcome_error (da : DoubleArrayBase) (e : DartsError) :
    build_outcome (da, .error e) = .error e := rfl

theorem build_outcome_ok (da : DoubleArrayBase) (u : Unit) :
    build_outcome (da, .ok u) = .ok da := rfl

theorem build_double_array_some (self : DoubleArrayBase) (idBits : Nat) (keys : List (List Nat))
    (lengths : Option (List Nat)) (values : Option (List Int)) :
    build_double_array self idBits keys.length (some keys) lengths values =
      build_collected self idBits (collect_keys lengths values keys 0 []) := by
  unfold build_double_array
  have hc : ¬ (keys.length > 0 ∧ (some keys).isNone = true) := by simp
  rw [if_neg hc, Option.getD_some, List.take_length]

theorem build_eq_of_collect_error (idBits : Nat) (keys : List (List Nat))
    (lengths : Option (List Nat)) (values : Option (List Int)) (e : DartsError)
    (h : collect_keys lengths values keys 0 [] = .error e) :
    build idBits keys.length (some keys) lengths values = .error e := by
  unfold build
  rw [build_double_array_some, h, build_collected_error, build_outcome_error]

theorem build_eq_of_build_error (idBits : Nat) (keys : List (List Nat))
    (lengths : Option (List Nat)) (values : Option (List Int)) (ks : List DoubleArrayKey)
    (e : DartsError) (h : collect_keys lengths values keys 0 [] = .ok ks)
    (hb : DoubleArrayBuilder.build idBits ks = .error e) :
    build idBits keys.length (some keys) lengths values = .error e := by
  unfold build
  rw [build_double_array_some, h, build_collected_ok, hb, store_built_error, build_outcome_error]

theorem build_eq_of_build_ok (idBits : Nat) (keys : List (List Nat))
    (lengths : Option (List Nat)) (values : Option (List Int)) (ks : List DoubleArrayKey)
    (u : List DoubleArrayUnit) (h : collect_keys lengths values keys 0 [] = .ok ks)
    (hb : DoubleArrayBuilder.build idBits ks = .ok u) :
    build idBits keys.length (some keys) lengths values = .ok (set_vector u) := by
  unfold build
  rw [build_double_array_some, h, build_collected_ok, hb, store_built_ok, build_outcome_ok]

end DoubleArrayBase

end Darts

namespace Darts

namespace DoubleArrayBuilder

theorem zip_snoc (Z : List (Nat × DoubleArrayKeyRange)) (cur : Nat) (r : DoubleArrayKeyRange) :
    (Z.map Prod.fst ++ [cur]).zip (Z.map Prod.snd ++ [r]) = Z ++ [(cur, r)] := by
  rw [List.zip_append (by simp)]
  congr 1
  induction Z with
  | nil => rfl
  | cons x t ih => simp [ih]

theorem list_labels_spec (c : Nat → Nat) (s e : Nat) (keys0 : List DoubleArrayKey)
    (hc : ∀ i, c i = (keys0.getD i default).get 0)
    (hmono : ∀ i j, s ≤ i → i ≤ j → j < e → c i ≤ c j) (he : e ≤ keys0.length) :
    ∀ (fuel it : Nat) (keys : List DoubleArrayKey) (Z : List (Nat × DoubleArrayKeyRange))
      (cur nb : Nat),
      it + fuel = e → s ≤ it →
      keys.length = keys0.length →
      (∀ i, keys.getD i default =
        if s ≤ i ∧ i < it then (keys0.getD i default).inc else keys0.getD i default) →
      RunsInv c s it Z cur nb →
      ∃ keys' Z' cur' nb',
        list_labels e fuel it keys (Z.map Prod.fst ++ [cur]) (Z.map Prod.snd) nb =
          (keys', Z'.map Prod.fst ++ [cur'], Z'.map Prod.snd, nb') ∧
        keys'.length = keys0.length ∧
        (∀ i, keys'.getD i default =
          if s ≤ i ∧ i < e then (keys0.getD i default).inc else keys0.getD i default) ∧
        RunsInv c s e Z' cur' nb' := by
  intro fuel
  induction fuel with
  | zero =>
    intro it keys Z cur nb hit _ hlen hkeys hinv
    have : it = e := by omega
    subst this
    exact ⟨keys, Z, cur, nb, rfl, hlen, hkeys, hinv⟩
  | succ fuel ih =>
    intro it keys Z cur nb hit hs hlen hkeys hinv
    have hlt : it < e := by omega
    rw [list_labels, if_pos (by omega)]
    have hkey : keys.getD it default = keys0.getD it default := by
      rw [hkeys it, if_neg (by omega)]
    have hlast : (Z.map Prod.fst ++ [cur]).getLastD 0 = cur := List.getLastD_concat _ _ _
    simp only [hkey, hlast, ← hc it]
    have hkeys' : ∀ i, (keys.set it (keys0.getD it default).inc).getD i default =
        if s ≤ i ∧ i < it + 1 then (keys0.getD i default).inc else keys0.getD i default := by
      intro i
      rw [list_getD_set]
      by_cases hi : i = it
      · subst hi
        rw [if_pos ⟨rfl, by omega⟩, if_pos ⟨hs, by omega⟩]
      · rw [if_neg (fun h => hi h.1.symm), hkeys i]
        by_cases h2 : s ≤ i ∧ i < it
        · rw [if_pos h2, if_pos ⟨h2.1, by omega⟩]
        · rw [if_neg h2, if_neg (by omega)]
    have hlen' : (keys.set it (keys0.getD it default).inc).length = keys0.length := by
      rw [List.length_set]; exact hlen
    by_cases hd : c it ≠ cur
    · -- a new run starts at `it`
      rw [if_pos hd, if_pos hd, if_pos hd]
      have hnb : nb < it := by
        apply hinv.lt
        by_contra hcon
        have : it = s := by omega
        have h3 := hinv.le
        have : nb = it := by omega
        exact hd (by rw [hinv.cur_eq, this])
      have hlt_cur : cur < c it := by
        have h1 := hmono nb it hinv.le.1 (by omega) hlt
        rw [← hinv.cur_eq] at h1
        omega
      have e1 : Z.map Prod.fst ++ [cur] ++ [c it]
          = (Z ++ [(cur, (⟨nb, it, 0⟩ : DoubleArrayKeyRange))]).map Prod.fst ++ [c it] := by simp
      have e2 : Z.map Prod.snd ++ [⟨nb, it, 0⟩]
          = (Z ++ [(cur, (⟨nb, it, 0⟩ : DoubleArrayKeyRange))]).map Prod.snd := by simp
      rw [e1, e2]
      apply ih (it + 1) _ _ _ _ (by omega) (by omega) hlen' hkeys'
      refine ⟨?_, ?_, ?_, ?_, ?_, ?_, rfl, ?_, ⟨by omega, by omega⟩, fun _ => by omega⟩
      · intro x hx
        rcases List.mem_append.1 hx with h | h
        · obtain ⟨a1, a2, a3, a4⟩ := hinv.run x h
          exact ⟨a1, a2, by omega, a4⟩
        · rw [List.mem_singleton] at h
          subst h
          exact ⟨hinv.le.1, hnb, Nat.le_refl _, fun i h1 h2 => hinv.open_run i h1 h2⟩
      · intro i h1 h2
        by_cases h3 : i < nb
        · obtain ⟨x, hx, hx2⟩ := hinv.cover i h1 h3
          exact ⟨x, List.mem_append_left _ hx, hx2⟩
        · exact ⟨_, List.mem_append_right _ (List.mem_singleton_self _), by show nb ≤ i; omega, h2⟩
      · rw [List.pairwise_append]
        refine ⟨hinv.ordered, List.pairwise_singleton _ _, ?_⟩
        intro x hx y hy
        rw [List.mem_singleton] at hy
        subst hy
        exact (hinv.run x hx).2.2.1
      · rw [List.map_append, List.pairwise_append]
        refine ⟨hinv.labels, List.pairwise_singleton _ _, ?_⟩
        intro l hl l' hl'
        simp only [List.map_cons, List.map_nil, List.mem_singleton] at hl'
        subst hl'
        obtain ⟨x, hx, rfl⟩ := List.mem_map.1 hl
        exact hinv.below x hx
      · intro x hx
        rcases List.mem_append.1 hx with h | h
        · have := hinv.below x h; omega
        · rw [List.mem_singleton] at h
          subst h
          exact hlt_cur
      · rw [List.map_append, List.sum_append, hinv.sizes]
        simp only [List.map_cons, List.map_nil, List.sum_cons, List.sum_nil,
          DoubleArrayKeyRange.size]
        have := hinv.le
        omega
      · intro i h1 h2
        have : i = it := by omega
        rw [this]
    · -- the open run goes on
      have hd' : c it = cur := by
        by_contra h; exact hd h
      rw [if_neg hd, if_neg hd, if_neg hd]
      apply ih (it + 1) _ _ _ _ (by omega) (by omega) hlen' hkeys'
      refine ⟨hinv.run, hinv.cover, hinv.ordered, hinv.labels, hinv.below, hinv.sizes,
        hinv.cur_eq, ?_, ⟨hinv.le.1, by have := hinv.le.2; omega⟩, fun _ => by
          have := hinv.le.2; omega⟩
      intro i h1 h2
      by_cases h3 : i < it
      · exact hinv.open_run i h1 h3
      · have : i = it := by omega
        rw [this, hd']

theorem runs_of_inv {c : Nat → Nat} {s e : Nat} {Z : List (Nat × DoubleArrayKeyRange)}
    {cur nb : Nat} (h : RunsInv c s e Z cur nb) (hse : s < e) :
    Runs c s e (Z ++ [(cur, ⟨nb, e, 0⟩)]) := by
  have hnb := h.lt hse
  refine ⟨?_, ?_, ?_, ?_, ?_, ?_⟩
  · intro x hx
    rcases List.mem_append.1 hx with h1 | h1
    · obtain ⟨a1, a2, a3, a4⟩ := h.run x h1
      exact ⟨a1, a2, by omega, a4⟩
    · rw [List.mem_singleton] at h1
      subst h1
      exact ⟨h.le.1, hnb, Nat.le_refl _, fun i h1 h2 => h.open_run i h1 h2⟩
  · intro i h1 h2
    by_cases h3 : i < nb
    · obtain ⟨x, hx, hx2⟩ := h.cover i h1 h3
      exact ⟨x, List.mem_append_left _ hx, hx2⟩
    · exact ⟨_, List.mem_append_right _ (List.mem_singleton_self _), by show nb ≤ i; omega, h2⟩
  · rw [List.pairwise_append]
    refine ⟨h.ordered, List.pairwise_singleton _ _, ?_⟩
    intro x hx y hy
    rw [List.mem_singleton] at hy
    subst hy
    exact (h.run x hx).2.2.1
  · rw [List.map_append, List.pairwise_append]
    refine ⟨h.labels, List.pairwise_singleton _ _, ?_⟩
    intro l hl l' hl'
    simp only [List.map_cons, List.map_nil, List.mem_singleton] at hl'
    subst hl'
    obtain ⟨x, hx, rfl⟩ := List.mem_map.1 hl
    exact h.below x hx
  · rw [List.map_append, List.sum_append, h.sizes]
    simp only [List.map_cons, List.map_nil, List.sum_cons, List.sum_nil, DoubleArrayKeyRange.size]
    have := h.le
    omega
  · cases Z with
    | nil =>
      have : nb = s := by
        by_contra hne
        obtain ⟨x, hx, _⟩ := h.cover s (Nat.le_refl _) (by have := h.le; omega)
        cases hx
      simp [h.cur_eq, this]
    | cons x t =>
      simp only [List.cons_append, List.map_cons, List.head?_cons, Option.some.injEq]
      obtain ⟨y, hy, hy1, hy2⟩ := h.cover s (Nat.le_refl _) (by
        have := (h.run x (List.mem_cons_self _ _)); omega)
      rcases List.mem_cons.1 hy with h1 | h1
      · subst h1
        exact ((h.run y hy).2.2.2 s hy1 hy2).symm
      · have := (List.pairwise_cons.1 h.ordered).1 y h1
        have := (h.run x (List.mem_cons_self _ _))
        omega

end DoubleArrayBuilder

end Darts

namespace Darts

theorem walk_nil (units : List DoubleArrayUnit) : walk units [] = 0 := rfl

theorem walk_snoc (units : List DoubleArrayUnit) (p : List Nat) (c : Nat) :
    walk units (p ++ [c]) = base_of units p ^^^ c := by
  unfold base_of
  rw [Nat.xor_assoc]
  unfold walk
  rw [List.foldl_append]
  rfl

theorem dropLast_le (p : List Nat) : p.dropLast <+: p := List.dropLast_prefix p

theorem take_le (l : List Nat) (n : Nat) : l.take n <+: l := List.take_prefix n l

theorem pre_mono {K : List DoubleArrayKey} {p q : List Nat} {i : Nat} (h : Pre K q i)
    (hpq : p <+: q) : Pre K p i := ⟨h.1, hpq.trans h.2⟩

theorem internal_mono {K : List DoubleArrayKey} {p q : List Nat} (h : Internal K q)
    (hpq : p <+: q) : Internal K p := by
  rcases h with h | ⟨i, j, hij, hi, hj⟩
  · subst h
    left
    exact List.prefix_nil.1 hpq
  · right
    exact ⟨i, j, hij, pre_mono hi hpq, pre_mono hj hpq⟩

theorem dropLast_le_of_ne {p q : List Nat} (h : p <+: q) (hne : p ≠ q) : p <+: q.dropLast := by
  obtain ⟨t, rfl⟩ := h
  have ht : t ≠ [] := by
    intro h0; subst h0; simp at hne
  rw [List.dropLast_append_of_ne_nil _ ht]
  exact List.prefix_append _ _

theorem isNode_of_le {K : List DoubleArrayKey} {p q : List Nat} (h : IsNode K q)
    (hpq : p <+: q) : IsNode K p := by
  obtain ⟨⟨i, hi⟩, hint⟩ := h
  refine ⟨⟨i, pre_mono hi hpq⟩, ?_⟩
  by_cases hne : p = q
  · subst hne; exact hint
  · exact internal_mono hint ((dropLast_le p).trans (dropLast_le_of_ne hpq hne))

/-- A proper prefix of a node is an internal node. -/
theorem internal_of_proper {K : List DoubleArrayKey} {p q : List Nat} (h : IsNode K q)
    (hpq : p <+: q) (hne : p ≠ q) : Internal K p :=
  internal_mono h.2 (dropLast_le_of_ne hpq hne)

theorem lex_append_zero {A B : List Nat} (h : List.Lex (· < ·) A B) (hB : ∀ c ∈ B, c ≠ 0) :
    List.Lex (· < ·) (A ++ [0]) (B ++ [0]) := by
  induction h with
  | nil =>
    rename_i b t
    have := hB b (List.mem_cons_self _ _)
    exact List.Lex.rel (by omega)
  | cons h ih =>
    rename_i a l1 l2
    exact List.Lex.cons (ih (fun c hc => hB c (List.mem_cons_of_mem _ hc)))
  | rel h => exact List.Lex.rel h

theorem lex_cancel_left (p : List Nat) {s t : List Nat}
    (h : List.Lex (· < ·) (p ++ s) (p ++ t)) : List.Lex (· < ·) s t := by
  induction p with
  | nil => exact h
  | cons a p ih =>
    rw [List.cons_append, List.cons_append, lex_cons_iff] at h
    rcases h with h | ⟨_, h⟩
    · omega
    · exact ih h

theorem lex_head_le {s t : List Nat} (h : List.Lex (· < ·) s t) : s.getD 0 0 ≤ t.getD 0 0 := by
  cases h with
  | nil => simp
  | cons h => simp
  | rel h => simp; omega

theorem getD_append_length (p s : List Nat) : (p ++ s).getD p.length 0 = s.getD 0 0 := by
  simp only [List.getD_eq_getElem?_getD]
  rw [List.getElem?_append_right (Nat.le_refl _), Nat.sub_self]

section keys

variable {K : List DoubleArrayKey} (hK : KeysOK K)
include hK

omit hK in
theorem getD_mem' {i : Nat} (hi : i < K.length) : K.getD i default ∈ K := by
  rw [List.getD_eq_getElem _ _ hi]
  exact List.getElem_mem hi

theorem ext_length {i : Nat} (hi : i < K.length) :
    (ext_at K i).length = (K.getD i default).length.toNat + 1 := by
  unfold ext_at DoubleArrayKey.ext
  rw [List.length_append, DoubleArrayKey.bytes_length _ (hK.wf _ (getD_mem' hi)).1]
  rfl

theorem ext_lex {i j : Nat} (hij : i < j) (hj : j < K.length) :
    List.Lex (· < ·) (ext_at K i) (ext_at K j) := by
  have h := List.pairwise_iff_getElem.1 hK.sorted i j (by omega) hj hij
  unfold ext_at DoubleArrayKey.ext
  rw [List.getD_eq_getElem _ _ (by omega), List.getD_eq_getElem _ _ hj]
  exact lex_append_zero h (hK.wf _ (List.getElem_mem hj)).1.nonzero

theorem ext_inj {i j : Nat} (hi : i < K.length) (hj : j < K.length)
    (h : ext_at K i = ext_at K j) : i = j := by
  rcases Nat.lt_trichotomy i j with h1 | h1 | h1
  · have := ext_lex hK h1 hj
    rw [h] at this
    exact absurd this (lex_irrefl _)
  · exact h1
  · have := ext_lex hK h1 hi
    rw [h] at this
    exact absurd this (lex_irrefl _)

theorem ext_getD_ne_zero {i d : Nat} (hi : i < K.length) (hd : d < (K.getD i default).length.toNat) :
    (ext_at K i).getD d 0 ≠ 0 := by
  have hw := (hK.wf _ (getD_mem' hi)).1
  have hl := DoubleArrayKey.bytes_length _ hw
  unfold ext_at DoubleArrayKey.ext
  rw [List.getD_append _ _ _ _ (by rw [hl]; exact hd), List.getD_eq_getElem _ _ (by rw [hl]; exact hd)]
  exact hw.nonzero _ (List.getElem_mem _)

theorem ext_getD_last {i : Nat} (hi : i < K.length) :
    (ext_at K i).getD (K.getD i default).length.toNat 0 = 0 := by
  have hw := (hK.wf _ (getD_mem' hi)).1
  have hl := DoubleArrayKey.bytes_length _ hw
  unfold ext_at DoubleArrayKey.ext
  rw [← hl, getD_append_length]
  rfl

theorem ext_byte_lt {i : Nat} (hi : i < K.length) (d : Nat) : (ext_at K i).getD d 0 < 256 := by
  by_cases hd : d < (ext_at K i).length
  · rw [List.getD_eq_getElem _ _ hd]
    have hm : (ext_at K i)[d] ∈ (K.getD i default).bytes ++ [0] := List.getElem_mem hd
    rcases List.mem_append.1 hm with h | h
    · exact hK.byte _ (getD_mem' hi) _ h
    · rw [List.mem_singleton] at h
      rw [h]; decide
  · rw [List.getD_eq_default _ _ (by omega)]
    decide

/-- A prefix that ends in a zero byte is the whole extended key. -/
theorem pre_zero_eq {q : List Nat} {i : Nat} (h : Pre K (q ++ [0]) i) :
    ext_at K i = q ++ [0] := by
  obtain ⟨hi, t, ht⟩ := h
  have hlen := ext_length hK hi
  have h0 : (ext_at K i).getD q.length 0 = 0 := by
    rw [← ht, List.append_assoc, getD_append_length]
    rfl
  have hq : ¬ q.length < (K.getD i default).length.toNat := fun hc =>
    ext_getD_ne_zero hK hi hc h0
  have hl2 : (ext_at K i).length = q.length + 1 + t.length := by
    rw [← ht]; simp; omega
  have : t = [] := by
    apply List.eq_nil_of_length_eq_zero
    omega
  rw [← ht, this, List.append_nil]

theorem pre_zero_unique {q : List Nat} {i j : Nat} (hi : Pre K (q ++ [0]) i)
    (hj : Pre K (q ++ [0]) j) : i = j :=
  ext_inj hK hi.1 hj.1 ((pre_zero_eq hK hi).trans (pre_zero_eq hK hj).symm)

/-- The prefix of an internal node is shorter than the extended keys below it. -/
theorem internal_length_lt {p : List Nat} {i : Nat} (hint : Internal K p) (hp : Pre K p i) :
    p.length < (ext_at K i).length := by
  have hlen := ext_length hK hp.1
  rcases hint with h | ⟨a, b, hab, ha, hb⟩
  · subst h; simp only [List.length_nil]; omega
  · by_contra hge
    have heq : ∀ x, Pre K p x → p = ext_at K x ∨ p.length < (ext_at K x).length := by
      intro x hx
      by_cases h1 : p.length < (ext_at K x).length
      · exact Or.inr h1
      · left
        exact List.IsPrefix.eq_of_length_le hx.2 (by omega)
    have hpi : p = ext_at K i := by
      rcases heq i hp with h | h
      · exact h
      · exact absurd h hge
    have hp0 : p = (K.getD i default).bytes ++ [0] := hpi
    rw [hp0] at ha hb
    have := pre_zero_unique hK ha hb
    omega

/-- Among the keys that start with `p`, the byte after `p` ascends with the
position of the key. -/
theorem ext_mono {p : List Nat} {i j : Nat} (hij : i ≤ j) (hi : Pre K p i) (hj : Pre K p j) :
    (ext_at K i).getD p.length 0 ≤ (ext_at K j).getD p.length 0 := by
  rcases Nat.eq_or_lt_of_le hij with h | h
  · subst h; exact Nat.le_refl _
  · have hl := ext_lex hK h hj.1
    obtain ⟨s, hs⟩ := hi.2
    obtain ⟨t, ht⟩ := hj.2
    rw [← hs, ← ht] at hl ⊢
    rw [getD_append_length, getD_append_length]
    exact lex_head_le (lex_cancel_left p hl)

end keys

theorem take_succ_getD (l : List Nat) (d : Nat) (h : d < l.length) :
    l.take (d + 1) = l.take d ++ [l.getD d 0] := by
  rw [List.take_succ, List.getD_eq_getElem _ _ h, List.getElem?_eq_getElem h]
  rfl

theorem prefix_take_of_length {p l : List Nat} (h : p <+: l) : l.take p.length = p := by
  obtain ⟨t, rfl⟩ := h
  simp

/-- A key starts with `p ++ [c]` when it starts with `p` and its next byte is `c`. -/
theorem pre_snoc_iff {K : List DoubleArrayKey} {p : List Nat} {c i : Nat}
    (hlen : p.length < (ext_at K i).length) :
    Pre K (p ++ [c]) i ↔ (Pre K p i ∧ (ext_at K i).getD p.length 0 = c) := by
  constructor
  · intro h
    refine ⟨pre_mono h (List.prefix_append _ _), ?_⟩
    obtain ⟨t, ht⟩ := h.2
    rw [← ht, List.append_assoc, getD_append_length]
    rfl
  · rintro ⟨h1, h2⟩
    refine ⟨h1.1, ?_⟩
    have := take_succ_getD (ext_at K i) p.length hlen
    rw [prefix_take_of_length h1.2, h2] at this
    rw [← this]
    exact take_le _ _

end Darts

namespace Darts

theorem unit_eq_getD (b : DoubleArrayBuilder) (j : Nat) : b.unit j = b.units.getD j default := rfl

/-- The walk to `q` only reads the offsets of the nodes of the proper prefixes
of `q`. -/
theorem walk_congr (U U' : List DoubleArrayUnit) (q : List Nat)
    (h : ∀ p, p <+: q → p ≠ q →
      (U'.getD (walk U p) default).offset = (U.getD (walk U p) default).offset) :
    walk U' q = walk U q := by
  induction q using List.reverseRecOn with
  | nil => rw [walk_nil, walk_nil]
  | append_singleton q c ih =>
    have hne1 : ∀ p, p <+: q → p ≠ q ++ [c] := by
      intro p hp hc
      have := hp.length_le
      rw [hc, List.length_append] at this
      simp at this
    have hne2 : q ≠ q ++ [c] := by
      intro hc
      have := congrArg List.length hc
      rw [List.length_append] at this
      simp at this
    have hq : walk U' q = walk U q := ih (fun p hp _ =>
      h p (hp.trans (List.prefix_append _ _)) (hne1 p hp))
    have hqq := h q (List.prefix_append _ _) hne2
    rw [walk_snoc, walk_snoc]
    unfold base_of
    rw [hq, hqq]

theorem base_congr (U U' : List DoubleArrayUnit) (q : List Nat)
    (h : ∀ p, p <+: q →
      (U'.getD (walk U p) default).offset = (U.getD (walk U p) default).offset) :
    base_of U' q = base_of U q := by
  unfold base_of
  rw [walk_congr U U' q (fun p hp _ => h p hp), h q (List.prefix_refl _)]

end Darts

namespace Darts

theorem pairwise_mem_cases {α : Type} {R : α → α → Prop} {l : List α} (h : l.Pairwise R)
    {a b : α} (ha : a ∈ l) (hb : b ∈ l) : a = b ∨ R a b ∨ R b a := by
  induction l with
  | nil => cases ha
  | cons x t ih =>
    rw [List.pairwise_cons] at h
    rcases List.mem_cons.1 ha with ha | ha <;> rcases List.mem_cons.1 hb with hb | hb
    · left; rw [ha, hb]
    · right; left; rw [ha]; exact h.1 b hb
    · right; right; rw [hb]; exact h.1 a ha
    · exact ih h.2 ha hb

theorem range_path_congr (K : List DoubleArrayKey) (b b' : DoubleArrayBuilder)
    (r : DoubleArrayKeyRange)
    (h : (b'.keys.getD r.begin_ default).pos = (b.keys.getD r.begin_ default).pos) :
    range_path K b' r = range_path K b r := by
  unfold range_path
  rw [h]

section inv

variable {K : List DoubleArrayKey} {b : DoubleArrayBuilder} {stack : List DoubleArrayKeyRange}

theorem RangeOK.pre_begin {r : DoubleArrayKeyRange} (h : RangeOK K b r) :
    Pre K (range_path K b r) r.begin_ :=
  (h.exact r.begin_).1 ⟨Nat.le_refl _, h.lt⟩

/-- Two ranges of the stack with a common key are the same range. -/
theorem TrieInv.range_eq_of_mem (h : TrieInv K b stack) {r r' : DoubleArrayKeyRange}
    (hr : r ∈ stack) (hr' : r' ∈ stack) {i : Nat} (hi : r.begin_ ≤ i ∧ i < r.end_)
    (hi' : r'.begin_ ≤ i ∧ i < r'.end_) : r = r' := by
  rcases pairwise_mem_cases h.sorted hr hr' with h1 | h1 | h1
  · exact h1
  · omega
  · omega

/-- The prefixes of the ranges of the stack are incomparable. -/
theorem TrieInv.path_eq (h : TrieInv K b stack) {r r' : DoubleArrayKeyRange}
    (hr : r ∈ stack) (hr' : r' ∈ stack)
    (hp : range_path K b r <+: range_path K b r') : r = r' := by
  have h1 := (h.range r' hr').pre_begin
  have h2 := ((h.range r hr).exact r'.begin_).2 (pre_mono h1 hp)
  exact h.range_eq_of_mem hr hr' h2 ⟨Nat.le_refl _, (h.range r' hr').lt⟩

theorem TrieInv.isNode_of_created (h : TrieInv K b stack) {q : List Nat}
    (hq : Done K b stack q ∨ Pending K b stack q) : IsNode K q := by
  rcases hq with hq | ⟨r, hr, rfl⟩
  · exact hq.1
  · exact (h.range r hr).node

/-- The proper prefixes of a node that exists are processed internal nodes. -/
theorem TrieInv.done_of_proper (h : TrieInv K b stack) {p q : List Nat}
    (hq : Done K b stack q ∨ Pending K b stack q) (hpq : p <+: q) (hne : p ≠ q) :
    Done K b stack p ∧ Internal K p := by
  have hnode := h.isNode_of_created hq
  refine ⟨⟨isNode_of_le hnode hpq, ?_⟩, internal_of_proper hnode hpq hne⟩
  intro r hr hrp
  rcases hq with hq | ⟨r', hr', rfl⟩
  · exact hq.2 r hr (hrp.trans hpq)
  · have := h.path_eq hr hr' (hrp.trans hpq)
    subst this
    exact hne (List.IsPrefix.eq_of_length_le hpq hrp.length_le)

theorem not_done_of_pending {q : List Nat}
    (hq : Pending K b stack q) : ¬ Done K b stack q := by
  obtain ⟨r, hr, rfl⟩ := hq
  intro hd
  exact hd.2 r hr (List.prefix_refl _)

/-- A node is processed or waits on the stack when its parent is processed. -/
theorem done_or_not {q : List Nat} (hq : IsNode K q) :
    Done K b stack q ∨ ∃ r ∈ stack, range_path K b r <+: q := by
  by_cases h : ∃ r ∈ stack, range_path K b r <+: q
  · exact Or.inr h
  · left
    push_neg at h
    exact ⟨hq, h⟩

end inv

end Darts

namespace Darts

theorem build_trie_step_leaf (b : DoubleArrayBuilder) (r : DoubleArrayKeyRange)
    (stack : List DoubleArrayKeyRange) (h : r.index ≠ 0 ∧ r.size = 1) :
    b.build_trie_step r stack = .ok (leaf_state b r, stack) := by
  unfold DoubleArrayBuilder.build_trie_step
  rw [if_pos h]
  simp only [leaf_state, DoubleArrayBuilder.set_unit, List.length_set]
  rfl

section leaf

variable {K : List DoubleArrayKey} {b : DoubleArrayBuilder} {r : DoubleArrayKeyRange}
  {rest : List DoubleArrayKeyRange}

theorem leaf_state_unit (b : DoubleArrayBuilder) (r : DoubleArrayKeyRange) (j : Nat) :
    (leaf_state b r).unit j =
      if r.index = j ∧ r.index < b.units.length then (b.unit r.index).set_is_leaf else b.unit j := by
  unfold DoubleArrayBuilder.unit leaf_state
  exact list_getD_set _ _ _ _ _

theorem leaf_state_offset (b : DoubleArrayBuilder) (r : DoubleArrayKeyRange) (j : Nat) :
    ((leaf_state b r).unit j).offset = (b.unit j).offset := by
  rw [leaf_state_unit]
  split
  · rename_i hc
    rw [DoubleArrayUnit.offset_set_is_leaf, hc.1]
  · rfl

theorem leaf_state_label (b : DoubleArrayBuilder) (r : DoubleArrayKeyRange) (j : Nat) :
    ((leaf_state b r).unit j).label = (b.unit j).label := by
  rw [leaf_state_unit]
  split
  · rename_i hc
    rw [DoubleArrayUnit.label_set_is_leaf, hc.1]
  · rfl

theorem leaf_state_is_end (b : DoubleArrayBuilder) (r : DoubleArrayKeyRange) (j : Nat) :
    ((leaf_state b r).unit j).is_end = (b.unit j).is_end := by
  rw [leaf_state_unit]
  split
  · rename_i hc
    rw [DoubleArrayUnit.is_end_set_is_leaf, hc.1]
  · rfl

theorem leaf_state_walk (b : DoubleArrayBuilder) (r : DoubleArrayKeyRange) (q : List Nat) :
    walk (leaf_state b r).units q = walk b.units q :=
  walk_congr _ _ q (fun p _ _ => leaf_state_offset b r _)

theorem leaf_state_base (b : DoubleArrayBuilder) (r : DoubleArrayKeyRange) (q : List Nat) :
    base_of (leaf_state b r).units q = base_of b.units q :=
  base_congr _ _ q (fun p _ => leaf_state_offset b r _)

theorem leaf_state_extra (b : DoubleArrayBuilder) (r : DoubleArrayKeyRange) (j : Nat) :
    (leaf_state b r).extra j = b.extra j := rfl

theorem leaf_state_first_live (b : DoubleArrayBuilder) (r : DoubleArrayKeyRange) :
    (leaf_state b r).first_live = b.first_live := rfl

theorem leaf_state_num (b : DoubleArrayBuilder) (r : DoubleArrayKeyRange) :
    (leaf_state b r).num_of_units = b.num_of_units := by
  show (b.units.set _ _).length = b.units.length
  rw [List.length_set]

theorem leaf_state_fixed (b : DoubleArrayBuilder) (r : DoubleArrayKeyRange) (j : Nat) :
    (leaf_state b r).Fixed j ↔ b.Fixed j := by
  unfold DoubleArrayBuilder.Fixed
  rw [leaf_state_num, leaf_state_first_live, leaf_state_extra]

theorem leaf_state_key (b : DoubleArrayBuilder) (r : DoubleArrayKeyRange) (i : Nat) :
    (leaf_state b r).keys.getD i default =
      if r.begin_ = i ∧ r.begin_ < b.keys.length
      then { (b.keys.getD r.begin_ default).dec with index := r.index }
      else b.keys.getD i default :=
  list_getD_set _ _ _ _ _

theorem leaf_state_allocInv (h : b.AllocInv) (hf : b.Fixed r.index) :
    (leaf_state b r).AllocInv := by
  have h1 := DoubleArrayBuilder.allocInv_set_unit b h r.index (b.unit r.index).set_is_leaf
    (DoubleArrayUnit.wf_set_is_leaf _ (h.wf _)) (fun hc => DoubleArrayBuilder.not_fixed_of_free hc hf)
  exact DoubleArrayBuilder.allocInv_of_eq h1 rfl rfl rfl

end leaf

end Darts

namespace Darts

theorem prefix_comparable {p q l : List Nat} (hp : p <+: l) (hq : q <+: l) : p <+: q ∨ q <+: p := by
  rcases Nat.le_total p.length q.length with h | h
  · exact Or.inl (List.prefix_of_prefix_length_le hp hq h)
  · exact Or.inr (List.prefix_of_prefix_length_le hq hp h)

theorem leaf_step {K : List DoubleArrayKey} {b : DoubleArrayBuilder} {r : DoubleArrayKeyRange}
    {rest : List DoubleArrayKeyRange} (h : TrieInv K b (r :: rest))
    (hl : r.index ≠ 0 ∧ r.size = 1) :
    TrieInv K (leaf_state b r) rest ∧
      ∀ q, Done K (leaf_state b r) rest q ↔ (Done K b (r :: rest) q ∨ q = range_path K b r) := by
  have hr : RangeOK K b r := h.range r (List.mem_cons_self _ _)
  have hrm : r ∈ r :: rest := List.mem_cons_self _ _
  have hsz : r.end_ = r.begin_ + 1 := by
    have := hl.2
    unfold DoubleArrayKeyRange.size at this
    have := hr.lt
    omega
  have hp_ne : range_path K b r ≠ [] := by
    intro hc
    have := hr.index
    rw [hc, walk_nil] at this
    exact hl.1 this
  have hpos : 1 ≤ (b.keys.getD r.begin_ default).pos := by
    rw [← hr.len]
    exact List.length_pos.2 hp_ne
  have hnint : ¬ Internal K (range_path K b r) := by
    rintro (hc | ⟨i, j, hij, hi, hj⟩)
    · exact hp_ne hc
    · have h1 := (hr.exact i).2 hi
      have h2 := (hr.exact j).2 hj
      omega
  have hbk : r.begin_ < b.keys.length := by
    rw [h.keys.length]
    have := hr.lt
    have := hr.le
    omega
  obtain ⟨hfirst, hsorted⟩ := List.pairwise_cons.1 h.sorted
  have hkey_other : ∀ i, i ≠ r.begin_ →
      (leaf_state b r).keys.getD i default = b.keys.getD i default := by
    intro i hi
    rw [leaf_state_key, if_neg (fun hc => hi hc.1.symm)]
  have hkey_begin : (leaf_state b r).keys.getD r.begin_ default =
      { (b.keys.getD r.begin_ default).dec with index := r.index } := by
    rw [leaf_state_key, if_pos ⟨rfl, hbk⟩]
  have hrest_ne : ∀ r' ∈ rest, ∀ i, r'.begin_ ≤ i → i ≠ r.begin_ := by
    intro r' hr' i hi
    have := hfirst r' hr'
    have := hr.lt
    omega
  have hpath : ∀ r' ∈ rest, range_path K (leaf_state b r) r' = range_path K b r' := by
    intro r' hr'
    apply range_path_congr
    rw [hkey_other _ (hrest_ne r' hr' _ (Nat.le_refl _))]
  have hp_not : ∀ r' ∈ rest, ¬ range_path K b r' <+: range_path K b r := by
    intro r' hr' hc
    have := h.path_eq (List.mem_cons_of_mem _ hr') hrm hc
    subst this
    have := hfirst _ hr'
    have := hr.lt
    omega
  have hdone_iff : ∀ q, Done K (leaf_state b r) rest q ↔
      (Done K b (r :: rest) q ∨ q = range_path K b r) := by
    intro q
    constructor
    · rintro ⟨hn, hq⟩
      by_cases hpq : range_path K b r <+: q
      · right
        by_contra hne
        exact hnint (internal_of_proper hn hpq (fun hc => hne hc.symm))
      · left
        refine ⟨hn, ?_⟩
        intro r' hr'
        rcases List.mem_cons.1 hr' with h1 | h1
        · rw [h1]; exact hpq
        · rw [← hpath r' h1]; exact hq r' h1
    · rintro (⟨hn, hq⟩ | hq)
      · exact ⟨hn, fun r' hr' => by rw [hpath r' hr']; exact hq r' (List.mem_cons_of_mem _ hr')⟩
      · rw [hq]
        exact ⟨hr.node, fun r' hr' => by rw [hpath r' hr']; exact hp_not r' hr'⟩
  have hpend_iff : ∀ q, Pending K (leaf_state b r) rest q ↔ ∃ r' ∈ rest, range_path K b r' = q := by
    intro q
    constructor
    · rintro ⟨r', hr', hq⟩
      exact ⟨r', hr', by rw [← hpath r' hr']; exact hq⟩
    · rintro ⟨r', hr', hq⟩
      exact ⟨r', hr', by rw [hpath r' hr']; exact hq⟩
  have hcreated : ∀ q, (Done K (leaf_state b r) rest q ∨ Pending K (leaf_state b r) rest q) →
      (Done K b (r :: rest) q ∨ Pending K b (r :: rest) q) := by
    intro q hq
    rcases hq with hq | hq
    · rcases (hdone_iff q).1 hq with h1 | h1
      · exact Or.inl h1
      · exact Or.inr ⟨r, hrm, h1.symm⟩
    · obtain ⟨r', hr', hq'⟩ := (hpend_iff q).1 hq
      exact Or.inr ⟨r', List.mem_cons_of_mem _ hr', hq'⟩
  have hcreated' : ∀ q, (Done K b (r :: rest) q ∨ Pending K b (r :: rest) q) →
      (Done K (leaf_state b r) rest q ∨ Pending K (leaf_state b r) rest q) := by
    intro q hq
    rcases hq with hq | ⟨r', hr', hq⟩
    · exact Or.inl ((hdone_iff q).2 (Or.inl hq))
    · rcases List.mem_cons.1 hr' with h1 | h1
      · subst h1
        exact Or.inl ((hdone_iff q).2 (Or.inr hq.symm))
      · exact Or.inr ((hpend_iff q).2 ⟨r', h1, hq⟩)
  have hpend_p : Pending K b (r :: rest) (range_path K b r) := ⟨r, hrm, rfl⟩
  have hwalk_ne : ∀ q, Done K b (r :: rest) q → walk b.units q ≠ r.index := by
    intro q hq hc
    rw [hr.index] at hc
    have := h.inj q _ (Or.inl hq) (Or.inr hpend_p) hc
    subst this
    exact not_done_of_pending hpend_p hq
  refine ⟨⟨leaf_state_allocInv h.alloc hr.fixed, ?_, ?_, hsorted, ?_, ?_, ?_, ?_, ?_, ?_, ?_, ?_, ?_, ?_⟩,
    hdone_iff⟩
  · -- covered
    intro u h1 h2 h3
    rw [leaf_state_first_live] at h1
    rw [leaf_state_num] at h2
    rw [leaf_state_extra] at h3
    obtain ⟨j, hj, hb⟩ := h.covered u h1 h2 h3
    exact ⟨j, (leaf_state_fixed b r j).2 hj, by rw [leaf_state_label]; exact hb⟩
  · -- keys
    refine ⟨?_, ?_⟩
    · show (b.keys.set _ _).length = K.length
      rw [List.length_set]; exact h.keys.length
    · intro i hi
      by_cases hib : i = r.begin_
      · subst hib
        rw [hkey_begin]
        obtain ⟨a1, a2, a3⟩ := h.keys.same _ hi
        refine ⟨a1, a2, ?_⟩
        simp only [DoubleArrayKey.dec]
        rw [← a3]
        push_cast [hpos]
        omega
      · rw [hkey_other i hib]
        exact h.keys.same i hi
  · -- range
    intro r' hr'
    have ho := h.range r' (List.mem_cons_of_mem _ hr')
    have hne : r'.index ≠ r.index := by
      intro hc
      rw [ho.index, hr.index] at hc
      have := h.inj _ _ (Or.inr ⟨r', List.mem_cons_of_mem _ hr', rfl⟩) (Or.inr hpend_p) hc
      exact hp_not r' hr' (by rw [this])
    have hu : (leaf_state b r).unit r'.index = b.unit r'.index := by
      rw [leaf_state_unit, if_neg (fun hc => hne hc.1.symm)]
    refine ⟨ho.lt, ho.le, ?_, ?_, ?_, ?_, ?_, ?_, ?_, ?_, ?_⟩
    · intro i h1 h2
      rw [hkey_other i (hrest_ne r' hr' i h1), hkey_other _ (hrest_ne r' hr' _ (Nat.le_refl _))]
      exact ho.depth i h1 h2
    · intro i
      rw [hpath r' hr']
      exact ho.exact i
    · rw [hpath r' hr', hkey_other _ (hrest_ne r' hr' _ (Nat.le_refl _))]
      exact ho.len
    · rw [hpath r' hr']; exact ho.node
    · rw [hpath r' hr', leaf_state_walk]; exact ho.index
    · rw [leaf_state_fixed]; exact ho.fixed
    · rw [hu]; exact ho.is_leaf
    · rw [hu]; exact ho.is_end
    · rw [hu, hpath r' hr']; exact ho.label
  · -- done
    intro q hq
    rcases (hdone_iff q).1 hq with hq' | hq'
    · have hn := h.done q hq'
      have hu : (leaf_state b r).unit (walk b.units q) = b.unit (walk b.units q) := by
        rw [leaf_state_unit, if_neg (fun hc => hwalk_ne q hq' hc.1.symm)]
      refine ⟨?_, ?_, ?_, ?_⟩
      · rw [leaf_state_walk, leaf_state_fixed]; exact hn.fixed
      · rw [leaf_state_walk, hu]; exact hn.label
      · intro hint
        rw [leaf_state_walk, leaf_state_base, hu, leaf_state_num, leaf_state_first_live,
          leaf_state_extra]
        exact hn.internal hint
      · intro hint
        rw [leaf_state_walk, hu]
        obtain ⟨a1, i, a2, a3, a4⟩ := hn.leaf hint
        refine ⟨a1, i, a2, ?_⟩
        have hib : i ≠ r.begin_ := by
          intro hc
          subst hc
          rcases prefix_comparable a2.2 hr.pre_begin.2 with h1 | h1
          · by_cases he : q = range_path K b r
            · rw [he] at hq'
              exact not_done_of_pending hpend_p hq'
            · exact hint (internal_of_proper hr.node h1 he)
          · by_cases he : q = range_path K b r
            · rw [he] at hq'
              exact not_done_of_pending hpend_p hq'
            · exact hnint (internal_of_proper hq'.1 h1 (fun hc => he hc.symm))
        rw [hkey_other i hib]
        exact ⟨a3, a4⟩
    · subst hq'
      have hw : walk (leaf_state b r).units (range_path K b r) = r.index := by
        rw [leaf_state_walk, ← hr.index]
      have hu : (leaf_state b r).unit r.index = (b.unit r.index).set_is_leaf := by
        rw [leaf_state_unit, if_pos ⟨rfl, hr.fixed.1⟩]
      refine ⟨?_, ?_, fun hint => absurd hint hnint, fun _ => ?_⟩
      · rw [hw, leaf_state_fixed]; exact hr.fixed
      · rw [hw, hu, DoubleArrayUnit.label_set_is_leaf]; exact hr.label
      · rw [hw, hu]
        refine ⟨DoubleArrayUnit.is_leaf_set_is_leaf _, r.begin_, hr.pre_begin, ?_, ?_⟩
        · rw [hkey_begin]
        · rw [hkey_begin, hr.len]
          simp only [DoubleArrayKey.dec]
          omega
  · -- inj
    intro p q hp hq hpq
    rw [leaf_state_walk, leaf_state_walk] at hpq
    exact h.inj p q (hcreated p hp) (hcreated q hq) hpq
  · -- base_inj
    intro p q hp hip hq hiq hpq
    rw [leaf_state_base, leaf_state_base] at hpq
    have hp' : Done K b (r :: rest) p := by
      rcases (hdone_iff p).1 hp with h1 | h1
      · exact h1
      · rw [h1] at hip; exact absurd hip hnint
    have hq' : Done K b (r :: rest) q := by
      rcases (hdone_iff q).1 hq with h1 | h1
      · exact h1
      · rw [h1] at hiq; exact absurd hiq hnint
    exact h.base_inj p q hp' hip hq' hiq hpq
  · -- owner
    intro p hp hip j hj hjb
    rw [leaf_state_fixed] at hj
    rw [leaf_state_label, leaf_state_base] at hjb
    have hp' : Done K b (r :: rest) p := by
      rcases (hdone_iff p).1 hp with h1 | h1
      · exact h1
      · rw [h1] at hip; exact absurd hip hnint
    obtain ⟨c, hc, hw⟩ := h.owner p hp' hip j hj hjb
    exact ⟨c, hcreated' _ hc, by rw [leaf_state_walk]; exact hw⟩
  · -- live_labels
    intro j hj
    rw [leaf_state_fixed] at hj
    rw [leaf_state_first_live, leaf_state_label, leaf_state_extra]
    exact h.live_labels j hj
  · -- leaf_owner
    intro j hj hleaf
    rw [leaf_state_fixed] at hj
    by_cases hjr : j = r.index
    · refine ⟨range_path K b r, (hdone_iff _).2 (Or.inr rfl), hnint, ?_⟩
      rw [leaf_state_walk, hjr, ← hr.index]
    · rw [leaf_state_unit, if_neg (fun hc => hjr hc.1.symm)] at hleaf
      obtain ⟨q, hq, hqi, hw⟩ := h.leaf_owner j hj hleaf
      exact ⟨q, (hdone_iff q).2 (Or.inl hq), hqi, by rw [leaf_state_walk]; exact hw⟩
  · -- one
    obtain ⟨h1, h2, h3⟩ := h.one
    have hne : (1 : Nat) ≠ r.index := by
      intro hc
      exact h3 _ (Or.inr hpend_p) (by rw [← hr.index, ← hc])
    refine ⟨(leaf_state_fixed b r 1).2 h1, ?_, ?_⟩
    · rw [leaf_state_unit, if_neg (fun hc => hne hc.1.symm)]
      exact h2
    · intro q hq
      rw [leaf_state_walk]
      exact h3 q (hcreated q hq)
  · -- count
    have := h.count
    simp only [List.map_cons, List.sum_cons] at this
    show (b.progress ++ [_]).length + _ = _
    rw [List.length_append, List.length_singleton]
    omega
  · -- progress
    intro m hm
    have hlen : (leaf_state b r).progress = b.progress ++ [(b.progress.length + 1, b.keys.length)] :=
      rfl
    rw [hlen] at hm ⊢
    rw [List.length_append, List.length_singleton] at hm
    by_cases hm2 : m < b.progress.length
    · rw [List.getD_append _ _ _ _ hm2]
      exact h.progress m hm2
    · have : m = b.progress.length := by omega
      subst this
      rw [List.getD_append_right _ _ _ _ (Nat.le_refl _), Nat.sub_self, h.keys.length]
      rfl

end Darts

namespace Darts

namespace UnitChanged

variable {i : Nat} {b b2 : DoubleArrayBuilder}

theorem extra (h : UnitChanged i b b2) (j : Nat) : b2.extra j = b.extra j :=
  DoubleArrayBuilder.extra_congr h.extras j

theorem num (h : UnitChanged i b b2) : b2.num_of_units = b.num_of_units := h.length

theorem first_live (h : UnitChanged i b b2) : b2.first_live = b.first_live := by
  unfold DoubleArrayBuilder.first_live DoubleArrayBuilder.num_of_blocks
  rw [h.extras]

theorem free (h : UnitChanged i b b2) (j : Nat) : b2.Free j ↔ b.Free j := by
  unfold DoubleArrayBuilder.Free
  rw [h.first_live, h.num, h.extra]

theorem fixed (h : UnitChanged i b b2) (j : Nat) : b2.Fixed j ↔ b.Fixed j := by
  unfold DoubleArrayBuilder.Fixed
  rw [h.first_live, h.num, h.extra]

theorem label_eq (h : UnitChanged i b b2) (j : Nat) : (b2.unit j).label = (b.unit j).label := by
  by_cases hj : j = i
  · rw [hj]; exact h.label
  · rw [h.unit_ne j hj]

theorem allocInv (h : UnitChanged i b b2) (hinv : b.AllocInv) (hi : b.Fixed i) : b2.AllocInv := by
  have f := h.free
  refine ⟨?_, ?_, ?_, ?_, ?_, ?_, ?_⟩
  · rw [h.length, h.extras]; exact hinv.size_eq
  · intro j h1 h2
    rw [DoubleArrayBuilder.live_congr h.extras]
    rw [h.first_live] at h1
    rw [h.num] at h2
    exact hinv.live j h1 h2
  · intro j
    by_cases hj : j = i
    · rw [hj]; exact h.wf
    · rw [h.unit_ne j hj]; exact hinv.wf j
  · intro j hj
    have hj' := (f j).1 hj
    have hne : j ≠ i := by
      intro hc
      rw [hc] at hj'
      exact DoubleArrayBuilder.not_fixed_of_free hj' hi
    rw [h.unit_ne j hne]
    exact hinv.free_zero j hj'
  · intro x hx
    rw [h.extra]
    exact isSucc_congr (fun j => (f j).symm) (hinv.succ x ((f x).1 hx))
  · intro x hx
    rw [h.extra]
    exact isPred_congr (fun j => (f j).symm) (hinv.pred x ((f x).1 hx))
  · rw [h.unfixed_index, h.num]
    exact isHead_congr (fun j => (f j).symm) hinv.head

theorem usedCovered (h : UnitChanged i b b2) (hc : b.UsedCovered) : b2.UsedCovered := by
  intro u h1 h2 h3
  rw [h.first_live] at h1
  rw [h.num] at h2
  rw [h.extra] at h3
  obtain ⟨j, hj, hb⟩ := hc u h1 h2 h3
  exact ⟨j, (h.fixed j).2 hj, by rw [h.label_eq]; exact hb⟩

theorem basesUsed {IsBase : Nat → Prop} (h : UnitChanged i b b2)
    (hb : DoubleArrayBuilder.BasesUsed IsBase b) : DoubleArrayBuilder.BasesUsed IsBase b2 := by
  intro u hu
  obtain ⟨h1, h2⟩ := hb u hu
  rw [h.num, h.first_live, h.extra]
  exact ⟨h1, h2⟩

end UnitChanged

theorem step_base_keys (b : DoubleArrayBuilder) (r : DoubleArrayKeyRange) :
    (step_base b r).keys = b.keys := by
  unfold step_base
  split <;> simp

theorem step_base_unit (b : DoubleArrayBuilder) (r : DoubleArrayKeyRange) (j : Nat) (hj : j ≠ r.index) :
    (step_base b r).unit j = b.unit j := by
  unfold step_base
  split
  · rw [DoubleArrayBuilder.unit_set_unit, if_neg (fun hc => hj hc.1.symm)]
  · rfl

theorem step_base_self (b : DoubleArrayBuilder) (r : DoubleArrayKeyRange)
    (hi : r.index < b.num_of_units) :
    (step_base b r).unit r.index =
      if (b.keys.getD r.begin_ default).get 0 = 0 then (b.unit r.index).set_is_end
      else b.unit r.index := by
  unfold step_base
  split
  · rw [DoubleArrayBuilder.unit_set_unit, if_pos ⟨rfl, hi⟩]
  · rfl

theorem step_linked_keys (b : DoubleArrayBuilder) (r : DoubleArrayKeyRange)
    (keys : List DoubleArrayKey) (u : DoubleArrayUnit) : (step_linked b r keys u).keys = keys := by
  unfold step_linked
  simp

theorem step_linked_changed (b : DoubleArrayBuilder) (r : DoubleArrayKeyRange)
    (keys : List DoubleArrayKey) (u : DoubleArrayUnit) (hi : r.index < b.num_of_units)
    (hu : u.wf) (hl : u.label = (b.unit r.index).label) :
    UnitChanged r.index b (step_linked b r keys u) ∧ (step_linked b r keys u).unit r.index = u := by
  have hlen : (step_base b r).units.length = b.units.length := by
    unfold step_base
    split
    · simp
    · rfl
  have hself : (step_linked b r keys u).unit r.index = u := by
    have hlt : r.index < (step_base b r).units.length := by rw [hlen]; exact hi
    unfold step_linked
    rw [DoubleArrayBuilder.unit_set_unit, if_pos ⟨rfl, hlt⟩]
  refine ⟨⟨?_, ?_, ?_, ?_, ?_, ?_, ?_⟩, hself⟩
  · unfold step_linked step_base
    split <;> simp
  · unfold step_linked step_base
    split <;> simp
  · unfold step_linked step_base
    split <;> simp
  · unfold step_linked
    rw [DoubleArrayBuilder.units_length_set_unit]
    exact hlen
  · intro j hj
    unfold step_linked
    rw [DoubleArrayBuilder.unit_set_unit, if_neg (fun hc => hj hc.1.symm)]
    exact step_base_unit b r j hj
  · rw [hself]; exact hl
  · rw [hself]; exact hu

theorem build_trie_step_eq (b : DoubleArrayBuilder) (r : DoubleArrayKeyRange)
    (stack : List DoubleArrayKeyRange) (hnl : ¬ (r.index ≠ 0 ∧ r.size = 1)) :
    b.build_trie_step r stack =
      Except.bind (DoubleArrayBuilder.find_offset_index
        { step_base b r with keys := (DoubleArrayBuilder.list_labels r.end_ (r.end_ - r.begin_)
          r.begin_ (step_base b r).keys [(b.keys.getD r.begin_ default).get 0] [] r.begin_).1 }
        r.index (DoubleArrayBuilder.list_labels r.end_ (r.end_ - r.begin_)
          r.begin_ (step_base b r).keys [(b.keys.getD r.begin_ default).get 0] [] r.begin_).2.1)
      (fun o => Except.bind (((step_base b r).unit r.index).set_offset (r.index ^^^ o))
        (fun u => Except.bind (DoubleArrayBuilder.reserve_children o
          ((DoubleArrayBuilder.list_labels r.end_ (r.end_ - r.begin_)
              r.begin_ (step_base b r).keys [(b.keys.getD r.begin_ default).get 0] [] r.begin_).2.1.zip
            ((DoubleArrayBuilder.list_labels r.end_ (r.end_ - r.begin_)
              r.begin_ (step_base b r).keys [(b.keys.getD r.begin_ default).get 0] [] r.begin_).2.2.1
              ++ [⟨(DoubleArrayBuilder.list_labels r.end_ (r.end_ - r.begin_)
              r.begin_ (step_base b r).keys [(b.keys.getD r.begin_ default).get 0] [] r.begin_).2.2.2,
                r.end_, 0⟩])).reverse
          (step_linked b r (DoubleArrayBuilder.list_labels r.end_ (r.end_ - r.begin_)
              r.begin_ (step_base b r).keys [(b.keys.getD r.begin_ default).get 0] [] r.begin_).1 u)
          stack)
          (fun res => Except.ok (mark_used res.1 o, res.2)))) := by
  unfold DoubleArrayBuilder.build_trie_step
  rw [if_neg hnl]
  rfl

theorem build_trie_step_internal (b : DoubleArrayBuilder) (r : DoubleArrayKeyRange)
    (stack : List DoubleArrayKeyRange) (hnl : ¬ (r.index ≠ 0 ∧ r.size = 1))
    (keys : List DoubleArrayKey) (labels : List Nat) (ranges : List DoubleArrayKeyRange)
    (nb o : Nat) (u : DoubleArrayUnit) (b3 : DoubleArrayBuilder)
    (stack3 : List DoubleArrayKeyRange)
    (hlist : DoubleArrayBuilder.list_labels r.end_ (r.end_ - r.begin_) r.begin_ (step_base b r).keys
      [(b.keys.getD r.begin_ default).get 0] [] r.begin_ = (keys, labels, ranges, nb))
    (hfind : DoubleArrayBuilder.find_offset_index { step_base b r with keys := keys } r.index labels
      = .ok o)
    (hset : ((step_base b r).unit r.index).set_offset (r.index ^^^ o) = .ok u)
    (hres : DoubleArrayBuilder.reserve_children o (labels.zip (ranges ++ [⟨nb, r.end_, 0⟩])).reverse
      (step_linked b r keys u) stack = .ok (b3, stack3)) :
    b.build_trie_step r stack = .ok (mark_used b3 o, stack3) := by
  rw [build_trie_step_eq b r stack hnl, hlist]
  show Except.bind (DoubleArrayBuilder.find_offset_index { step_base b r with keys := keys }
    r.index labels) _ = _
  rw [hfind]
  show Except.bind (((step_base b r).unit r.index).set_offset (r.index ^^^ o)) _ = _
  rw [hset]
  show Except.bind (DoubleArrayBuilder.reserve_children o
    (labels.zip (ranges ++ [⟨nb, r.end_, 0⟩])).reverse (step_linked b r keys u) stack) _ = _
  rw [hres]
  rfl

theorem mark_used_units (b : DoubleArrayBuilder) (o : Nat) : (mark_used b o).units = b.units := by
  unfold mark_used; simp

theorem mark_used_keys (b : DoubleArrayBuilder) (o : Nat) : (mark_used b o).keys = b.keys := by
  unfold mark_used; simp

theorem mark_used_progress (b : DoubleArrayBuilder) (o : Nat) :
    (mark_used b o).progress = b.progress := by
  unfold mark_used; simp

theorem mark_used_unit (b : DoubleArrayBuilder) (o j : Nat) : (mark_used b o).unit j = b.unit j := by
  unfold mark_used; simp

theorem mark_used_num (b : DoubleArrayBuilder) (o : Nat) :
    (mark_used b o).num_of_units = b.num_of_units := by
  unfold mark_used; simp

theorem mark_used_first_live (b : DoubleArrayBuilder) (o : Nat) :
    (mark_used b o).first_live = b.first_live := by
  unfold mark_used; simp

theorem set_is_used_is_fixed (e : DoubleArrayExtra) : e.set_is_used.is_fixed = e.is_fixed := rfl

theorem set_is_used_next (e : DoubleArrayExtra) : e.set_is_used.next = e.next := rfl

theorem set_is_used_prev (e : DoubleArrayExtra) : e.set_is_used.prev = e.prev :=
  DoubleArrayExtra.or_one_shr _

theorem set_is_used_is_used (e : DoubleArrayExtra) : e.set_is_used.is_used = true :=
  DoubleArrayExtra.or_one_flag _

theorem mark_used_extra (b : DoubleArrayBuilder) (o j : Nat) (hl : b.Live o) :
    (mark_used b o).extra j = if j = o then (b.extra o).set_is_used else b.extra j :=
  DoubleArrayBuilder.extra_set_extra b o j _ hl

theorem mark_used_is_fixed (b : DoubleArrayBuilder) (o j : Nat) (hl : b.Live o) :
    ((mark_used b o).extra j).is_fixed = (b.extra j).is_fixed := by
  rw [mark_used_extra b o j hl]
  split
  · rename_i h; rw [h, set_is_used_is_fixed]
  · rfl

theorem mark_used_fixed (b : DoubleArrayBuilder) (o j : Nat) (hl : b.Live o) :
    (mark_used b o).Fixed j ↔ b.Fixed j := by
  unfold DoubleArrayBuilder.Fixed
  rw [mark_used_num, mark_used_first_live, mark_used_is_fixed b o j hl]

theorem mark_used_free (b : DoubleArrayBuilder) (o j : Nat) (hl : b.Live o) :
    (mark_used b o).Free j ↔ b.Free j := by
  unfold DoubleArrayBuilder.Free
  rw [mark_used_num, mark_used_first_live, mark_used_is_fixed b o j hl]

theorem mark_used_allocInv (b : DoubleArrayBuilder) (o : Nat) (hinv : b.AllocInv) (hl : b.Live o) :
    (mark_used b o).AllocInv := by
  have f := fun j => mark_used_free b o j hl
  refine ⟨?_, ?_, ?_, ?_, ?_, ?_, ?_⟩
  · rw [mark_used_units]
    unfold mark_used
    rw [DoubleArrayBuilder.extras_length_set_extra]
    exact hinv.size_eq
  · intro j h1 h2
    rw [mark_used_first_live] at h1
    rw [mark_used_num] at h2
    unfold mark_used
    rw [DoubleArrayBuilder.live_set_extra]
    exact hinv.live j h1 h2
  · intro j
    rw [mark_used_unit]; exact hinv.wf j
  · intro j hj
    rw [mark_used_unit]; exact hinv.free_zero j ((f j).1 hj)
  · intro x hx
    have : ((mark_used b o).extra x).next = (b.extra x).next := by
      rw [mark_used_extra b o x hl]
      split
      · rename_i h; rw [h, set_is_used_next]
      · rfl
    rw [this]
    exact isSucc_congr (fun j => (f j).symm) (hinv.succ x ((f x).1 hx))
  · intro x hx
    have : ((mark_used b o).extra x).prev = (b.extra x).prev := by
      rw [mark_used_extra b o x hl]
      split
      · rename_i h; rw [h, set_is_used_prev]
      · rfl
    rw [this]
    exact isPred_congr (fun j => (f j).symm) (hinv.pred x ((f x).1 hx))
  · have : (mark_used b o).unfixed_index = b.unfixed_index := by
      unfold mark_used; simp
    rw [this, mark_used_num]
    exact isHead_congr (fun j => (f j).symm) hinv.head

theorem runsInv_start (c : Nat → Nat) (s : Nat) : RunsInv c s s [] (c s) s :=
  ⟨fun x hx => (by cases hx), fun i h1 h2 => (by omega), List.Pairwise.nil, List.Pairwise.nil,
    fun x hx => (by cases hx), (by simp), rfl, fun i h1 h2 => (by omega),
    ⟨Nat.le_refl _, Nat.le_refl _⟩, fun h => (by omega)⟩

theorem xor_byte_ge (a c n : Nat) (hc : c < 256) (hn : n % 256 = 0) (ha : n ≤ a) : n ≤ a ^^^ c := by
  have h1 := xor_byte_div a c hc
  have h2 : n / 256 ≤ a / 256 := Nat.div_le_div_right ha
  have h3 := Nat.div_add_mod (a ^^^ c) 256
  have h4 := Nat.div_add_mod n 256
  omega

theorem xor_byte_lt' (a c n : Nat) (hc : c < 256) (hn : n % 256 = 0) (ha : a ^^^ c < n) : a < n := by
  have h1 := xor_byte_div a c hc
  have h3 := Nat.div_add_mod (a ^^^ c) 256
  have h4 := Nat.div_add_mod n 256
  have h5 := Nat.div_add_mod a 256
  have h6 := Nat.mod_lt a (show 0 < 256 by decide)
  by_contra hge
  have h2 : n / 256 ≤ a / 256 := Nat.div_le_div_right (Nat.le_of_not_lt hge)
  omega

/-- The branch of `build_trie_subroutine` for a range that is not a leaf
returns, and `StepFacts` describes the builder before the offset is marked as
used. -/
theorem internal_run_exact (IsBase : Nat → Prop) (b : DoubleArrayBuilder)
    (r : DoubleArrayKeyRange)
    (rest : List DoubleArrayKeyRange) (hnl : ¬ (r.index ≠ 0 ∧ r.size = 1))
    (hinv : b.AllocInv) (hc : b.UsedCovered) (hbu : DoubleArrayBuilder.BasesUsed IsBase b)
    (hfix : b.Fixed r.index) (hlt : r.begin_ < r.end_) (hle : r.end_ ≤ b.keys.length)
    (hmono : ∀ i j, r.begin_ ≤ i → i ≤ j → j < r.end_ →
      (b.keys.getD i default).get 0 ≤ (b.keys.getD j default).get 0)
    (hbyte : ∀ i, r.begin_ ≤ i → i < r.end_ → (b.keys.getD i default).get 0 < 256)
    (hn : b.num_of_units + 256 ≤ 2 ^ 29) :
    ∃ o Z b3, b.build_trie_step r rest = .ok (b3,
        Z.map (fun x => ({ x.2 with index := o ^^^ x.1 } : DoubleArrayKeyRange)) ++ rest) ∧
      StepFacts IsBase b r o Z b3 ∧
      Z = (DoubleArrayBuilder.list_labels r.end_ (r.end_ - r.begin_) r.begin_ b.keys
          [(b.keys.getD r.begin_ default).get 0] [] r.begin_).2.1.zip
        ((DoubleArrayBuilder.list_labels r.end_ (r.end_ - r.begin_) r.begin_ b.keys
          [(b.keys.getD r.begin_ default).get 0] [] r.begin_).2.2.1 ++
          [⟨(DoubleArrayBuilder.list_labels r.end_ (r.end_ - r.begin_) r.begin_ b.keys
            [(b.keys.getD r.begin_ default).get 0] [] r.begin_).2.2.2, r.end_, 0⟩]) ∧
      (∃ b1, UnitChanged r.index b b1 ∧ b1.AllocInv ∧
        b1.find_offset_index r.index (Z.map Prod.fst) = .ok o) ∧
      (o < b.num_of_units → b3.num_of_units = b.num_of_units) := by
  -- the labels and the ranges
  obtain ⟨keys, Z0, cur, nb, hlist, hklen, hkeys, hruns0⟩ :=
    DoubleArrayBuilder.list_labels_spec (fun i => (b.keys.getD i default).get 0) r.begin_ r.end_
      b.keys (fun _ => rfl) hmono hle (r.end_ - r.begin_) r.begin_ b.keys [] _ r.begin_
      (by omega) (Nat.le_refl _) rfl
      (fun i => by rw [if_neg (by omega)])
      (runsInv_start _ _)
  have hruns := DoubleArrayBuilder.runs_of_inv hruns0 hlt
  generalize hZ : Z0 ++ [(cur, (⟨nb, r.end_, 0⟩ : DoubleArrayKeyRange))] = Z at hruns
  have hzip : (Z0.map Prod.fst ++ [cur]).zip (Z0.map Prod.snd ++ [⟨nb, r.end_, 0⟩]) = Z := by
    rw [DoubleArrayBuilder.zip_snoc, hZ]
  have hlabels : Z0.map Prod.fst ++ [cur] = Z.map Prod.fst := by
    rw [← hZ, List.map_append]; rfl
  have hZne : Z ≠ [] := by
    rw [← hZ]; simp
  have hlab : ∀ x ∈ Z, x.1 < 256 := by
    intro x hx
    obtain ⟨a1, a2, a3, a4⟩ := hruns.run x hx
    rw [← a4 x.2.begin_ (Nat.le_refl _) a2]
    exact hbyte _ a1 (by omega)
  -- the offset
  have hb1 : UnitChanged r.index b { step_base b r with keys := keys } := by
    have hs : ∀ j, (DoubleArrayBuilder.unit { step_base b r with keys := keys } j)
        = (step_base b r).unit j := fun _ => rfl
    refine ⟨?_, ?_, ?_, ?_, ?_, ?_, ?_⟩
    · unfold step_base; split <;> simp
    · unfold step_base; split <;> simp
    · unfold step_base; split <;> simp
    · unfold step_base; split <;> simp
    · intro j hj
      rw [hs]; exact step_base_unit b r j hj
    · rw [hs, step_base_self b r hfix.1]
      split
      · exact DoubleArrayUnit.label_set_is_end _
      · rfl
    · rw [hs, step_base_self b r hfix.1]
      split
      · exact DoubleArrayUnit.wf_set_is_end _ (hinv.wf _)
      · exact hinv.wf _
  have hinv1 := hb1.allocInv hinv hfix
  obtain ⟨o, hfind, ho1, ho2, ho3⟩ := DoubleArrayBuilder.find_offset_index_spec
    { step_base b r with keys := keys } hinv1 r.index (Z.map Prod.fst)
    (by intro h0; exact hZne (List.map_eq_nil_iff.1 h0))
    (by
      intro l hl
      obtain ⟨x, hx, rfl⟩ := List.mem_map.1 hl
      exact hlab x hx)
    (by rw [hb1.num]; exact hfix.1) (by rw [hb1.num]; exact hn)
  rw [hb1.first_live, hb1.num, hb1.extra] at ho3
  have ho3 : (256 * b.first_live ≤ o ∧ o < b.num_of_units ∧ (b.extra o).is_used = false ∧
      ∀ l ∈ Z.map Prod.fst, b.Free (o ^^^ l)) ∨ (b.num_of_units ≤ o ∧ o < b.num_of_units + 256) :=
    ho3.imp (fun h => ⟨h.1, h.2.1, h.2.2.1, fun l hl => (hb1.free _).1 (h.2.2.2 l hl)⟩) id
  -- the unit of the range
  have hwf0 : ((step_base b r).unit r.index).wf := hb1.wf
  have hset := DoubleArrayUnit.set_offset_ok ((step_base b r).unit r.index) (r.index ^^^ o) ho1
  generalize hu : DoubleArrayUnit.set 10 22 ((step_base b r).unit r.index)
    (if r.index ^^^ o < DoubleArrayUnit.OFFSET_MAX then r.index ^^^ o
      else (1 <<< 21) + ((r.index ^^^ o) >>> 8)) = u at hset
  obtain ⟨u1, u2, u3, u4, u5⟩ := DoubleArrayUnit.set_offset_spec hwf0 hset
  have hlabel0 : ((step_base b r).unit r.index).label = (b.unit r.index).label := hb1.label
  obtain ⟨hb2, hself⟩ := step_linked_changed b r keys u hfix.1 u1 (u2.trans hlabel0)
  have hinv2 := hb2.allocInv hinv hfix
  -- the children
  have hnodup : ((Z.reverse).map Prod.fst).Nodup := by
    rw [List.map_reverse, List.nodup_reverse]
    exact hruns.labels.imp (fun h => Nat.ne_of_lt h)
  have hnum256 : b.num_of_units % 256 = 0 := by
    have := DoubleArrayBuilder.num_of_units_eq hinv
    have e : BLOCK_SIZE = 256 := rfl
    rw [this, e]
    exact Nat.mul_mod_right _ _
  obtain ⟨b3, hres, hinv3, hev, hchild, hnum3, hnum3'⟩ := DoubleArrayBuilder.reserve_children_spec
    IsBase o Z.reverse (step_linked b r keys u) rest hinv2 (hb2.usedCovered hc) (hb2.basesUsed hbu)
    hnodup (fun x hx => hlab x (List.mem_reverse.1 hx))
    (by
      rw [hb2.num]
      rcases ho3 with ⟨_, _, _, h4⟩ | ⟨h1, h2⟩
      · left
        refine ⟨fun x hx => ?_, by omega⟩
        rw [hb2.free]
        exact h4 _ (List.mem_map_of_mem _ (List.mem_reverse.1 hx))
      · right
        exact ⟨h1, h2, by omega⟩)
  rw [List.map_reverse, List.reverse_reverse] at hres
  rw [hb2.num] at hnum3 hnum3'
  have hstep := build_trie_step_internal b r rest hnl keys (Z0.map Prod.fst ++ [cur])
    (Z0.map Prod.snd) nb o u b3 _
    (by rw [step_base_keys]; exact hlist)
    (by rw [hlabels]; exact hfind) hset
    (by rw [hzip]; exact hres)
  refine ⟨o, Z, mark_used b3 o, hstep, ?_, ?_, ⟨_, hb1, hinv1, hfind⟩, ?_⟩
  rotate_left
  · have hlist2 : DoubleArrayBuilder.list_labels r.end_ (r.end_ - r.begin_) r.begin_ b.keys
        [(b.keys.getD r.begin_ default).get 0] [] r.begin_
        = (keys, Z0.map Prod.fst ++ [cur], Z0.map Prod.snd, nb) := hlist
    rw [hlist2]
    exact hzip.symm
  · intro ho
    rw [mark_used_num]
    rcases ho3 with ⟨_, _, _, h4⟩ | ⟨h1, _⟩
    · exact hnum3' (fun x hx => by
        rw [hb2.free]
        exact h4 _ (List.mem_map_of_mem _ (List.mem_reverse.1 hx)))
    · omega
  have hnotfixed : ∀ x ∈ Z, ¬ b.Fixed (o ^^^ x.1) := by
    intro x hx hf
    rcases ho3 with ⟨_, _, _, h4⟩ | ⟨h1, h2⟩
    · exact DoubleArrayBuilder.not_fixed_of_free (h4 _ (List.mem_map_of_mem _ hx)) hf
    · have := xor_byte_ge o x.1 _ (hlab x hx) hnum256 h1
      have := hf.1
      omega
  have hnum3_256 : b3.num_of_units % 256 = 0 := by
    have := DoubleArrayBuilder.num_of_units_eq hinv3
    have e : BLOCK_SIZE = 256 := rfl
    rw [this, e]
    exact Nat.mul_mod_right _ _
  obtain ⟨x0, hx0⟩ := List.exists_mem_of_ne_nil Z hZne
  have hnumle : b.num_of_units ≤ b3.num_of_units := by
    have := hev.num_le
    rw [hb2.num] at this
    exact this
  have hlive2 : o < b3.num_of_units :=
    xor_byte_lt' o x0.1 _ (hlab x0 hx0) hnum3_256 (hchild x0 (List.mem_reverse.2 hx0)).1.1
  have hfl : b.first_live ≤ b3.first_live := by
    have := hev.first_live_le
    rw [hb2.first_live] at this
    exact this
  have hlive1 : 256 * b3.first_live ≤ o := by
    have e3 := DoubleArrayBuilder.num_of_units_eq hinv3
    have e0 := DoubleArrayBuilder.num_of_units_eq hinv
    have e : BLOCK_SIZE = 256 := rfl
    rw [e] at e3 e0
    have f3 := DoubleArrayBuilder.first_live_eq b3
    have f0 := DoubleArrayBuilder.first_live_eq b
    unfold DoubleArrayBuilder.num_of_blocks at e3 e0
    rcases ho3 with ⟨h1, h2, h3, h4⟩ | ⟨h1, h2⟩
    · have := hnum3' (fun x hx => by
        rw [hb2.free]
        exact h4 _ (List.mem_map_of_mem _ (List.mem_reverse.1 hx)))
      omega
    · omega
  have hl3 : b3.Live o := hinv3.live o hlive1 hlive2
  have hcov3 := DoubleArrayBuilder.usedCovered_of_evolves hev hinv2 (hb2.usedCovered hc)
  have mf := fun j => mark_used_fixed b3 o j hl3
  refine ⟨hruns, ?_, ?_, ?_, mark_used_allocInv b3 o hinv3 hl3, ?_, ?_, ?_, ?_, ?_, ?_, ?_, ?_, ?_,
    ?_, ?_, ?_, ?_, ?_, ?_⟩
  · rw [mark_used_keys, hev.keys, step_linked_keys]; exact hklen
  · intro i
    rw [mark_used_keys, hev.keys, step_linked_keys]; exact hkeys i
  · rw [mark_used_progress, hev.progress]; exact hb2.progress
  · -- covered
    intro v h1 h2 h3
    rw [mark_used_first_live] at h1
    rw [mark_used_num] at h2
    rw [mark_used_extra b3 o v hl3] at h3
    by_cases hvo : v = o
    · have hch := hchild x0 (List.mem_reverse.2 hx0)
      refine ⟨o ^^^ x0.1, (mf _).2 hch.1, ?_⟩
      rw [mark_used_unit, hch.2, DoubleArrayUnit.label_set_label _ _ DoubleArrayUnit.wf_default
        (hlab x0 hx0), hvo]
      exact xor_xor_cancel_right _ _
    · rw [if_neg hvo] at h3
      obtain ⟨j, hj, hb⟩ := hcov3 v h1 h2 h3
      exact ⟨j, (mf j).2 hj, by rw [mark_used_unit]; exact hb⟩
  · rw [mark_used_num]; exact ⟨hnumle, hnum3⟩
  · rw [mark_used_first_live]; exact hfl
  · intro j hj
    rw [mf]
    exact hev.fixed_mono j ((hb2.fixed j).2 hj)
  · intro j hj hne
    rw [mark_used_unit, hev.unit_fixed j ((hb2.fixed j).2 hj)]
    exact hb2.unit_ne j hne
  · rw [mark_used_unit, hev.unit_fixed _ ((hb2.fixed _).2 hfix), hself, u2]; exact hlabel0
  · rw [mark_used_unit, hev.unit_fixed _ ((hb2.fixed _).2 hfix), hself, u3,
      step_base_self b r hfix.1]
    split
    · exact DoubleArrayUnit.is_leaf_set_is_end _
    · rfl
  · rw [mark_used_unit, hev.unit_fixed _ ((hb2.fixed _).2 hfix), hself, u4,
      step_base_self b r hfix.1]
    split
    · rename_i h0
      rw [DoubleArrayUnit.is_end_set_is_end, decide_eq_true h0, Bool.or_true]
    · rename_i h0
      rw [decide_eq_false h0, Bool.or_false]
  · rw [mark_used_unit, hev.unit_fixed _ ((hb2.fixed _).2 hfix), hself]
    exact u5 ho2
  · rw [mark_used_extra b3 o o hl3, if_pos rfl]
    exact set_is_used_is_used _
  · intro j hjo hj
    rw [mark_used_first_live] at hj
    rw [mark_used_extra b3 o j hl3, if_neg hjo, hev.used j hj, hb2.extra j]
  · intro j h1 h2
    rw [mf] at h1
    rcases hev.newly j h1 (fun hf => h2 ((hb2.fixed j).1 hf)) with ⟨x, hx, hxj⟩ | hd
    · exact Or.inl ⟨x, List.mem_reverse.1 hx, hxj⟩
    · right
      unfold DoubleArrayBuilder.Dead at hd ⊢
      rw [mark_used_first_live, mark_used_unit]
      exact hd
  · intro x hx
    have := hchild x (List.mem_reverse.2 hx)
    rw [mark_used_unit, mf]
    exact ⟨this.1, hnotfixed x hx, this.2⟩
  · rcases ho3 with ⟨h1, h2, h3, _⟩ | ⟨h1, _⟩
    · exact Or.inl ⟨h1, h2, h3⟩
    · exact Or.inr h1
  · rw [mark_used_first_live, mark_used_num]; exact ⟨hlive1, hlive2⟩

/-- The branch of `build_trie_subroutine` for a range that is not a leaf
returns, and `StepFacts` describes the builder after it. -/
theorem internal_run (IsBase : Nat → Prop) (b : DoubleArrayBuilder) (r : DoubleArrayKeyRange)
    (rest : List DoubleArrayKeyRange) (hnl : ¬ (r.index ≠ 0 ∧ r.size = 1))
    (hinv : b.AllocInv) (hc : b.UsedCovered) (hbu : DoubleArrayBuilder.BasesUsed IsBase b)
    (hfix : b.Fixed r.index) (hlt : r.begin_ < r.end_) (hle : r.end_ ≤ b.keys.length)
    (hmono : ∀ i j, r.begin_ ≤ i → i ≤ j → j < r.end_ →
      (b.keys.getD i default).get 0 ≤ (b.keys.getD j default).get 0)
    (hbyte : ∀ i, r.begin_ ≤ i → i < r.end_ → (b.keys.getD i default).get 0 < 256)
    (hn : b.num_of_units + 256 ≤ 2 ^ 29) :
    ∃ o Z b3, b.build_trie_step r rest = .ok (b3,
        Z.map (fun x => ({ x.2 with index := o ^^^ x.1 } : DoubleArrayKeyRange)) ++ rest) ∧
      StepFacts IsBase b r o Z b3 := by
  obtain ⟨o, Z, b3, h1, h2, _⟩ := internal_run_exact IsBase b r rest hnl hinv hc hbu hfix hlt hle
    hmono hbyte hn
  exact ⟨o, Z, b3, h1, h2⟩

end Darts

namespace Darts

theorem key_get_zero {K : List DoubleArrayKey} (hK : KeysOK K) {b : DoubleArrayBuilder}
    (hks : KeyState K b) {i : Nat} (hi : i < K.length)
    (hd : (b.keys.getD i default).pos ≤ (K.getD i default).length.toNat) :
    (b.keys.getD i default).get 0 = (ext_at K i).getD (b.keys.getD i default).pos 0 := by
  obtain ⟨h1, _, h3⟩ := hks.same i hi
  obtain ⟨hw, hp0⟩ := hK.wf _ (getD_mem' hi)
  have hnn := hw.length_nonneg
  have hbuf := hw.in_buffer
  have hbl := DoubleArrayKey.bytes_length _ hw
  unfold DoubleArrayKey.get DoubleArrayKey.at_
  by_cases hz : (b.keys.getD i default).length = 0
  · rw [if_neg (by rw [hz]; simp)]
    have : (b.keys.getD i default).pos = (K.getD i default).length.toNat := by omega
    rw [this]
    exact (ext_getD_last hK hi).symm
  · rw [if_pos (by intro hc; exact hz (by simpa using hc.symm))]
    have hlt : (b.keys.getD i default).pos < (K.getD i default).length.toNat := by omega
    unfold ext_at DoubleArrayKey.ext
    rw [List.getD_append _ _ _ _ (by rw [hbl]; exact hlt)]
    unfold DoubleArrayKey.bytes
    rw [hp0, List.drop_zero, h1, Nat.add_zero]
    generalize (K.getD i default).key = buf
    generalize (b.keys.getD i default).pos = n at hlt
    generalize (K.getD i default).length.toNat = m at hlt
    simp only [List.getD_eq_getElem?_getD]
    rw [List.getElem?_take_of_lt hlt]

theorem fst_inj_of_pairwise {Z : List (Nat × DoubleArrayKeyRange)}
    (h : (Z.map Prod.fst).Pairwise (· < ·)) {x y : Nat × DoubleArrayKeyRange} (hx : x ∈ Z)
    (hy : y ∈ Z) (hxy : x.1 = y.1) : x = y := by
  induction Z with
  | nil => cases hx
  | cons z t ih =>
    rw [List.map_cons, List.pairwise_cons] at h
    rcases List.mem_cons.1 hx with h1 | h1 <;> rcases List.mem_cons.1 hy with h2 | h2
    · rw [h1, h2]
    · have := h.1 y.1 (List.mem_map_of_mem _ h2)
      rw [h1] at hxy; omega
    · have := h.1 x.1 (List.mem_map_of_mem _ h1)
      rw [h2] at hxy; omega
    · exact ih h.2 h1 h2

end Darts

namespace Darts

theorem mem_child_ranges {o : Nat} {Z : List (Nat × DoubleArrayKeyRange)} {r : DoubleArrayKeyRange} :
    r ∈ child_ranges o Z ↔
      ∃ x ∈ Z, r = ({ x.2 with index := o ^^^ x.1 } : DoubleArrayKeyRange) := by
  unfold child_ranges
  rw [List.mem_map]
  constructor
  · rintro ⟨x, hx, rfl⟩; exact ⟨x, hx, rfl⟩
  · rintro ⟨x, hx, rfl⟩; exact ⟨x, hx, rfl⟩

/-- The root exists as soon as there is a key. -/
theorem TrieInv.root_created {K : List DoubleArrayKey} {b : DoubleArrayBuilder}
    {stack : List DoubleArrayKeyRange} (_h : TrieInv K b stack) (hK0 : K ≠ []) :
    Done K b stack [] ∨ Pending K b stack [] := by
  have hnode : IsNode K [] :=
    ⟨⟨0, List.length_pos.2 hK0, List.nil_prefix⟩, Or.inl rfl⟩
  rcases @done_or_not K b stack [] hnode with h1 | ⟨r, hr, hp⟩
  · exact Or.inl h1
  · exact Or.inr ⟨r, hr, List.prefix_nil.1 hp⟩

theorem internal_of_range {K : List DoubleArrayKey} {b : DoubleArrayBuilder}
    {r : DoubleArrayKeyRange} {rest : List DoubleArrayKeyRange} (h : TrieInv K b (r :: rest))
    (hnl : ¬ (r.index ≠ 0 ∧ r.size = 1)) : Internal K (range_path K b r) := by
  have hr : RangeOK K b r := h.range r (List.mem_cons_self _ _)
  have hK0 : K ≠ [] := by
    intro hc
    have := hr.le
    have := hr.lt
    rw [hc] at *
    simp at *
    omega
  by_cases h0 : r.index = 0
  · left
    have hroot := h.root_created hK0
    refine h.inj _ _ (Or.inr ⟨r, List.mem_cons_self _ _, rfl⟩) hroot ?_
    rw [← hr.index, h0, walk_nil]
  · right
    have hsz : r.size ≠ 1 := fun hc => hnl ⟨h0, hc⟩
    unfold DoubleArrayKeyRange.size at hsz
    have := hr.lt
    refine ⟨r.begin_, r.begin_ + 1, Nat.lt_succ_self _, hr.pre_begin, ?_⟩
    exact (hr.exact _).1 ⟨by omega, by omega⟩

end Darts

namespace Darts

theorem prefix_snoc_of_proper {p q : List Nat} (h : p <+: q) (hne : p ≠ q) :
    p ++ [q.getD p.length 0] <+: q := by
  obtain ⟨t, rfl⟩ := h
  cases t with
  | nil => simp at hne
  | cons a t =>
    rw [getD_append_length]
    exact ⟨t, by simp⟩

theorem not_snoc_prefix (p : List Nat) (c : Nat) : ¬ p ++ [c] <+: p := by
  intro h
  have := h.length_le
  rw [List.length_append] at this
  simp at this

theorem step_view {K : List DoubleArrayKey} (hK : KeysOK K) {b b3 : DoubleArrayBuilder}
    {r : DoubleArrayKeyRange} {rest : List DoubleArrayKeyRange} {o : Nat}
    {Z : List (Nat × DoubleArrayKeyRange)} (h : TrieInv K b (r :: rest))
    (hnl : ¬ (r.index ≠ 0 ∧ r.size = 1))
    (hf : StepFacts (IsBaseOf K b (r :: rest)) b r o Z b3) : StepView K b r rest o Z b3 := by
  have hrm : r ∈ r :: rest := List.mem_cons_self _ _
  have hr : RangeOK K b r := h.range r hrm
  have hint := internal_of_range h hnl
  obtain ⟨hfirst, hsorted⟩ := List.pairwise_cons.1 h.sorted
  have hpend_p : Pending K b (r :: rest) (range_path K b r) := ⟨r, hrm, rfl⟩
  have hposlen : ∀ i, r.begin_ ≤ i → i < r.end_ →
      (b.keys.getD i default).pos = (range_path K b r).length := by
    intro i h1 h2
    rw [hr.len]; exact hr.depth i h1 h2
  have hbyte : ∀ i, r.begin_ ≤ i → i < r.end_ →
      (b.keys.getD i default).get 0 = (ext_at K i).getD (range_path K b r).length 0 ∧
        (range_path K b r).length < (ext_at K i).length := by
    intro i h1 h2
    have hpre := (hr.exact i).1 ⟨h1, h2⟩
    have hlt := internal_length_lt hK hint hpre
    have hel := ext_length hK hpre.1
    have hpos := hposlen i h1 h2
    have := key_get_zero hK h.keys hpre.1 (by rw [hpos]; omega)
    rw [hpos] at this
    exact ⟨this, hlt⟩
  have hkey_in : ∀ i, r.begin_ ≤ i → i < r.end_ →
      b3.keys.getD i default = (b.keys.getD i default).inc :=
    fun i h1 h2 => by rw [hf.keys, if_pos ⟨h1, h2⟩]
  have hkey_out : ∀ i, ¬ (r.begin_ ≤ i ∧ i < r.end_) →
      b3.keys.getD i default = b.keys.getD i default :=
    fun i hi => by rw [hf.keys, if_neg hi]
  have hrun_label : ∀ x ∈ Z, ∀ i, x.2.begin_ ≤ i → i < x.2.end_ →
      r.begin_ ≤ i ∧ i < r.end_ ∧ (ext_at K i).getD (range_path K b r).length 0 = x.1 := by
    intro x hx i h1 h2
    obtain ⟨a1, a2, a3, a4⟩ := hf.runs.run x hx
    have hi1 : r.begin_ ≤ i := by omega
    have hi2 : i < r.end_ := by omega
    have := a4 i h1 h2
    simp only at this
    rw [(hbyte i hi1 hi2).1] at this
    exact ⟨hi1, hi2, this⟩
  have hpath_child : ∀ x ∈ Z,
      range_path K b3 ({ x.2 with index := o ^^^ x.1 } : DoubleArrayKeyRange)
        = range_path K b r ++ [x.1] := by
    intro x hx
    obtain ⟨a1, a2, a3, a4⟩ := hf.runs.run x hx
    obtain ⟨hi1, hi2, hlab⟩ := hrun_label x hx x.2.begin_ (Nat.le_refl _) a2
    show (ext_at K x.2.begin_).take (b3.keys.getD x.2.begin_ default).pos = _
    rw [hkey_in _ hi1 hi2]
    show (ext_at K x.2.begin_).take ((b.keys.getD x.2.begin_ default).pos + 1) = _
    rw [hposlen _ hi1 hi2, take_succ_getD _ _ (hbyte _ hi1 hi2).2, hlab,
      prefix_take_of_length ((hr.exact _).1 ⟨hi1, hi2⟩).2]
  have hrest_out : ∀ r' ∈ rest, ∀ i, r'.begin_ ≤ i → ¬ (r.begin_ ≤ i ∧ i < r.end_) := by
    intro r' hr' i hi
    have := hfirst r' hr'
    omega
  have hpath_rest : ∀ r' ∈ rest, range_path K b3 r' = range_path K b r' := by
    intro r' hr'
    apply range_path_congr
    rw [hkey_out _ (hrest_out r' hr' _ (Nat.le_refl _))]
  have hpre_child : ∀ x ∈ Z, ∀ i,
      (x.2.begin_ ≤ i ∧ i < x.2.end_) ↔ Pre K (range_path K b r ++ [x.1]) i := by
    intro x hx i
    constructor
    · rintro ⟨h1, h2⟩
      obtain ⟨hi1, hi2, hlab⟩ := hrun_label x hx i h1 h2
      exact (pre_snoc_iff (hbyte i hi1 hi2).2).2 ⟨(hr.exact i).1 ⟨hi1, hi2⟩, hlab⟩
    · intro hpre
      have hp := pre_mono hpre (List.prefix_append _ _)
      obtain ⟨hi1, hi2⟩ := (hr.exact i).2 hp
      have hlab := ((pre_snoc_iff (hbyte i hi1 hi2).2).1 hpre).2
      obtain ⟨y, hy, hy1, hy2⟩ := hf.runs.cover i hi1 hi2
      have hy3 := (hrun_label y hy i hy1 hy2).2.2
      have : y = x := fst_inj_of_pairwise hf.runs.labels hy hx (by rw [← hy3, hlab])
      rw [← this]
      exact ⟨hy1, hy2⟩
  have hchild_of_pre : ∀ c i, Pre K (range_path K b r ++ [c]) i → ∃ x ∈ Z, x.1 = c := by
    intro c i hpre
    have hp := pre_mono hpre (List.prefix_append _ _)
    obtain ⟨hi1, hi2⟩ := (hr.exact i).2 hp
    have hlab := ((pre_snoc_iff (hbyte i hi1 hi2).2).1 hpre).2
    obtain ⟨y, hy, hy1, hy2⟩ := hf.runs.cover i hi1 hi2
    have hy3 := (hrun_label y hy i hy1 hy2).2.2
    exact ⟨y, hy, by rw [← hy3, hlab]⟩
  have hwalk_ne : ∀ q, Done K b (r :: rest) q → walk b.units q ≠ r.index := by
    intro q hq hc
    rw [hr.index] at hc
    have := h.inj q _ (Or.inl hq) (Or.inr hpend_p) hc
    subst this
    exact not_done_of_pending hpend_p hq
  have hunit_done : ∀ q, Done K b (r :: rest) q →
      b3.unit (walk b.units q) = b.unit (walk b.units q) :=
    fun q hq => hf.unit_old _ (h.done q hq).fixed (hwalk_ne q hq)
  have hwalk_old : ∀ q, (Done K b (r :: rest) q ∨ Pending K b (r :: rest) q) →
      walk b3.units q = walk b.units q := by
    intro q hq
    apply walk_congr
    intro p' hp' hne
    have := hunit_done p' (h.done_of_proper hq hp' hne).1
    rw [unit_eq_getD, unit_eq_getD] at this
    rw [this]
  have hbase_old : ∀ q, Done K b (r :: rest) q → base_of b3.units q = base_of b.units q := by
    intro q hq
    apply base_congr
    intro p' hp'
    have hd : Done K b (r :: rest) p' := by
      by_cases hne : p' = q
      · rw [hne]; exact hq
      · exact (h.done_of_proper (Or.inl hq) hp' hne).1
    have := hunit_done p' hd
    rw [unit_eq_getD, unit_eq_getD] at this
    rw [this]
  have hbase_self : base_of b3.units (range_path K b r) = o := by
    unfold base_of
    rw [hwalk_old _ (Or.inr hpend_p), ← hr.index, ← unit_eq_getD, hf.offset]
    exact xor_xor_cancel_left _ _
  have hp_not : ∀ r' ∈ rest, ¬ range_path K b r' <+: range_path K b r := by
    intro r' hr' hc
    have := h.path_eq (List.mem_cons_of_mem _ hr') hrm hc
    subst this
    have := hfirst _ hr'
    have := hr.lt
    omega
  refine ⟨hint, hbyte, hpath_child, hpath_rest, hpre_child, hchild_of_pre, hunit_done, hwalk_old,
    hbase_old, hbase_self, ?_, ?_⟩
  · intro q
    constructor
    · rintro ⟨hn, hq⟩
      by_cases hpq : range_path K b r <+: q
      · right
        by_contra hne
        have hsn := prefix_snoc_of_proper hpq (fun hc => hne hc.symm)
        obtain ⟨i, hi⟩ := hn.1
        obtain ⟨x, hx, hxc⟩ := hchild_of_pre _ i (pre_mono hi hsn)
        apply hq _ (List.mem_append_left _ (mem_child_ranges.2 ⟨x, hx, rfl⟩))
        rw [hpath_child x hx, hxc]
        exact hsn
      · left
        refine ⟨hn, ?_⟩
        intro r' hr'
        rcases List.mem_cons.1 hr' with h1 | h1
        · rw [h1]; exact hpq
        · rw [← hpath_rest r' h1]; exact hq r' (List.mem_append_right _ h1)
    · rintro (⟨hn, hq⟩ | hq)
      · refine ⟨hn, fun r' hr' => ?_⟩
        rcases List.mem_append.1 hr' with h1 | h1
        · obtain ⟨x, hx, rfl⟩ := mem_child_ranges.1 h1
          rw [hpath_child x hx]
          intro hc
          exact hq r hrm ((List.prefix_append _ _).trans hc)
        · rw [hpath_rest r' h1]; exact hq r' (List.mem_cons_of_mem _ h1)
      · rw [hq]
        refine ⟨hr.node, fun r' hr' => ?_⟩
        rcases List.mem_append.1 hr' with h1 | h1
        · obtain ⟨x, hx, rfl⟩ := mem_child_ranges.1 h1
          rw [hpath_child x hx]
          exact not_snoc_prefix _ _
        · rw [hpath_rest r' h1]; exact hp_not r' h1
  · intro q
    constructor
    · rintro ⟨r', hr', hq⟩
      rcases List.mem_append.1 hr' with h1 | h1
      · obtain ⟨x, hx, rfl⟩ := mem_child_ranges.1 h1
        rw [hpath_child x hx] at hq
        exact Or.inl ⟨x, hx, hq.symm⟩
      · rw [hpath_rest r' h1] at hq
        exact Or.inr ⟨r', h1, hq⟩
    · rintro (⟨x, hx, hq⟩ | ⟨r', hr', hq⟩)
      · exact ⟨_, List.mem_append_left _ (mem_child_ranges.2 ⟨x, hx, rfl⟩), by
          rw [hpath_child x hx, hq]⟩
      · exact ⟨r', List.mem_append_right _ hr', by rw [hpath_rest r' hr']; exact hq⟩

end Darts

namespace Darts

theorem default_set_label (c : Nat) (hc : c < 256) :
    ((default : DoubleArrayUnit).set_label c).label = c ∧
    ((default : DoubleArrayUnit).set_label c).is_leaf = false ∧
    ((default : DoubleArrayUnit).set_label c).is_end = false := by
  refine ⟨DoubleArrayUnit.label_set_label _ _ DoubleArrayUnit.wf_default hc, ?_, ?_⟩
  · rw [DoubleArrayUnit.is_leaf_set_label _ _ DoubleArrayUnit.wf_default hc]; rfl
  · rw [DoubleArrayUnit.is_end_set_label _ _ DoubleArrayUnit.wf_default hc]; rfl

/-- The branch of `build_trie_subroutine` for a range that is not a leaf keeps
the invariant. -/
theorem internal_step {K : List DoubleArrayKey} (hK : KeysOK K) {b b3 : DoubleArrayBuilder}
    {r : DoubleArrayKeyRange} {rest : List DoubleArrayKeyRange} {o : Nat}
    {Z : List (Nat × DoubleArrayKeyRange)} (h : TrieInv K b (r :: rest))
    (hnl : ¬ (r.index ≠ 0 ∧ r.size = 1))
    (hf : StepFacts (IsBaseOf K b (r :: rest)) b r o Z b3) :
    TrieInv K b3 (child_ranges o Z ++ rest) := by
  have hv := step_view hK h hnl hf
  have hrm : r ∈ r :: rest := List.mem_cons_self _ _
  have hr : RangeOK K b r := h.range r hrm
  obtain ⟨hfirst, hsorted⟩ := List.pairwise_cons.1 h.sorted
  have hpend_p : Pending K b (r :: rest) (range_path K b r) := ⟨r, hrm, rfl⟩
  have e256 : BLOCK_SIZE = 256 := rfl
  have hrun : ∀ x ∈ Z, r.begin_ ≤ x.2.begin_ ∧ x.2.begin_ < x.2.end_ ∧ x.2.end_ ≤ r.end_ := by
    intro x hx
    obtain ⟨a1, a2, a3, _⟩ := hf.runs.run x hx
    exact ⟨a1, a2, a3⟩
  have hlab256 : ∀ x ∈ Z, x.1 < 256 := by
    intro x hx
    obtain ⟨a1, a2, a3⟩ := hrun x hx
    have hpre := (hv.pre_child x hx x.2.begin_).1 ⟨Nat.le_refl _, a2⟩
    have hb := hv.byte x.2.begin_ a1 (by omega)
    rw [← ((pre_snoc_iff hb.2).1 hpre).2]
    exact ext_byte_lt hK hpre.1 _
  have hposlen : ∀ i, r.begin_ ≤ i → i < r.end_ →
      (b.keys.getD i default).pos = (range_path K b r).length := by
    intro i h1 h2
    rw [hr.len]; exact hr.depth i h1 h2
  have hkey_in : ∀ i, r.begin_ ≤ i → i < r.end_ →
      b3.keys.getD i default = (b.keys.getD i default).inc :=
    fun i h1 h2 => by rw [hf.keys, if_pos ⟨h1, h2⟩]
  have hkey_out : ∀ i, ¬ (r.begin_ ≤ i ∧ i < r.end_) →
      b3.keys.getD i default = b.keys.getD i default :=
    fun i hi => by rw [hf.keys, if_neg hi]
  have hrest_out : ∀ r' ∈ rest, ∀ i, r'.begin_ ≤ i → ¬ (r.begin_ ≤ i ∧ i < r.end_) := by
    intro r' hr' i hi
    have := hfirst r' hr'
    omega
  have hwalk_self : walk b3.units (range_path K b r) = r.index := by
    rw [hv.walk_old _ (Or.inr hpend_p), ← hr.index]
  have hwalk_child : ∀ c, walk b3.units (range_path K b r ++ [c]) = o ^^^ c := by
    intro c
    rw [walk_snoc, hv.base_self]
  have hfixed_old : ∀ q, (Done K b (r :: rest) q ∨ Pending K b (r :: rest) q) →
      b.Fixed (walk b.units q) := by
    rintro q (hq | ⟨r', hr', rfl⟩)
    · exact (h.done q hq).fixed
    · rw [← (h.range r' hr').index]; exact (h.range r' hr').fixed
  have hcreated : ∀ q, (Done K b3 (child_ranges o Z ++ rest) q ∨
      Pending K b3 (child_ranges o Z ++ rest) q) →
      ((Done K b (r :: rest) q ∨ Pending K b (r :: rest) q) ∨
        ∃ x ∈ Z, q = range_path K b r ++ [x.1]) := by
    rintro q (hq | hq)
    · rcases (hv.done_iff q).1 hq with h1 | h1
      · exact Or.inl (Or.inl h1)
      · exact Or.inl (Or.inr ⟨r, hrm, h1.symm⟩)
    · rcases (hv.pend_iff q).1 hq with h1 | ⟨r', hr', h1⟩
      · exact Or.inr h1
      · exact Or.inl (Or.inr ⟨r', List.mem_cons_of_mem _ hr', h1⟩)
  have hcreated' : ∀ q, (Done K b (r :: rest) q ∨ Pending K b (r :: rest) q) →
      (Done K b3 (child_ranges o Z ++ rest) q ∨ Pending K b3 (child_ranges o Z ++ rest) q) := by
    rintro q (hq | ⟨r', hr', hq⟩)
    · exact Or.inl ((hv.done_iff q).2 (Or.inl hq))
    · rcases List.mem_cons.1 hr' with h1 | h1
      · subst h1
        exact Or.inl ((hv.done_iff q).2 (Or.inr hq.symm))
      · exact Or.inr ((hv.pend_iff q).2 (Or.inr ⟨r', h1, hq⟩))
  have hlabel3 : ∀ j, b.Fixed j → (b3.unit j).label = (b.unit j).label := by
    intro j hj
    by_cases hjr : j = r.index
    · rw [hjr]; exact hf.label
    · rw [hf.unit_old j hj hjr]
  have hleaf3 : ∀ j, b.Fixed j → (b3.unit j).is_leaf = (b.unit j).is_leaf := by
    intro j hj
    by_cases hjr : j = r.index
    · rw [hjr]; exact hf.is_leaf
    · rw [hf.unit_old j hj hjr]
  have hfl_o : 256 * b.first_live ≤ o := by
    rcases hf.place with h1 | h1
    · exact h1.1
    · have e1 := DoubleArrayBuilder.num_of_units_eq h.alloc
      have e2 := DoubleArrayBuilder.first_live_eq b
      unfold DoubleArrayBuilder.num_of_blocks at e1
      rw [e256] at e1
      omega
  have hunused_o : (b.extra o).is_used = false := by
    rcases hf.place with h1 | h1
    · exact h1.2.2
    · rw [DoubleArrayBuilder.extra_of_ge h.alloc h1]; rfl
  have hbase_ne : ∀ q, Done K b (r :: rest) q → Internal K q → base_of b.units q ≠ o := by
    intro q hq hint hc
    have := ((h.done q hq).internal hint).2.2.2
    rw [hc] at this
    rw [this hfl_o] at hunused_o
    cases hunused_o
  have hdone_old : ∀ q, Done K b3 (child_ranges o Z ++ rest) q → Internal K q →
      q ≠ range_path K b r → Done K b (r :: rest) q := by
    intro q hq _ hne
    rcases (hv.done_iff q).1 hq with h1 | h1
    · exact h1
    · exact absurd h1 hne
  refine ⟨hf.alloc, hf.covered, ?_, ?_, ?_, ?_, ?_, ?_, ?_, ?_, ?_, ?_, ?_, ?_⟩
  · -- keys
    refine ⟨hf.keys_length.trans h.keys.length, fun i hi => ?_⟩
    obtain ⟨a1, a2, a3⟩ := h.keys.same i hi
    rw [hf.keys]
    split
    · refine ⟨a1, a2, ?_⟩
      simp only [DoubleArrayKey.inc]
      push_cast
      omega
    · exact ⟨a1, a2, a3⟩
  · -- sorted
    rw [List.pairwise_append]
    refine ⟨?_, hsorted, ?_⟩
    · unfold child_ranges
      rw [List.pairwise_map]
      exact hf.runs.ordered
    · intro a ha c hc
      obtain ⟨x, hx, rfl⟩ := mem_child_ranges.1 ha
      have := hfirst c hc
      have := (hrun x hx).2.2
      show x.2.end_ ≤ c.begin_
      omega
  · -- range
    intro r' hr'
    rcases List.mem_append.1 hr' with h1 | h1
    · obtain ⟨x, hx, rfl⟩ := mem_child_ranges.1 h1
      obtain ⟨a1, a2, a3⟩ := hrun x hx
      have hch := hf.child x hx
      have hdl := default_set_label x.1 (hlab256 x hx)
      refine ⟨a2, Nat.le_trans a3 hr.le, ?_, ?_, ?_, ?_, ?_, hch.1, ?_, ?_, ?_⟩
      · intro i h1' h2'
        have h1 : x.2.begin_ ≤ i := h1'
        have h2 : i < x.2.end_ := h2'
        show (b3.keys.getD i default).pos = (b3.keys.getD x.2.begin_ default).pos
        rw [hkey_in i (by omega) (by omega), hkey_in _ a1 (by omega)]
        show (b.keys.getD i default).pos + 1 = (b.keys.getD x.2.begin_ default).pos + 1
        rw [hposlen i (by omega) (by omega), hposlen _ a1 (by omega)]
      · intro i
        rw [hv.path_child x hx]
        exact hv.pre_child x hx i
      · rw [hv.path_child x hx]
        show _ = (b3.keys.getD x.2.begin_ default).pos
        rw [hkey_in _ a1 (by omega)]
        show _ = (b.keys.getD x.2.begin_ default).pos + 1
        rw [hposlen _ a1 (by omega), List.length_append, List.length_singleton]
      · rw [hv.path_child x hx]
        refine ⟨⟨x.2.begin_, (hv.pre_child x hx _).1 ⟨Nat.le_refl _, a2⟩⟩, ?_⟩
        rw [List.dropLast_concat]
        exact hv.internal
      · rw [hv.path_child x hx, hwalk_child]
      · show (b3.unit (o ^^^ x.1)).is_leaf = false
        rw [hch.2.2]; exact hdl.2.1
      · show (b3.unit (o ^^^ x.1)).is_end = false
        rw [hch.2.2]; exact hdl.2.2
      · show (b3.unit (o ^^^ x.1)).label = _
        rw [hch.2.2, hv.path_child x hx, List.getLastD_concat]; exact hdl.1
    · have ho := h.range r' (List.mem_cons_of_mem _ h1)
      have hpend' : Pending K b (r :: rest) (range_path K b r') :=
        ⟨r', List.mem_cons_of_mem _ h1, rfl⟩
      have hne : r'.index ≠ r.index := by
        intro hc
        rw [ho.index, hr.index] at hc
        have := h.inj _ _ (Or.inr hpend') (Or.inr hpend_p) hc
        have h2 := h.path_eq (List.mem_cons_of_mem _ h1) hrm (by rw [this])
        subst h2
        have := hfirst _ h1
        have := hr.lt
        omega
      have hu : b3.unit r'.index = b.unit r'.index := hf.unit_old _ ho.fixed hne
      refine ⟨ho.lt, ho.le, ?_, ?_, ?_, ?_, ?_, hf.fixed_mono _ ho.fixed, ?_, ?_, ?_⟩
      · intro i h2 h3
        rw [hkey_out i (hrest_out r' h1 i h2), hkey_out _ (hrest_out r' h1 _ (Nat.le_refl _))]
        exact ho.depth i h2 h3
      · intro i
        rw [hv.path_rest r' h1]
        exact ho.exact i
      · rw [hv.path_rest r' h1, hkey_out _ (hrest_out r' h1 _ (Nat.le_refl _))]
        exact ho.len
      · rw [hv.path_rest r' h1]; exact ho.node
      · rw [hv.path_rest r' h1, hv.walk_old _ (Or.inr hpend')]; exact ho.index
      · rw [hu]; exact ho.is_leaf
      · rw [hu]; exact ho.is_end
      · rw [hu, hv.path_rest r' h1]; exact ho.label
  · -- done
    intro q hq
    rcases (hv.done_iff q).1 hq with hq' | hq'
    · have hn := h.done q hq'
      have hw := hv.walk_old q (Or.inl hq')
      have hu := hv.unit_done q hq'
      refine ⟨?_, ?_, ?_, ?_⟩
      · rw [hw]; exact hf.fixed_mono _ hn.fixed
      · rw [hw, hu]; exact hn.label
      · intro hint
        obtain ⟨i1, i2, i3, i4⟩ := hn.internal hint
        rw [hw, hu, hv.base_old q hq']
        refine ⟨i1, i2, Nat.lt_of_lt_of_le i3 hf.num_le.1, fun hl => ?_⟩
        rw [hf.used _ (hbase_ne q hq' hint) hl]
        apply i4
        have := hf.first_live_le
        omega
      · intro hint
        obtain ⟨a1, i, a2, a3, a4⟩ := hn.leaf hint
        rw [hw, hu]
        refine ⟨a1, i, a2, ?_⟩
        have hout : ¬ (r.begin_ ≤ i ∧ i < r.end_) := by
          intro hc
          have hpi := (hr.exact i).1 hc
          rcases prefix_comparable a2.2 hpi.2 with h1 | h1
          · by_cases he : q = range_path K b r
            · rw [he] at hq'
              exact not_done_of_pending hpend_p hq'
            · exact hint (internal_of_proper hr.node h1 he)
          · exact hq'.2 r hrm h1
        rw [hkey_out i hout]
        exact ⟨a3, a4⟩
    · subst hq'
      refine ⟨?_, ?_, fun _ => ⟨?_, ?_, ?_, fun _ => ?_⟩, fun hnint => absurd hv.internal hnint⟩
      · rw [hwalk_self]; exact hf.fixed_mono _ hr.fixed
      · rw [hwalk_self, hf.label]; exact hr.label
      · rw [hwalk_self, hf.is_leaf]; exact hr.is_leaf
      · rw [hwalk_self, hf.is_end, hr.is_end, Bool.false_or, decide_eq_true_iff]
        have hb := hv.byte r.begin_ (Nat.le_refl _) hr.lt
        rw [hb.1]
        constructor
        · intro h0
          exact ⟨r.begin_, (pre_snoc_iff hb.2).2 ⟨hr.pre_begin, h0⟩⟩
        · rintro ⟨i, hi⟩
          have hp := pre_mono hi (List.prefix_append _ _)
          obtain ⟨hi1, hi2⟩ := (hr.exact i).2 hp
          have h0 := ((pre_snoc_iff (hv.byte i hi1 hi2).2).1 hi).2
          have := ext_mono hK hi1 hr.pre_begin hp
          omega
      · rw [hv.base_self]; exact hf.live.2
      · rw [hv.base_self]; exact hf.used_self
  · -- inj
    intro q1 q2 h1 h2 hw
    rcases hcreated q1 h1 with c1 | ⟨x, hx, rfl⟩ <;> rcases hcreated q2 h2 with c2 | ⟨y, hy, rfl⟩
    · rw [hv.walk_old q1 c1, hv.walk_old q2 c2] at hw
      exact h.inj q1 q2 c1 c2 hw
    · rw [hv.walk_old q1 c1, hwalk_child] at hw
      have := hfixed_old q1 c1
      rw [hw] at this
      exact absurd this (hf.child y hy).2.1
    · rw [hv.walk_old q2 c2, hwalk_child] at hw
      have := hfixed_old q2 c2
      rw [← hw] at this
      exact absurd this (hf.child x hx).2.1
    · rw [hwalk_child, hwalk_child] at hw
      rw [xor_left_inj hw]
  · -- base_inj
    intro q1 q2 h1 i1 h2 i2 hb
    by_cases e1 : q1 = range_path K b r <;> by_cases e2 : q2 = range_path K b r
    · rw [e1, e2]
    · have d2 := hdone_old q2 h2 i2 e2
      rw [e1, hv.base_self, hv.base_old q2 d2] at hb
      exact absurd hb.symm (hbase_ne q2 d2 i2)
    · have d1 := hdone_old q1 h1 i1 e1
      rw [e2, hv.base_self, hv.base_old q1 d1] at hb
      exact absurd hb (hbase_ne q1 d1 i1)
    · have d1 := hdone_old q1 h1 i1 e1
      have d2 := hdone_old q2 h2 i2 e2
      rw [hv.base_old q1 d1, hv.base_old q2 d2] at hb
      exact h.base_inj q1 q2 d1 i1 d2 i2 hb
  · -- owner
    intro q hq hint j hj hjb
    by_cases e1 : q = range_path K b r
    · subst e1
      rw [hv.base_self] at hjb
      by_cases hjo : b.Fixed j
      · exfalso
        rw [hlabel3 j hjo] at hjb
        rcases h.live_labels j hjo with h1 | h1
        · have := xor_byte_lt j (b.unit j).label _ (DoubleArrayUnit.label_lt _) h1
          omega
        · rw [hjb, hunused_o] at h1
          cases h1
      · rcases hf.newly j hj hjo with ⟨x, hx, hxj⟩ | hd
        · exact ⟨x.1, Or.inr ((hv.pend_iff _).2 (Or.inl ⟨x, hx, rfl⟩)), by rw [hwalk_child, hxj]⟩
        · exfalso
          have h1 := hd.1
          rw [e256] at h1
          have := xor_byte_lt j (b3.unit j).label _ (DoubleArrayUnit.label_lt _) h1
          have := hf.live.1
          omega
    · have d1 := hdone_old q hq hint e1
      rw [hv.base_old q d1] at hjb
      by_cases hjo : b.Fixed j
      · rw [hlabel3 j hjo] at hjb
        obtain ⟨c, hc, hw⟩ := h.owner q d1 hint j hjo hjb
        exact ⟨c, hcreated' _ hc, by rw [hv.walk_old _ hc]; exact hw⟩
      · exfalso
        rcases hf.newly j hj hjo with ⟨x, hx, hxj⟩ | hd
        · rw [hxj, (hf.child x hx).2.2, (default_set_label x.1 (hlab256 x hx)).1,
            xor_xor_cancel_right] at hjb
          exact hbase_ne q d1 hint hjb.symm
        · exact hd.2.1 ⟨q, d1, hint, hjb.symm⟩
  · -- live_labels
    intro j hj
    by_cases hjo : b.Fixed j
    · rw [hlabel3 j hjo]
      rcases h.live_labels j hjo with h1 | h1
      · left
        have := hf.first_live_le
        omega
      · by_cases hvo : j ^^^ (b.unit j).label = o
        · right; rw [hvo]; exact hf.used_self
        · by_cases hl : 256 * b3.first_live ≤ j ^^^ (b.unit j).label
          · right
            rw [hf.used _ hvo hl]; exact h1
          · left
            have := xor_byte_lt (j ^^^ (b.unit j).label) (b.unit j).label _
              (DoubleArrayUnit.label_lt _) (Nat.lt_of_not_le hl)
            rw [xor_xor_cancel_right] at this
            exact this
    · rcases hf.newly j hj hjo with ⟨x, hx, hxj⟩ | hd
      · right
        rw [hxj, (hf.child x hx).2.2, (default_set_label x.1 (hlab256 x hx)).1,
          xor_xor_cancel_right]
        exact hf.used_self
      · left; exact hd.1
  · -- leaf_owner
    intro j hj hleaf
    by_cases hjo : b.Fixed j
    · rw [hleaf3 j hjo] at hleaf
      obtain ⟨q, hq, hqi, hw⟩ := h.leaf_owner j hjo hleaf
      exact ⟨q, (hv.done_iff q).2 (Or.inl hq), hqi, by rw [hv.walk_old q (Or.inl hq)]; exact hw⟩
    · exfalso
      rcases hf.newly j hj hjo with ⟨x, hx, hxj⟩ | hd
      · rw [hxj, (hf.child x hx).2.2, (default_set_label x.1 (hlab256 x hx)).2.1] at hleaf
        cases hleaf
      · rw [hd.2.2] at hleaf
        cases hleaf
  · -- one
    obtain ⟨o1, o2, o3⟩ := h.one
    have hne : (1 : Nat) ≠ r.index := by
      intro hc
      exact o3 _ (Or.inr hpend_p) (by rw [← hr.index, ← hc])
    refine ⟨hf.fixed_mono 1 o1, ?_, ?_⟩
    · rw [hf.unit_old 1 o1 hne]; exact o2
    · intro q hq
      rcases hcreated q hq with c1 | ⟨x, hx, rfl⟩
      · rw [hv.walk_old q c1]; exact o3 q c1
      · rw [hwalk_child]
        intro hc
        have := (hf.child x hx).2.1
        rw [hc] at this
        exact this o1
  · -- count
    have := h.count
    rw [hf.progress, List.map_append, List.sum_append]
    rw [List.map_cons, List.sum_cons] at this
    have hs : ((child_ranges o Z).map DoubleArrayKeyRange.size).sum = r.size := by
      unfold child_ranges
      rw [List.map_map]
      have := hf.runs.sizes
      unfold DoubleArrayKeyRange.size at this ⊢
      exact this
    rw [hs]
    exact this
  · -- progress
    rw [hf.progress]
    exact h.progress

end Darts

namespace Darts

/-- The first bytes of the keys of a range that is not a leaf are the bytes of
the extended keys at the depth of the range. -/
theorem range_byte {K : List DoubleArrayKey} (hK : KeysOK K) {b : DoubleArrayBuilder}
    {r : DoubleArrayKeyRange} {rest : List DoubleArrayKeyRange} (h : TrieInv K b (r :: rest))
    (hnl : ¬ (r.index ≠ 0 ∧ r.size = 1)) (i : Nat) (h1 : r.begin_ ≤ i) (h2 : i < r.end_) :
    (b.keys.getD i default).get 0 = (ext_at K i).getD (range_path K b r).length 0 ∧
      (range_path K b r).length < (ext_at K i).length := by
  have hr : RangeOK K b r := h.range r (List.mem_cons_self _ _)
  have hint := internal_of_range h hnl
  have hpre := (hr.exact i).1 ⟨h1, h2⟩
  have hlt := internal_length_lt hK hint hpre
  have hel := ext_length hK hpre.1
  have hpos : (b.keys.getD i default).pos = (range_path K b r).length := by
    rw [hr.len]; exact hr.depth i h1 h2
  have := key_get_zero hK h.keys hpre.1 (by rw [hpos]; omega)
  rw [hpos] at this
  exact ⟨this, hlt⟩

theorem basesUsed_of_inv {K : List DoubleArrayKey} {b : DoubleArrayBuilder}
    {stack : List DoubleArrayKeyRange} (h : TrieInv K b stack) :
    DoubleArrayBuilder.BasesUsed (IsBaseOf K b stack) b := by
  rintro u ⟨q, hq, hint, rfl⟩
  obtain ⟨_, _, h3, h4⟩ := (h.done q hq).internal hint
  exact ⟨h3, h4⟩

/-- One iteration of the loop of `build_trie_subroutine` returns and keeps the
invariant; the node of the range becomes a processed node. -/
theorem build_trie_step_spec {K : List DoubleArrayKey} (hK : KeysOK K) {b : DoubleArrayBuilder}
    {r : DoubleArrayKeyRange} {rest : List DoubleArrayKeyRange} (h : TrieInv K b (r :: rest))
    (hn : b.num_of_units + 256 ≤ 2 ^ 29) :
    ∃ b' stack', b.build_trie_step r rest = .ok (b', stack') ∧ TrieInv K b' stack' ∧
      b.num_of_units ≤ b'.num_of_units ∧ b'.num_of_units ≤ b.num_of_units + 256 ∧
      ∀ q, Done K b' stack' q ↔ (Done K b (r :: rest) q ∨ q = range_path K b r) := by
  have hr : RangeOK K b r := h.range r (List.mem_cons_self _ _)
  by_cases hl : r.index ≠ 0 ∧ r.size = 1
  · obtain ⟨h1, h2⟩ := leaf_step h hl
    refine ⟨leaf_state b r, rest, build_trie_step_leaf b r rest hl, h1, ?_, ?_, h2⟩
    · rw [leaf_state_num]
    · rw [leaf_state_num]; omega
  · have hb := range_byte hK h hl
    obtain ⟨o, Z, b3, hstep, hf⟩ := internal_run (IsBaseOf K b (r :: rest)) b r rest hl h.alloc
      h.covered (basesUsed_of_inv h) hr.fixed hr.lt (by rw [h.keys.length]; exact hr.le)
      (by
        intro i j h1 h2 h3
        rw [(hb i h1 (by omega)).1, (hb j (by omega) h3).1]
        exact ext_mono hK h2 ((hr.exact i).1 ⟨h1, by omega⟩) ((hr.exact j).1 ⟨by omega, h3⟩))
      (by
        intro i h1 h2
        rw [(hb i h1 h2).1]
        exact ext_byte_lt hK ((hr.exact i).1 ⟨h1, h2⟩).1 _)
      hn
    have hv := step_view hK h hl hf
    exact ⟨b3, _, hstep, internal_step hK h hl hf, hf.num_le.1, hf.num_le.2, hv.done_iff⟩

end Darts

namespace Darts

theorem grows_ok {α : Type} (size : α → Nat) (n : Nat) (a : α) (h : n ≤ size a) :
    Grows size n (Except.ok a) := by
  intro a' h'
  injection h' with h'
  rw [← h']; exact h

theorem grows_pure {α : Type} (size : α → Nat) (n : Nat) (a : α) (h : n ≤ size a) :
    Grows size n (pure a : Except DartsError α) := grows_ok size n a h

theorem grows_error {α : Type} (size : α → Nat) (n : Nat) (e : DartsError) :
    Grows size n (Except.error e : Except DartsError α) := by
  intro a h; cases h

theorem grows_bind {α β : Type} (sa : α → Nat) (sb : β → Nat) (n : Nat) (x : Except DartsError α)
    (f : α → Except DartsError β) (hx : Grows sa n x) (hf : ∀ a, n ≤ sa a → Grows sb n (f a)) :
    Grows sb n (x >>= f) := by
  intro r h
  cases x with
  | error e => cases h
  | ok a => exact hf a (hx a rfl) r h

theorem grows_ite {α : Type} (size : α → Nat) (n : Nat) (c : Prop) [Decidable c]
    (x y : Except DartsError α) (hx : Grows size n x) (hy : Grows size n y) :
    Grows size n (if c then x else y) := by
  split
  · exact hx
  · exact hy

namespace DoubleArrayBuilder

theorem grows_fix_block_loop (end_ U : Nat) : ∀ (fuel : Nat) (b : DoubleArrayBuilder),
    Grows num_of_units b.num_of_units (fix_block_loop end_ U fuel b) := by
  intro fuel
  induction fuel with
  | zero =>
    intro b
    unfold fix_block_loop
    apply grows_ite
    · exact grows_error _ _ _
    · exact grows_ok _ _ _ (Nat.le_refl _)
  | succ fuel ih =>
    intro b
    unfold fix_block_loop
    apply grows_ite
    · have := ih { (b.reserve_index_core b.unfixed_index).set_unit b.unfixed_index
          (((b.reserve_index_core b.unfixed_index).unit b.unfixed_index).set_label
            ((b.unfixed_index ^^^ U) % 256)) with
        num_of_unused_indices := ((b.reserve_index_core b.unfixed_index).set_unit b.unfixed_index
          (((b.reserve_index_core b.unfixed_index).unit b.unfixed_index).set_label
            ((b.unfixed_index ^^^ U) % 256))).num_of_unused_indices + 1 }
      have e : num_of_units { (b.reserve_index_core b.unfixed_index).set_unit b.unfixed_index
          (((b.reserve_index_core b.unfixed_index).unit b.unfixed_index).set_label
            ((b.unfixed_index ^^^ U) % 256)) with
        num_of_unused_indices := ((b.reserve_index_core b.unfixed_index).set_unit b.unfixed_index
          (((b.reserve_index_core b.unfixed_index).unit b.unfixed_index).set_label
            ((b.unfixed_index ^^^ U) % 256))).num_of_unused_indices + 1 } = b.num_of_units := by
        show ((b.reserve_index_core b.unfixed_index).set_unit _ _).num_of_units = _
        simp
      rw [e] at this
      exact this
    · exact grows_ok _ _ _ (Nat.le_refl _)

theorem grows_fix_block (b : DoubleArrayBuilder) (k : Nat) :
    Grows num_of_units b.num_of_units (b.fix_block k) := by
  unfold fix_block
  apply grows_ite
  · exact grows_ok _ _ _ (Nat.le_refl _)
  · exact grows_fix_block_loop _ _ _ _

theorem num_link_new_units (d : Nat) : ∀ (fuel i : Nat) (b : DoubleArrayBuilder),
    (link_new_units d fuel i b).num_of_units = b.num_of_units := by
  intro fuel
  induction fuel with
  | zero => intro i b; rfl
  | succ fuel ih =>
    intro i b
    unfold link_new_units
    split
    · rw [ih]; simp
    · rfl

theorem num_link_block (n : Nat) (b : DoubleArrayBuilder) :
    (link_block n b).num_of_units = b.num_of_units := by
  unfold link_block
  simp [num_link_new_units]

theorem num_allocate_block (n : Nat) (b : DoubleArrayBuilder) :
    (allocate_block n b).num_of_units = b.num_of_units + 256 := by
  unfold allocate_block
  simp only []
  split
  · show (b.units ++ List.replicate 256 default).length = _
    rw [List.length_append, List.length_replicate]; rfl
  · show (b.units ++ List.replicate 256 default).length = _
    rw [List.length_append, List.length_replicate]; rfl

theorem grows_expand_trie (b : DoubleArrayBuilder) :
    Grows num_of_units b.num_of_units b.expand_trie := by
  unfold expand_trie
  apply grows_bind num_of_units
  · apply grows_ite
    · exact grows_fix_block _ _
    · exact grows_pure _ _ _ (Nat.le_refl _)
  · intro a ha
    apply grows_pure
    rw [num_link_block, num_allocate_block]
    omega

theorem grows_reserve_index (b : DoubleArrayBuilder) (i : Nat) :
    Grows num_of_units b.num_of_units (b.reserve_index i) := by
  unfold reserve_index
  apply grows_bind num_of_units
  · apply grows_ite
    · exact grows_expand_trie _
    · exact grows_pure _ _ _ (Nat.le_refl _)
  · intro a ha
    apply grows_pure
    simp
    exact ha

theorem grows_mono {α : Type} (size : α → Nat) {n m : Nat} (x : Except DartsError α)
    (h : Grows size m x) (hnm : n ≤ m) : Grows size n x :=
  fun a ha => Nat.le_trans hnm (h a ha)

theorem grows_reserve_children (o : Nat) : ∀ (l : List (Nat × DoubleArrayKeyRange))
    (b : DoubleArrayBuilder) (stack : List DoubleArrayKeyRange),
    Grows (fun x => x.1.num_of_units) b.num_of_units (reserve_children o l b stack) := by
  intro l
  induction l with
  | nil => intro b stack; exact grows_ok _ _ _ (Nat.le_refl _)
  | cons x rest ih =>
    intro b stack
    obtain ⟨label, range⟩ := x
    unfold reserve_children
    apply grows_bind num_of_units
    · exact grows_reserve_index _ _
    · intro a ha
      apply grows_mono _ _ (ih _ _)
      simp
      exact ha

theorem grows_build_trie_step (b : DoubleArrayBuilder) (r : DoubleArrayKeyRange)
    (stack : List DoubleArrayKeyRange) :
    Grows (fun x => x.1.num_of_units) b.num_of_units (b.build_trie_step r stack) := by
  by_cases hl : r.index ≠ 0 ∧ r.size = 1
  · rw [build_trie_step_leaf b r stack hl]
    apply grows_ok
    show b.num_of_units ≤ (leaf_state b r).num_of_units
    rw [leaf_state_num]
  · rw [build_trie_step_eq b r stack hl]
    have hsb : (step_base b r).num_of_units = b.num_of_units := by
      unfold step_base
      split <;> simp
    intro res hres
    cases h1 : find_offset_index { step_base b r with keys := (list_labels r.end_
        (r.end_ - r.begin_) r.begin_ (step_base b r).keys
        [(b.keys.getD r.begin_ default).get 0] [] r.begin_).1 } r.index
        (list_labels r.end_ (r.end_ - r.begin_) r.begin_ (step_base b r).keys
        [(b.keys.getD r.begin_ default).get 0] [] r.begin_).2.1 with
    | error e => rw [h1] at hres; cases hres
    | ok o =>
      rw [h1] at hres
      simp only [Except.bind] at hres
      cases h2 : ((step_base b r).unit r.index).set_offset (r.index ^^^ o) with
      | error e => rw [h2] at hres; cases hres
      | ok u =>
        rw [h2] at hres
        simp only [Except.bind] at hres
        generalize hL : ((list_labels r.end_ (r.end_ - r.begin_) r.begin_ (step_base b r).keys
          [(b.keys.getD r.begin_ default).get 0] [] r.begin_).2.1.zip
            ((list_labels r.end_ (r.end_ - r.begin_) r.begin_ (step_base b r).keys
              [(b.keys.getD r.begin_ default).get 0] [] r.begin_).2.2.1 ++
              [⟨(list_labels r.end_ (r.end_ - r.begin_) r.begin_ (step_base b r).keys
                [(b.keys.getD r.begin_ default).get 0] [] r.begin_).2.2.2, r.end_, 0⟩])).reverse = L
          at hres
        generalize hk : (list_labels r.end_ (r.end_ - r.begin_) r.begin_ (step_base b r).keys
              [(b.keys.getD r.begin_ default).get 0] [] r.begin_).1 = keys at hres
        cases h3 : reserve_children o L (step_linked b r keys u) stack with
        | error e => rw [h3] at hres; cases hres
        | ok res3 =>
          rw [h3] at hres
          simp only [Except.bind] at hres
          injection hres with hres
          rw [← hres]
          show b.num_of_units ≤ (mark_used res3.1 o).num_of_units
          rw [mark_used_num]
          have := grows_reserve_children o L (step_linked b r keys u) stack res3 h3
          have e : (step_linked b r keys u).num_of_units = b.num_of_units := by
            unfold step_linked
            simp
            exact hsb
          rw [e] at this
          exact this

theorem grows_build_trie_loop : ∀ (fuel : Nat) (b : DoubleArrayBuilder)
    (stack : List DoubleArrayKeyRange),
    Grows num_of_units b.num_of_units (build_trie_loop fuel b stack) := by
  intro fuel
  induction fuel with
  | zero =>
    intro b stack
    cases stack with
    | nil => exact grows_ok _ _ _ (Nat.le_refl _)
    | cons r s => exact grows_error _ _ _
  | succ fuel ih =>
    intro b stack
    cases stack with
    | nil => exact grows_ok _ _ _ (Nat.le_refl _)
    | cons r s =>
      unfold build_trie_loop
      apply grows_bind (fun x => x.1.num_of_units)
      · exact grows_build_trie_step _ _ _
      · intro x hx
        exact grows_mono _ _ (ih _ _) hx

end DoubleArrayBuilder

end Darts

namespace Darts

theorem mem_inits_tail {l q : List Nat} (h : q <+: l) (hne : q ≠ []) : q ∈ l.inits.tail := by
  cases l with
  | nil =>
    exact absurd (List.prefix_nil.1 h) hne
  | cons a t =>
    rw [List.inits]
    simp only [List.tail_cons]
    have := (List.mem_inits q (a :: t)).2 h
    rw [List.inits] at this
    rcases List.mem_cons.1 this with h1 | h1
    · exact absurd h1 hne
    · exact h1

theorem length_all_prefixes {K : List DoubleArrayKey} (hK : KeysOK K) :
    (all_prefixes K).length = DoubleArrayBuilder.trie_fuel K := by
  unfold all_prefixes DoubleArrayBuilder.trie_fuel
  rw [List.length_cons, List.length_flatten, List.map_map]
  congr 1
  congr 1
  apply List.map_congr_left
  intro k hk
  show (k.ext.inits.tail).length = _
  rw [List.length_tail, List.length_inits]
  unfold DoubleArrayKey.ext
  rw [List.length_append, DoubleArrayKey.bytes_length _ (hK.wf k hk).1]
  rfl

theorem mem_all_prefixes {K : List DoubleArrayKey} {q : List Nat} {i : Nat} (h : Pre K q i) :
    q ∈ all_prefixes K := by
  unfold all_prefixes
  by_cases hq : q = []
  · rw [hq]; exact List.mem_cons_self _ _
  · apply List.mem_cons_of_mem
    rw [List.mem_flatten]
    refine ⟨_, List.mem_map_of_mem _ (getD_mem' h.1), ?_⟩
    exact mem_inits_tail h.2 hq

theorem card_done_le {K : List DoubleArrayKey} (hK : KeysOK K) (D : Finset (List Nat))
    (hD : ∀ q, q ∈ D → IsNode K q) : D.card ≤ DoubleArrayBuilder.trie_fuel K := by
  rw [← length_all_prefixes hK]
  refine Nat.le_trans (Finset.card_le_card ?_) (List.toFinset_card_le _)
  intro q hq
  rw [List.mem_toFinset]
  obtain ⟨i, hi⟩ := (hD q hq).1
  exact mem_all_prefixes hi

/-- The loop of `build_trie_subroutine` returns when the fuel covers the nodes
that are still to be processed, and it keeps the invariant. -/
theorem build_trie_loop_total {K : List DoubleArrayKey} (hK : KeysOK K)
    (hsize : 256 * (DoubleArrayBuilder.trie_fuel K + 1) ≤ 2 ^ 29) :
    ∀ (fuel : Nat) (b : DoubleArrayBuilder) (stack : List DoubleArrayKeyRange)
      (D : Finset (List Nat)),
      TrieInv K b stack → (∀ q, q ∈ D ↔ Done K b stack q) →
      DoubleArrayBuilder.trie_fuel K ≤ D.card + fuel → b.num_of_units ≤ 256 * (D.card + 1) →
      ∃ bf, DoubleArrayBuilder.build_trie_loop fuel b stack = .ok bf ∧ TrieInv K bf [] ∧
        b.num_of_units ≤ bf.num_of_units ∧
        bf.num_of_units ≤ 256 * (DoubleArrayBuilder.trie_fuel K + 1) := by
  intro fuel
  induction fuel with
  | zero =>
    intro b stack D h hD hfuel hnum
    have hcard := card_done_le hK D (fun q hq => ((hD q).1 hq).1)
    cases stack with
    | nil =>
      exact ⟨b, rfl, h, Nat.le_refl _, by omega⟩
    | cons r rest =>
      exfalso
      have hr := h.range r (List.mem_cons_self _ _)
      have hp : range_path K b r ∉ D := fun hc =>
        not_done_of_pending ⟨r, List.mem_cons_self _ _, rfl⟩ ((hD _).1 hc)
      have := card_done_le hK (insert (range_path K b r) D) (fun q hq => by
        rcases Finset.mem_insert.1 hq with h1 | h1
        · rw [h1]; exact hr.node
        · exact ((hD q).1 h1).1)
      rw [Finset.card_insert_of_not_mem hp] at this
      omega
  | succ fuel ih =>
    intro b stack D h hD hfuel hnum
    have hcard := card_done_le hK D (fun q hq => ((hD q).1 hq).1)
    cases stack with
    | nil =>
      exact ⟨b, rfl, h, Nat.le_refl _, by omega⟩
    | cons r rest =>
      have hr := h.range r (List.mem_cons_self _ _)
      have hp : range_path K b r ∉ D := fun hc =>
        not_done_of_pending ⟨r, List.mem_cons_self _ _, rfl⟩ ((hD _).1 hc)
      have hins := card_done_le hK (insert (range_path K b r) D) (fun q hq => by
        rcases Finset.mem_insert.1 hq with h1 | h1
        · rw [h1]; exact hr.node
        · exact ((hD q).1 h1).1)
      rw [Finset.card_insert_of_not_mem hp] at hins
      obtain ⟨b', stack', hstep, hinv', hn1, hn2, hdone⟩ :=
        build_trie_step_spec hK h (by omega)
      obtain ⟨bf, hloop, hinvf, hn3, hn4⟩ := ih b' stack' (insert (range_path K b r) D) hinv'
        (fun q => by
          rw [Finset.mem_insert, hdone q, hD q]
          constructor
          · rintro (h1 | h1)
            · exact Or.inr h1
            · exact Or.inl h1
          · rintro (h1 | h1)
            · exact Or.inr h1
            · exact Or.inl h1)
        (by rw [Finset.card_insert_of_not_mem hp]; omega)
        (by rw [Finset.card_insert_of_not_mem hp]; omega)
      refine ⟨bf, ?_, hinvf, by omega, hn4⟩
      unfold DoubleArrayBuilder.build_trie_loop
      rw [hstep]
      exact hloop

/-- When the loop of `build_trie_subroutine` returns a builder that is not too
large, the invariant holds of it. -/
theorem build_trie_loop_partial {K : List DoubleArrayKey} (hK : KeysOK K) :
    ∀ (fuel : Nat) (b bf : DoubleArrayBuilder) (stack : List DoubleArrayKeyRange),
      TrieInv K b stack → DoubleArrayBuilder.build_trie_loop fuel b stack = .ok bf →
      bf.num_of_units < 2 ^ 29 → TrieInv K bf [] := by
  intro fuel
  induction fuel with
  | zero =>
    intro b bf stack h hloop hn
    cases stack with
    | nil =>
      injection hloop with hloop
      rw [← hloop]; exact h
    | cons r rest => cases hloop
  | succ fuel ih =>
    intro b bf stack h hloop hn
    cases stack with
    | nil =>
      injection hloop with hloop
      rw [← hloop]; exact h
    | cons r rest =>
      have hle := DoubleArrayBuilder.grows_build_trie_loop (fuel + 1) b (r :: rest) bf hloop
      have h256 : b.num_of_units % 256 = 0 := by
        have := DoubleArrayBuilder.num_of_units_eq h.alloc
        have e : BLOCK_SIZE = 256 := rfl
        rw [this, e]
        exact Nat.mul_mod_right _ _
      obtain ⟨b', stack', hstep, hinv', _, _, _⟩ := build_trie_step_spec hK h (by omega)
      unfold DoubleArrayBuilder.build_trie_loop at hloop
      rw [hstep] at hloop
      exact ih b' bf stack' hinv' hloop hn

end Darts

namespace Darts

theorem build_trie_eq (b : DoubleArrayBuilder) :
    b.build_trie =
      Except.bind (b.reserve_index 0) (fun b1 =>
      Except.bind (b1.reserve_index 1) (fun b2 =>
      Except.bind (((mark_used b2 0).unit 0).set_offset 1) (fun u =>
      Except.bind (if !(trie_start b2 u).keys.isEmpty then (trie_start b2 u).build_trie_subroutine
        else pure (trie_start b2 u)) (fun b3 =>
      Except.bind b3.fix_all_blocks (fun b4 =>
      Except.bind ((b4.unit 1).set_offset b4.num_of_units) (fun u1 =>
      Except.ok (b4.set_unit 1 u1))))))) := rfl

theorem allocInv_init (K : List DoubleArrayKey) : (DoubleArrayBuilder.init K).AllocInv := by
  refine ⟨rfl, ?_, ?_, ?_, ?_, ?_, ?_⟩
  · intro j _ h2
    exact absurd h2 (Nat.not_lt_zero _)
  · intro j
    exact DoubleArrayUnit.wf_default
  · intro j hj
    exact absurd hj.2.1 (Nat.not_lt_zero _)
  · intro j hj
    exact absurd hj.2.1 (Nat.not_lt_zero _)
  · intro j hj
    exact absurd hj.2.1 (Nat.not_lt_zero _)
  · right
    exact ⟨rfl, fun z hz => absurd hz.2.1 (Nat.not_lt_zero _)⟩

theorem start_spec (K : List DoubleArrayKey) :
    ∃ b1 b2 u, (DoubleArrayBuilder.init K).reserve_index 0 = .ok b1 ∧
      b1.reserve_index 1 = .ok b2 ∧ ((mark_used b2 0).unit 0).set_offset 1 = .ok u ∧
      StartOK K (trie_start b2 u) := by
  have hinv0 := allocInv_init K
  have hc0 : (DoubleArrayBuilder.init K).UsedCovered := by
    intro u _ h2
    exact absurd h2 (Nat.not_lt_zero _)
  have hbu0 : DoubleArrayBuilder.BasesUsed (fun _ => False) (DoubleArrayBuilder.init K) :=
    fun u hu => absurd hu id
  have hnum0 : (DoubleArrayBuilder.init K).num_of_units = 0 := rfl
  obtain ⟨b1, hb1, r1⟩ := DoubleArrayBuilder.reserve_index_spec (fun _ => False)
    (DoubleArrayBuilder.init K) 0 hinv0 hc0 hbu0 (by rw [hnum0]; decide)
    (Or.inr ⟨by rw [hnum0], by rw [hnum0]; decide⟩)
  have hn1 : b1.num_of_units = 256 := by
    rw [r1.num_new (by rw [hnum0]), hnum0]
  have hfree1 : ∀ j, j < 256 → j ≠ 0 → b1.Free j := by
    intro j h1 h2
    exact r1.free_new (by rw [hnum0]) j (by rw [hnum0]; omega) (by rw [hnum0]; omega) h2
  obtain ⟨b2, hb2, r2⟩ := DoubleArrayBuilder.reserve_index_spec (fun _ => False) b1 1 r1.inv
    (DoubleArrayBuilder.usedCovered_of_evolves r1.evolves hinv0 hc0)
    (DoubleArrayBuilder.basesUsed_of_evolves r1.evolves hbu0) (by rw [hn1]; decide)
    (Or.inl (hfree1 1 (by decide) (by decide)))
  have hn2 : b2.num_of_units = 256 := by
    rw [r2.num_old (by rw [hn1]; decide), hn1]
  have hblocks : b2.extras.length = 1 := by
    have := DoubleArrayBuilder.num_of_units_eq r2.inv
    have e : BLOCK_SIZE = 256 := rfl
    unfold DoubleArrayBuilder.num_of_blocks at this
    rw [hn2, e] at this
    omega
  have hfl2 : b2.first_live = 0 := by
    rw [DoubleArrayBuilder.first_live_eq, hblocks]
  have hfix0 : b2.Fixed 0 := r2.evolves.fixed_mono 0 r1.fixed
  have hu0 : b2.unit 0 = default := by
    rw [r2.evolves.unit_fixed 0 r1.fixed]; exact r1.unit_eq
  have hfree2 : ∀ j, b2.Free j ↔ (j < 256 ∧ 2 ≤ j) := by
    intro j
    rw [r2.free_old (by rw [hn1]; decide)]
    constructor
    · rintro ⟨h1, h2⟩
      have h3 := h1.2.1
      rw [hn1] at h3
      refine ⟨h3, ?_⟩
      by_contra hc
      have : j = 0 := by omega
      rw [this] at h1
      exact DoubleArrayBuilder.not_fixed_of_free h1 r1.fixed
    · rintro ⟨h1, h2⟩
      exact ⟨hfree1 j h1 (by omega), by omega⟩
  have hfixed2 : ∀ j, b2.Fixed j ↔ j < 2 := by
    intro j
    constructor
    · intro hj
      by_contra hc
      have h1 := hj.1
      rw [hn2] at h1
      exact DoubleArrayBuilder.not_fixed_of_free ((hfree2 j).2 ⟨h1, by omega⟩) hj
    · intro hj
      have : j = 0 ∨ j = 1 := by omega
      rcases this with h | h
      · rw [h]; exact hfix0
      · rw [h]; exact r2.fixed
  have hused2 : ∀ j, (b2.extra j).is_used = false := by
    intro j
    rw [r2.evolves.used j (by rw [hfl2]; exact Nat.zero_le _),
      r1.evolves.used j (by
        have := r2.evolves.first_live_le
        rw [hfl2] at this
        have e : b1.first_live = 0 := by omega
        rw [e]; exact Nat.zero_le _)]
    rw [DoubleArrayBuilder.extra_of_ge hinv0 (by rw [hnum0]; exact Nat.zero_le _)]
    rfl
  have hlive0 : b2.Live 0 := r2.inv.live 0 (by rw [hfl2]; exact Nat.zero_le _) (by rw [hn2]; decide)
  have hm0 : (mark_used b2 0).unit 0 = default := by rw [mark_used_unit]; exact hu0
  have hset := DoubleArrayUnit.set_offset_ok ((mark_used b2 0).unit 0) 1 (by decide)
  generalize hu : DoubleArrayUnit.set 10 22 ((mark_used b2 0).unit 0)
    (if 1 < DoubleArrayUnit.OFFSET_MAX then 1 else (1 <<< 21) + (1 >>> 8)) = u at hset
  have hwf0 : ((mark_used b2 0).unit 0).wf := by rw [hm0]; exact DoubleArrayUnit.wf_default
  obtain ⟨u1, u2, u3, u4, u5⟩ := DoubleArrayUnit.set_offset_spec hwf0 hset
  rw [hm0] at u2 u3 u4
  refine ⟨b1, b2, u, hb1, hb2, hset, ?_⟩
  have hmi := mark_used_allocInv b2 0 r2.inv hlive0
  have hmf := fun j => mark_used_fixed b2 0 j hlive0
  have hnf0 : ¬ (mark_used b2 0).Free 0 := fun hc =>
    DoubleArrayBuilder.not_fixed_of_free hc ((hmf 0).2 hfix0)
  have ha1 := DoubleArrayBuilder.allocInv_set_unit _ hmi 0 u u1 hnf0
  have hlt0 : 0 < (mark_used b2 0).num_of_units := by rw [mark_used_num, hn2]; decide
  have hlt1 : 1 < (mark_used b2 0).num_of_units := by rw [mark_used_num, hn2]; decide
  have hunit_a : ((mark_used b2 0).set_unit 0 u).unit 0 = u := by
    rw [DoubleArrayBuilder.unit_set_unit, if_pos ⟨rfl, hlt0⟩]
  have hwl : (u.set_label 0).wf := DoubleArrayUnit.wf_set_label u 0 u1 (by decide)
  have ha2 := DoubleArrayBuilder.allocInv_set_unit _ ha1 0 (u.set_label 0) hwl (by
    rw [DoubleArrayBuilder.free_set_unit]; exact hnf0)
  have hunit_b0 : (((mark_used b2 0).set_unit 0 u).set_unit 0 (u.set_label 0)).unit 0
      = u.set_label 0 := by
    rw [DoubleArrayBuilder.unit_set_unit, if_pos ⟨rfl, by
      rw [DoubleArrayBuilder.num_of_units_set_unit]; exact hlt0⟩]
  have hunit_b1 : (((mark_used b2 0).set_unit 0 u).set_unit 0 (u.set_label 0)).unit 1
      = default := by
    rw [DoubleArrayBuilder.unit_set_unit, if_neg (by omega), DoubleArrayBuilder.unit_set_unit,
      if_neg (by omega), mark_used_unit]
    exact r2.unit_eq
  have hstart : trie_start b2 u = DoubleArrayBuilder.set_unit
      (DoubleArrayBuilder.set_unit (DoubleArrayBuilder.set_unit (mark_used b2 0) 0 u) 0
        (u.set_label 0)) 1 ((default : DoubleArrayUnit).set_label 1) := by
    unfold trie_start
    rw [hunit_a, hunit_b1]
  rw [hstart]
  have hnf1 : ¬ (mark_used b2 0).Free 1 := fun hc =>
    DoubleArrayBuilder.not_fixed_of_free hc ((hmf 1).2 r2.fixed)
  have ha3 := DoubleArrayBuilder.allocInv_set_unit _ ha2 1 ((default : DoubleArrayUnit).set_label 1)
    (DoubleArrayUnit.wf_set_label _ 1 DoubleArrayUnit.wf_default (by decide)) (by
    rw [DoubleArrayBuilder.free_set_unit, DoubleArrayBuilder.free_set_unit]; exact hnf1)
  refine ⟨ha3, ?_, ?_, ?_, ?_, ?_, ?_, ?_, ?_⟩
  · simp only [DoubleArrayBuilder.keys_set_unit, mark_used_keys]
    rw [r2.evolves.keys, r1.evolves.keys]; rfl
  · simp only [DoubleArrayBuilder.progress_set_unit, mark_used_progress]
    rw [r2.evolves.progress, r1.evolves.progress]; rfl
  · simp only [DoubleArrayBuilder.num_of_units_set_unit, mark_used_num]
    exact hn2
  · simp only [DoubleArrayBuilder.extras_set_unit]
    unfold mark_used
    rw [DoubleArrayBuilder.extras_length_set_extra]
    exact hblocks
  · intro j
    simp only [DoubleArrayBuilder.fixed_set_unit]
    rw [hmf]; exact hfixed2 j
  · intro j
    simp only [DoubleArrayBuilder.extra_set_unit]
    rw [mark_used_extra b2 0 j hlive0]
    split
    · rename_i h0
      rw [set_is_used_is_used]
      exact ⟨fun _ => h0, fun _ => rfl⟩
    · rename_i h0
      rw [hused2]
      exact ⟨fun h => (by cases h), fun h => absurd h h0⟩
  · have e0 : (DoubleArrayBuilder.set_unit
        (DoubleArrayBuilder.set_unit (DoubleArrayBuilder.set_unit (mark_used b2 0) 0 u) 0
          (u.set_label 0)) 1 ((default : DoubleArrayUnit).set_label 1)).unit 0 = u.set_label 0 := by
      rw [DoubleArrayBuilder.unit_set_unit, if_neg (by omega)]
      exact hunit_b0
    rw [e0, DoubleArrayUnit.offset_set_label _ _ u1 (by decide),
      DoubleArrayUnit.label_set_label _ _ u1 (by decide),
      DoubleArrayUnit.is_leaf_set_label _ _ u1 (by decide),
      DoubleArrayUnit.is_end_set_label _ _ u1 (by decide), u3, u4]
    exact ⟨u5 (Or.inl (by decide)), rfl, rfl, rfl⟩
  · rw [DoubleArrayBuilder.unit_set_unit, if_pos ⟨rfl, by
      simp only [DoubleArrayBuilder.num_of_units_set_unit]; exact hlt1⟩]

end Darts

namespace Darts

theorem start_fl {K : List DoubleArrayKey} {b : DoubleArrayBuilder} (h : StartOK K b) :
    b.first_live = 0 := by
  rw [DoubleArrayBuilder.first_live_eq, h.blocks]

theorem start_covered {K : List DoubleArrayKey} {b : DoubleArrayBuilder} (h : StartOK K b) :
    b.UsedCovered := by
  intro u _ _ h3
  have := (h.used u).1 h3
  subst this
  refine ⟨0, (h.fixed 0).2 (by decide), ?_⟩
  rw [h.zero.2.1]
  rfl

/-- The invariant holds when `build_trie_subroutine` starts. -/
theorem start_inv {K : List DoubleArrayKey} (hK : KeysOK K) (hK0 : K ≠ [])
    {b : DoubleArrayBuilder} (h : StartOK K b) :
    TrieInv K b [⟨0, K.length, 0⟩] ∧ ∀ q, ¬ Done K b [⟨0, K.length, 0⟩] q := by
  have hN : 0 < K.length := List.length_pos.2 hK0
  have hpos : ∀ i, i < K.length → (b.keys.getD i default).pos = 0 := by
    intro i hi
    rw [h.keys]
    exact (hK.wf _ (getD_mem' hi)).2
  have hpath : range_path K b ⟨0, K.length, 0⟩ = [] := by
    show (ext_at K 0).take (b.keys.getD 0 default).pos = []
    rw [hpos 0 hN]
    rfl
  have hnode : IsNode K [] := ⟨⟨0, hN, List.nil_prefix⟩, Or.inl rfl⟩
  have hnodone : ∀ q, ¬ Done K b [⟨0, K.length, 0⟩] q := by
    intro q hq
    apply hq.2 _ (List.mem_singleton_self _)
    rw [hpath]
    exact List.nil_prefix
  have hcr : ∀ q, (Done K b [⟨0, K.length, 0⟩] q ∨ Pending K b [⟨0, K.length, 0⟩] q) →
      q = [] := by
    rintro q (hq | ⟨r, hr, hq⟩)
    · exact absurd hq (hnodone q)
    · rw [List.mem_singleton] at hr
      rw [hr, hpath] at hq
      exact hq.symm
  have hunit1 := DoubleArrayUnit.label_set_label (default : DoubleArrayUnit) 1
    DoubleArrayUnit.wf_default (by decide)
  have hleaf1 : ((default : DoubleArrayUnit).set_label 1).is_leaf = false := by
    rw [DoubleArrayUnit.is_leaf_set_label _ _ DoubleArrayUnit.wf_default (by decide)]; rfl
  have hused0 : (b.extra 0).is_used = true := (h.used 0).2 rfl
  refine ⟨⟨h.alloc, start_covered h, ?_, List.pairwise_singleton _ _, ?_, ?_, ?_, ?_, ?_, ?_, ?_,
    ?_, ?_, ?_⟩, hnodone⟩
  · refine ⟨by rw [h.keys], fun i hi => ?_⟩
    rw [h.keys]
    refine ⟨rfl, rfl, ?_⟩
    rw [(hK.wf _ (getD_mem' hi)).2]
    simp
  · intro r hr
    rw [List.mem_singleton] at hr
    subst hr
    refine ⟨hN, Nat.le_refl _, ?_, ?_, ?_, ?_, ?_, (h.fixed 0).2 (by decide), h.zero.2.2.1,
      h.zero.2.2.2, ?_⟩
    · intro i _ h2
      rw [hpos i h2, hpos 0 hN]
    · intro i
      rw [hpath]
      exact ⟨fun hi => ⟨hi.2, List.nil_prefix⟩, fun hi => ⟨Nat.zero_le _, hi.1⟩⟩
    · rw [hpath]
      exact (hpos 0 hN).symm
    · rw [hpath]; exact hnode
    · rw [hpath, walk_nil]
    · rw [hpath]; exact h.zero.2.1
  · intro q hq
    exact absurd hq (hnodone q)
  · intro p q hp hq _
    rw [hcr p hp, hcr q hq]
  · intro p q hp
    exact absurd hp (hnodone p)
  · intro p hp
    exact absurd hp (hnodone p)
  · intro j hj
    right
    have : j = 0 ∨ j = 1 := by
      have := (h.fixed j).1 hj
      omega
    rcases this with h0 | h0
    · rw [h0, h.zero.2.1]
      exact hused0
    · rw [h0, h.one, hunit1]
      exact hused0
  · intro j hj hleaf
    exfalso
    have : j = 0 ∨ j = 1 := by
      have := (h.fixed j).1 hj
      omega
    rcases this with h0 | h0
    · rw [h0, h.zero.2.2.1] at hleaf
      cases hleaf
    · rw [h0, h.one, hleaf1] at hleaf
      cases hleaf
  · refine ⟨(h.fixed 1).2 (by decide), h.one, fun q hq => ?_⟩
    rw [hcr q hq, walk_nil]
    decide
  · rw [h.progress]
    simp [DoubleArrayKeyRange.size]
  · intro m hm
    rw [h.progress] at hm
    cases hm

end Darts

namespace Darts

namespace DoubleArrayBuilder

theorem usedCovered_of_post {e U : Nat} {b b' : DoubleArrayBuilder} (post : FixBlockPost e U b b')
    (hc : b.UsedCovered) : b'.UsedCovered := by
  have hfl : b'.first_live = b.first_live := by
    rw [first_live_eq, first_live_eq, post.extras_length]
  have hnum : b'.num_of_units = b.num_of_units := post.units_length
  intro u h1 h2 h3
  rw [hfl] at h1
  rw [hnum] at h2
  rw [post.used] at h3
  obtain ⟨j, hj, hb⟩ := hc u h1 h2 h3
  have hnf : ¬ (b.Free j ∧ j < e) := fun hc => not_fixed_of_free hc.1 hj
  refine ⟨j, ?_, by rw [post.unit_old j hnf]; exact hb⟩
  unfold Fixed at hj ⊢
  rw [hfl, hnum, post.fixed_old j hnf]
  exact hj

theorem fix_blocks_from_spec (b0 : DoubleArrayBuilder) (hn : b0.num_of_units < 2 ^ 31) :
    ∀ (fuel k : Nat) (b : DoubleArrayBuilder), k + fuel = b0.extras.length →
      b0.first_live ≤ k → FillInv b0 k b →
      ∃ b', fix_blocks_from b0.extras.length fuel k b = .ok b' ∧
        FillInv b0 b0.extras.length b' := by
  intro fuel
  induction fuel with
  | zero =>
    intro k b hk _ h
    have : k = b0.extras.length := by omega
    subst this
    exact ⟨b, rfl, h⟩
  | succ fuel ih =>
    intro k b hk hfl h
    unfold fix_blocks_from
    rw [if_pos (by omega)]
    have hfl' : b.first_live = b0.first_live := by
      rw [first_live_eq, first_live_eq, h.extras_length]
    have hnum : b.num_of_units = b0.num_of_units := h.units_length
    obtain ⟨b', U, hb', post, hU⟩ := fix_block_spec b h.inv h.covered (by rw [hnum]; exact hn) k
      (by rw [hfl']; exact hfl) (by show k < b.extras.length; rw [h.extras_length]; omega)
      (fun j hj => ((h.free j).1 hj).2)
    have hI : FillInv b0 (k + 1) b' := by
      refine ⟨post.inv, usedCovered_of_post post h.covered,
        post.units_length.trans h.units_length,
        post.extras_length.trans h.extras_length, post.keys.trans h.keys,
        post.progress.trans h.progress, fun j => (post.used j).trans (h.used j), ?_, ?_, ?_⟩
      · intro j
        rw [post.free, h.free]
        constructor
        · rintro ⟨⟨h1, h2⟩, h3⟩
          exact ⟨h1, by omega⟩
        · rintro ⟨h1, h2⟩
          exact ⟨⟨h1, by omega⟩, by omega⟩
      · intro j hj
        rw [post.unit_old j (fun hc => hj ((h.free j).1 hc.1).1)]
        exact h.unit_old j hj
      · intro j hj hlt
        by_cases hjk : j < 256 * k
        · obtain ⟨V, v1, v2, v4, v3⟩ := h.filler j hj hjk
          refine ⟨V, v1, v2, v4, ?_⟩
          rw [post.unit_old j (fun hc => by
            have := ((h.free j).1 hc.1).2
            omega)]
          exact v3
        · have hfr : b.Free j := (h.free j).2 ⟨hj, by omega⟩
          obtain ⟨hU1, hU2, hU3⟩ := hU ⟨j, hfr, by omega⟩
          have hjk' : j / 256 = k := by omega
          refine ⟨U, by omega, by rw [← h.used]; exact hU2, ?_, ?_⟩
          · intro v h1 h2
            rw [← h.used]
            exact hU3 v (by rw [← hjk']; exact h1) h2
          rw [post.unit_new j hfr (by omega), h.inv.free_zero j hfr]
    obtain ⟨bf, hbf, hf⟩ := ih (k + 1) b' (by omega) (by omega) hI
    refine ⟨bf, ?_, hf⟩
    rw [hb']
    exact hbf

theorem fix_all_blocks_spec (b : DoubleArrayBuilder) (hinv : b.AllocInv) (hc : b.UsedCovered)
    (hn : b.num_of_units < 2 ^ 31) : ∃ b', b.fix_all_blocks = .ok b' ∧ Filled b b' := by
  have hbegin : (if b.num_of_blocks > NUM_OF_UNFIXED_BLOCKS
      then b.num_of_blocks - NUM_OF_UNFIXED_BLOCKS else 0) = b.first_live := by
    unfold first_live
    split
    · rfl
    · rename_i h
      have : b.num_of_blocks ≤ NUM_OF_UNFIXED_BLOCKS := Nat.le_of_not_gt h
      omega
  have hfl := first_live_eq b
  obtain ⟨b', hb', hf⟩ := fix_blocks_from_spec b hn (b.extras.length - b.first_live) b.first_live b
    (by omega) (Nat.le_refl _)
    ⟨hinv, hc, rfl, rfl, rfl, rfl, fun _ => rfl,
      fun j => ⟨fun h => ⟨h, h.1⟩, fun h => h.1⟩, fun _ _ => rfl,
      fun j hj hlt => absurd hj.1 (by
        have e : BLOCK_SIZE = 256 := rfl
        rw [e]; omega)⟩
  refine ⟨b', ?_, hf.units_length, hf.keys, hf.progress, ?_, ?_⟩
  · unfold fix_all_blocks
    simp only []
    rw [hbegin]
    exact hb'
  · intro j hj
    exact hf.unit_old j (fun hc => not_fixed_of_free hc hj)
  · intro j hj hnf
    have hfree := free_of_not_fixed hj hnf
    have := num_of_units_eq hinv
    have e : BLOCK_SIZE = 256 := rfl
    unfold num_of_blocks at this
    rw [e] at this
    exact hf.filler j hfree (by omega)

end DoubleArrayBuilder

end Darts

namespace Darts

theorem done_nil_iff {K : List DoubleArrayKey} {b : DoubleArrayBuilder} (q : List Nat) :
    Done K b [] q ↔ IsNode K q :=
  ⟨fun h => h.1, fun h => ⟨h, fun r hr => (by cases hr)⟩⟩

theorem num_mod_of_alloc {b : DoubleArrayBuilder} (h : b.AllocInv) : b.num_of_units % 256 = 0 := by
  have := DoubleArrayBuilder.num_of_units_eq h
  have e : BLOCK_SIZE = 256 := rfl
  rw [this, e]
  exact Nat.mul_mod_right _ _

/-- The last statements of `build_trie` after a run of the loop return, and the
builder holds the trie of the keys. -/
theorem finish_nonempty {K : List DoubleArrayKey} {b3 : DoubleArrayBuilder}
    (h : TrieInv K b3 []) (hK0 : K ≠ []) (hn : b3.num_of_units < 2 ^ 29) :
    ∃ b4 u1, b3.fix_all_blocks = .ok b4 ∧ (b4.unit 1).set_offset b4.num_of_units = .ok u1 ∧
      b4.num_of_units = b3.num_of_units ∧ TrieOK K (b4.set_unit 1 u1) := by
  obtain ⟨b4, hb4, hf⟩ := DoubleArrayBuilder.fix_all_blocks_spec b3 h.alloc h.covered (by omega)
  have hnum4 : b4.num_of_units = b3.num_of_units := hf.units_length
  have hmod := num_mod_of_alloc h.alloc
  obtain ⟨o1, o2, o3⟩ := h.one
  have h256 : 256 ≤ b3.num_of_units := by
    have := o1.1
    omega
  have hu41 : b4.unit 1 = (default : DoubleArrayUnit).set_label 1 := by
    rw [hf.unit_old 1 o1]; exact o2
  have hwf41 : (b4.unit 1).wf := by
    rw [hu41]
    exact DoubleArrayUnit.wf_set_label _ _ DoubleArrayUnit.wf_default (by decide)
  have hset := DoubleArrayUnit.set_offset_ok (b4.unit 1) b4.num_of_units (by rw [hnum4]; exact hn)
  generalize hu : DoubleArrayUnit.set 10 22 (b4.unit 1)
    (if b4.num_of_units < DoubleArrayUnit.OFFSET_MAX then b4.num_of_units
      else (1 <<< 21) + (b4.num_of_units >>> 8)) = u1 at hset
  obtain ⟨u1wf, u1l, u1leaf, _, u1off⟩ := DoubleArrayUnit.set_offset_spec hwf41 hset
  have hdl1 := default_set_label 1 (by decide)
  rw [hu41] at u1l u1leaf
  refine ⟨b4, u1, hb4, hset, hnum4, ?_⟩
  have hlt1 : 1 < b4.num_of_units := by rw [hnum4]; omega
  have hunit : ∀ j, (b4.set_unit 1 u1).unit j = if j = 1 then u1 else b4.unit j := by
    intro j
    rw [DoubleArrayBuilder.unit_set_unit]
    by_cases hj : j = 1
    · rw [if_pos ⟨hj.symm, hlt1⟩, if_pos hj]
    · rw [if_neg (fun hc => hj hc.1.symm), if_neg hj]
  have hunit_old : ∀ j, b3.Fixed j → j ≠ 1 → (b4.set_unit 1 u1).unit j = b3.unit j := by
    intro j hj hne
    rw [hunit, if_neg hne, hf.unit_old j hj]
  have hnode_unit : ∀ q, IsNode K q →
      (b4.set_unit 1 u1).unit (walk b3.units q) = b3.unit (walk b3.units q) := by
    intro q hq
    have hd := (done_nil_iff (b := b3) q).2 hq
    exact hunit_old _ (h.done q hd).fixed (o3 q (Or.inl hd))
  have hwalk : ∀ q, IsNode K q → walk (b4.set_unit 1 u1).units q = walk b3.units q := by
    intro q hq
    apply walk_congr
    intro p hp _
    have := hnode_unit p (isNode_of_le hq hp)
    rw [unit_eq_getD, unit_eq_getD] at this
    rw [this]
  have hbase : ∀ q, IsNode K q → base_of (b4.set_unit 1 u1).units q = base_of b3.units q := by
    intro q hq
    apply base_congr
    intro p hp
    have := hnode_unit p (isNode_of_le hq hp)
    rw [unit_eq_getD, unit_eq_getD] at this
    rw [this]
  have hnumf : (b4.set_unit 1 u1).num_of_units = b3.num_of_units := by
    rw [DoubleArrayBuilder.num_of_units_set_unit]; exact hnum4
  have hkeys : (b4.set_unit 1 u1).keys = b3.keys := by
    rw [DoubleArrayBuilder.keys_set_unit]; exact hf.keys
  refine ⟨?_, ⟨by rw [hnumf]; exact hmod, by rw [hnumf]; exact h256, by rw [hnumf]; exact hn⟩,
    ?_, ?_, ?_, ?_, ?_, ?_, ?_, ?_, ?_⟩
  · -- wf
    intro j
    rw [hunit]
    split
    · exact u1wf
    · by_cases hj : j < b3.num_of_units
      · by_cases hfx : b3.Fixed j
        · rw [hf.unit_old j hfx]; exact h.alloc.wf j
        · obtain ⟨U, _, _, _, hU⟩ := hf.filler j hj hfx
          rw [hU]
          exact DoubleArrayUnit.wf_set_label _ _ DoubleArrayUnit.wf_default
            (Nat.mod_lt _ (by decide))
      · rw [DoubleArrayBuilder.unit_of_ge b4 (by rw [hnum4]; omega)]
        exact DoubleArrayUnit.wf_default
  · -- one
    rw [hunit, if_pos rfl, hnumf, ← hnum4]
    exact ⟨u1l.trans hdl1.1, u1leaf.trans hdl1.2.1, u1off (Or.inr (by rw [hnum4]; exact hmod))⟩
  · -- root
    have hroot : b3.Fixed 0 ∧ (b3.unit 0).label = 0 ∧ (b3.unit 0).is_leaf = false := by
      have hnode : IsNode K [] :=
        ⟨⟨0, List.length_pos.2 hK0, List.nil_prefix⟩, Or.inl rfl⟩
      have hd := (done_nil_iff (b := b3) []).2 hnode
      have hno := h.done [] hd
      have h1 := hno.fixed
      have h2 := hno.label
      have h3 := (hno.internal (Or.inl rfl)).1
      rw [walk_nil] at h1 h2 h3
      exact ⟨h1, h2, h3⟩
    rw [hunit_old 0 hroot.1 (by decide)]
    exact hroot.2
  · -- keys
    refine ⟨by rw [hkeys]; exact h.keys.length, fun i hi => ?_⟩
    rw [hkeys]
    exact h.keys.same i hi
  · -- progress
    have hp : (b4.set_unit 1 u1).progress = b3.progress := by
      rw [DoubleArrayBuilder.progress_set_unit]; exact hf.progress
    have hc := h.count
    simp only [List.map_nil, List.sum_nil, Nat.add_zero] at hc
    rw [hp]
    exact ⟨hc, fun m hm => h.progress m (by rw [hc]; exact hm)⟩
  · -- node
    intro q hq
    have hd := (done_nil_iff (b := b3) q).2 hq
    have hno := h.done q hd
    rw [hwalk q hq, hnode_unit q hq, hnumf]
    exact ⟨hno.fixed.1, o3 q (Or.inl hd), hno.label⟩
  · -- internal
    intro q hq hint
    have hd := (done_nil_iff (b := b3) q).2 hq
    obtain ⟨i1, i2, i3, _⟩ := (h.done q hd).internal hint
    rw [hwalk q hq, hnode_unit q hq, hbase q hq, hnumf]
    exact ⟨i1, i2, i3⟩
  · -- leaf
    intro q hq hint
    have hd := (done_nil_iff (b := b3) q).2 hq
    obtain ⟨i1, i2⟩ := (h.done q hd).leaf hint
    rw [hwalk q hq, hnode_unit q hq, hkeys]
    exact ⟨i1, i2⟩
  · -- inj
    intro p q hp hq hw
    rw [hwalk p hp, hwalk q hq] at hw
    exact h.inj p q (Or.inl ((done_nil_iff p).2 hp)) (Or.inl ((done_nil_iff q).2 hq)) hw
  · -- other
    intro q hq hint c hc hnn
    have hd := (done_nil_iff (b := b3) q).2 hq
    obtain ⟨_, _, i3, i4⟩ := (h.done q hd).internal hint
    rw [hbase q hq]
    have hjlt : base_of b3.units q ^^^ c < b3.num_of_units := by
      have := xor_byte_lt (base_of b3.units q) c (b3.num_of_units / 256) hc (by omega)
      omega
    -- a child found through `owner` would be a node
    have hown : ∀ j, b3.Fixed j → j = base_of b3.units q ^^^ c → (b3.unit j).label ≠ c := by
      intro j hj hjc hl
      obtain ⟨c', hc', hw⟩ := h.owner q hd hint j hj (by
        rw [hl, hjc]; exact xor_xor_cancel_right _ _)
      rw [walk_snoc, hjc] at hw
      have := xor_left_inj hw
      subst this
      rcases hc' with hc' | ⟨r, hr, _⟩
      · exact hnn hc'.1
      · cases hr
    by_cases hfx : b3.Fixed (base_of b3.units q ^^^ c)
    · have hlab : ((b4.set_unit 1 u1).unit (base_of b3.units q ^^^ c)).label
          = (b3.unit (base_of b3.units q ^^^ c)).label := by
        by_cases h1 : base_of b3.units q ^^^ c = 1
        · rw [h1, hunit, if_pos rfl, u1l, o2]
        · rw [hunit_old _ hfx h1]
      have hleaf : ((b4.set_unit 1 u1).unit (base_of b3.units q ^^^ c)).is_leaf
          = (b3.unit (base_of b3.units q ^^^ c)).is_leaf := by
        by_cases h1 : base_of b3.units q ^^^ c = 1
        · rw [h1, hunit, if_pos rfl, u1leaf, o2]
        · rw [hunit_old _ hfx h1]
      cases hl : (b3.unit (base_of b3.units q ^^^ c)).is_leaf with
      | false =>
        left
        rw [hleaf, hlab]
        exact ⟨hl, hown _ hfx rfl⟩
      | true =>
        right
        obtain ⟨p, hp, hpi, hw⟩ := h.leaf_owner _ hfx hl
        refine ⟨p, hp.1, hpi, by rw [hwalk p hp.1]; exact hw, ?_⟩
        rw [← (h.done p hp).label, hw]
        exact hown _ hfx rfl
    · left
      obtain ⟨U, hU1, hU2, _, hU⟩ := hf.filler _ hjlt hfx
      have hne1 : base_of b3.units q ^^^ c ≠ 1 := by
        intro hc1
        rw [hc1] at hfx
        exact hfx o1
      rw [hunit, if_neg hne1, hU]
      obtain ⟨d1, d2⟩ := DoubleArrayBuilder.dead_label (base_of b3.units q ^^^ c) U hU1.symm
      refine ⟨d2, fun hl => ?_⟩
      rw [hl, xor_xor_cancel_right] at d1
      have hlive : 256 * b3.first_live ≤ base_of b3.units q ^^^ c := by
        by_contra hlt
        exact hfx ⟨hjlt, Or.inl (Nat.lt_of_not_le hlt)⟩
      have hlive' : 256 * b3.first_live ≤ base_of b3.units q := by
        by_contra hlt
        have := xor_byte_lt (base_of b3.units q) c _ hc (Nat.lt_of_not_le hlt)
        omega
      rw [← d1, i4 hlive'] at hU2
      cases hU2

end Darts

namespace Darts

theorem xor_one_lt (j : Nat) (hj : j < 256) : j ^^^ 1 < 256 := xor_lt_256 j 1 hj (by decide)

/-- The last statements of `build_trie` for the empty key set. -/
theorem finish_empty {b3 : DoubleArrayBuilder} (h : StartOK [] b3) :
    ∃ b4 u1, b3.fix_all_blocks = .ok b4 ∧ (b4.unit 1).set_offset b4.num_of_units = .ok u1 ∧
      b4.num_of_units = b3.num_of_units ∧ TrieOK [] (b4.set_unit 1 u1) ∧
      EmptyTrie (b4.set_unit 1 u1) := by
  obtain ⟨b4, hb4, hf⟩ := DoubleArrayBuilder.fix_all_blocks_spec b3 h.alloc (start_covered h)
    (by rw [h.num]; decide)
  have hnum4 : b4.num_of_units = 256 := hf.units_length.trans h.num
  have hu41 : b4.unit 1 = (default : DoubleArrayUnit).set_label 1 := by
    rw [hf.unit_old 1 ((h.fixed 1).2 (by decide))]; exact h.one
  have hwf41 : (b4.unit 1).wf := by
    rw [hu41]
    exact DoubleArrayUnit.wf_set_label _ _ DoubleArrayUnit.wf_default (by decide)
  have hset := DoubleArrayUnit.set_offset_ok (b4.unit 1) b4.num_of_units (by rw [hnum4]; decide)
  generalize hu : DoubleArrayUnit.set 10 22 (b4.unit 1)
    (if b4.num_of_units < DoubleArrayUnit.OFFSET_MAX then b4.num_of_units
      else (1 <<< 21) + (b4.num_of_units >>> 8)) = u1 at hset
  obtain ⟨u1wf, u1l, u1leaf, _, u1off⟩ := DoubleArrayUnit.set_offset_spec hwf41 hset
  have hdl1 := default_set_label 1 (by decide)
  rw [hu41] at u1l u1leaf
  refine ⟨b4, u1, hb4, hset, hnum4.trans h.num.symm, ?_⟩
  have hlt1 : 1 < b4.num_of_units := by rw [hnum4]; decide
  have hunit : ∀ j, (b4.set_unit 1 u1).unit j = if j = 1 then u1 else b4.unit j := by
    intro j
    rw [DoubleArrayBuilder.unit_set_unit]
    by_cases hj : j = 1
    · rw [if_pos ⟨hj.symm, hlt1⟩, if_pos hj]
    · rw [if_neg (fun hc => hj hc.1.symm), if_neg hj]
  have hnumf : (b4.set_unit 1 u1).num_of_units = 256 := by
    rw [DoubleArrayBuilder.num_of_units_set_unit]; exact hnum4
  have hkeys : (b4.set_unit 1 u1).keys = [] := by
    rw [DoubleArrayBuilder.keys_set_unit, hf.keys]; exact h.keys
  have hzero : (b4.set_unit 1 u1).unit 0 = b3.unit 0 := by
    rw [hunit, if_neg (by decide), hf.unit_old 0 ((h.fixed 0).2 (by decide))]
  have hrest : ∀ j, 2 ≤ j → j < 256 →
      (b4.set_unit 1 u1).unit j = (default : DoubleArrayUnit).set_label (j ^^^ 1) := by
    intro j h1 h2
    obtain ⟨U, hU1, hU2, hU3, hU⟩ := hf.filler j (by rw [h.num]; exact h2)
      (fun hc => by have := (h.fixed j).1 hc; omega)
    have hU0 : U ≠ 0 := by
      intro hc
      rw [hc, (h.used 0).2 rfl] at hU2
      cases hU2
    have hU1' : U = 1 := by
      by_contra hne
      have := (h.used 1).1 (hU3 1 (by omega) (by omega))
      omega
    rw [hunit, if_neg (by omega), hU, hU1', Nat.mod_eq_of_lt (xor_one_lt j h2)]
  have hnonode : ∀ q, ¬ IsNode ([] : List DoubleArrayKey) q := by
    rintro q ⟨⟨i, hi, _⟩, _⟩
    exact absurd hi (Nat.not_lt_zero _)
  have hone : ((b4.set_unit 1 u1).unit 1).label = 1 ∧ ((b4.set_unit 1 u1).unit 1).is_leaf = false ∧
      ((b4.set_unit 1 u1).unit 1).offset = 256 := by
    rw [hunit, if_pos rfl]
    exact ⟨u1l.trans hdl1.1, u1leaf.trans hdl1.2.1,
      (u1off (Or.inr (by rw [hnum4]))).trans hnum4⟩
  refine ⟨⟨?_, ⟨by rw [hnumf], by rw [hnumf], by rw [hnumf]; decide⟩, ?_, ?_, ?_, ?_,
    fun q hq => absurd hq (hnonode q), fun q hq => absurd hq (hnonode q),
    fun q hq => absurd hq (hnonode q), fun q _ hq => absurd hq (hnonode q),
    fun q hq => absurd hq (hnonode q)⟩, ⟨hnumf, hkeys, ?_, hone, hrest⟩⟩
  · intro j
    by_cases hj1 : j = 1
    · rw [hj1, hunit, if_pos rfl]; exact u1wf
    · by_cases hj0 : j = 0
      · rw [hj0, hzero]; exact h.alloc.wf 0
      · by_cases hj : j < 256
        · rw [hrest j (by omega) hj]
          exact DoubleArrayUnit.wf_set_label _ _ DoubleArrayUnit.wf_default (xor_one_lt j hj)
        · rw [hunit, if_neg hj1, DoubleArrayBuilder.unit_of_ge b4 (by rw [hnum4]; omega)]
          exact DoubleArrayUnit.wf_default
  · rw [hnumf]; exact hone
  · rw [hzero]; exact ⟨h.zero.2.1, h.zero.2.2.1⟩
  · refine ⟨by rw [hkeys], fun i hi => absurd hi (Nat.not_lt_zero _)⟩
  · rw [DoubleArrayBuilder.progress_set_unit, hf.progress, h.progress]
    exact ⟨rfl, fun m hm => absurd hm (Nat.not_lt_zero _)⟩
  · rw [hzero]; exact h.zero

end Darts

namespace Darts

theorem bind_ok {α β : Type} (a : α) (f : α → Except DartsError β) :
    Except.bind (Except.ok a) f = f a := rfl

theorem bind_eq_ok {α β : Type} {x : Except DartsError α} {f : α → Except DartsError β} {r : β}
    (h : Except.bind x f = .ok r) : ∃ a, x = .ok a ∧ f a = .ok r := by
  cases x with
  | error e => cases h
  | ok a => exact ⟨a, rfl, h⟩

namespace DoubleArrayBuilder

theorem grows_fix_blocks_from (end_ : Nat) : ∀ (fuel k : Nat) (b : DoubleArrayBuilder),
    Grows num_of_units b.num_of_units (fix_blocks_from end_ fuel k b) := by
  intro fuel
  induction fuel with
  | zero => intro k b; exact grows_ok _ _ _ (Nat.le_refl _)
  | succ fuel ih =>
    intro k b
    unfold fix_blocks_from
    apply grows_ite
    · apply grows_bind num_of_units
      · exact grows_fix_block _ _
      · intro a ha
        exact grows_mono _ _ (ih _ _) ha
    · exact grows_ok _ _ _ (Nat.le_refl _)

theorem grows_fix_all_blocks (b : DoubleArrayBuilder) :
    Grows num_of_units b.num_of_units b.fix_all_blocks := by
  unfold fix_all_blocks
  exact grows_fix_blocks_from _ _ _ _

theorem run_subroutine (b : DoubleArrayBuilder) (K : List DoubleArrayKey) (hk : b.keys = K) :
    (if !b.keys.isEmpty then b.build_trie_subroutine else pure b) =
      if K = [] then Except.ok b
      else build_trie_loop (trie_fuel K) b [⟨0, K.length, 0⟩] := by
  unfold build_trie_subroutine
  rw [hk]
  cases K with
  | nil => rfl
  | cons k t => rfl

end DoubleArrayBuilder

/-- Method `build_trie` returns for keys that are not too long in total, and
the builder then holds the trie of the keys. -/
theorem build_trie_total {K : List DoubleArrayKey} (hK : KeysOK K)
    (hsize : 256 * (DoubleArrayBuilder.trie_fuel K + 1) < 2 ^ 29) :
    ∃ b, (DoubleArrayBuilder.init K).build_trie = .ok b ∧ TrieOK K b ∧ (K = [] → EmptyTrie b) ∧
      b.num_of_units ≤ 256 * (DoubleArrayBuilder.trie_fuel K + 1) := by
  obtain ⟨b1, b2, u, hb1, hb2, hu, hstart⟩ := start_spec K
  rw [build_trie_eq, hb1, bind_ok, hb2, bind_ok, hu, bind_ok,
    DoubleArrayBuilder.run_subroutine _ K hstart.keys]
  by_cases hK0 : K = []
  · rw [if_pos hK0, bind_ok]
    subst hK0
    obtain ⟨b4, u1, hb4, hu1, hnum, hok, hempty⟩ := finish_empty hstart
    rw [hb4, bind_ok, hu1, bind_ok]
    refine ⟨_, rfl, hok, fun _ => hempty, ?_⟩
    rw [hempty.num]
    omega
  · rw [if_neg hK0]
    obtain ⟨hinv, hnodone⟩ := start_inv hK hK0 hstart
    obtain ⟨b3, hloop, hinv3, hn3, hn3'⟩ := build_trie_loop_total hK (Nat.le_of_lt hsize)
      (DoubleArrayBuilder.trie_fuel K) _ _ ∅ hinv
      (fun q => ⟨fun hq => absurd hq (Finset.not_mem_empty q), fun hq => absurd hq (hnodone q)⟩)
      (by simp) (by rw [hstart.num]; simp)
    rw [hloop, bind_ok]
    obtain ⟨b4, u1, hb4, hu1, hnum, hok⟩ := finish_nonempty hinv3 hK0 (by omega)
    rw [hb4, bind_ok, hu1, bind_ok]
    refine ⟨_, rfl, hok, fun hc => absurd hc hK0, ?_⟩
    rw [DoubleArrayBuilder.num_of_units_set_unit, hnum]
    exact hn3'

/-- When method `build_trie` returns, the builder holds the trie of the keys. -/
theorem build_trie_partial {K : List DoubleArrayKey} (hK : KeysOK K) {b : DoubleArrayBuilder}
    (h : (DoubleArrayBuilder.init K).build_trie = .ok b) :
    TrieOK K b ∧ (K = [] → EmptyTrie b) := by
  obtain ⟨b1, b2, u, hb1, hb2, hu, hstart⟩ := start_spec K
  rw [build_trie_eq, hb1, bind_ok, hb2, bind_ok, hu, bind_ok,
    DoubleArrayBuilder.run_subroutine _ K hstart.keys] at h
  by_cases hK0 : K = []
  · rw [if_pos hK0, bind_ok] at h
    subst hK0
    obtain ⟨b4, u1, hb4, hu1, hnum, hok, hempty⟩ := finish_empty hstart
    rw [hb4, bind_ok, hu1, bind_ok] at h
    injection h with h
    rw [← h]
    exact ⟨hok, fun _ => hempty⟩
  · rw [if_neg hK0] at h
    obtain ⟨hinv, _⟩ := start_inv hK hK0 hstart
    obtain ⟨b3, hloop, h⟩ := bind_eq_ok h
    obtain ⟨b4, hfix, h⟩ := bind_eq_ok h
    obtain ⟨u1, hset, h⟩ := bind_eq_ok h
    have hlt := DoubleArrayUnit.set_offset_lt hset
    have hle := DoubleArrayBuilder.grows_fix_all_blocks b3 b4 hfix
    have hinv3 := build_trie_loop_partial hK _ _ _ _ hinv hloop (by omega)
    obtain ⟨b4', u1', hb4, hu1, hnum, hok⟩ := finish_nonempty hinv3 hK0 (by omega)
    rw [hfix] at hb4
    injection hb4 with hb4
    subst hb4
    rw [hset] at hu1
    injection hu1 with hu1
    subst hu1
    injection h with h
    rw [← h]
    exact ⟨hok, fun hc => absurd hc hK0⟩

end Darts

namespace Darts

namespace DoubleArrayBuilder

theorem testBit_255 (i : Nat) : Nat.testBit 255 i = decide (i < 8) := by
  have : (255 : Nat) = 2 ^ 8 - 1 := rfl
  rw [this, Nat.testBit_two_pow_sub_one]

theorem get_byte_eq (units : List DoubleArrayUnit) (pos : Nat) :
    get_byte units pos = DoubleArrayUnit.get (8 * (pos % 4)) 8 (units.getD (pos / 4) default) := by
  unfold get_byte
  apply Nat.eq_of_testBit_eq
  intro i
  rw [DoubleArrayUnit.testBit_get, Nat.testBit_and, Nat.testBit_shiftRight]
  have : (0xFF : Nat) = 255 := rfl
  rw [this, testBit_255, Bool.and_comm]

theorem set_byte_eq (units : List DoubleArrayUnit) (pos byte : Nat) :
    set_byte units pos byte = units.set (pos / 4)
      (DoubleArrayUnit.set (8 * (pos % 4)) 8 (units.getD (pos / 4) default) (byte % 256)) := by
  unfold set_byte DoubleArrayUnit.set
  have h1 : (byte % 256) <<< (8 * (pos % 4)) < 2 ^ 32 := by
    rw [Nat.shiftLeft_eq]
    have hb : byte % 256 < 256 := Nat.mod_lt _ (by decide)
    have hs : 8 * (pos % 4) ≤ 24 := by omega
    calc byte % 256 * 2 ^ (8 * (pos % 4)) < 256 * 2 ^ (8 * (pos % 4)) :=
          Nat.mul_lt_mul_of_pos_right hb (Nat.two_pow_pos _)
      _ ≤ 256 * 2 ^ 24 := Nat.mul_le_mul_left _ (Nat.pow_le_pow_right (by decide) hs)
      _ = 2 ^ 32 := by norm_num
  simp only [Nat.mod_eq_of_lt h1]
  rfl

theorem get_byte_lt (units : List DoubleArrayUnit) (pos : Nat) : get_byte units pos < 256 := by
  rw [get_byte_eq]
  exact DoubleArrayUnit.get_lt _ 8 _

theorem length_set_byte (units : List DoubleArrayUnit) (pos byte : Nat) :
    (set_byte units pos byte).length = units.length := by
  rw [set_byte_eq, List.length_set]

theorem getD_set_byte (units : List DoubleArrayUnit) (pos byte j : Nat) (hj : j ≠ pos / 4) :
    (set_byte units pos byte).getD j default = units.getD j default := by
  rw [set_byte_eq, list_getD_set, if_neg (fun hc => hj hc.1.symm)]

theorem wf_set_byte (units : List DoubleArrayUnit) (pos byte : Nat)
    (hwf : ∀ j, (units.getD j default).wf) (j : Nat) :
    ((set_byte units pos byte).getD j default).wf := by
  rw [set_byte_eq, list_getD_set]
  split
  · exact DoubleArrayUnit.set_lt _ _ _ _ (hwf _) (Nat.mod_lt _ (by decide)) (by omega)
  · exact hwf j

theorem get_byte_set_byte (units : List DoubleArrayUnit) (pos byte pos' : Nat)
    (hwf : ∀ j, (units.getD j default).wf) (hpos : pos / 4 < units.length) :
    get_byte (set_byte units pos byte) pos' =
      if pos' = pos then byte % 256 else get_byte units pos' := by
  rw [get_byte_eq, get_byte_eq, set_byte_eq, list_getD_set]
  have hb : byte % 256 < 2 ^ 8 := Nat.mod_lt _ (by decide)
  by_cases h1 : pos / 4 = pos' / 4
  · rw [if_pos ⟨h1, hpos⟩]
    by_cases h2 : pos' = pos
    · rw [if_pos h2, h2]
      exact DoubleArrayUnit.get_set_same _ _ _ _ (hwf _) hb (by omega)
    · rw [if_neg h2, ← h1]
      exact DoubleArrayUnit.get_set_disjoint _ _ _ _ _ _ (hwf _) hb (by omega) (by omega)
  · rw [if_neg (fun hc => h1 hc.1), if_neg (fun hc => h1 (by rw [hc]))]

end DoubleArrayBuilder

end Darts

namespace Darts

namespace DoubleArrayBuilder

theorem getD_append_default (l : List DoubleArrayUnit) (j : Nat) :
    (l ++ [default]).getD j default = l.getD j default := by
  by_cases h : j < l.length
  · rw [List.getD_append _ _ _ _ h]
  · rw [List.getD_eq_default _ _ (Nat.le_of_not_lt h)]
    by_cases h2 : j = l.length
    · rw [h2, List.getD_append_right _ _ _ _ (Nat.le_refl _), Nat.sub_self]
      rfl
    · rw [List.getD_eq_default]
      rw [List.length_append, List.length_singleton]
      omega

theorem get_byte_congr (U V : List DoubleArrayUnit) (h : ∀ j, V.getD j default = U.getD j default)
    (pos : Nat) : get_byte V pos = get_byte U pos := by
  unfold get_byte
  rw [h]

theorem append_byte_spec {n : Nat} {b : DoubleArrayBuilder} (h : TailShape n b) (byte : Nat)
    (hb : byte < 256) :
    TailShape n (b.append_byte byte) ∧ (b.append_byte byte).tail_index = b.tail_index + 1 ∧
      get_byte (b.append_byte byte).units b.tail_index = byte ∧
      (∀ pos, pos ≠ b.tail_index →
        get_byte (b.append_byte byte).units pos = get_byte b.units pos) ∧
      (∀ j, j < n → (b.append_byte byte).units.getD j default = b.units.getD j default) ∧
      (b.append_byte byte).keys = b.keys := by
  have hlo := h.lo
  have hhi := h.hi
  have hlen := h.len
  generalize hU : (if b.tail_index ≥ 4 * b.num_of_units then b.units ++ [default] else b.units)
    = U
  have happ : b.append_byte byte = DoubleArrayBuilder.mk b.keys (set_byte U b.tail_index byte)
      b.extras b.unfixed_index b.num_of_unused_indices (b.tail_index + 1) b.progress := by
    unfold append_byte
    rw [← hU]
    by_cases hc : b.tail_index ≥ 4 * b.num_of_units
    · simp only [if_pos hc]
    · simp only [if_neg hc]
  have hUget : ∀ j, U.getD j default = b.units.getD j default := by
    intro j
    rw [← hU]
    split
    · exact getD_append_default _ _
    · rfl
  have hUlen : b.units.length ≤ U.length ∧ b.tail_index / 4 < U.length := by
    rw [← hU]
    unfold num_of_units
    split
    · rw [List.length_append, List.length_singleton]
      omega
    · omega
  have hUwf : ∀ j, (U.getD j default).wf := fun j => by rw [hUget]; exact h.wf j
  rw [happ]
  refine ⟨⟨?_, ?_, ?_, ?_⟩, rfl, ?_, ?_, ?_, rfl⟩
  · exact wf_set_byte U _ _ hUwf
  · show n ≤ (set_byte U b.tail_index byte).length
    rw [length_set_byte]; omega
  · show 4 * n ≤ b.tail_index + 1
    omega
  · show b.tail_index + 1 ≤ 4 * (set_byte U b.tail_index byte).length
    rw [length_set_byte]; omega
  · show get_byte (set_byte U b.tail_index byte) b.tail_index = byte
    rw [get_byte_set_byte U _ _ _ hUwf hUlen.2, if_pos rfl, Nat.mod_eq_of_lt hb]
  · intro pos hpos
    show get_byte (set_byte U b.tail_index byte) pos = _
    rw [get_byte_set_byte U _ _ _ hUwf hUlen.2, if_neg hpos]
    exact get_byte_congr _ _ hUget pos
  · intro j hj
    show (set_byte U b.tail_index byte).getD j default = _
    rw [getD_set_byte U _ _ j (by omega)]
    exact hUget j

end DoubleArrayBuilder

end Darts

namespace Darts

namespace DoubleArrayBuilder

theorem key_get_ext (key : DoubleArrayKey) (hw : key.WF) (i : Nat) (hi : i ≤ key.length.toNat) :
    key.get i = key.ext.getD i 0 ∧ (key.get i ≠ 0 ↔ i < key.length.toNat) := by
  have hl := DoubleArrayKey.bytes_length key hw
  rw [DoubleArrayKey.get_eq key hw i hi]
  unfold DoubleArrayKey.ext
  by_cases h : i < key.length.toNat
  · rw [List.getD_append _ _ _ _ (by rw [hl]; exact h)]
    refine ⟨rfl, fun _ => h, fun _ => ?_⟩
    rw [List.getD_eq_getElem _ _ (by rw [hl]; exact h)]
    exact hw.nonzero _ (List.getElem_mem _)
  · have : i = key.length.toNat := by omega
    rw [this, List.getD_eq_default _ _ (by rw [hl]), ← hl, getD_append_length]
    exact ⟨rfl, fun hc => absurd rfl hc, fun hc => absurd hc (Nat.lt_irrefl _)⟩

theorem ext_getD_lt (key : DoubleArrayKey) (hb : ∀ c ∈ key.bytes, c < 256) (i : Nat) :
    key.ext.getD i 0 < 256 := by
  by_cases hi : i < key.ext.length
  · rw [List.getD_eq_getElem _ _ hi]
    have hm : key.ext[i] ∈ key.bytes ++ [0] := List.getElem_mem hi
    rcases List.mem_append.1 hm with h | h
    · exact hb _ h
    · rw [List.mem_singleton] at h
      rw [h]; decide
  · rw [List.getD_eq_default _ _ (Nat.le_of_not_lt hi)]
    decide

theorem append_suffix_loop_spec {n : Nat} (key : DoubleArrayKey) (hw : key.WF)
    (hb : ∀ c ∈ key.bytes, c < 256) :
    ∀ (fuel i : Nat) (b : DoubleArrayBuilder), i ≤ key.length.toNat →
      key.length.toNat + 1 ≤ i + fuel → TailShape n b →
      TailShape n (append_suffix_loop key fuel i b) ∧
      (append_suffix_loop key fuel i b).tail_index = b.tail_index + (key.length.toNat + 1 - i) ∧
      (∀ t, i ≤ t → t ≤ key.length.toNat →
        get_byte (append_suffix_loop key fuel i b).units (b.tail_index + (t - i))
          = key.ext.getD t 0) ∧
      (∀ pos, pos < b.tail_index →
        get_byte (append_suffix_loop key fuel i b).units pos = get_byte b.units pos) ∧
      (∀ j, j < n → (append_suffix_loop key fuel i b).units.getD j default
        = b.units.getD j default) ∧
      (append_suffix_loop key fuel i b).keys = b.keys := by
  intro fuel
  induction fuel with
  | zero => intro i b h1 h2; omega
  | succ fuel ih =>
    intro i b h1 h2 hs
    obtain ⟨g1, g2⟩ := key_get_ext key hw i h1
    obtain ⟨a1, a2, a3, a4, a5, a6⟩ := append_byte_spec hs (key.get i) (by
      rw [g1]; exact ext_getD_lt key hb i)
    unfold append_suffix_loop
    simp only []
    by_cases hc : key.get i ≠ 0
    · rw [if_pos hc]
      have hlt := g2.1 hc
      obtain ⟨c1, c2, c3, c4, c5, c6⟩ := ih (i + 1) (b.append_byte (key.get i)) (by omega)
        (by omega) a1
      refine ⟨c1, by rw [c2, a2]; omega, ?_, ?_, ?_, c6.trans a6⟩
      · intro t ht1 ht2
        by_cases hti : t = i
        · have e1 := c4 b.tail_index (by rw [a2]; omega)
          rw [hti, Nat.sub_self]
          show get_byte _ b.tail_index = _
          rw [e1, a3, g1]
        · have := c3 t (by omega) ht2
          rw [a2] at this
          have e : b.tail_index + 1 + (t - (i + 1)) = b.tail_index + (t - i) := by omega
          rw [e] at this
          exact this
      · intro pos hpos
        rw [c4 pos (by rw [a2]; omega), a4 pos (by omega)]
      · intro j hj
        rw [c5 j hj, a5 j hj]
    · rw [if_neg hc]
      have hLi : i = key.length.toNat := by
        by_contra hne
        exact hc (g2.2 (by omega))
      refine ⟨a1, by rw [a2]; omega, ?_, fun pos hpos => a4 pos (by omega), a5, a6⟩
      intro t ht1 ht2
      have : t = i := by omega
      rw [this, Nat.sub_self]
      show get_byte _ b.tail_index = _
      rw [a3, g1]

theorem append_suffix_spec {n : Nat} (key : DoubleArrayKey) (hw : key.WF)
    (hb : ∀ c ∈ key.bytes, c < 256) (b : DoubleArrayBuilder) (hs : TailShape n b) :
    TailShape n (b.append_suffix key) ∧
      (b.append_suffix key).tail_index = b.tail_index + (key.length.toNat + 1) ∧
      (∀ t, t ≤ key.length.toNat →
        get_byte (b.append_suffix key).units (b.tail_index + t) = key.ext.getD t 0) ∧
      (∀ pos, pos < b.tail_index →
        get_byte (b.append_suffix key).units pos = get_byte b.units pos) ∧
      (∀ j, j < n → (b.append_suffix key).units.getD j default = b.units.getD j default) ∧
      (b.append_suffix key).keys = b.keys := by
  obtain ⟨c1, c2, c3, c4, c5, c6⟩ := append_suffix_loop_spec key hw hb (key.length.toNat + 1) 0 b
    (Nat.zero_le _) (by omega) hs
  exact ⟨c1, c2, fun t ht => c3 t (Nat.zero_le _) ht, c4, c5, c6⟩

theorem value_bytes_lt (v : Int) (t : Nat) : (value_bytes v).getD t 0 < 256 := by
  unfold value_bytes
  simp only []
  match t with
  | 0 => exact Nat.mod_lt _ (by decide)
  | 1 => exact Nat.mod_lt _ (by decide)
  | 2 => exact Nat.mod_lt _ (by decide)
  | 3 => exact Nat.mod_lt _ (by decide)
  | t + 4 => simp

theorem append_value_spec {n : Nat} (v : Int) (b : DoubleArrayBuilder) (hs : TailShape n b) :
    TailShape n (b.append_value v) ∧
      (b.append_value v).tail_index = b.tail_index + 4 ∧
      (∀ t, t < 4 → get_byte (b.append_value v).units (b.tail_index + t)
        = (value_bytes v).getD t 0) ∧
      (∀ pos, pos < b.tail_index →
        get_byte (b.append_value v).units pos = get_byte b.units pos) ∧
      (∀ j, j < n → (b.append_value v).units.getD j default = b.units.getD j default) ∧
      (b.append_value v).keys = b.keys := by
  have hv : value_bytes v = [(value_bytes v).getD 0 0, (value_bytes v).getD 1 0,
      (value_bytes v).getD 2 0, (value_bytes v).getD 3 0] := rfl
  have h0 := value_bytes_lt v 0
  have h1 := value_bytes_lt v 1
  have h2 := value_bytes_lt v 2
  have h3 := value_bytes_lt v 3
  have happ : b.append_value v = (((b.append_byte ((value_bytes v).getD 0 0)).append_byte
      ((value_bytes v).getD 1 0)).append_byte ((value_bytes v).getD 2 0)).append_byte
      ((value_bytes v).getD 3 0) := rfl
  rw [happ]
  generalize hx0 : (value_bytes v).getD 0 0 = x0 at h0 ⊢
  generalize hx1 : (value_bytes v).getD 1 0 = x1 at h1 ⊢
  generalize hx2 : (value_bytes v).getD 2 0 = x2 at h2 ⊢
  generalize hx3 : (value_bytes v).getD 3 0 = x3 at h3 ⊢
  obtain ⟨a1, a2, a3, a4, a5, a6⟩ := append_byte_spec hs x0 h0
  obtain ⟨b1, b2, b3, b4, b5, b6⟩ := append_byte_spec a1 x1 h1
  obtain ⟨c1, c2, c3, c4, c5, c6⟩ := append_byte_spec b1 x2 h2
  obtain ⟨d1, d2, d3, d4, d5, d6⟩ := append_byte_spec c1 x3 h3
  rw [a2] at b2 b3 b4
  rw [b2] at c2 c3 c4
  rw [c2] at d2 d3 d4
  refine ⟨d1, d2, ?_, ?_, ?_, ?_⟩
  · intro t ht
    match t with
    | 0 =>
      rw [hx0]
      show get_byte _ b.tail_index = x0
      rw [d4 _ (by omega), c4 _ (by omega), b4 _ (by omega), a3]
    | 1 =>
      rw [hx1]
      show get_byte _ (b.tail_index + 1) = x1
      rw [d4 _ (by omega), c4 _ (by omega), b3]
    | 2 =>
      rw [hx2]
      show get_byte _ (b.tail_index + 1 + 1) = x2
      rw [d4 _ (by omega), c3]
    | 3 =>
      rw [hx3]
      show get_byte _ (b.tail_index + 1 + 1 + 1) = x3
      rw [d3]
    | t + 4 => omega
  · intro pos hpos
    rw [d4 _ (by omega), c4 _ (by omega), b4 _ (by omega), a4 _ (by omega)]
  · intro j hj
    rw [d5 j hj, c5 j hj, b5 j hj, a5 j hj]
  · rw [d6, c6, b6, a6]

end DoubleArrayBuilder

end Darts

namespace Darts

namespace DoubleArrayKey

theorem rkey_eq (k : DoubleArrayKey) (hw : k.WF) (j : Nat) (hj : j < k.length.toNat) :
    k.rkey j = k.ext.getD (k.length.toNat - 1 - j) 0 ∧ k.rkey j ≠ 0 := by
  have hnn := hw.length_nonneg
  have hg := DoubleArrayBuilder.key_get_ext k hw (k.length.toNat - 1 - j) (by omega)
  have hr : k.rkey j = k.get (k.length.toNat - 1 - j) := by
    unfold rkey get
    rw [if_pos (by omega), if_pos (by omega)]
    congr 1
    omega
  rw [hr]
  exact ⟨hg.1, hg.2.2 (by omega)⟩

theorem rkey_length (k : DoubleArrayKey) (hw : k.WF) : k.rkey k.length.toNat = 0 := by
  have hnn := hw.length_nonneg
  unfold rkey
  rw [if_neg (by
    intro hc
    apply hc
    omega)]

theorem rcompareLoop_spec (lhs rhs : DoubleArrayKey) (hl : lhs.WF) (hr : rhs.WF) :
    ∀ (fuel i : Nat), i ≤ lhs.length.toNat → lhs.length.toNat + 1 ≤ i + fuel →
      i ≤ rhs.length.toNat → (∀ j, j < i → lhs.rkey j = rhs.rkey j) →
      rcompareLoop lhs rhs fuel i ≤ lhs.length.toNat ∧
      (lhs.rkey (rcompareLoop lhs rhs fuel i) = 0 →
        lhs.length.toNat ≤ rhs.length.toNat ∧
          ∀ j, j < lhs.length.toNat → lhs.rkey j = rhs.rkey j) := by
  intro fuel
  induction fuel with
  | zero => intro i h1 h2; omega
  | succ fuel ih =>
    intro i h1 h2 h3 h4
    unfold rcompareLoop
    by_cases hc : lhs.rkey i ≠ 0 ∧ lhs.rkey i = rhs.rkey i
    · rw [if_pos hc]
      have hi : i < lhs.length.toNat := by
        by_contra hge
        have : i = lhs.length.toNat := by omega
        rw [this] at hc
        exact hc.1 (rkey_length lhs hl)
      have hi2 : i < rhs.length.toNat := by
        by_contra hge
        have : i = rhs.length.toNat := by omega
        have h0 := rkey_length rhs hr
        rw [← this, ← hc.2] at h0
        exact hc.1 h0
      apply ih (i + 1) (by omega) (by omega) (by omega)
      intro j hj
      by_cases hji : j = i
      · rw [hji]; exact hc.2
      · exact h4 j (by omega)
    · rw [if_neg hc]
      refine ⟨h1, fun h0 => ?_⟩
      have hi : i = lhs.length.toNat := by
        by_contra hne
        exact (rkey_eq lhs hl i (by omega)).2 h0
      rw [← hi]
      exact ⟨h3, h4⟩

/-- A key that `is_suffix_of` accepts is a suffix of the other key. -/
theorem is_suffix_of_spec (lhs rhs : DoubleArrayKey) (hl : lhs.WF) (hr : rhs.WF)
    (h : lhs.is_suffix_of rhs = true) :
    lhs.length.toNat ≤ rhs.length.toNat ∧
      ∀ t, t ≤ lhs.length.toNat →
        lhs.ext.getD t 0 = rhs.ext.getD (rhs.length.toNat - lhs.length.toNat + t) 0 := by
  unfold is_suffix_of at h
  simp only [beq_iff_eq] at h
  obtain ⟨_, h2⟩ := rcompareLoop_spec lhs rhs hl hr (lhs.length.toNat + 1) 0 (Nat.zero_le _)
    (by omega) (Nat.zero_le _) (fun j hj => absurd hj (Nat.not_lt_zero _))
  obtain ⟨h3, h4⟩ := h2 h
  refine ⟨h3, fun t ht => ?_⟩
  by_cases htl : t = lhs.length.toNat
  · have e1 := (DoubleArrayBuilder.key_get_ext lhs hl lhs.length.toNat (Nat.le_refl _))
    have e2 := (DoubleArrayBuilder.key_get_ext rhs hr rhs.length.toNat (Nat.le_refl _))
    have g1 : lhs.get lhs.length.toNat = 0 := by
      by_contra hne
      exact absurd (e1.2.1 hne) (Nat.lt_irrefl _)
    have g2 : rhs.get rhs.length.toNat = 0 := by
      by_contra hne
      exact absurd (e2.2.1 hne) (Nat.lt_irrefl _)
    rw [htl, ← e1.1, g1]
    have : rhs.length.toNat - lhs.length.toNat + lhs.length.toNat = rhs.length.toNat := by omega
    rw [this, ← e2.1, g2]
  · have hj := h4 (lhs.length.toNat - 1 - t) (by omega)
    rw [(rkey_eq lhs hl _ (by omega)).1, (rkey_eq rhs hr _ (by omega)).1] at hj
    have e1 : lhs.length.toNat - 1 - (lhs.length.toNat - 1 - t) = t := by omega
    have e2 : rhs.length.toNat - 1 - (lhs.length.toNat - 1 - t)
        = rhs.length.toNat - lhs.length.toNat + t := by omega
    rw [e1, e2] at hj
    exact hj

end DoubleArrayKey

end Darts

namespace Darts

namespace DoubleArrayBuilder

theorem arrange_suffixes_loop_eq0 (key : DoubleArrayKey) (rest : List DoubleArrayKey)
    (prev : Option DoubleArrayKey) (base_link : Nat) (values : List Int)
    (b : DoubleArrayBuilder) :
    arrange_suffixes_loop 3 (key :: rest) prev base_link values b =
      Except.bind (((suffix_pre prev values key b).unit key.index).set_link 3
        (suffix_base prev values key base_link - key.length.toNat - 1))
      (fun u =>
        if suffix_value_id prev values key = (suffix_values prev values key).length then
          arrange_suffixes_loop 3 rest (some key) (suffix_base prev values key base_link)
            (suffix_values prev values key ++ [key.value])
            (((suffix_pre prev values key b).set_unit key.index u).append_value key.value)
        else
          arrange_suffixes_loop 3 rest (some key) (suffix_base prev values key base_link)
            (suffix_values prev values key) ((suffix_pre prev values key b).set_unit key.index u)) :=
  rfl

theorem arrange_suffixes_loop_eq (key : DoubleArrayKey) (rest : List DoubleArrayKey)
    (prev : Option DoubleArrayKey) (base_link : Nat) (values : List Int)
    (b : DoubleArrayBuilder) :
    arrange_suffixes_loop 3 (key :: rest) prev base_link values b =
      Except.bind (((suffix_pre prev values key b).unit key.index).set_link 3
        (suffix_base prev values key base_link - key.length.toNat - 1))
      (fun u => arrange_suffixes_loop 3 rest (some key) (suffix_base prev values key base_link)
        (suffix_values_post prev values key) (suffix_post prev values key b u)) := by
  rw [arrange_suffixes_loop_eq0]
  congr 1
  funext u
  unfold suffix_values_post suffix_post
  by_cases hc : suffix_value_id prev values key = (suffix_values prev values key).length
  · rw [if_pos hc, if_pos hc, if_pos hc]
  · rw [if_neg hc, if_neg hc, if_neg hc]

theorem find_value_id_spec (values : List Int) (v : Int) :
    find_value_id values v ≤ values.length ∧
      (find_value_id values v < values.length → values.getD (find_value_id values v) 0 = v) := by
  unfold find_value_id
  induction values with
  | nil => exact ⟨Nat.le_refl _, fun h => absurd h (Nat.lt_irrefl _)⟩
  | cons a t ih =>
    rw [List.takeWhile_cons]
    by_cases ha : a = v
    · have : (a != v) = false := by simp [ha]
      rw [this]
      simp only [Bool.false_eq_true, if_false, List.length_nil, List.length_cons]
      exact ⟨Nat.zero_le _, fun _ => by rw [← ha]; rfl⟩
    · have : (a != v) = true := by simp [ha]
      rw [this]
      simp only [if_true, List.length_cons]
      refine ⟨by omega, fun h => ?_⟩
      rw [List.getD_cons_succ]
      exact ih.2 (by omega)

theorem get_byte_of_getD (U V : List DoubleArrayUnit) (pos : Nat)
    (h : V.getD (pos / 4) default = U.getD (pos / 4) default) : get_byte V pos = get_byte U pos := by
  unfold get_byte
  rw [h]

theorem set_unit_shape {n : Nat} {b : DoubleArrayBuilder} (hs : TailShape n b) (j : Nat)
    (hj : j < n) (u : DoubleArrayUnit) (hu : u.wf) :
    TailShape n (b.set_unit j u) ∧ (b.set_unit j u).tail_index = b.tail_index ∧
      (b.set_unit j u).units.getD j default = u ∧
      (∀ i, i ≠ j → (b.set_unit j u).units.getD i default = b.units.getD i default) ∧
      (∀ pos, 4 * n ≤ pos → get_byte (b.set_unit j u).units pos = get_byte b.units pos) := by
  have hlen := hs.len
  have hget : ∀ i, (b.set_unit j u).units.getD i default
      = if j = i ∧ j < b.units.length then u else b.units.getD i default :=
    fun i => list_getD_set _ _ _ _ _
  refine ⟨⟨?_, ?_, hs.lo, ?_⟩, rfl, ?_, ?_, ?_⟩
  · intro i
    rw [hget]
    split
    · exact hu
    · exact hs.wf i
  · show n ≤ (b.units.set j u).length
    rw [List.length_set]; exact hlen
  · show b.tail_index ≤ 4 * (b.units.set j u).length
    rw [List.length_set]; exact hs.hi
  · rw [hget, if_pos ⟨rfl, by omega⟩]
  · intro i hi
    rw [hget, if_neg (fun hc => hi hc.1.symm)]
  · intro pos hpos
    apply get_byte_of_getD
    rw [hget, if_neg (fun hc => by
      have := hc.1
      omega)]

theorem suffix_cases (prev : Option DoubleArrayKey) (values : List Int) (key : DoubleArrayKey)
    (base_link : Nat) :
    (suffix_fresh prev values key = true ∧
      suffix_base prev values key base_link
        = base_link + 4 * values.length + (key.length.toNat + 1) ∧
      suffix_values prev values key = [] ∧ suffix_value_id prev values key = 0) ∨
    (suffix_fresh prev values key = false ∧
      (∃ pk, prev = some pk ∧ key.is_suffix_of pk = true) ∧
      suffix_base prev values key base_link = base_link ∧
      suffix_values prev values key = values ∧
      suffix_value_id prev values key = find_value_id values key.value ∧
      find_value_id values key.value < 8) := by
  unfold suffix_base suffix_values suffix_value_id
  cases hf : suffix_fresh prev values key with
  | true =>
    left
    simp only [if_true, and_self]
  | false =>
    right
    simp only [Bool.false_eq_true, if_false, true_and]
    unfold suffix_fresh at hf
    cases prev with
    | none => simp at hf
    | some pk =>
      simp only at hf ⊢
      by_cases hs : key.is_suffix_of pk = true
      · rw [if_pos hs] at hf ⊢
        rw [hs] at hf
        simp only [Bool.not_true, Bool.false_or, decide_eq_false_iff_not] at hf
        have h8 : DoubleArrayUnit.VALUE_ID_MAX 3 = 8 := rfl
        rw [h8] at hf
        exact ⟨⟨pk, rfl, hs⟩, rfl, by omega⟩
      · have hs2 : key.is_suffix_of pk = false := by simpa using hs
        simp [hs2] at hf

/-- The first stage of a step of the loop of `arrange_suffixes`: after the
suffix of `key` has been appended or found in the previous suffix. -/
theorem suffix_stage1 {n : Nat} {b0 b : DoubleArrayBuilder} {done : List DoubleArrayKey}
    {prev : Option DoubleArrayKey} {base_link : Nat} {values : List Int}
    (hinv : TailInv n b0 b done prev base_link values) (key : DoubleArrayKey) (hw : key.WF)
    (hb : ∀ c ∈ key.bytes, c < 256) (B1 : DoubleArrayBuilder)
    (hB1 : B1 = if suffix_fresh prev values key then b.append_suffix key else b) :
    TailShape n B1 ∧
      B1.tail_index = 4 * n + suffix_base prev values key base_link
        + 4 * (suffix_values prev values key).length ∧
      b.tail_index ≤ B1.tail_index ∧
      (∀ pos, pos < b.tail_index → get_byte B1.units pos = get_byte b.units pos) ∧
      (∀ j, j < n → B1.units.getD j default = b.units.getD j default) ∧
      key.length.toNat + 1 ≤ suffix_base prev values key base_link ∧
      (∀ t, t ≤ key.length.toNat →
        get_byte B1.units (4 * n + suffix_base prev values key base_link
          - (key.length.toNat + 1) + t) = key.ext.getD t 0) ∧
      (∀ v t, v < (suffix_values prev values key).length → t < 4 →
        get_byte B1.units (4 * n + suffix_base prev values key base_link + 4 * v + t)
          = (value_bytes ((suffix_values prev values key).getD v 0)).getD t 0) ∧
      suffix_value_id prev values key ≤ (suffix_values prev values key).length ∧
      (suffix_value_id prev values key < (suffix_values prev values key).length →
        (suffix_values prev values key).getD (suffix_value_id prev values key) 0 = key.value) ∧
      suffix_value_id prev values key < 8 ∧
      suffix_base prev values key base_link + 4 * (suffix_values prev values key).length
        ≤ base_link + 4 * values.length + (key.length.toNat + 1) ∧
      B1.keys = b.keys := by
  have htail := hinv.tail
  rcases suffix_cases prev values key base_link with ⟨hf, hbase, hvals, hid⟩ |
    ⟨hf, ⟨pk, hpk, hsuf⟩, hbase, hvals, hid, hid8⟩
  · rw [hf] at hB1
    simp only [if_true] at hB1
    subst hB1
    obtain ⟨a1, a2, a3, a4, a5, a6⟩ := append_suffix_spec key hw hb b hinv.shape
    rw [hbase, hvals, hid]
    refine ⟨a1, ?_, ?_, a4, a5, by omega, ?_, ?_, Nat.zero_le _, ?_, by decide, ?_, a6⟩
    · rw [a2, htail]; simp only [List.length_nil]; omega
    · rw [a2]; omega
    · intro t ht
      have e : 4 * n + (base_link + 4 * values.length + (key.length.toNat + 1))
          - (key.length.toNat + 1) + t = b.tail_index + t := by omega
      rw [e]
      exact a3 t ht
    · intro v t hv
      exact absurd hv (Nat.not_lt_zero _)
    · intro hv
      exact absurd hv (Nat.not_lt_zero _)
    · simp only [List.length_nil]; omega
  · rw [hf] at hB1
    simp only [Bool.false_eq_true, if_false] at hB1
    subst hB1
    obtain ⟨p1, p2, p3⟩ := hinv.prev_ok pk hpk
    obtain ⟨s1, s2⟩ := DoubleArrayKey.is_suffix_of_spec key pk hw p1 hsuf
    have hfv := find_value_id_spec values key.value
    rw [hbase, hvals, hid]
    refine ⟨hinv.shape, htail, Nat.le_refl _, fun _ _ => rfl, fun _ _ => rfl, by omega, ?_,
      hinv.values_ok, hfv.1, hfv.2, hid8, by omega, rfl⟩
    intro t ht
    have e : 4 * n + base_link - (key.length.toNat + 1) + t
        = 4 * n + base_link - (pk.length.toNat + 1)
          + (pk.length.toNat - key.length.toNat + t) := by omega
    rw [e, p3 _ (by omega), s2 t ht]

theorem getD_snoc_length {α : Type} (l : List α) (a d : α) :
    (l ++ [a]).getD l.length d = a := by
  simp

theorem getD_snoc_lt {α : Type} (l : List α) (a d : α) (v : Nat) (hv : v < l.length) :
    (l ++ [a]).getD v d = l.getD v d := by
  rw [List.getD_eq_getElem?_getD, List.getD_eq_getElem?_getD, List.getElem?_append_left hv]

/-- The last stage of a step of the loop of `arrange_suffixes`: the value is
appended unless it is among the values of the current suffix. -/
theorem suffix_stage3 {n : Nat} (B3 : DoubleArrayBuilder) (sh3 : TailShape n B3)
    (bl : Nat) (vals : List Int) (vid : Nat) (x : Int)
    (ht : B3.tail_index = 4 * n + bl + 4 * vals.length)
    (hval : ∀ v t, v < vals.length → t < 4 →
      get_byte B3.units (4 * n + bl + 4 * v + t) = (value_bytes (vals.getD v 0)).getD t 0)
    (hvle : vid ≤ vals.length) (hvget : vid < vals.length → vals.getD vid 0 = x)
    (B4 : DoubleArrayBuilder)
    (hB4 : B4 = if vid = vals.length then B3.append_value x else B3)
    (V : List Int) (hV : V = if vid = vals.length then vals ++ [x] else vals) :
    TailShape n B4 ∧ B4.tail_index = 4 * n + bl + 4 * V.length ∧
      (∀ pos, pos < B3.tail_index → get_byte B4.units pos = get_byte B3.units pos) ∧
      (∀ j, j < n → B4.units.getD j default = B3.units.getD j default) ∧
      vid < V.length ∧ V.getD vid 0 = x ∧
      (∀ v t, v < V.length → t < 4 →
        get_byte B4.units (4 * n + bl + 4 * v + t) = (value_bytes (V.getD v 0)).getD t 0) ∧
      B3.tail_index ≤ B4.tail_index := by
  by_cases hc : vid = vals.length
  · rw [if_pos hc] at hB4 hV
    rw [hB4, hV]
    obtain ⟨a1, a2, a3, a4, a5, _⟩ := append_value_spec x B3 sh3
    have hlen : (vals ++ [x]).length = vals.length + 1 := by
      rw [List.length_append, List.length_singleton]
    refine ⟨a1, ?_, a4, a5, ?_, ?_, ?_, by omega⟩
    · rw [a2, ht, hlen]; omega
    · rw [hlen]; omega
    · rw [hc]; exact getD_snoc_length _ _ _
    · intro v t hv ht4
      rw [hlen] at hv
      by_cases hv2 : v < vals.length
      · rw [getD_snoc_lt _ _ _ _ hv2, a4 (4 * n + bl + 4 * v + t) (by omega)]
        exact hval v t hv2 ht4
      · have hv3 : v = vals.length := by omega
        subst hv3
        have e : 4 * n + bl + 4 * vals.length + t = B3.tail_index + t := by omega
        rw [e, a3 t ht4, getD_snoc_length]
  · rw [if_neg hc] at hB4 hV
    rw [hB4, hV]
    have hlt : vid < vals.length := by omega
    exact ⟨sh3, ht, fun _ _ => rfl, fun _ _ => rfl, hlt, hvget hlt, hval, Nat.le_refl _⟩

theorem arrange_step_core {n : Nat} {b0 b : DoubleArrayBuilder} {done : List DoubleArrayKey}
    {prev : Option DoubleArrayKey} {base_link : Nat} {values : List Int}
    (hinv : TailInv n b0 b done prev base_link values) (key : DoubleArrayKey) (hw : key.WF)
    (hidx : key.index < n) (hnew : ∀ k ∈ done, k.index ≠ key.index) (u : DoubleArrayUnit)
    (B1 B2 B3 B4 : DoubleArrayBuilder) (bl vid : Nat) (vals V : List Int)
    (t1 : B1.tail_index = 4 * n + bl + 4 * vals.length)
    (le1 : b.tail_index ≤ B1.tail_index)
    (low1 : ∀ pos, pos < b.tail_index → get_byte B1.units pos = get_byte b.units pos)
    (un1 : ∀ j, j < n → B1.units.getD j default = b.units.getD j default)
    (hL : key.length.toNat + 1 ≤ bl)
    (suf1 : ∀ t, t ≤ key.length.toNat →
      get_byte B1.units (4 * n + bl - (key.length.toNat + 1) + t) = key.ext.getD t 0)
    (t2 : B2.tail_index = B1.tail_index)
    (o2 : ∀ i, i ≠ key.index → B2.units.getD i default = B1.units.getD i default)
    (by2 : ∀ pos, 4 * n ≤ pos → get_byte B2.units pos = get_byte B1.units pos)
    (t3 : B3.tail_index = B2.tail_index)
    (g3 : B3.units.getD key.index default = u)
    (o3 : ∀ i, i ≠ key.index → B3.units.getD i default = B2.units.getD i default)
    (by3 : ∀ pos, 4 * n ≤ pos → get_byte B3.units pos = get_byte B2.units pos)
    (hleaf : u.is_leaf = (b.units.getD key.index default).is_leaf)
    (hvid : u.value_id 3 = vid) (hlink : u.link 3 = bl - key.length.toNat - 1)
    (f1 : TailShape n B4) (f2 : B4.tail_index = 4 * n + bl + 4 * V.length)
    (f3 : ∀ pos, pos < B3.tail_index → get_byte B4.units pos = get_byte B3.units pos)
    (f4 : ∀ j, j < n → B4.units.getD j default = B3.units.getD j default)
    (f5 : vid < V.length) (f6 : V.getD vid 0 = key.value)
    (f7 : ∀ v t, v < V.length → t < 4 →
      get_byte B4.units (4 * n + bl + 4 * v + t) = (value_bytes (V.getD v 0)).getD t 0)
    (f8 : B3.tail_index ≤ B4.tail_index) :
    TailInv n b0 B4 (done ++ [key]) (some key) bl V := by
  have ht3 : B3.tail_index = B1.tail_index := by rw [t3, t2]
  have hbyte : ∀ pos, 4 * n ≤ pos → pos < b.tail_index →
      get_byte B4.units pos = get_byte b.units pos := by
    intro pos h1 h2
    rw [f3 pos (by omega), by3 pos h1, by2 pos h1, low1 pos h2]
  have hbyte1 : ∀ pos, 4 * n ≤ pos → pos < B1.tail_index →
      get_byte B4.units pos = get_byte B1.units pos := by
    intro pos h1 h2
    rw [f3 pos (by omega), by3 pos h1, by2 pos h1]
  have hother : ∀ j, j < n → j ≠ key.index →
      B4.units.getD j default = b.units.getD j default := by
    intro j h1 h2
    rw [f4 j h1, o3 j h2, o2 j h2, un1 j h1]
  have hself : B4.units.getD key.index default = u := by
    rw [f4 _ hidx, g3]
  refine ⟨f1, f2, ?_, f7, ?_, ?_, ?_⟩
  · intro pk hpk
    cases hpk
    refine ⟨hw, hL, fun t ht => ?_⟩
    rw [hbyte1 (4 * n + bl - (key.length.toNat + 1) + t) (by omega) (by omega)]
    exact suf1 t ht
  · intro k hk
    rcases List.mem_append.1 hk with hk | hk
    · have hd := hinv.done_ok k hk
      have hne := hnew k hk
      have hbd := hd.bound
      have e := hother k.index hd.index hne
      refine ⟨hd.index, ?_, ?_, ?_⟩
      · intro t ht
        rw [e]
        exact (hbyte _ (by omega) (by omega)).trans (hd.suffix t ht)
      · intro t ht
        rw [e]
        exact (hbyte _ (by omega) (by omega)).trans (hd.value t ht)
      · rw [e]; omega
    · have hk2 : k = key := by simpa using hk
      subst hk2
      refine ⟨hidx, ?_, ?_, ?_⟩
      · intro t ht
        have e : 4 * n + (bl - k.length.toNat - 1) + t
            = 4 * n + bl - (k.length.toNat + 1) + t := by omega
        rw [hself, hlink, e]
        exact (hbyte1 _ (by omega) (by omega)).trans (suf1 t ht)
      · intro t ht
        rw [hself, hlink, hvid]
        have e : 4 * n + (bl - k.length.toNat - 1) + k.length.toNat + 1 + 4 * vid + t
            = 4 * n + bl + 4 * vid + t := by omega
        rw [e, f7 vid t f5 ht, f6]
      · rw [hself, hlink, hvid, f2]; omega
  · intro j hj hk
    have hne : j ≠ key.index := fun hc =>
      hk key (List.mem_append.2 (Or.inr (List.mem_singleton.2 rfl))) hc.symm
    rw [hother j hj hne]
    exact hinv.frame j hj (fun k hk2 => hk k (List.mem_append.2 (Or.inl hk2)))
  · intro j hj
    by_cases hje : j = key.index
    · rw [hje, hself, hleaf]
      exact hinv.leaf _ hidx
    · rw [hother j hj hje]
      exact hinv.leaf j hj

/-- One step of the loop of `arrange_suffixes` keeps the invariant. -/
theorem arrange_step {n : Nat} {b0 b : DoubleArrayBuilder} {done : List DoubleArrayKey}
    {prev : Option DoubleArrayKey} {base_link : Nat} {values : List Int}
    (hinv : TailInv n b0 b done prev base_link values) (key : DoubleArrayKey) (hw : key.WF)
    (hb : ∀ c ∈ key.bytes, c < 256) (hidx : key.index < n)
    (hnew : ∀ k ∈ done, k.index ≠ key.index) (u : DoubleArrayUnit)
    (hset : ((suffix_pre prev values key b).unit key.index).set_link 3
      (suffix_base prev values key base_link - key.length.toNat - 1) = .ok u) :
    TailInv n b0 (suffix_post prev values key b u) (done ++ [key]) (some key)
      (suffix_base prev values key base_link) (suffix_values_post prev values key) := by
  obtain ⟨s1, t1, le1, low1, un1, hL, suf1, val1, hvle, hvget, hv8, _, _⟩ :=
    suffix_stage1 hinv key hw hb _ rfl
  have hu2 := DoubleArrayUnit.wf_set_value_id _ (suffix_value_id prev values key)
    (s1.wf key.index) hv8
  obtain ⟨sh2, t2, g2, o2, by2⟩ := set_unit_shape s1 key.index hidx _ hu2
  have hpre : suffix_pre prev values key b
      = DoubleArrayBuilder.set_unit (if suffix_fresh prev values key then b.append_suffix key else b)
          key.index (((if suffix_fresh prev values key then b.append_suffix key else b).units.getD
            key.index default).set_value_id 3 (suffix_value_id prev values key)) := rfl
  have hunit : (suffix_pre prev values key b).unit key.index
      = ((if suffix_fresh prev values key then b.append_suffix key else b).units.getD key.index
          default).set_value_id 3 (suffix_value_id prev values key) := by
    rw [hpre]; exact g2
  rw [hunit] at hset
  obtain ⟨hu, hleaf, hvid, hlink⟩ := DoubleArrayUnit.set_link_spec hu2 hset
  rw [DoubleArrayUnit.value_id_set_value_id _ _ (s1.wf key.index) hv8] at hvid
  rw [DoubleArrayUnit.is_leaf_set_value_id _ _ (s1.wf key.index) hv8, un1 _ hidx] at hleaf
  rw [← hpre] at sh2 t2 o2 by2
  obtain ⟨sh3, t3, g3, o3, by3⟩ := set_unit_shape sh2 key.index hidx u hu
  have hval3 : ∀ v t, v < (suffix_values prev values key).length → t < 4 →
      get_byte ((suffix_pre prev values key b).set_unit key.index u).units
        (4 * n + suffix_base prev values key base_link + 4 * v + t)
        = (value_bytes ((suffix_values prev values key).getD v 0)).getD t 0 := by
    intro v t hv ht
    rw [by3 _ (Nat.le_trans (Nat.le_add_right _ _) (Nat.le_trans (Nat.le_add_right _ _)
        (Nat.le_add_right _ _))),
      by2 _ (Nat.le_trans (Nat.le_add_right _ _) (Nat.le_trans (Nat.le_add_right _ _)
        (Nat.le_add_right _ _))), val1 v t hv ht]
  obtain ⟨f1, f2, f3, f4, f5, f6, f7, f8⟩ := suffix_stage3
    ((suffix_pre prev values key b).set_unit key.index u) sh3
    (suffix_base prev values key base_link) (suffix_values prev values key)
    (suffix_value_id prev values key) key.value (by rw [t3, t2, t1]) hval3 hvle hvget
    (suffix_post prev values key b u) rfl (suffix_values_post prev values key) rfl
  exact arrange_step_core hinv key hw hidx hnew u _ _ _ _ _ _ _ _ t1 le1 low1 un1 hL suf1
    t2 o2 by2 t3 g3 o3 by3 hleaf hvid hlink f1 f2 f3 f4 f5 f6 f7 f8

theorem suffix_budget (prev : Option DoubleArrayKey) (values : List Int) (key : DoubleArrayKey)
    (base_link : Nat) :
    suffix_base prev values key base_link - key.length.toNat - 1
        ≤ base_link + 4 * values.length ∧
      suffix_base prev values key base_link + 4 * (suffix_values_post prev values key).length
        ≤ base_link + 4 * values.length + (key.length.toNat + 5) := by
  have hp : (suffix_values_post prev values key).length
      ≤ (suffix_values prev values key).length + 1 := by
    unfold suffix_values_post
    split
    · rw [List.length_append, List.length_singleton]
    · omega
  rcases suffix_cases prev values key base_link with ⟨_, hbase, hvals, _⟩ |
    ⟨_, _, hbase, hvals, _, _⟩
  · rw [hvals] at hp
    rw [hbase]
    simp only [List.length_nil] at hp
    omega
  · rw [hvals] at hp
    rw [hbase]
    omega

/-- The loop of `arrange_suffixes`: it returns when the tail stays below the
largest link, and the builder it returns links every key to its suffix and its
value. -/
theorem arrange_suffixes_loop_spec (n : Nat) (b0 : DoubleArrayBuilder) :
    ∀ (keys done : List DoubleArrayKey) (prev : Option DoubleArrayKey) (base_link : Nat)
      (values : List Int) (b : DoubleArrayBuilder),
      TailInv n b0 b done prev base_link values →
      (∀ k ∈ keys, k.WF ∧ (∀ c ∈ k.bytes, c < 256) ∧ k.index < n) →
      ((done ++ keys).map (fun k => k.index)).Nodup →
      (base_link + 4 * values.length + (keys.map (fun k => k.length.toNat + 5)).sum < 2 ^ 28 →
        ∃ bf, arrange_suffixes_loop 3 keys prev base_link values b = .ok bf) ∧
      ∀ bf, arrange_suffixes_loop 3 keys prev base_link values b = .ok bf →
        ∃ prev2 base_link2 values2, TailInv n b0 bf (done ++ keys) prev2 base_link2 values2 := by
  intro keys
  induction keys with
  | nil =>
    intro done prev base_link values b hinv _ _
    have e : arrange_suffixes_loop 3 [] prev base_link values b = .ok b := rfl
    rw [e, List.append_nil]
    refine ⟨fun _ => ⟨b, rfl⟩, fun bf hbf => ?_⟩
    cases hbf
    exact ⟨prev, base_link, values, hinv⟩
  | cons key rest ih =>
    intro done prev base_link values b hinv hkeys hnd
    obtain ⟨hw, hb, hidx⟩ := hkeys key (List.mem_cons_self _ _)
    have hrest : ∀ k ∈ rest, k.WF ∧ (∀ c ∈ k.bytes, c < 256) ∧ k.index < n :=
      fun k hk => hkeys k (List.mem_cons_of_mem _ hk)
    have happ : done ++ key :: rest = (done ++ [key]) ++ rest := by
      rw [List.append_assoc]; rfl
    have hnew : ∀ k ∈ done, k.index ≠ key.index := by
      intro k hk hc
      rw [List.map_append, List.map_cons] at hnd
      have := (List.nodup_append.1 hnd).2.2
      exact this (List.mem_map.2 ⟨k, hk, hc⟩) (List.mem_cons_self _ _)
    rw [happ] at hnd ⊢
    rw [arrange_suffixes_loop_eq]
    obtain ⟨hb1, hb2⟩ := suffix_budget prev values key base_link
    refine ⟨fun hbud => ?_, fun bf hbf => ?_⟩
    · rw [List.map_cons, List.sum_cons] at hbud
      obtain ⟨u, hu⟩ := DoubleArrayUnit.set_link_ok ((suffix_pre prev values key b).unit key.index)
        (suffix_base prev values key base_link - key.length.toNat - 1) (by omega)
      rw [hu]
      have hstep := arrange_step hinv key hw hb hidx hnew u hu
      exact (ih _ _ _ _ _ hstep hrest hnd).1 (by omega)
    · cases hu : ((suffix_pre prev values key b).unit key.index).set_link 3
          (suffix_base prev values key base_link - key.length.toNat - 1) with
      | error e => rw [hu] at hbf; cases hbf
      | ok u =>
        rw [hu] at hbf
        have hstep := arrange_step hinv key hw hb hidx hnew u hu
        exact (ih _ _ _ _ _ hstep hrest hnd).2 bf hbf

/-- The builder `arrange_suffixes` starts its loop with. -/
theorem tailInv_start (b : DoubleArrayBuilder) (hwf : ∀ j, (b.units.getD j default).wf)
    (ks : List DoubleArrayKey) :
    TailInv b.num_of_units b
      (DoubleArrayBuilder.mk ks b.units b.extras b.unfixed_index b.num_of_unused_indices (4 * b.num_of_units) b.progress)
      [] none 0 [] := by
  refine ⟨⟨hwf, Nat.le_refl _, Nat.le_refl _, Nat.le_refl _⟩, rfl, ?_, ?_, ?_, ?_, ?_⟩
  · intro pk hpk; cases hpk
  · intro v t hv; exact absurd hv (Nat.not_lt_zero _)
  · intro k hk; cases hk
  · intro j _ _; rfl
  · intro j _; rfl

theorem arrange_suffixes_eq (b : DoubleArrayBuilder) (hk : b.keys ≠ []) :
    arrange_suffixes 3 b = arrange_suffixes_loop 3 (sort_keys b.keys) none 0 []
      (DoubleArrayBuilder.mk (sort_keys b.keys) b.units b.extras b.unfixed_index b.num_of_unused_indices (4 * b.num_of_units) b.progress) := by
  unfold arrange_suffixes
  have h1 : b.keys.isEmpty = false := by
    cases hb : b.keys with
    | nil => exact absurd hb hk
    | cons a t => rfl
  simp only [h1, Bool.false_eq_true, if_false]
  rfl

theorem arrange_suffixes_nil (b : DoubleArrayBuilder) (hk : b.keys = []) :
    arrange_suffixes 3 b = .ok
      (DoubleArrayBuilder.mk b.keys b.units b.extras b.unfixed_index b.num_of_unused_indices (4 * b.num_of_units) b.progress) := by
  unfold arrange_suffixes
  have h1 : b.keys.isEmpty = true := by rw [hk]; rfl
  simp only [h1, if_true]

theorem arrange_suffixes_spec (b : DoubleArrayBuilder) (hwf : ∀ j, (b.units.getD j default).wf)
    (hkeys : ∀ k ∈ b.keys, k.WF ∧ (∀ c ∈ k.bytes, c < 256) ∧ k.index < b.num_of_units)
    (hnd : (b.keys.map (fun k => k.index)).Nodup) :
    ((b.keys.map (fun k => k.length.toNat + 5)).sum < 2 ^ 28 →
        ∃ bf, arrange_suffixes 3 b = .ok bf) ∧
      ∀ bf, arrange_suffixes 3 b = .ok bf → Arranged b bf := by
  by_cases hk : b.keys = []
  · rw [arrange_suffixes_nil b hk]
    refine ⟨fun _ => ⟨_, rfl⟩, fun bf hbf => ?_⟩
    cases hbf
    have h := tailInv_start b hwf b.keys
    refine ⟨h.shape, ?_, fun _ _ _ => rfl, fun _ _ => rfl⟩
    intro k hk2
    rw [hk] at hk2
    cases hk2
  · rw [arrange_suffixes_eq b hk]
    have hperm : (sort_keys b.keys).Perm b.keys := List.perm_insertionSort _ _
    have h := arrange_suffixes_loop_spec b.num_of_units b (sort_keys b.keys) [] none 0 []
      _ (tailInv_start b hwf (sort_keys b.keys))
      (fun k hk2 => hkeys k (hperm.mem_iff.1 hk2))
      (by
        rw [List.nil_append]
        exact (hperm.map _).nodup_iff.2 hnd)
    refine ⟨fun hbud => h.1 ?_, fun bf hbf => ?_⟩
    · rw [(hperm.map _).sum_eq]
      simpa using hbud
    · obtain ⟨p2, l2, v2, hinv⟩ := h.2 bf hbf
      rw [List.nil_append] at hinv
      refine ⟨hinv.shape, fun k hk2 => hinv.done_ok k (hperm.mem_iff.2 hk2), ?_, hinv.leaf⟩
      intro j hj hne
      exact hinv.frame j hj (fun k hk2 => hne k (hperm.mem_iff.1 hk2))

end DoubleArrayBuilder

end Darts

namespace Darts

section keys

variable {K : List DoubleArrayKey} (hK : KeysOK K)
include hK

/-- The whole extended key belongs to no internal node. -/
theorem ext_not_internal {i : Nat} (hi : i < K.length) : ¬ Internal K (ext_at K i) := by
  intro hint
  have h := internal_length_lt hK hint ⟨hi, List.prefix_refl _⟩
  exact Nat.lt_irrefl _ h

omit hK in
/-- A prefix that belongs to no internal node is the prefix of one key only. -/
theorem leaf_key_unique {q : List Nat} {i j : Nat} (hq : ¬ Internal K q)
    (hi : Pre K q i) (hj : Pre K q j) : i = j := by
  rcases Nat.lt_trichotomy i j with h | h | h
  · exact absurd (Or.inr ⟨i, j, h, hi, hj⟩) hq
  · exact h
  · exact absurd (Or.inr ⟨j, i, h, hj, hi⟩) hq

/-- Every key ends in a leaf of the trie. -/
theorem leaf_of_key {i : Nat} (hi : i < K.length) :
    ∃ q, IsNode K q ∧ ¬ Internal K q ∧ Pre K q i := by
  classical
  have hex : ∃ m, ¬ Internal K ((ext_at K i).take m) :=
    ⟨(ext_at K i).length, by rw [List.take_length]; exact ext_not_internal hK hi⟩
  have hmin : ∀ m2, m2 < Nat.find hex → ¬ ¬ Internal K ((ext_at K i).take m2) :=
    fun m2 h => Nat.find_min hex h
  have hspec := Nat.find_spec hex
  generalize Nat.find hex = m at hmin hspec
  have hm0 : m ≠ 0 := by
    intro h0
    rw [h0] at hspec
    exact hspec (Or.inl rfl)
  have hprev : Internal K ((ext_at K i).take (m - 1)) := by
    by_contra hc
    exact hmin (m - 1) (by omega) hc
  have hlt : m - 1 < (ext_at K i).length := by
    have h := internal_length_lt hK hprev ⟨hi, List.take_prefix _ _⟩
    rw [List.length_take] at h
    omega
  refine ⟨(ext_at K i).take m, ⟨⟨i, hi, List.take_prefix _ _⟩, ?_⟩, hspec,
    ⟨hi, List.take_prefix _ _⟩⟩
  have e : ((ext_at K i).take m).dropLast = (ext_at K i).take (m - 1) := by
    rw [List.dropLast_eq_take, List.take_take, List.length_take]
    congr 1
    omega
  rw [e]
  exact hprev

/-- The key number `i` of the builder after `build_trie`: it is the key `i`
advanced to the last byte of the leaf `q` it ends in, and holds the index of
the unit of that leaf. -/
theorem builder_key {b : DoubleArrayBuilder} (h : TrieOK K b) {i2 : Nat} {q : List Nat}
    (hq1 : IsNode K q) (hq2 : ¬ Internal K q) (hq3 : Pre K q i2) :
    (b.keys.getD i2 default).index = walk b.units q ∧
      (b.unit (walk b.units q)).is_leaf = true ∧
      (b.keys.getD i2 default).WF ∧ (∀ c ∈ (b.keys.getD i2 default).bytes, c < 256) ∧
      (b.keys.getD i2 default).ext = (ext_at K i2).drop (q.length - 1) ∧
      (b.keys.getD i2 default).value = (K.getD i2 default).value := by
  have hi : i2 < K.length := hq3.1
  obtain ⟨hleaf, i3, hp, hidx, hpos⟩ := h.leaf q hq1 hq2
  have hii : i2 = i3 := leaf_key_unique hq2 hq3 hp
  subst hii
  obtain ⟨hkey, hval, hlen⟩ := h.keys.same i2 hi
  obtain ⟨hw, hp0⟩ := hK.wf _ (getD_mem' hi)
  have hqlen : q.length ≤ (ext_at K i2).length := hq3.2.length_le
  rw [ext_length hK hi] at hqlen
  have hnn := hw.length_nonneg
  have hbuf := hw.in_buffer
  rw [hp0] at hbuf
  generalize hbk : b.keys.getD i2 default = bk at *
  generalize hk : K.getD i2 default = k at *
  have hposq : q.length - 1 = bk.pos := by omega
  have hl2 : bk.length.toNat = k.length.toNat - bk.pos := by omega
  have hbytes : bk.bytes = k.bytes.drop bk.pos := by
    unfold DoubleArrayKey.bytes
    rw [hkey, hp0, hl2, List.drop_zero, List.drop_take]
  have hmem : ∀ c ∈ bk.bytes, c ∈ k.bytes := by
    intro c hc
    rw [hbytes] at hc
    exact List.mem_of_mem_drop hc
  refine ⟨hidx, hleaf, ⟨by omega, ?_, ?_⟩, ?_, ?_, hval⟩
  · rw [hkey]; omega
  · intro c hc
    exact hw.nonzero c (hmem c hc)
  · intro c hc
    exact hK.byte _ (by rw [← hk]; exact getD_mem' hi) c (hmem c hc)
  · rw [hposq]
    unfold ext_at DoubleArrayKey.ext
    rw [hk, hbytes, List.drop_append_of_le_length]
    rw [DoubleArrayKey.bytes_length _ hw]
    omega

omit hK in
theorem xor_byte_lt_of_lt (a c n : Nat) (hc : c < 256) (hn : n % 256 = 0) (ha : a < n) :
    a ^^^ c < n := by
  have h1 := xor_byte_div a c hc
  have h3 := Nat.div_add_mod (a ^^^ c) 256
  have h4 := Nat.div_add_mod n 256
  have h5 := Nat.div_add_mod a 256
  have h6 := Nat.mod_lt (a ^^^ c) (show 0 < 256 by decide)
  by_contra hge
  have h7 : n / 256 ≤ (a ^^^ c) / 256 := Nat.div_le_div_right (by omega)
  omega

/-- The units of the trie that are no leaves are left alone by
`arrange_suffixes`. -/
theorem arranged_frame {b bf : DoubleArrayBuilder} (h : TrieOK K b) (ha : Arranged b bf)
    (j : Nat) (hj : j < b.num_of_units) (hl : (b.unit j).is_leaf = false) :
    bf.units.getD j default = b.units.getD j default := by
  apply ha.frame j hj
  intro k hk hc
  obtain ⟨i, hi, hki⟩ := List.getElem_of_mem hk
  have hiK : i < K.length := by rw [← h.keys.length]; exact hi
  obtain ⟨q, hq1, hq2, hq3⟩ := leaf_of_key hK hiK
  obtain ⟨hidx, hleaf, _⟩ := builder_key hK h hq1 hq2 hq3
  rw [List.getD_eq_getElem _ _ hi, hki, hc] at hidx
  rw [hidx, hleaf] at hl
  cases hl

/-- The path to a node is the same before and after `arrange_suffixes`. -/
theorem arranged_walk {b bf : DoubleArrayBuilder} (h : TrieOK K b) (ha : Arranged b bf)
    (q : List Nat) : IsNode K q → walk bf.units q = walk b.units q := by
  induction q using List.reverseRecOn with
  | nil => intro _; rw [walk_nil, walk_nil]
  | append_singleton p c ih =>
    intro hq
    have hp : IsNode K p := isNode_of_le hq (List.prefix_append _ _)
    have hpi : Internal K p := by
      have := hq.2
      rw [List.dropLast_concat] at this
      exact this
    have e := ih hp
    obtain ⟨h1, _, _⟩ := h.internal p hp hpi
    have e2 := arranged_frame hK h ha _ (h.node p hp).1 h1
    rw [walk_snoc, walk_snoc]
    unfold base_of
    rw [e, e2]

/-- The array that `arrange_suffixes` leaves from the trie of `build_trie`. -/
theorem dict_of_arranged {b bf : DoubleArrayBuilder} (h : TrieOK K b) (ha : Arranged b bf) :
    DictOK K bf.units b.num_of_units := by
  have hw := arranged_walk hK h ha
  have hfr := arranged_frame hK h ha
  have hnum := h.num
  have hbase : ∀ q, IsNode K q → Internal K q → base_of bf.units q = base_of b.units q := by
    intro q hq hqi
    unfold base_of
    rw [hw q hq, hfr _ (h.node q hq).1 (h.internal q hq hqi).1]
  refine ⟨⟨hnum.1, hnum.2.1, ha.shape.len, hnum.2.2⟩, ?_, ?_, ?_, ?_, ?_, ?_, ?_⟩
  · rw [hfr 1 (by omega) h.one.2.1]
    exact h.one
  · rw [hfr 0 (by omega) h.root.2]
    exact h.root
  · intro q hq
    rw [hw q hq]
    exact ⟨(h.node q hq).1, (h.node q hq).2.1⟩
  · intro q hq hqi
    obtain ⟨h1, h2, h3⟩ := h.internal q hq hqi
    rw [hbase q hq hqi, hw q hq, hfr _ (h.node q hq).1 h1]
    exact ⟨h1, (h.node q hq).2.2, h2, h3⟩
  · intro q hq hqi
    obtain ⟨h1, i, hp, hidx, hpos⟩ := h.leaf q hq hqi
    obtain ⟨_, _, hwf, _, hext, hval⟩ := builder_key hK h hq hqi hp
    have hmem : b.keys.getD i default ∈ b.keys := by
      rw [List.getD_eq_getElem _ _ (by rw [h.keys.length]; exact hp.1)]
      exact List.getElem_mem _
    have hl := ha.leaf_ok _ hmem
    have hlen : ((ext_at K i).drop (q.length - 1)).length
        = (b.keys.getD i default).length.toNat + 1 := by
      rw [← hext]
      unfold DoubleArrayKey.ext
      rw [List.length_append, DoubleArrayKey.bytes_length _ hwf]
      rfl
    rw [hw q hq]
    refine ⟨?_, i, hp, ?_⟩
    · rw [ha.leaf _ (h.node q hq).1]
      exact h1
    · rw [← hidx, ← hval, ← hext]
      rw [← hext] at hlen
      refine ⟨?_, ?_, ?_⟩
      · intro t ht
        exact hl.suffix t (by omega)
      · intro t ht
        rw [hlen, ← Nat.add_assoc]
        exact hl.value t ht
      · rw [hlen, ← Nat.add_assoc]
        exact Nat.le_trans hl.bound ha.shape.hi
  · intro p q hp hq hpq
    rw [hw p hp, hw q hq] at hpq
    exact h.inj p q hp hq hpq
  · intro q hq hqi c hc hno
    rw [hbase q hq hqi]
    rcases h.other q hq hqi c hc hno with ⟨h1, h2⟩ | ⟨p, hp1, hp2, hp3, hp4⟩
    · left
      have hlt : base_of b.units q ^^^ c < b.num_of_units :=
        xor_byte_lt_of_lt _ _ _ hc hnum.1 (h.internal q hq hqi).2.2
      rw [hfr _ hlt h1]
      exact ⟨h1, h2⟩
    · right
      exact ⟨p, hp1, hp2, by rw [hw p hp1]; exact hp3, hp4⟩

end keys

end Darts

namespace Darts

theorem sum_map_le_of_getD (f g : DoubleArrayKey → Nat) :
    ∀ (l1 l2 : List DoubleArrayKey), l1.length = l2.length →
      (∀ i, i < l2.length → f (l1.getD i default) ≤ g (l2.getD i default)) →
      (l1.map f).sum ≤ (l2.map g).sum := by
  intro l1
  induction l1 with
  | nil =>
    intro l2 _ _
    exact Nat.zero_le _
  | cons a t ih =>
    intro l2 hlen hle
    cases l2 with
    | nil => cases hlen
    | cons c r =>
      rw [List.map_cons, List.map_cons, List.sum_cons, List.sum_cons]
      have h0 := hle 0 (by simp)
      have h1 := ih r (by simpa using hlen) (fun i hi => by
        have := hle (i + 1) (by simpa using hi)
        simpa using this)
      simp only [List.getD_cons_zero] at h0
      omega

theorem sum_length5 (K : List DoubleArrayKey) :
    (K.map (fun k => k.length.toNat + 5)).sum ≤ 5 * DoubleArrayBuilder.trie_fuel K := by
  unfold DoubleArrayBuilder.trie_fuel
  induction K with
  | nil => simp
  | cons a t ih =>
    simp only [List.map_cons, List.sum_cons] at ih ⊢
    omega

section keys

variable {K : List DoubleArrayKey} (hK : KeysOK K)
include hK

/-- The keys of the builder after `build_trie` are fit for `arrange_suffixes`. -/
theorem builder_keys_ok {b : DoubleArrayBuilder} (h : TrieOK K b) :
    (∀ k ∈ b.keys, k.WF ∧ (∀ c ∈ k.bytes, c < 256) ∧ k.index < b.num_of_units) ∧
      (b.keys.map (fun k => k.index)).Nodup ∧
      (b.keys.map (fun k => k.length.toNat + 5)).sum
        ≤ 5 * DoubleArrayBuilder.trie_fuel K := by
  have hlen := h.keys.length
  refine ⟨?_, ?_, ?_⟩
  · intro k hk
    obtain ⟨i, hi, hki⟩ := List.getElem_of_mem hk
    obtain ⟨q, hq1, hq2, hq3⟩ := leaf_of_key hK (by rw [← hlen]; exact hi)
    obtain ⟨hidx, _, hwf, hby, _, _⟩ := builder_key hK h hq1 hq2 hq3
    rw [List.getD_eq_getElem _ _ hi, hki] at hidx hwf hby
    exact ⟨hwf, hby, by rw [hidx]; exact (h.node q hq1).1⟩
  · unfold List.Nodup
    rw [List.pairwise_iff_getElem]
    intro i j hi hj hij
    rw [List.length_map] at hi hj
    rw [List.getElem_map, List.getElem_map]
    intro heq
    obtain ⟨q, hq1, hq2, hq3⟩ := leaf_of_key hK (by rw [← hlen]; exact hi)
    obtain ⟨p, hp1, hp2, hp3⟩ := leaf_of_key hK (by rw [← hlen]; exact hj)
    obtain ⟨hidx, _⟩ := builder_key hK h hq1 hq2 hq3
    obtain ⟨hidx2, _⟩ := builder_key hK h hp1 hp2 hp3
    rw [List.getD_eq_getElem _ _ hi] at hidx
    rw [List.getD_eq_getElem _ _ hj] at hidx2
    have hqp : q = p := h.inj q p hq1 hp1 (by rw [← hidx, ← hidx2]; exact heq)
    subst hqp
    have := leaf_key_unique hq2 hq3 hp3
    omega
  · refine Nat.le_trans (sum_map_le_of_getD _ (fun k => k.length.toNat + 5) b.keys K hlen ?_)
      (sum_length5 K)
    intro i hi
    obtain ⟨_, _, h3⟩ := h.keys.same i hi
    show (b.keys.getD i default).length.toNat + 5 ≤ (K.getD i default).length.toNat + 5
    omega

end keys

namespace DoubleArrayBuilder

theorem build_eq (K : List DoubleArrayKey) :
    build 3 K = Except.bind (init K).build_trie
      (fun b => Except.bind (arrange_suffixes 3 b) (fun bf => .ok bf.units)) := rfl

end DoubleArrayBuilder

section build

variable {K : List DoubleArrayKey} (hK : KeysOK K)
include hK

/-- The builder returns an array for every key set that is not too large. -/
theorem builder_total (hsize : 256 * (DoubleArrayBuilder.trie_fuel K + 1) < 2 ^ 29) :
    ∃ U, DoubleArrayBuilder.build 3 K = .ok U := by
  obtain ⟨b, hb, hok, _, _⟩ := build_trie_total hK hsize
  obtain ⟨h1, h2, h3⟩ := builder_keys_ok hK hok
  obtain ⟨bf, hbf⟩ := (DoubleArrayBuilder.arrange_suffixes_spec b hok.wf h1 h2).1 (by omega)
  rw [DoubleArrayBuilder.build_eq, hb, bind_ok, hbf, bind_ok]
  exact ⟨_, rfl⟩

/-- The array the builder returns is that of `arrange_suffixes`, run on the trie
of `build_trie`. -/
theorem builder_inv {U : List DoubleArrayUnit} (h : DoubleArrayBuilder.build 3 K = .ok U) :
    ∃ b bf, (DoubleArrayBuilder.init K).build_trie = .ok b ∧
      DoubleArrayBuilder.arrange_suffixes 3 b = .ok bf ∧ U = bf.units ∧
      TrieOK K b ∧ (K = [] → EmptyTrie b) ∧ Arranged b bf ∧
      (U.getD 1 default).offset = b.num_of_units := by
  rw [DoubleArrayBuilder.build_eq] at h
  obtain ⟨b, hb, h⟩ := bind_eq_ok h
  obtain ⟨bf, hbf, h⟩ := bind_eq_ok h
  cases h
  obtain ⟨hok, hempty⟩ := build_trie_partial hK hb
  obtain ⟨h1, h2, _⟩ := builder_keys_ok hK hok
  have har := (DoubleArrayBuilder.arrange_suffixes_spec b hok.wf h1 h2).2 bf hbf
  exact ⟨b, bf, hb, hbf, rfl, hok, hempty, har, (dict_of_arranged hK hok har).one.2.2⟩

/-- The array the builder returns holds the trie of the keys, its tail the rest
of every key and its value. -/
theorem builder_sound {U : List DoubleArrayUnit}
    (h : DoubleArrayBuilder.build 3 K = .ok U) :
    DictOK K U (U.getD 1 default).offset ∧ (K = [] → EmptyDict U) := by
  obtain ⟨b, bf, hb, hbf, hU, hok, hempty, har, hone⟩ := builder_inv hK h
  subst hU
  have hd := dict_of_arranged hK hok har
  rw [hone]
  refine ⟨hd, fun hK0 => ?_⟩
  have he := hempty hK0
  have hu : ∀ j, j < 256 → bf.units.getD j default = b.unit j := by
    intro j hj
    apply har.frame j (by rw [he.num]; exact hj)
    intro k hk
    rw [he.keys] at hk
    cases hk
  have hlen : bf.units.length = 256 := by
    rw [DoubleArrayBuilder.arrange_suffixes_nil b he.keys] at hbf
    cases hbf
    exact he.num
  refine ⟨hlen, ?_, ?_, ?_⟩
  · rw [hu 0 (by decide)]; exact he.zero
  · rw [hu 1 (by decide)]; exact he.one
  · intro j hj1 hj2
    rw [hu j hj2]; exact he.rest j hj1 hj2

end build

end Darts

namespace Darts

/-- The keys that the loop of `build_double_array` keeps are fit for the
builder. -/
theorem collected_keysOK {inp : List (List Nat)} {values : Option (List Int)} {n : Nat}
    {ks : List DoubleArrayKey} (h : Collected inp values n ks) (hv : ∀ k ∈ inp, ValidKey k) :
    KeysOK ks := by
  refine ⟨?_, ?_, ?_⟩
  · intro e he
    obtain ⟨h1, h2, _⟩ := h.entry e he
    exact ⟨h1, h2⟩
  · intro e he c hc
    obtain ⟨_, h2, _, h4, i, _, h5, _⟩ := h.entry e he
    rw [DoubleArrayKey.bytes_of_full e h2 h4, h5] at hc
    by_cases hi : i < inp.length
    · rw [List.getD_eq_getElem _ _ hi] at hc
      exact (hv _ (List.getElem_mem hi) c hc).2
    · rw [List.getD_eq_default _ _ (by omega)] at hc
      cases hc
  · haveI : IsTrans DoubleArrayKey (fun a b => List.Lex (· < ·) a.bytes b.bytes) :=
      ⟨fun _ _ _ h1 h2 => lex_trans h1 h2⟩
    exact List.chain'_iff_pairwise.1 h.sorted

/-- When the loop of `build_double_array` returns keys, it has kept the first
occurrence of every key of the input. -/
theorem collect_ok_inv (keys : List (List Nat)) (lengths : Option (List Nat))
    (values : Option (List Int)) (hv : ∀ k ∈ keys, ValidKey k)
    (hL : ∀ ls, lengths = some ls → ∀ i, i < keys.length → ls.getD i 0 = (keys.getD i []).length)
    {ks : List DoubleArrayKey}
    (h : DoubleArrayBase.collect_keys lengths values keys 0 [] = .ok ks) :
    Collected keys values keys.length ks ∧ KeysOK ks := by
  by_cases hs : ∀ j, j + 1 < keys.length →
      ¬ List.Lex (· < ·) (keys.getD (j + 1) []) (keys.getD j [])
  · obtain ⟨ks2, hk, hc⟩ := collect_keys_ok lengths values keys hv hL hs keys.length 0 []
      (by omega) (collected_nil keys values)
    rw [List.drop_zero, h] at hk
    injection hk with hk
    subst hk
    exact ⟨hc, collected_keysOK hc hv⟩
  · exfalso
    simp only [not_forall, not_not] at hs
    obtain ⟨j, hj, hl⟩ := hs
    have := collect_keys_unsorted lengths values keys hv hL keys.length 0 [] (by omega)
      ⟨fun e he => (by cases he), fun _ => rfl, fun h => (by omega)⟩
      ⟨j + 1, by omega, by omega, hj, by simpa using hl⟩
    rw [List.drop_zero, h] at this
    cases this

/-- A successful `build` has stored the array that the builder returns for the
keys kept. -/
theorem build_ok_inv (keys : List (List Nat)) (lengths : Option (List Nat))
    (values : Option (List Int)) (hv : ∀ k ∈ keys, ValidKey k)
    (hL : ∀ ls, lengths = some ls → ∀ i, i < keys.length → ls.getD i 0 = (keys.getD i []).length)
    {da : DoubleArrayBase}
    (h : DoubleArrayBase.build 3 keys.length (some keys) lengths values = .ok da) :
    ∃ ks U, DoubleArrayBase.collect_keys lengths values keys 0 [] = .ok ks ∧
      Collected keys values keys.length ks ∧ KeysOK ks ∧
      DoubleArrayBuilder.build 3 ks = .ok U ∧ da = DoubleArrayBase.set_vector U := by
  cases hk : DoubleArrayBase.collect_keys lengths values keys 0 [] with
  | error e =>
    rw [DoubleArrayBase.build_eq_of_collect_error 3 keys lengths values e hk] at h
    cases h
  | ok ks =>
    obtain ⟨hc, hok⟩ := collect_ok_inv keys lengths values hv hL hk
    cases hb : DoubleArrayBuilder.build 3 ks with
    | error e =>
      rw [DoubleArrayBase.build_eq_of_build_error 3 keys lengths values ks e hk hb] at h
      cases h
    | ok u =>
      rw [DoubleArrayBase.build_eq_of_build_ok 3 keys lengths values ks u hk hb] at h
      injection h with h
      exact ⟨ks, u, rfl, hc, hok, hb, h.symm⟩

/-- When the loop of `build_double_array` returns keys, `build` succeeds if
the builder has room for them. -/
theorem build_ok_total (keys : List (List Nat)) (lengths : Option (List Nat))
    (values : Option (List Int)) (hv : ∀ k ∈ keys, ValidKey k)
    (hL : ∀ ls, lengths = some ls → ∀ i, i < keys.length → ls.getD i 0 = (keys.getD i []).length)
    (ks : List DoubleArrayKey)
    (hks : DoubleArrayBase.collect_keys lengths values keys 0 [] = .ok ks)
    (hsize : 256 * (DoubleArrayBuilder.trie_fuel ks + 1) < 2 ^ 29) :
    ∃ da, DoubleArrayBase.build 3 keys.length (some keys) lengths values = .ok da := by
  obtain ⟨_, hok⟩ := collect_ok_inv keys lengths values hv hL hks
  obtain ⟨U, hU⟩ := builder_total hok hsize
  exact ⟨_, DoubleArrayBase.build_eq_of_build_ok 3 keys lengths values ks U hks hU⟩

end Darts

namespace Darts

theorem units_of_bytes_length : ∀ (n : Nat) (bytes : List Nat),
    (DoubleArrayBase.units_of_bytes n bytes).length = n := by
  intro n
  induction n with
  | zero => intro bytes; rfl
  | succ n ih =>
    intro bytes
    rw [DoubleArrayBase.units_of_bytes, List.length_cons, ih]

theorem store_built_fst (self : DoubleArrayBase) (r : Except DartsError (List DoubleArrayUnit))
    (e : DartsError) (h : (DoubleArrayBase.store_built self r).2 = .error e) :
    (DoubleArrayBase.store_built self r).1 = self := by
  cases r with
  | error e' => rfl
  | ok u =>
    rw [DoubleArrayBase.store_built_ok] at h
    cases h

theorem build_collected_fst (self : DoubleArrayBase) (idBits : Nat)
    (c : Except DartsError (List DoubleArrayKey)) (e : DartsError)
    (h : (DoubleArrayBase.build_collected self idBits c).2 = .error e) :
    (DoubleArrayBase.build_collected self idBits c).1 = self := by
  cases c with
  | error e' => rfl
  | ok ks =>
    rw [DoubleArrayBase.build_collected_ok] at h ⊢
    exact store_built_fst self _ e h

theorem collect_keys_ba :
    DoubleArrayBase.collect_keys none none [[98], [97]] 0 [] = .error .unsortedKeys := by
  have h := collect_keys_unsorted none none [[98], [97]] (by decide) (fun ls h => by cases h)
    2 0 [] rfl ⟨fun e he => (by cases he), fun _ => rfl, fun h => (by omega)⟩
    ⟨1, by omega, by omega, by decide, List.Lex.rel (by decide)⟩
  exact h

/-- C6: the count returned by `commonPrefixSearch` does not depend on the
capacity; with capacities `c1 ≤ c2` the run with `c1` returns the same count as
the run with `c2`, writes the same results below `c1`, and neither run writes a
slot at or beyond its capacity. -/
theorem commonPrefixSearch_capacity (idBits : Nat) (da : DoubleArrayBase) (key : List Nat)
    (results : List result_pair_type) (c1 c2 length agent n : Nat) (r2 : List result_pair_type)
    (h12 : c1 ≤ c2)
    (h : DoubleArrayBase.commonPrefixSearch idBits da key results c2 length agent = some (n, r2)) :
    ∃ r1, DoubleArrayBase.commonPrefixSearch idBits da key results c1 length agent = some (n, r1) ∧
      (∀ i, i < c1 → r1[i]? = r2[i]?) ∧ (∀ i, c1 ≤ i → r1[i]? = results[i]?) ∧
      (∀ i, c2 ≤ i → r2[i]? = results[i]?) := by
  unfold DoubleArrayBase.commonPrefixSearch at h ⊢
  obtain ⟨r1, e1, e2⟩ := DoubleArrayBase.common_prefix_search_same idBits da c1 c2 h12 results _ _ _
    n r2 h
  exact ⟨r1, e1, e2⟩

theorem commonPrefixSearch_capacity_witness :
    ∃ r1, DoubleArrayBase.commonPrefixSearch 3 example_image [97] [⟨0, 0⟩] 0 0 0 = some (1, r1) ∧
      (∀ i, i < 0 → r1[i]? = [(⟨7, 1⟩ : result_pair_type)][i]?) ∧
      (∀ i, 0 ≤ i → r1[i]? = [(⟨0, 0⟩ : result_pair_type)][i]?) ∧
      (∀ i, 1 ≤ i → [(⟨7, 1⟩ : result_pair_type)][i]? = [(⟨0, 0⟩ : result_pair_type)][i]?) :=
  commonPrefixSearch_capacity 3 example_image [97] [⟨0, 0⟩] 0 1 0 0 1 [⟨7, 1⟩] (by decide)
    (by decide)

/-- C7: for keys without zero bytes, `build` raises "Unsorted keys" if and only
if some key of the input is strictly smaller, in byte-wise lexicographic order,
than the key before it. -/
theorem build_unsorted_iff (idBits : Nat) (keys : List (List Nat)) (lengths : Option (List Nat))
    (values : Option (List Int)) (hv : ∀ k ∈ keys, ValidKey k)
    (hL : ∀ ls, lengths = some ls → ∀ i, i < keys.length → ls.getD i 0 = (keys.getD i []).length) :
    DoubleArrayBase.build idBits keys.length (some keys) lengths values = .error .unsortedKeys ↔
      ∃ j, 0 < j ∧ j < keys.length ∧
        List.Lex (· < ·) (keys.getD j []) (keys.getD (j - 1) []) := by
  constructor
  · intro h
    by_contra hno
    have hs : ∀ j, j + 1 < keys.length →
        ¬ List.Lex (· < ·) (keys.getD (j + 1) []) (keys.getD j []) := by
      intro j hj hl
      exact hno ⟨j + 1, by omega, hj, by simpa using hl⟩
    obtain ⟨ks, hk, _⟩ := collect_keys_ok lengths values keys hv hL hs keys.length 0 []
      (by omega) (collected_nil keys values)
    rw [List.drop_zero] at hk
    cases hb : DoubleArrayBuilder.build idBits ks with
    | error e =>
      rw [DoubleArrayBase.build_eq_of_build_error idBits keys lengths values ks e hk hb] at h
      have := DoubleArrayBuilder.onlyErr_build idBits ks e hb
      injection h with h
      subst h
      rcases this with h | h | h <;> cases h
    | ok u =>
      rw [DoubleArrayBase.build_eq_of_build_ok idBits keys lengths values ks u hk hb] at h
      cases h
  · rintro ⟨j, hj1, hj2, hj3⟩
    apply DoubleArrayBase.build_eq_of_collect_error
    have := collect_keys_unsorted lengths values keys hv hL keys.length 0 [] (by omega)
      ⟨fun e he => (by cases he), fun _ => rfl, fun h => (by omega)⟩ ⟨j, by omega, hj1, hj2, hj3⟩
    rw [List.drop_zero] at this
    exact this

theorem build_unsorted_iff_witness :
    DoubleArrayBase.build 3 [[98], [97]].length (some [[98], [97]]) none none =
      .error .unsortedKeys :=
  (build_unsorted_iff 3 [[98], [97]] none none (by decide) (fun ls h => by cases h)).mpr
    ⟨1, by decide, by decide, List.Lex.rel (by decide)⟩

end Darts

namespace Darts

theorem make_key_null (ls : List Nat) (key : List Nat) (i p : Nat) (hp1 : p < ls.getD i 0)
    (hp2 : p < key.length) (hp3 : key.getD p 0 = 0) :
    DoubleArrayBase.make_key (some ls) key i = .error .nullCharacter := by
  unfold DoubleArrayBase.make_key DoubleArrayKey.ofLength
  simp only
  rw [if_pos]
  simp only [List.any_eq_true, List.mem_range, beq_iff_eq]
  refine ⟨p, hp1, ?_⟩
  simpa [DoubleArrayKey.at_] using hp3

theorem getD_take_of_lt (l : List (List Nat)) (j i : Nat) (h : i < j) :
    (l.take j).getD i [] = l.getD i [] := by
  simp only [List.getD_eq_getElem?_getD]
  rw [List.getElem?_take_of_lt h]

/-- C10 (counterexample): in the input `["b", "a", "\0"]` with the lengths
`[1, 1, 1]` the third key contains a zero byte within its length, but `build`
raises "Unsorted keys", not "Null character appears in a key". -/
theorem build_null_character_counterexample :
    (∃ p, p < [1, 1, 1].getD 2 0 ∧ p < ([[98], [97], [0]].getD 2 []).length ∧
      ([[98], [97], [0]].getD 2 []).getD p 0 = 0) ∧
    DoubleArrayBase.build 3 3 (some [[98], [97], [0]]) (some [1, 1, 1]) none =
      .error .unsortedKeys := by
  refine ⟨⟨0, by decide, by decide, by decide⟩, ?_⟩
  apply DoubleArrayBase.build_eq_of_collect_error 3 [[98], [97], [0]]
  have h1 := DoubleArrayBase.collect_keys_append (some [1, 1, 1]) none [[98], [97]] [[0]] 0 []
  have h2 := collect_keys_unsorted (some [1, 1, 1]) none [[98], [97]] (by decide)
    (fun ls h i hi => by
      injection h with h
      subst h
      have : i = 0 ∨ i = 1 := by simp at hi; omega
      rcases this with h | h <;> subst h <;> rfl)
    2 0 [] rfl ⟨fun e he => (by cases he), fun _ => rfl, fun h => (by omega)⟩
    ⟨1, by omega, by omega, by decide, List.Lex.rel (by decide)⟩
  rw [List.drop_zero] at h2
  rw [h2] at h1
  exact h1

/-- C10 (amended): when key lengths are supplied, below `2^32` up to a key
that contains a zero byte within its stated length, `build` raises an error and
produces no dictionary; the error is "Null character appears in a key" when the
keys before that key are free of zero bytes, have their full lengths stated and
are in ascending order. -/
theorem build_null_character (idBits : Nat) (keys : List (List Nat)) (ls : List Nat)
    (values : Option (List Int)) (j : Nat) (hj : j < keys.length)
    (hb : ∀ i, i ≤ j → ls.getD i 0 < 2 ^ 32)
    (hz : ∃ p, p < ls.getD j 0 ∧ p < (keys.getD j []).length ∧ (keys.getD j []).getD p 0 = 0) :
    (∃ e, DoubleArrayBase.build idBits keys.length (some keys) (some ls) values = .error e) ∧
    ((∀ i, i < j → ValidKey (keys.getD i []) ∧ ls.getD i 0 = (keys.getD i []).length) →
      (∀ i, i + 1 < j → ¬ List.Lex (· < ·) (keys.getD (i + 1) []) (keys.getD i [])) →
      DoubleArrayBase.build idBits keys.length (some keys) (some ls) values =
        .error .nullCharacter) := by
  constructor
  · obtain ⟨e, he⟩ := DoubleArrayBase.collect_keys_fails ls values keys 0 [] j hj
      (by rw [Nat.zero_add]; exact hz)
    exact ⟨e, DoubleArrayBase.build_eq_of_collect_error idBits keys (some ls) values e he⟩
  · intro hpre hsorted
    apply DoubleArrayBase.build_eq_of_collect_error
    have hsplit : keys = keys.take j ++ keys.drop j := (List.take_append_drop j keys).symm
    have hlen : (keys.take j).length = j := by
      rw [List.length_take]; omega
    have hv : ∀ k ∈ keys.take j, ValidKey k := by
      intro k hk
      obtain ⟨i, hi, rfl⟩ := List.getElem_of_mem hk
      rw [hlen] at hi
      have := (hpre i hi).1
      rw [← getD_take_of_lt keys j i hi, List.getD_eq_getElem _ _ (by rw [hlen]; exact hi)] at this
      exact this
    obtain ⟨ks, hk, _⟩ := collect_keys_ok (some ls) values (keys.take j) hv
      (fun ls' h i hi => by
        injection h with h
        subst h
        rw [hlen] at hi
        rw [getD_take_of_lt keys j i hi]
        exact (hpre i hi).2)
      (fun i hi => by
        rw [hlen] at hi
        rw [getD_take_of_lt keys j (i + 1) hi, getD_take_of_lt keys j i (by omega)]
        exact hsorted i hi)
      j 0 [] (by rw [hlen]; omega) (collected_nil _ values)
    rw [List.drop_zero] at hk
    rw [hsplit, DoubleArrayBase.collect_keys_append, hk]
    simp only [hlen, Nat.zero_add]
    rw [drop_eq_cons_getD keys j hj, DoubleArrayBase.collect_keys]
    obtain ⟨p, hp1, hp2, hp3⟩ := hz
    rw [make_key_null ls _ j p hp1 hp2 hp3]

theorem build_null_character_witness :
    (∃ e, DoubleArrayBase.build 3 [[97], [0]].length (some [[97], [0]]) (some [1, 1]) none =
      .error e) ∧
    ((∀ i, i < 1 → ValidKey ([[97], [0]].getD i []) ∧
        [1, 1].getD i 0 = ([[97], [0]].getD i []).length) →
      (∀ i, i + 1 < 1 →
        ¬ List.Lex (· < ·) ([[97], [0]].getD (i + 1) []) ([[97], [0]].getD i [])) →
      DoubleArrayBase.build 3 [[97], [0]].length (some [[97], [0]]) (some [1, 1]) none =
        .error .nullCharacter) :=
  build_null_character 3 [[97], [0]] [1, 1] none 1 (by decide)
    (fun i hi => by
      have h : i = 0 ∨ i = 1 := by omega
      rcases h with h | h <;> subst h <;> decide)
    ⟨0, by decide, by decide, by decide⟩

/-- C11: if `build` raises an error, the dictionary object is left in its
state before the call (unit array, tail position and size), so every query
answers as before. -/
theorem build_error_keeps_object (self : DoubleArrayBase) (idBits num_of_keys : Nat)
    (keys : Option (List (List Nat))) (lengths : Option (List Nat)) (values : Option (List Int))
    (e : DartsError)
    (h : (DoubleArrayBase.build_double_array self idBits num_of_keys keys lengths values).2
      = .error e) :
    (DoubleArrayBase.build_double_array self idBits num_of_keys keys lengths values).1 = self ∧
    (∀ key result length agent,
      DoubleArrayBase.exactMatchSearch idBits
        (DoubleArrayBase.build_double_array self idBits num_of_keys keys lengths values).1
        key result length agent =
      DoubleArrayBase.exactMatchSearch idBits self key result length agent) ∧
    (∀ key results cap length agent,
      DoubleArrayBase.commonPrefixSearch idBits
        (DoubleArrayBase.build_double_array self idBits num_of_keys keys lengths values).1
        key results cap length agent =
      DoubleArrayBase.commonPrefixSearch idBits self key results cap length agent) ∧
    (∀ key agent key_index length,
      DoubleArrayBase.traverse idBits
        (DoubleArrayBase.build_double_array self idBits num_of_keys keys lengths values).1
        key agent key_index length =
      DoubleArrayBase.traverse idBits self key agent key_index length) := by
  have h1 : (DoubleArrayBase.build_double_array self idBits num_of_keys keys lengths values).1
      = self := by
    unfold DoubleArrayBase.build_double_array at h ⊢
    by_cases hc : num_of_keys > 0 ∧ keys.isNone = true
    · rw [if_pos hc]
    · rw [if_neg hc] at h ⊢
      exact build_collected_fst self idBits _ e h
  rw [h1]
  exact ⟨rfl, fun _ _ _ _ => rfl, fun _ _ _ _ _ => rfl, fun _ _ _ _ => rfl⟩

theorem build_double_array_ba (self : DoubleArrayBase) :
    (DoubleArrayBase.build_double_array self 3 [[98], [97]].length (some [[98], [97]])
      none none).2 = .error .unsortedKeys := by
  rw [DoubleArrayBase.build_double_array_some, collect_keys_ba,
    DoubleArrayBase.build_collected_error]

theorem build_error_keeps_object_witness :
    (DoubleArrayBase.build_double_array example_image 3 [[98], [97]].length (some [[98], [97]])
      none none).1 = example_image :=
  (build_error_keeps_object example_image 3 [[98], [97]].length (some [[98], [97]]) none none
    .unsortedKeys (build_double_array_ba example_image)).1

/-- C17 (counterexample): an image of two units whose unit 1 records the
offset 5 is loaded by `open` and accepted by `set_array`; the tail position of
the dictionary is byte 20, outside the 8 bytes of the image. -/
theorem open_no_validation_counterexample :
    DoubleArrayBase.open_ (some [0, 0, 0, 0, 0, 20, 0, 0]) 0 0 =
      some { units := [⟨0⟩, ⟨5120⟩], tail := 20, size := 2 } ∧
    DoubleArrayBase.set_array [⟨0⟩, ⟨5120⟩] 2 = { units := [⟨0⟩, ⟨5120⟩], tail := 20, size := 2 } ∧
    (([⟨0⟩, ⟨5120⟩] : List DoubleArrayUnit).getD 1 default).offset = 5 ∧
    2 < (([⟨0⟩, ⟨5120⟩] : List DoubleArrayUnit).getD 1 default).offset := by
  decide

/-- C17 (amended): `open` and `set_array` do not validate the size recorded in
unit 1.  `set_array` accepts every image of at least 2 units, and `open` loads
every file whose remaining size is a multiple of 4 and at least 8, that is, of
at least 2 units; the tail position is always `4 * unit[1].offset`, also when
`unit[1].offset` is greater than the number of units, where it lies outside the
image. -/
theorem open_no_validation (units : List DoubleArrayUnit) (size : Nat) (bytes : List Nat)
    (offset : Nat) (hu : 2 ≤ units.length) (ho : offset + 8 ≤ bytes.length)
    (h4 : (bytes.length - offset) % 4 = 0) :
    (DoubleArrayBase.set_array units size).units = units ∧
    (DoubleArrayBase.set_array units size).tail = 4 * (units.getD 1 default).offset ∧
    (DoubleArrayBase.set_array units size).size = size ∧
    ∃ da, DoubleArrayBase.open_ (some bytes) offset 0 = some da ∧
      2 ≤ da.units.length ∧
      da.units.length = (bytes.length - offset) / 4 ∧ da.size = (bytes.length - offset) / 4 ∧
      da.tail = 4 * (da.units.getD 1 default).offset := by
  refine ⟨rfl, rfl, rfl, ?_⟩
  unfold DoubleArrayBase.open_
  simp only [↓reduceIte]
  rw [if_neg (by omega)]
  simp only
  rw [if_neg (by omega), if_pos (by omega)]
  have hlen : (DoubleArrayBase.set_vector (DoubleArrayBase.units_of_bytes
      ((bytes.length - offset) / 4) (bytes.drop offset))).units.length
      = (bytes.length - offset) / 4 := by
    show (DoubleArrayBase.units_of_bytes _ _).length = _
    rw [units_of_bytes_length]
  refine ⟨_, rfl, ?_, hlen, ?_, rfl⟩
  · rw [hlen]
    omega
  · show (DoubleArrayBase.units_of_bytes _ _).length = _
    rw [units_of_bytes_length]

theorem open_no_validation_witness :
    (DoubleArrayBase.set_array [⟨0⟩, ⟨5120⟩] 2).units = [⟨0⟩, ⟨5120⟩] ∧
    (DoubleArrayBase.set_array [⟨0⟩, ⟨5120⟩] 2).tail
      = 4 * (([⟨0⟩, ⟨5120⟩] : List DoubleArrayUnit).getD 1 default).offset ∧
    (DoubleArrayBase.set_array [⟨0⟩, ⟨5120⟩] 2).size = 2 ∧
    ∃ da, DoubleArrayBase.open_ (some [0, 0, 0, 0, 0, 20, 0, 0]) 0 0 = some da ∧
      2 ≤ da.units.length ∧
      da.units.length = ([0, 0, 0, 0, 0, 20, 0, 0].length - 0) / 4 ∧
      da.size = ([0, 0, 0, 0, 0, 20, 0, 0].length - 0) / 4 ∧
      da.tail = 4 * (da.units.getD 1 default).offset :=
  open_no_validation [⟨0⟩, ⟨5120⟩] 2 [0, 0, 0, 0, 0, 20, 0, 0] 0 (by decide) (by decide)
    (by decide)

/-- C20: for a 32-bit unit word, `set_offset(o)` succeeds for every `o < 2^21`
and for every multiple of 256 below `2^29`; `offset()` then returns `o`, and
`is_leaf`, `is_end` and `label` are unchanged.  `set_offset` raises "Too large
offset" exactly when `o ≥ OFFSET_MAX << 8 = 2^29`. -/
theorem set_offset_roundtrip (u : DoubleArrayUnit) (o : Nat) (hu : u.wf) :
    ((o < 2 ^ 21 ∨ (o < 2 ^ 29 ∧ o % 256 = 0)) →
      ∃ u', u.set_offset o = .ok u' ∧ u'.offset = o ∧ u'.is_leaf = u.is_leaf ∧
        u'.is_end = u.is_end ∧ u'.label = u.label) ∧
    (u.set_offset o = .error .tooLargeOffset ↔ DoubleArrayUnit.OFFSET_MAX <<< 8 ≤ o) ∧
    DoubleArrayUnit.OFFSET_MAX <<< 8 = 2 ^ 29 ∧ DoubleArrayUnit.OFFSET_MAX = 2 ^ 21 := by
  have hm : DoubleArrayUnit.OFFSET_MAX <<< 8 = 2 ^ 29 := by decide
  refine ⟨?_, ?_, hm, by decide⟩
  · intro ho
    have hlt : o < 2 ^ 29 := by omega
    have hok := DoubleArrayUnit.set_offset_ok u o hlt
    obtain ⟨_, h2, h3, h4, h5⟩ := DoubleArrayUnit.set_offset_spec hu hok
    refine ⟨_, hok, h5 (by omega), h3, h4, h2⟩
  · rw [hm]
    constructor
    · intro h
      by_contra hc
      rw [DoubleArrayUnit.set_offset_ok u o (by omega)] at h
      cases h
    · intro h
      exact DoubleArrayUnit.set_offset_error u o h

theorem set_offset_roundtrip_witness :
    ((512 < 2 ^ 21 ∨ (512 < 2 ^ 29 ∧ 512 % 256 = 0)) →
      ∃ u', (⟨7⟩ : DoubleArrayUnit).set_offset 512 = .ok u' ∧ u'.offset = 512 ∧
        u'.is_leaf = (⟨7⟩ : DoubleArrayUnit).is_leaf ∧
        u'.is_end = (⟨7⟩ : DoubleArrayUnit).is_end ∧ u'.label = (⟨7⟩ : DoubleArrayUnit).label) ∧
    ((⟨7⟩ : DoubleArrayUnit).set_offset 512 = .error .tooLargeOffset ↔
      DoubleArrayUnit.OFFSET_MAX <<< 8 ≤ 512) ∧
    DoubleArrayUnit.OFFSET_MAX <<< 8 = 2 ^ 29 ∧ DoubleArrayUnit.OFFSET_MAX = 2 ^ 21 :=
  set_offset_roundtrip ⟨7⟩ 512 (by unfold DoubleArrayUnit.wf; decide)

end Darts

namespace Darts

theorem build_double_array_zero (self : DoubleArrayBase) (keys : Option (List (List Nat)))
    (lengths : Option (List Nat)) (values : Option (List Int)) :
    DoubleArrayBase.build_double_array self 3 0 keys lengths values
      = DoubleArrayBase.build_collected self 3 (.ok []) := by
  unfold DoubleArrayBase.build_double_array
  rw [if_neg (fun h => absurd h.1 (Nat.lt_irrefl 0)), List.take_zero]
  rfl

theorem keysOK_nil : KeysOK [] :=
  ⟨fun k hk => (by cases hk), fun k hk => (by cases hk), List.Pairwise.nil⟩

/-- The dictionary built from no keys. -/
theorem build_zero_ok (keys : Option (List (List Nat))) (lengths : Option (List Nat))
    (values : Option (List Int)) :
    ∃ U, DoubleArrayBase.build 3 0 keys lengths values = .ok (DoubleArrayBase.set_vector U) ∧
      EmptyDict U := by
  obtain ⟨U, hU⟩ := builder_total keysOK_nil (by decide)
  refine ⟨U, ?_, (builder_sound keysOK_nil hU).2 rfl⟩
  unfold DoubleArrayBase.build
  rw [build_double_array_zero, DoubleArrayBase.build_collected_ok, hU,
    DoubleArrayBase.store_built_ok, DoubleArrayBase.build_outcome_ok]

/-- C12 (counterexample): the array built from the empty key set does not
consist of 2 units. -/
theorem build_empty_units_counterexample :
    ∃ da, DoubleArrayBase.build 3 0 none none none = .ok da ∧ da.units.length ≠ 2 := by
  obtain ⟨U, hU, he⟩ := build_zero_ok none none none
  refine ⟨_, hU, ?_⟩
  show U.length ≠ 2
  rw [he.length]
  decide

/-- C12 (amended): building from the empty key set produces a unit array of
exactly 256 units, one block, among them the reserved units 0 and 1: unit 0 is
the root (no leaf, label 0) and unit 1 is the unit that records the number of
units (no leaf, label 1, offset 256); the size of the dictionary is 256. -/
theorem build_empty_units (keys : Option (List (List Nat))) (lengths : Option (List Nat))
    (values : Option (List Int)) :
    ∃ da, DoubleArrayBase.build 3 0 keys lengths values = .ok da ∧
      da.units.length = 256 ∧ da.size = 256 ∧
      (da.units.getD 0 default).label = 0 ∧ (da.units.getD 0 default).is_leaf = false ∧
      (da.units.getD 1 default).offset = 256 ∧ (da.units.getD 1 default).label = 1 ∧
      (da.units.getD 1 default).is_leaf = false := by
  obtain ⟨U, hU, he⟩ := build_zero_ok keys lengths values
  exact ⟨_, hU, he.length, he.length, he.zero.2.1, he.zero.2.2.1, he.one.2.2,
    he.one.1, he.one.2.1⟩

/-- C13: after a successful build, unit 1 is a non-leaf unit with label 1 whose
offset is the number of units of the trie phase, a multiple of 256 that does
not exceed the number of units of the array, and the tail starts at that unit:
tail byte `t` is byte `4 * offset + t` of the image. -/
theorem unit_one_offset (keys : List (List Nat)) (lengths : Option (List Nat))
    (values : Option (List Int)) (hv : ∀ k ∈ keys, ValidKey k)
    (hL : ∀ ls, lengths = some ls → ∀ i, i < keys.length → ls.getD i 0 = (keys.getD i []).length)
    (da : DoubleArrayBase)
    (h : DoubleArrayBase.build 3 keys.length (some keys) lengths values = .ok da) :
    (da.units.getD 1 default).label = 1 ∧ (da.units.getD 1 default).is_leaf = false ∧
      (∃ ks b, DoubleArrayBase.collect_keys lengths values keys 0 [] = .ok ks ∧
        (DoubleArrayBuilder.init ks).build_trie = .ok b ∧
        (da.units.getD 1 default).offset = b.num_of_units) ∧
      (da.units.getD 1 default).offset % 256 = 0 ∧
      (da.units.getD 1 default).offset ≤ da.units.length ∧
      da.size = da.units.length ∧
      da.tail = 4 * (da.units.getD 1 default).offset ∧
      ∀ t, da.tail? t =
        if (4 * (da.units.getD 1 default).offset + t) / 4 < da.units.length
        then some (DoubleArrayBuilder.get_byte da.units
          (4 * (da.units.getD 1 default).offset + t))
        else none := by
  obtain ⟨ks, U, hks, _, hok, hU, hda⟩ := build_ok_inv keys lengths values hv hL h
  subst hda
  obtain ⟨b, bf, hb, _, _, _, _, _, hone⟩ := builder_inv hok hU
  have hd := (builder_sound hok hU).1
  exact ⟨hd.one.1, hd.one.2.1, ⟨ks, b, hks, hb, hone⟩, hd.num.1, hd.num.2.2.1, rfl, rfl,
    fun t => rfl⟩

theorem collect_keys_a :
    DoubleArrayBase.collect_keys none none [[97]] 0 [] = .ok [⟨[97], 0, 1, 0, 0⟩] := rfl

theorem unit_one_offset_witness :
    ∃ da, DoubleArrayBase.build 3 [[97]].length (some [[97]]) none none = .ok da ∧
      (da.units.getD 1 default).label = 1 ∧ (da.units.getD 1 default).offset % 256 = 0 := by
  obtain ⟨da, hda⟩ := build_ok_total [[97]] none none (by decide) (fun ls h => by cases h)
    _ collect_keys_a (by decide)
  have h := unit_one_offset [[97]] none none (by decide) (fun ls h => by cases h) da hda
  exact ⟨da, hda, h.1, h.2.2.2.1⟩

/-- The keys kept by the loop of `build_double_array` are the distinct keys of
the input. -/
theorem collected_distinct {inp : List (List Nat)} {values : Option (List Int)}
    {ks : List DoubleArrayKey} (h : Collected inp values inp.length ks) (hok : KeysOK ks) :
    (∀ k, k ∈ inp ↔ k ∈ ks.map (fun e => e.key)) ∧ (ks.map (fun e => e.key)).Nodup := by
  constructor
  · intro k
    constructor
    · intro hk
      obtain ⟨i, hi, hki⟩ := List.getElem_of_mem hk
      obtain ⟨e, he, hek⟩ := h.complete i hi
      rw [List.getD_eq_getElem _ _ hi, hki] at hek
      exact List.mem_map.2 ⟨e, he, hek⟩
    · intro hk
      obtain ⟨e, he, hek⟩ := List.mem_map.1 hk
      obtain ⟨_, _, _, _, i, hi, h5, _⟩ := h.entry e he
      rw [← hek, h5, List.getD_eq_getElem _ _ hi]
      exact List.getElem_mem hi
  · rw [List.nodup_map_iff_inj_on (List.Pairwise.imp (fun hl heq => by
      rw [heq] at hl
      exact lex_irrefl _ hl) hok.sorted)]
    intro x hx y hy hxy
    by_contra hne
    obtain ⟨_, hx2, _, hx4, _⟩ := h.entry x hx
    obtain ⟨_, hy2, _, hy4, _⟩ := h.entry y hy
    have hb : x.bytes = y.bytes := by
      rw [DoubleArrayKey.bytes_of_full x hx2 hx4, DoubleArrayKey.bytes_of_full y hy2 hy4, hxy]
    have hp := hok.sorted
    obtain ⟨i, hi, hxi⟩ := List.getElem_of_mem hx
    obtain ⟨j, hj, hyj⟩ := List.getElem_of_mem hy
    rcases Nat.lt_trichotomy i j with hij | hij | hij
    · have := List.pairwise_iff_getElem.1 hp i j hi hj hij
      rw [hxi, hyj, hb] at this
      exact lex_irrefl _ this
    · subst hij
      exact hne (hxi.symm.trans hyj)
    · have := List.pairwise_iff_getElem.1 hp j i hj hi hij
      rw [hxi, hyj, hb] at this
      exact lex_irrefl _ this

/-- C18: the keys kept by `build` are the distinct keys of the input; when the
trie of these `n` keys has been built, the progress function has been called
`n` times, the `m`-th call with `(m, n)`, and every key has been given the
index of a leaf unit of its own. -/
theorem progress_calls (keys : List (List Nat)) (lengths : Option (List Nat))
    (values : Option (List Int)) (hv : ∀ k ∈ keys, ValidKey k)
    (hL : ∀ ls, lengths = some ls → ∀ i, i < keys.length → ls.getD i 0 = (keys.getD i []).length)
    (ks : List DoubleArrayKey)
    (hks : DoubleArrayBase.collect_keys lengths values keys 0 [] = .ok ks)
    (b : DoubleArrayBuilder) (hb : (DoubleArrayBuilder.init ks).build_trie = .ok b) :
    (∀ k, k ∈ keys ↔ k ∈ ks.map (fun e => e.key)) ∧ (ks.map (fun e => e.key)).Nodup ∧
      b.progress = (List.range ks.length).map (fun m => (m + 1, ks.length)) ∧
      b.keys.length = ks.length ∧
      (∀ i, i < ks.length → (b.keys.getD i default).key = (ks.getD i default).key ∧
        (b.unit (b.keys.getD i default).index).is_leaf = true) ∧
      (b.keys.map (fun k => k.index)).Nodup := by
  obtain ⟨hc, hok⟩ := collect_ok_inv keys lengths values hv hL hks
  obtain ⟨h1, h2⟩ := collected_distinct hc hok
  obtain ⟨ht, _⟩ := build_trie_partial hok hb
  refine ⟨h1, h2, ?_, ht.keys.length, ?_, (builder_keys_ok hok ht).2.1⟩
  · apply List.ext_getElem
    · rw [ht.progress.1, List.length_map, List.length_range]
    · intro m hm1 hm2
      have hm : m < ks.length := by rw [← ht.progress.1]; exact hm1
      have := ht.progress.2 m hm
      rw [List.getD_eq_getElem _ _ hm1] at this
      rw [this, List.getElem_map, List.getElem_range]
  · intro i hi
    obtain ⟨q, hq1, hq2, hq3⟩ := leaf_of_key hok hi
    obtain ⟨hidx, hleaf, _⟩ := builder_key hok ht hq1 hq2 hq3
    refine ⟨(ht.keys.same i hi).1, ?_⟩
    rw [hidx]
    exact hleaf

theorem progress_calls_witness :
    ∃ b, (DoubleArrayBuilder.init [⟨[97], 0, 1, 0, 0⟩]).build_trie = .ok b ∧
      b.progress = (List.range 1).map (fun m => (m + 1, 1)) := by
  obtain ⟨hc, hok⟩ := collect_ok_inv [[97]] none none (by decide) (fun ls h => by cases h)
    collect_keys_a
  obtain ⟨b, hb, _⟩ := build_trie_total hok (by decide)
  exact ⟨b, hb, (progress_calls [[97]] none none (by decide) (fun ls h => by cases h)
    _ collect_keys_a b hb).2.2.1⟩

/-- The root of the array of a successful build: its offset is the base of the
units of the first bytes of the keys. -/
theorem root_facts (keys : List (List Nat)) (lengths : Option (List Nat))
    (values : Option (List Int)) (hv : ∀ k ∈ keys, ValidKey k)
    (hL : ∀ ls, lengths = some ls → ∀ i, i < keys.length → ls.getD i 0 = (keys.getD i []).length)
    (da : DoubleArrayBase)
    (h : DoubleArrayBase.build 3 keys.length (some keys) lengths values = .ok da) :
    (da.units.getD 0 default).label = 0 ∧ (da.units.getD 0 default).is_leaf = false ∧
      (keys = [] → (da.units.getD 0 default).offset = 1) ∧
      ∀ k ∈ keys, (da.units.getD 0 default).offset ≠ k.getD 0 0 ∧
        (da.units.getD 0 default).offset ^^^ k.getD 0 0 ≠ 1 ∧
        (da.units.getD 0 default).offset ^^^ k.getD 0 0 < (da.units.getD 1 default).offset := by
  obtain ⟨ks, U, hks, hc, hok, hU, hda⟩ := build_ok_inv keys lengths values hv hL h
  subst hda
  obtain ⟨hd, he⟩ := builder_sound hok hU
  show (U.getD 0 default).label = 0 ∧ (U.getD 0 default).is_leaf = false ∧
      (keys = [] → (U.getD 0 default).offset = 1) ∧
      ∀ k ∈ keys, (U.getD 0 default).offset ≠ k.getD 0 0 ∧
        (U.getD 0 default).offset ^^^ k.getD 0 0 ≠ 1 ∧
        (U.getD 0 default).offset ^^^ k.getD 0 0 < (U.getD 1 default).offset
  refine ⟨hd.root.1, hd.root.2, ?_, ?_⟩
  · intro hk
    have hks0 : ks = [] := by
      cases hks2 : ks with
      | nil => rfl
      | cons e t =>
        obtain ⟨_, _, _, _, i, hi, _⟩ := hc.entry e (by rw [hks2]; exact List.mem_cons_self _ _)
        rw [hk] at hi
        exact absurd hi (Nat.not_lt_zero _)
    exact (he hks0).zero.1
  · intro k hk
    obtain ⟨i, hi, hki⟩ := List.getElem_of_mem hk
    obtain ⟨e, he1, hek⟩ := hc.complete i hi
    rw [List.getD_eq_getElem _ _ hi, hki] at hek
    obtain ⟨_, he2, _, he4, _⟩ := hc.entry e he1
    obtain ⟨j, hj, hej⟩ := List.getElem_of_mem he1
    have hext : ext_at ks j = k ++ [0] := by
      unfold ext_at DoubleArrayKey.ext
      rw [List.getD_eq_getElem _ _ hj, hej, DoubleArrayKey.bytes_of_full e he2 he4, hek]
    have hpre : Pre ks [k.getD 0 0] j := by
      refine ⟨hj, ?_⟩
      rw [hext]
      cases k with
      | nil => exact List.prefix_refl _
      | cons c t => exact ⟨t ++ [0], rfl⟩
    have hnode : IsNode ks [k.getD 0 0] := ⟨⟨j, hpre⟩, Or.inl rfl⟩
    have hroot : IsNode ks [] := ⟨⟨j, hj, List.nil_prefix⟩, Or.inl rfl⟩
    have hw : walk U [k.getD 0 0] = (U.getD 0 default).offset ^^^ k.getD 0 0 := by
      have := walk_snoc U [] (k.getD 0 0)
      rw [List.nil_append] at this
      rw [this]
      unfold base_of
      rw [walk_nil, Nat.zero_xor]
    have hn := hd.node _ hnode
    rw [hw] at hn
    refine ⟨?_, hn.2, hn.1⟩
    intro heq
    have h0 : walk U [k.getD 0 0] = walk U [] := by
      rw [hw, walk_nil, heq, Nat.xor_self]
    have := hd.inj _ _ hnode hroot h0
    cases this

theorem collect_keys_one :
    DoubleArrayBase.collect_keys none none [[1]] 0 [] = .ok [⟨[1], 0, 1, 0, 0⟩] := rfl

/-- C19 (counterexample): in the array built from the single key `"\x01"` the
offset of unit 0 is not 1. -/
theorem root_unit_counterexample :
    ∃ da, DoubleArrayBase.build 3 [[1]].length (some [[1]]) none none = .ok da ∧
      (da.units.getD 0 default).offset ≠ 1 := by
  obtain ⟨da, hda⟩ := build_ok_total [[1]] none none (by decide) (fun ls h => by cases h)
    _ collect_keys_one (by decide)
  have h := root_facts [[1]] none none (by decide) (fun ls h => by cases h) da hda
  exact ⟨da, hda, (h.2.2.2 [1] (List.mem_singleton.2 rfl)).1⟩

/-- C19 (amended): in every array produced by a successful build, unit 0 (the
root) is a non-leaf unit with label 0; its offset is 1 for the empty key set,
and for a non-empty key set it is the base of the units of the first bytes of
the keys: for every key with first byte `c`, `offset xor c` is the index of a
unit of the trie other than the units 0 and 1, so that the offset differs from
`c`. -/
theorem root_unit (keys : List (List Nat)) (lengths : Option (List Nat))
    (values : Option (List Int)) (hv : ∀ k ∈ keys, ValidKey k)
    (hL : ∀ ls, lengths = some ls → ∀ i, i < keys.length → ls.getD i 0 = (keys.getD i []).length)
    (da : DoubleArrayBase)
    (h : DoubleArrayBase.build 3 keys.length (some keys) lengths values = .ok da) :
    (da.units.getD 0 default).label = 0 ∧ (da.units.getD 0 default).is_leaf = false ∧
      (keys = [] → (da.units.getD 0 default).offset = 1) ∧
      ∀ k ∈ keys, (da.units.getD 0 default).offset ≠ k.getD 0 0 ∧
        (da.units.getD 0 default).offset ^^^ k.getD 0 0 ≠ 1 ∧
        (da.units.getD 0 default).offset ^^^ k.getD 0 0 < (da.units.getD 1 default).offset :=
  root_facts keys lengths values hv hL da h

theorem root_unit_witness :
    ∃ da, DoubleArrayBase.build 3 [[97]].length (some [[97]]) none none = .ok da ∧
      (da.units.getD 0 default).label = 0 ∧ (da.units.getD 0 default).is_leaf = false ∧
      (da.units.getD 0 default).offset ≠ 97 := by
  obtain ⟨da, hda⟩ := build_ok_total [[97]] none none (by decide) (fun ls h => by cases h)
    _ collect_keys_a (by decide)
  have h := root_unit [[97]] none none (by decide) (fun ls h => by cases h) da hda
  exact ⟨da, hda, h.1, h.2.1, (h.2.2.2 [97] (List.mem_singleton.2 rfl)).1⟩

end Darts

namespace Darts

namespace DoubleArrayUnit

theorem link_set_value_id (u : DoubleArrayUnit) (id : Nat) (hu : u.wf) (hid : id < 8) :
    (u.set_value_id 3 id).link 3 = u.link 3 :=
  get_set_disjoint 1 3 4 28 u id hu hid (by decide) (by decide)

theorem set_link_error_iff (u : DoubleArrayUnit) (l : Nat) :
    u.set_link 3 l = .error .tooLargeLink ↔ 2 ^ 28 ≤ l := by
  unfold set_link
  have hm : UNIT_LINK_MAX 3 = 2 ^ 28 := by decide
  rw [hm]
  by_cases h : l ≥ 2 ^ 28
  · rw [if_pos h]
    exact ⟨fun _ => h, fun _ => rfl⟩
  · rw [if_neg h]
    constructor
    · intro hc; cases hc
    · intro hc; omega

end DoubleArrayUnit

/-- C21 (counterexample): `set_offset(2^21 + 1)` raises no error and does not
store the offset: `offset()` returns `2^21` afterwards. -/
theorem set_offset_truncates :
    ∃ u, (default : DoubleArrayUnit).set_offset 2097153 = .ok u ∧ u.offset = 2097152 :=
  ⟨_, rfl, by decide⟩

/-- C21 (amended): for every offset `o`, `set_offset(o)` raises "too large
offset" when `o >= 2^29`; otherwise it returns, and `offset()` afterwards
returns `o` when `o < 2^21` and `o` with its low 8 bits cleared when
`2^21 <= o`, which is `o` exactly if `o` is below `2^21` or a multiple of 256:
an offset that fits neither form is not rejected, it is stored as a different
value. -/
theorem set_offset_stores (u : DoubleArrayUnit) (o : Nat) (hu : u.wf) :
    (2 ^ 29 ≤ o → u.set_offset o = .error .tooLargeOffset) ∧
    (o < 2 ^ 29 → ∃ u2, u.set_offset o = .ok u2 ∧
      u2.offset = (if o < 2 ^ 21 then o else o / 256 * 256) ∧
      (u2.offset = o ↔ (o < 2 ^ 21 ∨ o % 256 = 0))) := by
  refine ⟨fun h => DoubleArrayUnit.set_offset_error u o h, fun ho => ?_⟩
  have hok := DoubleArrayUnit.set_offset_ok u o ho
  have hw := DoubleArrayUnit.offset_field_lt o ho
  have hoff : (DoubleArrayUnit.set 10 22 u
      (if o < DoubleArrayUnit.OFFSET_MAX then o else (1 <<< 21) + (o >>> 8))).offset
      = (if o < 2 ^ 21 then o else o / 256 * 256) := by
    unfold DoubleArrayUnit.offset
    rw [DoubleArrayUnit.get_set_same 10 22 u _ hu hw (by decide)]
    have e1 : (1 <<< 21 : Nat) = 2097152 := by decide
    simp only [DoubleArrayUnit.OFFSET_MAX_eq, e1, Nat.shiftRight_eq_div_pow, Nat.shiftLeft_eq]
    by_cases h1 : o < 2097152
    · simp [h1]
    · simp only [h1, if_false]
      have h2 : ¬ (2097152 + o / 2 ^ 8 < 2097152) := by omega
      simp only [h2, if_false]
      have h3 : ¬ (o < 2 ^ 21) := by omega
      rw [if_neg h3]
      omega
  refine ⟨_, hok, hoff, ?_⟩
  rw [hoff]
  by_cases h1 : o < 2 ^ 21
  · rw [if_pos h1]
    exact ⟨fun _ => Or.inl h1, fun _ => rfl⟩
  · rw [if_neg h1]
    constructor
    · intro h
      right
      omega
    · rintro (h | h)
      · exact absurd h h1
      · omega

theorem set_offset_stores_witness :
    (2 ^ 29 ≤ 2097153 → (default : DoubleArrayUnit).set_offset 2097153 = .error .tooLargeOffset) ∧
    (2097153 < 2 ^ 29 → ∃ u2, (default : DoubleArrayUnit).set_offset 2097153 = .ok u2 ∧
      u2.offset = (if 2097153 < 2 ^ 21 then 2097153 else 2097153 / 256 * 256) ∧
      (u2.offset = 2097153 ↔ (2097153 < 2 ^ 21 ∨ 2097153 % 256 = 0))) :=
  set_offset_stores default 2097153 DoubleArrayUnit.wf_default

/-- C24: whatever a 32-bit unit held before, after `set_is_leaf`,
`set_value_id(id)` with `id < 8` and `set_link(l)` with `l < 2^28`, in either
order of the last two, the unit reads back `is_leaf = true`, `value_id() = id`
and `link() = l`; `set_link` raises "Too large link address" exactly when
`l >= 2^28`. -/
theorem leaf_fields (u : DoubleArrayUnit) (hu : u.wf) (id l : Nat) (hid : id < 8) :
    (l < 2 ^ 28 → ∃ u1 u2, (u.set_is_leaf.set_value_id 3 id).set_link 3 l = .ok u1 ∧
        u.set_is_leaf.set_link 3 l = .ok u2 ∧
        u1.is_leaf = true ∧ u1.value_id 3 = id ∧ u1.link 3 = l ∧
        (u2.set_value_id 3 id).is_leaf = true ∧ (u2.set_value_id 3 id).value_id 3 = id ∧
        (u2.set_value_id 3 id).link 3 = l) ∧
      (u.set_is_leaf.set_link 3 l = .error .tooLargeLink ↔ 2 ^ 28 ≤ l) ∧
      ((u.set_is_leaf.set_value_id 3 id).set_link 3 l = .error .tooLargeLink ↔ 2 ^ 28 ≤ l) := by
  have hw0 := DoubleArrayUnit.wf_set_is_leaf u hu
  have hw1 := DoubleArrayUnit.wf_set_value_id _ id hw0 hid
  refine ⟨fun hl => ?_, DoubleArrayUnit.set_link_error_iff _ l,
    DoubleArrayUnit.set_link_error_iff _ l⟩
  obtain ⟨u1, h1⟩ := DoubleArrayUnit.set_link_ok (u.set_is_leaf.set_value_id 3 id) l hl
  obtain ⟨u2, h2⟩ := DoubleArrayUnit.set_link_ok u.set_is_leaf l hl
  obtain ⟨_, a2, a3, a4⟩ := DoubleArrayUnit.set_link_spec hw1 h1
  obtain ⟨b1, b2, _, b4⟩ := DoubleArrayUnit.set_link_spec hw0 h2
  refine ⟨u1, u2, h1, h2, ?_, ?_, a4, ?_, ?_, ?_⟩
  · rw [a2, DoubleArrayUnit.is_leaf_set_value_id _ id hw0 hid]
    exact DoubleArrayUnit.is_leaf_set_is_leaf u
  · rw [a3]
    exact DoubleArrayUnit.value_id_set_value_id _ id hw0 hid
  · rw [DoubleArrayUnit.is_leaf_set_value_id _ id b1 hid, b2]
    exact DoubleArrayUnit.is_leaf_set_is_leaf u
  · exact DoubleArrayUnit.value_id_set_value_id _ id b1 hid
  · rw [DoubleArrayUnit.link_set_value_id _ id b1 hid]
    exact b4

theorem leaf_fields_witness :
    ∃ u1 u2, (((⟨388⟩ : DoubleArrayUnit).set_is_leaf.set_value_id 3 5).set_link 3 1000 = .ok u1 ∧
      (⟨388⟩ : DoubleArrayUnit).set_is_leaf.set_link 3 1000 = .ok u2 ∧
      u1.is_leaf = true ∧ u1.value_id 3 = 5 ∧ u1.link 3 = 1000 ∧
      (u2.set_value_id 3 5).is_leaf = true ∧ (u2.set_value_id 3 5).value_id 3 = 5 ∧
      (u2.set_value_id 3 5).link 3 = 1000) :=
  (leaf_fields ⟨388⟩ (show (388 : Nat) < 2 ^ 32 by decide) 5 1000 (by decide)).1 (by decide)

end Darts

namespace Darts

namespace V0

theorem and_511 (b : Nat) : b &&& 0x1FF = b % 512 :=
  Nat.and_pow_two_sub_one_eq_mod b 9

theorem and_255 (b : Nat) : b &&& 0xFF = b % 256 :=
  Nat.and_pow_two_sub_one_eq_mod b 8

theorem and_1 (b : Nat) : b &&& 1 = b % 2 :=
  Nat.and_pow_two_sub_one_eq_mod b 1

theorem and_512 (b : Nat) : b &&& 0x200 = (b / 512 % 2) * 512 := by
  have h := Nat.and_two_pow b 9
  have e : (2 : Nat) ^ 9 = 512 := by decide
  rw [e] at h
  rw [h, Nat.testBit_to_div_mod, e]
  by_cases hb : b / 512 % 2 = 1
  · simp [hb]
  · have : b / 512 % 2 = 0 := by omega
    simp [this]

theorem or_shl (x o k : Nat) (hx : x < 2 ^ k) : x ||| (o <<< k) = o * 2 ^ k + x := by
  rw [Nat.lor_comm, Nat.shiftLeft_eq, Nat.mul_comm, ← Nat.mul_add_lt_is_or hx]

end V0

end Darts

namespace Darts

namespace V0

theorem set_offset_low (u : DoubleArrayUnit) (o : Nat) (ho : o < 2 ^ 22) :
    u.set_offset o = .ok ⟨o * 1024 + u.base % 512⟩ := by
  unfold DoubleArrayUnit.set_offset
  have e1 : (DoubleArrayUnit.OFFSET_MAX <<< 8) % 2 ^ 32 = 2 ^ 30 := by decide
  have e2 : DoubleArrayUnit.OFFSET_MAX = 2 ^ 22 := by decide
  rw [e1, e2, if_neg (by omega), if_pos ho, and_511, Nat.shiftLeft_eq,
    Nat.mod_eq_of_lt (show o * 2 ^ 10 < 2 ^ 32 by omega), ← Nat.shiftLeft_eq,
    or_shl _ _ _ (by omega)]
  rw [Nat.shiftLeft_eq]

theorem set_offset_high (u : DoubleArrayUnit) (o : Nat) (h1 : 2 ^ 22 ≤ o) (h2 : o < 2 ^ 30)
    (h3 : o % 256 = 0) :
    u.set_offset o = .ok ⟨(2 * (o / 256) + 1) * 512 + u.base % 512⟩ := by
  unfold DoubleArrayUnit.set_offset
  have e1 : (DoubleArrayUnit.OFFSET_MAX <<< 8) % 2 ^ 32 = 2 ^ 30 := by decide
  have e2 : DoubleArrayUnit.OFFSET_MAX = 2 ^ 22 := by decide
  rw [e1, e2, if_neg (by omega), if_neg (by omega), and_255, if_neg (by omega), and_511,
    Nat.shiftLeft_eq, Nat.mod_eq_of_lt (show o * 2 ^ 2 < 2 ^ 32 by omega)]
  have e3 : o * 2 ^ 2 ||| 0x200 = (2 * (o / 256) + 1) <<< 9 := by
    have : o * 2 ^ 2 = (o / 256) <<< 10 := by rw [Nat.shiftLeft_eq]; omega
    rw [this, Nat.lor_comm, or_shl 0x200 _ 10 (by decide), Nat.shiftLeft_eq]
    omega
  rw [e3, or_shl _ _ _ (by omega)]
  rfl

theorem set_offset_invalid (u : DoubleArrayUnit) (o : Nat) (h1 : 2 ^ 22 ≤ o) (h2 : o < 2 ^ 30)
    (h3 : o % 256 ≠ 0) : u.set_offset o = .error .invalidOffset := by
  unfold DoubleArrayUnit.set_offset
  have e1 : (DoubleArrayUnit.OFFSET_MAX <<< 8) % 2 ^ 32 = 2 ^ 30 := by decide
  have e2 : DoubleArrayUnit.OFFSET_MAX = 2 ^ 22 := by decide
  rw [e1, e2, if_neg (by omega), if_neg (by omega), and_255, if_pos h3]

theorem set_offset_large (u : DoubleArrayUnit) (o : Nat) (h1 : 2 ^ 30 ≤ o) :
    u.set_offset o = .error .tooLargeOffset := by
  unfold DoubleArrayUnit.set_offset
  have e1 : (DoubleArrayUnit.OFFSET_MAX <<< 8) % 2 ^ 32 = 2 ^ 30 := by decide
  rw [e1, if_pos h1]

theorem offset_eq (w : DoubleArrayUnit) (hw : w.base < 2 ^ 32) :
    w.offset = if w.base / 512 % 2 = 1 then w.base / 1024 * 256 else w.base / 1024 := by
  unfold DoubleArrayUnit.offset
  rw [and_512, Nat.shiftRight_eq_div_pow, Nat.shiftLeft_eq]
  by_cases h : w.base / 512 % 2 = 1
  · rw [if_pos h, if_pos (by omega)]
    apply Nat.mod_eq_of_lt
    omega
  · rw [if_neg h, if_neg (by omega)]

theorem label_of_base (w : DoubleArrayUnit) : w.label = w.base / 2 % 256 := by
  unfold DoubleArrayUnit.label
  rw [and_255, Nat.shiftRight_eq_div_pow]

theorem is_leaf_eq (w : DoubleArrayUnit) : w.is_leaf = decide (w.base % 2 = 1) := by
  unfold DoubleArrayUnit.is_leaf
  rw [and_1]
  by_cases h : w.base % 2 = 1
  · simp [h]
  · have : w.base % 2 = 0 := by omega
    simp [this]

end V0

/-- C22: in a unit of 0.32f-beta2, the decoded offset is the payload in bits
10..31 when bit 9 is clear and the payload shifted left by 8 when bit 9 is set;
`set_offset(o)` raises an error exactly when `o >= 2^30` or `o >= 2^22` and
`o` is not a multiple of 256 ("too large offset" in the first case, "invalid
offset" in the second), and otherwise `offset()` returns `o` afterwards, with
the leaf bit and the label, bits 0..8, unchanged. -/
theorem v0_set_offset (u : V0.DoubleArrayUnit) (hu : u.base < 2 ^ 32) (o : Nat) :
    (u.offset = if u.base.testBit 9 then (u.base >>> 10) <<< 8 else u.base >>> 10) ∧
      ((∃ e, u.set_offset o = .error e) ↔ (2 ^ 30 ≤ o ∨ (2 ^ 22 ≤ o ∧ o % 256 ≠ 0))) ∧
      (2 ^ 30 ≤ o → u.set_offset o = .error .tooLargeOffset) ∧
      (o < 2 ^ 30 → 2 ^ 22 ≤ o → o % 256 ≠ 0 → u.set_offset o = .error .invalidOffset) ∧
      ∀ w, u.set_offset o = .ok w →
        w.offset = o ∧ w.is_leaf = u.is_leaf ∧ w.label = u.label ∧
          w.base % 512 = u.base % 512 ∧ w.base < 2 ^ 32 := by
  refine ⟨?_, ?_, V0.set_offset_large u o, V0.set_offset_invalid u o |> fun h a b c => h b a c,
    ?_⟩
  · rw [V0.offset_eq u hu, Nat.testBit_to_div_mod, Nat.shiftRight_eq_div_pow, Nat.shiftLeft_eq]
    by_cases h : u.base / 2 ^ 9 % 2 = 1
    · have h2 : u.base / 512 % 2 = 1 := h
      simp [h, h2]
    · have h2 : ¬ u.base / 512 % 2 = 1 := h
      simp [h, h2]
  · by_cases h1 : 2 ^ 30 ≤ o
    · rw [V0.set_offset_large u o h1]
      exact ⟨fun _ => Or.inl h1, fun _ => ⟨_, rfl⟩⟩
    · by_cases h2 : o < 2 ^ 22
      · rw [V0.set_offset_low u o h2]
        constructor
        · rintro ⟨e, he⟩; cases he
        · intro h; omega
      · by_cases h3 : o % 256 = 0
        · rw [V0.set_offset_high u o (by omega) (by omega) h3]
          constructor
          · rintro ⟨e, he⟩; cases he
          · intro h; omega
        · rw [V0.set_offset_invalid u o (by omega) (by omega) h3]
          exact ⟨fun _ => Or.inr ⟨by omega, h3⟩, fun _ => ⟨_, rfl⟩⟩
  · intro w hw
    by_cases h1 : 2 ^ 30 ≤ o
    · rw [V0.set_offset_large u o h1] at hw; cases hw
    · by_cases h2 : o < 2 ^ 22
      · rw [V0.set_offset_low u o h2] at hw
        injection hw with hw
        subst hw
        have hb : o * 1024 + u.base % 512 < 2 ^ 32 := by omega
        rw [V0.offset_eq _ hb, V0.label_of_base, V0.label_of_base, V0.is_leaf_eq, V0.is_leaf_eq]
        have hm := Nat.mod_lt u.base (show 0 < 512 by decide)
        refine ⟨?_, ?_, ?_, ?_, hb⟩
        · show (if (o * 1024 + u.base % 512) / 512 % 2 = 1
            then (o * 1024 + u.base % 512) / 1024 * 256
            else (o * 1024 + u.base % 512) / 1024) = o
          rw [if_neg (by omega)]
          omega
        · show decide ((o * 1024 + u.base % 512) % 2 = 1) = decide (u.base % 2 = 1)
          congr 1
          apply propext
          constructor <;> intro h <;> omega
        · show (o * 1024 + u.base % 512) / 2 % 256 = u.base / 2 % 256
          omega
        · show (o * 1024 + u.base % 512) % 512 = u.base % 512
          omega
      · by_cases h3 : o % 256 = 0
        · rw [V0.set_offset_high u o (by omega) (by omega) h3] at hw
          injection hw with hw
          subst hw
          have hb : (2 * (o / 256) + 1) * 512 + u.base % 512 < 2 ^ 32 := by omega
          rw [V0.offset_eq _ hb, V0.label_of_base, V0.label_of_base, V0.is_leaf_eq, V0.is_leaf_eq]
          have hm := Nat.mod_lt u.base (show 0 < 512 by decide)
          refine ⟨?_, ?_, ?_, ?_, hb⟩
          · show (if ((2 * (o / 256) + 1) * 512 + u.base % 512) / 512 % 2 = 1
              then ((2 * (o / 256) + 1) * 512 + u.base % 512) / 1024 * 256
              else ((2 * (o / 256) + 1) * 512 + u.base % 512) / 1024) = o
            rw [if_pos (by omega)]
            omega
          · show decide (((2 * (o / 256) + 1) * 512 + u.base % 512) % 2 = 1)
              = decide (u.base % 2 = 1)
            congr 1
            apply propext
            constructor <;> intro h <;> omega
          · show ((2 * (o / 256) + 1) * 512 + u.base % 512) / 2 % 256 = u.base / 2 % 256
            omega
          · show ((2 * (o / 256) + 1) * 512 + u.base % 512) % 512 = u.base % 512
            omega
        · rw [V0.set_offset_invalid u o (by omega) (by omega) h3] at hw; cases hw

theorem v0_set_offset_witness :
    ∃ w, (⟨389⟩ : V0.DoubleArrayUnit).set_offset 4194560 = .ok w ∧ w.offset = 4194560 ∧
      w.label = (⟨389⟩ : V0.DoubleArrayUnit).label :=
  ⟨_, rfl, ((v0_set_offset ⟨389⟩ (by decide) 4194560).2.2.2.2 _ rfl).1,
    ((v0_set_offset ⟨389⟩ (by decide) 4194560).2.2.2.2 _ rfl).2.2.1⟩

/-- C23 (counterexample): after `set_value(-1)` the function `value()` returns
`2^31 - 1`. -/
theorem v0_set_value_counterexample :
    ((⟨0⟩ : V0.DoubleArrayUnit).set_value (-1)).value = 2147483647 ∧
      ((⟨0⟩ : V0.DoubleArrayUnit).set_value (-1)).value ≠ -1 := by
  decide

/-- C23 (amended): in a unit of 0.32f-beta2 a leaf holds a non-negative 31-bit
value in bits 1..31: for every value `v` with `0 <= v < 2^31`, after
`set_value(v)` the unit is a leaf and `value()` returns `v`; for a negative
`v` of the type `int` the unit is a leaf and `value()` returns `v + 2^31`. -/
theorem v0_set_value (u : V0.DoubleArrayUnit) (v : Int) (h1 : -2 ^ 31 ≤ v) (h2 : v < 2 ^ 31) :
    (u.set_value v).is_leaf = true ∧
      (0 ≤ v → (u.set_value v).value = v) ∧ (v < 0 → (u.set_value v).value = v + 2 ^ 31) := by
  have hp : ofInt32 v < 2 ^ 32 := by
    unfold ofInt32
    have : v % 2 ^ 32 < 2 ^ 32 := Int.emod_lt_of_pos _ (by decide)
    have : 0 ≤ v % 2 ^ 32 := Int.emod_nonneg _ (by decide)
    omega
  have hbase : (u.set_value v).base = 2 * (ofInt32 v % 2 ^ 31) + 1 := by
    show ((ofInt32 v <<< 1) % 2 ^ 32) ||| 1 = _
    have e : (ofInt32 v <<< 1) % 2 ^ 32 = (ofInt32 v % 2 ^ 31) <<< 1 := by
      rw [Nat.shiftLeft_eq, Nat.shiftLeft_eq]
      omega
    rw [e, Nat.lor_comm, V0.or_shl 1 _ 1 (by decide)]
    omega
  have hval : (u.set_value v).value = ((ofInt32 v % 2 ^ 31 : Nat) : Int) := by
    unfold V0.DoubleArrayUnit.value
    rw [hbase, Nat.shiftRight_eq_div_pow]
    have e : (2 * (ofInt32 v % 2 ^ 31) + 1) / 2 ^ 1 = ofInt32 v % 2 ^ 31 := by omega
    rw [e]
    unfold toInt32
    have hlt : ofInt32 v % 2 ^ 31 < 2 ^ 31 := Nat.mod_lt _ (by decide)
    rw [Nat.mod_eq_of_lt (show ofInt32 v % 2 ^ 31 < 2 ^ 32 by omega), if_pos hlt]
  have hof : ((ofInt32 v : Nat) : Int) = v % 2 ^ 32 := by
    unfold ofInt32
    exact Int.toNat_of_nonneg (Int.emod_nonneg _ (by decide))
  refine ⟨?_, ?_, ?_⟩
  · rw [V0.is_leaf_eq, hbase]
    simp
    omega
  · intro h0
    rw [hval]
    omega
  · intro h0
    rw [hval]
    omega

theorem v0_set_value_witness :
    ((⟨0⟩ : V0.DoubleArrayUnit).set_value 5).is_leaf = true ∧
      ((⟨0⟩ : V0.DoubleArrayUnit).set_value 5).value = 5 :=
  ⟨(v0_set_value ⟨0⟩ 5 (by decide) (by decide)).1,
    (v0_set_value ⟨0⟩ 5 (by decide) (by decide)).2.1 (by decide)⟩

end Darts

namespace Darts

theorem succ_pred_inv {S : Nat → Prop} {x y p : Nat} (hx : S x) (hs : IsSucc S x y)
    (hp : IsPred S y p) : p = x := by
  obtain ⟨hy, hs2⟩ := hs
  obtain ⟨hp1, hp2⟩ := hp
  have a1 := hs2 p hp1
  have a2 := hp2 x hx
  have a3 := hs2 y hy
  have a4 := hp2 p hp1
  omega

theorem pred_succ_inv {S : Nat → Prop} {x y n : Nat} (hx : S x) (hp : IsPred S x y)
    (hs : IsSucc S y n) : n = x := by
  obtain ⟨hy, hp2⟩ := hp
  obtain ⟨hn1, hs2⟩ := hs
  have a1 := hp2 n hn1
  have a2 := hs2 x hx
  have a3 := hp2 y hy
  have a4 := hs2 n hn1
  omega

namespace DoubleArrayBuilder

theorem is_free_iff (b : DoubleArrayBuilder) (j : Nat) : b.is_free j = true ↔ b.Free j := by
  unfold is_free Free
  simp only [Bool.and_eq_true, decide_eq_true_eq, Bool.not_eq_true']
  exact and_assoc

theorem mem_free_slots (b : DoubleArrayBuilder) (j : Nat) : j ∈ b.free_slots ↔ b.Free j := by
  unfold free_slots
  rw [List.mem_filter, is_free_iff, List.mem_range]
  exact ⟨fun h => h.2, fun h => ⟨h.2.1, h⟩⟩

theorem free_slots_sorted (b : DoubleArrayBuilder) : b.free_slots.Pairwise (· < ·) :=
  List.Pairwise.filter _ (List.pairwise_lt_range _)

/-- In an allocator state that is consistent, `prev` is the inverse of `next`
on the units that are not fixed. -/
theorem next_prev {b : DoubleArrayBuilder} (h : b.AllocInv) {x : Nat} (hx : b.Free x) :
    (b.extra (b.extra x).next).prev = x ∧ (b.extra (b.extra x).prev).next = x :=
  ⟨succ_pred_inv hx (h.succ x hx) (h.pred _ (h.succ x hx).1),
    pred_succ_inv hx (h.pred x hx) (h.succ _ (h.pred x hx).1)⟩

theorem follow_eq {b : DoubleArrayBuilder} (h : b.AllocInv) :
    ∀ (l : List Nat) (x : Nat), (x :: l).Pairwise (· < ·) →
      (∀ z, b.Free z → x ≤ z → z ∈ x :: l) → (∀ z ∈ x :: l, b.Free z) →
      b.follow (l.length + 1) x = x :: l := by
  intro l
  induction l with
  | nil => intro x _ _ _; rfl
  | cons y l2 ih =>
    intro x hp hall hfree
    have hxy : x < y := (List.pairwise_cons.1 hp).1 y (List.mem_cons_self _ _)
    have hp2 : (y :: l2).Pairwise (· < ·) := (List.pairwise_cons.1 hp).2
    have hx : b.Free x := hfree x (List.mem_cons_self _ _)
    have hy : b.Free y := hfree y (List.mem_cons_of_mem _ (List.mem_cons_self _ _))
    obtain ⟨hN, hs⟩ := h.succ x hx
    have hsy := hs y hy
    have hNy : (b.extra x).next ≤ y := hsy.1 hxy
    have hxN : x < (b.extra x).next := by
      by_contra hc
      have := (hsy.2 (by omega)).2
      omega
    have hnext : (b.extra x).next = y := by
      have hm := hall _ hN (by omega)
      rcases List.mem_cons.1 hm with h1 | h1
      · omega
      · rcases List.mem_cons.1 h1 with h2 | h2
        · exact h2
        · have := (List.pairwise_cons.1 hp2).1 _ h2
          omega
    show x :: b.follow (l2.length + 1) (b.extra x).next = x :: y :: l2
    rw [hnext, ih y hp2 (fun z hz hyz => by
      have hm := hall z hz (by omega)
      rcases List.mem_cons.1 hm with h1 | h1
      · omega
      · exact h1) (fun z hz => hfree z (List.mem_cons_of_mem _ hz))]

/-- The shape of the free list of a consistent allocator state. -/
theorem follow_free_slots {b : DoubleArrayBuilder} (h : b.AllocInv) {x : Nat} {l : List Nat}
    (hl : b.free_slots = x :: l) :
    b.unfixed_index = x ∧ b.follow (l.length + 1) x = x :: l ∧ b.unfixed_index ∉ l ∧
      (b.extra ((x :: l).getLast (List.cons_ne_nil _ _))).next = b.unfixed_index := by
  have hs := free_slots_sorted b
  have hm := mem_free_slots b
  rw [hl] at hs hm
  have hx : b.Free x := (hm x).1 (List.mem_cons_self _ _)
  have hhead : b.unfixed_index = x := by
    rcases h.head with ⟨h1, h2⟩ | ⟨_, h2⟩
    · have h3 := h2 x hx
      rcases List.mem_cons.1 ((hm _).2 h1) with h4 | h4
      · exact h4
      · have := (List.pairwise_cons.1 hs).1 _ h4
        omega
    · exact absurd hx (h2 x)
  refine ⟨hhead, follow_eq h l x hs (fun z hz _ => (hm z).2 hz) (fun z hz => (hm z).1 hz), ?_, ?_⟩
  · rw [hhead]
    intro hmem
    have := (List.pairwise_cons.1 hs).1 _ hmem
    omega
  · generalize hlast : (x :: l).getLast (List.cons_ne_nil _ _) = y
    have hy : y ∈ x :: l := by rw [← hlast]; exact List.getLast_mem _
    have hyf : b.Free y := (hm y).1 hy
    have hmax : ∀ z, b.Free z → z ≤ y := by
      intro z hz
      have hzm := (hm z).2 hz
      have hdec := (List.dropLast_append_getLast (List.cons_ne_nil x l)).symm
      rw [hlast] at hdec
      rw [hdec] at hzm hs
      rcases List.mem_append.1 hzm with h1 | h1
      · have := (List.pairwise_append.1 hs).2.2 z h1 y (List.mem_singleton.2 rfl)
        omega
      · rw [List.mem_singleton.1 h1]
    obtain ⟨hN, hs2⟩ := h.succ y hyf
    have hNx := hmax _ hN
    have a1 := (hs2 x hx).2 hNx
    have a2 : x ≤ (b.extra y).next := by
      rcases h.head with ⟨h1, h2⟩ | ⟨_, h2⟩
      · rw [← hhead]; exact h2 _ hN
      · exact absurd hx (h2 x)
    rw [hhead]
    omega

theorem cycle_of_follow (b : DoubleArrayBuilder) :
    ∀ (l : List Nat) (x fuel : Nat), l.length + 1 ≤ fuel →
      b.follow (l.length + 1) x = x :: l → b.unfixed_index ∉ l →
      (b.extra ((x :: l).getLast (List.cons_ne_nil _ _))).next = b.unfixed_index →
      b.cycle fuel x = x :: l := by
  intro l
  induction l with
  | nil =>
    intro x fuel hf _ _ hlast
    obtain ⟨f, rfl⟩ : ∃ f, fuel = f + 1 := ⟨fuel - 1, by omega⟩
    have hlast2 : (b.extra x).next = b.unfixed_index := hlast
    show x :: (if (b.extra x).next = b.unfixed_index then [] else _) = [x]
    rw [if_pos hlast2]
  | cons y l2 ih =>
    intro x fuel hf hfol hnot hlast
    obtain ⟨f, rfl⟩ : ∃ f, fuel = f + 1 := ⟨fuel - 1, by simp at hf; omega⟩
    have hfol2 : x :: b.follow (l2.length + 1) (b.extra x).next = x :: y :: l2 := hfol
    have hfol3 : b.follow (l2.length + 1) (b.extra x).next = y :: l2 := (List.cons.inj hfol2).2
    have hnext : (b.extra x).next = y := by
      have h1 : (b.extra x).next :: b.follow l2.length (b.extra (b.extra x).next).next
          = y :: l2 := hfol3
      exact (List.cons.inj h1).1
    have hy : y ≠ b.unfixed_index := fun h => hnot (by rw [← h]; exact List.mem_cons_self _ _)
    show x :: (if (b.extra x).next = b.unfixed_index then [] else b.cycle f (b.extra x).next)
      = x :: y :: l2
    rw [hnext, if_neg hy]
    rw [hnext] at hfol3
    rw [ih y f (by simp at hf; omega) hfol3 (fun h => hnot (List.mem_cons_of_mem _ h)) (by
      rw [List.getLast_cons (List.cons_ne_nil _ _)] at hlast
      exact hlast)]

theorem free_slots_length_le (b : DoubleArrayBuilder) : b.free_slots.length ≤ b.num_of_units := by
  unfold free_slots
  exact Nat.le_trans (List.length_filter_le _ _) (by rw [List.length_range])

/-- Following `next` from the first unfixed index visits the units that are not
fixed, each once, in ascending order, before it returns to the start. -/
theorem free_order_eq {b : DoubleArrayBuilder} (h : b.AllocInv) : b.free_order = b.free_slots := by
  unfold free_order
  cases hl : b.free_slots with
  | nil =>
    have hnone : ∀ z, ¬ b.Free z := by
      intro z hz
      have := (mem_free_slots b z).2 hz
      rw [hl] at this
      cases this
    have hu : ¬ b.unfixed_index < b.num_of_units := by
      rcases h.head with ⟨h1, _⟩ | ⟨h1, _⟩
      · exact absurd h1 (hnone _)
      · omega
    rw [if_neg hu]
  | cons x l =>
    obtain ⟨hhead, hfol, hnot, hlast⟩ := follow_free_slots h hl
    have hx : b.Free x := (mem_free_slots b x).1 (by rw [hl]; exact List.mem_cons_self _ _)
    have hlen := free_slots_length_le b
    rw [hl] at hlen
    rw [if_pos (by rw [hhead]; exact hx.2.1), hhead]
    exact cycle_of_follow b l x _ hlen hfol hnot hlast

/-- The free list is circular: `next` of its last unit is the first unfixed
index. -/
theorem free_order_last {b : DoubleArrayBuilder} (h : b.AllocInv) {x : Nat}
    (hx : b.free_order.getLast? = some x) : (b.extra x).next = b.unfixed_index := by
  rw [free_order_eq h] at hx
  cases hl : b.free_slots with
  | nil => rw [hl] at hx; cases hx
  | cons y l =>
    obtain ⟨_, _, _, hlast⟩ := follow_free_slots h hl
    rw [hl, List.getLast?_eq_getLast _ (List.cons_ne_nil _ _)] at hx
    injection hx with hx
    rw [← hx]
    exact hlast

end DoubleArrayBuilder

end Darts

namespace Darts

namespace DoubleArrayBuilder

theorem find_offset_loop_succ (b : DoubleArrayBuilder) (index : Nat) (labels : List Nat)
    (fuel x : Nat) :
    find_offset_loop b index labels (fuel + 1) x =
      if b.candidate_ok index labels mask_test x then .ok (some (x ^^^ labels.getD 0 0))
      else if (b.extra x).next ≠ b.unfixed_index
        then find_offset_loop b index labels fuel (b.extra x).next
        else .ok none := rfl

/-- The loop of `find_offset_index` run along a part of the free list that ends
where the list returns to its start. -/
theorem find_offset_loop_follow (b : DoubleArrayBuilder) (index : Nat) (labels : List Nat) :
    ∀ (l : List Nat) (x fuel : Nat), l.length + 1 ≤ fuel →
      b.follow (l.length + 1) x = x :: l → b.unfixed_index ∉ l →
      (b.extra ((x :: l).getLast (List.cons_ne_nil _ _))).next = b.unfixed_index →
      find_offset_loop b index labels fuel x =
        .ok (((x :: l).find? (b.candidate_ok index labels mask_test)).map
          (fun u => u ^^^ labels.getD 0 0)) := by
  intro l
  induction l with
  | nil =>
    intro x fuel hf _ _ hlast
    obtain ⟨f, rfl⟩ : ∃ f, fuel = f + 1 := ⟨fuel - 1, by omega⟩
    rw [find_offset_loop_succ, List.find?_cons]
    have hlast2 : (b.extra x).next = b.unfixed_index := hlast
    cases hc : b.candidate_ok index labels mask_test x with
    | true => simp
    | false => simp [hlast2]
  | cons y l2 ih =>
    intro x fuel hf hfol hnot hlast
    obtain ⟨f, rfl⟩ : ∃ f, fuel = f + 1 := ⟨fuel - 1, by simp at hf; omega⟩
    have hfol2 : x :: b.follow (l2.length + 1) (b.extra x).next = x :: y :: l2 := hfol
    have hfol3 : b.follow (l2.length + 1) (b.extra x).next = y :: l2 := (List.cons.inj hfol2).2
    have hnext : (b.extra x).next = y := by
      have h1 : (b.extra x).next :: b.follow l2.length (b.extra (b.extra x).next).next
          = y :: l2 := hfol3
      exact (List.cons.inj h1).1
    have hy : y ≠ b.unfixed_index := fun h => hnot (by rw [← h]; exact List.mem_cons_self _ _)
    rw [find_offset_loop_succ, List.find?_cons]
    cases hc : b.candidate_ok index labels mask_test x with
    | true => simp
    | false =>
      simp only [Bool.false_eq_true, if_false]
      rw [hnext, if_pos hy]
      rw [hnext] at hfol3
      exact ih y f (by simp at hf; omega) hfol3
        (fun h => hnot (List.mem_cons_of_mem _ h)) (by
          rw [List.getLast_cons (List.cons_ne_nil _ _)] at hlast
          exact hlast)

/-- In a consistent allocator state `find_offset_index` returns the first
candidate, in the order of the free list, that passes its tests. -/
theorem find_offset_index_eq (b : DoubleArrayBuilder) (h : b.AllocInv) (index : Nat)
    (labels : List Nat) :
    b.find_offset_index index labels = .ok (b.first_candidate index labels mask_test) := by
  have hord := free_order_eq h
  unfold first_candidate
  rw [hord]
  cases hl : b.free_slots with
  | nil =>
    have hnone : ∀ z, ¬ b.Free z := by
      intro z hz
      have := (mem_free_slots b z).2 hz
      rw [hl] at this
      cases this
    have hu : ¬ b.unfixed_index < b.num_of_units := by
      rcases h.head with ⟨h1, _⟩ | ⟨h1, _⟩
      · exact absurd h1 (hnone _)
      · omega
    unfold find_offset_index
    rw [if_neg hu]
    rfl
  | cons x l =>
    obtain ⟨hhead, hfol, hnot, hlast⟩ := follow_free_slots h hl
    have hx : b.Free x := (mem_free_slots b x).1 (by rw [hl]; exact List.mem_cons_self _ _)
    have hlen := free_slots_length_le b
    rw [hl] at hlen
    have hloop := find_offset_loop_follow b index labels l x b.num_of_units hlen hfol hnot hlast
    unfold find_offset_index
    rw [if_pos (by rw [hhead]; exact hx.2.1), hhead, hloop]
    cases (x :: l).find? (b.candidate_ok index labels mask_test) with
    | none => rfl
    | some u => rfl

end DoubleArrayBuilder

end Darts

namespace Darts

namespace DoubleArrayBuilder

theorem freeListOK_of_inv {b : DoubleArrayBuilder} (h : b.AllocInv) : FreeListOK b := by
  have hord := free_order_eq h
  have hmem : ∀ j, j ∈ b.free_order ↔ b.Free j := by
    intro j
    rw [hord]
    exact mem_free_slots b j
  refine ⟨hmem, ?_, fun x hx => free_order_last h hx, ?_, ?_, ?_⟩
  · rw [hord]; exact free_slots_sorted b
  · intro x hx
    exact next_prev h ((hmem x).1 hx)
  · intro x hx
    have hf := (hmem x).1 hx
    exact ⟨(hmem _).2 (h.succ x hf).1, (hmem _).2 (h.pred x hf).1⟩
  · rcases h.head with ⟨h1, h2⟩ | ⟨h1, h2⟩
    · left
      refine ⟨?_, fun j hj => h2 j ((hmem j).1 hj)⟩
      rw [hord]
      cases hl : b.free_slots with
      | nil =>
        have := (mem_free_slots b _).2 h1
        rw [hl] at this
        cases this
      | cons x l =>
        rw [(follow_free_slots h hl).1]
        rfl
    · right
      refine ⟨?_, h1⟩
      rw [hord]
      cases hl : b.free_slots with
      | nil => rfl
      | cons x l =>
        exact absurd ((mem_free_slots b x).1 (by rw [hl]; exact List.mem_cons_self _ _)) (h2 x)

theorem mask_test_iff (o : Nat) (ho : o < 2 ^ 32) :
    mask_test o = true ↔ (o % 2 ^ 21 = 0 ∨ o < 2 ^ 21) := by
  unfold mask_test
  rw [DoubleArrayUnit.OFFSET_MAX_eq]
  simp only [Bool.or_eq_true, beq_iff_eq]
  have e : (2097152 - 1 : Nat) = 2 ^ 21 - 1 := rfl
  rw [e, Nat.and_pow_two_sub_one_eq_mod]
  have hm : ∀ i, Nat.testBit (0xFFFFFFFF - (2 ^ 21 - 1)) i = (decide (i < 32) && !decide (i < 21)) := by
    intro i
    have e2 : (0xFFFFFFFF - (2 ^ 21 - 1) : Nat) = 2 ^ 32 - ((2 ^ 21 - 1) + 1) := rfl
    rw [e2, Nat.testBit_two_pow_sub_succ (by decide), Nat.testBit_two_pow_sub_one]
  constructor
  · rintro (h | h)
    · exact Or.inl h
    · right
      apply Nat.lt_pow_two_of_testBit
      intro i hi
      by_contra hb
      have hb2 : Nat.testBit o i = true := by simpa using hb
      have h32 : i < 32 := by
        by_contra hge
        have := Nat.testBit_lt_two_pow (x := o) (i := i)
          (lt_of_lt_of_le ho (Nat.pow_le_pow_right (by decide) (by omega)))
        rw [this] at hb2
        cases hb2
      have := congrArg (fun x => Nat.testBit x i) h
      simp only [Nat.testBit_and, hb2, hm, Nat.zero_testBit] at this
      simp [h32] at this
      omega
  · rintro (h | h)
    · exact Or.inl h
    · right
      apply Nat.eq_of_testBit_eq
      intro i
      rw [Nat.testBit_and, hm, Nat.zero_testBit]
      by_cases hi : i < 21
      · simp [hi]
      · have : Nat.testBit o i = false :=
          Nat.testBit_lt_two_pow (lt_of_lt_of_le h (Nat.pow_le_pow_right (by decide) (by omega)))
        rw [this]
        rfl

theorem find?_congr_mem {α : Type} (p q : α → Bool) :
    ∀ (l : List α), (∀ a ∈ l, p a = q a) → l.find? p = l.find? q := by
  intro l
  induction l with
  | nil => intro _; rfl
  | cons a t ih =>
    intro h
    rw [List.find?_cons, List.find?_cons, h a (List.mem_cons_self _ _),
      ih (fun x hx => h x (List.mem_cons_of_mem _ hx))]

theorem big_num : big_state.num_of_units = 2097664 := List.length_replicate _ _

theorem big_block : big_state.extras.getD 8193 none
    = some ([⟨1, 0⟩, ⟨4194818, 4194818⟩] ++ List.replicate 254 ⟨1, 0⟩) := by
  have e : big_state.extras = List.replicate 8178 none
      ++ (List.replicate 15 (some (List.replicate 256 (⟨1, 0⟩ : DoubleArrayExtra)))
      ++ [some ([(⟨1, 0⟩ : DoubleArrayExtra), ⟨4194818, 4194818⟩]
        ++ List.replicate 254 ⟨1, 0⟩)]) := rfl
  rw [e, List.getD_eq_getElem?_getD,
    List.getElem?_append_right (le_of_eq_of_le (List.length_replicate _ _) (by decide)),
    List.length_replicate,
    List.getElem?_append_right (le_of_eq_of_le (List.length_replicate _ _) (by decide)),
    List.length_replicate]
  rfl

theorem cycle_succ (b : DoubleArrayBuilder) (fuel x : Nat) :
    b.cycle (fuel + 1) x =
      x :: (if (b.extra x).next = b.unfixed_index then [] else b.cycle fuel (b.extra x).next) :=
  rfl

theorem big_extra :
    big_state.extra 2097408 = ⟨1, 0⟩ ∧ big_state.extra 2097409 = ⟨4194818, 4194818⟩ := by
  have e1 : 2097408 / BLOCK_SIZE = 8193 := by decide
  have e2 : 2097409 / BLOCK_SIZE = 8193 := by decide
  constructor
  · unfold extra
    rw [e1, big_block]
    rfl
  · unfold extra
    rw [e2, big_block]
    rfl

theorem big_next : (big_state.extra big_state.unfixed_index).next = big_state.unfixed_index := by
  have e : big_state.unfixed_index = 2097409 := rfl
  rw [e, big_extra.2]
  decide

theorem big_find : big_state.find_offset_index 0 [1] = .ok 2097664 := by
  unfold find_offset_index
  rw [big_num, if_pos (by decide), show (2097664 : Nat) = 2097663 + 1 from rfl,
    find_offset_loop_succ]
  have hc : big_state.candidate_ok 0 [1] mask_test big_state.unfixed_index = false := by
    unfold candidate_ok
    have e : big_state.unfixed_index ^^^ [1].getD 0 0 = 2097408 := by decide
    rw [e, big_extra.1]
    decide
  rw [hc, big_next]
  simp
  rfl

theorem first_candidate_single (b : DoubleArrayBuilder) (index : Nat) (labels : List Nat)
    (fits : Nat → Bool) (x : Nat) (ho : b.free_order = [x])
    (hc : b.candidate_ok index labels fits x = true) :
    b.first_candidate index labels fits = x ^^^ labels.getD 0 0 := by
  unfold first_candidate
  rw [ho, List.find?_cons, hc]

theorem big_order : big_state.free_order = [big_state.unfixed_index] := by
  unfold free_order
  rw [big_num, if_pos (by decide), show (2097664 : Nat) = 2097663 + 1 from rfl, cycle_succ,
    if_pos big_next]

theorem big_candidate :
    big_state.candidate_ok 0 [1] fits_encoding big_state.unfixed_index = true := by
  unfold candidate_ok has_collision
  have e : big_state.unfixed_index ^^^ [1].getD 0 0 = 2097408 := by decide
  rw [e, big_extra.1]
  decide

theorem big_first : big_state.first_candidate 0 [1] fits_encoding = 2097408 :=
  (first_candidate_single big_state 0 [1] fits_encoding _ big_order big_candidate).trans
    (by decide)

end DoubleArrayBuilder

end Darts

namespace Darts

namespace DoubleArrayBuilder

theorem big_extras : big_state.extras = List.replicate 8178 none
    ++ (List.replicate 15 (some (List.replicate 256 (⟨1, 0⟩ : DoubleArrayExtra)))
    ++ [some ([(⟨1, 0⟩ : DoubleArrayExtra), ⟨4194818, 4194818⟩]
      ++ List.replicate 254 ⟨1, 0⟩)]) := rfl

theorem big_extras_length : big_state.extras.length = 8194 := by
  rw [big_extras, List.length_append, List.length_append, List.length_replicate,
    List.length_replicate]
  rfl

/-- The blocks before the last one of the blocks with extra storage. -/
theorem big_block_mid (k : Nat) (h1 : 8178 ≤ k) (h2 : k < 8193) :
    big_state.extras.getD k none = some (List.replicate 256 ⟨1, 0⟩) := by
  rw [big_extras, List.getD_eq_getElem?_getD,
    List.getElem?_append_right (le_of_eq_of_le (List.length_replicate _ _) h1),
    List.length_replicate,
    List.getElem?_append_left (by rw [List.length_replicate]; omega),
    List.getElem?_replicate, if_pos (by omega)]
  rfl

theorem big_extra_mid (j : Nat) (h1 : 2093568 ≤ j) (h2 : j < 2097408) :
    big_state.extra j = ⟨1, 0⟩ := by
  have e : BLOCK_SIZE = 256 := rfl
  unfold extra
  rw [e, big_block_mid (j / 256) (by omega) (by omega)]
  show (List.replicate 256 (⟨1, 0⟩ : DoubleArrayExtra)).getD (j % 256) default
    = (⟨1, 0⟩ : DoubleArrayExtra)
  rw [List.getD_eq_getElem?_getD, List.getElem?_replicate, if_pos (Nat.mod_lt _ (by decide))]
  rfl

theorem big_extra_last (j : Nat) (h1 : 2097408 ≤ j) (h2 : j < 2097664) (hj : j ≠ 2097409) :
    big_state.extra j = ⟨1, 0⟩ := by
  have e : BLOCK_SIZE = 256 := rfl
  have ed : j / 256 = 8193 := by omega
  unfold extra
  rw [e, ed, big_block]
  show (([(⟨1, 0⟩ : DoubleArrayExtra), ⟨4194818, 4194818⟩]
      ++ List.replicate 254 (⟨1, 0⟩ : DoubleArrayExtra)).getD (j % 256) default)
    = (⟨1, 0⟩ : DoubleArrayExtra)
  by_cases h0 : j % 256 = 0
  · rw [h0]; rfl
  · have h2' : 2 ≤ j % 256 := by omega
    rw [List.getD_eq_getElem?_getD, List.getElem?_append_right (by exact h2'),
      List.getElem?_replicate, if_pos (by
        have := Nat.mod_lt j (show 0 < 256 by decide)
        show j % 256 - 2 < 254
        omega)]
    rfl

theorem big_first_live : big_state.first_live = 8178 := by
  rw [first_live_eq, big_extras_length]

/-- The only unit of `big_state` that is not fixed is unit 2097409. -/
theorem big_free (j : Nat) : big_state.Free j ↔ j = 2097409 := by
  have e : BLOCK_SIZE = 256 := rfl
  unfold Free
  rw [big_first_live, big_num, e]
  constructor
  · rintro ⟨h1, h2, h3⟩
    by_contra hne
    by_cases hm : j < 2097408
    · rw [big_extra_mid j (by omega) hm] at h3
      cases h3
    · rw [big_extra_last j (by omega) h2 hne] at h3
      cases h3
  · intro h
    subst h
    refine ⟨by decide, by decide, ?_⟩
    rw [big_extra.2]
    decide

/-- The state `big_state` of the allocator is consistent. -/
theorem big_allocInv : big_state.AllocInv := by
  have e : BLOCK_SIZE = 256 := rfl
  have hn : (big_state.extra 2097409).next = 2097409 := by rw [big_extra.2]; decide
  have hp : (big_state.extra 2097409).prev = 2097409 := by rw [big_extra.2]; decide
  refine ⟨?_, ?_, ?_, ?_, ?_, ?_, ?_⟩
  · show big_state.num_of_units = BLOCK_SIZE * big_state.extras.length
    rw [big_num, big_extras_length, e]
  · intro j h1 h2
    rw [big_first_live, e] at h1
    rw [big_num] at h2
    rw [live_iff]
    by_cases hm : j < 2097408
    · exact ⟨_, big_block_mid (j / 256) (by omega) (by omega), List.length_replicate _ _⟩
    · have ed : j / 256 = 8193 := by omega
      rw [ed]
      refine ⟨_, big_block, ?_⟩
      rw [List.length_append, List.length_replicate]
      rfl
  · intro j
    have : big_state.unit j = default := by
      unfold unit
      show (List.replicate 2097664 (default : DoubleArrayUnit)).getD j default = default
      rw [List.getD_eq_getElem?_getD, List.getElem?_replicate]
      split <;> rfl
    rw [this]
    exact DoubleArrayUnit.wf_default
  · intro j _
    unfold unit
    show (List.replicate 2097664 (default : DoubleArrayUnit)).getD j default = default
    rw [List.getD_eq_getElem?_getD, List.getElem?_replicate]
    split <;> rfl
  · intro x hx
    rw [(big_free x).1 hx, hn]
    refine ⟨(big_free _).2 rfl, fun z hz => ?_⟩
    rw [(big_free z).1 hz]
    exact ⟨fun _ => Nat.le_refl _, fun _ => ⟨Nat.le_refl _, Nat.le_refl _⟩⟩
  · intro x hx
    rw [(big_free x).1 hx, hp]
    refine ⟨(big_free _).2 rfl, fun z hz => ?_⟩
    rw [(big_free z).1 hz]
    exact ⟨fun _ => Nat.le_refl _, fun _ => ⟨Nat.le_refl _, Nat.le_refl _⟩⟩
  · left
    refine ⟨(big_free _).2 rfl, fun z hz => ?_⟩
    rw [(big_free z).1 hz]
    exact Nat.le_refl _

end DoubleArrayBuilder

end Darts

namespace Darts

/-- The builder after `reserve_index(0)` on the new builder: one block, in
which the units 1..255 are not fixed. -/
theorem first_block :
    ∃ b1, (DoubleArrayBuilder.init []).reserve_index 0 = .ok b1 ∧ b1.AllocInv ∧
      b1.UsedCovered ∧ DoubleArrayBuilder.BasesUsed (fun _ => False) b1 ∧
      b1.num_of_units = 256 ∧ ∀ j, j < 256 → j ≠ 0 → b1.Free j := by
  have hinv0 := allocInv_init []
  have hc0 : (DoubleArrayBuilder.init []).UsedCovered := by
    intro u _ h2
    exact absurd h2 (Nat.not_lt_zero _)
  have hbu0 : DoubleArrayBuilder.BasesUsed (fun _ => False) (DoubleArrayBuilder.init []) :=
    fun u hu => absurd hu id
  have hnum0 : (DoubleArrayBuilder.init []).num_of_units = 0 := rfl
  obtain ⟨b1, hb1, r1⟩ := DoubleArrayBuilder.reserve_index_spec (fun _ => False)
    (DoubleArrayBuilder.init []) 0 hinv0 hc0 hbu0 (by rw [hnum0]; decide)
    (Or.inr ⟨by rw [hnum0], by rw [hnum0]; decide⟩)
  refine ⟨b1, hb1, r1.inv, DoubleArrayBuilder.usedCovered_of_evolves r1.evolves hinv0 hc0,
    DoubleArrayBuilder.basesUsed_of_evolves r1.evolves hbu0, ?_, ?_⟩
  · rw [r1.num_new (by rw [hnum0]), hnum0]
  · intro j h1 h2
    exact r1.free_new (by rw [hnum0]) j (by rw [hnum0]; omega) (by rw [hnum0]; omega) h2

/-- C30: for a unit `x` that is not fixed, in a consistent allocator state,
`reserve_index(x)` removes exactly `x` from the free list and marks it
`is_fixed`; the other free units keep their order (the unit before `x` is
linked to the unit after `x`, all other links are unchanged), the flags
`is_fixed` of the other units, all flags `is_used` and every unit word are
unchanged, and the first unfixed index changes only when it was `x`: to the
next free unit, or to `num_of_units` when the list becomes empty. -/
theorem reserve_index_frame (b : DoubleArrayBuilder) (hinv : b.AllocInv)
    (hn : b.num_of_units < 2 ^ 31) (x : Nat) (hx : b.Free x) :
    ∃ b2, b.reserve_index x = .ok b2 ∧
      (∀ j, b2.Free j ↔ (b.Free j ∧ j ≠ x)) ∧ (b2.extra x).is_fixed = true ∧
      (∀ j, b2.Free j → (b2.extra j).next
          = (if (b.extra j).next = x then (b.extra x).next else (b.extra j).next) ∧
        (b2.extra j).prev
          = (if (b.extra j).prev = x then (b.extra x).prev else (b.extra j).prev)) ∧
      FreeListOK b2 ∧
      (∀ j, j ≠ x → (b2.extra j).is_fixed = (b.extra j).is_fixed) ∧
      (∀ j, (b2.extra j).is_used = (b.extra j).is_used) ∧
      b2.units = b.units ∧
      b2.unfixed_index =
        (if x = b.unfixed_index then
          (if (b.extra x).next = x then b.num_of_units else (b.extra x).next)
        else b.unfixed_index) := by
  have hlt : ¬ x ≥ b.num_of_units := by have := hx.2.1; omega
  have hres : b.reserve_index x = .ok (b.reserve_index_core x) := by
    unfold DoubleArrayBuilder.reserve_index
    rw [if_neg hlt]
    rfl
  have hex := DoubleArrayBuilder.reserve_index_core_extra b hinv x hx hn
  have hfree := DoubleArrayBuilder.free_reserve_index_core b hinv x hx hn
  have hinv2 := DoubleArrayBuilder.allocInv_reserve_index_core b hinv x hx hn
  have hnp := DoubleArrayBuilder.next_prev hinv hx
  refine ⟨_, hres, hfree, ?_, ?_, DoubleArrayBuilder.freeListOK_of_inv hinv2, ?_,
    fun j => (hex j).2.2.2, DoubleArrayBuilder.units_reserve_index_core b x,
    DoubleArrayBuilder.unfixed_index_reserve_index_core b x⟩
  · rw [(hex x).2.2.1, if_pos rfl]
  · intro j hj
    obtain ⟨hjf, hjx⟩ := (hfree j).1 hj
    have hj2 := DoubleArrayBuilder.next_prev hinv hjf
    rw [(hex j).1, (hex j).2.1]
    constructor
    · by_cases h1 : j = (b.extra x).prev
      · rw [if_pos h1, if_pos (by rw [h1]; exact hnp.2)]
      · rw [if_neg h1, if_neg (fun hc => h1 (by rw [← hc, hj2.1]))]
    · by_cases h1 : j = (b.extra x).next
      · rw [if_pos h1, if_pos (by rw [h1]; exact hnp.1)]
      · rw [if_neg h1, if_neg (fun hc => h1 (by rw [← hc, hj2.2]))]
  · intro j hj
    rw [(hex j).2.2.1, if_neg hj]

theorem reserve_index_frame_witness :
    ∃ b1 b2, (DoubleArrayBuilder.init []).reserve_index 0 = .ok b1 ∧
      b1.reserve_index 1 = .ok b2 ∧ (b2.extra 1).is_fixed = true ∧ b2.units = b1.units ∧
      ∀ j, b2.Free j ↔ (b1.Free j ∧ j ≠ 1) := by
  obtain ⟨b1, hb1, hinv, _, _, hnum, hfree⟩ := first_block
  obtain ⟨b2, hb2, h1, h2, _, _, _, _, h3, _⟩ :=
    reserve_index_frame b1 hinv (by rw [hnum]; decide) 1 (hfree 1 (by decide) (by decide))
  exact ⟨b1, b2, hb1, hb2, h2, h3, h1⟩

/-- C29: the free list of a consistent allocator state is in order (following
`next` from the first unfixed index visits exactly the units that are not
fixed, each once, in ascending order, before it returns to the start; `prev` is
the inverse of `next` on them; they lie in the last 16 blocks; the first
unfixed index is the smallest of them, or `num_of_units` when there is none),
the state of the new builder is consistent, and `reserve_index`, `expand_trie`
and `fix_block` lead from a consistent state to a consistent state. -/
theorem free_list_invariant (IsBase : Nat → Prop) (b : DoubleArrayBuilder) (hinv : b.AllocInv)
    (hc : b.UsedCovered) (hbu : DoubleArrayBuilder.BasesUsed IsBase b)
    (hn : b.num_of_units + 256 < 2 ^ 31) :
    FreeListOK b ∧
      (∀ K, (DoubleArrayBuilder.init K).AllocInv ∧ FreeListOK (DoubleArrayBuilder.init K)) ∧
      (∀ i, (b.Free i ∨ (b.num_of_units ≤ i ∧ i < b.num_of_units + 256)) →
        ∃ b2, b.reserve_index i = .ok b2 ∧ b2.AllocInv ∧ FreeListOK b2) ∧
      (∃ b2, b.expand_trie = .ok b2 ∧ b2.AllocInv ∧ FreeListOK b2) ∧
      (∀ k, b.first_live ≤ k → k < b.num_of_blocks → (∀ j, b.Free j → 256 * k ≤ j) →
        ∃ b2, b.fix_block k = .ok b2 ∧ b2.AllocInv ∧ FreeListOK b2) := by
  refine ⟨DoubleArrayBuilder.freeListOK_of_inv hinv,
    fun K => ⟨allocInv_init K, DoubleArrayBuilder.freeListOK_of_inv (allocInv_init K)⟩, ?_, ?_, ?_⟩
  · intro i hi
    obtain ⟨b2, h2, r⟩ := DoubleArrayBuilder.reserve_index_spec IsBase b i hinv hc hbu hn hi
    exact ⟨b2, h2, r.inv, DoubleArrayBuilder.freeListOK_of_inv r.inv⟩
  · obtain ⟨b2, h2, g⟩ := DoubleArrayBuilder.expand_trie_spec IsBase b hinv hc hbu hn
    exact ⟨b2, h2, g.inv, DoubleArrayBuilder.freeListOK_of_inv g.inv⟩
  · intro k hk1 hk2 hfree
    obtain ⟨b2, U, h2, p, _⟩ := DoubleArrayBuilder.fix_block_spec b hinv hc (by omega) k hk1 hk2
      hfree
    exact ⟨b2, h2, p.inv, DoubleArrayBuilder.freeListOK_of_inv p.inv⟩

theorem free_list_invariant_witness :
    ∃ b1, (DoubleArrayBuilder.init []).reserve_index 0 = .ok b1 ∧ FreeListOK b1 ∧
      ∃ b2, b1.reserve_index 1 = .ok b2 ∧ b2.AllocInv ∧ FreeListOK b2 := by
  obtain ⟨b1, hb1, hinv, hc, hbu, hnum, hfree⟩ := first_block
  have h := free_list_invariant (fun _ => False) b1 hinv hc hbu (by rw [hnum]; decide)
  exact ⟨b1, hb1, h.1, h.2.2.1 1 (Or.inl (hfree 1 (by decide) (by decide)))⟩

/-- C25: in a consistent allocator state, for a parent `index` of 32 bits and
labels `labels`, bytes, of which there is at least one, `find_offset_index`
returns a base `o` such that every slot `o XOR l` is beyond the array or is in
the array and not fixed, `o` is not marked `is_used`, and the offset
`index XOR o` is stored exactly by `set_offset` when it is below
`OFFSET_MAX << 8`. -/
theorem find_offset_index_good (b : DoubleArrayBuilder) (hinv : b.AllocInv) (index : Nat)
    (labels : List Nat) (hl : labels ≠ []) (hlab : ∀ l ∈ labels, l < 256)
    (hidx : index < 2 ^ 32) (hn : b.num_of_units + 256 ≤ 2 ^ 32) :
    ∃ o, b.find_offset_index index labels = .ok o ∧
      (∀ l ∈ labels, b.num_of_units ≤ o ^^^ l ∨
        (o ^^^ l < b.num_of_units ∧ (b.extra (o ^^^ l)).is_fixed = false ∧
          b.Free (o ^^^ l))) ∧
      (b.extra o).is_used = false ∧
      (index ^^^ o < 2 ^ 29 → ∀ u : DoubleArrayUnit, u.wf →
        ∃ u2, u.set_offset (index ^^^ o) = .ok u2 ∧ u2.offset = index ^^^ o) := by
  have hnum : b.num_of_units = 256 * b.extras.length := hinv.size_eq
  obtain ⟨l0, t, hlt0⟩ := List.exists_cons_of_ne_nil hl
  have hl0 : labels.getD 0 0 = l0 := by rw [hlt0]; rfl
  have hl0lt : l0 < 256 := hlab l0 (by rw [hlt0]; exact List.mem_cons_self _ _)
  have hrep : ∀ o, (index ^^^ o < 2 ^ 21 ∨ (index ^^^ o) % 256 = 0) → index ^^^ o < 2 ^ 29 →
      ∀ u : DoubleArrayUnit, u.wf →
        ∃ u2, u.set_offset (index ^^^ o) = .ok u2 ∧ u2.offset = index ^^^ o := by
    intro o h1 h2 u hu
    have hok := DoubleArrayUnit.set_offset_ok u (index ^^^ o) h2
    exact ⟨_, hok, (DoubleArrayUnit.set_offset_spec hu hok).2.2.2.2 h1⟩
  refine ⟨_, DoubleArrayBuilder.find_offset_index_eq b hinv index labels, ?_⟩
  unfold DoubleArrayBuilder.first_candidate
  cases hf : b.free_order.find? (b.candidate_ok index labels DoubleArrayBuilder.mask_test) with
  | none =>
    show (∀ l ∈ labels, b.num_of_units ≤ (b.num_of_units ||| (index &&& 0xFF)) ^^^ l ∨ _) ∧
      (b.extra (b.num_of_units ||| (index &&& 0xFF))).is_used = false ∧ _
    have e := or_and_255 b.num_of_units index (by omega)
    rw [e]
    refine ⟨fun l hlm => Or.inl (xor_byte_ge _ l _ (hlab l hlm) (by omega) (by omega)), ?_, ?_⟩
    · rw [DoubleArrayBuilder.extra_of_ge hinv (by omega)]
      rfl
    · intro h29
      exact hrep _ (Or.inr (xor_self_low index b.num_of_units (by omega))) h29
  | some u =>
    have hc := List.find?_some hf
    have hu : b.Free u := by
      have hm := List.mem_of_find?_eq_some hf
      rw [DoubleArrayBuilder.free_order_eq hinv] at hm
      exact (DoubleArrayBuilder.mem_free_slots b u).1 hm
    unfold DoubleArrayBuilder.candidate_ok at hc
    simp only [Bool.and_eq_true, Bool.not_eq_true'] at hc
    obtain ⟨⟨hused, hmask⟩, hcol⟩ := hc
    rw [hl0] at hused hmask hcol
    show (∀ l ∈ labels, b.num_of_units ≤ (u ^^^ labels.getD 0 0) ^^^ l ∨ _) ∧
      (b.extra (u ^^^ labels.getD 0 0)).is_used = false ∧ _
    rw [hl0]
    have hblk : (u ^^^ l0) / 256 = u / 256 := xor_byte_div u l0 hl0lt
    have hu1 : 256 * b.first_live ≤ u := hu.1
    have hu2 : u < b.num_of_units := hu.2.1
    have ho2 : u ^^^ l0 < b.num_of_units := by omega
    refine ⟨?_, hused, ?_⟩
    · intro l hlm
      right
      have hfree : b.Free ((u ^^^ l0) ^^^ l) := by
        rw [hlt0] at hlm
        rcases List.mem_cons.1 hlm with h | h
        · rw [h, xor_xor_cancel_right]
          exact hu
        · have hllt : l < 256 := hlab l (by rw [hlt0]; exact List.mem_cons_of_mem _ h)
          have hb2 : ((u ^^^ l0) ^^^ l) / 256 = (u ^^^ l0) / 256 := xor_byte_div _ l hllt
          unfold DoubleArrayBuilder.has_collision at hcol
          rw [hlt0] at hcol
          simp only [List.drop_succ_cons, List.drop_zero, List.any_eq_false] at hcol
          have := hcol l h
          refine ⟨?_, ?_, ?_⟩
          · show 256 * b.first_live ≤ (u ^^^ l0) ^^^ l
            omega
          · omega
          · simpa using this
      exact ⟨hfree.2.1, hfree.2.2, hfree⟩
    · intro h29
      have h32 : index ^^^ (u ^^^ l0) < 2 ^ 32 := Nat.xor_lt_two_pow (by omega) (by omega)
      have h29b : index ^^^ (u ^^^ l0) < 2 ^ 29 := h29
      have hcase : index ^^^ (u ^^^ l0) < 2 ^ 21 ∨ (index ^^^ (u ^^^ l0)) % 256 = 0 := by
        rcases (DoubleArrayBuilder.mask_test_iff _ h32).1 hmask with h | h
        · right; omega
        · left; exact h
      exact hrep (u ^^^ l0) hcase h29b

theorem find_offset_index_good_witness :
    ∃ b1 o, (DoubleArrayBuilder.init []).reserve_index 0 = .ok b1 ∧
      b1.find_offset_index 0 [97, 98] = .ok o ∧ (b1.extra o).is_used = false ∧
      (b1.Free (o ^^^ 97) ∨ b1.num_of_units ≤ o ^^^ 97) := by
  obtain ⟨b1, hb1, hinv, _, _, hnum, _⟩ := first_block
  obtain ⟨o, ho, h1, h2, _⟩ := find_offset_index_good b1 hinv 0 [97, 98] (by decide) (by decide)
    (by decide) (by rw [hnum]; decide)
  refine ⟨b1, o, hb1, ho, h2, ?_⟩
  rcases h1 97 (by decide) with h | h
  · exact Or.inr h
  · exact Or.inl h.2.2

/-- C26 (counterexample): in a consistent allocator state with 8194 blocks
whose only unit that is not fixed is unit 2097409, for the parent 0 and the
label 1 the candidate 2097408 is not `is_used`, its offset 2^21 + 256 fits the
offset encoding and there is no other child slot, but `find_offset_index`
returns `num_of_units | (0 & 0xFF) = 2097664`. -/
theorem find_offset_first_counterexample :
    big_state.AllocInv ∧ (∀ j, big_state.Free j ↔ j = 2097409) ∧
      big_state.find_offset_index 0 [1] = .ok 2097664 ∧
      big_state.first_candidate 0 [1] DoubleArrayBuilder.fits_encoding = 2097408 ∧
      big_state.find_offset_index 0 [1]
        ≠ .ok (big_state.first_candidate 0 [1] DoubleArrayBuilder.fits_encoding) := by
  refine ⟨DoubleArrayBuilder.big_allocInv, DoubleArrayBuilder.big_free,
    DoubleArrayBuilder.big_find, DoubleArrayBuilder.big_first, ?_⟩
  rw [DoubleArrayBuilder.big_find, DoubleArrayBuilder.big_first]
  intro h
  injection h with h
  exact absurd h (by decide)

/-- C26 (amended): in a consistent allocator state the result of
`find_offset_index` is the first candidate `free_index XOR labels[0]`, taken in
the order of the free list from the first unfixed index, that is not `is_used`,
whose offset from the parent is below `2^21` or a multiple of `2^21`, and none
of whose other child slots is fixed; when there is no such candidate or the
free list is empty, it is `num_of_units | (index & 0xFF)`.  The test of the
offset agrees with the offset encoding while the array has at most `2^21`
units. -/
theorem find_offset_first (b : DoubleArrayBuilder) (hinv : b.AllocInv) (index : Nat)
    (labels : List Nat) :
    b.find_offset_index index labels
        = .ok (b.first_candidate index labels DoubleArrayBuilder.mask_test) ∧
      (∀ o, o < 2 ^ 32 →
        (DoubleArrayBuilder.mask_test o = true ↔ (o < 2 ^ 21 ∨ o % 2 ^ 21 = 0))) ∧
      (b.num_of_units ≤ 2 ^ 21 → index < b.num_of_units → labels.getD 0 0 < 256 →
        b.first_candidate index labels DoubleArrayBuilder.mask_test
          = b.first_candidate index labels DoubleArrayBuilder.fits_encoding) := by
  refine ⟨DoubleArrayBuilder.find_offset_index_eq b hinv index labels, ?_, ?_⟩
  · intro o ho
    rw [DoubleArrayBuilder.mask_test_iff o ho]
    exact Or.comm
  · intro hsmall hidx hl0
    unfold DoubleArrayBuilder.first_candidate
    rw [DoubleArrayBuilder.find?_congr_mem (b.candidate_ok index labels DoubleArrayBuilder.mask_test)
      (b.candidate_ok index labels DoubleArrayBuilder.fits_encoding)]
    intro u hu
    rw [DoubleArrayBuilder.free_order_eq hinv] at hu
    have hf := (DoubleArrayBuilder.mem_free_slots b u).1 hu
    have hu2 : u < b.num_of_units := hf.2.1
    have hx : index ^^^ (u ^^^ labels.getD 0 0) < 2 ^ 21 :=
      Nat.xor_lt_two_pow (by omega) (Nat.xor_lt_two_pow (by omega) (by omega))
    have h1 : DoubleArrayBuilder.mask_test (index ^^^ (u ^^^ labels.getD 0 0)) = true :=
      (DoubleArrayBuilder.mask_test_iff _ (by omega)).2 (Or.inr hx)
    have h2 : DoubleArrayBuilder.fits_encoding (index ^^^ (u ^^^ labels.getD 0 0)) = true := by
      unfold DoubleArrayBuilder.fits_encoding
      rw [decide_eq_true hx, Bool.true_or]
    unfold DoubleArrayBuilder.candidate_ok
    rw [h1, h2]

theorem find_offset_first_witness :
    ∃ b1, (DoubleArrayBuilder.init []).reserve_index 0 = .ok b1 ∧
      b1.find_offset_index 0 [97, 98]
        = .ok (b1.first_candidate 0 [97, 98] DoubleArrayBuilder.mask_test) ∧
      b1.first_candidate 0 [97, 98] DoubleArrayBuilder.mask_test
        = b1.first_candidate 0 [97, 98] DoubleArrayBuilder.fits_encoding := by
  obtain ⟨b1, hb1, hinv, _, _, hnum, _⟩ := first_block
  have h := find_offset_first b1 hinv 0 [97, 98]
  exact ⟨b1, hb1, h.1, h.2.2 (by rw [hnum]; decide) (by rw [hnum]; decide) (by decide)⟩

end Darts

namespace Darts

theorem loop_states_nil (fuel : Nat) (b : DoubleArrayBuilder) :
    DoubleArrayBuilder.loop_states fuel b [] = [(b, [])] := by
  cases fuel <;> rfl

theorem loop_states_succ (fuel : Nat) (b : DoubleArrayBuilder) (r : DoubleArrayKeyRange)
    (s : List DoubleArrayKeyRange) :
    DoubleArrayBuilder.loop_states (fuel + 1) b (r :: s) =
      (b, r :: s) :: (match b.build_trie_step r s with
        | .ok next => DoubleArrayBuilder.loop_states fuel next.1 next.2
        | .error _ => []) := rfl

/-- The number of units does not decrease along the loop. -/
theorem loop_states_grows : ∀ (fuel : Nat) (b : DoubleArrayBuilder)
    (stack : List DoubleArrayKeyRange),
    ∀ x ∈ DoubleArrayBuilder.loop_states fuel b stack, b.num_of_units ≤ x.1.num_of_units := by
  intro fuel
  induction fuel with
  | zero =>
    intro b stack x hx
    cases stack with
    | nil =>
      rw [loop_states_nil] at hx
      rw [List.mem_singleton.1 hx]
    | cons r s =>
      have e : DoubleArrayBuilder.loop_states 0 b (r :: s) = [(b, r :: s)] := rfl
      rw [e] at hx
      rw [List.mem_singleton.1 hx]
  | succ fuel ih =>
    intro b stack x hx
    cases stack with
    | nil =>
      rw [loop_states_nil] at hx
      rw [List.mem_singleton.1 hx]
    | cons r s =>
      rw [loop_states_succ] at hx
      rcases List.mem_cons.1 hx with h | h
      · rw [h]
      · cases hstep : b.build_trie_step r s with
        | error e =>
          rw [hstep] at h
          exact absurd h (List.not_mem_nil _)
        | ok next =>
          rw [hstep] at h
          have h1 := DoubleArrayBuilder.grows_build_trie_step b r s next hstep
          have h2 := ih next.1 next.2 x h
          exact Nat.le_trans h1 h2

/-- The invariant of the loop holds of every state through which the loop
passes, as long as the array has fewer than `2^29` units. -/
theorem loop_states_inv {K : List DoubleArrayKey} (hK : KeysOK K) :
    ∀ (fuel : Nat) (b : DoubleArrayBuilder) (stack : List DoubleArrayKeyRange),
      TrieInv K b stack → ∀ x ∈ DoubleArrayBuilder.loop_states fuel b stack,
      x.1.num_of_units < 2 ^ 29 → TrieInv K x.1 x.2 := by
  intro fuel
  induction fuel with
  | zero =>
    intro b stack h x hx _
    cases stack with
    | nil =>
      rw [loop_states_nil] at hx
      rw [List.mem_singleton.1 hx]; exact h
    | cons r s =>
      have e : DoubleArrayBuilder.loop_states 0 b (r :: s) = [(b, r :: s)] := rfl
      rw [e] at hx
      rw [List.mem_singleton.1 hx]; exact h
  | succ fuel ih =>
    intro b stack h x hx hn
    cases stack with
    | nil =>
      rw [loop_states_nil] at hx
      rw [List.mem_singleton.1 hx]; exact h
    | cons r s =>
      have hle := loop_states_grows (fuel + 1) b (r :: s) x hx
      rw [loop_states_succ] at hx
      rcases List.mem_cons.1 hx with hx | hx
      · rw [hx]; exact h
      · have h256 : b.num_of_units % 256 = 0 := num_mod_of_alloc h.alloc
        obtain ⟨b2, stack2, hstep, hinv2, _, _, _⟩ := build_trie_step_spec hK h (by omega)
        rw [hstep] at hx
        exact ih b2 stack2 hinv2 x hx hn

/-- The root is the only node at unit 0. -/
theorem TrieInv.walk_ne_zero {K : List DoubleArrayKey} {b : DoubleArrayBuilder}
    {stack : List DoubleArrayKeyRange} (h : TrieInv K b stack) (hroot : Done K b stack [] ∨
      Pending K b stack []) (q : List Nat) (hq : Done K b stack q ∨ Pending K b stack q)
    (hne : q ≠ []) : walk b.units q ≠ 0 := by
  intro h0
  have := h.inj q [] hq hroot (by rw [h0, walk_nil])
  exact hne this

/-- C27: throughout the loop of `build_trie_subroutine` on a strictly
ascending, non-empty key set, started as `build_trie` starts it, and as long as
the array has fewer than `2^29` units: units 0 and 1 were not fixed when they
were reserved; the units of the nodes created so far are fixed and pairwise
distinct, none is unit 1 and only the root is unit 0; the base of every
processed node that has children lies in the array and is marked `is_used` as
long as its block keeps its extras; no two processed nodes that have children
share a base; and the iteration for a node that has children returns, reserves
child units that were not fixed before it and that are distinct from one
another, and leaves the base that it found marked `is_used`; the first unfixed
index, which is the unit that `fix_block` reserves, is not fixed when it lies
in the array. -/
theorem reserved_once (K : List DoubleArrayKey) (hK : KeysOK K) (hK0 : K ≠ [])
    (b1 b2 : DoubleArrayBuilder) (u : DoubleArrayUnit)
    (h1 : (DoubleArrayBuilder.init K).reserve_index 0 = .ok b1)
    (h2 : b1.reserve_index 1 = .ok b2)
    (h3 : ((mark_used b2 0).unit 0).set_offset 1 = .ok u)
    (fuel : Nat) (b : DoubleArrayBuilder) (stack : List DoubleArrayKeyRange)
    (hmem : (b, stack) ∈ DoubleArrayBuilder.loop_states fuel (trie_start b2 u)
      [⟨0, K.length, 0⟩])
    (hn : b.num_of_units < 2 ^ 29) :
    (¬ (DoubleArrayBuilder.init K).Fixed 0 ∧ ¬ b1.Fixed 1) ∧
      (∀ q, Done K b stack q ∨ Pending K b stack q →
        b.Fixed (walk b.units q) ∧ walk b.units q ≠ 1 ∧ (q ≠ [] → walk b.units q ≠ 0)) ∧
      (∀ p q, Done K b stack p ∨ Pending K b stack p → Done K b stack q ∨ Pending K b stack q →
        walk b.units p = walk b.units q → p = q) ∧
      (∀ p, Done K b stack p → Internal K p → base_of b.units p < b.num_of_units ∧
        (256 * b.first_live ≤ base_of b.units p →
          (b.extra (base_of b.units p)).is_used = true)) ∧
      (∀ p q, Done K b stack p → Internal K p → Done K b stack q → Internal K q →
        base_of b.units p = base_of b.units q → p = q) ∧
      (∀ r rest, stack = r :: rest → ¬ (r.index ≠ 0 ∧ r.size = 1) →
        ∃ o Z b3, b.build_trie_step r rest = .ok (b3, child_ranges o Z ++ rest) ∧
          (∀ x ∈ Z, ¬ b.Fixed (o ^^^ x.1) ∧ b3.Fixed (o ^^^ x.1)) ∧
          (∀ x ∈ Z, ∀ y ∈ Z, o ^^^ x.1 = o ^^^ y.1 → x = y) ∧
          (b3.unit r.index).offset = r.index ^^^ o ∧ (b3.extra o).is_used = true ∧
          256 * b3.first_live ≤ o ∧ o < b3.num_of_units) ∧
      (b.unfixed_index < b.num_of_units → b.Free b.unfixed_index) := by
  obtain ⟨c1, c2, u2, hc1, hc2, hu2, hstart⟩ := start_spec K
  rw [h1] at hc1
  injection hc1 with hc1
  subst hc1
  rw [h2] at hc2
  injection hc2 with hc2
  subst hc2
  rw [h3] at hu2
  injection hu2 with hu2
  subst hu2
  obtain ⟨hinv0, _⟩ := start_inv hK hK0 hstart
  have hinv : TrieInv K b stack := loop_states_inv hK fuel _ _ hinv0 (b, stack) hmem hn
  have hroot := hinv.root_created hK0
  have hnum0 : (DoubleArrayBuilder.init K).num_of_units = 0 := rfl
  refine ⟨⟨?_, ?_⟩, ?_, hinv.inj, ?_, hinv.base_inj, ?_, ?_⟩
  rotate_right
  · intro hlt
    rcases hinv.alloc.head with h | h
    · exact h.1
    · omega
  · intro hf
    have := hf.1
    rw [hnum0] at this
    exact absurd this (Nat.not_lt_zero _)
  · have hc0 : (DoubleArrayBuilder.init K).UsedCovered := by
      intro u _ h2
      exact absurd h2 (Nat.not_lt_zero _)
    have hbu0 : DoubleArrayBuilder.BasesUsed (fun _ => False) (DoubleArrayBuilder.init K) :=
      fun u hu => absurd hu id
    obtain ⟨c1, hc1, r1⟩ := DoubleArrayBuilder.reserve_index_spec (fun _ => False)
      (DoubleArrayBuilder.init K) 0 (allocInv_init K) hc0 hbu0 (by rw [hnum0]; decide)
      (Or.inr ⟨by rw [hnum0], by rw [hnum0]; decide⟩)
    rw [h1] at hc1
    injection hc1 with hc1
    subst hc1
    have hfree : b1.Free 1 :=
      r1.free_new (by rw [hnum0]) 1 (by rw [hnum0]; decide) (by rw [hnum0]; decide) (by decide)
    intro hf
    obtain ⟨f1, f2, f3⟩ := hfree
    rcases hf.2 with h | h
    · omega
    · rw [f3] at h
      cases h
  · intro q hq
    refine ⟨?_, (hinv.one.2.2 q hq), hinv.walk_ne_zero hroot q hq⟩
    rcases hq with hq | ⟨r, hr, hp⟩
    · exact (hinv.done q hq).fixed
    · have hr2 := hinv.range r hr
      rw [← hp, ← hr2.index]
      exact hr2.fixed
  · intro p hp hint
    obtain ⟨_, _, h3, h4⟩ := (hinv.done p hp).internal hint
    exact ⟨h3, h4⟩
  · intro r rest hst hnl
    subst hst
    have hr : RangeOK K b r := hinv.range r (List.mem_cons_self _ _)
    have h256 : b.num_of_units % 256 = 0 := num_mod_of_alloc hinv.alloc
    have hb := range_byte hK hinv hnl
    obtain ⟨o, Z, b3, hstep, hf⟩ := internal_run (IsBaseOf K b (r :: rest)) b r rest hnl
      hinv.alloc hinv.covered (basesUsed_of_inv hinv) hr.fixed hr.lt
      (by rw [hinv.keys.length]; exact hr.le)
      (by
        intro i j h1 h2 h3
        rw [(hb i h1 (by omega)).1, (hb j (by omega) h3).1]
        exact ext_mono hK h2 ((hr.exact i).1 ⟨h1, by omega⟩) ((hr.exact j).1 ⟨by omega, h3⟩))
      (by
        intro i h1 h2
        rw [(hb i h1 h2).1]
        exact ext_byte_lt hK ((hr.exact i).1 ⟨h1, h2⟩).1 _)
      (by omega)
    refine ⟨o, Z, b3, hstep, fun x hx => ⟨(hf.child x hx).2.1, (hf.child x hx).1⟩, ?_,
      hf.offset, hf.used_self, hf.live.1, hf.live.2⟩
    intro x hx y hy hxy
    exact fst_inj_of_pairwise hf.runs.labels hx hy (Nat.xor_right_injective hxy)

theorem reserved_once_witness :
    ∃ b1 b2 u, (DoubleArrayBuilder.init [⟨[97], 0, 1, 0, 0⟩]).reserve_index 0 = .ok b1 ∧
      b1.reserve_index 1 = .ok b2 ∧ ((mark_used b2 0).unit 0).set_offset 1 = .ok u ∧
      ¬ b1.Fixed 1 ∧ ∀ p, Done [⟨[97], 0, 1, 0, 0⟩] (trie_start b2 u) [⟨0, 1, 0⟩] p →
        (trie_start b2 u).Fixed (walk (trie_start b2 u).units p) := by
  obtain ⟨_, hok⟩ := collect_ok_inv [[97]] none none (by decide) (fun ls h => by cases h)
    collect_keys_a
  obtain ⟨b1, b2, u, h1, h2, h3, hstart⟩ := start_spec [⟨[97], 0, 1, 0, 0⟩]
  have h := reserved_once [⟨[97], 0, 1, 0, 0⟩] hok (by simp) b1 b2 u h1 h2 h3 0
    (trie_start b2 u) [⟨0, 1, 0⟩] (List.mem_singleton.2 rfl) (by rw [hstart.num]; decide)
  exact ⟨b1, b2, u, h1, h2, h3, h.1.2, fun p hp => (h.2.1 p (Or.inl hp)).1⟩

end Darts

namespace Darts

theorem collect_keys_a_ab :
    DoubleArrayBase.collect_keys none none [[97], [97, 98]] 0 [] = .ok keys_a_ab := rfl

/-- The labels and ranges listed for the root of the trie of `"a"` and `"ab"`. -/
theorem list_labels_root :
    (DoubleArrayBuilder.list_labels 2 (2 - 0) 0 keys_a_ab
        [(keys_a_ab.getD 0 default).get 0] [] 0).2.1.zip
      ((DoubleArrayBuilder.list_labels 2 (2 - 0) 0 keys_a_ab
        [(keys_a_ab.getD 0 default).get 0] [] 0).2.2.1 ++
        [⟨(DoubleArrayBuilder.list_labels 2 (2 - 0) 0 keys_a_ab
          [(keys_a_ab.getD 0 default).get 0] [] 0).2.2.2, 2, 0⟩])
      = [(97, ⟨0, 2, 0⟩)] := by
  decide

/-- The labels and ranges listed for the node of `"a"`. -/
theorem list_labels_a :
    (DoubleArrayBuilder.list_labels 2 (2 - 0) 0 (keys_a_ab.map DoubleArrayKey.inc)
        [((keys_a_ab.map DoubleArrayKey.inc).getD 0 default).get 0] [] 0).2.1.zip
      ((DoubleArrayBuilder.list_labels 2 (2 - 0) 0 (keys_a_ab.map DoubleArrayKey.inc)
        [((keys_a_ab.map DoubleArrayKey.inc).getD 0 default).get 0] [] 0).2.2.1 ++
        [⟨(DoubleArrayBuilder.list_labels 2 (2 - 0) 0 (keys_a_ab.map DoubleArrayKey.inc)
          [((keys_a_ab.map DoubleArrayKey.inc).getD 0 default).get 0] [] 0).2.2.2, 2, 0⟩])
      = [(0, ⟨0, 1, 0⟩), (98, ⟨1, 2, 0⟩)] := by
  decide

/-- The first candidate of the offset finder is that of the first unfixed
index when it is acceptable. -/
theorem first_candidate_head (b : DoubleArrayBuilder) (index : Nat) (labels : List Nat)
    (fits : Nat → Bool) (hlt : b.unfixed_index < b.num_of_units)
    (hok : b.candidate_ok index labels fits b.unfixed_index = true) :
    b.first_candidate index labels fits = b.unfixed_index ^^^ labels.getD 0 0 := by
  obtain ⟨n, hn⟩ : ∃ n, b.num_of_units = n + 1 := ⟨b.num_of_units - 1, by omega⟩
  unfold DoubleArrayBuilder.first_candidate DoubleArrayBuilder.free_order
  rw [if_pos hlt, hn, DoubleArrayBuilder.cycle_succ, List.find?_cons_of_pos _ hok]

/-- The first unfixed index when the fixed units are those below `m`. -/
theorem unfixed_index_of_fixed {b : DoubleArrayBuilder} (h : b.AllocInv) (m : Nat)
    (hfix : ∀ j, b.Fixed j ↔ j < m) (hm : m < b.num_of_units) : b.unfixed_index = m := by
  have hfree : b.Free m :=
    DoubleArrayBuilder.free_of_not_fixed hm (fun hf => Nat.lt_irrefl _ ((hfix m).1 hf))
  rcases h.head with ⟨h1, h2⟩ | ⟨_, h2⟩
  · have hle := h2 m hfree
    have hnf := DoubleArrayBuilder.not_fixed_of_free h1
    rw [hfix] at hnf
    omega
  · exact absurd hfree (h2 m)

/-- The branch of `build_trie_subroutine` for a range that is not a leaf, in
a state of one block in which the fixed units are those below `m` and the
candidate of the first unfixed index `m` is acceptable: the offset found is
that candidate and the array does not grow. -/
theorem exact_step {K : List DoubleArrayKey} (hK : KeysOK K) {b : DoubleArrayBuilder}
    {r : DoubleArrayKeyRange} {rest : List DoubleArrayKeyRange} (h : TrieInv K b (r :: rest))
    (hnl : ¬ (r.index ≠ 0 ∧ r.size = 1)) (hnum : b.num_of_units = 256) (m : Nat)
    (hfix : ∀ j, b.Fixed j ↔ j < m) (hm : m < 256)
    (Z0 : List (Nat × DoubleArrayKeyRange))
    (hZ : (DoubleArrayBuilder.list_labels r.end_ (r.end_ - r.begin_) r.begin_ b.keys
          [(b.keys.getD r.begin_ default).get 0] [] r.begin_).2.1.zip
        ((DoubleArrayBuilder.list_labels r.end_ (r.end_ - r.begin_) r.begin_ b.keys
          [(b.keys.getD r.begin_ default).get 0] [] r.begin_).2.2.1 ++
          [⟨(DoubleArrayBuilder.list_labels r.end_ (r.end_ - r.begin_) r.begin_ b.keys
            [(b.keys.getD r.begin_ default).get 0] [] r.begin_).2.2.2, r.end_, 0⟩]) = Z0)
    (l0 : Nat) (hl0 : (Z0.map Prod.fst).getD 0 0 = l0) (hl0lt : l0 < 256)
    (hused : (b.extra (m ^^^ l0)).is_used = false)
    (hmask : DoubleArrayBuilder.mask_test (r.index ^^^ (m ^^^ l0)) = true)
    (hcol : ∀ l ∈ (Z0.map Prod.fst).drop 1, m ≤ (m ^^^ l0) ^^^ l ∧ (m ^^^ l0) ^^^ l < 256) :
    ∃ b3, b.build_trie_step r rest = .ok (b3, child_ranges (m ^^^ l0) Z0 ++ rest) ∧
      TrieInv K b3 (child_ranges (m ^^^ l0) Z0 ++ rest) ∧
      b3.num_of_units = 256 ∧
      (∀ j, b3.Fixed j ↔ (j < m ∨ ∃ x ∈ Z0, j = (m ^^^ l0) ^^^ x.1)) ∧
      (∀ j, (b3.extra j).is_used = if j = m ^^^ l0 then true else (b.extra j).is_used) ∧
      b3.keys.length = b.keys.length ∧
      (∀ i, b3.keys.getD i default =
        if r.begin_ ≤ i ∧ i < r.end_ then (b.keys.getD i default).inc
        else b.keys.getD i default) ∧
      (b3.unit r.index).offset = r.index ^^^ (m ^^^ l0) ∧
      (b3.unit r.index).is_leaf = (b.unit r.index).is_leaf ∧
      (∀ j, b.Fixed j → j ≠ r.index → b3.unit j = b.unit j) ∧
      (∀ x ∈ Z0, b3.unit ((m ^^^ l0) ^^^ x.1) = (default : DoubleArrayUnit).set_label x.1) := by
  have hr : RangeOK K b r := h.range r (List.mem_cons_self _ _)
  have hb := range_byte hK h hnl
  obtain ⟨o, Z, b3, hstep, hf, hZeq, ⟨b1, hb1, hinv1, hfind⟩, hnoexp⟩ :=
    internal_run_exact (IsBaseOf K b (r :: rest)) b r rest hnl
      h.alloc h.covered (basesUsed_of_inv h) hr.fixed hr.lt
      (by rw [h.keys.length]; exact hr.le)
      (by
        intro i j h1 h2 h3
        rw [(hb i h1 (by omega)).1, (hb j (by omega) h3).1]
        exact ext_mono hK h2 ((hr.exact i).1 ⟨h1, by omega⟩) ((hr.exact j).1 ⟨by omega, h3⟩))
      (by
        intro i h1 h2
        rw [(hb i h1 h2).1]
        exact ext_byte_lt hK ((hr.exact i).1 ⟨h1, h2⟩).1 _)
      (by rw [hnum]; decide)
  rw [hZ] at hZeq
  subst hZeq
  -- the offset found
  have hum : b1.unfixed_index = m := by
    rw [hb1.unfixed_index]
    exact unfixed_index_of_fixed h.alloc m hfix (by rw [hnum]; exact hm)
  have hfl : b.first_live = 0 := by
    have e := DoubleArrayBuilder.num_of_units_eq h.alloc
    have e2 : BLOCK_SIZE = 256 := rfl
    rw [hnum, e2] at e
    rw [DoubleArrayBuilder.first_live_eq]
    unfold DoubleArrayBuilder.num_of_blocks at e
    omega
  have hcand : b1.candidate_ok r.index (Z.map Prod.fst) DoubleArrayBuilder.mask_test
      b1.unfixed_index = true := by
    unfold DoubleArrayBuilder.candidate_ok
    rw [hum, hl0, hb1.extra, hused, hmask]
    have hc : b1.has_collision (m ^^^ l0) (Z.map Prod.fst) = false := by
      unfold DoubleArrayBuilder.has_collision
      rw [List.any_eq_false]
      intro l hl
      rw [hb1.extra]
      obtain ⟨c1, c2⟩ := hcol l hl
      have hnf : ¬ b.Fixed ((m ^^^ l0) ^^^ l) := by
        rw [hfix]; omega
      have := DoubleArrayBuilder.free_of_not_fixed (by rw [hnum]; exact c2) hnf
      rw [this.2.2]
      exact Bool.false_ne_true
    rw [hc]
    rfl
  have ho : o = m ^^^ l0 := by
    have e := DoubleArrayBuilder.find_offset_index_eq b1 hinv1 r.index (Z.map Prod.fst)
    rw [hfind] at e
    injection e with e
    rw [e, first_candidate_head b1 r.index (Z.map Prod.fst) DoubleArrayBuilder.mask_test
      (by rw [hum, hb1.num, hnum]; exact hm) hcand, hum, hl0]
  subst ho
  have holt : m ^^^ l0 < 256 := xor_lt_256 m l0 hm hl0lt
  have hnum3 : b3.num_of_units = 256 := by
    rw [hnoexp (by rw [hnum]; exact holt), hnum]
  have hfl3 : b3.first_live = 0 := by
    have e := DoubleArrayBuilder.num_of_units_eq hf.alloc
    have e2 : BLOCK_SIZE = 256 := rfl
    rw [hnum3, e2] at e
    rw [DoubleArrayBuilder.first_live_eq]
    unfold DoubleArrayBuilder.num_of_blocks at e
    omega
  refine ⟨b3, hstep, internal_step hK h hnl hf, hnum3, ?_, ?_, hf.keys_length, hf.keys,
    hf.offset, hf.is_leaf, hf.unit_old, fun x hx => (hf.child x hx).2.2⟩
  · intro j
    constructor
    · intro hj
      by_cases hjb : b.Fixed j
      · exact Or.inl ((hfix j).1 hjb)
      · rcases hf.newly j hj hjb with hx | hd
        · exact Or.inr hx
        · have := hd.1
          rw [hfl3] at this
          omega
    · rintro (hj | ⟨x, hx, rfl⟩)
      · exact hf.fixed_mono j ((hfix j).2 hj)
      · exact (hf.child x hx).1
  · intro j
    by_cases hj : j = m ^^^ l0
    · rw [if_pos hj, hj]
      exact hf.used_self
    · rw [if_neg hj]
      exact hf.used j hj (by rw [hfl3]; omega)

theorem build_trie_loop_cons (fuel : Nat) (b : DoubleArrayBuilder) (r : DoubleArrayKeyRange)
    (s : List DoubleArrayKeyRange) :
    DoubleArrayBuilder.build_trie_loop (fuel + 1) b (r :: s) =
      Except.bind (b.build_trie_step r s)
        (fun next => DoubleArrayBuilder.build_trie_loop fuel next.1 next.2) := rfl

theorem build_trie_loop_nil (fuel : Nat) (b : DoubleArrayBuilder) :
    DoubleArrayBuilder.build_trie_loop fuel b [] = .ok b := by
  cases fuel <;> rfl

/-- The result of `build_trie` has as many units as the builder that the loop
of `build_trie_subroutine` returns, and the units that are fixed when the loop
returns are kept, unit 1 apart. -/
theorem build_trie_of_loop {K : List DoubleArrayKey} (hK : KeysOK K) (hK0 : K ≠ [])
    (P : DoubleArrayBuilder → Prop)
    (h : ∀ b0, StartOK K b0 → ∃ bf,
      DoubleArrayBuilder.build_trie_loop (DoubleArrayBuilder.trie_fuel K) b0 [⟨0, K.length, 0⟩]
        = .ok bf ∧ bf.num_of_units = 256 ∧ P bf) :
    ∃ b bf, (DoubleArrayBuilder.init K).build_trie = .ok b ∧ b.num_of_units = 256 ∧ P bf ∧
      ∀ j, bf.Fixed j → j ≠ 1 → b.unit j = bf.unit j := by
  obtain ⟨b1, b2, u, hb1, hb2, hu, hstart⟩ := start_spec K
  rw [build_trie_eq, hb1, bind_ok, hb2, bind_ok, hu, bind_ok,
    DoubleArrayBuilder.run_subroutine _ K hstart.keys, if_neg hK0]
  obtain ⟨hinv, _⟩ := start_inv hK hK0 hstart
  obtain ⟨bf, hloop, hnum, hP⟩ := h _ hstart
  have hinv3 := build_trie_loop_partial hK _ _ _ _ hinv hloop (by rw [hnum]; decide)
  rw [hloop, bind_ok]
  obtain ⟨b4, u1, hb4, hu1, hnum4, _⟩ := finish_nonempty hinv3 hK0 (by rw [hnum]; decide)
  obtain ⟨b5, hb5, hf⟩ := DoubleArrayBuilder.fix_all_blocks_spec bf hinv3.alloc hinv3.covered
    (by rw [hnum]; decide)
  rw [hb4] at hb5
  injection hb5 with hb5
  subst hb5
  rw [hb4, bind_ok, hu1, bind_ok]
  refine ⟨_, bf, rfl, ?_, hP, ?_⟩
  · rw [DoubleArrayBuilder.num_of_units_set_unit, hnum4, hnum]
  · intro j hj hne
    rw [DoubleArrayBuilder.unit_set_unit, if_neg (fun hc => hne hc.1.symm)]
    exact hf.unit_old j hj

theorem leaf_state_unit_ne (b : DoubleArrayBuilder) (r : DoubleArrayKeyRange) (j : Nat)
    (h : r.index ≠ j) : (leaf_state b r).unit j = b.unit j := by
  rw [leaf_state_unit, if_neg (fun hc => h hc.1)]

theorem list_of_length_two {α : Type} (l : List α) (d : α) (h : l.length = 2) :
    l = [l.getD 0 d, l.getD 1 d] := by
  match l, h with
  | [x, y], _ => rfl

/-- The loop of `build_trie_subroutine` on the keys `"a"` and `"ab"` allocates
no second block. -/
theorem loop_a_ab (K : List DoubleArrayKey) (hKe : K = keys_a_ab) (hK : KeysOK K)
    (b0 : DoubleArrayBuilder) (hstart : StartOK K b0) :
    ∃ bf, DoubleArrayBuilder.build_trie_loop (DoubleArrayBuilder.trie_fuel K) b0
        [⟨0, K.length, 0⟩] = .ok bf ∧ bf.num_of_units = 256 ∧
      (bf.Fixed 0 ∧ bf.Fixed 2 ∧ (bf.unit 0).offset = 99 ∧ (bf.unit 0).is_leaf = false ∧
        (bf.unit 2).offset = 1 ∧ (bf.unit 2).is_leaf = false) := by
  have hK0 : K ≠ [] := by rw [hKe]; decide
  have hfuel : DoubleArrayBuilder.trie_fuel K = 5 + 1 := by rw [hKe]; rfl
  have hlen : K.length = 2 := by rw [hKe]; rfl
  obtain ⟨hinv0, _⟩ := start_inv hK hK0 hstart
  rw [hfuel, hlen] at *
  -- the root
  obtain ⟨b3, hstep1, hinv1, hnum1, hfix1, hused1, hkl1, hkeys1, hoff1, hleaf1, _, hch1⟩ :=
    exact_step hK hinv0 (by decide) hstart.num 2 hstart.fixed (by decide) [(97, ⟨0, 2, 0⟩)]
      (by rw [hstart.keys, hKe]; exact list_labels_root) 97 rfl (by decide)
      (Bool.eq_false_iff.2 (fun hu => absurd ((hstart.used _).1 hu) (by decide)))
      (by decide)
      (by intro l hl; cases hl)
  have e1 : child_ranges (2 ^^^ 97) [(97, ⟨0, 2, 0⟩)] ++ [] = [⟨0, 2, 2⟩] := by decide
  rw [e1] at hstep1 hinv1
  have hfix3 : ∀ j, b3.Fixed j ↔ j < 3 := by
    intro j
    rw [hfix1]
    constructor
    · rintro (hj | ⟨x, hx, rfl⟩)
      · omega
      · rw [List.mem_singleton.1 hx]
        decide
    · intro hj
      by_cases h2 : j < 2
      · exact Or.inl h2
      · exact Or.inr ⟨_, List.mem_singleton.2 rfl, by
          have : j = 2 := by omega
          rw [this]
          decide⟩
  have hk3 : b3.keys = keys_a_ab.map DoubleArrayKey.inc := by
    rw [hstart.keys, hKe] at hkl1 hkeys1
    rw [list_of_length_two b3.keys default hkl1, hkeys1 0, hkeys1 1]
    rfl
  -- the node of "a"
  obtain ⟨b4, hstep2, hinv2, hnum2, hfix2, _, _, _, hoff2, hleaf2, hold2, _⟩ :=
    exact_step hK hinv1 (by decide) hnum1 3 hfix3 (by decide)
      [(0, ⟨0, 1, 0⟩), (98, ⟨1, 2, 0⟩)]
      (by rw [hk3]; exact list_labels_a) 0 rfl (by decide)
      (by
        rw [hused1, if_neg (by decide)]
        exact Bool.eq_false_iff.2 (fun hu => absurd ((hstart.used _).1 hu) (by decide)))
      (by decide)
      (by
        intro l hl
        have hl2 : l = 98 := List.mem_singleton.1 hl
        rw [hl2]
        decide)
  have e2 : child_ranges (3 ^^^ 0) [(0, ⟨0, 1, 0⟩), (98, ⟨1, 2, 0⟩)] ++ []
      = [⟨0, 1, 3⟩, ⟨1, 2, 97⟩] := by decide
  rw [e2] at hstep2 hinv2
  -- the two leaves
  have hstep3 := build_trie_step_leaf b4 ⟨0, 1, 3⟩ [⟨1, 2, 97⟩] (by decide)
  have hstep4 := build_trie_step_leaf (leaf_state b4 ⟨0, 1, 3⟩) ⟨1, 2, 97⟩ [] (by decide)
  have hu2 : b3.unit 2 = (default : DoubleArrayUnit).set_label 97 :=
    hch1 (97, ⟨0, 2, 0⟩) (List.mem_singleton.2 rfl)
  have hu40 : b4.unit 0 = b3.unit 0 := hold2 0 ((hfix3 0).2 (by decide)) (by decide)
  have hoff1b : (b3.unit 0).offset = 99 := hoff1
  have hoff2b : (b4.unit 2).offset = 1 := hoff2
  have hleaf2b : (b4.unit 2).is_leaf = false := by
    have e : (b4.unit 2).is_leaf = (b3.unit 2).is_leaf := hleaf2
    rw [e, hu2]
    exact (default_set_label 97 (by decide)).2.1
  have hleaf1b : (b3.unit 0).is_leaf = false := by
    have e : (b3.unit 0).is_leaf = (b0.unit 0).is_leaf := hleaf1
    rw [e]
    exact hstart.zero.2.2.1
  refine ⟨leaf_state (leaf_state b4 ⟨0, 1, 3⟩) ⟨1, 2, 97⟩, ?_, ?_, ?_, ?_, ?_, ?_, ?_, ?_⟩
  · rw [build_trie_loop_cons, hstep1, bind_ok, build_trie_loop_cons, hstep2, bind_ok,
      build_trie_loop_cons, hstep3, bind_ok, build_trie_loop_cons, hstep4, bind_ok,
      build_trie_loop_nil]
  · rw [leaf_state_num, leaf_state_num, hnum2]
  · rw [leaf_state_fixed, leaf_state_fixed, hfix2]
    exact Or.inl (by decide)
  · rw [leaf_state_fixed, leaf_state_fixed, hfix2]
    exact Or.inl (by decide)
  · rw [leaf_state_offset, leaf_state_offset, hu40]
    exact hoff1b
  · rw [leaf_state_unit_ne _ _ _ (by decide), leaf_state_unit_ne _ _ _ (by decide), hu40]
    exact hleaf1b
  · rw [leaf_state_offset, leaf_state_offset]
    exact hoff2b
  · rw [leaf_state_unit_ne _ _ _ (by decide), leaf_state_unit_ne _ _ _ (by decide)]
    exact hleaf2b

theorem isNode_a_zero : IsNode keys_a_ab [97, 0] ∧ ¬ Internal keys_a_ab [97, 0] := by
  refine ⟨⟨⟨0, by decide, ⟨[], rfl⟩⟩, Or.inr ⟨0, 1, by decide, ⟨by decide, ⟨[0], rfl⟩⟩,
    ⟨by decide, ⟨[98, 0], rfl⟩⟩⟩⟩, ?_⟩
  rintro (h | ⟨i, j, hij, hi, hj⟩)
  · cases h
  · have hj1 : j < 2 := hj.1
    have hj2 : j = 1 := by omega
    subst hj2
    obtain ⟨t, ht⟩ := hj.2
    have e : ext_at keys_a_ab 1 = [97, 98, 0] := rfl
    rw [e] at ht
    simp at ht

/-- The array built from the keys `"a"` and `"ab"`: the root has the offset 99,
the unit 2 of the node of `"a"` has the offset 1, and the unit 3 is the leaf of
the key `"a"`. -/
theorem build_a_ab :
    ∃ da, DoubleArrayBase.build 3 [[97], [97, 98]].length (some [[97], [97, 98]]) none none
        = .ok da ∧
      (da.units.getD 0 default).offset = 99 ∧ (da.units.getD 2 default).offset = 1 ∧
      (da.units.getD 3 default).is_leaf = true := by
  obtain ⟨da, hda⟩ := build_ok_total [[97], [97, 98]] none none (by decide)
    (fun ls h => by cases h) _ collect_keys_a_ab (by decide)
  obtain ⟨ks, U, hks, _, hok, hU, hda2⟩ := build_ok_inv [[97], [97, 98]] none none (by decide)
    (fun ls h => by cases h) hda
  have hke : ks = keys_a_ab := by
    rw [collect_keys_a_ab] at hks
    exact (Except.ok.inj hks).symm
  have hK0 : ks ≠ [] := by rw [hke]; decide
  obtain ⟨b, bf2, hb, _, hUe, htrie, _, har, _⟩ := builder_inv hok hU
  obtain ⟨b2, bl, hb2, hnum, ⟨f0, f2, o0, l0, o2, l2⟩, hkeep⟩ := build_trie_of_loop hok hK0
    (fun bf => bf.Fixed 0 ∧ bf.Fixed 2 ∧ (bf.unit 0).offset = 99 ∧ (bf.unit 0).is_leaf = false ∧
        (bf.unit 2).offset = 1 ∧ (bf.unit 2).is_leaf = false)
    (fun b0 hs => loop_a_ab ks hke hok b0 hs)
  rw [hb] at hb2
  injection hb2 with hb2
  subst hb2
  have hd := dict_of_arranged hok htrie har
  rw [← hUe] at hd
  have hu0 : U.getD 0 default = bl.unit 0 := by
    rw [hUe, arranged_frame hok htrie har 0 (by rw [hnum]; decide)
      (by rw [hkeep 0 f0 (by decide)]; exact l0), ← unit_eq_getD, hkeep 0 f0 (by decide)]
  have hu2 : U.getD 2 default = bl.unit 2 := by
    rw [hUe, arranged_frame hok htrie har 2 (by rw [hnum]; decide)
      (by rw [hkeep 2 f2 (by decide)]; exact l2), ← unit_eq_getD, hkeep 2 f2 (by decide)]
  have w1 : walk U [97] = 2 := by
    have := walk_snoc U [] 97
    rw [List.nil_append] at this
    rw [this]
    unfold base_of
    rw [walk_nil, hu0, o0]
    decide
  have w2 : walk U [97, 0] = 3 := by
    have := walk_snoc U [97] 0
    rw [show [97] ++ [0] = [97, 0] from rfl] at this
    rw [this]
    unfold base_of
    rw [w1, hu2, o2]
    decide
  obtain ⟨hn1, hn2⟩ := isNode_a_zero
  rw [← hke] at hn1 hn2
  have hleaf := (hd.leaf [97, 0] hn1 hn2).1
  rw [w2] at hleaf
  subst hda2
  refine ⟨_, hda, ?_, ?_, hleaf⟩
  · show (U.getD 0 default).offset = 99
    rw [hu0]; exact o0
  · show (U.getD 2 default).offset = 1
    rw [hu2]; exact o2

end Darts

namespace Darts

/-- The last byte of a non-empty prefix of a list, read in the list. -/
theorem getLastD_of_pre {p l : List Nat} (h : p <+: l) (hne : p ≠ []) :
    (l.drop (p.length - 1)).getD 0 0 = p.getLastD 0 ∧ 0 < (l.drop (p.length - 1)).length := by
  obtain ⟨t, rfl⟩ := h
  rcases List.eq_nil_or_concat p with h0 | ⟨q, c, rfl⟩
  · exact absurd h0 hne
  · rw [List.concat_eq_append]
    have e : (q ++ [c]).length - 1 = q.length := by
      rw [List.length_append]; rfl
    rw [e, List.append_assoc, List.drop_left]
    constructor
    · simp
    · simp

/-- The units of the array built from a non-empty key set that are reached by
a byte that leads to no child. -/
theorem other_units {K : List DoubleArrayKey} {U : List DoubleArrayUnit} {n : Nat}
    (hd : DictOK K U n) (q : List Nat) (hq : IsNode K q) (hint : Internal K q) (c : Nat)
    (hc : c < 256) (hno : ¬ IsNode K (q ++ [c])) :
    ((U.getD (base_of U q ^^^ c) default).is_leaf = false ∧
      (U.getD (base_of U q ^^^ c) default).label ≠ c) ∨
    ((U.getD (base_of U q ^^^ c) default).is_leaf = true ∧
      DoubleArrayBuilder.get_byte U (4 * n + (U.getD (base_of U q ^^^ c) default).link 3) ≠ c) := by
  rcases hd.other q hq hint c hc hno with h | ⟨p, hp, hpl, hw, hlast⟩
  · exact Or.inl h
  · right
    obtain ⟨hleaf, i, hpre, htail⟩ := hd.leaf p hp hpl
    rw [hw] at hleaf htail
    refine ⟨hleaf, ?_⟩
    have hpne : p ≠ [] := fun h0 => hpl (h0 ▸ Or.inl rfl)
    obtain ⟨h1, h2⟩ := getLastD_of_pre hpre.2 hpne
    have := htail.suffix 0 h2
    rw [Nat.add_zero] at this
    rw [this, h1]
    exact hlast

/-- C28 (counterexample): in the array built from the keys `"a"` and `"ab"`
the root has the offset 99, so its base is 99; the byte 96 leads to no child of
the root, whose only child is that of the byte 97, and the unit at
`99 xor 96 = 3` is a leaf unit: the leaf of the key `"a"` under the node of
`"a"`, whose unit 2 has the offset 1.  In the array built from the empty key set
the root has the offset 1, so its base is 1, and the unit at `1 xor 97`, which
was assigned to no node, is a non-leaf unit with the label 97. -/
theorem unassigned_units_counterexample :
    (∃ da, DoubleArrayBase.build 3 [[97], [97, 98]].length (some [[97], [97, 98]]) none none
        = .ok da ∧
      (da.units.getD 0 default).offset = 99 ∧
      (da.units.getD ((0 ^^^ 99) ^^^ 97) default).offset = 1 ∧
      (da.units.getD ((0 ^^^ 99) ^^^ 96) default).is_leaf = true) ∧
    (∃ da, DoubleArrayBase.build 3 0 none none none = .ok da ∧
      (da.units.getD 0 default).offset = 1 ∧
      (da.units.getD ((0 ^^^ 1) ^^^ 97) default).is_leaf = false ∧
      (da.units.getD ((0 ^^^ 1) ^^^ 97) default).label = 97) := by
  constructor
  · obtain ⟨da, hda, h0, h2, h3⟩ := build_a_ab
    have e2 : (0 ^^^ 99) ^^^ 97 = 2 := by decide
    have e3 : (0 ^^^ 99) ^^^ 96 = 3 := by decide
    rw [e2, e3]
    exact ⟨da, hda, h0, h2, h3⟩
  · obtain ⟨U, hU, he⟩ := build_zero_ok none none none
    refine ⟨_, hU, he.zero.1, ?_⟩
    show (U.getD ((0 ^^^ 1) ^^^ 97) default).is_leaf = false ∧
      (U.getD ((0 ^^^ 1) ^^^ 97) default).label = 97
    have e : (0 ^^^ 1) ^^^ 97 = 96 := by decide
    rw [e, he.rest 96 (by decide) (by decide)]
    have e2 : 96 ^^^ 1 = 97 := by decide
    rw [e2]
    exact ⟨(DoubleArrayUnit.is_leaf_set_label _ 97 DoubleArrayUnit.wf_default
      (by decide)).trans rfl,
      DoubleArrayUnit.label_set_label _ 97 DoubleArrayUnit.wf_default (by decide)⟩

/-- C28 (amended): after a successful build from a non-empty key set, for every
node with children `q` (the root, which is such a node, included) with base
`B = q XOR offset(q)` and every byte `c` that leads to no child of `q`, the unit
at index `B XOR c` is either a non-leaf unit whose label differs from `c`, or a
leaf unit whose string in the tail starts with a byte that differs from
`c`. -/
theorem unassigned_units (keys : List (List Nat)) (lengths : Option (List Nat))
    (values : Option (List Int)) (hv : ∀ k ∈ keys, ValidKey k)
    (hL : ∀ ls, lengths = some ls → ∀ i, i < keys.length → ls.getD i 0 = (keys.getD i []).length)
    (hne : keys ≠ []) (da : DoubleArrayBase)
    (h : DoubleArrayBase.build 3 keys.length (some keys) lengths values = .ok da) :
    ∃ ks, DoubleArrayBase.collect_keys lengths values keys 0 [] = .ok ks ∧
      IsNode ks [] ∧ Internal ks [] ∧
      ∀ q, IsNode ks q → Internal ks q → ∀ c, c < 256 → ¬ IsNode ks (q ++ [c]) →
        ((da.units.getD (base_of da.units q ^^^ c) default).is_leaf = false ∧
          (da.units.getD (base_of da.units q ^^^ c) default).label ≠ c) ∨
        ((da.units.getD (base_of da.units q ^^^ c) default).is_leaf = true ∧
          DoubleArrayBuilder.get_byte da.units (4 * (da.units.getD 1 default).offset +
            (da.units.getD (base_of da.units q ^^^ c) default).link 3) ≠ c) := by
  obtain ⟨ks, U, hks, hc, hok, hU, hda⟩ := build_ok_inv keys lengths values hv hL h
  subst hda
  have hd := (builder_sound hok hU).1
  have hpos : 0 < keys.length := List.length_pos.2 hne
  obtain ⟨e, he, _⟩ := hc.complete 0 hpos
  have hks0 : 0 < ks.length := List.length_pos.2 (List.ne_nil_of_mem he)
  refine ⟨ks, hks, ⟨⟨0, hks0, List.nil_prefix⟩, Or.inl rfl⟩, Or.inl rfl, ?_⟩
  intro q hq hint c hc2 hno
  exact other_units hd q hq hint c hc2 hno

theorem unassigned_units_witness :
    ∃ da ks, DoubleArrayBase.build 3 [[97]].length (some [[97]]) none none = .ok da ∧
      DoubleArrayBase.collect_keys none none [[97]] 0 [] = .ok ks ∧ IsNode ks [] := by
  obtain ⟨da, hda⟩ := build_ok_total [[97]] none none (by decide) (fun ls h => by cases h)
    _ collect_keys_a (by decide)
  obtain ⟨ks, h1, h2, _⟩ := unassigned_units [[97]] none none (by decide)
    (fun ls h => by cases h) (by decide) da hda
  exact ⟨da, ks, hda, h1, h2⟩

end Darts

namespace Darts

theorem zterm_cons {c : Nat} {rest : List Nat} (h : ZTerm (c :: rest)) :
    (c = 0 ∧ rest = []) ∨ (c ≠ 0 ∧ ZTerm rest) := by
  obtain ⟨a, ha, hz⟩ := h
  cases a with
  | nil =>
    left
    simp only [List.nil_append, List.cons.injEq] at ha
    exact ha
  | cons x a2 =>
    right
    simp only [List.cons_append, List.cons.injEq] at ha
    refine ⟨?_, a2, ha.2, fun y hy => hz y (List.mem_cons_of_mem _ hy)⟩
    rw [ha.1]
    exact hz x (List.mem_cons_self _ _)

theorem zterm_ne_nil {s : List Nat} (h : ZTerm s) : s ≠ [] := by
  obtain ⟨a, ha, _⟩ := h
  rw [ha]
  simp

theorem toInt32_ofInt32 (v : Int) (h : Int32 v) : toInt32 (ofInt32 v) = v := by
  unfold toInt32 ofInt32
  obtain ⟨h1, h2⟩ := h
  have e : ((v % 2 ^ 32).toNat : Int) = v % 2 ^ 32 :=
    Int.toNat_of_nonneg (Int.emod_nonneg _ (by decide))
  have hm : (v % 2 ^ 32).toNat % 2 ^ 32 = (v % 2 ^ 32).toNat := by
    apply Nat.mod_eq_of_lt
    have : v % 2 ^ 32 < 2 ^ 32 := Int.emod_lt_of_pos _ (by decide)
    omega
  rw [hm, e]
  split
  · rename_i hlt
    omega
  · rename_i hlt
    omega

theorem value_bytes_sum (v : Int) :
    (DoubleArrayBuilder.value_bytes v).getD 0 0 + 256 * (DoubleArrayBuilder.value_bytes v).getD 1 0
      + 65536 * (DoubleArrayBuilder.value_bytes v).getD 2 0
      + 16777216 * (DoubleArrayBuilder.value_bytes v).getD 3 0 = ofInt32 v := by
  have hlt : ofInt32 v < 2 ^ 32 := by
    unfold ofInt32
    have : v % 2 ^ 32 < 2 ^ 32 := Int.emod_lt_of_pos _ (by decide)
    have : 0 ≤ v % 2 ^ 32 := Int.emod_nonneg _ (by decide)
    omega
  show ofInt32 v % 256 + 256 * (ofInt32 v / 256 % 256) + 65536 * (ofInt32 v / 65536 % 256)
    + 16777216 * (ofInt32 v / 16777216 % 256) = ofInt32 v
  generalize ofInt32 v = m at hlt
  omega

namespace DoubleArrayBase

theorem unit?_eq (da : DoubleArrayBase) (i : Nat) (h : i < da.units.length) :
    da.unit? i = some (da.units.getD i default) := by
  unfold unit?
  rw [List.getD_eq_getElem _ _ h, List.getElem?_eq_getElem h]

theorem tail?_eq (da : DoubleArrayBase) (i : Nat) (h : da.tail + i < 4 * da.units.length) :
    da.tail? i = some (DoubleArrayBuilder.get_byte da.units (da.tail + i)) := by
  unfold tail?
  rw [if_pos (by omega)]

theorem get_value_eq (da : DoubleArrayBase) (t : Nat) (v : Int) (hv : Int32 v)
    (hb : da.tail + t + 4 ≤ 4 * da.units.length)
    (h : ∀ j, j < 4 → DoubleArrayBuilder.get_byte da.units (da.tail + t + j)
      = (DoubleArrayBuilder.value_bytes v).getD j 0) :
    da.get_value t = some v := by
  unfold get_value
  rw [tail?_eq da t (by omega), tail?_eq da (t + 1) (by omega), tail?_eq da (t + 2) (by omega),
    tail?_eq da (t + 3) (by omega)]
  have h0 := h 0 (by decide)
  have h1 := h 1 (by decide)
  have h2 := h 2 (by decide)
  have h3 := h 3 (by decide)
  rw [Nat.add_zero] at h0
  rw [← Nat.add_assoc, ← Nat.add_assoc, ← Nat.add_assoc, h0, h1, h2, h3]
  show some (toInt32 _) = some v
  rw [value_bytes_sum, toInt32_ofInt32 v hv]

theorem exact_match_tail_cons (da : DoubleArrayBase) (agent : DoubleArrayUnit)
    (result : result_pair_type) (c : Nat) (rest : List Nat) (t pos byte : Nat)
    (h : da.tail? t = some byte) :
    exact_match_tail 3 da agent result (c :: rest) t pos =
      if byte = c then
        if byte = 0 then
          (da.get_value (t + (4 * agent.value_id 3 + 1))).bind
            (fun value => some (true, { value := value, length := pos }))
        else exact_match_tail 3 da agent result rest (t + 1) (pos + 1)
      else some (false, result) := by
  rw [exact_match_tail]
  simp only [h, Option.bind_eq_bind, Option.some_bind, Option.pure_def]

/-- The comparison of the rest of the query with the suffix `s` in the tail. -/
theorem exact_match_tail_spec (da : DoubleArrayBase) (agent : DoubleArrayUnit)
    (result : result_pair_type) (v : Int) :
    ∀ (r s : List Nat) (t pos : Nat), ZTerm r → ZTerm s →
      (∀ j, j < s.length → da.tail? (t + j) = some (s.getD j 0)) →
      da.get_value (t + s.length + 4 * agent.value_id 3) = some v →
      exact_match_tail 3 da agent result r t pos =
        some (if s = r then (true, { value := v, length := pos + r.length - 1 })
          else (false, result)) := by
  intro r
  induction r with
  | nil => intro s t pos hr; exact absurd rfl (zterm_ne_nil hr)
  | cons c rest ih =>
    intro s t pos hr hs hbytes hval
    cases s with
    | nil => exact absurd rfl (zterm_ne_nil hs)
    | cons a s2 =>
      have hb0 := hbytes 0 (by simp)
      rw [Nat.add_zero, List.getD_cons_zero] at hb0
      rw [exact_match_tail_cons da agent result c rest t pos a hb0]
      by_cases hac : a = c
      · subst hac
        rw [if_pos rfl]
        rcases zterm_cons hs with ⟨ha0, hs2⟩ | ⟨ha0, hs2⟩
        · rcases zterm_cons hr with ⟨_, hr2⟩ | ⟨hc0, _⟩
          · subst hs2
            subst hr2
            rw [if_pos ha0]
            have e : t + (4 * agent.value_id 3 + 1) = t + [a].length + 4 * agent.value_id 3 := by
              simp only [List.length_singleton]; omega
            rw [e, hval]
            simp
          · exact absurd ha0 hc0
        · rcases zterm_cons hr with ⟨hc0, _⟩ | ⟨_, hr2⟩
          · exact absurd hc0 ha0
          · rw [if_neg ha0]
            rw [ih s2 (t + 1) (pos + 1) hr2 hs2 (fun j hj => by
              have := hbytes (j + 1) (by simpa using hj)
              rw [List.getD_cons_succ] at this
              rw [← this]
              congr 1
              omega) (by
              rw [← hval]
              congr 1
              simp only [List.length_cons]
              omega)]
            have hlen : 0 < rest.length := List.length_pos.2 (zterm_ne_nil hr2)
            by_cases he : s2 = rest
            · rw [if_pos he, if_pos (by rw [he])]
              simp only [List.length_cons]
              congr 3
              omega
            · rw [if_neg he, if_neg (fun h => he (List.cons.inj h).2)]
      · rw [if_neg hac, if_neg (fun h => hac (List.cons.inj h).1)]

theorem exact_match_units_cons (da : DoubleArrayBase) (c : Nat) (rest : List Nat)
    (index pos : Nat) (u0 u : DoubleArrayUnit) (h0 : da.unit? index = some u0)
    (h1 : da.unit? (index ^^^ (u0.offset ^^^ c)) = some u) :
    exact_match_units da (c :: rest) index pos =
      if u.is_leaf then some (some (u, c :: rest, pos))
      else if u.label ≠ c then some none
      else exact_match_units da rest (index ^^^ (u0.offset ^^^ c)) (pos + 1) := by
  rw [exact_match_units]
  simp only [h0, h1, Option.bind_eq_bind, Option.some_bind, Option.pure_def]

end DoubleArrayBase

theorem exact_from_continue (da : DoubleArrayBase) (res : result_pair_type) (c : Nat)
    (rest : List Nat) (index pos : Nat) (u0 u : DoubleArrayUnit) (h0 : da.unit? index = some u0)
    (h1 : da.unit? (index ^^^ (u0.offset ^^^ c)) = some u) (hl : u.is_leaf = false)
    (hc : u.label = c) :
    exact_match_from da res (c :: rest) index pos
      = exact_match_from da res rest (index ^^^ (u0.offset ^^^ c)) (pos + 1) := by
  unfold exact_match_from
  rw [DoubleArrayBase.exact_match_units_cons da c rest index pos u0 u h0 h1, hl]
  simp only [Bool.false_eq_true, if_false, hc, ne_eq, not_true_eq_false]

theorem exact_from_leaf (da : DoubleArrayBase) (res : result_pair_type) (c : Nat)
    (rest : List Nat) (index pos : Nat) (u0 u : DoubleArrayUnit) (h0 : da.unit? index = some u0)
    (h1 : da.unit? (index ^^^ (u0.offset ^^^ c)) = some u) (hl : u.is_leaf = true) :
    exact_match_from da res (c :: rest) index pos
      = DoubleArrayBase.exact_match_tail 3 da u res (c :: rest) (u.link 3) pos := by
  unfold exact_match_from
  rw [DoubleArrayBase.exact_match_units_cons da c rest index pos u0 u h0 h1, hl]
  simp only [if_true]

theorem exact_from_mismatch (da : DoubleArrayBase) (res : result_pair_type) (c : Nat)
    (rest : List Nat) (index pos : Nat) (u0 u : DoubleArrayUnit) (h0 : da.unit? index = some u0)
    (h1 : da.unit? (index ^^^ (u0.offset ^^^ c)) = some u) (hl : u.is_leaf = false)
    (hc : u.label ≠ c) :
    exact_match_from da res (c :: rest) index pos = some (false, res) := by
  unfold exact_match_from
  rw [DoubleArrayBase.exact_match_units_cons da c rest index pos u0 u h0 h1, hl]
  simp only [Bool.false_eq_true, if_false, hc, ne_eq, not_false_eq_true, if_true]

section dict

variable {K : List DoubleArrayKey} (hK : KeysOK K) {n : Nat} {da : DoubleArrayBase}
  (hd : DictOK K da.units n) (ht : da.tail = 4 * n)
  (hval : ∀ k ∈ K, Int32 k.value)
include hK hd ht hval

/-- What the search reads at a leaf of the trie: the rest of the key of the leaf
and then its value. -/
theorem leaf_reads {q : List Nat} (hq : IsNode K q) (hqi : ¬ Internal K q) :
    (da.units.getD (walk da.units q) default).is_leaf = true ∧
    ∃ i, Pre K q i ∧ ZTerm ((ext_at K i).drop (q.length - 1)) ∧
      ((ext_at K i).drop (q.length - 1)).getD 0 0 = q.getLastD 0 ∧
      (∀ j, j < ((ext_at K i).drop (q.length - 1)).length →
        da.tail? ((da.units.getD (walk da.units q) default).link 3 + j)
          = some (((ext_at K i).drop (q.length - 1)).getD j 0)) ∧
      da.get_value ((da.units.getD (walk da.units q) default).link 3
        + ((ext_at K i).drop (q.length - 1)).length
        + 4 * (da.units.getD (walk da.units q) default).value_id 3)
        = some (K.getD i default).value := by
  obtain ⟨hl, i, hp, htl⟩ := hd.leaf q hq hqi
  have hi := hp.1
  have hq0 : q ≠ [] := fun h => hqi (Or.inl h)
  have hqlen : 0 < q.length := List.length_pos.2 hq0
  have hle : q.length ≤ (ext_at K i).length := hp.2.length_le
  have hw := (hK.wf _ (getD_mem' hi)).1
  have hbl := DoubleArrayKey.bytes_length _ hw
  have hext : ext_at K i = (K.getD i default).bytes ++ [0] := rfl
  have hlen := ext_length hK hi
  refine ⟨hl, i, hp, ?_, ?_, ?_, ?_⟩
  · refine ⟨(K.getD i default).bytes.drop (q.length - 1), ?_, ?_⟩
    · rw [hext, List.drop_append_of_le_length (by omega)]
    · intro c hc
      exact hw.nonzero c (List.mem_of_mem_drop hc)
  · exact (getLastD_of_pre hp.2 hq0).1
  · intro j hj
    have hb := htl.bound
    rw [DoubleArrayBase.tail?_eq da _ (by rw [ht]; omega), ht, ← Nat.add_assoc]
    rw [htl.suffix j hj]
  · apply DoubleArrayBase.get_value_eq da _ _ (hval _ (getD_mem' hi))
    · have hb := htl.bound
      rw [ht]; omega
    · intro j hj
      rw [ht, ← Nat.add_assoc, ← Nat.add_assoc]
      exact htl.value j hj

omit hK ht hval in
/-- The units that the search reads at a node with children and a byte. -/
theorem node_reads {p : List Nat} (hp : IsNode K p) (hpi : Internal K p) (c : Nat)
    (hc : c < 256) :
    da.unit? (walk da.units p) = some (da.units.getD (walk da.units p) default) ∧
    walk da.units p ^^^ ((da.units.getD (walk da.units p) default).offset ^^^ c)
      = walk da.units (p ++ [c]) ∧
    da.unit? (walk da.units (p ++ [c]))
      = some (da.units.getD (walk da.units (p ++ [c])) default) := by
  have h1 := (hd.node p hp).1
  have hn := hd.num
  obtain ⟨_, _, _, hb⟩ := hd.internal p hp hpi
  have hw : walk da.units (p ++ [c]) < n := by
    rw [walk_snoc]
    obtain ⟨m, hm⟩ : ∃ m, n = 256 * m := ⟨n / 256, by omega⟩
    rw [hm] at hb ⊢
    exact xor_byte_lt _ c m hc hb
  refine ⟨DoubleArrayBase.unit?_eq da _ (by omega), ?_, DoubleArrayBase.unit?_eq da _ (by omega)⟩
  rw [walk_snoc, ← Nat.xor_assoc]
  rfl

omit hd ht hval in
/-- No node under the terminator of a key has children. -/
theorem not_internal_zero (p : List Nat) : ¬ Internal K (p ++ [0]) := by
  intro hint
  rcases hint with h | ⟨i, j, hij, hi, hj⟩
  · simp at h
  · have hlt := internal_length_lt hK (Or.inr ⟨i, j, hij, hi, hj⟩) hi
    obtain ⟨t, ht2⟩ := hi.2
    have hw := (hK.wf _ (getD_mem' hi.1)).1
    have hext : ext_at K i = (K.getD i default).bytes ++ [0] := rfl
    have hbl : p.length < (K.getD i default).bytes.length := by
      have := congrArg List.length ht2
      rw [hext] at hlt
      simp only [List.length_append, List.length_singleton] at hlt
      omega
    have h0 : (ext_at K i).getD p.length 0 = 0 := by
      rw [← ht2, List.append_assoc, List.getD_eq_getElem?_getD,
        List.getElem?_append_right (Nat.le_refl _), Nat.sub_self]
      simp
    rw [hext, List.getD_eq_getElem?_getD, List.getElem?_append_left hbl,
      List.getElem?_eq_getElem hbl] at h0
    exact hw.nonzero _ (List.getElem_mem hbl) h0

omit hK hd ht hval in
theorem isNode_snoc {p : List Nat} (hpi : Internal K p) {c i : Nat} (h : Pre K (p ++ [c]) i) :
    IsNode K (p ++ [c]) :=
  ⟨⟨i, h⟩, by rw [List.dropLast_concat]; exact hpi⟩

/-- The loop of `exact_match_search` from a node with children `p`, for the
rest `r` of the query: the search finds the key `p ++ r`, or it fails when that
is no key. -/
theorem exact_from_spec (res : result_pair_type) :
    ∀ (r p : List Nat) (pos : Nat), ZTerm r → (∀ c ∈ r, c < 256) → IsNode K p → Internal K p →
      (∀ i, i < K.length → ext_at K i = p ++ r →
        exact_match_from da res r (walk da.units p) pos
          = some (true, ⟨(K.getD i default).value, pos + r.length - 1⟩)) ∧
      ((∀ i, i < K.length → ext_at K i ≠ p ++ r) →
        exact_match_from da res r (walk da.units p) pos = some (false, res)) := by
  intro r
  induction r with
  | nil => intro p pos hr; exact absurd rfl (zterm_ne_nil hr)
  | cons c rest ih =>
    intro p pos hr hbytes hp hpi
    have hc : c < 256 := hbytes c (List.mem_cons_self _ _)
    obtain ⟨h0, hidx, h1⟩ := node_reads hd hp hpi c hc
    have happ : ∀ (t : List Nat), p ++ [c] ++ t = p ++ c :: t := by
      intro t; rw [List.append_assoc]; rfl
    have h1b : da.unit? (walk da.units p
        ^^^ ((da.units.getD (walk da.units p) default).offset ^^^ c))
        = some (da.units.getD (walk da.units (p ++ [c])) default) := by
      rw [hidx]; exact h1
    -- the comparison with the tail at a leaf unit `q`
    have hleafcase : ∀ q, IsNode K q → ¬ Internal K q →
        walk da.units q = walk da.units (p ++ [c]) →
        (q = p ++ [c] ∨ (q.getLastD 0 ≠ c ∧ ∀ i, ¬ Pre K (p ++ [c]) i)) →
        (∀ i, i < K.length → ext_at K i = p ++ c :: rest →
          exact_match_from da res (c :: rest) (walk da.units p) pos
            = some (true, ⟨(K.getD i default).value, pos + (c :: rest).length - 1⟩)) ∧
        ((∀ i, i < K.length → ext_at K i ≠ p ++ c :: rest) →
          exact_match_from da res (c :: rest) (walk da.units p) pos = some (false, res)) := by
      intro q hq hqi hw hcase
      obtain ⟨hl, i, hpre, hz, hfirst, htail, hvalue⟩ := leaf_reads hK hd ht hval hq hqi
      rw [hw] at hl htail hvalue
      have hstep := exact_from_leaf da res c rest (walk da.units p) pos _ _ h0 h1b hl
      have hspec := DoubleArrayBase.exact_match_tail_spec da
        (da.units.getD (walk da.units (p ++ [c])) default) res (K.getD i default).value
        (c :: rest) ((ext_at K i).drop (q.length - 1))
        ((da.units.getD (walk da.units (p ++ [c])) default).link 3) pos hr hz htail hvalue
      rw [hstep, hspec]
      rcases hcase with hqe | ⟨hlast, hnone⟩
      · subst hqe
        have hlen1 : (p ++ [c]).length - 1 = p.length := by
          rw [List.length_append]; rfl
        obtain ⟨t, ht2⟩ := hpre.2
        have hdrop : (ext_at K i).drop ((p ++ [c]).length - 1) = c :: t := by
          rw [hlen1, ← ht2, List.append_assoc, List.drop_left]
          rfl
        rw [hdrop]
        constructor
        · intro j hj hext
          have hjp : Pre K (p ++ [c]) j := ⟨hj, by rw [hext]; exact ⟨rest, happ rest⟩⟩
          have hij := leaf_key_unique hqi hpre hjp
          subst hij
          have : c :: t = c :: rest := by
            have e := ht2
            rw [hext, happ] at e
            exact List.append_cancel_left e
          rw [if_pos this]
        · intro hno
          have : c :: t ≠ c :: rest := by
            intro e
            injection e with _ e
            apply hno i hpre.1
            rw [← ht2, e, happ]
          rw [if_neg this]
      · have hne : (ext_at K i).drop (q.length - 1) ≠ c :: rest := by
          intro e
          rw [e] at hfirst
          exact hlast hfirst.symm
        constructor
        · intro j hj hext
          exact absurd ⟨hj, by rw [hext]; exact ⟨rest, happ rest⟩⟩ (hnone j)
        · intro _
          rw [if_neg hne]
    by_cases hnode : IsNode K (p ++ [c])
    · by_cases hint : Internal K (p ++ [c])
      · -- the search goes on
        obtain ⟨hl, hlab, _, _⟩ := hd.internal _ hnode hint
        rw [List.getLastD_concat] at hlab
        have hc0 : c ≠ 0 := by
          intro h
          rw [h] at hint
          exact not_internal_zero hK p hint
        have hrest : ZTerm rest := by
          rcases zterm_cons hr with ⟨h, _⟩ | ⟨_, h⟩
          · exact absurd h hc0
          · exact h
        have hstep := exact_from_continue da res c rest (walk da.units p) pos _ _ h0 h1b hl hlab
        rw [hidx] at hstep
        obtain ⟨i1, i2⟩ := ih (p ++ [c]) (pos + 1) hrest
          (fun x hx => hbytes x (List.mem_cons_of_mem _ hx)) hnode hint
        have hlen : 0 < rest.length := List.length_pos.2 (zterm_ne_nil hrest)
        constructor
        · intro i hi hext
          rw [hstep, i1 i hi (by rw [hext, happ])]
          simp only [List.length_cons]
          congr 3
          omega
        · intro hno
          rw [hstep]
          exact i2 (fun i hi => by rw [happ]; exact hno i hi)
      · exact hleafcase (p ++ [c]) hnode hint rfl (Or.inl rfl)
    · have hnone : ∀ i, ¬ Pre K (p ++ [c]) i := fun i hi => hnode (isNode_snoc hpi hi)
      rcases hd.other p hp hpi c hc hnode with ⟨hl, hlab⟩ | ⟨q, hq, hqi, hw, hlast⟩
      · have hstep := exact_from_mismatch da res c rest (walk da.units p) pos _ _ h0 h1b
          (by rw [walk_snoc]; exact hl) (by rw [walk_snoc]; exact hlab)
        constructor
        · intro j hj hext
          exact absurd ⟨hj, by rw [hext]; exact ⟨rest, happ rest⟩⟩ (hnone j)
        · intro _
          exact hstep
      · exact hleafcase q hq hqi (by rw [hw, walk_snoc]) (Or.inr ⟨hlast, hnone⟩)

end dict

end Darts

namespace Darts

theorem int32_toInt32 (m : Nat) : Int32 (toInt32 m) := by
  unfold Int32 toInt32
  have := Nat.mod_lt m (show 0 < 2 ^ 32 by decide)
  split <;> omega

theorem int32_make_value (values : Option (List Int))
    (hvals : ∀ vs, values = some vs → ∀ v ∈ vs, Int32 v) (i : Nat) :
    Int32 (DoubleArrayBase.make_value values i) := by
  unfold DoubleArrayBase.make_value
  cases values with
  | none => exact int32_toInt32 i
  | some vs =>
    show Int32 (vs.getD i 0)
    by_cases hi : i < vs.length
    · rw [List.getD_eq_getElem _ _ hi]
      exact hvals vs rfl _ (List.getElem_mem hi)
    · rw [List.getD_eq_default _ _ (by omega)]
      exact ⟨by decide, by decide⟩

theorem zterm_of_valid (q : List Nat) (h : ValidKey q) : ZTerm (q ++ [0]) :=
  ⟨q, rfl, fun c hc => Nat.ne_of_gt (h c hc).1⟩

namespace DoubleArrayBase

/-- Method `exactMatchSearch` for a zero-terminated key, from the root. -/
theorem exactMatchSearch_eq (da : DoubleArrayBase) (key : List Nat) (res : result_pair_type) :
    exactMatchSearch 3 da key res 0 0
      = exact_match_from da { res with value := -1 } (key ++ [0]) 0 0 := by
  unfold exactMatchSearch exact_match_search exact_match_from query_bytes
  have e1 : (⟨0 % 2 ^ 32⟩ : DoubleArrayUnit).is_leaf = false := by decide
  have e2 : (⟨0 % 2 ^ 32⟩ : DoubleArrayUnit).index = 0 := by decide
  rw [e1, e2, if_pos rfl]
  rfl

end DoubleArrayBase

/-- The units of the array built from the empty key set. -/
theorem emptyDict_unit {U : List DoubleArrayUnit} (h : EmptyDict U) (j : Nat) (hj : j < 256) :
    (U.getD j default).is_leaf = false ∧
      (U.getD j default).label = (if j < 2 then j else j ^^^ 1) ∧
      (2 ≤ j → (U.getD j default).offset = 0) := by
  by_cases h0 : j = 0
  · subst h0
    exact ⟨h.zero.2.2.1, h.zero.2.1, fun h2 => absurd h2 (by decide)⟩
  · by_cases h1 : j = 1
    · subst h1
      exact ⟨h.one.2.1, h.one.1, fun h2 => absurd h2 (by decide)⟩
    · have h2 : 2 ≤ j := by omega
      have hx : j ^^^ 1 < 256 := xor_one_lt j hj
      rw [h.rest j h2 hj, if_neg (by omega)]
      refine ⟨(default_set_label _ hx).2.1, (default_set_label _ hx).1, fun _ => ?_⟩
      rw [DoubleArrayUnit.offset_set_label _ _ DoubleArrayUnit.wf_default hx]
      rfl

theorem xor_eq_right_zero {a b : Nat} (h : a ^^^ b = b) : a = 0 := by
  have := congrArg (fun x => x ^^^ b) h
  simp only [xor_xor_cancel_right, Nat.xor_self] at this
  exact this

/-- In the dictionary of the empty key set no query is found. -/
theorem exact_empty (da : DoubleArrayBase) (h : EmptyDict da.units) (res : result_pair_type)
    (q : List Nat) (hq : ValidKey q) :
    exact_match_from da res (q ++ [0]) 0 0 = some (false, res) := by
  have hlen := h.length
  have hu : ∀ j, j < 256 → da.unit? j = some (da.units.getD j default) :=
    fun j hj => DoubleArrayBase.unit?_eq da j (by rw [hlen]; exact hj)
  have hoff0 : (da.units.getD 0 default).offset = 1 := h.zero.1
  -- the first step
  have hfirst : ∀ c rest, c < 256 → (c < 2 ∨ ∀ c2 rest2, rest = c2 :: rest2 → c2 < 256) →
      rest ≠ [] ∨ c < 2 →
      exact_match_from da res (c :: rest) 0 0 = some (false, res) := by
    intro c rest hc hrest hne
    have hj1 : 0 ^^^ (1 ^^^ c) < 256 := xor_lt_256 _ _ (by decide) (xor_lt_256 _ _ (by decide) hc)
    have hz : 0 ^^^ (1 ^^^ c) = 1 ^^^ c := Nat.zero_xor _
    obtain ⟨l1, lab1, off1⟩ := emptyDict_unit h _ hj1
    have h1 : da.unit? (0 ^^^ ((da.units.getD 0 default).offset ^^^ c))
        = some (da.units.getD (0 ^^^ (1 ^^^ c)) default) := by
      rw [hoff0]; exact hu _ hj1
    by_cases hc2 : c < 2
    · apply exact_from_mismatch da res c rest 0 0 _ _ (hu 0 (by decide)) h1 l1
      rw [lab1]
      have : c = 0 ∨ c = 1 := by omega
      rcases this with rfl | rfl <;> decide
    · have hge : 2 ≤ 0 ^^^ (1 ^^^ c) := by
        rw [hz]
        by_contra hlt
        have : 1 ^^^ c = 0 ∨ 1 ^^^ c = 1 := by omega
        rcases this with e | e
        · have := congrArg (fun x => 1 ^^^ x) e
          simp only [xor_xor_cancel_left] at this
          have e2 : (1 : Nat) ^^^ 0 = 1 := by decide
          rw [e2] at this
          omega
        · have := congrArg (fun x => 1 ^^^ x) e
          simp only [xor_xor_cancel_left] at this
          have e2 : (1 : Nat) ^^^ 1 = 0 := by decide
          rw [e2] at this
          omega
      have hlabc : (da.units.getD (0 ^^^ (1 ^^^ c)) default).label = c := by
        rw [lab1, if_neg (by omega), hz, Nat.xor_comm 1 c, xor_xor_cancel_right]
      rcases hne with hne | hne
      · obtain ⟨c2, rest2, hr2⟩ := List.exists_cons_of_ne_nil hne
        have hc2lt : c2 < 256 := by
          rcases hrest with hh | hh
          · exact absurd hh hc2
          · exact hh c2 rest2 hr2
        rw [hr2, exact_from_continue da res c (c2 :: rest2) 0 0 _ _ (hu 0 (by decide)) h1 l1 hlabc,
          hoff0]
        have hoffj : (da.units.getD (0 ^^^ (1 ^^^ c)) default).offset = 0 := off1 hge
        have hj2 : (0 ^^^ (1 ^^^ c)) ^^^ (0 ^^^ c2) < 256 :=
          xor_lt_256 _ _ hj1 (xor_lt_256 _ _ (by decide) hc2lt)
        obtain ⟨l2, lab2, _⟩ := emptyDict_unit h _ hj2
        have h2 : da.unit? ((0 ^^^ (1 ^^^ c))
            ^^^ ((da.units.getD (0 ^^^ (1 ^^^ c)) default).offset ^^^ c2))
            = some (da.units.getD ((0 ^^^ (1 ^^^ c)) ^^^ (0 ^^^ c2)) default) := by
          rw [hoffj]; exact hu _ hj2
        apply exact_from_mismatch da res c2 rest2 _ _ _ _ (hu _ hj1) h2 l2
        rw [lab2, Nat.zero_xor c2]
        split
        · intro e
          have := xor_eq_right_zero e
          omega
        · intro e
          rw [Nat.xor_assoc, Nat.xor_comm c2 1, ← Nat.xor_assoc] at e
          have := xor_eq_right_zero e
          have e3 : 0 ^^^ (1 ^^^ c) = 1 := by
            have := congrArg (fun x => x ^^^ 1) this
            simp only [xor_xor_cancel_right] at this
            rw [this]; decide
          omega
      · exact absurd hne hc2
  cases q with
  | nil =>
    exact hfirst 0 [] (by decide) (Or.inl (by decide)) (Or.inr (by decide))
  | cons c q2 =>
    have hc := (hq c (List.mem_cons_self _ _)).2
    rw [List.cons_append]
    apply hfirst c (q2 ++ [0]) hc
    · right
      intro c2 rest2 he
      cases q2 with
      | nil =>
        simp only [List.nil_append, List.cons.injEq] at he
        rw [← he.1]; decide
      | cons x q3 =>
        simp only [List.cons_append, List.cons.injEq] at he
        rw [← he.1]
        exact (hq x (List.mem_cons_of_mem _ (List.mem_cons_self _ _))).2
    · left
      simp

/-- The extended key of a key kept by `build`. -/
theorem ext_of_collected {inp : List (List Nat)} {values : Option (List Int)}
    {ks : List DoubleArrayKey} (hc : Collected inp values inp.length ks) {m : Nat}
    (hm : m < ks.length) : ext_at ks m = (ks.getD m default).key ++ [0] := by
  obtain ⟨_, h2, _, h4, _⟩ := hc.entry _ (getD_mem' hm)
  show (ks.getD m default).bytes ++ [0] = _
  rw [DoubleArrayKey.bytes_of_full _ h2 h4]

/-- Method `exactMatchSearch` on a dictionary that `build` returned: a query
that is a key is found with the value of the first occurrence of the key in the
input and with its length, any other query is not found. -/
theorem exact_match_build (keys : List (List Nat)) (lengths : Option (List Nat))
    (values : Option (List Int)) (hv : ∀ k ∈ keys, ValidKey k)
    (hL : ∀ ls, lengths = some ls → ∀ i, i < keys.length → ls.getD i 0 = (keys.getD i []).length)
    (hvals : ∀ vs, values = some vs → ∀ v ∈ vs, Int32 v)
    (da : DoubleArrayBase)
    (h : DoubleArrayBase.build 3 keys.length (some keys) lengths values = .ok da)
    (q : List Nat) (hq : ValidKey q) (res : result_pair_type) :
    (∀ i, i < keys.length → keys.getD i [] = q → (∀ j, j < i → keys.getD j [] ≠ q) →
      DoubleArrayBase.exactMatchSearch 3 da q res 0 0
        = some (true, ⟨DoubleArrayBase.make_value values i, q.length⟩)) ∧
    (q ∉ keys →
      DoubleArrayBase.exactMatchSearch 3 da q res 0 0 = some (false, ⟨-1, res.length⟩)) := by
  obtain ⟨ks, U, hks, hc, hok, hU, hda⟩ := build_ok_inv keys lengths values hv hL h
  subst hda
  obtain ⟨hd, hempty⟩ := builder_sound hok hU
  have ht : (DoubleArrayBase.set_vector U).tail = 4 * (U.getD 1 default).offset := rfl
  have hval : ∀ k ∈ ks, Int32 k.value := by
    intro k hk
    obtain ⟨_, _, _, _, i0, _, _, h6, _⟩ := hc.entry k hk
    rw [h6]
    exact int32_make_value values hvals i0
  have hz := zterm_of_valid q hq
  have hb : ∀ c ∈ q ++ [0], c < 256 := by
    intro c hc2
    rcases List.mem_append.1 hc2 with h1 | h1
    · exact (hq c h1).2
    · rw [List.mem_singleton.1 h1]; decide
  rw [DoubleArrayBase.exactMatchSearch_eq]
  by_cases hk0 : ks = []
  · constructor
    · intro i hi _ _
      obtain ⟨e, he, _⟩ := hc.complete i hi
      rw [hk0] at he
      cases he
    · intro _
      exact exact_empty _ (hempty hk0) _ q hq
  · have hroot : IsNode ks [] :=
      ⟨⟨0, List.length_pos.2 hk0, List.nil_prefix⟩, Or.inl rfl⟩
    have hd2 : DictOK ks (DoubleArrayBase.set_vector U).units (U.getD 1 default).offset := hd
    obtain ⟨s1, s2⟩ := exact_from_spec hok hd2 ht hval
      { res with value := -1 } (q ++ [0]) [] 0 hz hb hroot (Or.inl rfl)
    rw [walk_nil] at s1 s2
    constructor
    · intro i hi hqi hfirst
      obtain ⟨e, he, hek⟩ := hc.complete i hi
      obtain ⟨_, _, _, _, i0, hi0, h5, h6, h7⟩ := hc.entry e he
      have hii : i0 = i := by
        rcases Nat.lt_trichotomy i0 i with hlt | heq | hgt
        · exact absurd (by rw [← h5, hek, hqi]) (hfirst i0 hlt)
        · exact heq
        · exact absurd (by rw [← h5, hek]) (h7 i hgt)
      obtain ⟨m, hm, hme⟩ := List.getElem_of_mem he
      have hmd : ks.getD m default = e := by rw [List.getD_eq_getElem _ _ hm]; exact hme
      have hext : ext_at ks m = [] ++ (q ++ [0]) := by
        rw [ext_of_collected hc hm, hmd, hek, hqi]
        rfl
      rw [s1 m hm hext, hmd, h6, hii]
      simp
    · intro hnot
      apply s2
      intro m hm hext
      rw [ext_of_collected hc hm] at hext
      have hkey : (ks.getD m default).key = q := List.append_cancel_right hext
      obtain ⟨_, _, _, _, i0, hi0, h5, _⟩ := hc.entry _ (getD_mem' hm)
      apply hnot
      rw [← hkey, h5, List.getD_eq_getElem _ _ hi0]
      exact List.getElem_mem hi0

end Darts

namespace Darts

theorem query_bytes_full (key : List Nat) : DoubleArrayBase.query_bytes key key.length = key ++ [0] := by
  unfold DoubleArrayBase.query_bytes
  split
  · rfl
  · rw [List.set_append_right _ _ (Nat.le_refl _), Nat.sub_self]
    rfl

/-- Method `exactMatchSearch` for a key given with its length, from the root. -/
theorem exactMatchSearch_length (da : DoubleArrayBase) (key : List Nat)
    (res : result_pair_type) :
    DoubleArrayBase.exactMatchSearch 3 da key res key.length 0
      = DoubleArrayBase.exactMatchSearch 3 da key res 0 0 := by
  unfold DoubleArrayBase.exactMatchSearch
  rw [query_bytes_full]
  rfl

/-- In a strictly ascending list, every key is the first occurrence of its
bytes. -/
theorem first_of_ascending (keys : List (List Nat))
    (hs : keys.Pairwise (List.Lex (· < ·))) (i j : Nat) (hj : j < i) (hi : i < keys.length) :
    keys.getD j [] ≠ keys.getD i [] := by
  intro he
  have := List.pairwise_iff_getElem.1 hs j i (by omega) hi hj
  rw [List.getD_eq_getElem _ _ (by omega), List.getD_eq_getElem _ _ hi] at he
  rw [he] at this
  exact lex_irrefl _ this

/-- C1: for a strictly ascending list of keys without zero bytes, with a value
array of `int` values or with the default values, when `build` succeeds,
`exactMatchSearch` of every key, given zero-terminated or with its length,
reports success with the value of the key (the value supplied for it, or its
index as the default) and with the length of the key. -/
theorem exactMatch_key (keys : List (List Nat)) (lengths : Option (List Nat))
    (values : Option (List Int)) (hv : ∀ k ∈ keys, ValidKey k)
    (hL : ∀ ls, lengths = some ls → ∀ i, i < keys.length → ls.getD i 0 = (keys.getD i []).length)
    (hvals : ∀ vs, values = some vs → ∀ v ∈ vs, Int32 v)
    (hs : keys.Pairwise (List.Lex (· < ·)))
    (da : DoubleArrayBase)
    (h : DoubleArrayBase.build 3 keys.length (some keys) lengths values = .ok da)
    (i : Nat) (hi : i < keys.length) (res : result_pair_type) :
    DoubleArrayBase.exactMatchSearch 3 da (keys.getD i []) res 0 0
        = some (true, ⟨DoubleArrayBase.make_value values i, (keys.getD i []).length⟩) ∧
      DoubleArrayBase.exactMatchSearch 3 da (keys.getD i []) res (keys.getD i []).length 0
        = some (true, ⟨DoubleArrayBase.make_value values i, (keys.getD i []).length⟩) ∧
      DoubleArrayBase.make_value values i
        = (match values with
          | some vs => vs.getD i 0
          | none => toInt32 i) := by
  have hq : ValidKey (keys.getD i []) := by
    rw [List.getD_eq_getElem _ _ hi]
    exact hv _ (List.getElem_mem hi)
  have h1 := (exact_match_build keys lengths values hv hL hvals da h (keys.getD i []) hq res).1 i hi
    rfl (fun j hj => first_of_ascending keys hs i j hj hi)
  refine ⟨h1, ?_, ?_⟩
  · rw [exactMatchSearch_length]; exact h1
  · cases values <;> rfl

theorem exactMatch_key_witness :
    ∃ da, DoubleArrayBase.build 3 [[97]].length (some [[97]]) none none = .ok da ∧
      DoubleArrayBase.exactMatchSearch 3 da [97] ⟨0, 0⟩ 0 0 = some (true, ⟨0, 1⟩) := by
  obtain ⟨da, hda⟩ := build_ok_total [[97]] none none (by decide) (fun ls h => by cases h)
    _ collect_keys_a (by decide)
  have h := exactMatch_key [[97]] none none (by decide) (fun ls h => by cases h)
    (fun vs h => by cases h) (List.pairwise_singleton _ _) da hda 0 (by decide) ⟨0, 0⟩
  exact ⟨da, hda, h.1⟩

/-- C2: for a dictionary that `build` returned, for the empty key set too, and
a query without zero bytes that is not one of the keys, `exactMatchSearch`
reports failure and the value of the result is -1. -/
theorem exactMatch_other (keys : List (List Nat)) (lengths : Option (List Nat))
    (values : Option (List Int)) (hv : ∀ k ∈ keys, ValidKey k)
    (hL : ∀ ls, lengths = some ls → ∀ i, i < keys.length → ls.getD i 0 = (keys.getD i []).length)
    (hvals : ∀ vs, values = some vs → ∀ v ∈ vs, Int32 v)
    (da : DoubleArrayBase)
    (h : DoubleArrayBase.build 3 keys.length (some keys) lengths values = .ok da)
    (q : List Nat) (hq : ValidKey q) (hnot : q ∉ keys) (res : result_pair_type) :
    DoubleArrayBase.exactMatchSearch 3 da q res 0 0 = some (false, ⟨-1, res.length⟩) ∧
      DoubleArrayBase.exactMatchSearch 3 da q res q.length 0
        = some (false, ⟨-1, res.length⟩) := by
  have h1 := (exact_match_build keys lengths values hv hL hvals da h q hq res).2 hnot
  exact ⟨h1, by rw [exactMatchSearch_length]; exact h1⟩

theorem exactMatch_other_witness :
    ∃ da, DoubleArrayBase.build 3 [[97]].length (some [[97]]) none none = .ok da ∧
      DoubleArrayBase.exactMatchSearch 3 da [98] ⟨0, 0⟩ 0 0 = some (false, ⟨-1, 0⟩) := by
  obtain ⟨da, hda⟩ := build_ok_total [[97]] none none (by decide) (fun ls h => by cases h)
    _ collect_keys_a (by decide)
  have h := exactMatch_other [[97]] none none (by decide) (fun ls h => by cases h)
    (fun vs h => by cases h) da hda [98] (by decide) (by decide) ⟨0, 0⟩
  exact ⟨da, hda, h.1⟩

/-- C8: for a sorted input of keys without zero bytes that may hold runs of
equal keys, with a value array of `int` values: the loop of `build` over the
keys keeps one entry for each distinct key, `build` succeeds when the trie fits
the size limits of the builder, and in the dictionary of a successful build
`exactMatchSearch` of a key returns the value supplied for the first occurrence
of the key in the input, whatever the values of its later occurrences are. -/
theorem exactMatch_repeated (keys : List (List Nat)) (lengths : Option (List Nat))
    (vs : List Int) (hv : ∀ k ∈ keys, ValidKey k)
    (hL : ∀ ls, lengths = some ls → ∀ i, i < keys.length → ls.getD i 0 = (keys.getD i []).length)
    (hvals : ∀ v ∈ vs, Int32 v)
    (hs : ∀ j, j + 1 < keys.length →
      ¬ List.Lex (· < ·) (keys.getD (j + 1) []) (keys.getD j [])) :
    ∃ ks, DoubleArrayBase.collect_keys lengths (some vs) keys 0 [] = .ok ks ∧
      (ks.map (fun e => e.key)).Nodup ∧ (∀ k, k ∈ keys ↔ k ∈ ks.map (fun e => e.key)) ∧
      (256 * (DoubleArrayBuilder.trie_fuel ks + 1) < 2 ^ 29 →
        ∃ da, DoubleArrayBase.build 3 keys.length (some keys) lengths (some vs) = .ok da) ∧
      ∀ da, DoubleArrayBase.build 3 keys.length (some keys) lengths (some vs) = .ok da →
        ∀ i, i < keys.length → (∀ j, j < i → keys.getD j [] ≠ keys.getD i []) →
        ∀ m, m < keys.length → keys.getD m [] = keys.getD i [] → ∀ res,
          DoubleArrayBase.exactMatchSearch 3 da (keys.getD m []) res 0 0
            = some (true, ⟨vs.getD i 0, (keys.getD m []).length⟩) := by
  obtain ⟨ks, hks, hc⟩ := collect_keys_ok lengths (some vs) keys hv hL hs keys.length 0 []
    (by omega) (collected_nil keys (some vs))
  rw [List.drop_zero] at hks
  have hok := collected_keysOK hc hv
  obtain ⟨d1, d2⟩ := collected_distinct hc hok
  refine ⟨ks, hks, d2, d1, fun hsize => build_ok_total keys lengths (some vs) hv hL ks hks hsize,
    ?_⟩
  intro da hda i hi hfirst m hm hmi res
  have hq : ValidKey (keys.getD i []) := by
    rw [List.getD_eq_getElem _ _ hi]
    exact hv _ (List.getElem_mem hi)
  rw [hmi]
  exact (exact_match_build keys lengths (some vs) hv hL (fun w hw => by
    injection hw with hw
    rw [← hw]; exact hvals) da hda (keys.getD i []) hq res).1 i hi rfl hfirst

theorem exactMatch_repeated_witness :
    ∃ da, DoubleArrayBase.build 3 [[97], [97]].length (some [[97], [97]]) none (some [5, 6])
        = .ok da ∧
      DoubleArrayBase.exactMatchSearch 3 da [97] ⟨0, 0⟩ 0 0 = some (true, ⟨5, 1⟩) := by
  obtain ⟨ks, hks, _, _, htot, hval⟩ := exactMatch_repeated [[97], [97]] none [5, 6] (by decide)
    (fun ls h => by cases h) (by
      intro v hv
      rcases List.mem_cons.1 hv with h | h
      · rw [h]; exact ⟨by decide, by decide⟩
      · rw [List.mem_singleton.1 h]; exact ⟨by decide, by decide⟩) (by
      intro j hj
      have : j = 0 := by
        have : j + 1 < 2 := hj
        omega
      subst this
      decide)
  have e : DoubleArrayBase.collect_keys none (some [5, 6]) [[97], [97]] 0 []
      = .ok [⟨[97], 0, 1, 0, 5⟩] := rfl
  rw [e] at hks
  have hke := Except.ok.inj hks
  obtain ⟨da, hda⟩ := htot (by rw [← hke]; decide)
  exact ⟨da, hda, hval da hda 0 (by decide) (fun j hj => absurd hj (Nat.not_lt_zero _)) 1
    (by decide) rfl ⟨0, 0⟩⟩

theorem collect_keys_foo :
    DoubleArrayBase.collect_keys none none
        [[102, 111, 111], [102, 111, 111], [102, 111, 111, 98, 97, 114]] 0 []
      = .ok [⟨[102, 111, 111], 0, 3, 0, 0⟩, ⟨[102, 111, 111, 98, 97, 114], 0, 6, 0, 2⟩] := rfl

/-- C9 (counterexample): for the input `["foo", "foo", "foobar"]` without a
value array, `exactMatchSearch("foobar")` yields the value 2, not 1. -/
theorem default_values_counterexample :
    ∃ da, DoubleArrayBase.build 3
        [[102, 111, 111], [102, 111, 111], [102, 111, 111, 98, 97, 114]].length
        (some [[102, 111, 111], [102, 111, 111], [102, 111, 111, 98, 97, 114]]) none none
        = .ok da ∧
      DoubleArrayBase.exactMatchSearch 3 da [102, 111, 111, 98, 97, 114] ⟨0, 0⟩ 0 0
        = some (true, ⟨2, 6⟩) ∧
      DoubleArrayBase.exactMatchSearch 3 da [102, 111, 111, 98, 97, 114] ⟨0, 0⟩ 0 0
        ≠ some (true, ⟨1, 6⟩) := by
  obtain ⟨da, hda⟩ := build_ok_total
    [[102, 111, 111], [102, 111, 111], [102, 111, 111, 98, 97, 114]] none none (by decide)
    (fun ls h => by cases h) _ collect_keys_foo (by decide)
  have h := (exact_match_build _ none none (by decide) (fun ls h => by cases h)
    (fun vs h => by cases h) da hda [102, 111, 111, 98, 97, 114] (by decide) ⟨0, 0⟩).1 2
    (by decide) rfl (by
      intro j hj
      have : j = 0 ∨ j = 1 := by omega
      rcases this with rfl | rfl <;> decide)
  have h2 : DoubleArrayBase.exactMatchSearch 3 da [102, 111, 111, 98, 97, 114] ⟨0, 0⟩ 0 0
      = some (true, ⟨2, 6⟩) := h
  refine ⟨da, hda, h2, ?_⟩
  rw [h2]
  decide

/-- C9 (amended): when no value array is supplied, every key that is kept
receives as value the zero-based position of its first occurrence in the input,
as given, repeated keys counted: in the dictionary of a successful build
`exactMatchSearch` of a key yields the index of the first occurrence of the key
in the input. -/
theorem default_values (keys : List (List Nat)) (lengths : Option (List Nat))
    (hv : ∀ k ∈ keys, ValidKey k)
    (hL : ∀ ls, lengths = some ls → ∀ i, i < keys.length → ls.getD i 0 = (keys.getD i []).length)
    (da : DoubleArrayBase)
    (h : DoubleArrayBase.build 3 keys.length (some keys) lengths none = .ok da)
    (i : Nat) (hi : i < keys.length) (hfirst : ∀ j, j < i → keys.getD j [] ≠ keys.getD i [])
    (hi31 : i < 2 ^ 31) (m : Nat) (hm : m < keys.length)
    (hmi : keys.getD m [] = keys.getD i []) (res : result_pair_type) :
    DoubleArrayBase.exactMatchSearch 3 da (keys.getD m []) res 0 0
      = some (true, ⟨(i : Int), (keys.getD m []).length⟩) := by
  have hq : ValidKey (keys.getD i []) := by
    rw [List.getD_eq_getElem _ _ hi]
    exact hv _ (List.getElem_mem hi)
  rw [hmi]
  have h1 := (exact_match_build keys lengths none hv hL (fun vs h => by cases h) da h
    (keys.getD i []) hq res).1 i hi rfl hfirst
  rw [h1]
  have e : DoubleArrayBase.make_value none i = (i : Int) := by
    show toInt32 i = (i : Int)
    unfold toInt32
    have hmod : i % 2 ^ 32 = i := Nat.mod_eq_of_lt (by omega)
    rw [hmod, if_pos hi31]
  rw [e]

theorem default_values_witness :
    ∃ da, DoubleArrayBase.build 3
        [[102, 111, 111], [102, 111, 111], [102, 111, 111, 98, 97, 114]].length
        (some [[102, 111, 111], [102, 111, 111], [102, 111, 111, 98, 97, 114]]) none none
        = .ok da ∧
      DoubleArrayBase.exactMatchSearch 3 da [102, 111, 111] ⟨0, 0⟩ 0 0 = some (true, ⟨0, 3⟩) := by
  obtain ⟨da, hda⟩ := build_ok_total
    [[102, 111, 111], [102, 111, 111], [102, 111, 111, 98, 97, 114]] none none (by decide)
    (fun ls h => by cases h) _ collect_keys_foo (by decide)
  exact ⟨da, hda, default_values _ none (by decide) (fun ls h => by cases h) da hda 0 (by decide)
    (fun j hj => absurd hj (Nat.not_lt_zero _)) (by decide) 1 (by decide) rfl ⟨0, 0⟩⟩

end Darts

namespace Darts

/-- C5 (failing input): in the dictionary built from the empty key set,
`traverse` of the query `"a"` from the root, given with its length or
zero-terminated, follows the byte 97 to unit 96, which carries the label 97,
and returns -1 at the end of the query, where the claim asks for -2. -/
theorem traverse_empty_set :
    ∃ da, DoubleArrayBase.build 3 0 none none none = .ok da ∧
      DoubleArrayBase.traverse 3 da [97] 0 0 1 = some (.ok (-1, 192, 1)) ∧
      DoubleArrayBase.traverse 3 da [97] 0 0 0 = some (.ok (-1, 192, 1)) := by
  obtain ⟨U, hU, he⟩ := build_zero_ok none none none
  refine ⟨_, hU, ?_⟩
  have hlen := he.length
  have h0 : (DoubleArrayBase.set_vector U).unit? 0 = some (U.getD 0 default) :=
    DoubleArrayBase.unit?_eq _ 0 (by show 0 < U.length; rw [hlen]; decide)
  have h96 : (DoubleArrayBase.set_vector U).unit? 96 = some (U.getD 96 default) :=
    DoubleArrayBase.unit?_eq _ 96 (by show 96 < U.length; rw [hlen]; decide)
  obtain ⟨l96, lab96, _⟩ := emptyDict_unit he 96 (by decide)
  have hend : (U.getD 96 default).is_end = false := by
    rw [he.rest 96 (by decide) (by decide)]
    exact (default_set_label _ (by decide)).2.2
  have hunits : DoubleArrayBase.traverse_units (DoubleArrayBase.set_vector U) [97, 0] 0 ⟨0⟩ 0
      = some (.done 96 ((⟨0⟩ : DoubleArrayUnit).set_index 96) [0] 1) := by
    rw [DoubleArrayBase.traverse_units]
    rw [if_neg (by decide)]
    simp only [h0, Option.bind_eq_bind, Option.some_bind, he.zero.1]
    have e : 0 ^^^ (1 ^^^ 97) = 96 := by decide
    rw [e]
    simp only [h96, Option.some_bind, l96, lab96]
    rw [DoubleArrayBase.traverse_units]
    simp
  have hq : DoubleArrayBase.traverse_query 3 (DoubleArrayBase.set_vector U) [97, 0] 0 ⟨0⟩
      = some (.ok (-1, (⟨0⟩ : DoubleArrayUnit).set_index 96, 1)) := by
    unfold DoubleArrayBase.traverse_query
    have e1 : (⟨0⟩ : DoubleArrayUnit).is_leaf = false := by decide
    have e2 : (⟨0⟩ : DoubleArrayUnit).index = 0 := by decide
    rw [e1, e2, if_pos (show (!false) = true from rfl), hunits]
    show DoubleArrayBase.traverse_end 3 (DoubleArrayBase.set_vector U) 96 _ 1 = _
    unfold DoubleArrayBase.traverse_end
    simp only [h96, Option.bind_eq_bind, Option.some_bind, hend]
    rfl
  constructor
  · unfold DoubleArrayBase.traverse
    have e : (DoubleArrayBase.query_bytes [97] 1).drop 0 = [97, 0] := by decide
    have e3 : (⟨0 % 2 ^ 32⟩ : DoubleArrayUnit) = ⟨0⟩ := rfl
    rw [e, e3, hq]
    rfl
  · unfold DoubleArrayBase.traverse
    have e : (DoubleArrayBase.query_bytes [97] 0).drop 0 = [97, 0] := by decide
    have e3 : (⟨0 % 2 ^ 32⟩ : DoubleArrayUnit) = ⟨0⟩ := rfl
    rw [e, e3, hq]
    rfl

end Darts

namespace Darts

theorem write_results_append (cap : Nat) (m1 m2 : List result_pair_type) :
    ∀ (results : List result_pair_type) (num : Nat),
      write_results cap results num (m1 ++ m2)
        = write_results cap (write_results cap results num m1) (num + m1.length) m2 := by
  induction m1 with
  | nil => intro results num; rfl
  | cons x m ih =>
    intro results num
    show write_results cap _ (num + 1) (m ++ m2) = _
    rw [ih]
    have e : num + 1 + m.length = num + (x :: m).length := by
      simp only [List.length_cons]; omega
    rw [e]
    rfl

/-- No result for the prefixes from `p` on when no key starts with `p`. -/
theorem expected_none (kv : List Nat → Option Int) :
    ∀ (a p : List Nat) (pos : Nat), (∀ x, kv (p ++ x) = none) → expected_from kv p a pos = [] := by
  intro a
  induction a with
  | nil =>
    intro p pos h
    have := h []
    rw [List.append_nil] at this
    show (kv p).toList.map _ = []
    rw [this]; rfl
  | cons c a ih =>
    intro p pos h
    have h0 := h []
    rw [List.append_nil] at h0
    show (kv p).toList.map _ ++ expected_from kv (p ++ [c]) a (pos + 1) = []
    rw [h0, ih (p ++ [c]) (pos + 1) (fun x => by rw [List.append_assoc]; exact h _)]
    rfl

/-- The results for the prefixes from `p` on when the only key that starts with
`p` is `p ++ k`. -/
theorem expected_single (kv : List Nat → Option Int) (v : Int) :
    ∀ (a k p : List Nat) (pos : Nat),
      (∀ x, kv (p ++ x) = if x = k then some v else none) →
      expected_from kv p a pos = if k <+: a then [⟨v, pos + k.length⟩] else [] := by
  intro a
  induction a with
  | nil =>
    intro k p pos h
    have h0 := h []
    rw [List.append_nil] at h0
    show (kv p).toList.map _ = _
    rw [h0]
    cases k with
    | nil => simp
    | cons e k2 => simp
  | cons c a ih =>
    intro k p pos h
    have h0 := h []
    rw [List.append_nil] at h0
    show (kv p).toList.map _ ++ expected_from kv (p ++ [c]) a (pos + 1) = _
    rw [h0]
    cases k with
    | nil =>
      rw [if_pos rfl, expected_none kv a (p ++ [c]) (pos + 1) (fun x => by
        rw [List.append_assoc, h, if_neg (by simp)])]
      simp
    | cons e k2 =>
      rw [if_neg (by simp)]
      by_cases hec : e = c
      · subst hec
        rw [ih k2 (p ++ [e]) (pos + 1) (fun x => by
          rw [List.append_assoc, h]
          simp)]
        have e : pos + 1 + k2.length = pos + (e :: k2).length := by
          simp only [List.length_cons]; omega
        rw [e]
        simp only [Option.toList, List.map_nil, List.nil_append, List.cons_prefix_cons,
          true_and]
      · rw [expected_none kv a (p ++ [c]) (pos + 1) (fun x => by
          rw [List.append_assoc, h, if_neg (by
            intro hx
            simp only [List.singleton_append, List.cons.injEq] at hx
            exact hec hx.1.symm)])]
        rw [if_neg (by
          intro hp
          rw [List.cons_prefix_cons] at hp
          exact hec hp.1)]
        rfl

namespace DoubleArrayBase

theorem put_result_eq (da : DoubleArrayBase) (results : List result_pair_type)
    (cap num t len : Nat) (v : Int) (h : da.get_value t = some v) :
    put_result da results cap num t len
      = some (if num < cap then results.set num ⟨v, len⟩ else results) := by
  unfold put_result
  split
  · simp only [h, Option.bind_eq_bind, Option.some_bind, Option.pure_def]
  · rfl

theorem common_prefix_units_cons (da : DoubleArrayBase) (cap c : Nat) (rest : List Nat)
    (index pos : Nat) (results : List result_pair_type) (num : Nat) (u0 u : DoubleArrayUnit)
    (ex : List result_pair_type × Nat) (h0 : da.unit? index = some u0)
    (hex : extract_result 3 da cap c u0 index pos results num = some ex)
    (h1 : da.unit? (index ^^^ (u0.offset ^^^ c)) = some u) :
    common_prefix_units 3 da cap (c :: rest) index pos results num =
      if u.is_leaf then some (ex.1, ex.2, some (u, c :: rest, pos))
      else if u.label ≠ c then some (ex.1, ex.2, none)
      else common_prefix_units 3 da cap rest (index ^^^ (u0.offset ^^^ c)) (pos + 1) ex.1 ex.2 := by
  rw [common_prefix_units]
  simp only [h0, hex, h1, Option.bind_eq_bind, Option.some_bind, Option.pure_def]

theorem common_prefix_tail_cons (da : DoubleArrayBase) (c : Nat) (rest : List Nat)
    (t pos byte : Nat) (h : da.tail? t = some byte) :
    common_prefix_tail da (c :: rest) t pos =
      if byte = 0 then some (true, t, pos)
      else if byte = c then common_prefix_tail da rest (t + 1) (pos + 1)
      else some (false, t, pos) := by
  rw [common_prefix_tail]
  simp only [h, Option.bind_eq_bind, Option.some_bind, Option.pure_def]

/-- The loop of `common_prefix_search` over the tail, for the string `k` with
its terminator in the tail and the query `a` with its terminator. -/
theorem common_prefix_tail_spec (da : DoubleArrayBase) :
    ∀ (k a : List Nat) (t pos : Nat), (∀ c ∈ k, c ≠ 0) → (∀ c ∈ a, c ≠ 0) →
      (∀ j, j < (k ++ [0]).length → da.tail? (t + j) = some ((k ++ [0]).getD j 0)) →
      ∃ t2 pos2, common_prefix_tail da (a ++ [0]) t pos = some (decide (k <+: a), t2, pos2) ∧
        (k <+: a → t2 = t + k.length ∧ pos2 = pos + k.length) := by
  intro k
  induction k with
  | nil =>
    intro a t pos _ _ hb
    have h0 := hb 0 (by simp)
    rw [Nat.add_zero] at h0
    have hq : ∃ c rest, a ++ [0] = c :: rest := by
      cases a with
      | nil => exact ⟨0, [], rfl⟩
      | cons x a2 => exact ⟨x, a2 ++ [0], List.cons_append _ _ _⟩
    obtain ⟨c, rest, hcr⟩ := hq
    rw [hcr, common_prefix_tail_cons da c rest t pos _ h0]
    refine ⟨t, pos, ?_, fun _ => ⟨rfl, rfl⟩⟩
    simp
  | cons e k2 ih =>
    intro a t pos hk ha hb
    have he : e ≠ 0 := hk e (List.mem_cons_self _ _)
    have h0 := hb 0 (by simp)
    rw [Nat.add_zero] at h0
    have h0b : da.tail? t = some e := h0
    cases a with
    | nil =>
      rw [show ([] : List Nat) ++ [0] = 0 :: [] from rfl,
        common_prefix_tail_cons da 0 [] t pos e h0b, if_neg he, if_neg he]
      exact ⟨t, pos, by simp, fun h => absurd h (by simp)⟩
    | cons c a2 =>
      rw [show (c :: a2) ++ [0] = c :: (a2 ++ [0]) from rfl,
        common_prefix_tail_cons da c (a2 ++ [0]) t pos e h0b, if_neg he]
      by_cases hec : e = c
      · subst hec
        rw [if_pos rfl]
        obtain ⟨t2, pos2, h1, h2⟩ := ih a2 (t + 1) (pos + 1)
          (fun x hx => hk x (List.mem_cons_of_mem _ hx))
          (fun x hx => ha x (List.mem_cons_of_mem _ hx))
          (fun j hj => by
            have := hb (j + 1) (by simpa using hj)
            rw [show t + 1 + j = t + (j + 1) by omega, this]
            rfl)
        refine ⟨t2, pos2, ?_, ?_⟩
        · rw [h1]
          simp
        · intro hp
          rw [List.cons_prefix_cons] at hp
          obtain ⟨e1, e2⟩ := h2 hp.2
          simp only [List.length_cons]
          omega
      · rw [if_neg hec]
        refine ⟨t, pos, ?_, fun hp => ?_⟩
        · have : ¬ (e :: k2 <+: c :: a2) := by
            rw [List.cons_prefix_cons]; exact fun h => hec h.1
          simp [this]
        · rw [List.cons_prefix_cons] at hp
          exact absurd hp.1 hec

/-- The part of `common_prefix_search` that compares suffixes, when the first
byte of the tail string differs from the byte of the query. -/
theorem common_prefix_suffix_mismatch (da : DoubleArrayBase) (cap : Nat) (agent : DoubleArrayUnit)
    (c : Nat) (rest : List Nat) (pos : Nat) (results : List result_pair_type) (num byte : Nat)
    (h : da.tail? (agent.link 3) = some byte) (hne : byte ≠ c) :
    common_prefix_suffix 3 da cap agent (c :: rest) pos results num = some (num, results) := by
  unfold common_prefix_suffix
  simp only [h, Option.bind_eq_bind, Option.some_bind, List.head?_cons, Option.pure_def]
  rw [if_pos hne]

/-- The part of `common_prefix_search` that compares suffixes, for a leaf whose
tail string `k` and the query `a` start with the same byte. -/
theorem common_prefix_suffix_match (da : DoubleArrayBase) (cap : Nat) (agent : DoubleArrayUnit)
    (k a : List Nat) (pos : Nat) (results : List result_pair_type) (num : Nat) (v : Int)
    (hk : ∀ c ∈ k, c ≠ 0) (ha : ∀ c ∈ a, c ≠ 0)
    (hb : ∀ j, j < (k ++ [0]).length →
      da.tail? (agent.link 3 + j) = some ((k ++ [0]).getD j 0))
    (hv : da.get_value (agent.link 3 + (k ++ [0]).length + 4 * agent.value_id 3) = some v)
    (hfirst : (k ++ [0]).getD 0 0 = (a ++ [0]).getD 0 0) :
    common_prefix_suffix 3 da cap agent (a ++ [0]) pos results num =
      some (num + (if k <+: a then [(⟨v, pos + k.length⟩ : result_pair_type)] else []).length,
        write_results cap results num
          (if k <+: a then [(⟨v, pos + k.length⟩ : result_pair_type)] else [])) := by
  have h0 := hb 0 (by simp)
  rw [Nat.add_zero] at h0
  obtain ⟨c, rest, hcr⟩ : ∃ c rest, a ++ [0] = c :: rest := by
    cases a with
    | nil => exact ⟨0, [], rfl⟩
    | cons x a2 => exact ⟨x, a2 ++ [0], List.cons_append _ _ _⟩
  obtain ⟨t2, pos2, h1, h2⟩ := common_prefix_tail_spec da k a (agent.link 3) pos hk ha hb
  have hc : (k ++ [0]).getD 0 0 = c := by rw [hfirst, hcr]; rfl
  unfold common_prefix_suffix
  rw [hcr] at h1 ⊢
  simp only [h0, Option.bind_eq_bind, Option.some_bind, List.head?_cons, Option.pure_def, hc,
    ne_eq, not_true_eq_false, if_false, h1]
  by_cases hp : k <+: a
  · obtain ⟨e1, e2⟩ := h2 hp
    rw [if_pos hp]
    simp only [decide_eq_true hp, if_true]
    have e : t2 + (4 * agent.value_id 3 + 1)
        = agent.link 3 + (k ++ [0]).length + 4 * agent.value_id 3 := by
      rw [e1, List.length_append]
      simp only [List.length_singleton]
      omega
    rw [e, put_result_eq da results cap num _ pos2 v hv, e2]
    rfl
  · rw [if_neg hp]
    simp only [decide_eq_false hp]
    rfl

end DoubleArrayBase

theorem cpf_continue (da : DoubleArrayBase) (cap c : Nat) (rest : List Nat)
    (index pos : Nat) (results : List result_pair_type) (num : Nat) (u0 u : DoubleArrayUnit)
    (ex : List result_pair_type × Nat) (h0 : da.unit? index = some u0)
    (hex : DoubleArrayBase.extract_result 3 da cap c u0 index pos results num = some ex)
    (h1 : da.unit? (index ^^^ (u0.offset ^^^ c)) = some u) (hl : u.is_leaf = false)
    (hc : u.label = c) :
    common_prefix_from da cap (c :: rest) index pos results num
      = common_prefix_from da cap rest (index ^^^ (u0.offset ^^^ c)) (pos + 1) ex.1 ex.2 := by
  unfold common_prefix_from
  rw [DoubleArrayBase.common_prefix_units_cons da cap c rest index pos results num u0 u ex h0 hex
    h1, hl]
  simp only [Bool.false_eq_true, if_false, hc, ne_eq, not_true_eq_false]

theorem cpf_leaf (da : DoubleArrayBase) (cap c : Nat) (rest : List Nat)
    (index pos : Nat) (results : List result_pair_type) (num : Nat) (u0 u : DoubleArrayUnit)
    (ex : List result_pair_type × Nat) (h0 : da.unit? index = some u0)
    (hex : DoubleArrayBase.extract_result 3 da cap c u0 index pos results num = some ex)
    (h1 : da.unit? (index ^^^ (u0.offset ^^^ c)) = some u) (hl : u.is_leaf = true) :
    common_prefix_from da cap (c :: rest) index pos results num
      = DoubleArrayBase.common_prefix_suffix 3 da cap u (c :: rest) pos ex.1 ex.2 := by
  unfold common_prefix_from
  rw [DoubleArrayBase.common_prefix_units_cons da cap c rest index pos results num u0 u ex h0 hex
    h1, hl]
  simp only [if_true]

theorem cpf_mismatch (da : DoubleArrayBase) (cap c : Nat) (rest : List Nat)
    (index pos : Nat) (results : List result_pair_type) (num : Nat) (u0 u : DoubleArrayUnit)
    (ex : List result_pair_type × Nat) (h0 : da.unit? index = some u0)
    (hex : DoubleArrayBase.extract_result 3 da cap c u0 index pos results num = some ex)
    (h1 : da.unit? (index ^^^ (u0.offset ^^^ c)) = some u) (hl : u.is_leaf = false)
    (hc : u.label ≠ c) :
    common_prefix_from da cap (c :: rest) index pos results num = some (ex.2, ex.1) := by
  unfold common_prefix_from
  rw [DoubleArrayBase.common_prefix_units_cons da cap c rest index pos results num u0 u ex h0 hex
    h1, hl]
  simp only [Bool.false_eq_true, if_false, hc, ne_eq, not_false_eq_true, if_true]

section dict2

variable {K : List DoubleArrayKey} (hK : KeysOK K) {n : Nat} {da : DoubleArrayBase}
  (hd : DictOK K da.units n) (ht : da.tail = 4 * n)
  (hval : ∀ k ∈ K, Int32 k.value)
  (kv : List Nat → Option Int)
  (hkv1 : ∀ k i, i < K.length → ext_at K i = k ++ [0] → kv k = some (K.getD i default).value)
  (hkv2 : ∀ k, (∀ i, i < K.length → ext_at K i ≠ k ++ [0]) → kv k = none)

include hK in
/-- A key that reaches the terminator after `p` is the key `p`. -/
theorem ext_of_pre_zero {p : List Nat} {i : Nat} (h : Pre K (p ++ [0]) i) :
    ext_at K i = p ++ [0] := by
  obtain ⟨t, ht2⟩ := h.2
  have hw := (hK.wf _ (getD_mem' h.1)).1
  have hext : ext_at K i = (K.getD i default).bytes ++ [0] := rfl
  have hlen : p.length + 1 + t.length = (K.getD i default).bytes.length + 1 := by
    have := congrArg List.length ht2
    rw [hext] at this
    simp only [List.length_append, List.length_singleton] at this
    exact this
  by_cases hbl : p.length < (K.getD i default).bytes.length
  · have h0 : (ext_at K i).getD p.length 0 = 0 := by
      rw [← ht2, List.append_assoc, List.getD_eq_getElem?_getD,
        List.getElem?_append_right (Nat.le_refl _), Nat.sub_self]
      simp
    rw [hext, List.getD_eq_getElem?_getD, List.getElem?_append_left hbl,
      List.getElem?_eq_getElem hbl] at h0
    exact absurd h0 (hw.nonzero _ (List.getElem_mem hbl))
  · have : t = [] := List.length_eq_zero.1 (by omega)
    rw [← ht2, this, List.append_nil]

include hK hd ht hval hkv1 hkv2 in
/-- The block "extracts a prefix" of `common_prefix_search` at a node with
children, for a byte of the query that is not the terminator. -/
theorem extract_at_node (cap : Nat) {p : List Nat} (hp : IsNode K p) (hpi : Internal K p)
    (c : Nat) (hc : c ≠ 0) (pos : Nat) (results : List result_pair_type) (num : Nat) :
    DoubleArrayBase.extract_result 3 da cap c (da.units.getD (walk da.units p) default)
        (walk da.units p) pos results num
      = some (write_results cap results num ((kv p).toList.map (fun v => ⟨v, pos⟩)),
          num + ((kv p).toList.map (fun v => (⟨v, pos⟩ : result_pair_type))).length) := by
  obtain ⟨_, _, hend, _⟩ := hd.internal p hp hpi
  unfold DoubleArrayBase.extract_result
  by_cases he : (da.units.getD (walk da.units p) default).is_end = true
  · obtain ⟨i, hi⟩ := hend.1 he
    have hnode : IsNode K (p ++ [0]) := isNode_snoc hpi hi
    obtain ⟨_, hidx, h1⟩ := node_reads hd hp hpi 0 (by decide)
    rw [Nat.xor_zero] at hidx
    obtain ⟨_, i2, hp2, _, _, _, hvalue⟩ :=
      leaf_reads hK hd ht hval hnode (not_internal_zero hK p)
    have hext := ext_of_pre_zero hK hp2
    have hdrop : (ext_at K i2).drop ((p ++ [0]).length - 1) = [0] := by
      have e : (p ++ [0]).length - 1 = p.length := by rw [List.length_append]; rfl
      rw [e, hext, List.drop_left]
    rw [hdrop] at hvalue
    rw [if_pos ⟨hc, he⟩, hidx, h1]
    simp only [Option.bind_eq_bind, Option.some_bind, Option.pure_def]
    have e : (da.units.getD (walk da.units (p ++ [0])) default).link 3
        + (4 * (da.units.getD (walk da.units (p ++ [0])) default).value_id 3 + 1)
        = (da.units.getD (walk da.units (p ++ [0])) default).link 3 + [0].length
          + 4 * (da.units.getD (walk da.units (p ++ [0])) default).value_id 3 := by
      simp only [List.length_singleton]; omega
    rw [e, DoubleArrayBase.put_result_eq da results cap num _ pos _ hvalue,
      hkv1 p i2 hp2.1 hext]
    rfl
  · have hnone : kv p = none := by
      apply hkv2
      intro i hi hext
      exact he (hend.2 ⟨i, hi, by rw [hext]⟩)
    rw [if_neg (fun h => he h.2), hnone]
    rfl

include hd in
/-- The search from a node with children stops without a further result at a
byte under which the node has no child. -/
theorem cpf_no_child (cap : Nat) {p : List Nat} (hp : IsNode K p) (hpi : Internal K p)
    (c : Nat) (hc : c < 256) (rest : List Nat) (hnode : ¬ IsNode K (p ++ [c]))
    (htl : ∀ q, IsNode K q → ¬ Internal K q →
      ∃ byte, da.tail? ((da.units.getD (walk da.units q) default).link 3) = some byte ∧
        byte = q.getLastD 0 ∧ (da.units.getD (walk da.units q) default).is_leaf = true)
    (pos : Nat) (results : List result_pair_type) (num : Nat)
    (ex : List result_pair_type × Nat)
    (hex : DoubleArrayBase.extract_result 3 da cap c
      (da.units.getD (walk da.units p) default) (walk da.units p) pos results num = some ex) :
    common_prefix_from da cap (c :: rest) (walk da.units p) pos results num
      = some (ex.2, ex.1) := by
  obtain ⟨h0, hidx, h1⟩ := node_reads hd hp hpi c hc
  have h1b : da.unit? (walk da.units p
      ^^^ ((da.units.getD (walk da.units p) default).offset ^^^ c))
      = some (da.units.getD (walk da.units (p ++ [c])) default) := by
    rw [hidx]; exact h1
  rcases hd.other p hp hpi c hc hnode with ⟨hl, hlab⟩ | ⟨q, hq, hqi, hw, hlast⟩
  · exact cpf_mismatch da cap c rest (walk da.units p) pos results num _ _ ex h0 hex h1b
      (by rw [walk_snoc]; exact hl) (by rw [walk_snoc]; exact hlab)
  · obtain ⟨byte, hb, hbe, hl⟩ := htl q hq hqi
    have hw2 : walk da.units q = walk da.units (p ++ [c]) := by rw [hw, walk_snoc]
    rw [hw2] at hb hl
    rw [cpf_leaf da cap c rest (walk da.units p) pos results num _ _ ex h0 hex h1b hl]
    exact DoubleArrayBase.common_prefix_suffix_mismatch da cap _ c rest pos ex.1 ex.2 byte hb
      (by rw [hbe]; exact hlast)

include hK hd ht hval in
/-- The first byte of the tail string of a leaf is the last byte of its path. -/
theorem leaf_first_byte : ∀ q, IsNode K q → ¬ Internal K q →
    ∃ byte, da.tail? ((da.units.getD (walk da.units q) default).link 3) = some byte ∧
      byte = q.getLastD 0 ∧ (da.units.getD (walk da.units q) default).is_leaf = true := by
  intro q hq hqi
  obtain ⟨hl, i, _, hz, hfirst, htail, _⟩ := leaf_reads hK hd ht hval hq hqi
  have h0 := htail 0 (List.length_pos.2 (zterm_ne_nil hz))
  rw [Nat.add_zero] at h0
  exact ⟨_, h0, hfirst, hl⟩

include hK hd ht hval in
/-- The search from a node with children at a byte that leads to a leaf: the
rest of the query is compared with the tail string of the leaf. -/
theorem cpf_leaf_child (cap : Nat) {p : List Nat} (hp : IsNode K p) (hpi : Internal K p)
    (c : Nat) (hc : c < 256) (rest a : List Nat) (ha : ∀ x ∈ a, x ≠ 0)
    (har : a ++ [0] = c :: rest)
    (hnode : IsNode K (p ++ [c])) (hint : ¬ Internal K (p ++ [c]))
    (pos : Nat) (results : List result_pair_type) (num : Nat)
    (ex : List result_pair_type × Nat)
    (hex : DoubleArrayBase.extract_result 3 da cap c
      (da.units.getD (walk da.units p) default) (walk da.units p) pos results num = some ex) :
    ∃ i k, i < K.length ∧ (∀ j, Pre K (p ++ [c]) j → j = i) ∧ ext_at K i = p ++ (k ++ [0]) ∧
      (∀ x ∈ k, x ≠ 0) ∧ (k ++ [0]).getD 0 0 = c ∧
      common_prefix_from da cap (c :: rest) (walk da.units p) pos results num
        = some (ex.2 + (if k <+: a
            then [(⟨(K.getD i default).value, pos + k.length⟩ : result_pair_type)]
            else []).length,
          write_results cap ex.1 ex.2 (if k <+: a
            then [(⟨(K.getD i default).value, pos + k.length⟩ : result_pair_type)]
            else [])) := by
  obtain ⟨h0, hidx, h1⟩ := node_reads hd hp hpi c hc
  have h1b : da.unit? (walk da.units p
      ^^^ ((da.units.getD (walk da.units p) default).offset ^^^ c))
      = some (da.units.getD (walk da.units (p ++ [c])) default) := by
    rw [hidx]; exact h1
  obtain ⟨hl, i, hpre, hz, hfirst, htail, hvalue⟩ := leaf_reads hK hd ht hval hnode hint
  obtain ⟨k, hk, hk0⟩ := hz
  rw [hk] at hfirst htail hvalue
  rw [List.getLastD_concat] at hfirst
  have hlen1 : (p ++ [c]).length - 1 = p.length := by
    rw [List.length_append]; rfl
  have hext : ext_at K i = p ++ (k ++ [0]) := by
    obtain ⟨t, ht2⟩ := hpre.2
    have hdrop : (ext_at K i).drop p.length = c :: t := by
      rw [← ht2, List.append_assoc, List.drop_left]
      rfl
    rw [hlen1, hdrop] at hk
    rw [← ht2, List.append_assoc, ← hk]
    rfl
  refine ⟨i, k, hpre.1, fun j hj => leaf_key_unique hint hj hpre, hext, hk0, hfirst, ?_⟩
  rw [cpf_leaf da cap c rest (walk da.units p) pos results num _ _ ex h0 hex h1b hl, ← har]
  exact DoubleArrayBase.common_prefix_suffix_match da cap _ k a pos ex.1 ex.2 _ hk0 ha htail
    hvalue (by rw [hfirst, har]; rfl)

include hK hd ht hval hkv1 hkv2 in
/-- The loop of `common_prefix_search` from a node with children `p`, for the
rest `a` of the query: it reports the keys that are `p` with a prefix of `a`, in
the order of their lengths. -/
theorem cps_spec (cap : Nat) :
    ∀ (a p : List Nat) (pos : Nat) (results : List result_pair_type) (num : Nat),
      (∀ c ∈ a, c ≠ 0) → (∀ c ∈ a, c < 256) → IsNode K p → Internal K p →
      common_prefix_from da cap (a ++ [0]) (walk da.units p) pos results num
        = some (num + (expected_from kv p a pos).length,
            write_results cap results num (expected_from kv p a pos)) := by
  intro a
  induction a with
  | nil =>
    intro p pos results num _ _ hp hpi
    have hex : DoubleArrayBase.extract_result 3 da cap 0
        (da.units.getD (walk da.units p) default) (walk da.units p) pos results num
        = some (results, num) := by
      unfold DoubleArrayBase.extract_result
      rw [if_neg (fun h => h.1 rfl)]
      rfl
    show common_prefix_from da cap (0 :: []) _ _ _ _ = _
    by_cases hnode : IsNode K (p ++ [0])
    · obtain ⟨i, k, hi, _, hext, hk0, hfirst, hres⟩ :=
        cpf_leaf_child hK hd ht hval cap hp hpi 0 (by decide) [] [] (by simp) rfl hnode
          (not_internal_zero hK p) pos results num _ hex
      have hkn : k = [] := by
        cases k with
        | nil => rfl
        | cons e k2 => exact absurd hfirst (hk0 e (List.mem_cons_self _ _))
      subst hkn
      rw [hres]
      have hkvp : kv p = some (K.getD i default).value := hkv1 p i hi hext
      show _ = some (num + ((kv p).toList.map _).length,
        write_results cap results num ((kv p).toList.map _))
      rw [hkvp]
      simp
    · rw [cpf_no_child hd cap hp hpi 0 (by decide) [] hnode (leaf_first_byte hK hd ht hval)
        pos results num _ hex]
      have hkvp : kv p = none := by
        apply hkv2
        intro i hi hext
        exact hnode (isNode_snoc hpi ⟨hi, by rw [hext]⟩)
      show _ = some (num + ((kv p).toList.map _).length,
        write_results cap results num ((kv p).toList.map _))
      rw [hkvp]
      rfl
  | cons c a ih =>
    intro p pos results num h0 hbytes hp hpi
    have hc : c < 256 := hbytes c (List.mem_cons_self _ _)
    have hc0 : c ≠ 0 := h0 c (List.mem_cons_self _ _)
    have hex := extract_at_node hK hd ht hval kv hkv1 hkv2 cap hp hpi c hc0 pos results num
    obtain ⟨hu0, hidx, h1⟩ := node_reads hd hp hpi c hc
    have h1b : da.unit? (walk da.units p
        ^^^ ((da.units.getD (walk da.units p) default).offset ^^^ c))
        = some (da.units.getD (walk da.units (p ++ [c])) default) := by
      rw [hidx]; exact h1
    show common_prefix_from da cap (c :: (a ++ [0])) _ _ _ _
      = some (num + ((kv p).toList.map (fun v => (⟨v, pos⟩ : result_pair_type))
          ++ expected_from kv (p ++ [c]) a (pos + 1)).length,
        write_results cap results num ((kv p).toList.map (fun v => (⟨v, pos⟩ : result_pair_type))
          ++ expected_from kv (p ++ [c]) a (pos + 1)))
    rw [write_results_append, List.length_append, ← Nat.add_assoc]
    by_cases hnode : IsNode K (p ++ [c])
    · by_cases hint : Internal K (p ++ [c])
      · obtain ⟨hl, hlab, _, _⟩ := hd.internal _ hnode hint
        rw [List.getLastD_concat] at hlab
        rw [cpf_continue da cap c (a ++ [0]) (walk da.units p) pos results num _ _ _ hu0 hex
          h1b hl hlab, hidx]
        exact ih (p ++ [c]) (pos + 1) _ _ (fun x hx => h0 x (List.mem_cons_of_mem _ hx))
          (fun x hx => hbytes x (List.mem_cons_of_mem _ hx)) hnode hint
      · obtain ⟨i, k, hi, huniq, hext, hk0, hfirst, hres⟩ :=
          cpf_leaf_child hK hd ht hval cap hp hpi c hc (a ++ [0]) (c :: a) h0
            (List.cons_append _ _ _) hnode
            hint pos results num _ hex
        rw [hres]
        obtain ⟨k2, hk2⟩ : ∃ k2, k = c :: k2 := by
          cases k with
          | nil => exact absurd hfirst.symm hc0
          | cons e k2 => exact ⟨k2, by rw [show e = c from hfirst]⟩
        subst hk2
        have hsingle : ∀ x, kv ((p ++ [c]) ++ x)
            = if x = k2 then some (K.getD i default).value else none := by
          intro x
          by_cases hx : x = k2
          · rw [if_pos hx, hx]
            apply hkv1 _ i hi
            rw [hext]
            simp
          · rw [if_neg hx]
            apply hkv2
            intro j hj hextj
            have hji := huniq j ⟨hj, by rw [hextj]; exact ⟨x ++ [0], by simp⟩⟩
            rw [hji, hext] at hextj
            apply hx
            have e : p ++ (c :: k2 ++ [0]) = p ++ (c :: x ++ [0]) := by
              rw [hextj]; simp
            have e2 := List.append_cancel_left e
            simp only [List.cons_append, List.cons.injEq, true_and] at e2
            exact (List.append_cancel_right e2).symm
        rw [expected_single kv _ a k2 (p ++ [c]) (pos + 1) hsingle]
        have e : pos + 1 + k2.length = pos + (c :: k2).length := by
          simp only [List.length_cons]; omega
        rw [e]
        by_cases hpre : k2 <+: a
        · rw [if_pos hpre, if_pos (by rw [List.cons_prefix_cons]; exact ⟨rfl, hpre⟩)]
        · rw [if_neg hpre, if_neg (by rw [List.cons_prefix_cons]; exact fun h => hpre h.2)]
    · rw [cpf_no_child hd cap hp hpi c hc (a ++ [0]) hnode (leaf_first_byte hK hd ht hval)
        pos results num _ hex]
      rw [expected_none kv a (p ++ [c]) (pos + 1) (fun x => by
        apply hkv2
        intro i hi hext
        exact hnode (isNode_snoc hpi ⟨hi, by rw [hext]; exact ⟨x ++ [0], by simp⟩⟩))]
      rfl

end dict2

end Darts

namespace Darts

/-- The results expected from a node on, listed by the lengths of the prefixes
of the rest of the query. -/
theorem expected_eq (kv : List Nat → Option Int) :
    ∀ (a p : List Nat) (pos : Nat),
      expected_from kv p a pos = (List.range (a.length + 1)).filterMap
        (fun l => (kv (p ++ a.take l)).map (fun v => (⟨v, pos + l⟩ : result_pair_type))) := by
  intro a
  induction a with
  | nil =>
    intro p pos
    show (kv p).toList.map _ = List.filterMap _ [0]
    cases h : kv p <;> simp [h]
  | cons c a ih =>
    intro p pos
    show (kv p).toList.map _ ++ expected_from kv (p ++ [c]) a (pos + 1) = _
    rw [List.length_cons, List.range_succ_eq_map, List.filterMap_cons, List.filterMap_map]
    have hf : ((fun l => (kv (p ++ (c :: a).take l)).map
          (fun v => (⟨v, pos + l⟩ : result_pair_type))) ∘ Nat.succ)
        = (fun l => (kv (p ++ [c] ++ a.take l)).map
          (fun v => (⟨v, pos + 1 + l⟩ : result_pair_type))) := by
      funext l
      simp only [Function.comp, List.take_succ_cons, List.append_assoc, List.singleton_append]
      congr 1
      funext v
      congr 1
      omega
    rw [hf, ih]
    cases h : kv p <;> simp [h]

theorem prefix_matches_eq (keys : List (List Nat)) (values : Option (List Int)) (q : List Nat) :
    expected_from (key_value keys values) [] q 0 = prefix_matches keys values q := by
  rw [expected_eq]
  unfold prefix_matches
  congr 1
  funext l
  rw [List.nil_append, Nat.zero_add]

/-- The array after the results `m` have been written from the count `num` on,
when the capacity and the array have room for them. -/
theorem write_results_eq (cap : Nat) :
    ∀ (m results : List result_pair_type) (num : Nat), num + m.length ≤ cap →
      num + m.length ≤ results.length →
      write_results cap results num m
        = results.take num ++ m ++ results.drop (num + m.length) := by
  intro m
  induction m with
  | nil =>
    intro results num _ _
    show results = _
    simp
  | cons x m ih =>
    intro results num h1 h2
    simp only [List.length_cons] at h1 h2
    show write_results cap (if num < cap then results.set num x else results) (num + 1) m = _
    rw [if_pos (by omega), ih _ _ (by omega) (by rw [List.length_set]; omega)]
    have hn : num < results.length := by omega
    have hl : (results.take num).length = num := by rw [List.length_take]; omega
    have e1 : (results.set num x).take (num + 1) = results.take num ++ [x] := by
      rw [List.set_eq_take_append_cons_drop, if_pos hn, List.take_append_eq_append_take, hl,
        List.take_of_length_le (by omega)]
      simp
    have e2 : (results.set num x).drop (num + 1 + m.length)
        = results.drop (num + (m.length + 1)) := by
      rw [List.set_eq_take_append_cons_drop, if_pos hn, List.drop_append_eq_append_drop, hl,
        List.drop_of_length_le (by omega),
        show num + 1 + m.length - num = m.length + 1 by omega, List.nil_append,
        List.drop_succ_cons, List.drop_drop]
      congr 1
      omega
    rw [e1, e2]
    simp

theorem extract_not_end (da : DoubleArrayBase) (cap c : Nat) (u0 : DoubleArrayUnit)
    (index pos : Nat) (results : List result_pair_type) (num : Nat) (h : u0.is_end = false) :
    DoubleArrayBase.extract_result 3 da cap c u0 index pos results num = some (results, num) := by
  unfold DoubleArrayBase.extract_result
  rw [if_neg (fun hh => by rw [h] at hh; exact absurd hh.2 (by decide))]
  rfl

/-- In the dictionary of the empty key set `common_prefix_search` reports
nothing. -/
theorem cps_empty (da : DoubleArrayBase) (h : EmptyDict da.units) (cap : Nat)
    (results : List result_pair_type) (q : List Nat) (hq : ValidKey q) :
    common_prefix_from da cap (q ++ [0]) 0 0 results 0 = some (0, results) := by
  have hlen := h.length
  have hu : ∀ j, j < 256 → da.unit? j = some (da.units.getD j default) :=
    fun j hj => DoubleArrayBase.unit?_eq da j (by rw [hlen]; exact hj)
  have hoff0 : (da.units.getD 0 default).offset = 1 := h.zero.1
  have hex0 : ∀ c, DoubleArrayBase.extract_result 3 da cap c (da.units.getD 0 default) 0 0
      results 0 = some (results, 0) :=
    fun c => extract_not_end da cap c _ 0 0 results 0 h.zero.2.2.2
  have hfirst : ∀ c rest, c < 256 → (c < 2 ∨ ∀ c2 rest2, rest = c2 :: rest2 → c2 < 256) →
      rest ≠ [] ∨ c < 2 →
      common_prefix_from da cap (c :: rest) 0 0 results 0 = some (0, results) := by
    intro c rest hc hrest hne
    have hj1 : 0 ^^^ (1 ^^^ c) < 256 := xor_lt_256 _ _ (by decide) (xor_lt_256 _ _ (by decide) hc)
    have hz : 0 ^^^ (1 ^^^ c) = 1 ^^^ c := Nat.zero_xor _
    obtain ⟨l1, lab1, off1⟩ := emptyDict_unit h _ hj1
    have h1 : da.unit? (0 ^^^ ((da.units.getD 0 default).offset ^^^ c))
        = some (da.units.getD (0 ^^^ (1 ^^^ c)) default) := by
      rw [hoff0]; exact hu _ hj1
    by_cases hc2 : c < 2
    · apply cpf_mismatch da cap c rest 0 0 results 0 _ _ (results, 0) (hu 0 (by decide))
        (hex0 c) h1 l1
      rw [lab1]
      have : c = 0 ∨ c = 1 := by omega
      rcases this with rfl | rfl <;> decide
    · have hge : 2 ≤ 0 ^^^ (1 ^^^ c) := by
        rw [hz]
        by_contra hlt
        have : 1 ^^^ c = 0 ∨ 1 ^^^ c = 1 := by omega
        rcases this with e | e
        · have := congrArg (fun x => 1 ^^^ x) e
          simp only [xor_xor_cancel_left] at this
          have e2 : (1 : Nat) ^^^ 0 = 1 := by decide
          rw [e2] at this
          omega
        · have := congrArg (fun x => 1 ^^^ x) e
          simp only [xor_xor_cancel_left] at this
          have e2 : (1 : Nat) ^^^ 1 = 0 := by decide
          rw [e2] at this
          omega
      have hlabc : (da.units.getD (0 ^^^ (1 ^^^ c)) default).label = c := by
        rw [lab1, if_neg (by omega), hz, Nat.xor_comm 1 c, xor_xor_cancel_right]
      have hend1 : (da.units.getD (0 ^^^ (1 ^^^ c)) default).is_end = false := by
        rw [h.rest _ hge hj1]
        exact (default_set_label _ (xor_one_lt _ hj1)).2.2
      rcases hne with hne | hne
      · obtain ⟨c2, rest2, hr2⟩ := List.exists_cons_of_ne_nil hne
        have hc2lt : c2 < 256 := by
          rcases hrest with hh | hh
          · exact absurd hh hc2
          · exact hh c2 rest2 hr2
        rw [hr2, cpf_continue da cap c (c2 :: rest2) 0 0 results 0 _ _ (results, 0)
          (hu 0 (by decide)) (hex0 c) h1 l1 hlabc, hoff0]
        have hoffj : (da.units.getD (0 ^^^ (1 ^^^ c)) default).offset = 0 := off1 hge
        have hj2 : (0 ^^^ (1 ^^^ c)) ^^^ (0 ^^^ c2) < 256 :=
          xor_lt_256 _ _ hj1 (xor_lt_256 _ _ (by decide) hc2lt)
        obtain ⟨l2, lab2, _⟩ := emptyDict_unit h _ hj2
        have h2 : da.unit? ((0 ^^^ (1 ^^^ c))
            ^^^ ((da.units.getD (0 ^^^ (1 ^^^ c)) default).offset ^^^ c2))
            = some (da.units.getD ((0 ^^^ (1 ^^^ c)) ^^^ (0 ^^^ c2)) default) := by
          rw [hoffj]; exact hu _ hj2
        apply cpf_mismatch da cap c2 rest2 _ _ results 0 _ _ (results, 0) (hu _ hj1)
          (extract_not_end da cap c2 _ _ _ results 0 hend1) h2 l2
        rw [lab2, Nat.zero_xor c2]
        split
        · intro e
          have := xor_eq_right_zero e
          omega
        · intro e
          rw [Nat.xor_assoc, Nat.xor_comm c2 1, ← Nat.xor_assoc] at e
          have := xor_eq_right_zero e
          have e3 : 0 ^^^ (1 ^^^ c) = 1 := by
            have := congrArg (fun x => x ^^^ 1) this
            simp only [xor_xor_cancel_right] at this
            rw [this]; decide
          omega
      · exact absurd hne hc2
  cases q with
  | nil =>
    exact hfirst 0 [] (by decide) (Or.inl (by decide)) (Or.inr (by decide))
  | cons c q2 =>
    have hc := (hq c (List.mem_cons_self _ _)).2
    rw [List.cons_append]
    apply hfirst c (q2 ++ [0]) hc
    · right
      intro c2 rest2 he
      cases q2 with
      | nil =>
        simp only [List.nil_append, List.cons.injEq] at he
        rw [← he.1]; decide
      | cons x q3 =>
        simp only [List.cons_append, List.cons.injEq] at he
        rw [← he.1]
        exact (hq x (List.mem_cons_of_mem _ (List.mem_cons_self _ _))).2
    · left
      simp

namespace DoubleArrayBase

/-- Method `commonPrefixSearch` for a zero-terminated key, from the root. -/
theorem commonPrefixSearch_eq (da : DoubleArrayBase) (key : List Nat)
    (results : List result_pair_type) (cap : Nat) :
    commonPrefixSearch 3 da key results cap 0 0
      = common_prefix_from da cap (key ++ [0]) 0 0 results 0 := by
  unfold commonPrefixSearch common_prefix_search common_prefix_from query_bytes
  have e1 : (⟨0 % 2 ^ 32⟩ : DoubleArrayUnit).is_leaf = false := by decide
  have e2 : (⟨0 % 2 ^ 32⟩ : DoubleArrayUnit).index = 0 := by decide
  rw [e1, e2, if_pos rfl]
  rfl

/-- Method `commonPrefixSearch` for a key given with its length, from the
root. -/
theorem commonPrefixSearch_length (da : DoubleArrayBase) (key : List Nat)
    (results : List result_pair_type) (cap : Nat) :
    commonPrefixSearch 3 da key results cap key.length 0
      = commonPrefixSearch 3 da key results cap 0 0 := by
  unfold commonPrefixSearch
  rw [query_bytes_full]
  rfl

end DoubleArrayBase

/-- The position that `findIdx` gives is that of the first occurrence. -/
theorem findIdx_first (keys : List (List Nat)) (k : List Nat) (i : Nat) (hi : i < keys.length)
    (hk : keys.getD i [] = k) (hfirst : ∀ j, j < i → keys.getD j [] ≠ k) :
    keys.findIdx (fun x => decide (x = k)) = i := by
  have hmem : k ∈ keys := by
    rw [← hk, List.getD_eq_getElem _ _ hi]
    exact List.getElem_mem hi
  have hlt : keys.findIdx (fun x => decide (x = k)) < keys.length :=
    List.findIdx_lt_length_of_exists ⟨k, hmem, by simp⟩
  have hget : keys.getD (keys.findIdx (fun x => decide (x = k))) [] = k := by
    rw [List.getD_eq_getElem _ _ hlt]
    have := List.findIdx_getElem (w := hlt)
    simpa using this
  rcases Nat.lt_trichotomy (keys.findIdx (fun x => decide (x = k))) i with h | h | h
  · exact absurd hget (hfirst _ h)
  · exact h
  · have := List.not_of_lt_findIdx h
    rw [List.getD_eq_getElem _ _ hi] at hk
    rw [hk] at this
    simp at this

end Darts

namespace Darts

/-- Method `commonPrefixSearch` on a dictionary that `build` returned: the
results are those of the keys that are prefixes of the query, in the order of
their lengths. -/
theorem common_prefix_build (keys : List (List Nat)) (lengths : Option (List Nat))
    (values : Option (List Int)) (hv : ∀ k ∈ keys, ValidKey k)
    (hL : ∀ ls, lengths = some ls → ∀ i, i < keys.length → ls.getD i 0 = (keys.getD i []).length)
    (hvals : ∀ vs, values = some vs → ∀ v ∈ vs, Int32 v)
    (da : DoubleArrayBase)
    (h : DoubleArrayBase.build 3 keys.length (some keys) lengths values = .ok da)
    (q : List Nat) (hq : ValidKey q) (results : List result_pair_type) (cap : Nat) :
    DoubleArrayBase.commonPrefixSearch 3 da q results cap 0 0
      = some ((prefix_matches keys values q).length,
          write_results cap results 0 (prefix_matches keys values q)) := by
  obtain ⟨ks, U, hks, hc, hok, hU, hda⟩ := build_ok_inv keys lengths values hv hL h
  subst hda
  obtain ⟨hd, hempty⟩ := builder_sound hok hU
  have ht : (DoubleArrayBase.set_vector U).tail = 4 * (U.getD 1 default).offset := rfl
  have hval : ∀ k ∈ ks, Int32 k.value := by
    intro k hk
    obtain ⟨_, _, _, _, i0, _, _, h6, _⟩ := hc.entry k hk
    rw [h6]
    exact int32_make_value values hvals i0
  have hkv1 : ∀ k i, i < ks.length → ext_at ks i = k ++ [0] →
      key_value keys values k = some (ks.getD i default).value := by
    intro k m hm hext
    rw [ext_of_collected hc hm] at hext
    have hkey : (ks.getD m default).key = k := List.append_cancel_right hext
    obtain ⟨_, _, _, _, i0, hi0, h5, h6, h7⟩ := hc.entry _ (getD_mem' hm)
    rw [hkey] at h5
    have hmem : k ∈ keys := by
      rw [h5, List.getD_eq_getElem _ _ hi0]
      exact List.getElem_mem hi0
    unfold key_value
    rw [if_pos hmem, findIdx_first keys k i0 hi0 h5.symm (fun j hj => by
      rw [h5]; exact h7 j hj), h6]
  have hkv2 : ∀ k, (∀ i, i < ks.length → ext_at ks i ≠ k ++ [0]) →
      key_value keys values k = none := by
    intro k hno
    unfold key_value
    rw [if_neg]
    intro hmem
    obtain ⟨i, hi, hik⟩ := List.getElem_of_mem hmem
    obtain ⟨e, he, hek⟩ := hc.complete i hi
    obtain ⟨m, hm, hme⟩ := List.getElem_of_mem he
    have hmd : ks.getD m default = e := by rw [List.getD_eq_getElem _ _ hm]; exact hme
    apply hno m hm
    rw [ext_of_collected hc hm, hmd, hek, List.getD_eq_getElem _ _ hi, hik]
  rw [DoubleArrayBase.commonPrefixSearch_eq, ← prefix_matches_eq]
  by_cases hk0 : ks = []
  · rw [expected_none (key_value keys values) q [] 0 (fun x => by
      apply hkv2
      intro i hi
      rw [hk0] at hi
      cases hi)]
    exact cps_empty _ (hempty hk0) cap results q hq
  · have hroot : IsNode ks [] :=
      ⟨⟨0, List.length_pos.2 hk0, List.nil_prefix⟩, Or.inl rfl⟩
    have hd2 : DictOK ks (DoubleArrayBase.set_vector U).units (U.getD 1 default).offset := hd
    have hs := cps_spec hok hd2 ht hval (key_value keys values) hkv1 hkv2 cap q [] 0 results 0
      (fun c hc2 => Nat.ne_of_gt (hq c hc2).1) (fun c hc2 => (hq c hc2).2) hroot (Or.inl rfl)
    rw [walk_nil, Nat.zero_add] at hs
    exact hs

/-- A list of results that `filterMap` takes from an ascending list of lengths
has ascending lengths. -/
theorem filterMap_lengths_sublist (f : Nat → Option result_pair_type)
    (hf : ∀ l r, f l = some r → r.length = l) :
    ∀ L : List Nat, List.Sublist ((L.filterMap f).map (fun r => r.length)) L := by
  intro L
  induction L with
  | nil => exact List.Sublist.slnil
  | cons l L ih =>
    rw [List.filterMap_cons]
    cases hfl : f l with
    | none => exact List.Sublist.cons _ ih
    | some r =>
      show List.Sublist (r.length :: _) _
      rw [hf l r hfl]
      exact List.Sublist.cons₂ _ ih

theorem prefix_match_some (keys : List (List Nat)) (values : Option (List Int)) (q : List Nat)
    (l : Nat) (r : result_pair_type)
    (h : (key_value keys values (q.take l)).map (fun v => (⟨v, l⟩ : result_pair_type)) = some r) :
    r.length = l ∧ q.take l ∈ keys ∧
      r.value = DoubleArrayBase.make_value values
        (keys.findIdx (fun x => decide (x = q.take l))) := by
  unfold key_value at h
  by_cases hm : q.take l ∈ keys
  · rw [if_pos hm] at h
    simp only [Option.map_some', Option.some.injEq] at h
    rw [← h]
    exact ⟨rfl, hm, rfl⟩
  · rw [if_neg hm] at h
    cases h

/-- C3: for a dictionary that `build` returned and a query `q` without zero
bytes, given zero-terminated or with its length, `commonPrefixSearch` with a
capacity that is at least the number of matches returns this number and leaves
in the first slots of `results` the list `prefix_matches`: it holds the pair of
value and length of every key that is a prefix of `q` (the value is that of the
first occurrence of the key in the input), nothing else, with strictly
increasing lengths; when `q` is a key itself the list is not empty and its last
pair carries the value of `q` and the length of `q`. -/
theorem commonPrefix_matches (keys : List (List Nat)) (lengths : Option (List Nat))
    (values : Option (List Int)) (hv : ∀ k ∈ keys, ValidKey k)
    (hL : ∀ ls, lengths = some ls → ∀ i, i < keys.length → ls.getD i 0 = (keys.getD i []).length)
    (hvals : ∀ vs, values = some vs → ∀ v ∈ vs, Int32 v)
    (da : DoubleArrayBase)
    (h : DoubleArrayBase.build 3 keys.length (some keys) lengths values = .ok da)
    (q : List Nat) (hq : ValidKey q) (results : List result_pair_type) (cap : Nat)
    (hcap : (prefix_matches keys values q).length ≤ cap) (hres : cap ≤ results.length) :
    DoubleArrayBase.commonPrefixSearch 3 da q results cap 0 0
        = some ((prefix_matches keys values q).length,
            prefix_matches keys values q ++ results.drop (prefix_matches keys values q).length) ∧
      DoubleArrayBase.commonPrefixSearch 3 da q results cap q.length 0
        = some ((prefix_matches keys values q).length,
            prefix_matches keys values q ++ results.drop (prefix_matches keys values q).length) ∧
      (∀ i, i < keys.length → keys.getD i [] <+: q →
        (∀ j, j < i → keys.getD j [] ≠ keys.getD i []) →
        (⟨DoubleArrayBase.make_value values i, (keys.getD i []).length⟩ : result_pair_type)
          ∈ prefix_matches keys values q) ∧
      (∀ r ∈ prefix_matches keys values q, ∃ i, i < keys.length ∧ keys.getD i [] <+: q ∧
        (∀ j, j < i → keys.getD j [] ≠ keys.getD i []) ∧
        r = ⟨DoubleArrayBase.make_value values i, (keys.getD i []).length⟩) ∧
      ((prefix_matches keys values q).map (fun r => r.length)).Pairwise (· < ·) ∧
      (∀ i, i < keys.length → keys.getD i [] = q →
        (∀ j, j < i → keys.getD j [] ≠ keys.getD i []) →
        1 ≤ (prefix_matches keys values q).length ∧
          (prefix_matches keys values q).getLast?
            = some ⟨DoubleArrayBase.make_value values i, q.length⟩) := by
  have h1 := common_prefix_build keys lengths values hv hL hvals da h q hq results cap
  rw [write_results_eq cap _ results 0 (by omega) (by omega)] at h1
  simp only [List.take_zero, List.nil_append, Nat.zero_add] at h1
  have hin : ∀ i, i < keys.length → keys.getD i [] <+: q →
      (∀ j, j < i → keys.getD j [] ≠ keys.getD i []) →
      (key_value keys values (q.take (keys.getD i []).length)).map
          (fun v => (⟨v, (keys.getD i []).length⟩ : result_pair_type))
        = some ⟨DoubleArrayBase.make_value values i, (keys.getD i []).length⟩ := by
    intro i hi hpre hfirst
    have htake : q.take (keys.getD i []).length = keys.getD i [] :=
      (List.prefix_iff_eq_take.1 hpre).symm
    have hmem : keys.getD i [] ∈ keys := by
      rw [List.getD_eq_getElem _ _ hi]
      exact List.getElem_mem hi
    rw [htake]
    unfold key_value
    rw [if_pos hmem, findIdx_first keys _ i hi rfl hfirst]
    rfl
  refine ⟨h1, ?_, ?_, ?_, ?_, ?_⟩
  · rw [DoubleArrayBase.commonPrefixSearch_length]; exact h1
  · intro i hi hpre hfirst
    unfold prefix_matches
    rw [List.mem_filterMap]
    exact ⟨(keys.getD i []).length, List.mem_range.2 (Nat.lt_succ_of_le hpre.length_le),
      hin i hi hpre hfirst⟩
  · intro r hr
    unfold prefix_matches at hr
    rw [List.mem_filterMap] at hr
    obtain ⟨l, hl, hfl⟩ := hr
    have hl2 : l ≤ q.length := Nat.le_of_lt_succ (List.mem_range.1 hl)
    obtain ⟨e1, hmem, e2⟩ := prefix_match_some keys values q l r hfl
    have hlt : keys.findIdx (fun x => decide (x = q.take l)) < keys.length :=
      List.findIdx_lt_length_of_exists ⟨_, hmem, by simp⟩
    have hget : keys.getD (keys.findIdx (fun x => decide (x = q.take l))) [] = q.take l := by
      rw [List.getD_eq_getElem _ _ hlt]
      have := List.findIdx_getElem (w := hlt)
      simpa using this
    refine ⟨_, hlt, ?_, ?_, ?_⟩
    · rw [hget]; exact List.take_prefix _ _
    · intro j hj he
      have := List.not_of_lt_findIdx hj
      rw [hget, List.getD_eq_getElem _ _ (by omega)] at he
      rw [he] at this
      simp at this
    · rw [hget, List.length_take, Nat.min_eq_left hl2, ← e2, ← e1]
  · exact (List.pairwise_lt_range _).sublist
      (filterMap_lengths_sublist _ (fun l r hlr => (prefix_match_some keys values q l r hlr).1) _)
  · intro i hi hiq hfirst
    have hpre : keys.getD i [] <+: q := by rw [hiq]
    have hlast := hin i hi hpre hfirst
    rw [hiq] at hlast
    have hm : prefix_matches keys values q
        = (List.range q.length).filterMap
            (fun l => (key_value keys values (q.take l)).map (fun v => ⟨v, l⟩))
          ++ [⟨DoubleArrayBase.make_value values i, q.length⟩] := by
      unfold prefix_matches
      rw [List.range_succ, List.filterMap_append]
      congr 1
      rw [List.filterMap_cons, hlast]
      rfl
    rw [hm]
    constructor
    · rw [List.length_append]
      exact Nat.le_add_left _ _
    · rw [List.getLast?_append]
      rfl

theorem prefix_matches_ab :
    prefix_matches [[97], [97, 98]] none [97, 98] = [⟨0, 1⟩, ⟨1, 2⟩] := by decide

theorem commonPrefix_matches_witness :
    ∃ da, DoubleArrayBase.build 3 [[97], [97, 98]].length (some [[97], [97, 98]]) none none
        = .ok da ∧
      DoubleArrayBase.commonPrefixSearch 3 da [97, 98] [⟨0, 0⟩, ⟨0, 0⟩, ⟨7, 7⟩] 2 0 0
        = some (2, [⟨0, 1⟩, ⟨1, 2⟩, ⟨7, 7⟩]) := by
  obtain ⟨da, hda⟩ := build_ok_total [[97], [97, 98]] none none (by decide)
    (fun ls h => by cases h) _ collect_keys_a_ab (by decide)
  have h := commonPrefix_matches [[97], [97, 98]] none none (by decide) (fun ls h => by cases h)
    (fun vs h => by cases h) da hda [97, 98] (by decide) [⟨0, 0⟩, ⟨0, 0⟩, ⟨7, 7⟩] 2
    (by rw [prefix_matches_ab]; decide) (by decide)
  rw [prefix_matches_ab] at h
  exact ⟨da, hda, h.1⟩

end Darts

namespace Darts

namespace DoubleArrayBuilder

/-- The loop of `arrange_suffixes` writes at most `length + 5` bytes of tail for
every key. -/
theorem arrange_suffixes_loop_budget (n : Nat) (b0 : DoubleArrayBuilder) :
    ∀ (keys done : List DoubleArrayKey) (prev : Option DoubleArrayKey) (base_link : Nat)
      (values : List Int) (b : DoubleArrayBuilder),
      TailInv n b0 b done prev base_link values →
      (∀ k ∈ keys, k.WF ∧ (∀ c ∈ k.bytes, c < 256) ∧ k.index < n) →
      ((done ++ keys).map (fun k => k.index)).Nodup →
      ∀ bf, arrange_suffixes_loop 3 keys prev base_link values b = .ok bf →
        bf.tail_index ≤ 4 * n + base_link + 4 * values.length
          + (keys.map (fun k => k.length.toNat + 5)).sum := by
  intro keys
  induction keys with
  | nil =>
    intro done prev base_link values b hinv _ _ bf hbf
    have e : arrange_suffixes_loop 3 [] prev base_link values b = .ok b := rfl
    rw [e] at hbf
    cases hbf
    rw [hinv.tail]
    exact Nat.le_add_right _ _
  | cons key rest ih =>
    intro done prev base_link values b hinv hkeys hnd bf hbf
    obtain ⟨hw, hb, hidx⟩ := hkeys key (List.mem_cons_self _ _)
    have hrest : ∀ k ∈ rest, k.WF ∧ (∀ c ∈ k.bytes, c < 256) ∧ k.index < n :=
      fun k hk => hkeys k (List.mem_cons_of_mem _ hk)
    have happ : done ++ key :: rest = (done ++ [key]) ++ rest := by
      rw [List.append_assoc]; rfl
    have hnew : ∀ k ∈ done, k.index ≠ key.index := by
      intro k hk hc
      rw [List.map_append, List.map_cons] at hnd
      have := (List.nodup_append.1 hnd).2.2
      exact this (List.mem_map.2 ⟨k, hk, hc⟩) (List.mem_cons_self _ _)
    rw [happ] at hnd
    rw [arrange_suffixes_loop_eq] at hbf
    obtain ⟨_, hb2⟩ := suffix_budget prev values key base_link
    cases hu : ((suffix_pre prev values key b).unit key.index).set_link 3
        (suffix_base prev values key base_link - key.length.toNat - 1) with
    | error e => rw [hu] at hbf; cases hbf
    | ok u =>
      rw [hu] at hbf
      have hstep := arrange_step hinv key hw hb hidx hnew u hu
      have := ih _ _ _ _ _ hstep hrest hnd bf hbf
      rw [List.map_cons, List.sum_cons]
      omega

/-- The tail that `arrange_suffixes` writes has at most `length + 5` bytes for
every key. -/
theorem arrange_suffixes_budget (b : DoubleArrayBuilder)
    (hwf : ∀ j, (b.units.getD j default).wf)
    (hkeys : ∀ k ∈ b.keys, k.WF ∧ (∀ c ∈ k.bytes, c < 256) ∧ k.index < b.num_of_units)
    (hnd : (b.keys.map (fun k => k.index)).Nodup) (bf : DoubleArrayBuilder)
    (h : arrange_suffixes 3 b = .ok bf) :
    bf.tail_index ≤ 4 * b.num_of_units + (b.keys.map (fun k => k.length.toNat + 5)).sum := by
  by_cases hk : b.keys = []
  · rw [arrange_suffixes_nil b hk] at h
    cases h
    exact Nat.le_add_right _ _
  · rw [arrange_suffixes_eq b hk] at h
    have hperm : (sort_keys b.keys).Perm b.keys := List.perm_insertionSort _ _
    have h2 := arrange_suffixes_loop_budget b.num_of_units b (sort_keys b.keys) [] none 0 []
      _ (tailInv_start b hwf (sort_keys b.keys))
      (fun k hk2 => hkeys k (hperm.mem_iff.1 hk2))
      (by
        rw [List.nil_append]
        exact (hperm.map _).nodup_iff.2 hnd) bf h
    rw [((hperm.map (fun k => k.length.toNat + 5)).sum_eq)] at h2
    simpa using h2

end DoubleArrayBuilder

section keys

variable {K : List DoubleArrayKey} (hK : KeysOK K)
include hK

/-- Every unit of the array the builder returns fits in 32 bits. -/
theorem build_units_wf {U : List DoubleArrayUnit} (h : DoubleArrayBuilder.build 3 K = .ok U)
    (j : Nat) : (U.getD j default).wf := by
  obtain ⟨b, bf, _, _, hU, _, _, har, _⟩ := builder_inv hK h
  rw [hU]
  exact har.shape.wf j

/-- The tail string of every leaf ends below the largest link when the keys
are not too long. -/
theorem leaf_link_bound {U : List DoubleArrayUnit} (h : DoubleArrayBuilder.build 3 K = .ok U)
    (hsize : 5 * DoubleArrayBuilder.trie_fuel K ≤ 2 ^ 28) (q : List Nat) (hq : IsNode K q)
    (hqi : ¬ Internal K q) (i : Nat) (hp : Pre K q i) :
    (U.getD (walk U q) default).link 3 + ((ext_at K i).drop (q.length - 1)).length
      ≤ 2 ^ 28 := by
  obtain ⟨b, bf, _, hbf, hU, hok, _, har, _⟩ := builder_inv hK h
  subst hU
  obtain ⟨h1, h2, h3⟩ := builder_keys_ok hK hok
  have hbud := DoubleArrayBuilder.arrange_suffixes_budget b hok.wf h1 h2 bf hbf
  obtain ⟨hidx, _, hwf, _, hext, _⟩ := builder_key hK hok hq hqi hp
  have hmem : b.keys.getD i default ∈ b.keys := by
    rw [List.getD_eq_getElem _ _ (by rw [hok.keys.length]; exact hp.1)]
    exact List.getElem_mem _
  have hl := (har.leaf_ok _ hmem).bound
  have hlen : ((ext_at K i).drop (q.length - 1)).length
      = (b.keys.getD i default).length.toNat + 1 := by
    rw [← hext]
    unfold DoubleArrayKey.ext
    rw [List.length_append, DoubleArrayKey.bytes_length _ hwf]
    rfl
  rw [arranged_walk hK hok har q hq, ← hidx, hlen]
  omega

end keys

end Darts

namespace Darts

namespace DoubleArrayBase

theorem traverse_tail_cons (da : DoubleArrayBase) (agent : DoubleArrayUnit) (c : Nat)
    (rest : List Nat) (t pos byte : Nat) (h : da.tail? t = some byte) :
    traverse_tail 3 da agent (c :: rest) t pos =
      if byte = c then
        if byte = 0 then
          match agent.set_link 3 t with
          | .error e => some (.error e)
          | .ok agent => (da.get_value (t + (4 * agent.value_id 3 + 1))).bind
              (fun value => some (.ok (value, agent, pos)))
        else traverse_tail 3 da agent rest (t + 1) (pos + 1)
      else some (traverse_return 3 agent t (if c = 0 then -1 else -2) pos) := by
  rw [traverse_tail]
  simp only [h, Option.bind_eq_bind, Option.some_bind, Option.pure_def]
  try
    by_cases h1 : byte = c
    · by_cases h2 : byte = 0
      · simp only [if_pos h1, if_pos h2]
        cases agent.set_link 3 t <;> rfl
      · simp only [if_pos h1, if_neg h2]
    · simp only [if_neg h1]

/-- The loop of `traverse` over the tail, for the string `a ++ b` with its
terminator in the tail and a query that ends after `a`: the value when the
string ends there too, -1 otherwise; the agent links to the rest `b`. -/
theorem traverse_tail_spec (da : DoubleArrayBase) (agent : DoubleArrayUnit) (hwf : agent.wf)
    (v : Int) (b junk : List Nat) (hb : ∀ c ∈ b, c ≠ 0) :
    ∀ (a : List Nat) (t pos : Nat), (∀ c ∈ a, c ≠ 0) →
      (∀ j, j < (a ++ (b ++ [0])).length →
        da.tail? (t + j) = some ((a ++ (b ++ [0])).getD j 0)) →
      da.get_value (t + (a ++ (b ++ [0])).length + 4 * agent.value_id 3) = some v →
      t + (a ++ (b ++ [0])).length ≤ 2 ^ 28 →
      ∃ agent1, agent.set_link 3 (t + a.length) = .ok agent1 ∧
        traverse_tail 3 da agent (a ++ 0 :: junk) t pos
          = some (.ok (if b = [] then v else -1, agent1, pos + a.length)) := by
  intro a
  induction a with
  | nil =>
    intro t pos _ hbytes hval hbound
    simp only [List.nil_append, List.length_append, List.length_singleton] at hbytes hval hbound
    obtain ⟨agent1, h1⟩ := DoubleArrayUnit.set_link_ok agent t (by omega)
    obtain ⟨_, _, hvid, _⟩ := DoubleArrayUnit.set_link_spec hwf h1
    have h0 := hbytes 0 (by omega)
    rw [Nat.add_zero] at h0
    refine ⟨agent1, h1, ?_⟩
    show traverse_tail 3 da agent (0 :: junk) t pos = _
    rw [traverse_tail_cons da agent 0 junk t pos _ h0]
    cases b with
    | nil =>
      have e : ([] ++ [0] : List Nat).getD 0 0 = 0 := rfl
      rw [e, if_pos rfl, if_pos rfl, h1]
      simp only [List.length_nil, Nat.zero_add] at hval
      have e2 : t + (4 * agent1.value_id 3 + 1) = t + 1 + 4 * agent.value_id 3 := by
        rw [hvid]; omega
      show (da.get_value (t + (4 * agent1.value_id 3 + 1))).bind _ = _
      rw [e2, hval]
      rfl
    | cons x b2 =>
      have hx : x ≠ 0 := hb x (List.mem_cons_self _ _)
      have e : (x :: b2 ++ [0] : List Nat).getD 0 0 = x := rfl
      rw [e, if_neg hx, if_pos rfl, if_neg (by simp)]
      unfold traverse_return
      rw [h1]
      rfl
  | cons x a ih =>
    intro t pos ha hbytes hval hbound
    have hx : x ≠ 0 := ha x (List.mem_cons_self _ _)
    have h0 := hbytes 0 (by simp)
    rw [Nat.add_zero] at h0
    have e : (x :: a ++ (b ++ [0]) : List Nat).getD 0 0 = x := rfl
    rw [e] at h0
    have hlen : (x :: a ++ (b ++ [0])).length = (a ++ (b ++ [0])).length + 1 := rfl
    obtain ⟨agent1, h1, h2⟩ := ih (t + 1) (pos + 1)
      (fun c hc => ha c (List.mem_cons_of_mem _ hc))
      (fun j hj => by
        have := hbytes (j + 1) (by rw [hlen]; omega)
        rw [show t + 1 + j = t + (j + 1) by omega, this]
        rfl)
      (by rw [← hval, hlen]; congr 1; omega)
      (by rw [hlen] at hbound; omega)
    refine ⟨agent1, ?_, ?_⟩
    · rw [← h1, List.length_cons]
      congr 1
      omega
    · show traverse_tail 3 da agent (x :: (a ++ 0 :: junk)) t pos = _
      rw [traverse_tail_cons da agent x _ t pos _ h0, if_pos rfl, if_neg hx, h2,
        List.length_cons]
      congr 4
      omega

theorem traverse_query_leaf (da : DoubleArrayBase) (query : List Nat) (pos : Nat)
    (agent : DoubleArrayUnit) (h : agent.is_leaf = true) :
    traverse_query 3 da query pos agent = traverse_tail 3 da agent query (agent.link 3) pos := by
  unfold traverse_query
  rw [h]
  rfl

theorem traverse_query_done (da : DoubleArrayBase) (junk : List Nat) (pos : Nat)
    (agent : DoubleArrayUnit) (h : agent.is_leaf = false) :
    traverse_query 3 da (0 :: junk) pos agent = traverse_end 3 da agent.index agent pos := by
  unfold traverse_query
  rw [h, traverse_units]
  rfl

theorem traverse_units_cons (da : DoubleArrayBase) (c : Nat) (rest : List Nat)
    (index pos : Nat) (agent u0 u : DoubleArrayUnit) (hc : c ≠ 0)
    (h0 : da.unit? index = some u0)
    (h1 : da.unit? (index ^^^ (u0.offset ^^^ c)) = some u) :
    traverse_units da (c :: rest) index agent pos =
      if u.is_leaf then some (.leaf (index ^^^ (u0.offset ^^^ c)) agent (c :: rest) pos)
      else if u.label ≠ c then some (.mismatch agent pos)
      else traverse_units da rest (index ^^^ (u0.offset ^^^ c))
        (agent.set_index (index ^^^ (u0.offset ^^^ c))) (pos + 1) := by
  rw [traverse_units]
  simp only [if_neg hc, h0, h1, Option.bind_eq_bind, Option.some_bind, Option.pure_def]

theorem traverse_query_continue (da : DoubleArrayBase) (c : Nat) (rest : List Nat)
    (pos : Nat) (agent u0 u : DoubleArrayUnit) (hc : c ≠ 0) (hwf : agent.wf)
    (hl : agent.is_leaf = false) (h0 : da.unit? agent.index = some u0)
    (h1 : da.unit? (agent.index ^^^ (u0.offset ^^^ c)) = some u)
    (hidx : agent.index ^^^ (u0.offset ^^^ c) < 2 ^ 31)
    (hul : u.is_leaf = false) (hlab : u.label = c) :
    traverse_query 3 da (c :: rest) pos agent
      = traverse_query 3 da rest (pos + 1)
          (agent.set_index (agent.index ^^^ (u0.offset ^^^ c))) := by
  unfold traverse_query
  rw [hl, traverse_units_cons da c rest _ pos agent u0 u hc h0 h1, hul,
    DoubleArrayUnit.is_leaf_set_index _ _ hwf hidx, hl,
    DoubleArrayUnit.index_set_index _ _ hwf hidx]
  simp only [Bool.false_eq_true, if_false, hlab, ne_eq, not_true_eq_false]
  rw [if_pos (show (!false) = true from rfl), if_pos (show (!false) = true from rfl)]

theorem traverse_query_to_leaf (da : DoubleArrayBase) (c : Nat) (rest : List Nat)
    (pos : Nat) (agent u0 u : DoubleArrayUnit) (hc : c ≠ 0)
    (hl : agent.is_leaf = false) (h0 : da.unit? agent.index = some u0)
    (h1 : da.unit? (agent.index ^^^ (u0.offset ^^^ c)) = some u)
    (hul : u.is_leaf = true) :
    traverse_query 3 da (c :: rest) pos agent
      = traverse_tail 3 da u (c :: rest) (u.link 3) pos := by
  unfold traverse_query
  rw [hl, traverse_units_cons da c rest _ pos agent u0 u hc h0 h1, hul]
  simp only [if_true, Bool.not_false, h1]

/-- A call of `traverse` with an agent that is in the tail: the query `a` is
compared with the tail string, and the agent moves over it. -/
theorem traverse_resume_leaf (da : DoubleArrayBase) (agent : DoubleArrayUnit) (v : Int)
    (a b junk : List Nat) (ha : ∀ c ∈ a, c ≠ 0) (hb : ∀ c ∈ b, c ≠ 0)
    (h : TailAt da agent (a ++ (b ++ [0])) v) (pos : Nat) :
    ∃ agent1, traverse_query 3 da (a ++ 0 :: junk) pos agent
        = some (.ok (if b = [] then v else -1, agent1, pos + a.length)) ∧
      TailAt da agent1 (b ++ [0]) v := by
  obtain ⟨agent1, h1, h2⟩ := traverse_tail_spec da agent h.wf v b junk hb a (agent.link 3) pos ha
    h.bytes h.value h.bound
  obtain ⟨hwf1, hl1, hvid, hlink⟩ := DoubleArrayUnit.set_link_spec h.wf h1
  refine ⟨agent1, by rw [traverse_query_leaf da _ pos agent h.leaf]; exact h2, hwf1,
    by rw [hl1]; exact h.leaf, ?_, ?_, ?_⟩
  · intro j hj
    rw [hlink, Nat.add_assoc, h.bytes (a.length + j) (by rw [List.length_append]; omega),
      List.getD_append_right _ _ _ _ (Nat.le_add_right _ _), Nat.add_sub_cancel_left]
  · rw [hlink, hvid, ← h.value, List.length_append a]
    congr 1
    omega
  · rw [hlink]
    have := h.bound
    rw [List.length_append a] at this
    omega

theorem set_link_raises (u : DoubleArrayUnit) (l : Nat) (hl : 2 ^ 28 ≤ l) :
    u.set_link 3 l = .error .tooLargeLink := by
  unfold DoubleArrayUnit.set_link
  have hm : DoubleArrayUnit.UNIT_LINK_MAX 3 = 2 ^ 28 := by decide
  rw [hm, if_pos hl]

/-- The loop of `traverse` over the tail, for a query that ends where the tail
string ends, at a position that `set_link` does not take: the call raises the
error of `set_link`. -/
theorem traverse_tail_raises (da : DoubleArrayBase) (agent : DoubleArrayUnit)
    (junk : List Nat) (e : DartsError) :
    ∀ (a : List Nat) (t pos : Nat), (∀ c ∈ a, c ≠ 0) →
      (∀ j, j < (a ++ [0]).length → da.tail? (t + j) = some ((a ++ [0]).getD j 0)) →
      agent.set_link 3 (t + a.length) = .error e →
      traverse_tail 3 da agent (a ++ 0 :: junk) t pos = some (.error e) := by
  intro a
  induction a with
  | nil =>
    intro t pos _ hbytes hset
    have h0 := hbytes 0 (by simp)
    rw [Nat.add_zero] at h0
    have e0 : ([] ++ [0] : List Nat).getD 0 0 = 0 := rfl
    rw [e0] at h0
    rw [List.length_nil, Nat.add_zero] at hset
    show traverse_tail 3 da agent (0 :: junk) t pos = _
    rw [traverse_tail_cons da agent 0 junk t pos _ h0, if_pos rfl, if_pos rfl, hset]
  | cons x a ih =>
    intro t pos ha hbytes hset
    have hx : x ≠ 0 := ha x (List.mem_cons_self _ _)
    have h0 := hbytes 0 (by simp)
    rw [Nat.add_zero] at h0
    have e0 : (x :: a ++ [0] : List Nat).getD 0 0 = x := rfl
    rw [e0] at h0
    have hlen : (x :: a ++ [0]).length = (a ++ [0]).length + 1 := rfl
    have h2 := ih (t + 1) (pos + 1) (fun c hc => ha c (List.mem_cons_of_mem _ hc))
      (fun j hj => by
        have := hbytes (j + 1) (by rw [hlen]; omega)
        rw [show t + 1 + j = t + (j + 1) by omega, this]
        rfl)
      (by rw [← hset, List.length_cons]; congr 1; omega)
    show traverse_tail 3 da agent (x :: (a ++ 0 :: junk)) t pos = _
    rw [traverse_tail_cons da agent x _ t pos _ h0, if_pos rfl, if_neg hx, h2]

end DoubleArrayBase

section dict3

variable {K : List DoubleArrayKey} (hK : KeysOK K) {n : Nat} {da : DoubleArrayBase}
  (hd : DictOK K da.units n) (ht : da.tail = 4 * n)
  (hval : ∀ k ∈ K, Int32 k.value)
  (kv : List Nat → Option Int)
  (hkv1 : ∀ k i, i < K.length → ext_at K i = k ++ [0] → kv k = some (K.getD i default).value)
  (hkv2 : ∀ k, (∀ i, i < K.length → ext_at K i ≠ k ++ [0]) → kv k = none)
  (hwf : ∀ j, (da.units.getD j default).wf)

include hK hd ht hval hkv1 hkv2 in
/-- The part "checks a transition with a null character" of `traverse` at a
node with children: the value of the key that ends there, or -1. -/
theorem traverse_end_node {p : List Nat} (hp : IsNode K p) (hpi : Internal K p)
    (agent : DoubleArrayUnit) (pos : Nat) :
    DoubleArrayBase.traverse_end 3 da (walk da.units p) agent pos
      = some (.ok ((kv p).getD (-1), agent, pos)) := by
  obtain ⟨_, _, hend, _⟩ := hd.internal p hp hpi
  obtain ⟨h0, hidx, h1⟩ := node_reads hd hp hpi 0 (by decide)
  rw [Nat.xor_zero] at hidx
  unfold DoubleArrayBase.traverse_end
  simp only [h0, Option.bind_eq_bind, Option.some_bind, Option.pure_def]
  by_cases he : (da.units.getD (walk da.units p) default).is_end = true
  · obtain ⟨i, hi⟩ := hend.1 he
    have hnode : IsNode K (p ++ [0]) := isNode_snoc hpi hi
    obtain ⟨_, i2, hp2, _, _, _, hvalue⟩ :=
      leaf_reads hK hd ht hval hnode (not_internal_zero hK p)
    have hext := ext_of_pre_zero hK hp2
    have hdrop : (ext_at K i2).drop ((p ++ [0]).length - 1) = [0] := by
      have e : (p ++ [0]).length - 1 = p.length := by rw [List.length_append]; rfl
      rw [e, hext, List.drop_left]
    rw [hdrop] at hvalue
    have e : (da.units.getD (walk da.units (p ++ [0])) default).link 3
        + (4 * (da.units.getD (walk da.units (p ++ [0])) default).value_id 3 + 1)
        = (da.units.getD (walk da.units (p ++ [0])) default).link 3 + [0].length
          + 4 * (da.units.getD (walk da.units (p ++ [0])) default).value_id 3 := by
      simp only [List.length_singleton]; omega
    rw [he, hidx, h1]
    simp only [Bool.not_true, Bool.false_eq_true, if_false, Option.some_bind]
    rw [e, hvalue, hkv1 p i2 hp2.1 hext]
    rfl
  · have hnone : kv p = none := by
      apply hkv2
      intro i hi hext
      exact he (hend.2 ⟨i, hi, by rw [hext]⟩)
    have he2 : (da.units.getD (walk da.units p) default).is_end = false := by
      cases h : (da.units.getD (walk da.units p) default).is_end
      · rfl
      · exact absurd h he
    rw [he2, hnone]
    rfl

include hK hd ht hval hkv1 hkv2 hwf in
/-- A call of `traverse` with an agent at the node `p`, which has children,
for a query `a` such that `p ++ a` is the start of the key `i`: the call returns
the value of the key `p ++ a`, or -1 when that is no key, and leaves an agent
from which the rest of the key can be searched. -/
theorem traverse_spec (i : Nat) (hi : i < K.length)
    (hbound : ∀ q, IsNode K q → ¬ Internal K q → Pre K q i →
      (da.units.getD (walk da.units q) default).link 3
        + ((ext_at K i).drop (q.length - 1)).length ≤ 2 ^ 28)
    (b junk : List Nat)
    (hb : ∀ c ∈ b, c ≠ 0) :
    ∀ (a p : List Nat) (pos : Nat) (agent : DoubleArrayUnit),
      (∀ c ∈ a, c ≠ 0) → (∀ c ∈ a, c < 256) → IsNode K p → Internal K p →
      ext_at K i = p ++ (a ++ (b ++ [0])) →
      agent.wf → agent.is_leaf = false → agent.index = walk da.units p →
      ∃ agent1, DoubleArrayBase.traverse_query 3 da (a ++ 0 :: junk) pos agent
          = some (.ok ((kv (p ++ a)).getD (-1), agent1, pos + a.length)) ∧
        Resumable K da agent1 (p ++ a) b (K.getD i default).value := by
  intro a
  induction a with
  | nil =>
    intro p pos agent _ _ hp hpi _ hawf hal haidx
    refine ⟨agent, ?_, hawf, Or.inl ⟨hal, by rw [List.append_nil]; exact hp,
      by rw [List.append_nil]; exact hpi, by rw [List.append_nil]; exact haidx⟩⟩
    show DoubleArrayBase.traverse_query 3 da (0 :: junk) pos agent = _
    rw [DoubleArrayBase.traverse_query_done da junk pos agent hal, haidx,
      traverse_end_node hK hd ht hval kv hkv1 hkv2 hp hpi, List.append_nil]
    rfl
  | cons c a ih =>
    intro p pos agent h0 hbytes hp hpi hext hawf hal haidx
    have hc : c < 256 := hbytes c (List.mem_cons_self _ _)
    have hc0 : c ≠ 0 := h0 c (List.mem_cons_self _ _)
    obtain ⟨hu0, hidx, h1⟩ := node_reads hd hp hpi c hc
    have h1b : da.unit? (agent.index
        ^^^ ((da.units.getD (walk da.units p) default).offset ^^^ c))
        = some (da.units.getD (walk da.units (p ++ [c])) default) := by
      rw [haidx, hidx]; exact h1
    have hu0b : da.unit? agent.index = some (da.units.getD (walk da.units p) default) := by
      rw [haidx]; exact hu0
    have hext2 : ext_at K i = (p ++ [c]) ++ (a ++ (b ++ [0])) := by
      rw [hext]; simp
    have hpre : Pre K (p ++ [c]) i := ⟨hi, by rw [hext2]; exact List.prefix_append _ _⟩
    have hnode : IsNode K (p ++ [c]) := isNode_snoc hpi hpre
    have hlt : walk da.units (p ++ [c]) < 2 ^ 31 := by
      have := (hd.node _ hnode).1
      have := hd.num.2.2.2
      omega
    have hpa : p ++ c :: a = (p ++ [c]) ++ a := by simp
    show ∃ agent1, DoubleArrayBase.traverse_query 3 da (c :: (a ++ 0 :: junk)) pos agent = _ ∧ _
    by_cases hint : Internal K (p ++ [c])
    · obtain ⟨hl, hlab, _, _⟩ := hd.internal _ hnode hint
      rw [List.getLastD_concat] at hlab
      rw [DoubleArrayBase.traverse_query_continue da c _ pos agent _ _ hc0 hawf hal hu0b h1b
        (by rw [haidx, hidx]; exact hlt) hl hlab, haidx, hidx]
      obtain ⟨agent1, e1, e2⟩ := ih (p ++ [c]) (pos + 1)
        (agent.set_index (walk da.units (p ++ [c])))
        (fun x hx => h0 x (List.mem_cons_of_mem _ hx))
        (fun x hx => hbytes x (List.mem_cons_of_mem _ hx)) hnode hint hext2
        (DoubleArrayUnit.wf_set_index _ _ hawf hlt)
        (by rw [DoubleArrayUnit.is_leaf_set_index _ _ hawf hlt]; exact hal)
        (DoubleArrayUnit.index_set_index _ _ hawf hlt)
      refine ⟨agent1, ?_, ?_⟩
      · rw [e1, hpa, List.length_cons]
        congr 4
        omega
      · rw [hpa]; exact e2
    · obtain ⟨hl, i2, hpre2, hz, hfirst, htail, hvalue⟩ := leaf_reads hK hd ht hval hnode hint
      have hii : i2 = i := leaf_key_unique hint hpre2 hpre
      subst hii
      have hbd := hbound _ hnode hint hpre
      have hlen1 : (p ++ [c]).length - 1 = p.length := by
        rw [List.length_append]; rfl
      have hdrop : (ext_at K i2).drop ((p ++ [c]).length - 1) = (c :: a) ++ (b ++ [0]) := by
        rw [hlen1, hext, List.drop_left]
      rw [hdrop] at htail hvalue hbd
      have hta : TailAt da (da.units.getD (walk da.units (p ++ [c])) default)
          ((c :: a) ++ (b ++ [0])) (K.getD i2 default).value :=
        ⟨hwf _, hl, htail, hvalue, hbd⟩
      obtain ⟨agent1, e1, e2⟩ := DoubleArrayBase.traverse_tail_spec da _ hta.wf
        (K.getD i2 default).value b junk hb (c :: a) _ pos h0 hta.bytes hta.value hta.bound
      obtain ⟨hwf1, hl1, hvid, hlink⟩ := DoubleArrayUnit.set_link_spec hta.wf e1
      have hkvb : (kv (p ++ c :: a)).getD (-1)
          = if b = [] then (K.getD i2 default).value else -1 := by
        by_cases hbn : b = []
        · rw [if_pos hbn, hkv1 (p ++ c :: a) i2 hi (by rw [hext, hbn]; simp)]
          rfl
        · rw [if_neg hbn, hkv2 (p ++ c :: a) (fun j hj hextj => by
            have hj2 : Pre K (p ++ [c]) j :=
              ⟨hj, by rw [hextj, hpa, List.append_assoc]; exact List.prefix_append _ _⟩
            have hji := leaf_key_unique hint hj2 hpre
            rw [hji, hext] at hextj
            have e0 : p ++ ((c :: a) ++ (b ++ [0])) = p ++ ((c :: a) ++ [0]) := by
              rw [hextj]; simp
            have e := List.append_cancel_left e0
            have e3 := List.append_cancel_left e
            cases b with
            | nil => exact hbn rfl
            | cons x b2 =>
              have := congrArg List.length e3
              simp at this)]
          rfl
      refine ⟨agent1, ?_, hwf1, Or.inr ⟨hwf1, by rw [hl1]; exact hl, ?_, ?_, ?_⟩⟩
      · rw [DoubleArrayBase.traverse_query_to_leaf da c _ pos agent _ _ hc0 hal hu0b h1b hl,
          hkvb]
        exact e2
      · intro j hj
        rw [hlink, Nat.add_assoc, hta.bytes ((c :: a).length + j) (by
            rw [List.length_append]; omega),
          List.getD_append_right _ _ _ _ (Nat.le_add_right _ _), Nat.add_sub_cancel_left]
      · rw [hlink, hvid, ← hta.value, List.length_append (c :: a)]
        congr 1
        omega
      · rw [hlink]
        have := hta.bound
        rw [List.length_append (c :: a)] at this
        omega

include hK hd ht hval hkv1 hkv2 hwf in
/-- A call of `traverse` with the agent that an earlier call has left after the
prefix `p` of the key `i`, for the rest `b` of the key: the call returns the
value of the key. -/
theorem traverse_resume (i : Nat) (hi : i < K.length)
    (hbound : ∀ q, IsNode K q → ¬ Internal K q → Pre K q i →
      (da.units.getD (walk da.units q) default).link 3
        + ((ext_at K i).drop (q.length - 1)).length ≤ 2 ^ 28)
    (p b junk : List Nat)
    (hb0 : ∀ c ∈ b, c ≠ 0) (hb256 : ∀ c ∈ b, c < 256)
    (hext : ext_at K i = p ++ (b ++ [0])) (agent : DoubleArrayUnit)
    (hr : Resumable K da agent p b (K.getD i default).value) (pos : Nat) :
    ∃ agent2, DoubleArrayBase.traverse_query 3 da (b ++ 0 :: junk) pos agent
      = some (.ok ((K.getD i default).value, agent2, pos + b.length)) := by
  obtain ⟨hawf, hcase⟩ := hr
  rcases hcase with ⟨hl, hp, hpi, hidx⟩ | hta
  · obtain ⟨agent2, e1, _⟩ := traverse_spec hK hd ht hval kv hkv1 hkv2 hwf i hi hbound [] junk
      (by simp) b p pos agent hb0 hb256 hp hpi (by rw [hext]; rfl) hawf hl hidx
    refine ⟨agent2, ?_⟩
    rw [e1, hkv1 (p ++ b) i hi (by rw [hext, List.append_assoc])]
    rfl
  · obtain ⟨agent2, e1, _⟩ := DoubleArrayBase.traverse_resume_leaf da agent
      (K.getD i default).value b [] junk hb0 (by simp) hta pos
    refine ⟨agent2, ?_⟩
    rw [e1, if_pos rfl]

/-- A key has one leaf. -/
theorem leaf_unique_of_pre {i : Nat} {q q2 : List Nat} (hq : IsNode K q)
    (hqi : ¬ Internal K q) (hp : Pre K q i) (hq2 : IsNode K q2) (hqi2 : ¬ Internal K q2)
    (hp2 : Pre K q2 i) : q = q2 := by
  have key : ∀ {a b : List Nat}, IsNode K b → ¬ Internal K a → a <+: b → a = b := by
    intro a b hb ha hab
    by_contra hne
    have hlt : a.length < b.length := by
      rcases Nat.lt_or_ge a.length b.length with h | h
      · exact h
      · exact absurd (hab.eq_of_length (Nat.le_antisymm hab.length_le h)) hne
    have hb0 : b ≠ [] := by
      intro h0
      rw [h0] at hlt
      exact Nat.not_lt_zero _ hlt
    have hpre : a <+: b.dropLast := by
      obtain ⟨t, ht2⟩ := hab
      have ht0 : t ≠ [] := by
        intro h0
        rw [h0, List.append_nil] at ht2
        exact hne ht2
      refine ⟨t.dropLast, ?_⟩
      rw [← ht2, List.dropLast_append_of_ne_nil _ ht0]
    exact ha (internal_mono hb.2 hpre)
  rcases Nat.le_total q.length q2.length with h | h
  · exact key hq2 hqi (List.prefix_of_prefix_length_le hp.2 hp2.2 h)
  · exact (key hq hqi2 (List.prefix_of_prefix_length_le hp2.2 hp.2 h)).symm

include hK hd in
/-- The search for the leaf unit of the key `i` from a node with children on
the way to it ends at the leaf of the key. -/
theorem tail_end_spec (i : Nat) (hi : i < K.length) :
    ∀ (rest p : List Nat), IsNode K p → Internal K p → ext_at K i = p ++ rest →
      ∃ q, IsNode K q ∧ ¬ Internal K q ∧ Pre K q i ∧
        tail_end_from da.units (walk da.units p) rest
          = (da.units.getD (walk da.units q) default).link 3
            + ((ext_at K i).drop (q.length - 1)).length := by
  intro rest
  induction rest with
  | nil =>
    intro p hp hpi hext
    exfalso
    rw [List.append_nil] at hext
    rw [← hext] at hpi
    exact ext_not_internal hK hi hpi
  | cons c rest ih =>
    intro p hp hpi hext
    have hext2 : ext_at K i = (p ++ [c]) ++ rest := by
      rw [hext]; simp
    have hpre : Pre K (p ++ [c]) i := ⟨hi, by rw [hext2]; exact List.prefix_append _ _⟩
    have hnode : IsNode K (p ++ [c]) := isNode_snoc hpi hpre
    have hc : c < 256 := by
      have hmem : c ∈ ext_at K i := by rw [hext]; simp
      have hext0 : ext_at K i = (K.getD i default).bytes ++ [0] := rfl
      rw [hext0] at hmem
      rcases List.mem_append.1 hmem with h | h
      · exact hK.byte _ (getD_mem' hi) c h
      · rw [List.mem_singleton.1 h]; decide
    obtain ⟨_, hidx, _⟩ := node_reads hd hp hpi c hc
    unfold tail_end_from
    rw [hidx]
    by_cases hint : Internal K (p ++ [c])
    · obtain ⟨hl, _⟩ := hd.internal _ hnode hint
      have hl2 : (da.units.getD (walk da.units (p ++ [c])) default).is_leaf = false := hl
      rw [hl2]
      simp only [Bool.false_eq_true, if_false]
      exact ih (p ++ [c]) hnode hint hext2
    · obtain ⟨hl, _⟩ := hd.leaf _ hnode hint
      have hl2 : (da.units.getD (walk da.units (p ++ [c])) default).is_leaf = true := hl
      rw [hl2]
      simp only [if_true]
      refine ⟨p ++ [c], hnode, hint, hpre, ?_⟩
      have hlen1 : (p ++ [c]).length - 1 = p.length := by
        rw [List.length_append]; rfl
      rw [hlen1, hext, List.drop_left, List.length_cons]

include hK hd in
/-- The end of the tail string of the key `i`, as `tail_end` computes it, is the
link of the leaf of the key plus the length of the string of the leaf. -/
theorem tail_end_leaf (i : Nat) (hi : i < K.length) (k : List Nat)
    (hext : ext_at K i = k ++ [0]) (q : List Nat) (hq : IsNode K q) (hqi : ¬ Internal K q)
    (hp : Pre K q i) :
    da.tail_end k = (da.units.getD (walk da.units q) default).link 3
      + ((ext_at K i).drop (q.length - 1)).length := by
  have hroot : IsNode K [] := ⟨⟨i, hi, List.nil_prefix⟩, Or.inl rfl⟩
  obtain ⟨q2, h1, h2, h3, h4⟩ := tail_end_spec hK hd i hi (k ++ [0]) [] hroot (Or.inl rfl)
    (by rw [hext, List.nil_append])
  have hqq := leaf_unique_of_pre hq hqi hp h1 h2 h3
  subst hqq
  unfold DoubleArrayBase.tail_end
  rw [walk_nil] at h4
  exact h4

include hK hd ht hval in
/-- A call of `traverse` with an agent at the node `p`, which has children,
for the rest of the key `i`, when the tail string of the key ends after the
largest link: `set_link` raises "Too large link address". -/
theorem traverse_raises (i : Nat) (hi : i < K.length)
    (hbig : ∀ q, IsNode K q → ¬ Internal K q → Pre K q i →
      2 ^ 28 < (da.units.getD (walk da.units q) default).link 3
        + ((ext_at K i).drop (q.length - 1)).length)
    (junk : List Nat) :
    ∀ (a p : List Nat) (pos : Nat) (agent : DoubleArrayUnit),
      (∀ c ∈ a, c ≠ 0) → (∀ c ∈ a, c < 256) → IsNode K p → Internal K p →
      ext_at K i = p ++ (a ++ [0]) →
      agent.wf → agent.is_leaf = false → agent.index = walk da.units p →
      DoubleArrayBase.traverse_query 3 da (a ++ 0 :: junk) pos agent
        = some (.error .tooLargeLink) := by
  intro a
  induction a with
  | nil =>
    intro p pos agent _ _ hp hpi hext hawf hal haidx
    exfalso
    have hpre : Pre K (p ++ [0]) i := ⟨hi, by rw [hext]; exact List.prefix_refl _⟩
    have hnode : IsNode K (p ++ [0]) := isNode_snoc hpi hpre
    have hb := hbig _ hnode (not_internal_zero hK p) hpre
    have hlen1 : (p ++ [0]).length - 1 = p.length := by
      rw [List.length_append]; rfl
    rw [hlen1, hext, List.drop_left] at hb
    have := DoubleArrayUnit.link_lt (da.units.getD (walk da.units (p ++ [0])) default)
    simp only [List.nil_append, List.length_singleton] at hb
    omega
  | cons c a ih =>
    intro p pos agent h0 hbytes hp hpi hext hawf hal haidx
    have hc : c < 256 := hbytes c (List.mem_cons_self _ _)
    have hc0 : c ≠ 0 := h0 c (List.mem_cons_self _ _)
    obtain ⟨hu0, hidx, h1⟩ := node_reads hd hp hpi c hc
    have h1b : da.unit? (agent.index
        ^^^ ((da.units.getD (walk da.units p) default).offset ^^^ c))
        = some (da.units.getD (walk da.units (p ++ [c])) default) := by
      rw [haidx, hidx]; exact h1
    have hu0b : da.unit? agent.index = some (da.units.getD (walk da.units p) default) := by
      rw [haidx]; exact hu0
    have hext2 : ext_at K i = (p ++ [c]) ++ (a ++ [0]) := by
      rw [hext]; simp
    have hpre : Pre K (p ++ [c]) i := ⟨hi, by rw [hext2]; exact List.prefix_append _ _⟩
    have hnode : IsNode K (p ++ [c]) := isNode_snoc hpi hpre
    have hlt : walk da.units (p ++ [c]) < 2 ^ 31 := by
      have := (hd.node _ hnode).1
      have := hd.num.2.2.2
      omega
    show DoubleArrayBase.traverse_query 3 da (c :: (a ++ 0 :: junk)) pos agent = _
    by_cases hint : Internal K (p ++ [c])
    · obtain ⟨hl, hlab, _, _⟩ := hd.internal _ hnode hint
      rw [List.getLastD_concat] at hlab
      rw [DoubleArrayBase.traverse_query_continue da c _ pos agent _ _ hc0 hawf hal hu0b h1b
        (by rw [haidx, hidx]; exact hlt) hl hlab, haidx, hidx]
      exact ih (p ++ [c]) (pos + 1)
        (agent.set_index (walk da.units (p ++ [c])))
        (fun x hx => h0 x (List.mem_cons_of_mem _ hx))
        (fun x hx => hbytes x (List.mem_cons_of_mem _ hx)) hnode hint hext2
        (DoubleArrayUnit.wf_set_index _ _ hawf hlt)
        (by rw [DoubleArrayUnit.is_leaf_set_index _ _ hawf hlt]; exact hal)
        (DoubleArrayUnit.index_set_index _ _ hawf hlt)
    · obtain ⟨hl, i2, hpre2, hz, hfirst, htail, hvalue⟩ := leaf_reads hK hd ht hval hnode hint
      have hii : i2 = i := leaf_key_unique hint hpre2 hpre
      subst hii
      have hbd := hbig _ hnode hint hpre
      have hlen1 : (p ++ [c]).length - 1 = p.length := by
        rw [List.length_append]; rfl
      have hdrop : (ext_at K i2).drop ((p ++ [c]).length - 1) = (c :: a) ++ [0] := by
        rw [hlen1, hext, List.drop_left]
      rw [hdrop] at htail hbd
      rw [DoubleArrayBase.traverse_query_to_leaf da c _ pos agent _ _ hc0 hal hu0b h1b hl]
      exact DoubleArrayBase.traverse_tail_raises da _ junk _ (c :: a) _ pos h0 htail
        (DoubleArrayBase.set_link_raises _ _ (by
          rw [List.length_append, List.length_singleton] at hbd
          omega))

end dict3

/-- The bytes of a query that is given with a length below its end. -/
theorem query_bytes_split (key : List Nat) (j : Nat) (h1 : 1 ≤ j) (h2 : j ≤ key.length) :
    DoubleArrayBase.query_bytes key j = key.take j ++ 0 :: (key ++ [0]).drop (j + 1) := by
  unfold DoubleArrayBase.query_bytes
  rw [if_neg (by omega), List.set_eq_take_append_cons_drop,
    if_pos (by rw [List.length_append, List.length_singleton]; omega),
    List.take_append_of_le_length h2]

theorem unit_of_values (u : DoubleArrayUnit) (h : u.wf) :
    (⟨u.values % 2 ^ 32⟩ : DoubleArrayUnit) = u := by
  cases u with
  | mk v =>
    have hv : v < 2 ^ 32 := h
    rw [DoubleArrayUnit.mk.injEq]
    exact Nat.mod_eq_of_lt hv

/-- The public `traverse` returns what the private `traverse` returns, with
the agent as a number. -/
theorem traverse_public (da : DoubleArrayBase) (key : List Nat) (agent key_index length : Nat)
    (value : Int) (unit : DoubleArrayUnit) (pos : Nat)
    (h : DoubleArrayBase.traverse_query 3 da
      ((DoubleArrayBase.query_bytes key length).drop key_index) key_index ⟨agent % 2 ^ 32⟩
      = some (.ok (value, unit, pos))) :
    DoubleArrayBase.traverse 3 da key agent key_index length
      = some (.ok (value, unit.values, pos)) := by
  unfold DoubleArrayBase.traverse
  rw [h]

end Darts

namespace Darts

/-- The values that `key_value` gives are those of the keys kept by `build`. -/
theorem key_value_collected {keys : List (List Nat)} {values : Option (List Int)}
    {ks : List DoubleArrayKey} (hc : Collected keys values keys.length ks) :
    (∀ k i, i < ks.length → ext_at ks i = k ++ [0] →
      key_value keys values k = some (ks.getD i default).value) ∧
    (∀ k, (∀ i, i < ks.length → ext_at ks i ≠ k ++ [0]) → key_value keys values k = none) := by
  constructor
  · intro k m hm hext
    rw [ext_of_collected hc hm] at hext
    have hkey : (ks.getD m default).key = k := List.append_cancel_right hext
    obtain ⟨_, _, _, _, i0, hi0, h5, h6, h7⟩ := hc.entry _ (getD_mem' hm)
    rw [hkey] at h5
    have hmem : k ∈ keys := by
      rw [h5, List.getD_eq_getElem _ _ hi0]
      exact List.getElem_mem hi0
    unfold key_value
    rw [if_pos hmem, findIdx_first keys k i0 hi0 h5.symm (fun j hj => by
      rw [h5]; exact h7 j hj), h6]
  · intro k hno
    unfold key_value
    rw [if_neg]
    intro hmem
    obtain ⟨i, hi, hik⟩ := List.getElem_of_mem hmem
    obtain ⟨e, he, hek⟩ := hc.complete i hi
    obtain ⟨m, hm, hme⟩ := List.getElem_of_mem he
    have hmd : ks.getD m default = e := by rw [List.getD_eq_getElem _ _ hm]; exact hme
    apply hno m hm
    rw [ext_of_collected hc hm, hmd, hek, List.getD_eq_getElem _ _ hi, hik]

/-- What the proofs about `traverse` use of a dictionary that `build` returned
and of a key of the set: the keys of the builder, the trie and the tail of the
dictionary, and the place of the key among the keys of the builder. -/
theorem traverse_setup (keys : List (List Nat)) (lengths : Option (List Nat))
    (values : Option (List Int)) (hv : ∀ k ∈ keys, ValidKey k)
    (hL : ∀ ls, lengths = some ls → ∀ i, i < keys.length → ls.getD i 0 = (keys.getD i []).length)
    (hvals : ∀ vs, values = some vs → ∀ v ∈ vs, Int32 v)
    (da : DoubleArrayBase)
    (h : DoubleArrayBase.build 3 keys.length (some keys) lengths values = .ok da)
    (i : Nat) (hi : i < keys.length) (hfirst : ∀ m, m < i → keys.getD m [] ≠ keys.getD i []) :
    ∃ (ks : List DoubleArrayKey) (n m : Nat),
      DoubleArrayBase.collect_keys lengths values keys 0 [] = .ok ks ∧
      KeysOK ks ∧ DoubleArrayBuilder.build 3 ks = .ok da.units ∧
      DictOK ks da.units n ∧ da.tail = 4 * n ∧ (∀ k ∈ ks, Int32 k.value) ∧
      (∀ k i, i < ks.length → ext_at ks i = k ++ [0] →
        key_value keys values k = some (ks.getD i default).value) ∧
      (∀ k, (∀ i, i < ks.length → ext_at ks i ≠ k ++ [0]) → key_value keys values k = none) ∧
      (∀ j, (da.units.getD j default).wf) ∧
      m < ks.length ∧ ext_at ks m = keys.getD i [] ++ [0] ∧
      (ks.getD m default).value = DoubleArrayBase.make_value values i := by
  obtain ⟨ks2, U, hks2, hc, hok, hU, hda⟩ := build_ok_inv keys lengths values hv hL h
  subst hda
  obtain ⟨hd, _⟩ := builder_sound hok hU
  have ht : (DoubleArrayBase.set_vector U).tail = 4 * (U.getD 1 default).offset := rfl
  have hval : ∀ k ∈ ks2, Int32 k.value := by
    intro k hk
    obtain ⟨_, _, _, _, i0, _, _, h6, _⟩ := hc.entry k hk
    rw [h6]
    exact int32_make_value values hvals i0
  obtain ⟨hkv1, hkv2⟩ := key_value_collected hc
  have hwf : ∀ m, ((DoubleArrayBase.set_vector U).units.getD m default).wf :=
    fun m => build_units_wf hok hU m
  have hd2 : DictOK ks2 (DoubleArrayBase.set_vector U).units (U.getD 1 default).offset := hd
  obtain ⟨e, he, hek⟩ := hc.complete i hi
  obtain ⟨_, _, _, _, i0, hi0, h5, h6, h7⟩ := hc.entry e he
  have hii : i0 = i := by
    rcases Nat.lt_trichotomy i0 i with hlt | heq | hgt
    · exact absurd (by rw [← h5, hek]) (hfirst i0 hlt)
    · exact heq
    · exact absurd (by rw [← h5, hek]) (h7 i hgt)
  obtain ⟨m, hm, hme⟩ := List.getElem_of_mem he
  have hmd : ks2.getD m default = e := by rw [List.getD_eq_getElem _ _ hm]; exact hme
  have hext : ext_at ks2 m = keys.getD i [] ++ [0] := by
    rw [ext_of_collected hc hm, hmd, hek]
  have hvm : (ks2.getD m default).value = DoubleArrayBase.make_value values i := by
    rw [hmd, h6, hii]
  exact ⟨ks2, _, m, hks2, hok, hU, hd2, ht, hval, hkv1, hkv2, hwf, hm, hext, hvm⟩

/-- The tail string of every key ends below the largest link when the keys
have at most `2^28 / 5` bytes in all, terminators included. -/
theorem tail_end_small (keys : List (List Nat)) (lengths : Option (List Nat))
    (values : Option (List Int)) (hv : ∀ k ∈ keys, ValidKey k)
    (hL : ∀ ls, lengths = some ls → ∀ i, i < keys.length → ls.getD i 0 = (keys.getD i []).length)
    (hvals : ∀ vs, values = some vs → ∀ v ∈ vs, Int32 v)
    (ks : List DoubleArrayKey)
    (hks : DoubleArrayBase.collect_keys lengths values keys 0 [] = .ok ks)
    (hsize : 5 * DoubleArrayBuilder.trie_fuel ks ≤ 2 ^ 28)
    (da : DoubleArrayBase)
    (h : DoubleArrayBase.build 3 keys.length (some keys) lengths values = .ok da)
    (i : Nat) (hi : i < keys.length) (hfirst : ∀ m, m < i → keys.getD m [] ≠ keys.getD i []) :
    da.tail_end (keys.getD i []) ≤ 2 ^ 28 := by
  obtain ⟨ks2, n, m, hks2, hok, hU, hd, _, _, _, _, _, hm, hext, _⟩ :=
    traverse_setup keys lengths values hv hL hvals da h i hi hfirst
  have hkk : ks2 = ks := by
    rw [hks2] at hks
    exact Except.ok.inj hks
  subst hkk
  obtain ⟨q, hq1, hq2, hq3⟩ := leaf_of_key hok hm
  rw [tail_end_leaf hok hd m hm _ hext q hq1 hq2 hq3]
  exact leaf_link_bound hok hU hsize q hq1 hq2 m hq3

/-- Method `traverse` on a dictionary that `build` returned, for a key of the
set whose tail string ends below the largest link, in two calls: the first
call, with the length `j`, returns the value of the first `j` bytes of the key
when they are a key, and -1 otherwise; the second call, from the agent and the
position that the first has left, returns the value of the key. -/
theorem traverse_build (keys : List (List Nat)) (lengths : Option (List Nat))
    (values : Option (List Int)) (hv : ∀ k ∈ keys, ValidKey k)
    (hL : ∀ ls, lengths = some ls → ∀ i, i < keys.length → ls.getD i 0 = (keys.getD i []).length)
    (hvals : ∀ vs, values = some vs → ∀ v ∈ vs, Int32 v)
    (da : DoubleArrayBase)
    (h : DoubleArrayBase.build 3 keys.length (some keys) lengths values = .ok da)
    (i : Nat) (hi : i < keys.length) (hfirst : ∀ m, m < i → keys.getD m [] ≠ keys.getD i [])
    (htail : da.tail_end (keys.getD i []) ≤ 2 ^ 28)
    (j : Nat) (hj1 : 1 ≤ j) (hj2 : j ≤ (keys.getD i []).length) :
    ∃ np, DoubleArrayBase.traverse 3 da (keys.getD i []) 0 0 j
        = some (.ok ((key_value keys values ((keys.getD i []).take j)).getD (-1), np, j)) ∧
      ∃ np2, DoubleArrayBase.traverse 3 da (keys.getD i []) np j (keys.getD i []).length
        = some (.ok (DoubleArrayBase.make_value values i, np2, (keys.getD i []).length)) := by
  obtain ⟨ks2, n, m, _, hok, _, hd2, ht, hval, hkv1, hkv2, hwf, hm, hext, hvm⟩ :=
    traverse_setup keys lengths values hv hL hvals da h i hi hfirst
  have hbound : ∀ q, IsNode ks2 q → ¬ Internal ks2 q → Pre ks2 q m →
      (da.units.getD (walk da.units q) default).link 3
        + ((ext_at ks2 m).drop (q.length - 1)).length ≤ 2 ^ 28 := by
    intro q hq hqi hp
    rw [← tail_end_leaf hok hd2 m hm _ hext q hq hqi hp]
    exact htail
  -- the key in the list of the builder
  have hq : ValidKey (keys.getD i []) := by
    rw [List.getD_eq_getElem _ _ hi]
    exact hv _ (List.getElem_mem hi)
  have hk0 : ks2 ≠ [] := by
    intro h0
    rw [h0] at hm
    cases hm
  have hroot : IsNode ks2 [] :=
    ⟨⟨0, List.length_pos.2 hk0, List.nil_prefix⟩, Or.inl rfl⟩
  have htd : (keys.getD i []).take j ++ (keys.getD i []).drop j = keys.getD i [] :=
    List.take_append_drop _ _
  have hlt : ((keys.getD i []).take j).length = j := by
    rw [List.length_take]; omega
  -- the first call
  obtain ⟨agent1, e1, hr⟩ := traverse_spec hok hd2 ht hval (key_value keys values) hkv1 hkv2
    hwf m hm hbound ((keys.getD i []).drop j) ((keys.getD i [] ++ [0]).drop (j + 1))
    (fun c hc2 => Nat.ne_of_gt (hq c (List.mem_of_mem_drop hc2)).1)
    ((keys.getD i []).take j) [] 0 ⟨0 % 2 ^ 32⟩
    (fun c hc2 => Nat.ne_of_gt (hq c (List.mem_of_mem_take hc2)).1)
    (fun c hc2 => (hq c (List.mem_of_mem_take hc2)).2) hroot (Or.inl rfl)
    (by rw [hext, List.nil_append, ← List.append_assoc, htd])
    (show (0 % 2 ^ 32 : Nat) < 2 ^ 32 by decide) (by decide) (by rw [walk_nil]; decide)
  rw [List.nil_append, Nat.zero_add, hlt] at e1
  rw [List.nil_append] at hr
  have hq1 : (DoubleArrayBase.query_bytes (keys.getD i []) j).drop 0
      = (keys.getD i []).take j ++ 0 :: (keys.getD i [] ++ [0]).drop (j + 1) := by
    rw [List.drop_zero, query_bytes_split _ j hj1 hj2]
  refine ⟨agent1.values, traverse_public _ _ 0 0 j _ agent1 j (by rw [hq1]; exact e1), ?_⟩
  -- the second call
  obtain ⟨agent2, e2⟩ := traverse_resume hok hd2 ht hval (key_value keys values) hkv1 hkv2
    hwf m hm hbound ((keys.getD i []).take j) ((keys.getD i []).drop j) []
    (fun c hc2 => Nat.ne_of_gt (hq c (List.mem_of_mem_drop hc2)).1)
    (fun c hc2 => (hq c (List.mem_of_mem_drop hc2)).2)
    (by rw [hext, ← List.append_assoc, htd]) agent1 hr j
  have hq2 : (DoubleArrayBase.query_bytes (keys.getD i []) (keys.getD i []).length).drop j
      = (keys.getD i []).drop j ++ 0 :: [] := by
    rw [query_bytes_full, List.drop_append_of_le_length hj2]
  have hlen2 : j + ((keys.getD i []).drop j).length = (keys.getD i []).length := by
    rw [List.length_drop]; omega
  rw [hvm, hlen2] at e2
  exact ⟨agent2.values, traverse_public _ _ agent1.values j _ _ agent2 _ (by
    rw [hq2, unit_of_values agent1 hr.1]; exact e2)⟩

/-- Method `traverse` on a dictionary that `build` returned, for a key of the
set whose tail string ends after the largest link, called from the root with
the length of the key: `set_link` raises "Too large link address". -/
theorem traverse_build_raises (keys : List (List Nat)) (lengths : Option (List Nat))
    (values : Option (List Int)) (hv : ∀ k ∈ keys, ValidKey k)
    (hL : ∀ ls, lengths = some ls → ∀ i, i < keys.length → ls.getD i 0 = (keys.getD i []).length)
    (hvals : ∀ vs, values = some vs → ∀ v ∈ vs, Int32 v)
    (da : DoubleArrayBase)
    (h : DoubleArrayBase.build 3 keys.length (some keys) lengths values = .ok da)
    (i : Nat) (hi : i < keys.length) (hfirst : ∀ m, m < i → keys.getD m [] ≠ keys.getD i [])
    (htail : 2 ^ 28 < da.tail_end (keys.getD i [])) :
    DoubleArrayBase.traverse 3 da (keys.getD i []) 0 0 (keys.getD i []).length
      = some (.error .tooLargeLink) := by
  obtain ⟨ks2, n, m, _, hok, _, hd2, ht, hval, _, _, _, hm, hext, _⟩ :=
    traverse_setup keys lengths values hv hL hvals da h i hi hfirst
  have hbig : ∀ q, IsNode ks2 q → ¬ Internal ks2 q → Pre ks2 q m →
      2 ^ 28 < (da.units.getD (walk da.units q) default).link 3
        + ((ext_at ks2 m).drop (q.length - 1)).length := by
    intro q hq hqi hp
    rw [← tail_end_leaf hok hd2 m hm _ hext q hq hqi hp]
    exact htail
  have hq : ValidKey (keys.getD i []) := by
    rw [List.getD_eq_getElem _ _ hi]
    exact hv _ (List.getElem_mem hi)
  have hk0 : ks2 ≠ [] := by
    intro h0
    rw [h0] at hm
    cases hm
  have hroot : IsNode ks2 [] :=
    ⟨⟨0, List.length_pos.2 hk0, List.nil_prefix⟩, Or.inl rfl⟩
  have e1 := traverse_raises hok hd2 ht hval m hm hbig [] (keys.getD i []) [] 0 ⟨0 % 2 ^ 32⟩
    (fun c hc2 => Nat.ne_of_gt (hq c hc2).1) (fun c hc2 => (hq c hc2).2) hroot (Or.inl rfl)
    (by rw [hext, List.nil_append])
    (show (0 % 2 ^ 32 : Nat) < 2 ^ 32 by decide) (by decide) (by rw [walk_nil]; decide)
  unfold DoubleArrayBase.traverse
  rw [query_bytes_full, List.drop_zero, e1]

/-- C4 (amended): for a dictionary that `build` returned and a key `k` of the
set: when the terminator of the tail string of `k` lies at a position of the
tail below `2^28` (`tail_end` is the position after it), so that `set_link`
takes every position of the string, then for every length `j` from 1 to the
length of `k` the call of `traverse` from the root with the length `j` returns
the value of the first `j` bytes of `k` when they are a key of the set and -1
otherwise, which is not -2 unless -2 is a value of the set, and a second call
with the length of `k`, from the agent and the position that the first call has
left, returns the value of `k` and ends at the length of `k`; when the
terminator lies at the position `2^28` or after it, the call of `traverse` from
the root with the length of `k` raises "Too large link address"; in both cases
`exactMatchSearch` yields the value of `k`. -/
theorem traverse_two_calls (keys : List (List Nat)) (lengths : Option (List Nat))
    (values : Option (List Int)) (hv : ∀ k ∈ keys, ValidKey k)
    (hL : ∀ ls, lengths = some ls → ∀ i, i < keys.length → ls.getD i 0 = (keys.getD i []).length)
    (hvals : ∀ vs, values = some vs → ∀ v ∈ vs, Int32 v)
    (da : DoubleArrayBase)
    (h : DoubleArrayBase.build 3 keys.length (some keys) lengths values = .ok da)
    (i : Nat) (hi : i < keys.length) (hfirst : ∀ m, m < i → keys.getD m [] ≠ keys.getD i [])
    (j : Nat) (hj1 : 1 ≤ j) (hj2 : j ≤ (keys.getD i []).length) (res : result_pair_type) :
    (da.tail_end (keys.getD i []) ≤ 2 ^ 28 →
      ∃ np, DoubleArrayBase.traverse 3 da (keys.getD i []) 0 0 j
          = some (.ok ((key_value keys values ((keys.getD i []).take j)).getD (-1), np, j)) ∧
        ((∀ m, m < keys.length → DoubleArrayBase.make_value values m ≠ -2) →
          (key_value keys values ((keys.getD i []).take j)).getD (-1) ≠ -2) ∧
        (∃ np2, DoubleArrayBase.traverse 3 da (keys.getD i []) np j (keys.getD i []).length
          = some (.ok (DoubleArrayBase.make_value values i, np2, (keys.getD i []).length)))) ∧
    (2 ^ 28 < da.tail_end (keys.getD i []) →
      DoubleArrayBase.traverse 3 da (keys.getD i []) 0 0 (keys.getD i []).length
        = some (.error .tooLargeLink)) ∧
    DoubleArrayBase.exactMatchSearch 3 da (keys.getD i []) res 0 0
      = some (true, ⟨DoubleArrayBase.make_value values i, (keys.getD i []).length⟩) := by
  have hq : ValidKey (keys.getD i []) := by
    rw [List.getD_eq_getElem _ _ hi]
    exact hv _ (List.getElem_mem hi)
  refine ⟨fun htail => ?_,
    fun htail => traverse_build_raises keys lengths values hv hL hvals da h i hi hfirst htail,
    (exact_match_build keys lengths values hv hL hvals da h (keys.getD i []) hq res).1 i hi rfl
      hfirst⟩
  obtain ⟨np, h1, h2⟩ := traverse_build keys lengths values hv hL hvals da h i hi
    hfirst htail j hj1 hj2
  refine ⟨np, h1, ?_, h2⟩
  intro hne
  unfold key_value
  by_cases hmem : (keys.getD i []).take j ∈ keys
  · rw [if_pos hmem]
    exact hne _ (List.findIdx_lt_length_of_exists ⟨_, hmem, by simp⟩)
  · rw [if_neg hmem]
    decide

theorem traverse_two_calls_witness :
    ∃ da np np2, DoubleArrayBase.build 3 [[97], [97, 98]].length (some [[97], [97, 98]])
        none none = .ok da ∧
      DoubleArrayBase.traverse 3 da [97, 98] 0 0 1 = some (.ok (0, np, 1)) ∧
      DoubleArrayBase.traverse 3 da [97, 98] np 1 2 = some (.ok (1, np2, 2)) := by
  obtain ⟨da, hda⟩ := build_ok_total [[97], [97, 98]] none none (by decide)
    (fun ls h => by cases h) _ collect_keys_a_ab (by decide)
  have htail := tail_end_small [[97], [97, 98]] none none (by decide)
    (fun ls h => by cases h) (fun vs h => by cases h) _ collect_keys_a_ab (by decide) da hda
    1 (by decide) (by decide)
  obtain ⟨np, h1, _, ⟨np2, h2⟩⟩ := (traverse_two_calls [[97], [97, 98]] none none (by decide)
    (fun ls h => by cases h) (fun vs h => by cases h) da hda
    1 (by decide) (by decide) 1 (by decide) (by decide) ⟨0, 0⟩).1 htail
  exact ⟨da, np, np2, hda, h1, h2⟩

end Darts

namespace Darts

/-- Two ascending lists with the same elements are equal. -/
theorem sorted_ext {l1 l2 : List Nat} (h1 : l1.Pairwise (· < ·)) (h2 : l2.Pairwise (· < ·))
    (h : ∀ a, a ∈ l1 ↔ a ∈ l2) : l1 = l2 := by
  have hp : l1.Perm l2 :=
    (List.perm_ext_iff_of_nodup (h1.imp (fun hab => Nat.ne_of_lt hab))
      (h2.imp (fun hab => Nat.ne_of_lt hab))).2 h
  exact List.eq_of_perm_of_sorted hp (h1.imp (fun hab => Nat.le_of_lt hab))
    (h2.imp (fun hab => Nat.le_of_lt hab))

/-- C31: in a consistent allocator state in which every offset marked as used
is the base of a reserved unit, one call of `expand_trie` returns; the array has
256 more units and one more block; the new units are zero, not fixed and not
marked as used; the free list afterwards is the old free list without the slots
below the last 16 blocks, in its order, followed by the 256 new slots in
ascending order; the free slots of the block that leaves the last 16 blocks
have been fixed before, as units that are no leaves; every unit that was not
free keeps its value. -/
theorem expand_trie_appends (b : DoubleArrayBuilder) (hinv : b.AllocInv)
    (hc : b.UsedCovered) (hn : b.num_of_units + 256 < 2 ^ 31) :
    ∃ b2, b.expand_trie = .ok b2 ∧ b2.AllocInv ∧
      b2.num_of_units = b.num_of_units + 256 ∧ b2.num_of_blocks = b.num_of_blocks + 1 ∧
      (∀ j, b.num_of_units ≤ j → j < b.num_of_units + 256 →
        b2.unit j = default ∧ (b2.extra j).is_fixed = false ∧ (b2.extra j).is_used = false) ∧
      b2.free_order
        = b.free_order.filter (fun j => decide (256 * (b.num_of_blocks + 1 - 16) ≤ j))
          ++ List.range' b.num_of_units 256 ∧
      (∀ j, b.Free j → j < 256 * (b.num_of_blocks + 1 - 16) →
        b2.Fixed j ∧ (b2.unit j).is_leaf = false) ∧
      (∀ j, ¬ b.Free j → b2.unit j = b.unit j) := by
  have hbu : DoubleArrayBuilder.BasesUsed (fun _ => False) b := fun u hu => absurd hu id
  obtain ⟨b2, h2, g⟩ := DoubleArrayBuilder.expand_trie_spec (fun _ => False) b hinv hc hbu hn
  have hfl : b2.first_live = b.num_of_blocks + 1 - 16 := by
    rw [DoubleArrayBuilder.first_live_eq, g.blocks]
    rfl
  have hnew : ∀ j, b.num_of_units ≤ j → j < b.num_of_units + 256 → b2.Free j :=
    fun j h1 h3 => (g.free_iff j).2 (Or.inr ⟨h1, h3⟩)
  refine ⟨b2, h2, g.inv, g.num, g.blocks, ?_, ?_, ?_, g.unit_eq⟩
  · intro j h1 h3
    have hf := hnew j h1 h3
    refine ⟨g.inv.free_zero j hf, hf.2.2, ?_⟩
    rw [g.used j hf.1, DoubleArrayBuilder.extra_of_ge hinv h1]
    exact DoubleArrayExtra.is_used_default
  · rw [DoubleArrayBuilder.free_order_eq g.inv, DoubleArrayBuilder.free_order_eq hinv]
    apply sorted_ext (DoubleArrayBuilder.free_slots_sorted b2)
    · rw [List.pairwise_append]
      refine ⟨List.Pairwise.filter _ (DoubleArrayBuilder.free_slots_sorted b),
        List.pairwise_lt_range' _ _, ?_⟩
      intro x hx y hy
      have hx2 := ((DoubleArrayBuilder.mem_free_slots b x).1 (List.mem_filter.1 hx).1).2.1
      have hy2 := (List.mem_range'_1.1 hy).1
      omega
    · intro a
      rw [DoubleArrayBuilder.mem_free_slots, g.free_iff, List.mem_append, List.mem_filter,
        DoubleArrayBuilder.mem_free_slots, List.mem_range'_1, hfl]
      simp only [decide_eq_true_eq]
  · intro j hj hlt
    have hjn : j < b.num_of_units := hj.2.1
    refine ⟨(g.fixed_iff j).2 ⟨hjn, fun hh => ?_⟩, (g.dead j hj (by rw [hfl]; exact hlt)).2⟩
    have := hh.2
    rw [hfl] at this
    omega

theorem expand_trie_appends_witness :
    ∃ b2, (DoubleArrayBuilder.init []).expand_trie = .ok b2 ∧ b2.num_of_units = 256 ∧
      b2.free_order = List.range' 0 256 := by
  have hc0 : (DoubleArrayBuilder.init []).UsedCovered := by
    intro u _ h2
    exact absurd h2 (Nat.not_lt_zero _)
  obtain ⟨b2, h2, _, hnum, _, _, hord, _⟩ :=
    expand_trie_appends (DoubleArrayBuilder.init []) (allocInv_init []) hc0 (by decide)
  exact ⟨b2, h2, hnum, hord⟩

end Darts

namespace Darts

namespace DoubleArrayBuilder

/-- Method `fix_all_blocks` returns in a consistent allocator state, and leaves
a consistent state without free units. -/
theorem fix_all_blocks_full (b : DoubleArrayBuilder) (hinv : b.AllocInv) (hc : b.UsedCovered)
    (hn : b.num_of_units < 2 ^ 31) :
    ∃ b2, b.fix_all_blocks = .ok b2 ∧ b2.AllocInv ∧ (∀ j, ¬ b2.Free j) ∧
      b2.units.length = b.units.length := by
  have hbegin : (if b.num_of_blocks > NUM_OF_UNFIXED_BLOCKS
      then b.num_of_blocks - NUM_OF_UNFIXED_BLOCKS else 0) = b.first_live := by
    unfold first_live
    split
    · rfl
    · rename_i h
      have : b.num_of_blocks ≤ NUM_OF_UNFIXED_BLOCKS := Nat.le_of_not_gt h
      omega
  have hfl := first_live_eq b
  obtain ⟨b2, hb2, hf⟩ := fix_blocks_from_spec b hn (b.extras.length - b.first_live) b.first_live b
    (by omega) (Nat.le_refl _)
    ⟨hinv, hc, rfl, rfl, rfl, rfl, fun _ => rfl,
      fun j => ⟨fun h => ⟨h, h.1⟩, fun h => h.1⟩, fun _ _ => rfl,
      fun j hj hlt => absurd hj.1 (by
        have e : BLOCK_SIZE = 256 := rfl
        rw [e]; omega)⟩
  refine ⟨b2, ?_, hf.inv, ?_, hf.units_length⟩
  · unfold fix_all_blocks
    simp only []
    rw [hbegin]
    exact hb2
  · intro j hj
    have h1 := (hf.free j).1 hj
    have h2 := h1.1.2.1
    have h3 := num_of_units_eq hinv
    have e : BLOCK_SIZE = 256 := rfl
    unfold num_of_blocks at h3
    rw [e] at h3
    omega

/-- The first unfixed index of a consistent state without free units. -/
theorem unfixed_index_of_no_free {b : DoubleArrayBuilder} (hinv : b.AllocInv)
    (h : ∀ j, ¬ b.Free j) : b.unfixed_index = b.num_of_units := by
  rcases hinv.head with ⟨h1, _⟩ | ⟨h1, _⟩
  · exact absurd h1 (h _)
  · exact h1

end DoubleArrayBuilder

/-- C37: when `build_trie` returns for the keys of a builder (valid, strictly
ascending keys), every unit below `num_of_units` is fixed, no unit is free, the
free list is empty, the first unfixed index is `num_of_units`, and
`num_of_units` is a positive multiple of 256. -/
theorem build_trie_all_fixed {K : List DoubleArrayKey} (hK : KeysOK K) (b : DoubleArrayBuilder)
    (h : (DoubleArrayBuilder.init K).build_trie = .ok b) :
    (∀ j, j < b.num_of_units → b.Fixed j) ∧ (∀ j, ¬ b.Free j) ∧ b.free_order = [] ∧
      b.unfixed_index = b.num_of_units ∧ b.num_of_units % 256 = 0 ∧ 0 < b.num_of_units := by
  have hboth := build_trie_partial hK h
  have hok := hboth.1
  have hfin : ∃ (b4 : DoubleArrayBuilder) (u1 : DoubleArrayUnit),
      b = b4.set_unit 1 u1 ∧ b4.AllocInv ∧ ∀ j, ¬ b4.Free j := by
    obtain ⟨b1, b2, u, hb1, hb2, hu, hstart⟩ := start_spec K
    rw [build_trie_eq, hb1, bind_ok, hb2, bind_ok, hu, bind_ok,
      DoubleArrayBuilder.run_subroutine _ K hstart.keys] at h
    by_cases hK0 : K = []
    · rw [if_pos hK0, bind_ok] at h
      obtain ⟨b4, hb4, hinv4, hfree4, _⟩ := DoubleArrayBuilder.fix_all_blocks_full _ hstart.alloc
        (start_covered hstart) (by rw [hstart.num]; decide)
      rw [hb4, bind_ok] at h
      obtain ⟨u1, _, h⟩ := bind_eq_ok h
      exact ⟨b4, u1, (Except.ok.inj h).symm, hinv4, hfree4⟩
    · rw [if_neg hK0] at h
      obtain ⟨hinv, _⟩ := start_inv hK hK0 hstart
      obtain ⟨b3, hloop, h⟩ := bind_eq_ok h
      obtain ⟨b4, hfix, h⟩ := bind_eq_ok h
      obtain ⟨u1, hset, h⟩ := bind_eq_ok h
      have hlt := DoubleArrayUnit.set_offset_lt hset
      have hle := DoubleArrayBuilder.grows_fix_all_blocks b3 b4 hfix
      have hinv3 := build_trie_loop_partial hK _ _ _ _ hinv hloop (by omega)
      obtain ⟨b5, hb5, hinv5, hfree5, _⟩ := DoubleArrayBuilder.fix_all_blocks_full b3
        hinv3.alloc hinv3.covered (by omega)
      rw [hfix] at hb5
      have e := Except.ok.inj hb5
      subst e
      exact ⟨b4, u1, (Except.ok.inj h).symm, hinv5, hfree5⟩
  obtain ⟨b4, u1, hb, hinv4, hfree4⟩ := hfin
  have hnofree : ∀ j, ¬ b.Free j := by
    intro j hj
    rw [hb, DoubleArrayBuilder.free_set_unit] at hj
    exact hfree4 j hj
  have hidx : b.unfixed_index = b.num_of_units := by
    rw [hb, DoubleArrayBuilder.unfixed_index_set_unit, DoubleArrayBuilder.num_of_units_set_unit]
    exact DoubleArrayBuilder.unfixed_index_of_no_free hinv4 hfree4
  refine ⟨fun j hj => ?_, hnofree, ?_, hidx, hok.num.1, by have := hok.num.2.1; omega⟩
  · rcases DoubleArrayBuilder.fixed_or_free hj with hf | hf
    · exact hf
    · exact absurd hf (hnofree j)
  · unfold DoubleArrayBuilder.free_order
    rw [if_neg (by rw [hidx]; exact Nat.lt_irrefl _)]

theorem build_trie_all_fixed_witness :
    ∃ b, (DoubleArrayBuilder.init []).build_trie = .ok b ∧
      (∀ j, j < b.num_of_units → b.Fixed j) ∧ b.unfixed_index = b.num_of_units := by
  obtain ⟨b, hb, _⟩ := build_trie_total keysOK_nil (by decide)
  have h := build_trie_all_fixed keysOK_nil b hb
  exact ⟨b, hb, h.1, h.2.2.2.1⟩

end Darts

namespace Darts

/-- C39: in a consistent allocator state in which every offset marked as used
is the base of a reserved unit and every base of a node is marked as used, when
`fix_block` is applied to a block `k` of the last 16 blocks that holds the
first free slot: the search for an unused offset finds an offset `U` of the
block that is not marked as used (the assertion of `fix_block` holds), `U` is
the base of no node, and it is the offset with which `fix_block` labels the
free slots of the block. -/
theorem fix_block_unused_offset (IsBase : Nat → Prop) (b : DoubleArrayBuilder)
    (hinv : b.AllocInv) (hc : b.UsedCovered) (hbu : DoubleArrayBuilder.BasesUsed IsBase b)
    (k : Nat) (hk1 : b.first_live ≤ k) (hfree : ∀ j, b.Free j → 256 * k ≤ j)
    (x : Nat) (hx : b.Free x) (hxk : x < 256 * k + 256) :
    ∃ U, (List.range' (k * BLOCK_SIZE) BLOCK_SIZE).find?
          (fun offset => !(b.extra offset).is_used) = some U ∧
      U / 256 = k ∧ (b.extra U).is_used = false ∧ ¬ IsBase U ∧
      b.fix_block k
        = DoubleArrayBuilder.fix_block_loop (k * BLOCK_SIZE + BLOCK_SIZE) U BLOCK_SIZE b := by
  have e : BLOCK_SIZE = 256 := rfl
  have hxk2 : x / BLOCK_SIZE = k := by
    rw [e]
    have := hfree x hx
    omega
  obtain ⟨u, hu1, hu2⟩ := DoubleArrayBuilder.exists_unused_offset b hinv hc k x hk1 hx hxk2
  rw [e] at hu1
  have humem : u ∈ List.range' (k * BLOCK_SIZE) BLOCK_SIZE := by
    rw [List.mem_range'_1, e]
    have := Nat.div_add_mod u 256
    have := Nat.mod_lt u (show 0 < 256 by decide)
    omega
  have hidx : b.unfixed_index < k * BLOCK_SIZE + BLOCK_SIZE := by
    rcases hinv.head with ⟨_, h2⟩ | ⟨_, h2⟩
    · have := h2 x hx
      rw [e]
      omega
    · exact absurd hx (h2 x)
  cases hfind : (List.range' (k * BLOCK_SIZE) BLOCK_SIZE).find?
      (fun offset => !(b.extra offset).is_used) with
  | none =>
    have := List.find?_eq_none.1 hfind u humem
    rw [hu2] at this
    exact absurd rfl this
  | some U =>
    have hUmem := List.mem_of_find?_eq_some hfind
    have hUp := List.find?_some hfind
    rw [List.mem_range'_1, e] at hUmem
    have hUk : U / 256 = k := by
      have := Nat.div_add_mod U 256
      have := Nat.mod_lt U (show 0 < 256 by decide)
      have h1 : 256 * k ≤ U := by omega
      have h2 : U < 256 * (k + 1) := by omega
      exact Nat.div_eq_of_lt_le (by omega) (by omega)
    have hUu : (b.extra U).is_used = false := by
      cases h : (b.extra U).is_used
      · rfl
      · rw [h] at hUp
        cases hUp
    refine ⟨U, rfl, hUk, hUu, ?_, ?_⟩
    · intro hb
      have := (hbu U hb).2 (by
        show 256 * b.first_live ≤ U
        have := Nat.mul_le_mul_left 256 hk1
        omega)
      rw [hUu] at this
      cases this
    · unfold DoubleArrayBuilder.fix_block
      simp only []
      rw [if_neg (by omega), hfind]

theorem fix_block_unused_offset_witness :
    ∃ b1 U, (DoubleArrayBuilder.init []).reserve_index 0 = .ok b1 ∧
      (List.range' (0 * BLOCK_SIZE) BLOCK_SIZE).find?
        (fun offset => !(b1.extra offset).is_used) = some U ∧
      U / 256 = 0 ∧ (b1.extra U).is_used = false := by
  obtain ⟨b1, hb1, hinv, hc, hbu, hnum, hfree⟩ := first_block
  have hfl : b1.first_live ≤ 0 := by
    have h1 := DoubleArrayBuilder.num_of_units_eq hinv
    have e : BLOCK_SIZE = 256 := rfl
    rw [hnum, e] at h1
    rw [DoubleArrayBuilder.first_live_eq]
    unfold DoubleArrayBuilder.num_of_blocks at h1
    omega
  obtain ⟨U, h1, h2, h3, _⟩ := fix_block_unused_offset (fun _ => False) b1 hinv hc hbu 0 hfl
    (fun j _ => Nat.zero_le _) 1 (hfree 1 (by decide) (by decide)) (by decide)
  exact ⟨b1, U, hb1, h1, h2, h3⟩

end Darts

namespace Darts

/-- Whether a unit has extra storage depends on its block only. -/
theorem live_of_div {b : DoubleArrayBuilder} {i j : Nat} (h : i / 256 = j / 256)
    (hj : b.Live j) : b.Live i := by
  unfold DoubleArrayBuilder.Live at hj ⊢
  have e : BLOCK_SIZE = 256 := rfl
  rw [e] at hj ⊢
  rw [h]
  exact hj

/-- C40: in a consistent allocator state of a build (every offset marked as
used is the base of a reserved unit) with room for one more block: the offset
that `find_offset_index` returns sends every label to an index below
`num_of_units + 256` that is free when it lies in the array; `reserve_index` of
an index that is free or lies in the next block returns with the index fixed
and in range after at most one expansion; the extras that the allocator reads
belong to live blocks: a free unit, its neighbours `next` and `prev` in the
free list, the candidate offsets and child slots `x XOR c` and `x XOR c XOR d`
of a free unit `x`, and, for `fix_block`, every unit of a block of the last 16
blocks. -/
theorem reserve_index_in_range (IsBase : Nat → Prop) (b : DoubleArrayBuilder)
    (hinv : b.AllocInv) (hc : b.UsedCovered) (hbu : DoubleArrayBuilder.BasesUsed IsBase b)
    (hn : b.num_of_units + 256 ≤ 2 ^ 29) :
    (∀ index labels, labels ≠ [] → (∀ l ∈ labels, l < 256) → index < b.num_of_units →
      ∃ o, b.find_offset_index index labels = .ok o ∧
        ∀ l ∈ labels, o ^^^ l < b.num_of_units + 256 ∧
          (o ^^^ l < b.num_of_units → b.Free (o ^^^ l))) ∧
    (∀ i, (b.Free i ∨ (b.num_of_units ≤ i ∧ i < b.num_of_units + 256)) →
      ∃ b2, b.reserve_index i = .ok b2 ∧ b2.AllocInv ∧ i < b2.num_of_units ∧ b2.Fixed i ∧
        b2.num_of_units ≤ b.num_of_units + 256 ∧
        (i < b.num_of_units → b2.num_of_units = b.num_of_units)) ∧
    (∀ x, b.Free x → b.Live x ∧ b.Live (b.extra x).next ∧ b.Live (b.extra x).prev ∧
      ∀ c, c < 256 → b.Live (x ^^^ c) ∧ ∀ d, d < 256 → b.Live ((x ^^^ c) ^^^ d)) ∧
    (∀ k j, b.first_live ≤ k → k < b.num_of_blocks → j / 256 = k → b.Live j) := by
  have hnum := DoubleArrayBuilder.num_of_units_eq hinv
  have e : BLOCK_SIZE = 256 := rfl
  rw [e] at hnum
  refine ⟨?_, ?_, ?_, ?_⟩
  · intro index labels hl hlab hidx
    obtain ⟨o, ho, _, _, hcase⟩ :=
      DoubleArrayBuilder.find_offset_index_spec b hinv index labels hl hlab hidx hn
    refine ⟨o, ho, fun l hlm => ?_⟩
    rcases hcase with ⟨_, _, _, hfree⟩ | ⟨h1, h2⟩
    · have hf := hfree l hlm
      exact ⟨by have := hf.2.1; omega, fun _ => hf⟩
    · have hd := xor_byte_div o l (hlab l hlm)
      have hlt : o ^^^ l < 256 * (b.num_of_blocks + 1) :=
        xor_byte_lt o l _ (hlab l hlm) (by omega)
      have hge : b.num_of_units ≤ o ^^^ l := by
        have h3 : b.num_of_blocks ≤ o / 256 := by
          rw [Nat.le_div_iff_mul_le (by decide)]
          omega
        have h4 := Nat.div_mul_le_self (o ^^^ l) 256
        rw [hd] at h4
        have h5 := Nat.mul_le_mul_right 256 h3
        omega
      exact ⟨by omega, fun hlt2 => absurd hlt2 (by omega)⟩
  · intro i hi
    obtain ⟨b2, h2, r⟩ := DoubleArrayBuilder.reserve_index_spec IsBase b i hinv hc hbu
      (by omega) hi
    refine ⟨b2, h2, r.inv, r.fixed.1, r.fixed, ?_, r.num_old⟩
    by_cases hlt : i < b.num_of_units
    · rw [r.num_old hlt]
      exact Nat.le_add_right _ _
    · rw [r.num_new (by omega)]
  · intro x hx
    have hlx := hinv.free_live hx
    refine ⟨hlx, hinv.free_live (hinv.succ x hx).1, hinv.free_live (hinv.pred x hx).1, ?_⟩
    intro c hc2
    have h1 : (x ^^^ c) / 256 = x / 256 := xor_byte_div x c hc2
    refine ⟨live_of_div h1 hlx, fun d hd => ?_⟩
    have h2 : ((x ^^^ c) ^^^ d) / 256 = x / 256 := by
      rw [xor_byte_div _ d hd, h1]
    exact live_of_div h2 hlx
  · intro k j hk1 hk2 hjk
    apply hinv.live j
    · show 256 * b.first_live ≤ j
      have := Nat.div_mul_le_self j 256
      have := Nat.mul_le_mul_right 256 hk1
      omega
    · rw [hnum]
      have := Nat.div_add_mod j 256
      have := Nat.mod_lt j (show 0 < 256 by decide)
      have h3 : j / 256 + 1 ≤ b.num_of_blocks := by omega
      have := Nat.mul_le_mul_left 256 h3
      omega

theorem reserve_index_in_range_witness :
    ∃ b1 b2, (DoubleArrayBuilder.init []).reserve_index 0 = .ok b1 ∧
      b1.reserve_index 1 = .ok b2 ∧ 1 < b2.num_of_units ∧ b2.Fixed 1 ∧ b1.Live 1 := by
  obtain ⟨b1, hb1, hinv, hc, hbu, hnum, hfree⟩ := first_block
  have h := reserve_index_in_range (fun _ => False) b1 hinv hc hbu (by rw [hnum]; decide)
  obtain ⟨b2, h2, _, h3, h4, _⟩ := h.2.1 1 (Or.inl (hfree 1 (by decide) (by decide)))
  exact ⟨b1, b2, hb1, h2, h3, h4, (h.2.2.1 1 (hfree 1 (by decide) (by decide))).1⟩

end Darts

namespace Darts

/-- A key of a range on the stack has been advanced by at most one byte past
its bytes, and a key that stands past its terminator is alone in a range below
the root. -/
theorem range_key_length {K : List DoubleArrayKey} (hK : KeysOK K) (hK0 : K ≠ [])
    {b : DoubleArrayBuilder} {stack : List DoubleArrayKeyRange} (h : TrieInv K b stack)
    (r : DoubleArrayKeyRange) (hr : r ∈ stack) (i : Nat) (h1 : r.begin_ ≤ i) (h2 : i < r.end_) :
    -1 ≤ (b.keys.getD i default).length ∧
      ((b.keys.getD i default).length = -1 → r.size = 1 ∧ r.index ≠ 0) := by
  have hro := h.range r hr
  have hi : i < K.length := by have := hro.le; omega
  have hpre : Pre K (range_path K b r) i := (hro.exact i).1 ⟨h1, h2⟩
  have hpos : (b.keys.getD i default).pos = (range_path K b r).length := by
    rw [hro.depth i h1 h2, hro.len]
  have hle : (range_path K b r).length ≤ (ext_at K i).length := hpre.2.length_le
  have hlen := ext_length hK hi
  have hnn := (hK.wf _ (getD_mem' hi)).1.length_nonneg
  have hsame := (h.keys.same i hi).2.2
  refine ⟨by omega, fun hm => ?_⟩
  have hfull : (range_path K b r).length = (ext_at K i).length := by omega
  have hpath : range_path K b r = ext_at K i := hpre.2.eq_of_length hfull
  have hext : ext_at K i = (K.getD i default).bytes ++ [0] := rfl
  have huniq : ∀ j, r.begin_ ≤ j → j < r.end_ → j = i := by
    intro j hj1 hj2
    have hj : Pre K (range_path K b r) j := (hro.exact j).1 ⟨hj1, hj2⟩
    rw [hpath, hext] at hj
    have hi2 : Pre K ((K.getD i default).bytes ++ [0]) i := by
      rw [← hext, ← hpath]; exact hpre
    exact pre_zero_unique hK hj hi2
  have hb := huniq r.begin_ (Nat.le_refl _) hro.lt
  have he := huniq (r.end_ - 1) (by have := hro.lt; omega) (by have := hro.lt; omega)
  refine ⟨by unfold DoubleArrayKeyRange.size; omega, ?_⟩
  rw [hro.index]
  apply h.walk_ne_zero (h.root_created hK0) _ (Or.inr ⟨r, hr, rfl⟩)
  intro hnil
  rw [hnil] at hfull
  rw [hlen] at hfull
  simp at hfull

end Darts

namespace Darts

/-- C35: in a dictionary that `build` returned, with the keys `ks` that the
builder kept: the unit of a node `p ++ [c]` without children (the leaf that is
the child of `p` on the byte `c`) is a leaf unit, it is the unit that the
transition from `p` on `c` reaches, and the byte of the tail at its link is `c`
(for `c = 0` the terminator of an empty suffix); when a node `p` with children
has no child on the byte `c` and the transition on `c` reaches a leaf unit, the
byte of the tail at the link of this unit differs from `c`, so that the first
comparison of the suffixes fails. -/
theorem leaf_first_label (keys : List (List Nat)) (lengths : Option (List Nat))
    (values : Option (List Int)) (hv : ∀ k ∈ keys, ValidKey k)
    (hL : ∀ ls, lengths = some ls → ∀ i, i < keys.length → ls.getD i 0 = (keys.getD i []).length)
    (hvals : ∀ vs, values = some vs → ∀ v ∈ vs, Int32 v)
    (da : DoubleArrayBase)
    (h : DoubleArrayBase.build 3 keys.length (some keys) lengths values = .ok da) :
    ∃ ks, DoubleArrayBase.collect_keys lengths values keys 0 [] = .ok ks ∧
      (∀ p c, IsNode ks p → Internal ks p → IsNode ks (p ++ [c]) → ¬ Internal ks (p ++ [c]) →
        walk da.units (p ++ [c])
          = walk da.units p ^^^ ((da.units.getD (walk da.units p) default).offset ^^^ c) ∧
        (da.units.getD (walk da.units (p ++ [c])) default).is_leaf = true ∧
        da.tail? ((da.units.getD (walk da.units (p ++ [c])) default).link 3) = some c) ∧
      (∀ p c, IsNode ks p → Internal ks p → c < 256 → ¬ IsNode ks (p ++ [c]) →
        (da.units.getD (walk da.units p
            ^^^ ((da.units.getD (walk da.units p) default).offset ^^^ c)) default).is_leaf
          = true →
        ∃ byte, da.tail? ((da.units.getD (walk da.units p
            ^^^ ((da.units.getD (walk da.units p) default).offset ^^^ c)) default).link 3)
          = some byte ∧ byte ≠ c) := by
  obtain ⟨ks, U, hks, hc, hok, hU, hda⟩ := build_ok_inv keys lengths values hv hL h
  subst hda
  obtain ⟨hd, _⟩ := builder_sound hok hU
  have ht : (DoubleArrayBase.set_vector U).tail = 4 * (U.getD 1 default).offset := rfl
  have hval : ∀ k ∈ ks, Int32 k.value := by
    intro k hk
    obtain ⟨_, _, _, _, i0, _, _, h6, _⟩ := hc.entry k hk
    rw [h6]
    exact int32_make_value values hvals i0
  have hd2 : DictOK ks (DoubleArrayBase.set_vector U).units (U.getD 1 default).offset := hd
  have hfirst := leaf_first_byte hok hd2 ht hval
  refine ⟨ks, hks, ?_, ?_⟩
  · intro p c _ _ hq hqi
    obtain ⟨byte, hb, hbe, hl⟩ := hfirst (p ++ [c]) hq hqi
    rw [List.getLastD_concat] at hbe
    rw [hbe] at hb
    refine ⟨?_, hl, hb⟩
    rw [walk_snoc]
    unfold base_of
    rw [Nat.xor_assoc]
  · intro p c hp hpi hc256 hno hleaf
    rcases hd2.other p hp hpi c hc256 hno with ⟨hl, _⟩ | ⟨q, hq, hqi, hw, hlast⟩
    · have e : base_of (DoubleArrayBase.set_vector U).units p ^^^ c
          = walk (DoubleArrayBase.set_vector U).units p
            ^^^ (((DoubleArrayBase.set_vector U).units.getD
              (walk (DoubleArrayBase.set_vector U).units p) default).offset ^^^ c) := by
        unfold base_of
        rw [Nat.xor_assoc]
      rw [e] at hl
      rw [hl] at hleaf
      cases hleaf
    · obtain ⟨byte, hb, hbe, _⟩ := hfirst q hq hqi
      have e : walk (DoubleArrayBase.set_vector U).units q
          = walk (DoubleArrayBase.set_vector U).units p
            ^^^ (((DoubleArrayBase.set_vector U).units.getD
              (walk (DoubleArrayBase.set_vector U).units p) default).offset ^^^ c) := by
        rw [hw]
        unfold base_of
        rw [Nat.xor_assoc]
      rw [e] at hb
      exact ⟨byte, hb, by rw [hbe]; exact hlast⟩

theorem leaf_first_label_witness :
    ∃ da, DoubleArrayBase.build 3 [[97]].length (some [[97]]) none none = .ok da ∧
      (da.units.getD (walk da.units [97]) default).is_leaf = true ∧
      da.tail? ((da.units.getD (walk da.units [97]) default).link 3) = some 97 := by
  obtain ⟨da, hda⟩ := build_ok_total [[97]] none none (by decide) (fun ls h => by cases h)
    _ collect_keys_a (by decide)
  obtain ⟨ks, hks, h1, _⟩ := leaf_first_label [[97]] none none (by decide)
    (fun ls h => by cases h) (fun vs h => by cases h) da hda
  have hk : ks = [⟨[97], 0, 1, 0, 0⟩] := by
    rw [collect_keys_a] at hks
    exact (Except.ok.inj hks).symm
  subst hk
  have hroot : IsNode [(⟨[97], 0, 1, 0, 0⟩ : DoubleArrayKey)] [] :=
    ⟨⟨0, by decide, List.nil_prefix⟩, Or.inl rfl⟩
  have hnode : IsNode [(⟨[97], 0, 1, 0, 0⟩ : DoubleArrayKey)] ([] ++ [97]) :=
    ⟨⟨0, by decide, ⟨[0], rfl⟩⟩, Or.inl rfl⟩
  have hleaf : ¬ Internal [(⟨[97], 0, 1, 0, 0⟩ : DoubleArrayKey)] ([] ++ [97]) := by
    rintro (hn | ⟨i, j, hij, _, hj⟩)
    · cases hn
    · have hj1 : j < 1 := hj.1
      omega
  obtain ⟨_, h2, h3⟩ := h1 [] 97 hroot (Or.inl rfl) hnode hleaf
  exact ⟨da, hda, h2, h3⟩

end Darts

namespace Darts

theorem find_value_id_first (values : List Int) (v : Int) :
    (∀ j, j < DoubleArrayBuilder.find_value_id values v → values.getD j 0 ≠ v) ∧
      (DoubleArrayBuilder.find_value_id values v = values.length ↔ v ∉ values) := by
  unfold DoubleArrayBuilder.find_value_id
  induction values with
  | nil => exact ⟨fun j hj => absurd hj (Nat.not_lt_zero _), by simp⟩
  | cons x xs ih =>
    by_cases hx : x = v
    · subst hx
      simp [List.takeWhile_cons]
    · have hb : (x != v) = true := by simp [hx]
      rw [List.takeWhile_cons, hb]
      simp only [if_true, List.length_cons]
      constructor
      · intro j hj
        cases j with
        | zero => exact hx
        | succ j => exact ih.1 j (by omega)
      · rw [Nat.add_right_cancel_iff, ih.2, List.mem_cons, not_or]
        exact ⟨fun h => ⟨fun e => hx e.symm, h⟩, fun h => h.2⟩

/-- C32 (counterexample): in a run of the loop of `arrange_suffixes` on the
suffixes `"ab"` and `"b"` with the same value 7, the suffix `"b"` is a suffix of
the previous key and one value is attached to the region, yet the leaf of `"b"`
gets the value id 0, not 1, and no value is appended: the tail ends after the
3 bytes of `"ab"` and one value of 4 bytes. -/
theorem suffix_shared_counterexample :
    key_b.is_suffix_of key_ab = true ∧
      (match DoubleArrayBuilder.arrange_suffixes_loop 3 [key_ab, key_b] none 0 [] pack_start with
        | .ok bf => (bf.tail_index, (bf.unit 0).link 3, (bf.unit 1).link 3,
            (bf.unit 0).value_id 3, (bf.unit 1).value_id 3)
        | .error _ => (0, 0, 0, 0, 0)) = (15, 0, 1, 0, 0) := by
  decide

namespace DoubleArrayBuilder

/-- The step of the loop of `arrange_suffixes` for a key that is a suffix of
the previous key, when fewer than 8 values are attached: no suffix is
appended. -/
theorem suffix_share_defs (pk : DoubleArrayKey) (values : List Int) (key : DoubleArrayKey)
    (base_link : Nat) (hsuf : key.is_suffix_of pk = true) (hcount : values.length < 8) :
    suffix_fresh (some pk) values key = false ∧
      suffix_base (some pk) values key base_link = base_link ∧
      suffix_values (some pk) values key = values ∧
      suffix_value_id (some pk) values key = find_value_id values key.value := by
  have hle := (find_value_id_spec values key.value).1
  rcases suffix_cases (some pk) values key base_link with ⟨hf, _⟩ | ⟨hf, _, h2, h3, h4, _⟩
  · exfalso
    unfold suffix_fresh at hf
    have h8 : DoubleArrayUnit.VALUE_ID_MAX 3 = 8 := rfl
    simp only [hsuf, Bool.not_true, Bool.false_or, if_true, h8, decide_eq_true_eq] at hf
    omega
  · exact ⟨hf, h2, h3, h4⟩

end DoubleArrayBuilder

/-- C32 (amended): in a state of the loop of `arrange_suffixes` (`prev` is the
previous key, `values` are the values attached to the current tail region,
which ends at `base_link`), for a key that is a suffix of the previous key when
fewer than 8 values are attached: the key shares the region (no suffix is
appended and `base_link` stays); its value id is the index of the first
attached value equal to its value, and nothing is appended when there is one;
otherwise its value id is the number of the attached values and its value is
appended at the end of the tail, right after them; the leaf links to the place
of the suffix in the region, and the bytes written before stay. -/
theorem suffix_shared {n : Nat} {b0 b : DoubleArrayBuilder} {done : List DoubleArrayKey}
    {pk : DoubleArrayKey} {base_link : Nat} {values : List Int}
    (hinv : TailInv n b0 b done (some pk) base_link values) (key : DoubleArrayKey)
    (hw : key.WF) (hb : ∀ c ∈ key.bytes, c < 256) (hidx : key.index < n)
    (hnew : ∀ k ∈ done, k.index ≠ key.index) (hsuf : key.is_suffix_of pk = true)
    (hcount : values.length < 8) (rest : List DoubleArrayKey) :
    DoubleArrayBuilder.find_value_id values key.value ≤ values.length ∧
    (∀ j, j < DoubleArrayBuilder.find_value_id values key.value → values.getD j 0 ≠ key.value) ∧
    (DoubleArrayBuilder.find_value_id values key.value < values.length →
      values.getD (DoubleArrayBuilder.find_value_id values key.value) 0 = key.value) ∧
    (DoubleArrayBuilder.find_value_id values key.value = values.length ↔ key.value ∉ values) ∧
    DoubleArrayBuilder.arrange_suffixes_loop 3 (key :: rest) (some pk) base_link values b
      = Except.bind
        (((b.set_unit key.index ((b.unit key.index).set_value_id 3
            (DoubleArrayBuilder.find_value_id values key.value))).unit key.index).set_link 3
          (base_link - key.length.toNat - 1))
        (fun u =>
          if DoubleArrayBuilder.find_value_id values key.value = values.length then
            DoubleArrayBuilder.arrange_suffixes_loop 3 rest (some key) base_link
              (values ++ [key.value])
              (((b.set_unit key.index ((b.unit key.index).set_value_id 3
                (DoubleArrayBuilder.find_value_id values key.value))).set_unit key.index
                  u).append_value key.value)
          else
            DoubleArrayBuilder.arrange_suffixes_loop 3 rest (some key) base_link values
              ((b.set_unit key.index ((b.unit key.index).set_value_id 3
                (DoubleArrayBuilder.find_value_id values key.value))).set_unit key.index u)) ∧
    ∀ u, ((b.set_unit key.index ((b.unit key.index).set_value_id 3
          (DoubleArrayBuilder.find_value_id values key.value))).unit key.index).set_link 3
        (base_link - key.length.toNat - 1) = .ok u →
      u.value_id 3 = DoubleArrayBuilder.find_value_id values key.value ∧
      u.link 3 = base_link - key.length.toNat - 1 ∧
      TailInv n b0 (suffix_post (some pk) values key b u) (done ++ [key]) (some key) base_link
        (if DoubleArrayBuilder.find_value_id values key.value = values.length
          then values ++ [key.value] else values) ∧
      (suffix_post (some pk) values key b u).tail_index
        = b.tail_index
          + (if DoubleArrayBuilder.find_value_id values key.value = values.length
              then 4 else 0) ∧
      (∀ t, t < 4 → DoubleArrayBuilder.get_byte (suffix_post (some pk) values key b u).units
          (4 * n + base_link + 4 * DoubleArrayBuilder.find_value_id values key.value + t)
        = (DoubleArrayBuilder.value_bytes key.value).getD t 0) ∧
      (DoubleArrayBuilder.find_value_id values key.value = values.length →
        4 * n + base_link + 4 * DoubleArrayBuilder.find_value_id values key.value
          = b.tail_index) := by
  obtain ⟨hf, hbase, hvals, hvid⟩ :=
    DoubleArrayBuilder.suffix_share_defs pk values key base_link hsuf hcount
  obtain ⟨s1, s2⟩ := DoubleArrayBuilder.find_value_id_spec values key.value
  obtain ⟨f1, f2⟩ := find_value_id_first values key.value
  have hpre : suffix_pre (some pk) values key b
      = b.set_unit key.index ((b.unit key.index).set_value_id 3
          (DoubleArrayBuilder.find_value_id values key.value)) := by
    unfold suffix_pre
    rw [hf, hvid]
    rfl
  refine ⟨s1, f1, s2, f2, ?_, ?_⟩
  · rw [DoubleArrayBuilder.arrange_suffixes_loop_eq0, hpre, hbase, hvals, hvid]
  · intro u hu
    have hu2 : ((suffix_pre (some pk) values key b).unit key.index).set_link 3
        (suffix_base (some pk) values key base_link - key.length.toNat - 1) = .ok u := by
      rw [hpre, hbase]; exact hu
    have hstep := DoubleArrayBuilder.arrange_step hinv key hw hb hidx hnew u hu2
    have hpost : suffix_values_post (some pk) values key
        = if DoubleArrayBuilder.find_value_id values key.value = values.length
          then values ++ [key.value] else values := by
      unfold suffix_values_post
      rw [hvid, hvals]
    rw [hbase, hpost] at hstep
    have hwfb : (b.unit key.index).wf := hinv.shape.wf key.index
    have hlt8 : DoubleArrayBuilder.find_value_id values key.value < 8 := by omega
    have hwf1 := DoubleArrayUnit.wf_set_value_id (b.unit key.index) _ hwfb hlt8
    have hunit : (b.set_unit key.index ((b.unit key.index).set_value_id 3
        (DoubleArrayBuilder.find_value_id values key.value))).unit key.index
        = (b.unit key.index).set_value_id 3
          (DoubleArrayBuilder.find_value_id values key.value) := by
      rw [DoubleArrayBuilder.unit_set_unit, if_pos ⟨rfl, by
        have := hinv.shape.len
        unfold DoubleArrayBuilder.num_of_units
        omega⟩]
    rw [hunit] at hu
    obtain ⟨_, _, hv3, hl3⟩ := DoubleArrayUnit.set_link_spec hwf1 hu
    have htail := hstep.tail
    have htail0 := hinv.tail
    refine ⟨by rw [hv3, DoubleArrayUnit.value_id_set_value_id _ _ hwfb hlt8], hl3, hstep, ?_,
      ?_, ?_⟩
    · rw [htail, htail0]
      split
      · rw [List.length_append, List.length_singleton]; omega
      · rfl
    · intro t ht4
      have hvok := hstep.values_ok (DoubleArrayBuilder.find_value_id values key.value) t
      by_cases he : DoubleArrayBuilder.find_value_id values key.value = values.length
      · rw [if_pos he] at hvok
        have := hvok (by rw [List.length_append, List.length_singleton]; omega) ht4
        rw [this, he, List.getD_append_right _ _ _ _ (Nat.le_refl _), Nat.sub_self]
        rfl
      · rw [if_neg he] at hvok
        have hlt : DoubleArrayBuilder.find_value_id values key.value < values.length := by omega
        rw [hvok hlt ht4, s2 hlt]
    · intro he
      rw [htail0, he]

theorem key_ab_wf : key_ab.WF :=
  ⟨by decide, by decide, by decide⟩

theorem key_b_wf : key_b.WF :=
  ⟨by decide, by decide, by decide⟩

theorem pack_start_units_wf : ∀ j, (pack_start.units.getD j default).wf := by
  intro j
  have e : pack_start.units.getD j default = default := by
    show [default, default].getD j default = default
    rcases j with _ | _ | j <;> rfl
  rw [e]
  exact DoubleArrayUnit.wf_default

/-- The state of the loop of `arrange_suffixes` after the key "ab" (value 7, leaf
unit 0) was packed from `pack_start`: the region "ab\0" with one value. -/
theorem pack_after_ab :
    ∃ b, TailInv 2 pack_start b [key_ab] (some key_ab) 3 [7] := by
  have h0 : TailInv 2 pack_start pack_start [] none 0 [] :=
    DoubleArrayBuilder.tailInv_start pack_start pack_start_units_wf []
  obtain ⟨u, hu⟩ := DoubleArrayUnit.set_link_ok
    ((suffix_pre none [] key_ab pack_start).unit key_ab.index)
    (suffix_base none [] key_ab 0 - key_ab.length.toNat - 1) (by decide)
  have h1 := DoubleArrayBuilder.arrange_step h0 key_ab key_ab_wf (by decide) (by decide)
    (by intro k hk; cases hk) u hu
  have e1 : suffix_base none [] key_ab 0 = 3 := by decide
  have e2 : suffix_values_post none [] key_ab = [7] := by decide
  rw [e1, e2] at h1
  exact ⟨_, h1⟩

theorem suffix_shared_witness :
    ∃ b, TailInv 2 pack_start b [key_ab] (some key_ab) 3 [7] ∧
      key_b.is_suffix_of key_ab = true ∧
      DoubleArrayBuilder.find_value_id [7] key_b.value = 0 ∧
      ∀ u, ((b.set_unit key_b.index ((b.unit key_b.index).set_value_id 3
            (DoubleArrayBuilder.find_value_id [7] key_b.value))).unit key_b.index).set_link 3
          (3 - key_b.length.toNat - 1) = .ok u →
        u.value_id 3 = DoubleArrayBuilder.find_value_id [7] key_b.value ∧
        u.link 3 = 3 - key_b.length.toNat - 1 ∧
        (suffix_post (some key_ab) [7] key_b b u).tail_index
          = b.tail_index
            + (if DoubleArrayBuilder.find_value_id [7] key_b.value = [7].length
                then 4 else 0) := by
  obtain ⟨b, hb⟩ := pack_after_ab
  have h2 := suffix_shared hb key_b key_b_wf (by decide) (by decide) (by decide) (by decide)
    (by decide) []
  exact ⟨b, hb, by decide, by decide, fun u hu =>
    ⟨(h2.2.2.2.2.2 u hu).1, (h2.2.2.2.2.2 u hu).2.1, (h2.2.2.2.2.2 u hu).2.2.2.1⟩⟩

end Darts

namespace Darts

theorem collect_keys_bcd :
    DoubleArrayBase.collect_keys none none keys_bcd 0 [] = .ok collected_bcd := rfl

/-- In a dictionary for the keys `K`, a key of two bytes `c`, `d` that is the only
key starting with `c`: the leaf reached from the root on `c` links to the bytes
`c`, `d`, 0 in the tail, and the value follows them. -/
theorem leaf_of_two_bytes {K : List DoubleArrayKey} (hK : KeysOK K) {da : DoubleArrayBase}
    {n : Nat} (hd : DictOK K da.units n) (ht : da.tail = 4 * n)
    (hval : ∀ k ∈ K, Int32 k.value) (c d i : Nat) (hi : i < K.length)
    (hext : ext_at K i = [c, d, 0])
    (huniq : ∀ j, j < K.length → [c] <+: ext_at K j → j = i) :
    (da.units.getD (walk da.units [c]) default).is_leaf = true ∧
      da.tail? ((da.units.getD (walk da.units [c]) default).link 3) = some c ∧
      da.tail? ((da.units.getD (walk da.units [c]) default).link 3 + 1) = some d ∧
      da.tail? ((da.units.getD (walk da.units [c]) default).link 3 + 2) = some 0 ∧
      da.get_value ((da.units.getD (walk da.units [c]) default).link 3 + 3
        + 4 * (da.units.getD (walk da.units [c]) default).value_id 3)
        = some (K.getD i default).value := by
  have hpre : Pre K [c] i := ⟨hi, by rw [hext]; exact ⟨[d, 0], rfl⟩⟩
  have hq : IsNode K [c] := ⟨⟨i, hpre⟩, Or.inl rfl⟩
  have hqi : ¬ Internal K [c] := by
    rintro (hn | ⟨i1, j1, hij, h1, h2⟩)
    · cases hn
    · have e1 := huniq i1 h1.1 h1.2
      have e2 := huniq j1 h2.1 h2.2
      omega
  obtain ⟨hl, i0, hp0, _, _, htail, hv⟩ := leaf_reads hK hd ht hval hq hqi
  have hi0 : i0 = i := huniq i0 hp0.1 hp0.2
  subst hi0
  have hdrop : (ext_at K i0).drop ([c].length - 1) = [c, d, 0] := by
    rw [hext]; rfl
  rw [hdrop] at htail hv
  have h0 := htail 0 (Nat.succ_pos _)
  have h1 := htail 1 (Nat.succ_lt_succ (Nat.succ_pos _))
  have h2 := htail 2 (Nat.lt_succ_self _)
  rw [Nat.add_zero] at h0
  exact ⟨hl, h0, h1, h2, hv⟩

/-- The leaves of the dictionary of "ba", "ca", "da": the leaf of the key number
`i` is reached from the root on its first byte, and it links to the whole key,
the terminator and the value `i` in the tail. -/
theorem bcd_leaf (da : DoubleArrayBase)
    (h : DoubleArrayBase.build 3 keys_bcd.length (some keys_bcd) none none = .ok da)
    (i : Nat) (hi : i < 3) :
    (da.units.getD (walk da.units [98 + i]) default).is_leaf = true ∧
      da.tail? ((da.units.getD (walk da.units [98 + i]) default).link 3) = some (98 + i) ∧
      da.tail? ((da.units.getD (walk da.units [98 + i]) default).link 3 + 1) = some 97 ∧
      da.tail? ((da.units.getD (walk da.units [98 + i]) default).link 3 + 2) = some 0 ∧
      da.get_value ((da.units.getD (walk da.units [98 + i]) default).link 3 + 3
        + 4 * (da.units.getD (walk da.units [98 + i]) default).value_id 3)
        = some (i : Int) := by
  obtain ⟨ks, U, hks, hc, hok, hU, hda⟩ :=
    build_ok_inv keys_bcd none none (by decide) (fun ls h => by cases h) h
  subst hda
  obtain ⟨hd, _⟩ := builder_sound hok hU
  have ht : (DoubleArrayBase.set_vector U).tail = 4 * (U.getD 1 default).offset := rfl
  have hval : ∀ k ∈ ks, Int32 k.value := by
    intro k hk
    obtain ⟨_, _, _, _, i0, _, _, h6, _⟩ := hc.entry k hk
    rw [h6]
    exact int32_make_value none (fun vs h => by cases h) i0
  have hk : ks = collected_bcd := by
    rw [collect_keys_bcd] at hks
    exact (Except.ok.inj hks).symm
  subst hk
  have hd2 : DictOK collected_bcd (DoubleArrayBase.set_vector U).units
      (U.getD 1 default).offset := hd
  have huniq : ∀ i, i < 3 → ∀ j, j < collected_bcd.length → [98 + i] <+: ext_at collected_bcd j →
      j = i := by decide
  have hext : ∀ i, i < 3 → ext_at collected_bcd i = [98 + i, 97, 0] := by decide
  have hvi : ∀ i, i < 3 → (collected_bcd.getD i default).value = (i : Int) := by decide
  have hlen : collected_bcd.length = 3 := rfl
  have := leaf_of_two_bytes hok hd2 ht hval (98 + i) 97 i (by rw [hlen]; exact hi)
    (hext i hi) (huniq i hi)
  rw [hvi i hi] at this
  exact this

theorem build_bcd_total :
    ∃ da, DoubleArrayBase.build 3 keys_bcd.length (some keys_bcd) none none = .ok da :=
  build_ok_total keys_bcd none none (by decide) (fun ls h => by cases h)
    _ collect_keys_bcd (by decide)

/-- The links of the leaves of two of the keys "ba", "ca", "da" differ. -/
theorem bcd_links_ne (da : DoubleArrayBase)
    (h : DoubleArrayBase.build 3 keys_bcd.length (some keys_bcd) none none = .ok da)
    (i j : Nat) (hi : i < 3) (hj : j < 3) (hij : i ≠ j) :
    (da.units.getD (walk da.units [98 + i]) default).link 3
      ≠ (da.units.getD (walk da.units [98 + j]) default).link 3 := by
  intro e
  have h1 := (bcd_leaf da h i hi).2.1
  have h2 := (bcd_leaf da h j hj).2.1
  rw [e, h2] at h1
  have := Option.some.inj h1
  omega

theorem suffix_merge_counterexample :
    ∃ da, DoubleArrayBase.build 3 keys_bcd.length (some keys_bcd) none none = .ok da ∧
      ∃ l1 l2 l3, l1 ≠ l2 ∧ l1 ≠ l3 ∧ l2 ≠ l3 ∧
        (da.tail? l1 = some 97 ∧ da.tail? (l1 + 1) = some 0) ∧
        (da.tail? l2 = some 97 ∧ da.tail? (l2 + 1) = some 0) ∧
        (da.tail? l3 = some 97 ∧ da.tail? (l3 + 1) = some 0) := by
  obtain ⟨da, hda⟩ := build_bcd_total
  have n01 := bcd_links_ne da hda 0 1 (by decide) (by decide) (by decide)
  have n02 := bcd_links_ne da hda 0 2 (by decide) (by decide) (by decide)
  have n12 := bcd_links_ne da hda 1 2 (by decide) (by decide) (by decide)
  obtain ⟨_, _, a1, a2, _⟩ := bcd_leaf da hda 0 (by decide)
  obtain ⟨_, _, b1, b2, _⟩ := bcd_leaf da hda 1 (by decide)
  obtain ⟨_, _, c1, c2, _⟩ := bcd_leaf da hda 2 (by decide)
  exact ⟨da, hda, _, _, _, fun e => n01 (Nat.succ.inj e), fun e => n02 (Nat.succ.inj e),
    fun e => n12 (Nat.succ.inj e), ⟨a1, a2⟩, ⟨b1, b2⟩, ⟨c1, c2⟩⟩

/-- C34 (amended): in the dictionary that `build` returns for the keys "ba",
"ca", "da" without values, the leaf of the key number `i` is the child of the
root on the first byte of the key, and the tail holds at its link the whole key
(the leaf suffix starts with the byte that led to the leaf), the terminator 0
and then the value `i`; the links of the three leaves differ, so that the suffix
"a" is stored three times; `exactMatchSearch` yields 1 for "ca" and finds
nothing for "a". -/
theorem suffix_not_merged (da : DoubleArrayBase)
    (h : DoubleArrayBase.build 3 keys_bcd.length (some keys_bcd) none none = .ok da) :
    (∀ i, i < 3 →
      (da.units.getD (walk da.units [98 + i]) default).is_leaf = true ∧
      da.tail? ((da.units.getD (walk da.units [98 + i]) default).link 3) = some (98 + i) ∧
      da.tail? ((da.units.getD (walk da.units [98 + i]) default).link 3 + 1) = some 97 ∧
      da.tail? ((da.units.getD (walk da.units [98 + i]) default).link 3 + 2) = some 0 ∧
      da.get_value ((da.units.getD (walk da.units [98 + i]) default).link 3 + 3
        + 4 * (da.units.getD (walk da.units [98 + i]) default).value_id 3)
        = some (i : Int)) ∧
    (∀ i j, i < 3 → j < 3 → i ≠ j →
      (da.units.getD (walk da.units [98 + i]) default).link 3
        ≠ (da.units.getD (walk da.units [98 + j]) default).link 3) ∧
    (∀ res, DoubleArrayBase.exactMatchSearch 3 da [99, 97] res 0 0 = some (true, ⟨1, 2⟩)) ∧
    (∀ res, DoubleArrayBase.exactMatchSearch 3 da [97] res 0 0
      = some (false, ⟨-1, res.length⟩)) := by
  refine ⟨fun i hi => bcd_leaf da h i hi, fun i j hi hj hij => bcd_links_ne da h i j hi hj hij,
    ?_, ?_⟩
  · intro res
    exact (exact_match_build keys_bcd none none (by decide) (fun ls h => by cases h)
      (fun vs h => by cases h) da h [99, 97] (by decide) res).1 1 (by decide) rfl (by decide)
  · intro res
    exact (exact_match_build keys_bcd none none (by decide) (fun ls h => by cases h)
      (fun vs h => by cases h) da h [97] (by decide) res).2 (by decide)

theorem suffix_not_merged_witness :
    ∃ da, DoubleArrayBase.build 3 keys_bcd.length (some keys_bcd) none none = .ok da ∧
      DoubleArrayBase.exactMatchSearch 3 da [99, 97] ⟨0, 0⟩ 0 0 = some (true, ⟨1, 2⟩) ∧
      DoubleArrayBase.exactMatchSearch 3 da [97] ⟨0, 0⟩ 0 0 = some (false, ⟨-1, 0⟩) ∧
      da.tail? ((da.units.getD (walk da.units [99]) default).link 3) = some 99 ∧
      da.tail? ((da.units.getD (walk da.units [99]) default).link 3 + 1) = some 97 := by
  obtain ⟨da, hda⟩ := build_bcd_total
  exact ⟨da, hda, (suffix_not_merged da hda).2.2.1 ⟨0, 0⟩, (suffix_not_merged da hda).2.2.2 ⟨0, 0⟩,
    ((suffix_not_merged da hda).1 1 (by decide)).2.1,
    ((suffix_not_merged da hda).1 1 (by decide)).2.2.1⟩

end Darts

namespace Darts

namespace DoubleArrayUnit

theorem link_max_eq (idBits : Nat) : UNIT_LINK_MAX idBits = 2 ^ (31 - idBits) := by
  unfold UNIT_LINK_MAX LINK_BITS
  rw [Nat.one_shiftLeft]

theorem wf_set_value_id_at (idBits : Nat) (hid : idBits ≤ 31) (u : DoubleArrayUnit) (id : Nat)
    (hu : u.wf) (h : id < 2 ^ idBits) : (u.set_value_id idBits id).wf :=
  set_lt 1 idBits u id hu h (by omega)

theorem is_leaf_set_value_id_at (idBits : Nat) (hid : idBits ≤ 31) (u : DoubleArrayUnit)
    (id : Nat) (hu : u.wf) (h : id < 2 ^ idBits) :
    (u.set_value_id idBits id).is_leaf = u.is_leaf :=
  is_leaf_set 1 idBits u id hu h (by omega) (by decide)

theorem value_id_set_value_id_at (idBits : Nat) (hid : idBits ≤ 31) (u : DoubleArrayUnit)
    (id : Nat) (hu : u.wf) (h : id < 2 ^ idBits) :
    (u.set_value_id idBits id).value_id idBits = id :=
  get_set_same 1 idBits u id hu h (by omega)

theorem set_link_ok_at (idBits : Nat) (hid : idBits ≤ 31) (u : DoubleArrayUnit) (l : Nat)
    (hl : l < 2 ^ (31 - idBits)) : ∃ u2, u.set_link idBits l = .ok u2 := by
  unfold set_link
  rw [link_max_eq]
  have : ¬ (l ≥ 2 ^ (31 - idBits)) := by omega
  rw [if_neg this]
  exact ⟨_, rfl⟩

theorem set_link_spec_at (idBits : Nat) (hid : idBits ≤ 31) {u u2 : DoubleArrayUnit} {l : Nat}
    (hu : u.wf) (h : u.set_link idBits l = .ok u2) :
    u2.wf ∧ u2.is_leaf = u.is_leaf ∧ u2.value_id idBits = u.value_id idBits ∧
      u2.link idBits = l := by
  unfold set_link at h
  rw [link_max_eq] at h
  have hb : LINK_BITS idBits = 31 - idBits := rfl
  by_cases hl : l ≥ 2 ^ (31 - idBits)
  · rw [if_pos hl] at h
    cases h
  · rw [if_neg hl] at h
    have hl2 : l < 2 ^ (31 - idBits) := by omega
    have e := Except.ok.inj h
    subst e
    rw [hb]
    refine ⟨set_lt (1 + idBits) (31 - idBits) u l hu hl2 (by omega), ?_, ?_, ?_⟩
    · exact is_leaf_set (1 + idBits) (31 - idBits) u l hu hl2 (by omega) (by omega)
    · exact get_set_disjoint (1 + idBits) (31 - idBits) 1 idBits u l hu hl2 (by omega)
        (Or.inl (Nat.le_refl _))
    · unfold link
      rw [hb]
      exact get_set_same (1 + idBits) (31 - idBits) u l hu hl2 (by omega)

end DoubleArrayUnit

namespace DoubleArrayBuilder

theorem pack_loop_eq0 (idBits : Nat) (key : DoubleArrayKey) (rest : List DoubleArrayKey)
    (prev : Option DoubleArrayKey) (base_link : Nat) (values : List Int)
    (b : DoubleArrayBuilder) :
    arrange_suffixes_loop idBits (key :: rest) prev base_link values b =
      Except.bind (((pack_pre idBits prev values key b).unit key.index).set_link idBits
        (pack_base idBits prev values key base_link - key.length.toNat - 1))
      (fun u =>
        if pack_value_id idBits prev values key = (pack_values idBits prev values key).length then
          arrange_suffixes_loop idBits rest (some key) (pack_base idBits prev values key base_link)
            (pack_values idBits prev values key ++ [key.value])
            (((pack_pre idBits prev values key b).set_unit key.index u).append_value key.value)
        else
          arrange_suffixes_loop idBits rest (some key) (pack_base idBits prev values key base_link)
            (pack_values idBits prev values key) ((pack_pre idBits prev values key b).set_unit key.index u)) :=
  rfl

theorem pack_loop_eq (idBits : Nat) (key : DoubleArrayKey) (rest : List DoubleArrayKey)
    (prev : Option DoubleArrayKey) (base_link : Nat) (values : List Int)
    (b : DoubleArrayBuilder) :
    arrange_suffixes_loop idBits (key :: rest) prev base_link values b =
      Except.bind (((pack_pre idBits prev values key b).unit key.index).set_link idBits
        (pack_base idBits prev values key base_link - key.length.toNat - 1))
      (fun u => arrange_suffixes_loop idBits rest (some key) (pack_base idBits prev values key base_link)
        (pack_values_post idBits prev values key) (pack_post idBits prev values key b u)) := by
  rw [pack_loop_eq0 idBits]
  congr 1
  funext u
  unfold pack_values_post pack_post
  by_cases hc : pack_value_id idBits prev values key = (pack_values idBits prev values key).length
  · rw [if_pos hc, if_pos hc, if_pos hc]
  · rw [if_neg hc, if_neg hc, if_neg hc]

theorem pack_cases (idBits : Nat) (prev : Option DoubleArrayKey) (values : List Int) (key : DoubleArrayKey)
    (base_link : Nat) :
    (pack_fresh idBits prev values key = true ∧
      pack_base idBits prev values key base_link
        = base_link + 4 * values.length + (key.length.toNat + 1) ∧
      pack_values idBits prev values key = [] ∧ pack_value_id idBits prev values key = 0) ∨
    (pack_fresh idBits prev values key = false ∧
      (∃ pk, prev = some pk ∧ key.is_suffix_of pk = true) ∧
      pack_base idBits prev values key base_link = base_link ∧
      pack_values idBits prev values key = values ∧
      pack_value_id idBits prev values key = find_value_id values key.value ∧
      find_value_id values key.value < 2 ^ idBits) := by
  unfold pack_base pack_values pack_value_id
  cases hf : pack_fresh idBits prev values key with
  | true =>
    left
    simp only [if_true, and_self]
  | false =>
    right
    simp only [Bool.false_eq_true, if_false, true_and]
    unfold pack_fresh at hf
    cases prev with
    | none => simp at hf
    | some pk =>
      simp only at hf ⊢
      by_cases hs : key.is_suffix_of pk = true
      · rw [if_pos hs] at hf ⊢
        rw [hs] at hf
        simp only [Bool.not_true, Bool.false_or, decide_eq_false_iff_not] at hf
        have h8 : DoubleArrayUnit.VALUE_ID_MAX idBits = 2 ^ idBits := Nat.one_shiftLeft idBits
        rw [h8] at hf
        exact ⟨⟨pk, rfl, hs⟩, rfl, by omega⟩
      · have hs2 : key.is_suffix_of pk = false := by simpa using hs
        simp [hs2] at hf

/-- The first stage of a step of the loop of `arrange_suffixes`: after the
suffix of `key` has been appended or found in the previous suffix. -/
theorem pack_stage1 (idBits : Nat) {n : Nat} {b0 b : DoubleArrayBuilder} {done : List DoubleArrayKey}
    {prev : Option DoubleArrayKey} {base_link : Nat} {values : List Int}
    (hinv : PackInv idBits n b0 b done prev base_link values) (key : DoubleArrayKey) (hw : key.WF)
    (hb : ∀ c ∈ key.bytes, c < 256) (B1 : DoubleArrayBuilder)
    (hB1 : B1 = if pack_fresh idBits prev values key then b.append_suffix key else b) :
    TailShape n B1 ∧
      B1.tail_index = 4 * n + pack_base idBits prev values key base_link
        + 4 * (pack_values idBits prev values key).length ∧
      b.tail_index ≤ B1.tail_index ∧
      (∀ pos, pos < b.tail_index → get_byte B1.units pos = get_byte b.units pos) ∧
      (∀ j, j < n → B1.units.getD j default = b.units.getD j default) ∧
      key.length.toNat + 1 ≤ pack_base idBits prev values key base_link ∧
      (∀ t, t ≤ key.length.toNat →
        get_byte B1.units (4 * n + pack_base idBits prev values key base_link
          - (key.length.toNat + 1) + t) = key.ext.getD t 0) ∧
      (∀ v t, v < (pack_values idBits prev values key).length → t < 4 →
        get_byte B1.units (4 * n + pack_base idBits prev values key base_link + 4 * v + t)
          = (value_bytes ((pack_values idBits prev values key).getD v 0)).getD t 0) ∧
      pack_value_id idBits prev values key ≤ (pack_values idBits prev values key).length ∧
      (pack_value_id idBits prev values key < (pack_values idBits prev values key).length →
        (pack_values idBits prev values key).getD (pack_value_id idBits prev values key) 0 = key.value) ∧
      pack_value_id idBits prev values key < 2 ^ idBits ∧
      pack_base idBits prev values key base_link + 4 * (pack_values idBits prev values key).length
        ≤ base_link + 4 * values.length + (key.length.toNat + 1) ∧
      B1.keys = b.keys := by
  have htail := hinv.tail
  rcases pack_cases idBits prev values key base_link with ⟨hf, hbase, hvals, hid⟩ |
    ⟨hf, ⟨pk, hpk, hsuf⟩, hbase, hvals, hid, hid8⟩
  · rw [hf] at hB1
    simp only [if_true] at hB1
    subst hB1
    obtain ⟨a1, a2, a3, a4, a5, a6⟩ := append_suffix_spec key hw hb b hinv.shape
    rw [hbase, hvals, hid]
    refine ⟨a1, ?_, ?_, a4, a5, by omega, ?_, ?_, Nat.zero_le _, ?_, Nat.two_pow_pos idBits, ?_, a6⟩
    · rw [a2, htail]; simp only [List.length_nil]; omega
    · rw [a2]; omega
    · intro t ht
      have e : 4 * n + (base_link + 4 * values.length + (key.length.toNat + 1))
          - (key.length.toNat + 1) + t = b.tail_index + t := by omega
      rw [e]
      exact a3 t ht
    · intro v t hv
      exact absurd hv (Nat.not_lt_zero _)
    · intro hv
      exact absurd hv (Nat.not_lt_zero _)
    · simp only [List.length_nil]; omega
  · rw [hf] at hB1
    simp only [Bool.false_eq_true, if_false] at hB1
    subst hB1
    obtain ⟨p1, p2, p3⟩ := hinv.prev_ok pk hpk
    obtain ⟨s1, s2⟩ := DoubleArrayKey.is_suffix_of_spec key pk hw p1 hsuf
    have hfv := find_value_id_spec values key.value
    rw [hbase, hvals, hid]
    refine ⟨hinv.shape, htail, Nat.le_refl _, fun _ _ => rfl, fun _ _ => rfl, by omega, ?_,
      hinv.values_ok, hfv.1, hfv.2, hid8, by omega, rfl⟩
    intro t ht
    have e : 4 * n + base_link - (key.length.toNat + 1) + t
        = 4 * n + base_link - (pk.length.toNat + 1)
          + (pk.length.toNat - key.length.toNat + t) := by omega
    rw [e, p3 _ (by omega), s2 t ht]

theorem pack_step_core (idBits : Nat) {n : Nat} {b0 b : DoubleArrayBuilder} {done : List DoubleArrayKey}
    {prev : Option DoubleArrayKey} {base_link : Nat} {values : List Int}
    (hinv : PackInv idBits n b0 b done prev base_link values) (key : DoubleArrayKey) (hw : key.WF)
    (hidx : key.index < n) (hnew : ∀ k ∈ done, k.index ≠ key.index) (u : DoubleArrayUnit)
    (B1 B2 B3 B4 : DoubleArrayBuilder) (bl vid : Nat) (vals V : List Int)
    (t1 : B1.tail_index = 4 * n + bl + 4 * vals.length)
    (le1 : b.tail_index ≤ B1.tail_index)
    (low1 : ∀ pos, pos < b.tail_index → get_byte B1.units pos = get_byte b.units pos)
    (un1 : ∀ j, j < n → B1.units.getD j default = b.units.getD j default)
    (hL : key.length.toNat + 1 ≤ bl)
    (suf1 : ∀ t, t ≤ key.length.toNat →
      get_byte B1.units (4 * n + bl - (key.length.toNat + 1) + t) = key.ext.getD t 0)
    (t2 : B2.tail_index = B1.tail_index)
    (o2 : ∀ i, i ≠ key.index → B2.units.getD i default = B1.units.getD i default)
    (by2 : ∀ pos, 4 * n ≤ pos → get_byte B2.units pos = get_byte B1.units pos)
    (t3 : B3.tail_index = B2.tail_index)
    (g3 : B3.units.getD key.index default = u)
    (o3 : ∀ i, i ≠ key.index → B3.units.getD i default = B2.units.getD i default)
    (by3 : ∀ pos, 4 * n ≤ pos → get_byte B3.units pos = get_byte B2.units pos)
    (hleaf : u.is_leaf = (b.units.getD key.index default).is_leaf)
    (hvid : u.value_id idBits = vid) (hlink : u.link idBits = bl - key.length.toNat - 1)
    (f1 : TailShape n B4) (f2 : B4.tail_index = 4 * n + bl + 4 * V.length)
    (f3 : ∀ pos, pos < B3.tail_index → get_byte B4.units pos = get_byte B3.units pos)
    (f4 : ∀ j, j < n → B4.units.getD j default = B3.units.getD j default)
    (f5 : vid < V.length) (f6 : V.getD vid 0 = key.value)
    (f7 : ∀ v t, v < V.length → t < 4 →
      get_byte B4.units (4 * n + bl + 4 * v + t) = (value_bytes (V.getD v 0)).getD t 0)
    (f8 : B3.tail_index ≤ B4.tail_index) :
    PackInv idBits n b0 B4 (done ++ [key]) (some key) bl V ∧
      (∀ pos, 4 * n ≤ pos → pos < b.tail_index → get_byte B4.units pos = get_byte b.units pos) ∧
      (∀ j, j < n → j ≠ key.index → B4.units.getD j default = b.units.getD j default) ∧
      b.tail_index ≤ B4.tail_index := by
  have ht3 : B3.tail_index = B1.tail_index := by rw [t3, t2]
  have hbyte : ∀ pos, 4 * n ≤ pos → pos < b.tail_index →
      get_byte B4.units pos = get_byte b.units pos := by
    intro pos h1 h2
    rw [f3 pos (by omega), by3 pos h1, by2 pos h1, low1 pos h2]
  have hbyte1 : ∀ pos, 4 * n ≤ pos → pos < B1.tail_index →
      get_byte B4.units pos = get_byte B1.units pos := by
    intro pos h1 h2
    rw [f3 pos (by omega), by3 pos h1, by2 pos h1]
  have hother : ∀ j, j < n → j ≠ key.index →
      B4.units.getD j default = b.units.getD j default := by
    intro j h1 h2
    rw [f4 j h1, o3 j h2, o2 j h2, un1 j h1]
  have hself : B4.units.getD key.index default = u := by
    rw [f4 _ hidx, g3]
  refine ⟨⟨f1, f2, ?_, f7, ?_, ?_, ?_⟩, hbyte, hother, by omega⟩
  · intro pk hpk
    cases hpk
    refine ⟨hw, hL, fun t ht => ?_⟩
    rw [hbyte1 (4 * n + bl - (key.length.toNat + 1) + t) (by omega) (by omega)]
    exact suf1 t ht
  · intro k hk
    rcases List.mem_append.1 hk with hk | hk
    · have hd := hinv.done_ok k hk
      have hne := hnew k hk
      have hbd := hd.bound
      have e := hother k.index hd.index hne
      refine ⟨hd.index, ?_, ?_, ?_⟩
      · intro t ht
        rw [e]
        exact (hbyte _ (by omega) (by omega)).trans (hd.suffix t ht)
      · intro t ht
        rw [e]
        exact (hbyte _ (by omega) (by omega)).trans (hd.value t ht)
      · rw [e]; omega
    · have hk2 : k = key := by simpa using hk
      subst hk2
      refine ⟨hidx, ?_, ?_, ?_⟩
      · intro t ht
        have e : 4 * n + (bl - k.length.toNat - 1) + t
            = 4 * n + bl - (k.length.toNat + 1) + t := by omega
        rw [hself, hlink, e]
        exact (hbyte1 _ (by omega) (by omega)).trans (suf1 t ht)
      · intro t ht
        rw [hself, hlink, hvid]
        have e : 4 * n + (bl - k.length.toNat - 1) + k.length.toNat + 1 + 4 * vid + t
            = 4 * n + bl + 4 * vid + t := by omega
        rw [e, f7 vid t f5 ht, f6]
      · rw [hself, hlink, hvid, f2]; omega
  · intro j hj hk
    have hne : j ≠ key.index := fun hc =>
      hk key (List.mem_append.2 (Or.inr (List.mem_singleton.2 rfl))) hc.symm
    rw [hother j hj hne]
    exact hinv.frame j hj (fun k hk2 => hk k (List.mem_append.2 (Or.inl hk2)))
  · intro j hj
    by_cases hje : j = key.index
    · rw [hje, hself, hleaf]
      exact hinv.leaf _ hidx
    · rw [hother j hj hje]
      exact hinv.leaf j hj

/-- One step of the loop of `arrange_suffixes` keeps the invariant. -/
theorem pack_step_inv (idBits : Nat) (hid : idBits ≤ 31) {n : Nat} {b0 b : DoubleArrayBuilder} {done : List DoubleArrayKey}
    {prev : Option DoubleArrayKey} {base_link : Nat} {values : List Int}
    (hinv : PackInv idBits n b0 b done prev base_link values) (key : DoubleArrayKey) (hw : key.WF)
    (hb : ∀ c ∈ key.bytes, c < 256) (hidx : key.index < n)
    (hnew : ∀ k ∈ done, k.index ≠ key.index) (u : DoubleArrayUnit)
    (hset : ((pack_pre idBits prev values key b).unit key.index).set_link idBits
      (pack_base idBits prev values key base_link - key.length.toNat - 1) = .ok u) :
    PackInv idBits n b0 (pack_post idBits prev values key b u) (done ++ [key]) (some key)
        (pack_base idBits prev values key base_link) (pack_values_post idBits prev values key) ∧
      (∀ pos, 4 * n ≤ pos → pos < b.tail_index →
        get_byte (pack_post idBits prev values key b u).units pos = get_byte b.units pos) ∧
      (∀ j, j < n → j ≠ key.index →
        (pack_post idBits prev values key b u).units.getD j default = b.units.getD j default) ∧
      b.tail_index ≤ (pack_post idBits prev values key b u).tail_index := by
  obtain ⟨s1, t1, le1, low1, un1, hL, suf1, val1, hvle, hvget, hv8, _, _⟩ :=
    pack_stage1 idBits hinv key hw hb _ rfl
  have hu2 := DoubleArrayUnit.wf_set_value_id_at idBits hid _ (pack_value_id idBits prev values key)
    (s1.wf key.index) hv8
  obtain ⟨sh2, t2, g2, o2, by2⟩ := set_unit_shape s1 key.index hidx _ hu2
  have hpre : pack_pre idBits prev values key b
      = DoubleArrayBuilder.set_unit (if pack_fresh idBits prev values key then b.append_suffix key else b)
          key.index (((if pack_fresh idBits prev values key then b.append_suffix key else b).units.getD
            key.index default).set_value_id idBits (pack_value_id idBits prev values key)) := rfl
  have hunit : (pack_pre idBits prev values key b).unit key.index
      = ((if pack_fresh idBits prev values key then b.append_suffix key else b).units.getD key.index
          default).set_value_id idBits (pack_value_id idBits prev values key) := by
    rw [hpre]; exact g2
  rw [hunit] at hset
  obtain ⟨hu, hleaf, hvid, hlink⟩ := DoubleArrayUnit.set_link_spec_at idBits hid hu2 hset
  rw [DoubleArrayUnit.value_id_set_value_id_at idBits hid _ _ (s1.wf key.index) hv8] at hvid
  rw [DoubleArrayUnit.is_leaf_set_value_id_at idBits hid _ _ (s1.wf key.index) hv8, un1 _ hidx] at hleaf
  rw [← hpre] at sh2 t2 o2 by2
  obtain ⟨sh3, t3, g3, o3, by3⟩ := set_unit_shape sh2 key.index hidx u hu
  have hval3 : ∀ v t, v < (pack_values idBits prev values key).length → t < 4 →
      get_byte ((pack_pre idBits prev values key b).set_unit key.index u).units
        (4 * n + pack_base idBits prev values key base_link + 4 * v + t)
        = (value_bytes ((pack_values idBits prev values key).getD v 0)).getD t 0 := by
    intro v t hv ht
    rw [by3 _ (Nat.le_trans (Nat.le_add_right _ _) (Nat.le_trans (Nat.le_add_right _ _)
        (Nat.le_add_right _ _))),
      by2 _ (Nat.le_trans (Nat.le_add_right _ _) (Nat.le_trans (Nat.le_add_right _ _)
        (Nat.le_add_right _ _))), val1 v t hv ht]
  obtain ⟨f1, f2, f3, f4, f5, f6, f7, f8⟩ := suffix_stage3
    ((pack_pre idBits prev values key b).set_unit key.index u) sh3
    (pack_base idBits prev values key base_link) (pack_values idBits prev values key)
    (pack_value_id idBits prev values key) key.value (by rw [t3, t2, t1]) hval3 hvle hvget
    (pack_post idBits prev values key b u) rfl (pack_values_post idBits prev values key) rfl
  exact pack_step_core idBits hinv key hw hidx hnew u _ _ _ _ _ _ _ _ t1 le1 low1 un1 hL suf1
    t2 o2 by2 t3 g3 o3 by3 hleaf hvid hlink f1 f2 f3 f4 f5 f6 f7 f8

theorem pack_budget (idBits : Nat) (prev : Option DoubleArrayKey) (values : List Int) (key : DoubleArrayKey)
    (base_link : Nat) :
    pack_base idBits prev values key base_link - key.length.toNat - 1
        ≤ base_link + 4 * values.length ∧
      pack_base idBits prev values key base_link + 4 * (pack_values_post idBits prev values key).length
        ≤ base_link + 4 * values.length + (key.length.toNat + 5) := by
  have hp : (pack_values_post idBits prev values key).length
      ≤ (pack_values idBits prev values key).length + 1 := by
    unfold pack_values_post
    split
    · rw [List.length_append, List.length_singleton]
    · omega
  rcases pack_cases idBits prev values key base_link with ⟨_, hbase, hvals, _⟩ |
    ⟨_, _, hbase, hvals, _, _⟩
  · rw [hvals] at hp
    rw [hbase]
    simp only [List.length_nil] at hp
    omega
  · rw [hvals] at hp
    rw [hbase]
    omega

/-- The loop of `arrange_suffixes`: it returns when the tail stays below the
largest link, and the builder it returns links every key to its suffix and its
value. -/
theorem pack_loop_spec (idBits : Nat) (hid : idBits ≤ 31) (n : Nat) (b0 : DoubleArrayBuilder) :
    ∀ (keys done : List DoubleArrayKey) (prev : Option DoubleArrayKey) (base_link : Nat)
      (values : List Int) (b : DoubleArrayBuilder),
      PackInv idBits n b0 b done prev base_link values →
      (∀ k ∈ keys, k.WF ∧ (∀ c ∈ k.bytes, c < 256) ∧ k.index < n) →
      ((done ++ keys).map (fun k => k.index)).Nodup →
      (base_link + 4 * values.length + (keys.map (fun k => k.length.toNat + 5)).sum < 2 ^ (31 - idBits) →
        ∃ bf, arrange_suffixes_loop idBits keys prev base_link values b = .ok bf) ∧
      ∀ bf, arrange_suffixes_loop idBits keys prev base_link values b = .ok bf →
        (∃ prev2 base_link2 values2,
          PackInv idBits n b0 bf (done ++ keys) prev2 base_link2 values2) ∧
        (∀ pos, 4 * n ≤ pos → pos < b.tail_index → get_byte bf.units pos = get_byte b.units pos) ∧
        (∀ j, j < n → (∀ k ∈ keys, k.index ≠ j) →
          bf.units.getD j default = b.units.getD j default) ∧
        b.tail_index ≤ bf.tail_index := by
  intro keys
  induction keys with
  | nil =>
    intro done prev base_link values b hinv _ _
    have e : arrange_suffixes_loop idBits [] prev base_link values b = .ok b := rfl
    rw [e, List.append_nil]
    refine ⟨fun _ => ⟨b, rfl⟩, fun bf hbf => ?_⟩
    cases hbf
    exact ⟨⟨prev, base_link, values, hinv⟩, fun _ _ _ => rfl, fun _ _ _ => rfl, Nat.le_refl _⟩
  | cons key rest ih =>
    intro done prev base_link values b hinv hkeys hnd
    obtain ⟨hw, hb, hidx⟩ := hkeys key (List.mem_cons_self _ _)
    have hrest : ∀ k ∈ rest, k.WF ∧ (∀ c ∈ k.bytes, c < 256) ∧ k.index < n :=
      fun k hk => hkeys k (List.mem_cons_of_mem _ hk)
    have happ : done ++ key :: rest = (done ++ [key]) ++ rest := by
      rw [List.append_assoc]; rfl
    have hnew : ∀ k ∈ done, k.index ≠ key.index := by
      intro k hk hc
      rw [List.map_append, List.map_cons] at hnd
      have := (List.nodup_append.1 hnd).2.2
      exact this (List.mem_map.2 ⟨k, hk, hc⟩) (List.mem_cons_self _ _)
    rw [happ] at hnd ⊢
    rw [pack_loop_eq idBits]
    obtain ⟨hb1, hb2⟩ := pack_budget idBits prev values key base_link
    refine ⟨fun hbud => ?_, fun bf hbf => ?_⟩
    · rw [List.map_cons, List.sum_cons] at hbud
      obtain ⟨u, hu⟩ := DoubleArrayUnit.set_link_ok_at idBits hid ((pack_pre idBits prev values key b).unit key.index)
        (pack_base idBits prev values key base_link - key.length.toNat - 1) (by omega)
      rw [hu]
      have hstep := (pack_step_inv idBits hid hinv key hw hb hidx hnew u hu).1
      exact (ih _ _ _ _ _ hstep hrest hnd).1 (by omega)
    · cases hu : ((pack_pre idBits prev values key b).unit key.index).set_link idBits
          (pack_base idBits prev values key base_link - key.length.toNat - 1) with
      | error e => rw [hu] at hbf; cases hbf
      | ok u =>
        rw [hu] at hbf
        obtain ⟨hstep, g1, g2, g3⟩ := pack_step_inv idBits hid hinv key hw hb hidx hnew u hu
        obtain ⟨i1, i2, i3, i4⟩ := (ih _ _ _ _ _ hstep hrest hnd).2 bf hbf
        refine ⟨i1, fun pos h1 h2 => ?_, fun j hj hne => ?_, Nat.le_trans g3 i4⟩
        · rw [i2 pos h1 (Nat.lt_of_lt_of_le h2 g3)]
          exact g1 pos h1 h2
        · rw [i3 j hj (fun k hk => hne k (List.mem_cons_of_mem _ hk))]
          exact g2 j hj (fun hc => hne key (List.mem_cons_self _ _) hc.symm)

/-- The builder `arrange_suffixes` starts its loop with. -/
theorem packInv_start (idBits : Nat) (b : DoubleArrayBuilder) (hwf : ∀ j, (b.units.getD j default).wf)
    (ks : List DoubleArrayKey) :
    PackInv idBits b.num_of_units b
      (DoubleArrayBuilder.mk ks b.units b.extras b.unfixed_index b.num_of_unused_indices (4 * b.num_of_units) b.progress)
      [] none 0 [] := by
  refine ⟨⟨hwf, Nat.le_refl _, Nat.le_refl _, Nat.le_refl _⟩, rfl, ?_, ?_, ?_, ?_, ?_⟩
  · intro pk hpk; cases hpk
  · intro v t hv; exact absurd hv (Nat.not_lt_zero _)
  · intro k hk; cases hk
  · intro j _ _; rfl
  · intro j _; rfl

/-- A run of the loop of `arrange_suffixes` over `ks1 ++ ks2` is a run over
`ks1` followed by a run over `ks2` from a state that satisfies the invariant. -/
theorem pack_loop_split (idBits : Nat) (hid : idBits ≤ 31) (n : Nat) (b0 : DoubleArrayBuilder)
    (ks2 : List DoubleArrayKey) :
    ∀ (ks1 done : List DoubleArrayKey) (prev : Option DoubleArrayKey) (base_link : Nat)
      (values : List Int) (b : DoubleArrayBuilder),
      PackInv idBits n b0 b done prev base_link values →
      (∀ k ∈ ks1, k.WF ∧ (∀ c ∈ k.bytes, c < 256) ∧ k.index < n) →
      ((done ++ ks1).map (fun k => k.index)).Nodup →
      ∀ bf, arrange_suffixes_loop idBits (ks1 ++ ks2) prev base_link values b = .ok bf →
        ∃ bm prev2 base_link2 values2,
          arrange_suffixes_loop idBits ks1 prev base_link values b = .ok bm ∧
          PackInv idBits n b0 bm (done ++ ks1) prev2 base_link2 values2 ∧
          arrange_suffixes_loop idBits ks2 prev2 base_link2 values2 bm = .ok bf := by
  intro ks1
  induction ks1 with
  | nil =>
    intro done prev base_link values b hinv _ _ bf hbf
    rw [List.append_nil]
    exact ⟨b, prev, base_link, values, rfl, hinv, hbf⟩
  | cons key rest ih =>
    intro done prev base_link values b hinv hkeys hnd bf hbf
    obtain ⟨hw, hb, hidx⟩ := hkeys key (List.mem_cons_self _ _)
    have hrest : ∀ k ∈ rest, k.WF ∧ (∀ c ∈ k.bytes, c < 256) ∧ k.index < n :=
      fun k hk => hkeys k (List.mem_cons_of_mem _ hk)
    have happ : done ++ key :: rest = (done ++ [key]) ++ rest := by
      rw [List.append_assoc]; rfl
    have hnew : ∀ k ∈ done, k.index ≠ key.index := by
      intro k hk hc
      rw [List.map_append, List.map_cons] at hnd
      have := (List.nodup_append.1 hnd).2.2
      exact this (List.mem_map.2 ⟨k, hk, hc⟩) (List.mem_cons_self _ _)
    rw [happ] at hnd ⊢
    rw [List.cons_append, pack_loop_eq] at hbf
    rw [pack_loop_eq]
    cases hu : ((pack_pre idBits prev values key b).unit key.index).set_link idBits
        (pack_base idBits prev values key base_link - key.length.toNat - 1) with
    | error e => rw [hu] at hbf; cases hbf
    | ok u =>
      rw [hu] at hbf
      have hstep := (pack_step_inv idBits hid hinv key hw hb hidx hnew u hu).1
      exact ih _ _ _ _ _ hstep hrest hnd bf hbf

theorem pack_order_perm (idBits : Nat) (keys : List DoubleArrayKey) :
    (pack_order idBits keys).Perm keys := by
  unfold pack_order
  split
  · exact List.perm_insertionSort _ _
  · exact List.Perm.refl _

theorem pack_eq (idBits : Nat) (b : DoubleArrayBuilder) (hk : b.keys ≠ []) :
    arrange_suffixes idBits b
      = arrange_suffixes_loop idBits (pack_order idBits b.keys) none 0 [] (pack_init idBits b) := by
  unfold arrange_suffixes pack_init pack_order
  have h1 : b.keys.isEmpty = false := by
    cases hb : b.keys with
    | nil => exact absurd hb hk
    | cons a t => rfl
  simp only [h1, Bool.false_eq_true, if_false]
  by_cases h0 : idBits > 0
  · simp only [h0, if_true]
    try rfl
  · simp only [h0, if_false]
    try rfl

theorem pack_nil (idBits : Nat) (b : DoubleArrayBuilder) (hk : b.keys = []) :
    arrange_suffixes idBits b = .ok (pack_init idBits b) ∧ pack_order idBits b.keys = [] := by
  have ho : pack_order idBits b.keys = [] := by
    have := (pack_order_perm idBits b.keys).length_eq
    rw [hk] at this
    rw [hk]
    exact List.length_eq_zero.1 this
  refine ⟨?_, ho⟩
  unfold arrange_suffixes pack_init
  have h1 : b.keys.isEmpty = true := by rw [hk]; rfl
  simp only [h1, if_true]
  rw [ho, hk]

theorem packInv_init (idBits : Nat) (b : DoubleArrayBuilder)
    (hwf : ∀ j, (b.units.getD j default).wf) :
    PackInv idBits b.num_of_units b (pack_init idBits b) [] none 0 [] :=
  packInv_start idBits b hwf (pack_order idBits b.keys)

end DoubleArrayBuilder

end Darts

namespace Darts

/-- C33: `arrange_suffixes` for 3 value id bits (`DoubleArray`) and for none
(`HugeDoubleArray`), on a builder whose keys are the leaf suffixes with the
indices of their leaf units: it returns when the suffixes and values fit below
the largest link; after it, the leaf unit of every key `k` links to the bytes of
`k` followed by 0 in the tail (which starts at byte `4 * num_of_units`), and the
4 bytes of the value of `k` stand at `link + |k| + 1 + 4 * value_id`; and for
every split of the packing order into `ks1` and `ks2`, this holds for the keys
of `ks1` already in the builder `bm` that the loop has reached after `ks1`, and
the rest of the loop changes neither their leaf units nor any byte of the tail
written so far. -/
theorem suffixes_packed (idBits : Nat) (hid : idBits = 3 ∨ idBits = 0) (b : DoubleArrayBuilder)
    (hwf : ∀ j, (b.units.getD j default).wf)
    (hkeys : ∀ k ∈ b.keys, k.WF ∧ (∀ c ∈ k.bytes, c < 256) ∧ k.index < b.num_of_units)
    (hnd : (b.keys.map (fun k => k.index)).Nodup) :
    ((b.keys.map (fun k => k.length.toNat + 5)).sum < 2 ^ (31 - idBits) →
      ∃ bf, DoubleArrayBuilder.arrange_suffixes idBits b = .ok bf) ∧
    ∀ bf, DoubleArrayBuilder.arrange_suffixes idBits b = .ok bf →
      (∀ k ∈ b.keys, LeafAt idBits b.num_of_units bf k) ∧
      ∀ ks1 ks2, pack_order idBits b.keys = ks1 ++ ks2 →
        ∃ bm prev base_link values,
          DoubleArrayBuilder.arrange_suffixes_loop idBits ks1 none 0 [] (pack_init idBits b)
            = .ok bm ∧
          DoubleArrayBuilder.arrange_suffixes_loop idBits ks2 prev base_link values bm = .ok bf ∧
          (∀ k ∈ ks1, LeafAt idBits b.num_of_units bm k ∧
            bf.units.getD k.index default = bm.units.getD k.index default) ∧
          (∀ pos, 4 * b.num_of_units ≤ pos → pos < bm.tail_index →
            DoubleArrayBuilder.get_byte bf.units pos = DoubleArrayBuilder.get_byte bm.units pos) := by
  have hid31 : idBits ≤ 31 := by
    rcases hid with h | h <;> omega
  by_cases hk : b.keys = []
  · obtain ⟨e1, e2⟩ := DoubleArrayBuilder.pack_nil idBits b hk
    rw [e1]
    refine ⟨fun _ => ⟨_, rfl⟩, fun bf hbf => ?_⟩
    have e := Except.ok.inj hbf
    subst e
    refine ⟨fun k hk2 => (by rw [hk] at hk2; cases hk2), fun ks1 ks2 hsplit => ?_⟩
    rw [e2] at hsplit
    have h1 : ks1 = [] := (List.append_eq_nil.1 hsplit.symm).1
    have h2 : ks2 = [] := (List.append_eq_nil.1 hsplit.symm).2
    subst h1
    subst h2
    exact ⟨_, none, 0, [], rfl, rfl, fun k hk2 => (by cases hk2), fun _ _ _ => rfl⟩
  · rw [DoubleArrayBuilder.pack_eq idBits b hk]
    have hperm := DoubleArrayBuilder.pack_order_perm idBits b.keys
    have hk2 : ∀ k ∈ pack_order idBits b.keys,
        k.WF ∧ (∀ c ∈ k.bytes, c < 256) ∧ k.index < b.num_of_units :=
      fun k hk2 => hkeys k (hperm.mem_iff.1 hk2)
    have hnd2 : ((pack_order idBits b.keys).map (fun k => k.index)).Nodup :=
      (hperm.map _).nodup_iff.2 hnd
    have h := DoubleArrayBuilder.pack_loop_spec idBits hid31 b.num_of_units b
      (pack_order idBits b.keys) [] none 0 [] _ (DoubleArrayBuilder.packInv_init idBits b hwf)
      hk2 (by rw [List.nil_append]; exact hnd2)
    refine ⟨fun hbud => h.1 ?_, fun bf hbf => ?_⟩
    · rw [(hperm.map _).sum_eq]
      simpa using hbud
    · obtain ⟨⟨p2, l2, v2, hinv⟩, _, _, _⟩ := h.2 bf hbf
      rw [List.nil_append] at hinv
      refine ⟨fun k hk3 => hinv.done_ok k (hperm.mem_iff.2 hk3), fun ks1 ks2 hsplit => ?_⟩
      rw [hsplit] at hbf hk2 hnd2
      obtain ⟨bm, pm, lm, vm, r1, rinv, r2⟩ := DoubleArrayBuilder.pack_loop_split idBits hid31
        b.num_of_units b ks2 ks1 [] none 0 [] _ (DoubleArrayBuilder.packInv_init idBits b hwf)
        (fun k hk3 => hk2 k (List.mem_append.2 (Or.inl hk3)))
        (by
          rw [List.nil_append]
          rw [List.map_append] at hnd2
          exact (List.nodup_append.1 hnd2).1) bf hbf
      rw [List.nil_append] at rinv
      obtain ⟨_, f2, f3, _⟩ := (DoubleArrayBuilder.pack_loop_spec idBits hid31 b.num_of_units b
        ks2 ks1 pm lm vm bm rinv (fun k hk3 => hk2 k (List.mem_append.2 (Or.inr hk3)))
        hnd2).2 bf r2
      refine ⟨bm, pm, lm, vm, r1, r2, fun k hk3 => ⟨rinv.done_ok k hk3, ?_⟩, f2⟩
      apply f3 k.index (rinv.done_ok k hk3).index
      intro k2 hk4 hc
      rw [List.map_append] at hnd2
      exact (List.nodup_append.1 hnd2).2.2 (List.mem_map.2 ⟨k, hk3, rfl⟩)
        (List.mem_map.2 ⟨k2, hk4, hc⟩)

theorem suffixes_packed_witness :
    ∃ bf, DoubleArrayBuilder.arrange_suffixes 0 pack_two = .ok bf ∧
      ∀ k ∈ pack_two.keys, LeafAt 0 pack_two.num_of_units bf k := by
  have hwf : ∀ j, (pack_two.units.getD j default).wf := pack_start_units_wf
  have hkeys : ∀ k ∈ pack_two.keys,
      k.WF ∧ (∀ c ∈ k.bytes, c < 256) ∧ k.index < pack_two.num_of_units := by
    intro k hk
    have hk2 : k = key_ab ∨ k = key_b := by
      rcases List.mem_cons.1 hk with h | h
      · exact Or.inl h
      · exact Or.inr (List.mem_singleton.1 h)
    rcases hk2 with h | h
    · subst h; exact ⟨key_ab_wf, by decide, by decide⟩
    · subst h; exact ⟨key_b_wf, by decide, by decide⟩
  have h := suffixes_packed 0 (Or.inr rfl) pack_two hwf hkeys (by decide)
  obtain ⟨bf, hbf⟩ := h.1 (by decide)
  exact ⟨bf, hbf, (h.2 bf hbf).1⟩

end Darts

namespace Darts

namespace DoubleArrayBase

theorem unit_below_some {da : DoubleArrayBase} {n index : Nat} {u : DoubleArrayUnit}
    (h : da.unit_below n index = some u) : da.unit? index = some u ∧ index < n := by
  unfold unit_below at h
  by_cases hi : index < n
  · rw [if_pos hi] at h
    exact ⟨h, hi⟩
  · rw [if_neg hi] at h
    cases h

theorem unit_below_eq (da : DoubleArrayBase) {n index : Nat} (h : index < n) :
    da.unit_below n index = da.unit? index := by
  unfold unit_below
  rw [if_pos h]

theorem exact_match_units_below_cons (da : DoubleArrayBase) (n c : Nat) (rest : List Nat)
    (index pos : Nat) (u0 u : DoubleArrayUnit) (h0 : da.unit_below n index = some u0)
    (h1 : da.unit_below n (index ^^^ (u0.offset ^^^ c)) = some u) :
    exact_match_units_below da n (c :: rest) index pos =
      if u.is_leaf then some (some (u, c :: rest, pos))
      else if u.label ≠ c then some none
      else exact_match_units_below da n rest (index ^^^ (u0.offset ^^^ c)) (pos + 1) := by
  rw [exact_match_units_below]
  simp only [h0, h1, Option.bind_eq_bind, Option.some_bind, Option.pure_def]

theorem exact_match_units_below_none0 (da : DoubleArrayBase) (n c : Nat) (rest : List Nat)
    (index pos : Nat) (h0 : da.unit_below n index = none) :
    exact_match_units_below da n (c :: rest) index pos = none := by
  rw [exact_match_units_below]
  simp only [h0, Option.bind_eq_bind, Option.none_bind]

theorem exact_match_units_below_none1 (da : DoubleArrayBase) (n c : Nat) (rest : List Nat)
    (index pos : Nat) (u0 : DoubleArrayUnit) (h0 : da.unit_below n index = some u0)
    (h1 : da.unit_below n (index ^^^ (u0.offset ^^^ c)) = none) :
    exact_match_units_below da n (c :: rest) index pos = none := by
  rw [exact_match_units_below]
  simp only [h0, h1, Option.bind_eq_bind, Option.some_bind, Option.none_bind]

/-- A run of the unit loop of `exact_match_search` with checked unit reads is a
run of the loop itself. -/
theorem exact_match_units_below_plain (da : DoubleArrayBase) (n : Nat) :
    ∀ (l : List Nat) (index pos : Nat) (x : Option (DoubleArrayUnit × List Nat × Nat)),
      exact_match_units_below da n l index pos = some x →
      exact_match_units da l index pos = some x := by
  intro l
  induction l with
  | nil => intro index pos x h; cases h
  | cons c rest ih =>
    intro index pos x h
    cases h0 : da.unit_below n index with
    | none => rw [exact_match_units_below_none0 da n c rest index pos h0] at h; cases h
    | some u0 =>
      cases h1 : da.unit_below n (index ^^^ (u0.offset ^^^ c)) with
      | none => rw [exact_match_units_below_none1 da n c rest index pos u0 h0 h1] at h; cases h
      | some u =>
        rw [exact_match_units_below_cons da n c rest index pos u0 u h0 h1] at h
        rw [exact_match_units_cons da c rest index pos u0 u (unit_below_some h0).1
          (unit_below_some h1).1]
        by_cases hl : u.is_leaf = true
        · rw [if_pos hl] at h ⊢; exact h
        · rw [if_neg hl] at h ⊢
          by_cases hc : u.label ≠ c
          · rw [if_pos hc] at h ⊢; exact h
          · rw [if_neg hc] at h ⊢
            exact ih _ _ _ h

theorem exact_match_search_below_plain (idBits : Nat) (da : DoubleArrayBase) (n : Nat)
    (query : List Nat) (pos : Nat) (result : result_pair_type) (agent : DoubleArrayUnit)
    (r : Bool × result_pair_type)
    (h : exact_match_search_below idBits da n query pos result agent = some r) :
    exact_match_search idBits da query pos result agent = some r := by
  unfold exact_match_search_below at h
  unfold exact_match_search
  by_cases hl : (!agent.is_leaf) = true
  · rw [if_pos hl] at h ⊢
    cases hx : exact_match_units_below da n query agent.index pos with
    | none => rw [hx] at h; cases h
    | some x =>
      rw [hx] at h
      rw [exact_match_units_below_plain da n _ _ _ x hx]
      exact h
  · rw [if_neg hl] at h ⊢
    exact h

theorem extract_result_below_plain (idBits : Nat) (da : DoubleArrayBase) (n cap c : Nat)
    (u0 : DoubleArrayUnit) (index pos : Nat) (results : List result_pair_type) (num : Nat)
    (ex : List result_pair_type × Nat)
    (h : extract_result_below idBits da n cap c u0 index pos results num = some ex) :
    extract_result idBits da cap c u0 index pos results num = some ex := by
  unfold extract_result_below at h
  unfold extract_result
  by_cases hc : c ≠ 0 ∧ u0.is_end = true
  · rw [if_pos hc] at h ⊢
    cases hs : da.unit_below n (index ^^^ u0.offset) with
    | none => simp only [hs, Option.bind_eq_bind, Option.none_bind] at h; cases h
    | some stray =>
      simp only [hs, Option.bind_eq_bind, Option.some_bind] at h
      simp only [(unit_below_some hs).1, Option.bind_eq_bind, Option.some_bind]
      exact h
  · rw [if_neg hc] at h ⊢
    exact h

theorem common_prefix_units_below_cons (idBits : Nat) (da : DoubleArrayBase) (n cap c : Nat)
    (rest : List Nat) (index pos : Nat) (results : List result_pair_type) (num : Nat)
    (u0 u : DoubleArrayUnit) (ex : List result_pair_type × Nat)
    (h0 : da.unit_below n index = some u0)
    (hex : extract_result_below idBits da n cap c u0 index pos results num = some ex)
    (h1 : da.unit_below n (index ^^^ (u0.offset ^^^ c)) = some u) :
    common_prefix_units_below idBits da n cap (c :: rest) index pos results num =
      if u.is_leaf then some (ex.1, ex.2, some (u, c :: rest, pos))
      else if u.label ≠ c then some (ex.1, ex.2, none)
      else common_prefix_units_below idBits da n cap rest (index ^^^ (u0.offset ^^^ c))
        (pos + 1) ex.1 ex.2 := by
  rw [common_prefix_units_below]
  simp only [h0, hex, h1, Option.bind_eq_bind, Option.some_bind, Option.pure_def]

theorem common_prefix_units_cons_gen (idBits : Nat) (da : DoubleArrayBase) (cap c : Nat)
    (rest : List Nat) (index pos : Nat) (results : List result_pair_type) (num : Nat)
    (u0 u : DoubleArrayUnit) (ex : List result_pair_type × Nat)
    (h0 : da.unit? index = some u0)
    (hex : extract_result idBits da cap c u0 index pos results num = some ex)
    (h1 : da.unit? (index ^^^ (u0.offset ^^^ c)) = some u) :
    common_prefix_units idBits da cap (c :: rest) index pos results num =
      if u.is_leaf then some (ex.1, ex.2, some (u, c :: rest, pos))
      else if u.label ≠ c then some (ex.1, ex.2, none)
      else common_prefix_units idBits da cap rest (index ^^^ (u0.offset ^^^ c))
        (pos + 1) ex.1 ex.2 := by
  rw [common_prefix_units]
  simp only [h0, hex, h1, Option.bind_eq_bind, Option.some_bind, Option.pure_def]

/-- A run of the unit loop of `common_prefix_search` with checked unit reads is
a run of the loop itself. -/
theorem common_prefix_units_below_plain (idBits : Nat) (da : DoubleArrayBase) (n cap : Nat) :
    ∀ (l : List Nat) (index pos : Nat) (results : List result_pair_type) (num : Nat)
      (x : List result_pair_type × Nat × Option (DoubleArrayUnit × List Nat × Nat)),
      common_prefix_units_below idBits da n cap l index pos results num = some x →
      common_prefix_units idBits da cap l index pos results num = some x := by
  intro l
  induction l with
  | nil => intro index pos results num x h; cases h
  | cons c rest ih =>
    intro index pos results num x h
    cases h0 : da.unit_below n index with
    | none =>
      rw [common_prefix_units_below] at h
      simp only [h0, Option.bind_eq_bind, Option.none_bind] at h
      cases h
    | some u0 =>
      cases hex : extract_result_below idBits da n cap c u0 index pos results num with
      | none =>
        rw [common_prefix_units_below] at h
        simp only [h0, hex, Option.bind_eq_bind, Option.some_bind, Option.none_bind] at h
        cases h
      | some ex =>
        cases h1 : da.unit_below n (index ^^^ (u0.offset ^^^ c)) with
        | none =>
          rw [common_prefix_units_below] at h
          simp only [h0, hex, h1, Option.bind_eq_bind, Option.some_bind,
            Option.none_bind] at h
          cases h
        | some u =>
          rw [common_prefix_units_below_cons idBits da n cap c rest index pos results num u0 u
            ex h0 hex h1] at h
          rw [common_prefix_units_cons_gen idBits da cap c rest index pos results num u0 u ex
            (unit_below_some h0).1
            (extract_result_below_plain idBits da n cap c u0 index pos results num ex hex)
            (unit_below_some h1).1]
          by_cases hl : u.is_leaf = true
          · rw [if_pos hl] at h ⊢; exact h
          · rw [if_neg hl] at h ⊢
            by_cases hc : u.label ≠ c
            · rw [if_pos hc] at h ⊢; exact h
            · rw [if_neg hc] at h ⊢
              exact ih _ _ _ _ _ h

theorem common_prefix_search_below_plain (idBits : Nat) (da : DoubleArrayBase) (n : Nat)
    (query : List Nat) (pos : Nat) (results : List result_pair_type) (cap : Nat)
    (agent : DoubleArrayUnit) (r : Nat × List result_pair_type)
    (h : common_prefix_search_below idBits da n query pos results cap agent = some r) :
    common_prefix_search idBits da query pos results cap agent = some r := by
  unfold common_prefix_search_below at h
  unfold common_prefix_search
  by_cases hl : (!agent.is_leaf) = true
  · rw [if_pos hl] at h ⊢
    cases hx : common_prefix_units_below idBits da n cap query agent.index pos results 0 with
    | none => rw [hx] at h; cases h
    | some x =>
      rw [hx] at h
      rw [common_prefix_units_below_plain idBits da n cap _ _ _ _ _ x hx]
      exact h
  · rw [if_neg hl] at h ⊢
    exact h

theorem traverse_units_below_cons (da : DoubleArrayBase) (n c : Nat) (rest : List Nat)
    (index pos : Nat) (agent u0 u : DoubleArrayUnit) (hc : c ≠ 0)
    (h0 : da.unit_below n index = some u0)
    (h1 : da.unit_below n (index ^^^ (u0.offset ^^^ c)) = some u) :
    traverse_units_below da n (c :: rest) index agent pos =
      if u.is_leaf then some (.leaf (index ^^^ (u0.offset ^^^ c)) agent (c :: rest) pos)
      else if u.label ≠ c then some (.mismatch agent pos)
      else traverse_units_below da n rest (index ^^^ (u0.offset ^^^ c))
        (agent.set_index (index ^^^ (u0.offset ^^^ c))) (pos + 1) := by
  rw [traverse_units_below]
  simp only [if_neg hc, h0, h1, Option.bind_eq_bind, Option.some_bind, Option.pure_def]

theorem traverse_units_below_zero (da : DoubleArrayBase) (n : Nat) (rest : List Nat)
    (index pos : Nat) (agent : DoubleArrayUnit) :
    traverse_units_below da n (0 :: rest) index agent pos
      = some (.done index agent (0 :: rest) pos) := by
  rw [traverse_units_below]
  rfl

theorem traverse_units_zero (da : DoubleArrayBase) (rest : List Nat)
    (index pos : Nat) (agent : DoubleArrayUnit) :
    traverse_units da (0 :: rest) index agent pos
      = some (.done index agent (0 :: rest) pos) := by
  rw [traverse_units]
  rfl

/-- A run of the unit loop of `traverse` with checked unit reads is a run of
the loop itself. -/
theorem traverse_units_below_plain (da : DoubleArrayBase) (n : Nat) :
    ∀ (l : List Nat) (index pos : Nat) (agent : DoubleArrayUnit) (x : TraverseExit),
      traverse_units_below da n l index agent pos = some x →
      traverse_units da l index agent pos = some x := by
  intro l
  induction l with
  | nil => intro index pos agent x h; cases h
  | cons c rest ih =>
    intro index pos agent x h
    by_cases hc0 : c = 0
    · subst hc0
      rw [traverse_units_below_zero] at h
      rw [traverse_units_zero]
      exact h
    · cases h0 : da.unit_below n index with
      | none =>
        rw [traverse_units_below] at h
        simp only [if_neg hc0, h0, Option.bind_eq_bind, Option.none_bind] at h
        cases h
      | some u0 =>
        cases h1 : da.unit_below n (index ^^^ (u0.offset ^^^ c)) with
        | none =>
          rw [traverse_units_below] at h
          simp only [if_neg hc0, h0, h1, Option.bind_eq_bind, Option.some_bind,
            Option.none_bind] at h
          cases h
        | some u =>
          rw [traverse_units_below_cons da n c rest index pos agent u0 u hc0 h0 h1] at h
          rw [traverse_units_cons da c rest index pos agent u0 u hc0 (unit_below_some h0).1
            (unit_below_some h1).1]
          by_cases hl : u.is_leaf = true
          · rw [if_pos hl] at h ⊢; exact h
          · rw [if_neg hl] at h ⊢
            by_cases hc : u.label ≠ c
            · rw [if_pos hc] at h ⊢; exact h
            · rw [if_neg hc] at h ⊢
              exact ih _ _ _ _ h

theorem traverse_end_below_plain (idBits : Nat) (da : DoubleArrayBase) (n index : Nat)
    (agent : DoubleArrayUnit) (pos : Nat) (r : Except DartsError (Int × DoubleArrayUnit × Nat))
    (h : traverse_end_below idBits da n index agent pos = some r) :
    traverse_end idBits da index agent pos = some r := by
  unfold traverse_end_below at h
  unfold traverse_end
  cases h0 : da.unit_below n index with
  | none => simp only [h0, Option.bind_eq_bind, Option.none_bind] at h; cases h
  | some u =>
    simp only [h0, Option.bind_eq_bind, Option.some_bind] at h
    simp only [(unit_below_some h0).1, Option.bind_eq_bind, Option.some_bind]
    by_cases he : (!u.is_end) = true
    · rw [if_pos he] at h ⊢; exact h
    · rw [if_neg he] at h ⊢
      cases hs : da.unit_below n (index ^^^ u.offset) with
      | none => simp only [hs, Option.none_bind] at h; cases h
      | some stray =>
        simp only [hs, Option.some_bind] at h
        simp only [(unit_below_some hs).1, Option.some_bind]
        exact h

theorem traverse_query_below_plain (idBits : Nat) (da : DoubleArrayBase) (n : Nat)
    (query : List Nat) (pos : Nat) (agent : DoubleArrayUnit)
    (r : Except DartsError (Int × DoubleArrayUnit × Nat))
    (h : traverse_query_below idBits da n query pos agent = some r) :
    traverse_query idBits da query pos agent = some r := by
  unfold traverse_query_below at h
  unfold traverse_query
  by_cases hl : (!agent.is_leaf) = true
  · rw [if_pos hl] at h ⊢
    cases hx : traverse_units_below da n query agent.index agent pos with
    | none => rw [hx] at h; cases h
    | some x =>
      rw [hx] at h
      rw [traverse_units_below_plain da n _ _ _ _ x hx]
      cases x with
      | mismatch a p => exact h
      | done i a q p => exact traverse_end_below_plain idBits da n i a p r h
      | leaf i a q p =>
        simp only at h ⊢
        cases hu : da.unit_below n i with
        | none => rw [hu] at h; cases h
        | some u =>
          rw [hu] at h
          rw [(unit_below_some hu).1]
          exact h
  · rw [if_neg hl] at h ⊢
    exact h

end DoubleArrayBase

end Darts

namespace Darts

namespace DoubleArrayBase

/-- The unit loop of `exact_match_search` does not read the query beyond the
bytes it has been given: more bytes after them change only the rest of the
query that it hands on. -/
theorem exact_match_units_append (da : DoubleArrayBase) (junk : List Nat) :
    ∀ (l : List Nat) (index pos : Nat) (x : Option (DoubleArrayUnit × List Nat × Nat)),
      exact_match_units da l index pos = some x →
      exact_match_units da (l ++ junk) index pos
        = some (x.map (fun r => (r.1, r.2.1 ++ junk, r.2.2))) := by
  intro l
  induction l with
  | nil => intro index pos x h; cases h
  | cons c rest ih =>
    intro index pos x h
    rw [List.cons_append]
    cases h0 : da.unit? index with
    | none =>
      rw [exact_match_units] at h
      simp only [h0, Option.bind_eq_bind, Option.none_bind] at h
      cases h
    | some u0 =>
      cases h1 : da.unit? (index ^^^ (u0.offset ^^^ c)) with
      | none =>
        rw [exact_match_units] at h
        simp only [h0, h1, Option.bind_eq_bind, Option.some_bind, Option.none_bind] at h
        cases h
      | some u =>
        rw [exact_match_units_cons da c rest index pos u0 u h0 h1] at h
        rw [exact_match_units_cons da c (rest ++ junk) index pos u0 u h0 h1]
        by_cases hl : u.is_leaf = true
        · rw [if_pos hl] at h ⊢
          have e := Option.some.inj h
          subst e
          rfl
        · rw [if_neg hl] at h ⊢
          by_cases hc : u.label ≠ c
          · rw [if_pos hc] at h ⊢
            have e := Option.some.inj h
            subst e
            rfl
          · rw [if_neg hc] at h ⊢
            exact ih _ _ _ h

theorem exact_match_tail_append (da : DoubleArrayBase) (agent : DoubleArrayUnit)
    (result : result_pair_type) (junk : List Nat) :
    ∀ (l : List Nat) (t pos : Nat) (r : Bool × result_pair_type),
      exact_match_tail 3 da agent result l t pos = some r →
      exact_match_tail 3 da agent result (l ++ junk) t pos = some r := by
  intro l
  induction l with
  | nil => intro t pos r h; cases h
  | cons c rest ih =>
    intro t pos r h
    rw [List.cons_append]
    cases hb : da.tail? t with
    | none =>
      rw [exact_match_tail] at h
      simp only [hb, Option.bind_eq_bind, Option.none_bind] at h
      cases h
    | some byte =>
      rw [exact_match_tail_cons da agent result c rest t pos byte hb] at h
      rw [exact_match_tail_cons da agent result c (rest ++ junk) t pos byte hb]
      by_cases h1 : byte = c
      · rw [if_pos h1] at h ⊢
        by_cases h2 : byte = 0
        · rw [if_pos h2] at h ⊢; exact h
        · rw [if_neg h2] at h ⊢; exact ih _ _ _ h
      · rw [if_neg h1] at h ⊢; exact h

/-- `exact_match_search` does not read the query beyond the bytes it has been
given when it returns on them. -/
theorem exact_match_search_append (da : DoubleArrayBase) (junk : List Nat) (query : List Nat)
    (pos : Nat) (result : result_pair_type) (agent : DoubleArrayUnit)
    (r : Bool × result_pair_type)
    (h : exact_match_search 3 da query pos result agent = some r) :
    exact_match_search 3 da (query ++ junk) pos result agent = some r := by
  unfold exact_match_search at h ⊢
  by_cases hl : (!agent.is_leaf) = true
  · rw [if_pos hl] at h ⊢
    cases hx : exact_match_units da query agent.index pos with
    | none => rw [hx] at h; cases h
    | some x =>
      rw [hx] at h
      rw [exact_match_units_append da junk _ _ _ x hx]
      cases x with
      | none => exact h
      | some y =>
        obtain ⟨u, q, p⟩ := y
        exact exact_match_tail_append da u _ junk q _ p r h
  · rw [if_neg hl] at h ⊢
    exact exact_match_tail_append da agent _ junk query _ pos r h

theorem common_prefix_units_append (da : DoubleArrayBase) (cap : Nat) (junk : List Nat) :
    ∀ (l : List Nat) (index pos : Nat) (results : List result_pair_type) (num : Nat)
      (x : List result_pair_type × Nat × Option (DoubleArrayUnit × List Nat × Nat)),
      common_prefix_units 3 da cap l index pos results num = some x →
      common_prefix_units 3 da cap (l ++ junk) index pos results num
        = some (x.1, x.2.1, x.2.2.map (fun r => (r.1, r.2.1 ++ junk, r.2.2))) := by
  intro l
  induction l with
  | nil => intro index pos results num x h; cases h
  | cons c rest ih =>
    intro index pos results num x h
    rw [List.cons_append]
    cases h0 : da.unit? index with
    | none =>
      rw [common_prefix_units] at h
      simp only [h0, Option.bind_eq_bind, Option.none_bind] at h
      cases h
    | some u0 =>
      cases hex : extract_result 3 da cap c u0 index pos results num with
      | none =>
        rw [common_prefix_units] at h
        simp only [h0, hex, Option.bind_eq_bind, Option.some_bind, Option.none_bind] at h
        cases h
      | some ex =>
        cases h1 : da.unit? (index ^^^ (u0.offset ^^^ c)) with
        | none =>
          rw [common_prefix_units] at h
          simp only [h0, hex, h1, Option.bind_eq_bind, Option.some_bind,
            Option.none_bind] at h
          cases h
        | some u =>
          rw [common_prefix_units_cons da cap c rest index pos results num u0 u ex h0 hex h1]
            at h
          rw [common_prefix_units_cons da cap c (rest ++ junk) index pos results num u0 u ex
            h0 hex h1]
          by_cases hl : u.is_leaf = true
          · rw [if_pos hl] at h ⊢
            have e := Option.some.inj h
            subst e
            rfl
          · rw [if_neg hl] at h ⊢
            by_cases hc : u.label ≠ c
            · rw [if_pos hc] at h ⊢
              have e := Option.some.inj h
              subst e
              rfl
            · rw [if_neg hc] at h ⊢
              exact ih _ _ _ _ _ h

theorem common_prefix_tail_nil (da : DoubleArrayBase) (t pos byte : Nat)
    (h : da.tail? t = some byte) :
    common_prefix_tail da [] t pos = if byte = 0 then some (true, t, pos) else none := by
  rw [common_prefix_tail]
  simp only [h, Option.bind_eq_bind, Option.some_bind, Option.pure_def]

theorem common_prefix_tail_append (da : DoubleArrayBase) (junk : List Nat) :
    ∀ (l : List Nat) (t pos : Nat) (r : Bool × Nat × Nat),
      common_prefix_tail da l t pos = some r →
      common_prefix_tail da (l ++ junk) t pos = some r := by
  intro l
  induction l with
  | nil =>
    intro t pos r h
    rw [List.nil_append]
    cases hb : da.tail? t with
    | none =>
      rw [common_prefix_tail] at h
      simp only [hb, Option.bind_eq_bind, Option.none_bind] at h
      cases h
    | some byte =>
      rw [common_prefix_tail_nil da t pos byte hb] at h
      by_cases h0 : byte = 0
      · rw [if_pos h0] at h
        cases junk with
        | nil => rw [common_prefix_tail_nil da t pos byte hb, if_pos h0]; exact h
        | cons c rest => rw [common_prefix_tail_cons da c rest t pos byte hb, if_pos h0]; exact h
      · rw [if_neg h0] at h
        cases h
  | cons c rest ih =>
    intro t pos r h
    rw [List.cons_append]
    cases hb : da.tail? t with
    | none =>
      rw [common_prefix_tail] at h
      simp only [hb, Option.bind_eq_bind, Option.none_bind] at h
      cases h
    | some byte =>
      rw [common_prefix_tail_cons da c rest t pos byte hb] at h
      rw [common_prefix_tail_cons da c (rest ++ junk) t pos byte hb]
      by_cases h0 : byte = 0
      · rw [if_pos h0] at h ⊢; exact h
      · rw [if_neg h0] at h ⊢
        by_cases h1 : byte = c
        · rw [if_pos h1] at h ⊢; exact ih _ _ _ h
        · rw [if_neg h1] at h ⊢; exact h

theorem common_prefix_suffix_append (da : DoubleArrayBase) (cap : Nat) (junk : List Nat)
    (agent : DoubleArrayUnit) (query : List Nat) (pos : Nat) (results : List result_pair_type)
    (num : Nat) (r : Nat × List result_pair_type)
    (h : common_prefix_suffix 3 da cap agent query pos results num = some r) :
    common_prefix_suffix 3 da cap agent (query ++ junk) pos results num = some r := by
  unfold common_prefix_suffix at h ⊢
  cases hb : da.tail? (agent.link 3) with
  | none => simp only [hb, Option.bind_eq_bind, Option.none_bind] at h; cases h
  | some byte =>
    cases query with
    | nil => simp only [hb, Option.bind_eq_bind, Option.some_bind, List.head?_nil,
        Option.none_bind] at h; cases h
    | cons c rest =>
      simp only [hb, Option.bind_eq_bind, Option.some_bind, List.head?_cons, List.cons_append]
        at h ⊢
      by_cases hc : byte ≠ c
      · rw [if_pos hc] at h ⊢; exact h
      · rw [if_neg hc] at h ⊢
        cases hs : common_prefix_tail da (c :: rest) (agent.link 3) pos with
        | none => rw [hs] at h; simp only [Option.none_bind] at h; cases h
        | some stop =>
          have hs2 := common_prefix_tail_append da junk _ _ _ stop hs
          rw [List.cons_append] at hs2
          rw [hs] at h
          rw [hs2]
          exact h

/-- `common_prefix_search` does not read the query beyond the bytes it has been
given when it returns on them. -/
theorem common_prefix_search_append (da : DoubleArrayBase) (junk : List Nat) (query : List Nat)
    (pos : Nat) (results : List result_pair_type) (cap : Nat) (agent : DoubleArrayUnit)
    (r : Nat × List result_pair_type)
    (h : common_prefix_search 3 da query pos results cap agent = some r) :
    common_prefix_search 3 da (query ++ junk) pos results cap agent = some r := by
  unfold common_prefix_search at h ⊢
  by_cases hl : (!agent.is_leaf) = true
  · rw [if_pos hl] at h ⊢
    cases hx : common_prefix_units 3 da cap query agent.index pos results 0 with
    | none => rw [hx] at h; cases h
    | some x =>
      rw [hx] at h
      rw [common_prefix_units_append da cap junk _ _ _ _ _ x hx]
      obtain ⟨res, num, o⟩ := x
      cases o with
      | none => exact h
      | some y =>
        obtain ⟨u, q, p⟩ := y
        exact common_prefix_suffix_append da cap junk u q p res num r h
  · rw [if_neg hl] at h ⊢
    exact common_prefix_suffix_append da cap junk agent query pos results 0 r h

theorem traverse_units_append (da : DoubleArrayBase) (junk : List Nat) :
    ∀ (l : List Nat) (index pos : Nat) (agent : DoubleArrayUnit) (x : TraverseExit),
      traverse_units da l index agent pos = some x →
      traverse_units da (l ++ junk) index agent pos
        = some (match x with
          | .mismatch a p => .mismatch a p
          | .leaf i a q p => .leaf i a (q ++ junk) p
          | .done i a q p => .done i a (q ++ junk) p) := by
  intro l
  induction l with
  | nil => intro index pos agent x h; cases h
  | cons c rest ih =>
    intro index pos agent x h
    rw [List.cons_append]
    by_cases hc0 : c = 0
    · subst hc0
      rw [traverse_units_zero] at h ⊢
      have e := Option.some.inj h
      subst e
      rfl
    · cases h0 : da.unit? index with
      | none =>
        rw [traverse_units] at h
        simp only [if_neg hc0, h0, Option.bind_eq_bind, Option.none_bind] at h
        cases h
      | some u0 =>
        cases h1 : da.unit? (index ^^^ (u0.offset ^^^ c)) with
        | none =>
          rw [traverse_units] at h
          simp only [if_neg hc0, h0, h1, Option.bind_eq_bind, Option.some_bind,
            Option.none_bind] at h
          cases h
        | some u =>
          rw [traverse_units_cons da c rest index pos agent u0 u hc0 h0 h1] at h
          rw [traverse_units_cons da c (rest ++ junk) index pos agent u0 u hc0 h0 h1]
          by_cases hl : u.is_leaf = true
          · rw [if_pos hl] at h ⊢
            have e := Option.some.inj h
            subst e
            rfl
          · rw [if_neg hl] at h ⊢
            by_cases hc : u.label ≠ c
            · rw [if_pos hc] at h ⊢
              have e := Option.some.inj h
              subst e
              rfl
            · rw [if_neg hc] at h ⊢
              exact ih _ _ _ _ h

theorem traverse_tail_append (da : DoubleArrayBase) (agent : DoubleArrayUnit)
    (junk : List Nat) :
    ∀ (l : List Nat) (t pos : Nat) (r : Except DartsError (Int × DoubleArrayUnit × Nat)),
      traverse_tail 3 da agent l t pos = some r →
      traverse_tail 3 da agent (l ++ junk) t pos = some r := by
  intro l
  induction l with
  | nil => intro t pos r h; cases h
  | cons c rest ih =>
    intro t pos r h
    rw [List.cons_append]
    cases hb : da.tail? t with
    | none =>
      rw [traverse_tail] at h
      simp only [hb, Option.bind_eq_bind, Option.none_bind] at h
      cases h
    | some byte =>
      rw [traverse_tail_cons da agent c rest t pos byte hb] at h
      rw [traverse_tail_cons da agent c (rest ++ junk) t pos byte hb]
      by_cases h1 : byte = c
      · rw [if_pos h1] at h ⊢
        by_cases h2 : byte = 0
        · rw [if_pos h2] at h ⊢; exact h
        · rw [if_neg h2] at h ⊢; exact ih _ _ _ h
      · rw [if_neg h1] at h ⊢; exact h

/-- The private `traverse` does not read the query beyond the bytes it has been
given when it returns on them. -/
theorem traverse_query_append (da : DoubleArrayBase) (junk : List Nat) (query : List Nat)
    (pos : Nat) (agent : DoubleArrayUnit) (r : Except DartsError (Int × DoubleArrayUnit × Nat))
    (h : traverse_query 3 da query pos agent = some r) :
    traverse_query 3 da (query ++ junk) pos agent = some r := by
  unfold traverse_query at h ⊢
  by_cases hl : (!agent.is_leaf) = true
  · rw [if_pos hl] at h ⊢
    cases hx : traverse_units da query agent.index agent pos with
    | none => rw [hx] at h; cases h
    | some x =>
      rw [hx] at h
      rw [traverse_units_append da junk _ _ _ _ x hx]
      cases x with
      | mismatch a p => exact h
      | done i a q p => exact h
      | leaf i a q p =>
        simp only at h ⊢
        cases hu : da.unit? i with
        | none => rw [hu] at h; cases h
        | some u =>
          rw [hu] at h
          exact traverse_tail_append da u junk q _ p r h
  · rw [if_neg hl] at h ⊢
    exact traverse_tail_append da agent junk query _ pos r h

theorem query_bytes_zero (key : List Nat) (length : Nat) : 0 ∈ query_bytes key length := by
  unfold query_bytes
  by_cases h0 : length = 0
  · rw [if_pos h0]
    exact List.mem_append.2 (Or.inr (List.mem_singleton.2 rfl))
  · rw [if_neg h0]
    by_cases hl : length < (key ++ [0]).length
    · rw [List.mem_iff_getElem]
      exact ⟨length, by rw [List.length_set]; exact hl, List.getElem_set_self _⟩
    · rw [List.set_eq_of_length_le (by omega)]
      exact List.mem_append.2 (Or.inr (List.mem_singleton.2 rfl))

theorem query_bytes_lt (key : List Nat) (length : Nat) (hk : ∀ c ∈ key, c < 256) :
    ∀ c ∈ query_bytes key length, c < 256 := by
  intro c hc
  unfold query_bytes at hc
  have hb : ∀ c ∈ key ++ [0], c < 256 := by
    intro c hc
    rcases List.mem_append.1 hc with h | h
    · exact hk c h
    · rw [List.mem_singleton.1 h]; decide
  by_cases h0 : length = 0
  · rw [if_pos h0] at hc
    exact hb c hc
  · rw [if_neg h0] at hc
    rcases List.mem_or_eq_of_mem_set hc with h | h
    · exact hb c h
    · rw [h]; decide

end DoubleArrayBase

/-- A query that holds a zero is its part up to the end followed by the bytes
behind the end. -/
theorem query_end_split (q : List Nat) (h : 0 ∈ q) : ∃ junk, q = query_end q ++ junk := by
  unfold query_end
  induction q with
  | nil => cases h
  | cons c rest ih =>
    by_cases hc : c = 0
    · subst hc
      exact ⟨rest, by simp⟩
    · have hr : 0 ∈ rest := by
        rcases List.mem_cons.1 h with h1 | h1
        · exact absurd h1.symm hc
        · exact h1
      obtain ⟨junk, hj⟩ := ih hr
      refine ⟨junk, ?_⟩
      have e : (c != 0) = true := by simp [hc]
      rw [List.takeWhile_cons, e]
      simp only [if_true, List.cons_append]
      exact congrArg (List.cons c) hj

theorem query_end_shape (q : List Nat) :
    ∃ a, query_end q = a ++ [0] ∧ (∀ c ∈ a, c ≠ 0) ∧ ∀ c ∈ a, c ∈ q := by
  refine ⟨q.takeWhile (fun c => c != 0), rfl, ?_, ?_⟩
  · intro c hc
    have := List.mem_takeWhile_imp hc
    simpa using this
  · intro c hc
    exact (List.takeWhile_sublist _).subset hc

end Darts

namespace Darts

section safe

variable {K : List DoubleArrayKey} (hK : KeysOK K) {n : Nat} {da : DoubleArrayBase}
  (hd : DictOK K da.units n) (ht : da.tail = 4 * n)
  (hval : ∀ k ∈ K, Int32 k.value)

include hK hd ht hval in
theorem leaf_stored {q : List Nat} (hq : IsNode K q) (hqi : ¬ Internal K q) :
    (da.units.getD (walk da.units q) default).is_leaf = true ∧
      LeafStored da (da.units.getD (walk da.units q) default) := by
  obtain ⟨hl, i, _, hz, _, htail, hv⟩ := leaf_reads hK hd ht hval hq hqi
  exact ⟨hl, _, _, hz, htail, hv⟩

include hd in
theorem node_below {p : List Nat} (hp : IsNode K p) (hpi : Internal K p) (c : Nat)
    (hc : c < 256) :
    walk da.units p < n ∧ walk da.units (p ++ [c]) < n ∧ n ≤ da.units.length := by
  have hn := hd.num
  obtain ⟨_, _, _, hb⟩ := hd.internal p hp hpi
  refine ⟨(hd.node p hp).1, ?_, hn.2.2.1⟩
  rw [walk_snoc]
  obtain ⟨m, hm⟩ : ∃ m, n = 256 * m := ⟨n / 256, by omega⟩
  rw [hm] at hb ⊢
  exact xor_byte_lt _ c m hc hb

include hK hd ht hval in
/-- A step of a search from a node with children on the byte `c`: both unit
reads are reads of units of the trie; the unit reached is a leaf with its string
in the tail, or a unit that rejects `c`, or the child on `c`, which has children
itself. -/
theorem safe_step {p : List Nat} (hp : IsNode K p) (hpi : Internal K p) (c : Nat)
    (hc : c < 256) :
    ∃ u0 u, da.unit_below n (walk da.units p) = some u0 ∧
      da.unit_below n (walk da.units p ^^^ (u0.offset ^^^ c)) = some u ∧
      u0 = da.units.getD (walk da.units p) default ∧
      ((u.is_leaf = true ∧ LeafStored da u) ∨ (u.is_leaf = false ∧ u.label ≠ c) ∨
        (u.is_leaf = false ∧ u.label = c ∧ c ≠ 0 ∧ IsNode K (p ++ [c]) ∧
          Internal K (p ++ [c]) ∧
          walk da.units p ^^^ (u0.offset ^^^ c) = walk da.units (p ++ [c]))) := by
  obtain ⟨h0, hidx, h1⟩ := node_reads hd hp hpi c hc
  obtain ⟨hw0, hw1, _⟩ := node_below hd hp hpi c hc
  refine ⟨_, _, by rw [DoubleArrayBase.unit_below_eq da hw0]; exact h0,
    by rw [hidx, DoubleArrayBase.unit_below_eq da hw1]; exact h1, rfl, ?_⟩
  by_cases hnode : IsNode K (p ++ [c])
  · by_cases hint : Internal K (p ++ [c])
    · obtain ⟨hl, hlab, _, _⟩ := hd.internal _ hnode hint
      rw [List.getLastD_concat] at hlab
      right; right
      refine ⟨hl, hlab, ?_, hnode, hint, hidx⟩
      intro hc0
      subst hc0
      exact not_internal_zero hK p hint
    · left
      exact leaf_stored hK hd ht hval hnode hint
  · rcases hd.other p hp hpi c hc hnode with ⟨hl, hlab⟩ | ⟨q, hq, hqi, hw, _⟩
    · right; left
      rw [walk_snoc]
      exact ⟨hl, hlab⟩
    · left
      rw [walk_snoc, ← hw]
      exact leaf_stored hK hd ht hval hq hqi

include hK hd ht hval in
/-- The unit that the terminator leads to from a node at which a key ends: its
read is a read of a unit of the trie, and the value it links to is in the
tail. -/
theorem stray_value {p : List Nat} (hp : IsNode K p) (hpi : Internal K p)
    (he : (da.units.getD (walk da.units p) default).is_end = true) :
    ∃ stray v, da.unit_below n
        (walk da.units p ^^^ (da.units.getD (walk da.units p) default).offset) = some stray ∧
      da.get_value (stray.link 3 + (4 * stray.value_id 3 + 1)) = some v := by
  obtain ⟨_, _, hend, _⟩ := hd.internal p hp hpi
  obtain ⟨_, hidx, h1⟩ := node_reads hd hp hpi 0 (by decide)
  obtain ⟨_, hw1, _⟩ := node_below hd hp hpi 0 (by decide)
  rw [Nat.xor_zero] at hidx
  obtain ⟨i, hi⟩ := hend.1 he
  have hnode : IsNode K (p ++ [0]) := isNode_snoc hpi hi
  obtain ⟨_, i2, hp2, _, _, _, hvalue⟩ :=
    leaf_reads hK hd ht hval hnode (not_internal_zero hK p)
  have hext := ext_of_pre_zero hK hp2
  have hdrop : (ext_at K i2).drop ((p ++ [0]).length - 1) = [0] := by
    have e : (p ++ [0]).length - 1 = p.length := by rw [List.length_append]; rfl
    rw [e, hext, List.drop_left]
  rw [hdrop] at hvalue
  have e : (da.units.getD (walk da.units (p ++ [0])) default).link 3
      + (4 * (da.units.getD (walk da.units (p ++ [0])) default).value_id 3 + 1)
      = (da.units.getD (walk da.units (p ++ [0])) default).link 3 + [0].length
        + 4 * (da.units.getD (walk da.units (p ++ [0])) default).value_id 3 := by
    simp only [List.length_singleton]; omega
  refine ⟨da.units.getD (walk da.units (p ++ [0])) default, (K.getD i2 default).value,
    by rw [hidx, DoubleArrayBase.unit_below_eq da hw1]; exact h1, ?_⟩
  rw [e]
  exact hvalue

include hK hd ht hval in
/-- The unit loop of `exact_match_search` from a node with children, on a query
with its terminator: every unit read is a read of a unit of the trie, and the
loop stops at a leaf with its string in the tail or rejects the query. -/
theorem exact_units_safe :
    ∀ (l p : List Nat) (pos : Nat), ZTerm l → (∀ c ∈ l, c < 256) → IsNode K p →
      Internal K p →
      ∃ x, da.exact_match_units_below n l (walk da.units p) pos = some x ∧
        ∀ u rest pos2, x = some (u, rest, pos2) → LeafStored da u ∧ ZTerm rest := by
  intro l
  induction l with
  | nil => intro p pos hz; exact absurd rfl (zterm_ne_nil hz)
  | cons c rest ih =>
    intro p pos hz hb hp hpi
    obtain ⟨u0, u, h0, h1, _, hcase⟩ :=
      safe_step hK hd ht hval hp hpi c (hb c (List.mem_cons_self _ _))
    rw [DoubleArrayBase.exact_match_units_below_cons da n c rest _ pos u0 u h0 h1]
    rcases hcase with ⟨hl, hst⟩ | ⟨hl, hlab⟩ | ⟨hl, hlab, hc0, hnode, hint, hidx⟩
    · rw [if_pos hl]
      refine ⟨_, rfl, fun u2 rest2 pos2 e => ?_⟩
      have e2 := Option.some.inj e
      cases e2
      exact ⟨hst, hz⟩
    · have hnl : ¬ (u.is_leaf = true) := by rw [hl]; decide
      rw [if_neg hnl, if_pos hlab]
      exact ⟨none, rfl, fun _ _ _ e => by cases e⟩
    · have hnl : ¬ (u.is_leaf = true) := by rw [hl]; decide
      rw [if_neg hnl, if_neg (not_not.2 hlab), hidx]
      have hzr : ZTerm rest := by
        rcases zterm_cons hz with ⟨h0, _⟩ | ⟨_, h2⟩
        · exact absurd h0 hc0
        · exact h2
      exact ih (p ++ [c]) (pos + 1) hzr (fun x hx => hb x (List.mem_cons_of_mem _ hx))
        hnode hint

omit hK hd ht hval in
theorem exact_tail_safe (agent : DoubleArrayUnit) (hst : LeafStored da agent)
    (result : result_pair_type) (rest : List Nat) (hz : ZTerm rest) (pos : Nat) :
    ∃ r, da.exact_match_tail 3 agent result rest (agent.link 3) pos = some r := by
  obtain ⟨s, v, hs, hbytes, hv⟩ := hst
  exact ⟨_, DoubleArrayBase.exact_match_tail_spec da agent result v rest s _ pos hz hs hbytes hv⟩

theorem root_node (hne : K ≠ []) : IsNode K [] ∧ Internal K [] := by
  have hlen : 0 < K.length := List.length_pos.2 hne
  exact ⟨⟨⟨0, hlen, List.nil_prefix⟩, Or.inl rfl⟩, Or.inl rfl⟩

include hK hd ht hval in
/-- `exact_match_search` from the root, on a query with its terminator, with
the unit reads checked: it returns. -/
theorem exact_search_safe (hne : K ≠ []) (l : List Nat) (hz : ZTerm l)
    (hb : ∀ c ∈ l, c < 256) (result : result_pair_type) :
    ∃ r, da.exact_match_search_below 3 n l 0 result ⟨0⟩ = some r := by
  obtain ⟨hp, hpi⟩ := root_node (K := K) hne
  obtain ⟨x, hx, hleaf⟩ := exact_units_safe hK hd ht hval l [] 0 hz hb hp hpi
  rw [walk_nil] at hx
  unfold DoubleArrayBase.exact_match_search_below
  have hl : (!(⟨0⟩ : DoubleArrayUnit).is_leaf) = true := by decide
  have hi : (⟨0⟩ : DoubleArrayUnit).index = 0 := by decide
  rw [if_pos hl, hi, hx]
  cases x with
  | none => exact ⟨_, rfl⟩
  | some y =>
    obtain ⟨u, rest, pos2⟩ := y
    obtain ⟨hst, hzr⟩ := hleaf u rest pos2 rfl
    exact exact_tail_safe u hst _ rest hzr pos2

include hK hd ht hval in
theorem extract_safe (cap : Nat) {p : List Nat} (hp : IsNode K p) (hpi : Internal K p)
    (c pos : Nat) (results : List result_pair_type) (num : Nat) :
    ∃ ex, da.extract_result_below 3 n cap c (da.units.getD (walk da.units p) default)
      (walk da.units p) pos results num = some ex := by
  unfold DoubleArrayBase.extract_result_below
  by_cases hcond : c ≠ 0 ∧ (da.units.getD (walk da.units p) default).is_end = true
  · rw [if_pos hcond]
    obtain ⟨stray, v, hs, hv⟩ := stray_value hK hd ht hval hp hpi hcond.2
    simp only [hs, Option.bind_eq_bind, Option.some_bind,
      DoubleArrayBase.put_result_eq da _ _ _ _ _ v hv]
    exact ⟨_, rfl⟩
  · rw [if_neg hcond]
    exact ⟨_, rfl⟩

include hK hd ht hval in
/-- The unit loop of `common_prefix_search` from a node with children, on a
query with its terminator: every unit read is a read of a unit of the trie, and
the loop stops at a leaf with its string in the tail or rejects the query. -/
theorem cps_units_safe (cap : Nat) :
    ∀ (l p : List Nat) (pos : Nat) (results : List result_pair_type) (num : Nat),
      ZTerm l → (∀ c ∈ l, c < 256) → IsNode K p → Internal K p →
      ∃ x, da.common_prefix_units_below 3 n cap l (walk da.units p) pos results num = some x ∧
        ∀ u rest pos2, x.2.2 = some (u, rest, pos2) → LeafStored da u ∧ ZTerm rest := by
  intro l
  induction l with
  | nil => intro p pos results num hz; exact absurd rfl (zterm_ne_nil hz)
  | cons c rest ih =>
    intro p pos results num hz hb hp hpi
    obtain ⟨u0, u, h0, h1, hu0, hcase⟩ :=
      safe_step hK hd ht hval hp hpi c (hb c (List.mem_cons_self _ _))
    obtain ⟨ex, hex⟩ := extract_safe hK hd ht hval cap hp hpi c pos results num
    rw [← hu0] at hex
    rw [DoubleArrayBase.common_prefix_units_below_cons 3 da n cap c rest _ pos results num u0 u
      ex h0 hex h1]
    rcases hcase with ⟨hl, hst⟩ | ⟨hl, hlab⟩ | ⟨hl, hlab, hc0, hnode, hint, hidx⟩
    · rw [if_pos hl]
      refine ⟨_, rfl, fun u2 rest2 pos2 e => ?_⟩
      have e2 := Option.some.inj e
      cases e2
      exact ⟨hst, hz⟩
    · have hnl : ¬ (u.is_leaf = true) := by rw [hl]; decide
      rw [if_neg hnl, if_pos hlab]
      exact ⟨_, rfl, fun _ _ _ e => by cases e⟩
    · have hnl : ¬ (u.is_leaf = true) := by rw [hl]; decide
      rw [if_neg hnl, if_neg (not_not.2 hlab), hidx]
      have hzr : ZTerm rest := by
        rcases zterm_cons hz with ⟨h0, _⟩ | ⟨_, h2⟩
        · exact absurd h0 hc0
        · exact h2
      exact ih (p ++ [c]) (pos + 1) ex.1 ex.2 hzr
        (fun x hx => hb x (List.mem_cons_of_mem _ hx)) hnode hint

omit hK hd ht hval in
theorem cps_suffix_safe (cap : Nat) (agent : DoubleArrayUnit) (hst : LeafStored da agent)
    (rest : List Nat) (hz : ZTerm rest) (pos : Nat) (results : List result_pair_type)
    (num : Nat) :
    ∃ r, da.common_prefix_suffix 3 cap agent rest pos results num = some r := by
  obtain ⟨s, v, ⟨k, hk, hkz⟩, hbytes, hv⟩ := hst
  obtain ⟨a, ha, haz⟩ := hz
  subst hk
  subst ha
  have hb0 := hbytes 0 (by rw [List.length_append, List.length_singleton]; omega)
  rw [Nat.add_zero] at hb0
  obtain ⟨c, r2, hcr⟩ : ∃ c r2, a ++ [0] = c :: r2 := by
    cases a with
    | nil => exact ⟨0, [], rfl⟩
    | cons x a2 => exact ⟨x, a2 ++ [0], List.cons_append _ _ _⟩
  obtain ⟨t2, pos2, htail, himp⟩ :=
    DoubleArrayBase.common_prefix_tail_spec da k a (agent.link 3) pos hkz haz hbytes
  unfold DoubleArrayBase.common_prefix_suffix
  rw [htail, hcr]
  simp only [hb0, Option.bind_eq_bind, Option.some_bind, List.head?_cons, Option.pure_def]
  by_cases hne : (k ++ [0]).getD 0 0 ≠ c
  · rw [if_pos hne]
    exact ⟨_, rfl⟩
  · rw [if_neg hne]
    by_cases hpre : k <+: a
    · obtain ⟨e1, _⟩ := himp hpre
      have hv2 : da.get_value (t2 + (4 * agent.value_id 3 + 1)) = some v := by
        rw [e1]
        rw [List.length_append, List.length_singleton] at hv
        rw [← hv]
        congr 1
        omega
      simp only [hpre, decide_True, if_true, DoubleArrayBase.put_result_eq da _ _ _ _ _ v hv2,
        Option.some_bind]
      exact ⟨_, rfl⟩
    · simp only [hpre, decide_False, Bool.false_eq_true, if_false]
      exact ⟨_, rfl⟩

include hK hd ht hval in
/-- `common_prefix_search` from the root, on a query with its terminator, with
the unit reads checked: it returns. -/
theorem cps_search_safe (hne : K ≠ []) (l : List Nat) (hz : ZTerm l)
    (hb : ∀ c ∈ l, c < 256) (results : List result_pair_type) (cap : Nat) :
    ∃ r, da.common_prefix_search_below 3 n l 0 results cap ⟨0⟩ = some r := by
  obtain ⟨hp, hpi⟩ := root_node (K := K) hne
  obtain ⟨x, hx, hleaf⟩ := cps_units_safe hK hd ht hval cap l [] 0 results 0 hz hb hp hpi
  rw [walk_nil] at hx
  unfold DoubleArrayBase.common_prefix_search_below
  have hl : (!(⟨0⟩ : DoubleArrayUnit).is_leaf) = true := by decide
  have hi : (⟨0⟩ : DoubleArrayUnit).index = 0 := by decide
  rw [if_pos hl, hi, hx]
  obtain ⟨res, num, o⟩ := x
  cases o with
  | none => exact ⟨_, rfl⟩
  | some y =>
    obtain ⟨u, rest, pos2⟩ := y
    obtain ⟨hst, hzr⟩ := hleaf u rest pos2 rfl
    exact cps_suffix_safe cap u hst rest hzr pos2 res num

include hK hd ht hval in
/-- The unit loop of `traverse` from a node with children, on a query with its
terminator: every unit read is a read of a unit of the trie; the loop ends at
the terminator in a node with children, or at a leaf with its string in the
tail, or it rejects the query. -/
theorem traverse_units_safe :
    ∀ (l p : List Nat) (pos : Nat) (agent : DoubleArrayUnit),
      ZTerm l → (∀ c ∈ l, c < 256) → IsNode K p → Internal K p →
      ∃ x, da.traverse_units_below n l (walk da.units p) agent pos = some x ∧
        (∀ i a q pos2, x = .done i a q pos2 →
          ∃ p2, IsNode K p2 ∧ Internal K p2 ∧ i = walk da.units p2) ∧
        (∀ i a q pos2, x = .leaf i a q pos2 →
          ∃ u, da.unit_below n i = some u ∧ LeafStored da u ∧ ZTerm q) := by
  intro l
  induction l with
  | nil => intro p pos agent hz; exact absurd rfl (zterm_ne_nil hz)
  | cons c rest ih =>
    intro p pos agent hz hb hp hpi
    by_cases hc0 : c = 0
    · subst hc0
      rw [DoubleArrayBase.traverse_units_below_zero]
      refine ⟨_, rfl, fun i a q pos2 e => ?_, fun i a q pos2 e => (by cases e)⟩
      cases e
      exact ⟨p, hp, hpi, rfl⟩
    · obtain ⟨u0, u, h0, h1, _, hcase⟩ :=
        safe_step hK hd ht hval hp hpi c (hb c (List.mem_cons_self _ _))
      rw [DoubleArrayBase.traverse_units_below_cons da n c rest _ pos agent u0 u hc0 h0 h1]
      rcases hcase with ⟨hl, hst⟩ | ⟨hl, hlab⟩ | ⟨hl, hlab, _, hnode, hint, hidx⟩
      · rw [if_pos hl]
        refine ⟨_, rfl, fun i a q pos2 e => (by cases e), fun i a q pos2 e => ?_⟩
        cases e
        exact ⟨u, h1, hst, hz⟩
      · have hnl : ¬ (u.is_leaf = true) := by rw [hl]; decide
        rw [if_neg hnl, if_pos hlab]
        exact ⟨_, rfl, fun i a q pos2 e => (by cases e), fun i a q pos2 e => (by cases e)⟩
      · have hnl : ¬ (u.is_leaf = true) := by rw [hl]; decide
        rw [if_neg hnl, if_neg (not_not.2 hlab), hidx]
        have hzr : ZTerm rest := by
          rcases zterm_cons hz with ⟨h0, _⟩ | ⟨_, h2⟩
          · exact absurd h0 hc0
          · exact h2
        exact ih (p ++ [c]) (pos + 1) _ hzr (fun x hx => hb x (List.mem_cons_of_mem _ hx))
          hnode hint

include hK hd ht hval in
theorem traverse_end_safe {p : List Nat} (hp : IsNode K p) (hpi : Internal K p)
    (agent : DoubleArrayUnit) (pos : Nat) :
    ∃ r, da.traverse_end_below 3 n (walk da.units p) agent pos = some r := by
  obtain ⟨h0, _, _⟩ := node_reads hd hp hpi 0 (by decide)
  obtain ⟨hw0, _, _⟩ := node_below hd hp hpi 0 (by decide)
  have h0b : da.unit_below n (walk da.units p)
      = some (da.units.getD (walk da.units p) default) := by
    rw [DoubleArrayBase.unit_below_eq da hw0]; exact h0
  unfold DoubleArrayBase.traverse_end_below
  simp only [h0b, Option.bind_eq_bind, Option.some_bind, Option.pure_def]
  by_cases he : (da.units.getD (walk da.units p) default).is_end = true
  · obtain ⟨stray, v, hs, hv⟩ := stray_value hK hd ht hval hp hpi he
    simp only [he, Bool.not_true, Bool.false_eq_true, if_false, hs, Option.some_bind, hv]
    exact ⟨_, rfl⟩
  · have he2 : (da.units.getD (walk da.units p) default).is_end = false := by
      cases h : (da.units.getD (walk da.units p) default).is_end
      · rfl
      · exact absurd h he
    simp only [he2, Bool.not_false, if_true]
    exact ⟨_, rfl⟩

omit hK hd ht hval in
/-- The loop of `traverse` over the tail, for a string with its terminator in
the tail and a query with its terminator: it returns. -/
theorem traverse_tail_total (agent : DoubleArrayUnit) (hwf : agent.wf) (v : Int) :
    ∀ (rest s : List Nat) (t pos : Nat), ZTerm rest → ZTerm s →
      (∀ j, j < s.length → da.tail? (t + j) = some (s.getD j 0)) →
      da.get_value (t + s.length + 4 * agent.value_id 3) = some v →
      ∃ r, da.traverse_tail 3 agent rest t pos = some r := by
  intro rest
  induction rest with
  | nil => intro s t pos hz; exact absurd rfl (zterm_ne_nil hz)
  | cons c rest2 ih =>
    intro s t pos hz hs hbytes hv
    cases s with
    | nil => exact absurd rfl (zterm_ne_nil hs)
    | cons a s2 =>
      have hb0 := hbytes 0 (by simp)
      rw [Nat.add_zero, List.getD_cons_zero] at hb0
      rw [DoubleArrayBase.traverse_tail_cons da agent c rest2 t pos a hb0]
      by_cases h1 : a = c
      · rw [if_pos h1]
        by_cases h2 : a = 0
        · rw [if_pos h2]
          have hs2 : s2 = [] := by
            rcases zterm_cons hs with ⟨_, h⟩ | ⟨h, _⟩
            · exact h
            · exact absurd h2 h
          subst hs2
          cases hsl : agent.set_link 3 t with
          | error e => exact ⟨_, rfl⟩
          | ok agent2 =>
            obtain ⟨_, _, hvid, _⟩ := DoubleArrayUnit.set_link_spec hwf hsl
            have hv2 : da.get_value (t + (4 * agent2.value_id 3 + 1)) = some v := by
              rw [hvid, ← hv]
              congr 1
              simp only [List.length_singleton]
              omega
            simp only [hv2, Option.some_bind]
            exact ⟨_, rfl⟩
        · rw [if_neg h2]
          have hzr : ZTerm rest2 := by
            rcases zterm_cons hz with ⟨h, _⟩ | ⟨_, h⟩
            · exact absurd (h1.trans h) h2
            · exact h
          have hzs : ZTerm s2 := by
            rcases zterm_cons hs with ⟨h, _⟩ | ⟨_, h⟩
            · exact absurd h h2
            · exact h
          refine ih s2 (t + 1) (pos + 1) hzr hzs (fun j hj => ?_) ?_
          · have := hbytes (j + 1) (by simp only [List.length_cons]; omega)
            rw [List.getD_cons_succ] at this
            rw [← this]
            congr 1
            omega
          · rw [← hv]
            congr 1
            simp only [List.length_cons]
            omega
      · rw [if_neg h1]
        exact ⟨_, rfl⟩

include hK hd ht hval in
/-- The private `traverse` from the root, on a query with its terminator, with
the unit reads checked: it returns. -/
theorem traverse_query_safe (hwf : ∀ j, (da.units.getD j default).wf) (hne : K ≠ [])
    (l : List Nat) (hz : ZTerm l) (hb : ∀ c ∈ l, c < 256) :
    ∃ r, da.traverse_query_below 3 n l 0 ⟨0⟩ = some r := by
  obtain ⟨hp, hpi⟩ := root_node (K := K) hne
  obtain ⟨x, hx, hdone, hleaf⟩ :=
    traverse_units_safe hK hd ht hval l [] 0 ⟨0⟩ hz hb hp hpi
  rw [walk_nil] at hx
  unfold DoubleArrayBase.traverse_query_below
  have hl : (!(⟨0⟩ : DoubleArrayUnit).is_leaf) = true := by decide
  have hi : (⟨0⟩ : DoubleArrayUnit).index = 0 := by decide
  rw [if_pos hl, hi, hx]
  cases x with
  | mismatch a p2 => exact ⟨_, rfl⟩
  | done i a q p2 =>
    obtain ⟨p3, hp3, hpi3, hi3⟩ := hdone i a q p2 rfl
    subst hi3
    exact traverse_end_safe hK hd ht hval hp3 hpi3 a p2
  | leaf i a q p2 =>
    obtain ⟨u, hu, ⟨s, v, hs, hbytes, hv⟩, hzq⟩ := hleaf i a q p2 rfl
    simp only [hu]
    have huw : u.wf := by
      have h1 := (DoubleArrayBase.unit_below_some hu).1
      unfold DoubleArrayBase.unit? at h1
      have h2 : da.units.getD i default = u := by
        rw [List.getD_eq_getElem?_getD, h1]
        rfl
      rw [← h2]
      exact hwf i
    exact traverse_tail_total u huw v q s _ p2 hzq hs hbytes hv

end safe

end Darts

namespace Darts

/-- A step of a search in the array of the empty key set, from a unit other
than unit 1: both unit reads are reads of units of the block, the unit reached
is no leaf, and it accepts the byte only if that is no terminator and the unit
is not unit 1. -/
theorem empty_step {da : DoubleArrayBase} (h : EmptyDict da.units) (i c : Nat) (hi : i < 256)
    (hi1 : i ≠ 1) (hc : c < 256) :
    ∃ u0 u, da.unit_below 256 i = some u0 ∧
      da.unit_below 256 (i ^^^ (u0.offset ^^^ c)) = some u ∧
      u0 = da.units.getD i default ∧ u0.is_end = false ∧ u.is_leaf = false ∧
      (u.label = c → c ≠ 0 ∧ i ^^^ (u0.offset ^^^ c) < 256 ∧ i ^^^ (u0.offset ^^^ c) ≠ 1) := by
  have hlen := h.length
  have hu : ∀ j, j < 256 → da.unit_below 256 j = some (da.units.getD j default) := by
    intro j hj
    rw [DoubleArrayBase.unit_below_eq da hj]
    exact DoubleArrayBase.unit?_eq da j (by rw [hlen]; exact hj)
  have hoff : (da.units.getD i default).offset < 256 ∧
      (i ^^^ (da.units.getD i default).offset = 0 → False) ∧
      (da.units.getD i default).is_end = false := by
    by_cases h0 : i = 0
    · subst h0
      rw [h.zero.1]
      exact ⟨by decide, by decide, h.zero.2.2.2⟩
    · have h2 : 2 ≤ i := by omega
      obtain ⟨_, _, off⟩ := emptyDict_unit h i hi
      rw [off h2, Nat.xor_zero]
      refine ⟨by decide, fun e => h0 e, ?_⟩
      rw [h.rest i h2 hi]
      exact (default_set_label _ (xor_one_lt _ hi)).2.2
  obtain ⟨ho, hbase, hend⟩ := hoff
  have ht : i ^^^ ((da.units.getD i default).offset ^^^ c) < 256 :=
    xor_lt_256 _ _ hi (xor_lt_256 _ _ ho hc)
  obtain ⟨hl, hlab, _⟩ := emptyDict_unit h _ ht
  refine ⟨_, _, hu i hi, hu _ ht, rfl, hend, hl, fun hlc => ?_⟩
  rw [hlab] at hlc
  have hassoc : i ^^^ ((da.units.getD i default).offset ^^^ c)
      = (i ^^^ (da.units.getD i default).offset) ^^^ c := (Nat.xor_assoc _ _ _).symm
  by_cases ht2 : i ^^^ ((da.units.getD i default).offset ^^^ c) < 2
  · rw [if_pos ht2, hassoc] at hlc
    exact absurd (xor_eq_right_zero hlc) hbase
  · rw [if_neg ht2] at hlc
    refine ⟨fun hc0 => ?_, ht, by omega⟩
    rw [hc0] at hlc
    have := congrArg (fun x => x ^^^ 1) hlc
    simp only [xor_xor_cancel_right] at this
    rw [hc0] at ht2
    rw [this] at ht2
    exact ht2 (by decide)

theorem exact_units_empty {da : DoubleArrayBase} (h : EmptyDict da.units) :
    ∀ (l : List Nat) (i pos : Nat), ZTerm l → (∀ c ∈ l, c < 256) → i < 256 → i ≠ 1 →
      da.exact_match_units_below 256 l i pos = some none := by
  intro l
  induction l with
  | nil => intro i pos hz; exact absurd rfl (zterm_ne_nil hz)
  | cons c rest ih =>
    intro i pos hz hb hi hi1
    obtain ⟨u0, u, h0, h1, _, _, hl, hcont⟩ :=
      empty_step h i c hi hi1 (hb c (List.mem_cons_self _ _))
    rw [DoubleArrayBase.exact_match_units_below_cons da 256 c rest i pos u0 u h0 h1]
    have hnl : ¬ (u.is_leaf = true) := by rw [hl]; decide
    rw [if_neg hnl]
    by_cases hlab : u.label ≠ c
    · rw [if_pos hlab]
    · rw [if_neg hlab]
      obtain ⟨hc0, ht, ht1⟩ := hcont (not_not.1 hlab)
      have hzr : ZTerm rest := by
        rcases zterm_cons hz with ⟨h0, _⟩ | ⟨_, h2⟩
        · exact absurd h0 hc0
        · exact h2
      exact ih _ (pos + 1) hzr (fun x hx => hb x (List.mem_cons_of_mem _ hx)) ht ht1

theorem exact_search_empty {da : DoubleArrayBase} (h : EmptyDict da.units) (l : List Nat)
    (hz : ZTerm l) (hb : ∀ c ∈ l, c < 256) (result : result_pair_type) :
    ∃ r, da.exact_match_search_below 3 256 l 0 result ⟨0⟩ = some r := by
  unfold DoubleArrayBase.exact_match_search_below
  have hl : (!(⟨0⟩ : DoubleArrayUnit).is_leaf) = true := by decide
  have hi : (⟨0⟩ : DoubleArrayUnit).index = 0 := by decide
  rw [if_pos hl, hi, exact_units_empty h l 0 0 hz hb (by decide) (by decide)]
  exact ⟨_, rfl⟩

theorem extract_below_not_end (da : DoubleArrayBase) (n cap c : Nat) (u0 : DoubleArrayUnit)
    (index pos : Nat) (results : List result_pair_type) (num : Nat) (h : u0.is_end = false) :
    da.extract_result_below 3 n cap c u0 index pos results num = some (results, num) := by
  unfold DoubleArrayBase.extract_result_below
  rw [if_neg (fun hh => by rw [h] at hh; exact absurd hh.2 (by decide))]
  rfl

theorem cps_units_empty {da : DoubleArrayBase} (h : EmptyDict da.units) (cap : Nat) :
    ∀ (l : List Nat) (i pos : Nat) (results : List result_pair_type) (num : Nat),
      ZTerm l → (∀ c ∈ l, c < 256) → i < 256 → i ≠ 1 →
      da.common_prefix_units_below 3 256 cap l i pos results num = some (results, num, none) := by
  intro l
  induction l with
  | nil => intro i pos results num hz; exact absurd rfl (zterm_ne_nil hz)
  | cons c rest ih =>
    intro i pos results num hz hb hi hi1
    obtain ⟨u0, u, h0, h1, _, hend, hl, hcont⟩ :=
      empty_step h i c hi hi1 (hb c (List.mem_cons_self _ _))
    rw [DoubleArrayBase.common_prefix_units_below_cons 3 da 256 cap c rest i pos results num u0 u
      (results, num) h0 (extract_below_not_end da 256 cap c u0 i pos results num hend) h1]
    have hnl : ¬ (u.is_leaf = true) := by rw [hl]; decide
    rw [if_neg hnl]
    by_cases hlab : u.label ≠ c
    · rw [if_pos hlab]
    · rw [if_neg hlab]
      obtain ⟨hc0, ht, ht1⟩ := hcont (not_not.1 hlab)
      have hzr : ZTerm rest := by
        rcases zterm_cons hz with ⟨h0, _⟩ | ⟨_, h2⟩
        · exact absurd h0 hc0
        · exact h2
      exact ih _ (pos + 1) results num hzr (fun x hx => hb x (List.mem_cons_of_mem _ hx)) ht ht1

theorem cps_search_empty {da : DoubleArrayBase} (h : EmptyDict da.units) (l : List Nat)
    (hz : ZTerm l) (hb : ∀ c ∈ l, c < 256) (results : List result_pair_type) (cap : Nat) :
    ∃ r, da.common_prefix_search_below 3 256 l 0 results cap ⟨0⟩ = some r := by
  unfold DoubleArrayBase.common_prefix_search_below
  have hl : (!(⟨0⟩ : DoubleArrayUnit).is_leaf) = true := by decide
  have hi : (⟨0⟩ : DoubleArrayUnit).index = 0 := by decide
  rw [if_pos hl, hi, cps_units_empty h cap l 0 0 results 0 hz hb (by decide) (by decide)]
  exact ⟨_, rfl⟩

theorem traverse_units_empty {da : DoubleArrayBase} (h : EmptyDict da.units) :
    ∀ (l : List Nat) (i pos : Nat) (agent : DoubleArrayUnit),
      ZTerm l → (∀ c ∈ l, c < 256) → i < 256 → i ≠ 1 →
      ∃ x, da.traverse_units_below 256 l i agent pos = some x ∧
        (∀ j a q pos2, x = .done j a q pos2 → j < 256 ∧ j ≠ 1) ∧
        (∀ j a q pos2, x ≠ .leaf j a q pos2) := by
  intro l
  induction l with
  | nil => intro i pos agent hz; exact absurd rfl (zterm_ne_nil hz)
  | cons c rest ih =>
    intro i pos agent hz hb hi hi1
    by_cases hc0 : c = 0
    · subst hc0
      rw [DoubleArrayBase.traverse_units_below_zero]
      refine ⟨_, rfl, fun j a q pos2 e => ?_, fun j a q pos2 e => (by cases e)⟩
      cases e
      exact ⟨hi, hi1⟩
    · obtain ⟨u0, u, h0, h1, _, _, hl, hcont⟩ :=
        empty_step h i c hi hi1 (hb c (List.mem_cons_self _ _))
      rw [DoubleArrayBase.traverse_units_below_cons da 256 c rest i pos agent u0 u hc0 h0 h1]
      have hnl : ¬ (u.is_leaf = true) := by rw [hl]; decide
      rw [if_neg hnl]
      by_cases hlab : u.label ≠ c
      · rw [if_pos hlab]
        exact ⟨_, rfl, fun j a q pos2 e => (by cases e), fun j a q pos2 e => (by cases e)⟩
      · rw [if_neg hlab]
        obtain ⟨_, ht, ht1⟩ := hcont (not_not.1 hlab)
        have hzr : ZTerm rest := by
          rcases zterm_cons hz with ⟨h0, _⟩ | ⟨_, h2⟩
          · exact absurd h0 hc0
          · exact h2
        exact ih _ (pos + 1) _ hzr (fun x hx => hb x (List.mem_cons_of_mem _ hx)) ht ht1

theorem traverse_query_empty {da : DoubleArrayBase} (h : EmptyDict da.units) (l : List Nat)
    (hz : ZTerm l) (hb : ∀ c ∈ l, c < 256) :
    ∃ r, da.traverse_query_below 3 256 l 0 ⟨0⟩ = some r := by
  obtain ⟨x, hx, hdone, hleaf⟩ :=
    traverse_units_empty h l 0 0 ⟨0⟩ hz hb (by decide) (by decide)
  unfold DoubleArrayBase.traverse_query_below
  have hl : (!(⟨0⟩ : DoubleArrayUnit).is_leaf) = true := by decide
  have hi : (⟨0⟩ : DoubleArrayUnit).index = 0 := by decide
  rw [if_pos hl, hi, hx]
  cases x with
  | mismatch a p2 => exact ⟨_, rfl⟩
  | leaf j a q p2 => exact absurd rfl (hleaf j a q p2)
  | done j a q p2 =>
    obtain ⟨hj, hj1⟩ := hdone j a q p2 rfl
    obtain ⟨u0, _, h0, _, _, hend, _, _⟩ := empty_step h j 0 hj hj1 (by decide)
    show ∃ r, da.traverse_end_below 3 256 j a p2 = some r
    unfold DoubleArrayBase.traverse_end_below
    simp only [h0, Option.bind_eq_bind, Option.some_bind, hend, Bool.not_false, if_true]
    exact ⟨_, rfl⟩

end Darts

namespace Darts

theorem exact_below_transfer (da : DoubleArrayBase) (n : Nat) (key : List Nat)
    (res : result_pair_type) (length : Nat)
    (h : ∃ r, da.exact_match_search_below 3 n
      (query_end (DoubleArrayBase.query_bytes key length)) 0 res ⟨0⟩ = some r) :
    ∃ r, da.exactMatchSearch_below 3 n key res length 0 = some r ∧
      da.exactMatchSearch 3 key res length 0 = some r := by
  obtain ⟨r, hr⟩ := h
  obtain ⟨junk, hj⟩ := query_end_split _ (DoubleArrayBase.query_bytes_zero key length)
  refine ⟨r, hr, ?_⟩
  have h1 := DoubleArrayBase.exact_match_search_below_plain 3 da n _ 0 res ⟨0⟩ r hr
  have h2 := DoubleArrayBase.exact_match_search_append da junk _ 0 res ⟨0⟩ r h1
  rw [← hj] at h2
  exact h2

theorem cps_below_transfer (da : DoubleArrayBase) (n : Nat) (key : List Nat)
    (results : List result_pair_type) (cap length : Nat)
    (h : ∃ r, da.common_prefix_search_below 3 n
      (query_end (DoubleArrayBase.query_bytes key length)) 0 results cap ⟨0⟩ = some r) :
    ∃ r, da.commonPrefixSearch_below 3 n key results cap length 0 = some r ∧
      da.commonPrefixSearch 3 key results cap length 0 = some r := by
  obtain ⟨r, hr⟩ := h
  obtain ⟨junk, hj⟩ := query_end_split _ (DoubleArrayBase.query_bytes_zero key length)
  refine ⟨r, hr, ?_⟩
  have h1 := DoubleArrayBase.common_prefix_search_below_plain 3 da n _ 0 results cap ⟨0⟩ r hr
  have h2 := DoubleArrayBase.common_prefix_search_append da junk _ 0 results cap ⟨0⟩ r h1
  rw [← hj] at h2
  exact h2

theorem traverse_below_transfer (da : DoubleArrayBase) (n : Nat) (key : List Nat)
    (length : Nat)
    (h : ∃ r, da.traverse_query_below 3 n
      (query_end (DoubleArrayBase.query_bytes key length)) 0 ⟨0⟩ = some r) :
    ∃ r, da.traverse_below 3 n key 0 0 length = some r ∧
      da.traverse 3 key 0 0 length = some r := by
  obtain ⟨r, hr⟩ := h
  obtain ⟨junk, hj⟩ := query_end_split _ (DoubleArrayBase.query_bytes_zero key length)
  have h1 := DoubleArrayBase.traverse_query_below_plain 3 da n _ 0 ⟨0⟩ r hr
  have h2 := DoubleArrayBase.traverse_query_append da junk _ 0 ⟨0⟩ r h1
  rw [← hj] at h2
  have e1 : da.traverse_below 3 n key 0 0 length
      = (match da.traverse_query_below 3 n
          (query_end (DoubleArrayBase.query_bytes key length)) 0 ⟨0⟩ with
        | none => none
        | some (.error e) => some (.error e)
        | some (.ok (value, unit, key_index)) => some (.ok (value, unit.values, key_index))) :=
    rfl
  have e2 : da.traverse 3 key 0 0 length
      = (match da.traverse_query 3 (DoubleArrayBase.query_bytes key length) 0 ⟨0⟩ with
        | none => none
        | some (.error e) => some (.error e)
        | some (.ok (value, unit, key_index)) => some (.ok (value, unit.values, key_index))) :=
    rfl
  rw [e1, e2, hr, h2]
  cases r with
  | error e => exact ⟨_, rfl, rfl⟩
  | ok x => exact ⟨_, rfl, rfl⟩

/-- C36: in a dictionary that `build` returned, of which `unit[1].offset` units
belong to the trie, for every query buffer of bytes and every length argument
(0 for a zero-terminated query): `exactMatchSearch`, `commonPrefixSearch` and
`traverse` from the root return (reads outside the array or behind the query
are undefined in the embedding, which then has no result), and they return the
same when every read of a unit from index `unit[1].offset` on is undefined and
the query is cut behind its first zero, the end of the query; so they read only
units of the trie and bytes of the tail inside the array, and no byte of the
query behind its end. -/
theorem search_reads_in_bounds (keys : List (List Nat)) (lengths : Option (List Nat))
    (values : Option (List Int)) (hv : ∀ k ∈ keys, ValidKey k)
    (hL : ∀ ls, lengths = some ls → ∀ i, i < keys.length → ls.getD i 0 = (keys.getD i []).length)
    (hvals : ∀ vs, values = some vs → ∀ v ∈ vs, Int32 v)
    (da : DoubleArrayBase)
    (h : DoubleArrayBase.build 3 keys.length (some keys) lengths values = .ok da)
    (key : List Nat) (hkey : ∀ c ∈ key, c < 256) (length : Nat) (result : result_pair_type)
    (results : List result_pair_type) (cap : Nat) :
    (∃ r, da.exactMatchSearch_below 3 (da.units.getD 1 default).offset key result length 0
        = some r ∧
      da.exactMatchSearch 3 key result length 0 = some r) ∧
    (∃ r, da.commonPrefixSearch_below 3 (da.units.getD 1 default).offset key results cap length 0
        = some r ∧
      da.commonPrefixSearch 3 key results cap length 0 = some r) ∧
    (∃ r, da.traverse_below 3 (da.units.getD 1 default).offset key 0 0 length = some r ∧
      da.traverse 3 key 0 0 length = some r) := by
  obtain ⟨ks, U, hks, hc, hok, hU, hda⟩ := build_ok_inv keys lengths values hv hL h
  subst hda
  obtain ⟨hd, hempty⟩ := builder_sound hok hU
  have hwf : ∀ j, ((DoubleArrayBase.set_vector U).units.getD j default).wf :=
    fun j => build_units_wf hok hU j
  have ht : (DoubleArrayBase.set_vector U).tail = 4 * (U.getD 1 default).offset := rfl
  have hval : ∀ k ∈ ks, Int32 k.value := by
    intro k hk
    obtain ⟨_, _, _, _, i0, _, _, h6, _⟩ := hc.entry k hk
    rw [h6]
    exact int32_make_value values hvals i0
  have hd2 : DictOK ks (DoubleArrayBase.set_vector U).units (U.getD 1 default).offset := hd
  have hun : (DoubleArrayBase.set_vector U).units = U := rfl
  rw [hun]
  obtain ⟨a, ha, haz, hasub⟩ := query_end_shape (DoubleArrayBase.query_bytes key length)
  have hz : ZTerm (query_end (DoubleArrayBase.query_bytes key length)) := ⟨a, ha, haz⟩
  have hb : ∀ c ∈ query_end (DoubleArrayBase.query_bytes key length), c < 256 := by
    intro c hc2
    rw [ha] at hc2
    rcases List.mem_append.1 hc2 with h1 | h1
    · exact DoubleArrayBase.query_bytes_lt key length hkey c (hasub c h1)
    · rw [List.mem_singleton.1 h1]; decide
  by_cases hne : ks = []
  · have he : EmptyDict (DoubleArrayBase.set_vector U).units := hempty hne
    have hn : (U.getD 1 default).offset = 256 := he.one.2.2
    rw [hn]
    exact ⟨exact_below_transfer _ 256 key result length (exact_search_empty he _ hz hb result),
      cps_below_transfer _ 256 key results cap length (cps_search_empty he _ hz hb results cap),
      traverse_below_transfer _ 256 key length (traverse_query_empty he _ hz hb)⟩
  · exact ⟨exact_below_transfer _ _ key result length
        (exact_search_safe hok hd2 ht hval hne _ hz hb result),
      cps_below_transfer _ _ key results cap length
        (cps_search_safe hok hd2 ht hval hne _ hz hb results cap),
      traverse_below_transfer _ _ key length
        (traverse_query_safe hok hd2 ht hval hwf hne _ hz hb)⟩

theorem search_reads_in_bounds_witness :
    ∃ da, DoubleArrayBase.build 3 [[97]].length (some [[97]]) none none = .ok da ∧
      (∃ r, da.exactMatchSearch_below 3 (da.units.getD 1 default).offset [97, 0, 98] ⟨0, 0⟩ 2 0
          = some r ∧
        da.exactMatchSearch 3 [97, 0, 98] ⟨0, 0⟩ 2 0 = some r) ∧
      (∃ r, da.traverse_below 3 (da.units.getD 1 default).offset [97, 98] 0 0 0 = some r ∧
        da.traverse 3 [97, 98] 0 0 0 = some r) := by
  obtain ⟨da, hda⟩ := build_ok_total [[97]] none none (by decide) (fun ls h => by cases h)
    _ collect_keys_a (by decide)
  have h1 := search_reads_in_bounds [[97]] none none (by decide) (fun ls h => by cases h)
    (fun vs h => by cases h) da hda [97, 0, 98] (by decide) 2 ⟨0, 0⟩ [] 0
  have h2 := search_reads_in_bounds [[97]] none none (by decide) (fun ls h => by cases h)
    (fun vs h => by cases h) da hda [97, 98] (by decide) 0 ⟨0, 0⟩ [] 0
  exact ⟨da, hda, h1.1, h2.2.2⟩

end Darts

namespace Darts

namespace DoubleArrayBuilder

/-- The offset that `find_offset_index` returns in an array of at most `2^29`
units: it passes the test of the mask, and it is a free place of the array or
lies in the block after the array. -/
theorem find_offset_index_cases (b : DoubleArrayBuilder) (hinv : b.AllocInv) (index : Nat)
    (labels : List Nat) (hl : labels ≠ []) (hlab : ∀ l ∈ labels, l < 256)
    (hidx : index < b.num_of_units) (hn : b.num_of_units ≤ 2 ^ 29) :
    ∃ o, b.find_offset_index index labels = .ok o ∧
      (index ^^^ o < 2 ^ 21 ∨ (index ^^^ o) % 256 = 0) ∧
      ((256 * b.first_live ≤ o ∧ o < b.num_of_units ∧ (b.extra o).is_used = false ∧
          ∀ l ∈ labels, b.Free (o ^^^ l)) ∨
        (b.num_of_units ≤ o ∧ o < b.num_of_units + 256)) := by
  have hnum : b.num_of_units = 256 * b.extras.length := hinv.size_eq
  have hfallback : ∃ o, (pure (b.num_of_units ||| (index &&& 0xFF)) : Except DartsError Nat)
      = .ok o ∧
      (index ^^^ o < 2 ^ 21 ∨ (index ^^^ o) % 256 = 0) ∧
      ((256 * b.first_live ≤ o ∧ o < b.num_of_units ∧ (b.extra o).is_used = false ∧
          ∀ l ∈ labels, b.Free (o ^^^ l)) ∨
        (b.num_of_units ≤ o ∧ o < b.num_of_units + 256)) := by
    have e := or_and_255 b.num_of_units index (by omega)
    have hm : index % 256 < 256 := Nat.mod_lt _ (by decide)
    refine ⟨_, rfl, Or.inr ?_, Or.inr ⟨by rw [e]; omega, by rw [e]; omega⟩⟩
    rw [e]
    exact xor_self_low index b.num_of_units (by omega)
  unfold find_offset_index
  by_cases hlt : b.unfixed_index < b.num_of_units
  · rw [if_pos hlt]
    have hhead : b.Free b.unfixed_index := by
      rcases hinv.head with ⟨h, _⟩ | ⟨h, _⟩
      · exact h
      · omega
    obtain ⟨r, hr, hgood⟩ := find_offset_loop_spec b hinv index labels b.num_of_units
      b.unfixed_index hhead (by omega)
    rw [hr]
    cases r with
    | none => exact hfallback
    | some o =>
      obtain ⟨u', hu', ho, hused, hmask, hcol⟩ := hgood o rfl
      obtain ⟨l0, t, hlt0⟩ := List.exists_cons_of_ne_nil hl
      have hl0 : labels.getD 0 0 = l0 := by rw [hlt0]; rfl
      have hl0lt : l0 < 256 := hlab l0 (by rw [hlt0]; exact List.mem_cons_self _ _)
      rw [hl0] at ho
      have hblk : o / 256 = u' / 256 := by rw [ho]; exact xor_byte_div u' l0 hl0lt
      have hu1 : 256 * b.first_live ≤ u' := hu'.1
      have hu2 : u' < b.num_of_units := hu'.2.1
      have ho1 : 256 * b.first_live ≤ o := by omega
      have ho2 : o < b.num_of_units := by omega
      have hoff : index ^^^ o < 2 ^ 32 := Nat.xor_lt_two_pow (by omega) (by omega)
      refine ⟨o, rfl, offset_mask_test _ hoff hmask, Or.inl ⟨ho1, ho2, hused, ?_⟩⟩
      intro l hlmem
      rw [hlt0] at hlmem
      rcases List.mem_cons.1 hlmem with h | h
      · rw [h, ho, xor_xor_cancel_right]
        exact hu'
      · have hllt : l < 256 := hlab l (by rw [hlt0]; exact List.mem_cons_of_mem _ h)
        have hb2 : (o ^^^ l) / 256 = o / 256 := xor_byte_div o l hllt
        unfold has_collision at hcol
        rw [hlt0] at hcol
        simp only [List.drop_succ_cons, List.drop_zero, List.any_eq_false] at hcol
        have := hcol l h
        refine ⟨?_, ?_, ?_⟩
        · show 256 * b.first_live ≤ o ^^^ l
          omega
        · omega
        · simpa using this
  · rw [if_neg hlt]
    exact hfallback

end DoubleArrayBuilder

theorem build_trie_step_internal_error (b : DoubleArrayBuilder) (r : DoubleArrayKeyRange)
    (stack : List DoubleArrayKeyRange) (hnl : ¬ (r.index ≠ 0 ∧ r.size = 1))
    (keys : List DoubleArrayKey) (labels : List Nat) (ranges : List DoubleArrayKeyRange)
    (nb o : Nat) (e : DartsError)
    (hlist : DoubleArrayBuilder.list_labels r.end_ (r.end_ - r.begin_) r.begin_ (step_base b r).keys
      [(b.keys.getD r.begin_ default).get 0] [] r.begin_ = (keys, labels, ranges, nb))
    (hfind : DoubleArrayBuilder.find_offset_index { step_base b r with keys := keys } r.index labels
      = .ok o)
    (hset : ((step_base b r).unit r.index).set_offset (r.index ^^^ o) = .error e) :
    b.build_trie_step r stack = .error e := by
  rw [build_trie_step_eq b r stack hnl, hlist]
  show Except.bind (DoubleArrayBuilder.find_offset_index { step_base b r with keys := keys }
    r.index labels) _ = _
  rw [hfind]
  show Except.bind (((step_base b r).unit r.index).set_offset (r.index ^^^ o)) _ = _
  rw [hset]
  rfl

/-- The branch of `build_trie_subroutine` for a range that is not a leaf, in an
array of at most `2^29` units: it returns, with `StepFacts`, or `set_offset`
raises "Too large offset", which takes an array without room for another
block. -/
theorem internal_run_cases (IsBase : Nat → Prop) (b : DoubleArrayBuilder)
    (r : DoubleArrayKeyRange)
    (rest : List DoubleArrayKeyRange) (hnl : ¬ (r.index ≠ 0 ∧ r.size = 1))
    (hinv : b.AllocInv) (hc : b.UsedCovered) (hbu : DoubleArrayBuilder.BasesUsed IsBase b)
    (hfix : b.Fixed r.index) (hlt : r.begin_ < r.end_) (hle : r.end_ ≤ b.keys.length)
    (hmono : ∀ i j, r.begin_ ≤ i → i ≤ j → j < r.end_ →
      (b.keys.getD i default).get 0 ≤ (b.keys.getD j default).get 0)
    (hbyte : ∀ i, r.begin_ ≤ i → i < r.end_ → (b.keys.getD i default).get 0 < 256)
    (hn : b.num_of_units ≤ 2 ^ 29) :
    (∃ o Z b3, b.build_trie_step r rest = .ok (b3,
        Z.map (fun x => ({ x.2 with index := o ^^^ x.1 } : DoubleArrayKeyRange)) ++ rest) ∧
      StepFacts IsBase b r o Z b3 ∧
      Z = (DoubleArrayBuilder.list_labels r.end_ (r.end_ - r.begin_) r.begin_ b.keys
          [(b.keys.getD r.begin_ default).get 0] [] r.begin_).2.1.zip
        ((DoubleArrayBuilder.list_labels r.end_ (r.end_ - r.begin_) r.begin_ b.keys
          [(b.keys.getD r.begin_ default).get 0] [] r.begin_).2.2.1 ++
          [⟨(DoubleArrayBuilder.list_labels r.end_ (r.end_ - r.begin_) r.begin_ b.keys
            [(b.keys.getD r.begin_ default).get 0] [] r.begin_).2.2.2, r.end_, 0⟩]) ∧
      (∃ b1, UnitChanged r.index b b1 ∧ b1.AllocInv ∧
        b1.find_offset_index r.index (Z.map Prod.fst) = .ok o) ∧
      (o < b.num_of_units → b3.num_of_units = b.num_of_units)) ∨
    (b.build_trie_step r rest = .error .tooLargeOffset ∧ 2 ^ 29 < b.num_of_units + 256) := by
  -- the labels and the ranges
  obtain ⟨keys, Z0, cur, nb, hlist, hklen, hkeys, hruns0⟩ :=
    DoubleArrayBuilder.list_labels_spec (fun i => (b.keys.getD i default).get 0) r.begin_ r.end_
      b.keys (fun _ => rfl) hmono hle (r.end_ - r.begin_) r.begin_ b.keys [] _ r.begin_
      (by omega) (Nat.le_refl _) rfl
      (fun i => by rw [if_neg (by omega)])
      (runsInv_start _ _)
  have hruns := DoubleArrayBuilder.runs_of_inv hruns0 hlt
  generalize hZ : Z0 ++ [(cur, (⟨nb, r.end_, 0⟩ : DoubleArrayKeyRange))] = Z at hruns
  have hzip : (Z0.map Prod.fst ++ [cur]).zip (Z0.map Prod.snd ++ [⟨nb, r.end_, 0⟩]) = Z := by
    rw [DoubleArrayBuilder.zip_snoc, hZ]
  have hlabels : Z0.map Prod.fst ++ [cur] = Z.map Prod.fst := by
    rw [← hZ, List.map_append]; rfl
  have hZne : Z ≠ [] := by
    rw [← hZ]; simp
  have hlab : ∀ x ∈ Z, x.1 < 256 := by
    intro x hx
    obtain ⟨a1, a2, a3, a4⟩ := hruns.run x hx
    rw [← a4 x.2.begin_ (Nat.le_refl _) a2]
    exact hbyte _ a1 (by omega)
  -- the offset
  have hb1 : UnitChanged r.index b { step_base b r with keys := keys } := by
    have hs : ∀ j, (DoubleArrayBuilder.unit { step_base b r with keys := keys } j)
        = (step_base b r).unit j := fun _ => rfl
    refine ⟨?_, ?_, ?_, ?_, ?_, ?_, ?_⟩
    · unfold step_base; split <;> simp
    · unfold step_base; split <;> simp
    · unfold step_base; split <;> simp
    · unfold step_base; split <;> simp
    · intro j hj
      rw [hs]; exact step_base_unit b r j hj
    · rw [hs, step_base_self b r hfix.1]
      split
      · exact DoubleArrayUnit.label_set_is_end _
      · rfl
    · rw [hs, step_base_self b r hfix.1]
      split
      · exact DoubleArrayUnit.wf_set_is_end _ (hinv.wf _)
      · exact hinv.wf _
  have hinv1 := hb1.allocInv hinv hfix
  obtain ⟨o, hfind, ho2, ho3⟩ := DoubleArrayBuilder.find_offset_index_cases
    { step_base b r with keys := keys } hinv1 r.index (Z.map Prod.fst)
    (by intro h0; exact hZne (List.map_eq_nil_iff.1 h0))
    (by
      intro l hl
      obtain ⟨x, hx, rfl⟩ := List.mem_map.1 hl
      exact hlab x hx)
    (by rw [hb1.num]; exact hfix.1) (by rw [hb1.num]; exact hn)
  rw [hb1.first_live, hb1.num, hb1.extra] at ho3
  have ho3 : (256 * b.first_live ≤ o ∧ o < b.num_of_units ∧ (b.extra o).is_used = false ∧
      ∀ l ∈ Z.map Prod.fst, b.Free (o ^^^ l)) ∨ (b.num_of_units ≤ o ∧ o < b.num_of_units + 256) :=
    ho3.imp (fun h => ⟨h.1, h.2.1, h.2.2.1, fun l hl => (hb1.free _).1 (h.2.2.2 l hl)⟩) id
  have hidx29 : r.index < b.num_of_units := hfix.1
  by_cases ho1 : r.index ^^^ o < 2 ^ 29
  swap
  · refine Or.inr ⟨?_, ?_⟩
    · have hset := DoubleArrayUnit.set_offset_error ((step_base b r).unit r.index)
        (r.index ^^^ o) (by omega)
      exact build_trie_step_internal_error b r rest hnl keys (Z0.map Prod.fst ++ [cur])
        (Z0.map Prod.snd) nb o _ (by rw [step_base_keys]; exact hlist)
        (by rw [hlabels]; exact hfind) hset
    · by_contra hc
      have ho29 : o < 2 ^ 29 := by
        rcases ho3 with ⟨_, h2, _, _⟩ | ⟨_, h2⟩ <;> omega
      have hx : r.index ^^^ o < 2 ^ 29 := Nat.xor_lt_two_pow (by omega) ho29
      exact ho1 hx
  refine Or.inl ?_
  -- the unit of the range
  have hwf0 : ((step_base b r).unit r.index).wf := hb1.wf
  have hset := DoubleArrayUnit.set_offset_ok ((step_base b r).unit r.index) (r.index ^^^ o) ho1
  generalize hu : DoubleArrayUnit.set 10 22 ((step_base b r).unit r.index)
    (if r.index ^^^ o < DoubleArrayUnit.OFFSET_MAX then r.index ^^^ o
      else (1 <<< 21) + ((r.index ^^^ o) >>> 8)) = u at hset
  obtain ⟨u1, u2, u3, u4, u5⟩ := DoubleArrayUnit.set_offset_spec hwf0 hset
  have hlabel0 : ((step_base b r).unit r.index).label = (b.unit r.index).label := hb1.label
  obtain ⟨hb2, hself⟩ := step_linked_changed b r keys u hfix.1 u1 (u2.trans hlabel0)
  have hinv2 := hb2.allocInv hinv hfix
  -- the children
  have hnodup : ((Z.reverse).map Prod.fst).Nodup := by
    rw [List.map_reverse, List.nodup_reverse]
    exact hruns.labels.imp (fun h => Nat.ne_of_lt h)
  have hnum256 : b.num_of_units % 256 = 0 := by
    have := DoubleArrayBuilder.num_of_units_eq hinv
    have e : BLOCK_SIZE = 256 := rfl
    rw [this, e]
    exact Nat.mul_mod_right _ _
  obtain ⟨b3, hres, hinv3, hev, hchild, hnum3, hnum3'⟩ := DoubleArrayBuilder.reserve_children_spec
    IsBase o Z.reverse (step_linked b r keys u) rest hinv2 (hb2.usedCovered hc) (hb2.basesUsed hbu)
    hnodup (fun x hx => hlab x (List.mem_reverse.1 hx))
    (by
      rw [hb2.num]
      rcases ho3 with ⟨_, _, _, h4⟩ | ⟨h1, h2⟩
      · left
        refine ⟨fun x hx => ?_, by omega⟩
        rw [hb2.free]
        exact h4 _ (List.mem_map_of_mem _ (List.mem_reverse.1 hx))
      · right
        exact ⟨h1, h2, by omega⟩)
  rw [List.map_reverse, List.reverse_reverse] at hres
  rw [hb2.num] at hnum3 hnum3'
  have hstep := build_trie_step_internal b r rest hnl keys (Z0.map Prod.fst ++ [cur])
    (Z0.map Prod.snd) nb o u b3 _
    (by rw [step_base_keys]; exact hlist)
    (by rw [hlabels]; exact hfind) hset
    (by rw [hzip]; exact hres)
  refine ⟨o, Z, mark_used b3 o, hstep, ?_, ?_, ⟨_, hb1, hinv1, hfind⟩, ?_⟩
  rotate_left
  · have hlist2 : DoubleArrayBuilder.list_labels r.end_ (r.end_ - r.begin_) r.begin_ b.keys
        [(b.keys.getD r.begin_ default).get 0] [] r.begin_
        = (keys, Z0.map Prod.fst ++ [cur], Z0.map Prod.snd, nb) := hlist
    rw [hlist2]
    exact hzip.symm
  · intro ho
    rw [mark_used_num]
    rcases ho3 with ⟨_, _, _, h4⟩ | ⟨h1, _⟩
    · exact hnum3' (fun x hx => by
        rw [hb2.free]
        exact h4 _ (List.mem_map_of_mem _ (List.mem_reverse.1 hx)))
    · omega
  have hnotfixed : ∀ x ∈ Z, ¬ b.Fixed (o ^^^ x.1) := by
    intro x hx hf
    rcases ho3 with ⟨_, _, _, h4⟩ | ⟨h1, h2⟩
    · exact DoubleArrayBuilder.not_fixed_of_free (h4 _ (List.mem_map_of_mem _ hx)) hf
    · have := xor_byte_ge o x.1 _ (hlab x hx) hnum256 h1
      have := hf.1
      omega
  have hnum3_256 : b3.num_of_units % 256 = 0 := by
    have := DoubleArrayBuilder.num_of_units_eq hinv3
    have e : BLOCK_SIZE = 256 := rfl
    rw [this, e]
    exact Nat.mul_mod_right _ _
  obtain ⟨x0, hx0⟩ := List.exists_mem_of_ne_nil Z hZne
  have hnumle : b.num_of_units ≤ b3.num_of_units := by
    have := hev.num_le
    rw [hb2.num] at this
    exact this
  have hlive2 : o < b3.num_of_units :=
    xor_byte_lt' o x0.1 _ (hlab x0 hx0) hnum3_256 (hchild x0 (List.mem_reverse.2 hx0)).1.1
  have hfl : b.first_live ≤ b3.first_live := by
    have := hev.first_live_le
    rw [hb2.first_live] at this
    exact this
  have hlive1 : 256 * b3.first_live ≤ o := by
    have e3 := DoubleArrayBuilder.num_of_units_eq hinv3
    have e0 := DoubleArrayBuilder.num_of_units_eq hinv
    have e : BLOCK_SIZE = 256 := rfl
    rw [e] at e3 e0
    have f3 := DoubleArrayBuilder.first_live_eq b3
    have f0 := DoubleArrayBuilder.first_live_eq b
    unfold DoubleArrayBuilder.num_of_blocks at e3 e0
    rcases ho3 with ⟨h1, h2, h3, h4⟩ | ⟨h1, h2⟩
    · have := hnum3' (fun x hx => by
        rw [hb2.free]
        exact h4 _ (List.mem_map_of_mem _ (List.mem_reverse.1 hx)))
      omega
    · omega
  have hl3 : b3.Live o := hinv3.live o hlive1 hlive2
  have hcov3 := DoubleArrayBuilder.usedCovered_of_evolves hev hinv2 (hb2.usedCovered hc)
  have mf := fun j => mark_used_fixed b3 o j hl3
  refine ⟨hruns, ?_, ?_, ?_, mark_used_allocInv b3 o hinv3 hl3, ?_, ?_, ?_, ?_, ?_, ?_, ?_, ?_, ?_,
    ?_, ?_, ?_, ?_, ?_, ?_⟩
  · rw [mark_used_keys, hev.keys, step_linked_keys]; exact hklen
  · intro i
    rw [mark_used_keys, hev.keys, step_linked_keys]; exact hkeys i
  · rw [mark_used_progress, hev.progress]; exact hb2.progress
  · -- covered
    intro v h1 h2 h3
    rw [mark_used_first_live] at h1
    rw [mark_used_num] at h2
    rw [mark_used_extra b3 o v hl3] at h3
    by_cases hvo : v = o
    · have hch := hchild x0 (List.mem_reverse.2 hx0)
      refine ⟨o ^^^ x0.1, (mf _).2 hch.1, ?_⟩
      rw [mark_used_unit, hch.2, DoubleArrayUnit.label_set_label _ _ DoubleArrayUnit.wf_default
        (hlab x0 hx0), hvo]
      exact xor_xor_cancel_right _ _
    · rw [if_neg hvo] at h3
      obtain ⟨j, hj, hb⟩ := hcov3 v h1 h2 h3
      exact ⟨j, (mf j).2 hj, by rw [mark_used_unit]; exact hb⟩
  · rw [mark_used_num]; exact ⟨hnumle, hnum3⟩
  · rw [mark_used_first_live]; exact hfl
  · intro j hj
    rw [mf]
    exact hev.fixed_mono j ((hb2.fixed j).2 hj)
  · intro j hj hne
    rw [mark_used_unit, hev.unit_fixed j ((hb2.fixed j).2 hj)]
    exact hb2.unit_ne j hne
  · rw [mark_used_unit, hev.unit_fixed _ ((hb2.fixed _).2 hfix), hself, u2]; exact hlabel0
  · rw [mark_used_unit, hev.unit_fixed _ ((hb2.fixed _).2 hfix), hself, u3,
      step_base_self b r hfix.1]
    split
    · exact DoubleArrayUnit.is_leaf_set_is_end _
    · rfl
  · rw [mark_used_unit, hev.unit_fixed _ ((hb2.fixed _).2 hfix), hself, u4,
      step_base_self b r hfix.1]
    split
    · rename_i h0
      rw [DoubleArrayUnit.is_end_set_is_end, decide_eq_true h0, Bool.or_true]
    · rename_i h0
      rw [decide_eq_false h0, Bool.or_false]
  · rw [mark_used_unit, hev.unit_fixed _ ((hb2.fixed _).2 hfix), hself]
    exact u5 ho2
  · rw [mark_used_extra b3 o o hl3, if_pos rfl]
    exact set_is_used_is_used _
  · intro j hjo hj
    rw [mark_used_first_live] at hj
    rw [mark_used_extra b3 o j hl3, if_neg hjo, hev.used j hj, hb2.extra j]
  · intro j h1 h2
    rw [mf] at h1
    rcases hev.newly j h1 (fun hf => h2 ((hb2.fixed j).1 hf)) with ⟨x, hx, hxj⟩ | hd
    · exact Or.inl ⟨x, List.mem_reverse.1 hx, hxj⟩
    · right
      unfold DoubleArrayBuilder.Dead at hd ⊢
      rw [mark_used_first_live, mark_used_unit]
      exact hd
  · intro x hx
    have := hchild x (List.mem_reverse.2 hx)
    rw [mark_used_unit, mf]
    exact ⟨this.1, hnotfixed x hx, this.2⟩
  · rcases ho3 with ⟨h1, h2, h3, _⟩ | ⟨h1, _⟩
    · exact Or.inl ⟨h1, h2, h3⟩
    · exact Or.inr h1
  · rw [mark_used_first_live, mark_used_num]; exact ⟨hlive1, hlive2⟩

end Darts

namespace Darts

/-- One iteration of the loop of `build_trie_subroutine` in an array of at most
`2^29` units: it returns and keeps the invariant, or `set_offset` raises "Too
large offset", which takes an array without room for another block. -/
theorem build_trie_step_cases {K : List DoubleArrayKey} (hK : KeysOK K) {b : DoubleArrayBuilder}
    {r : DoubleArrayKeyRange} {rest : List DoubleArrayKeyRange} (h : TrieInv K b (r :: rest))
    (hn : b.num_of_units ≤ 2 ^ 29) :
    (∃ b2 stack2, b.build_trie_step r rest = .ok (b2, stack2) ∧ TrieInv K b2 stack2 ∧
      b.num_of_units ≤ b2.num_of_units ∧ b2.num_of_units ≤ b.num_of_units + 256 ∧
      b2.num_of_units ≤ 2 ^ 29 ∧
      ∀ q, Done K b2 stack2 q ↔ (Done K b (r :: rest) q ∨ q = range_path K b r)) ∨
    (b.build_trie_step r rest = .error .tooLargeOffset ∧ 2 ^ 29 < b.num_of_units + 256) := by
  have hr : RangeOK K b r := h.range r (List.mem_cons_self _ _)
  by_cases hl : r.index ≠ 0 ∧ r.size = 1
  · obtain ⟨h1, h2⟩ := leaf_step h hl
    refine Or.inl ⟨leaf_state b r, rest, build_trie_step_leaf b r rest hl, h1, ?_, ?_, ?_, h2⟩
    · rw [leaf_state_num]
    · rw [leaf_state_num]; omega
    · rw [leaf_state_num]; exact hn
  · have hb := range_byte hK h hl
    rcases internal_run_cases (IsBaseOf K b (r :: rest)) b r rest hl h.alloc
      h.covered (basesUsed_of_inv h) hr.fixed hr.lt (by rw [h.keys.length]; exact hr.le)
      (by
        intro i j h1 h2 h3
        rw [(hb i h1 (by omega)).1, (hb j (by omega) h3).1]
        exact ext_mono hK h2 ((hr.exact i).1 ⟨h1, by omega⟩) ((hr.exact j).1 ⟨by omega, h3⟩))
      (by
        intro i h1 h2
        rw [(hb i h1 h2).1]
        exact ext_byte_lt hK ((hr.exact i).1 ⟨h1, h2⟩).1 _)
      hn with ⟨o, Z, b3, hstep, hf, _, _, hsame⟩ | herr
    · have hv := step_view hK h hl hf
      refine Or.inl ⟨b3, _, hstep, internal_step hK h hl hf, hf.num_le.1, hf.num_le.2, ?_,
        hv.done_iff⟩
      by_cases ho : o < b.num_of_units
      · rw [hsame ho]; exact hn
      · have hoff : r.index ^^^ o < 2 ^ 29 := by
          rw [← hf.offset]; exact DoubleArrayUnit.offset_lt _
        have hidx : r.index < b.num_of_units := hr.fixed.1
        have ho29 : o < 2 ^ 29 := by
          have e : o = r.index ^^^ (r.index ^^^ o) := by
            rw [← Nat.xor_assoc, Nat.xor_self, Nat.zero_xor]
          rw [e]
          exact Nat.xor_lt_two_pow (by omega) hoff
        have hmod := num_mod_of_alloc h.alloc
        have := hf.num_le.2
        omega
    · exact Or.inr herr

/-- The loop of `build_trie_subroutine`, with fuel for the nodes that are still
to be processed, in an array of at most `2^29` units: it returns and keeps the
invariant, or `set_offset` raises "Too large offset", which takes more than
`2^21 - 2` nodes. -/
theorem build_trie_loop_cases {K : List DoubleArrayKey} (hK : KeysOK K) :
    ∀ (fuel : Nat) (b : DoubleArrayBuilder) (stack : List DoubleArrayKeyRange)
      (D : Finset (List Nat)),
      TrieInv K b stack → (∀ q, q ∈ D ↔ Done K b stack q) →
      DoubleArrayBuilder.trie_fuel K ≤ D.card + fuel → b.num_of_units ≤ 2 ^ 29 →
      b.num_of_units ≤ 256 * (D.card + 1) →
      (∃ bf, DoubleArrayBuilder.build_trie_loop fuel b stack = .ok bf ∧ TrieInv K bf [] ∧
        b.num_of_units ≤ bf.num_of_units ∧ bf.num_of_units ≤ 2 ^ 29 ∧
        ∃ D2 : Finset (List Nat), (∀ q, q ∈ D2 → IsNode K q) ∧
          bf.num_of_units ≤ 256 * (D2.card + 1)) ∨
      (DoubleArrayBuilder.build_trie_loop fuel b stack = .error .tooLargeOffset ∧
        ∃ D2 : Finset (List Nat), (∀ q, q ∈ D2 → IsNode K q) ∧
          2 ^ 29 < 256 * (D2.card + 1) + 256) := by
  intro fuel
  induction fuel with
  | zero =>
    intro b stack D h hD hfuel hn hnum
    have hcard := card_done_le hK D (fun q hq => ((hD q).1 hq).1)
    cases stack with
    | nil =>
      exact Or.inl ⟨b, rfl, h, Nat.le_refl _, hn, D, fun q hq => ((hD q).1 hq).1, hnum⟩
    | cons r rest =>
      exfalso
      have hr := h.range r (List.mem_cons_self _ _)
      have hp : range_path K b r ∉ D := fun hc =>
        not_done_of_pending ⟨r, List.mem_cons_self _ _, rfl⟩ ((hD _).1 hc)
      have := card_done_le hK (insert (range_path K b r) D) (fun q hq => by
        rcases Finset.mem_insert.1 hq with h1 | h1
        · rw [h1]; exact hr.node
        · exact ((hD q).1 h1).1)
      rw [Finset.card_insert_of_not_mem hp] at this
      omega
  | succ fuel ih =>
    intro b stack D h hD hfuel hn hnum
    cases stack with
    | nil =>
      exact Or.inl ⟨b, rfl, h, Nat.le_refl _, hn, D, fun q hq => ((hD q).1 hq).1, hnum⟩
    | cons r rest =>
      have hr := h.range r (List.mem_cons_self _ _)
      have hp : range_path K b r ∉ D := fun hc =>
        not_done_of_pending ⟨r, List.mem_cons_self _ _, rfl⟩ ((hD _).1 hc)
      rcases build_trie_step_cases hK h hn with
        ⟨b2, stack2, hstep, hinv2, hn1, hn2, hn3, hdone⟩ | ⟨herr, hbig⟩
      · rcases ih b2 stack2 (insert (range_path K b r) D) hinv2
          (fun q => by
            rw [Finset.mem_insert, hdone q, hD q]
            constructor
            · rintro (h1 | h1)
              · exact Or.inr h1
              · exact Or.inl h1
            · rintro (h1 | h1)
              · exact Or.inr h1
              · exact Or.inl h1)
          (by rw [Finset.card_insert_of_not_mem hp]; omega) hn3
          (by rw [Finset.card_insert_of_not_mem hp]; omega) with
          ⟨bf, hloop, hinvf, hn4, hn5, hDf⟩ | ⟨hloop, hD2⟩
        · refine Or.inl ⟨bf, ?_, hinvf, by omega, hn5, hDf⟩
          unfold DoubleArrayBuilder.build_trie_loop
          rw [hstep]
          exact hloop
        · refine Or.inr ⟨?_, hD2⟩
          unfold DoubleArrayBuilder.build_trie_loop
          rw [hstep]
          exact hloop
      · refine Or.inr ⟨?_, D, fun q hq => ((hD q).1 hq).1, by omega⟩
        unfold DoubleArrayBuilder.build_trie_loop
        rw [herr]
        rfl

/-- The invariant of the loop holds of every state through which the loop
passes, and the array has at most `2^29` units. -/
theorem loop_states_inv_all {K : List DoubleArrayKey} (hK : KeysOK K) :
    ∀ (fuel : Nat) (b : DoubleArrayBuilder) (stack : List DoubleArrayKeyRange),
      TrieInv K b stack → b.num_of_units ≤ 2 ^ 29 →
      ∀ x ∈ DoubleArrayBuilder.loop_states fuel b stack,
        TrieInv K x.1 x.2 ∧ x.1.num_of_units ≤ 2 ^ 29 := by
  intro fuel
  induction fuel with
  | zero =>
    intro b stack h hn x hx
    cases stack with
    | nil =>
      rw [loop_states_nil] at hx
      rw [List.mem_singleton.1 hx]; exact ⟨h, hn⟩
    | cons r s =>
      have e : DoubleArrayBuilder.loop_states 0 b (r :: s) = [(b, r :: s)] := rfl
      rw [e] at hx
      rw [List.mem_singleton.1 hx]; exact ⟨h, hn⟩
  | succ fuel ih =>
    intro b stack h hn x hx
    cases stack with
    | nil =>
      rw [loop_states_nil] at hx
      rw [List.mem_singleton.1 hx]; exact ⟨h, hn⟩
    | cons r s =>
      rw [loop_states_succ] at hx
      rcases List.mem_cons.1 hx with hx | hx
      · rw [hx]; exact ⟨h, hn⟩
      · rcases build_trie_step_cases hK h hn with
          ⟨b2, stack2, hstep, hinv2, _, _, hn3, _⟩ | ⟨herr, _⟩
        · rw [hstep] at hx
          exact ih b2 stack2 hinv2 hn3 x hx
        · rw [herr] at hx
          cases hx

/-- Method `build_trie` returns with the trie of the keys, or `set_offset`
raises "Too large offset", which takes at least `2^21 - 2` nodes. -/
theorem build_trie_cases {K : List DoubleArrayKey} (hK : KeysOK K) :
    (∃ b, (DoubleArrayBuilder.init K).build_trie = .ok b ∧ TrieOK K b) ∨
      ((DoubleArrayBuilder.init K).build_trie = .error .tooLargeOffset ∧
        ∃ D2 : Finset (List Nat), (∀ q, q ∈ D2 → IsNode K q) ∧
          2 ^ 29 ≤ 256 * (D2.card + 2)) := by
  obtain ⟨b1, b2, u, hb1, hb2, hu, hstart⟩ := start_spec K
  rw [build_trie_eq, hb1, bind_ok, hb2, bind_ok, hu, bind_ok,
    DoubleArrayBuilder.run_subroutine _ K hstart.keys]
  by_cases hK0 : K = []
  · rw [if_pos hK0, bind_ok]
    subst hK0
    obtain ⟨b4, u1, hb4, hu1, hnum, hok, hempty⟩ := finish_empty hstart
    rw [hb4, bind_ok, hu1, bind_ok]
    exact Or.inl ⟨_, rfl, hok⟩
  · rw [if_neg hK0]
    obtain ⟨hinv, hnodone⟩ := start_inv hK hK0 hstart
    rcases build_trie_loop_cases hK (DoubleArrayBuilder.trie_fuel K) _ _ ∅ hinv
      (fun q => ⟨fun hq => absurd hq (Finset.not_mem_empty q), fun hq => absurd hq (hnodone q)⟩)
      (by simp) (by rw [hstart.num]; decide) (by rw [hstart.num]; simp) with
      ⟨b3, hloop, hinv3, _, hn3, Df, hDf1, hDf2⟩ | ⟨hloop, D2, hD1, hD2⟩
    · rw [hloop, bind_ok]
      by_cases hlt : b3.num_of_units < 2 ^ 29
      · obtain ⟨b4, u1, hb4, hu1, hnum, hok⟩ := finish_nonempty hinv3 hK0 hlt
        rw [hb4, bind_ok, hu1, bind_ok]
        exact Or.inl ⟨_, rfl, hok⟩
      · obtain ⟨b4, hb4, hf⟩ := DoubleArrayBuilder.fix_all_blocks_spec b3 hinv3.alloc
          hinv3.covered (by omega)
        have hnum4 : b4.num_of_units = b3.num_of_units := hf.units_length
        have herr := DoubleArrayUnit.set_offset_error (b4.unit 1) b4.num_of_units (by omega)
        rw [hb4, bind_ok, herr]
        exact Or.inr ⟨rfl, Df, hDf1, by omega⟩
    · rw [hloop]
      exact Or.inr ⟨rfl, D2, hD1, by omega⟩

end Darts

namespace Darts

/-- C38: for every list of valid, strictly ascending keys, the loop of
`build_trie_subroutine`, run as `build_trie` runs it (for a list that is not
empty, with the range of all keys at the root on the stack), stops within as
many iterations as the keys have bytes, terminators included, plus one: it
returns, or `set_offset` raises "Too large offset"; the loops inside an
iteration stop as well. Likewise `build_trie` returns, and then no key stands
past its bytes, or raises "Too large offset". In every state of the loop a
key of a range on the stack stands at most one byte past its bytes, and then it
is alone in a range below the root; the step for a single key below the root
moves the key back, marks the leaf and pushes nothing; the step for any other
range replaces the range by the runs of its keys with equal next byte and
advances each key of the range by one byte, unless `set_offset` raises "Too
large offset". -/
theorem build_trie_loop_terminates (K : List DoubleArrayKey) (hK : KeysOK K)
    (b1 b2 : DoubleArrayBuilder) (u : DoubleArrayUnit)
    (h1 : (DoubleArrayBuilder.init K).reserve_index 0 = .ok b1)
    (h2 : b1.reserve_index 1 = .ok b2)
    (h3 : ((mark_used b2 0).unit 0).set_offset 1 = .ok u) :
    ((∃ bf, (if !(trie_start b2 u).keys.isEmpty then (trie_start b2 u).build_trie_subroutine
        else pure (trie_start b2 u)) = .ok bf) ∨
      (if !(trie_start b2 u).keys.isEmpty then (trie_start b2 u).build_trie_subroutine
        else pure (trie_start b2 u)) = .error .tooLargeOffset) ∧
    (K ≠ [] →
      (∃ bf, DoubleArrayBuilder.build_trie_loop (DoubleArrayBuilder.trie_fuel K)
        (trie_start b2 u) [⟨0, K.length, 0⟩] = .ok bf) ∨
      DoubleArrayBuilder.build_trie_loop (DoubleArrayBuilder.trie_fuel K)
        (trie_start b2 u) [⟨0, K.length, 0⟩] = .error .tooLargeOffset) ∧
    ((∃ bt, (DoubleArrayBuilder.init K).build_trie = .ok bt ∧
        ∀ i, i < K.length → 0 ≤ (bt.keys.getD i default).length) ∨
      (DoubleArrayBuilder.init K).build_trie = .error .tooLargeOffset) ∧
    ∀ fuel b r rest, K ≠ [] →
      (b, r :: rest) ∈ DoubleArrayBuilder.loop_states fuel (trie_start b2 u)
        [⟨0, K.length, 0⟩] →
      (∀ r2 ∈ r :: rest, ∀ i, r2.begin_ ≤ i → i < r2.end_ →
        -1 ≤ (b.keys.getD i default).length ∧
          ((b.keys.getD i default).length = -1 → r2.size = 1 ∧ r2.index ≠ 0)) ∧
      (r.index ≠ 0 ∧ r.size = 1 →
        b.build_trie_step r rest = .ok (leaf_state b r, rest) ∧
          (leaf_state b r).keys.getD r.begin_ default
            = { (b.keys.getD r.begin_ default).dec with index := r.index }) ∧
      (¬ (r.index ≠ 0 ∧ r.size = 1) →
        (∃ o Z b3, b.build_trie_step r rest
            = .ok (b3, Z.map (fun x => ({ x.2 with index := o ^^^ x.1 } : DoubleArrayKeyRange))
              ++ rest) ∧
          Runs (fun i => (b.keys.getD i default).get 0) r.begin_ r.end_ Z ∧
          ∀ i, b3.keys.getD i default =
            if r.begin_ ≤ i ∧ i < r.end_ then (b.keys.getD i default).inc
            else b.keys.getD i default) ∨
        b.build_trie_step r rest = .error .tooLargeOffset) := by
  obtain ⟨c1, c2, cu, hc1, hc2, hcu, hstart⟩ := start_spec K
  rw [h1] at hc1
  have e1 := Except.ok.inj hc1
  subst e1
  rw [h2] at hc2
  have e2 := Except.ok.inj hc2
  subst e2
  rw [h3] at hcu
  have e3 := Except.ok.inj hcu
  subst e3
  have hloop : K ≠ [] →
      (∃ bf, DoubleArrayBuilder.build_trie_loop (DoubleArrayBuilder.trie_fuel K)
        (trie_start b2 u) [⟨0, K.length, 0⟩] = .ok bf) ∨
      DoubleArrayBuilder.build_trie_loop (DoubleArrayBuilder.trie_fuel K)
        (trie_start b2 u) [⟨0, K.length, 0⟩] = .error .tooLargeOffset := by
    intro hK0
    obtain ⟨hinv, hnodone⟩ := start_inv hK hK0 hstart
    rcases build_trie_loop_cases hK (DoubleArrayBuilder.trie_fuel K)
      (trie_start b2 u) [⟨0, K.length, 0⟩] ∅ hinv
      (fun q => ⟨fun hq => absurd hq (Finset.not_mem_empty q), fun hq => absurd hq (hnodone q)⟩)
      (by simp) (by rw [hstart.num]; decide) (by rw [hstart.num]; simp) with
      ⟨bf, hbf, _⟩ | ⟨herr, _⟩
    · exact Or.inl ⟨bf, hbf⟩
    · exact Or.inr herr
  refine ⟨?_, hloop, ?_, ?_⟩
  · rw [DoubleArrayBuilder.run_subroutine _ K hstart.keys]
    by_cases hK0 : K = []
    · rw [if_pos hK0]
      exact Or.inl ⟨_, rfl⟩
    · rw [if_neg hK0]
      exact hloop hK0
  · rcases build_trie_cases hK with ⟨bt, hbt, hok⟩ | ⟨herr, _⟩
    · refine Or.inl ⟨bt, hbt, fun i hi => ?_⟩
      obtain ⟨q, hq1, hq2, hq3⟩ := leaf_of_key hK hi
      obtain ⟨_, i2, hp, _, hpos⟩ := hok.leaf q hq1 hq2
      have hii : i = i2 := leaf_key_unique hq2 hq3 hp
      subst hii
      have hle : q.length ≤ (ext_at K i).length := hq3.2.length_le
      have hlen := ext_length hK hi
      have hnn := (hK.wf _ (getD_mem' hi)).1.length_nonneg
      have hsame := (hok.keys.same i hi).2.2
      omega
    · exact Or.inr herr
  · intro fuel b r rest hK0 hmem
    obtain ⟨hinv, hnodone⟩ := start_inv hK hK0 hstart
    obtain ⟨hti, hn⟩ := loop_states_inv_all hK fuel (trie_start b2 u) [⟨0, K.length, 0⟩] hinv
      (by rw [hstart.num]; decide) _ hmem
    have hti2 : TrieInv K b (r :: rest) := hti
    have hn2 : b.num_of_units ≤ 2 ^ 29 := hn
    refine ⟨fun r2 hr2 i hi1 hi2 => range_key_length hK hK0 hti2 r2 hr2 i hi1 hi2, ?_, ?_⟩
    · intro hl
      refine ⟨build_trie_step_leaf b r rest hl, ?_⟩
      have hro := hti2.range r (List.mem_cons_self _ _)
      have hlt : r.begin_ < b.keys.length := by
        rw [hti2.keys.length]
        have := hro.lt
        have := hro.le
        omega
      show (b.keys.set r.begin_ _).getD r.begin_ default = _
      rw [List.getD_eq_getElem _ _ (by rw [List.length_set]; exact hlt), List.getElem_set_self]
    · intro hl
      have hro := hti2.range r (List.mem_cons_self _ _)
      have hb := range_byte hK hti2 hl
      rcases internal_run_cases (IsBaseOf K b (r :: rest)) b r rest hl
        hti2.alloc hti2.covered (basesUsed_of_inv hti2) hro.fixed hro.lt
        (by rw [hti2.keys.length]; exact hro.le)
        (by
          intro i j g1 g2 g3
          rw [(hb i g1 (by omega)).1, (hb j (by omega) g3).1]
          exact ext_mono hK g2 ((hro.exact i).1 ⟨g1, by omega⟩) ((hro.exact j).1 ⟨by omega, g3⟩))
        (by
          intro i g1 g2
          rw [(hb i g1 g2).1]
          exact ext_byte_lt hK ((hro.exact i).1 ⟨g1, g2⟩).1 _)
        hn2 with ⟨o, Z, b3, hstep, hf, _⟩ | ⟨herr, _⟩
      · exact Or.inl ⟨o, Z, b3, hstep, hf.runs, hf.keys⟩
      · exact Or.inr herr

theorem build_trie_loop_terminates_witness :
    ∃ b1 b2 u, (DoubleArrayBuilder.init [⟨[97], 0, 1, 0, 0⟩]).reserve_index 0 = .ok b1 ∧
      b1.reserve_index 1 = .ok b2 ∧ ((mark_used b2 0).unit 0).set_offset 1 = .ok u ∧
      ((∃ bf, (if !(trie_start b2 u).keys.isEmpty then (trie_start b2 u).build_trie_subroutine
          else pure (trie_start b2 u)) = .ok bf) ∨
        (if !(trie_start b2 u).keys.isEmpty then (trie_start b2 u).build_trie_subroutine
          else pure (trie_start b2 u)) = .error .tooLargeOffset) := by
  obtain ⟨_, hok⟩ := collect_ok_inv [[97]] none none (by decide) (fun ls h => by cases h)
    collect_keys_a
  obtain ⟨b1, b2, u, h1, h2, h3, _⟩ := start_spec [⟨[97], 0, 1, 0, 0⟩]
  exact ⟨b1, b2, u, h1, h2, h3,
    (build_trie_loop_terminates [⟨[97], 0, 1, 0, 0⟩] hok b1 b2 u h1 h2 h3).1⟩

end Darts

namespace Darts

theorem lex_irrefl_nat : ∀ l : List Nat, ¬ List.Lex (· < ·) l l := by
  intro l
  induction l with
  | nil => intro h; cases h
  | cons a t ih =>
    intro h
    cases h with
    | cons h2 => exact ih h2
    | rel h2 => exact Nat.lt_irrefl _ h2

section single

variable {ks : List DoubleArrayKey} (hK : KeysOK ks) {k : List Nat}
  (hext : ∀ i, i < ks.length → ext_at ks i = k ++ [0])

include hK hext in
/-- With a single byte string among the keys the root is the only node with
children. -/
theorem single_internal {p : List Nat} (h : Internal ks p) : p = [] := by
  rcases h with h | ⟨i, j, hij, hi, hj⟩
  · exact h
  · exfalso
    have hl := ext_lex hK hij hj.1
    rw [hext i hi.1, hext j hj.1] at hl
    exact lex_irrefl_nat _ hl

include hK hext in
/-- With a single byte string among the keys the trie has at most two nodes. -/
theorem single_nodes (D : Finset (List Nat)) (hD : ∀ q, q ∈ D → IsNode ks q) : D.card ≤ 2 := by
  have hsub : D ⊆ {[], [(k ++ [0]).headD 0]} := by
    intro q hq
    obtain ⟨⟨i, hi, hpre⟩, hint⟩ := hD q hq
    have hdl := single_internal hK hext hint
    rw [Finset.mem_insert, Finset.mem_singleton]
    cases q with
    | nil => exact Or.inl rfl
    | cons c t =>
      right
      cases t with
      | nil =>
        rw [hext i hi] at hpre
        obtain ⟨t2, ht2⟩ := hpre
        rw [← ht2]
        rfl
      | cons c2 t2 => simp [List.dropLast] at hdl
  exact Nat.le_trans (Finset.card_le_card hsub) Finset.card_le_two

include hK hext in
theorem single_length : ks.length ≤ 1 := by
  by_contra hc
  have hl := ext_lex hK (show 0 < 1 by decide) (show 1 < ks.length by omega)
  rw [hext 0 (by omega), hext 1 (by omega)] at hl
  exact lex_irrefl_nat _ hl

include hK hext in
/-- The leaf of a single key is the child of the root: its tail string is the
key with its terminator. -/
theorem single_leaf {q : List Nat} {i : Nat} (hq : IsNode ks q) (hp : Pre ks q i) :
    ((ext_at ks i).drop (q.length - 1)).length = k.length + 1 := by
  have hdl := single_internal hK hext hq.2
  have hlen : q.length - 1 = 0 := by
    have := congrArg List.length hdl
    rw [List.length_dropLast] at this
    exact this
  rw [hlen, List.drop_zero, hext i hp.1, List.length_append, List.length_singleton]

end single

/-- The keys that `build` keeps of a single key. -/
theorem collect_single (k : List Nat) (hv : ValidKey k) :
    ∃ ks, DoubleArrayBase.collect_keys none none [k] 0 [] = .ok ks ∧ KeysOK ks ∧
      ks.length = 1 ∧ ∀ i, i < ks.length → ext_at ks i = k ++ [0] := by
  have hv2 : ∀ x ∈ [k], ValidKey x := by
    intro x hx
    rw [List.mem_singleton.1 hx]; exact hv
  have hL : ∀ ls, (none : Option (List Nat)) = some ls → ∀ i, i < [k].length →
      ls.getD i 0 = ([k].getD i []).length := fun ls h => by cases h
  obtain ⟨ks, hks, hc⟩ := collect_keys_ok none none [k] hv2 hL
    (fun j hj => absurd hj (by simp)) 1 0 [] rfl (collected_nil _ _)
  have hks2 : DoubleArrayBase.collect_keys none none [k] 0 [] = .ok ks := hks
  obtain ⟨_, hok⟩ := collect_ok_inv [k] none none hv2 hL hks2
  have hext : ∀ i, i < ks.length → ext_at ks i = k ++ [0] := by
    intro i hi
    rw [ext_of_collected hc hi]
    obtain ⟨_, _, _, _, i0, hi0, h5, _⟩ := hc.entry _ (getD_mem' hi)
    rw [h5]
    have : i0 = 0 := by
      have : i0 < 1 := hi0
      omega
    rw [this]
    rfl
  have hle := single_length hok hext
  obtain ⟨e, he, _⟩ := hc.complete 0 (Nat.zero_lt_succ 0)
  have hpos : 0 < ks.length := List.length_pos_of_mem he
  exact ⟨ks, hks2, hok, by omega, hext⟩

namespace DoubleArrayBuilder

/-- Method `arrange_suffixes` returns for a single key of any length: the link
of its leaf is 0. -/
theorem arrange_single (b : DoubleArrayBuilder) (key : DoubleArrayKey) (hk : b.keys = [key]) :
    ∃ bf, arrange_suffixes 3 b = .ok bf := by
  have hne : b.keys ≠ [] := by rw [hk]; simp
  rw [arrange_suffixes_eq b hne, hk]
  have hs : sort_keys [key] = [key] := rfl
  rw [hs, arrange_suffixes_loop_eq0]
  have hl : suffix_base none [] key 0 - key.length.toNat - 1 = 0 := by
    have hf : suffix_fresh none [] key = true := rfl
    unfold suffix_base
    rw [if_pos hf]
    simp only [List.length_nil]
    omega
  rw [hl]
  obtain ⟨u, hu⟩ := DoubleArrayUnit.set_link_ok
    ((suffix_pre none [] key
      (DoubleArrayBuilder.mk [key] b.units b.extras b.unfixed_index b.num_of_unused_indices
        (4 * b.num_of_units) b.progress)).unit key.index) 0 (by decide)
  rw [hu, bind_ok]
  split
  · exact ⟨_, rfl⟩
  · exact ⟨_, rfl⟩

end DoubleArrayBuilder

/-- Method `build` returns a dictionary for a single key of any length. -/
theorem build_single_total (k : List Nat) (hv : ValidKey k) :
    ∃ da, DoubleArrayBase.build 3 1 (some [k]) none none = .ok da := by
  obtain ⟨ks, hks, hok, hlen, hext⟩ := collect_single k hv
  rcases build_trie_cases hok with ⟨b, hb, htrie⟩ | ⟨_, D2, hD1, hD2⟩
  · have hbl : b.keys.length = 1 := by rw [htrie.keys.length, hlen]
    obtain ⟨key, hkey⟩ := List.length_eq_one.1 hbl
    obtain ⟨bf, hbf⟩ := DoubleArrayBuilder.arrange_single b key hkey
    have hU : DoubleArrayBuilder.build 3 ks = .ok bf.units := by
      rw [DoubleArrayBuilder.build_eq, hb, bind_ok, hbf, bind_ok]
    exact ⟨_, DoubleArrayBase.build_eq_of_build_ok 3 [k] none none ks bf.units hks hU⟩
  · exfalso
    have := single_nodes hok hext D2 hD1
    omega

/-- In the dictionary of a single key of at least `2^28` bytes, `traverse`
raises "Too large link address" for the key. -/
theorem traverse_single_raises (k : List Nat) (hv : ValidKey k) (hlen : 2 ^ 28 ≤ k.length) :
    ∃ da, DoubleArrayBase.build 3 1 (some [k]) none none = .ok da ∧
      DoubleArrayBase.traverse 3 da k 0 0 k.length = some (.error .tooLargeLink) := by
  obtain ⟨da, hda⟩ := build_single_total k hv
  have hv2 : ∀ x ∈ [k], ValidKey x := by
    intro x hx
    rw [List.mem_singleton.1 hx]; exact hv
  have hL : ∀ ls, (none : Option (List Nat)) = some ls → ∀ i, i < [k].length →
      ls.getD i 0 = ([k].getD i []).length := fun ls h => by cases h
  have hvals : ∀ vs, (none : Option (List Int)) = some vs → ∀ v ∈ vs, Int32 v :=
    fun vs h => by cases h
  have hda2 : DoubleArrayBase.build 3 [k].length (some [k]) none none = .ok da := hda
  have hfirst : ∀ m, m < 0 → [k].getD m [] ≠ [k].getD 0 [] :=
    fun m hm => absurd hm (Nat.not_lt_zero _)
  refine ⟨da, hda, ?_⟩
  have hr := traverse_build_raises [k] none none hv2 hL hvals da hda2 0 (Nat.zero_lt_succ 0)
    hfirst ?_
  · exact hr
  · obtain ⟨ks2, n, m, hks2, hok, _, hd, _, _, _, _, _, hm, hext, _⟩ :=
      traverse_setup [k] none none hv2 hL hvals da hda2 0 (Nat.zero_lt_succ 0) hfirst
    obtain ⟨ks, hks, _, _, hextall⟩ := collect_single k hv
    have hkk : ks2 = ks := by
      rw [hks2] at hks
      exact Except.ok.inj hks
    subst hkk
    obtain ⟨q, hq1, hq2, hq3⟩ := leaf_of_key hok hm
    have hte := tail_end_leaf hok hd m hm _ hext q hq1 hq2 hq3
    rw [single_leaf hok hextall hq1 hq3] at hte
    have hte2 : da.tail_end k = (da.units.getD (walk da.units q) default).link 3
        + (k.length + 1) := hte
    show 2 ^ 28 < da.tail_end k
    rw [hte2]
    omega

theorem collect_keys_minus_two :
    DoubleArrayBase.collect_keys none (some [-2]) [[97]] 0 [] = .ok [⟨[97], 0, 1, 0, -2⟩] := rfl

/-- C4 (counterexample): in the dictionary built from the key `"a"` with the
value -2, the first call `traverse("a", node_pos = 0, key_pos = 0, length 1)`
returns -2, the value of the key; and in the dictionary built from the single
key of `2^28` bytes `"aa...a"`, the call of `traverse` for the key with its
length raises "Too large link address" and returns no value. -/
theorem traverse_two_calls_counterexample :
    (∃ da np, DoubleArrayBase.build 3 [[97]].length (some [[97]]) none (some [-2]) = .ok da ∧
      DoubleArrayBase.traverse 3 da [97] 0 0 1 = some (.ok (-2, np, 1))) ∧
    ∃ da, DoubleArrayBase.build 3 1 (some [List.replicate (2 ^ 28) 97]) none none = .ok da ∧
      DoubleArrayBase.traverse 3 da (List.replicate (2 ^ 28) 97) 0 0 (2 ^ 28)
        = some (.error .tooLargeLink) := by
  constructor
  · have hv : ∀ k ∈ [[97]], ValidKey k := by decide
    have hvals : ∀ vs, some [(-2 : Int)] = some vs → ∀ v ∈ vs, Int32 v := by
      intro vs hvs v hv2
      injection hvs with hvs
      rw [← hvs] at hv2
      rw [List.mem_singleton.1 hv2]
      exact ⟨by decide, by decide⟩
    obtain ⟨da, hda⟩ := build_ok_total [[97]] none (some [-2]) hv (fun ls h => by cases h)
      _ collect_keys_minus_two (by decide)
    have htail := tail_end_small [[97]] none (some [-2]) hv (fun ls h => by cases h) hvals
      _ collect_keys_minus_two (by decide) da hda 0 (by decide)
      (fun m hm => absurd hm (Nat.not_lt_zero _))
    obtain ⟨np, h1, _⟩ := traverse_build [[97]] none (some [-2]) hv (fun ls h => by cases h)
      hvals da hda 0 (by decide)
      (fun m hm => absurd hm (Nat.not_lt_zero _)) htail 1 (by decide) (by decide)
    exact ⟨da, np, hda, h1⟩
  · have hv : ValidKey (List.replicate (2 ^ 28) 97) := by
      intro c hc
      rw [List.eq_of_mem_replicate hc]
      exact ⟨by decide, by decide⟩
    have hlen : (List.replicate (2 ^ 28) 97).length = 2 ^ 28 := List.length_replicate _ _
    obtain ⟨da, hda, ht⟩ := traverse_single_raises (List.replicate (2 ^ 28) 97) hv
      (Nat.le_of_eq hlen.symm)
    rw [hlen] at ht
    exact ⟨da, hda, ht⟩

end Darts
